import Mathlib

/-! SDI4FS: block map, log allocator, recovery and directories

A shallow embedding of the log-structured core of `FS.cc`: the block map
(`bmap`), the circular log writer (`gc`, `saveBlock`), the block id allocator
(`getNextBlockID`), `freeBlock`, the recovery of the block map at mount time
(`reconstructBMap`) and the directory operations `mkdir`, `rmdir` and `ls`.

Conventions of the embedding

* `uint32_t` values are natural numbers; every `++` / `--` / `+` that the code
  performs on a 32-bit field is reduced modulo `2^32` explicitly.
* An access that the C++ code performs outside of an array or outside of the
  log region of the device has no defined result; the embedding returns `none`
  for it.  `some` therefore always stands for a run of the original code that
  stays inside its buffers.
* The log is a list of slots, slot `p` (1-based, as in `write_ptr`) is the
  list element `p - 1`.  A slot stores the block header (`id`,
  `lastWriteTime`) and the decoded remainder of the 4096-byte block.
-/

namespace SDI4FS

/-- A hardlink record of `Hardlink.h`: a name and the id of the target INode. -/
structure Hardlink where
  linkName : List Char
  targetINodeBlockID : Nat
deriving DecidableEq, Repr

/-- What a block stores behind its headers: a table of (target id, name) slots,
a table of block ids, or raw bytes. -/
inductive Payload where
  | links (l : List Hardlink)
  | ids (l : List Nat)
  | bytes (l : List Nat)
deriving DecidableEq, Repr

/-- The part of a block behind the 8-byte `Block` header.  INodes carry the
fields written by `INode::save`; `DirectoryEntryList`, `DataBlockList` and
`DataBlock` carry only their payload. -/
inductive Body where
  | inode (creationTime size_b type : Nat) (inlined : Bool) (linkCounter : Nat)
      (payload : Payload)
  | plain (payload : Payload)
deriving DecidableEq, Repr

/-- A block as it sits in a log slot (and the `Block` base class in memory):
`id`, `lastWriteTime` and the body. -/
structure Block where
  id : Nat
  lastWriteTime : Nat
  body : Body
deriving DecidableEq, Repr

/-- The fields of `class FS` that the allocator works on, together with the log
region of the device. -/
structure FS where
  logSize : Nat
  write_ptr : Nat
  nextBlockID : Nat
  usedBlocks : Nat
  bmap : List Nat
  log : List Block
deriving DecidableEq, Repr

/-- The index `id - 1` computed in `uint32_t` arithmetic (`0 - 1` wraps). -/
def idx (id : Nat) : Nat := if id = 0 then 4294967295 else id - 1

/-- Reading the entry `bmap[id - 1]`. -/
def bmapAt (s : FS) (id : Nat) : Option Nat := s.bmap[idx id]?

/-- Reading the first four bytes (the block id) of log slot `p`, as done after
`dev.seekg(logStart_bptr + ((p - 1) * SDI4FS_BLOCK_SIZE))`. -/
def slotId (s : FS) (p : Nat) : Option Nat :=
  if p = 0 then none else s.log[p - 1]?.map Block.id

/-- Operation `write32(dev, 0)` at the start of log slot `p`: only the id field of the
slot is overwritten. -/
def zeroSlotId (s : FS) (p : Nat) : FS :=
  { s with log := s.log.modify (fun b => { b with id := 0 }) (p - 1) }

/-- Circular advance `++write_ptr; if (write_ptr > logSize) write_ptr = 1;`. -/
def advance (logSize p : Nat) : Nat :=
  if (p + 1) % 4294967296 > logSize then 1 else (p + 1) % 4294967296

/-- The `for` loop of `FS::gc` with `n` iterations left.  The result is the value
of `result` after the loop (0 when the loop ran out) and the state. -/
def gcLoop : Nat → FS → Option (Nat × FS)
  | 0, s => some (0, s)
  | n + 1, s =>
    match slotId s s.write_ptr with
    | none => none
    | some id =>
      if id = 0 then some (s.write_ptr, s)
      else
        match bmapAt s id with
        | none => none
        | some a =>
          if a ≠ s.write_ptr then gcLoop n (zeroSlotId s s.write_ptr)
          else gcLoop n { s with write_ptr := advance s.logSize s.write_ptr }

/-- Function `FS::gc`: the full-check followed by the bounded search. -/
def gc (s : FS) : Option (Nat × FS) :=
  if s.usedBlocks = s.logSize then some (0, s) else gcLoop s.logSize s

/-- The `for` loop of `FS::getNextBlockID`, at loop counter `i` with `n`
iterations left. -/
def getNextBlockIDLoop (s : FS) : Nat → Nat → Option (Nat × FS)
  | 0, _ => some (0, s)
  | n + 1, i =>
    let bmapIndex0 := (s.nextBlockID + i) % 4294967296
    let bmapIndex := if bmapIndex0 > s.logSize then bmapIndex0 - s.logSize else bmapIndex0
    match bmapAt s bmapIndex with
    | none => none
    | some a =>
      if a = 0 then
        let next0 := (bmapIndex + 1) % 4294967296
        let next := if next0 > s.logSize then next0 - s.logSize else next0
        some (bmapIndex, { s with nextBlockID := next })
      else getNextBlockIDLoop s n (i + 1)

/-- Function `FS::getNextBlockID`. -/
def getNextBlockID (s : FS) : Option (Nat × FS) :=
  if s.usedBlocks = s.logSize then some (0, s) else getNextBlockIDLoop s s.logSize 0

/-- Function `FS::saveBlock`; `now` is the value that `now()` returns inside
`Block::save`. -/
def saveBlock (s : FS) (block : Block) (now : Nat) : Option FS :=
  match gc s with
  | none => none
  | some (log_ptr, s1) =>
    if log_ptr = 0 then some s1
    else if log_ptr - 1 < s1.log.length then
      let s2 := { s1 with log := s1.log.set (log_ptr - 1) { block with lastWriteTime := now } }
      match bmapAt s2 block.id with
      | none => none
      | some a =>
        some { s2 with
          usedBlocks := if a = 0 then (s2.usedBlocks + 1) % 4294967296 else s2.usedBlocks
          bmap := s2.bmap.set (idx block.id) log_ptr
          write_ptr := advance s2.logSize s2.write_ptr }
    else none

/-- Function `FS::freeBlock`. -/
def freeBlock (s : FS) (id : Nat) : Option FS :=
  if id = 0 then some s
  else if id = 1 then some s
  else if id - 1 < s.bmap.length then
    some { s with
      bmap := s.bmap.set (id - 1) 0
      usedBlocks := (s.usedBlocks + 4294967295) % 4294967296 }
  else none

/-- The number of nonzero entries of a block map. -/
def countNZ (bmap : List Nat) : Nat := bmap.countP (fun a => a ≠ 0)

/-- The circular order `start, start + 1, ..., logSize, 1, ...` of block ids: the
id at offset `j` from `start`. -/
def circId (logSize start j : Nat) : Nat :=
  if start + j > logSize then start + j - logSize else start + j

/-! ### Directories -/

/-- Modelled from the spec: the limits of `Constants.inc`, which is not part of
the sources.  The spec leaves these values to the implementation. -/
structure Constants where
  MAGIC : Nat
  HEADER_SIZE : Nat
  FS_MIN_SIZE : Nat
  FS_MAX_SIZE : Nat
  MAX_HARDLINKS_PER_DIR : Nat
  MAX_LINKS_PER_DIRENTRYLIST : Nat
  MAX_DIRENTRYLISTS_PER_DIR : Nat
  MAX_BYTES_PER_INODE : Nat
  MAX_BYTES_PER_DATABLOCK : Nat
  MAX_DATABLOCKS_PER_DATABLOCKLIST : Nat
  MAX_DATABLOCKLISTS_PER_FILE : Nat
  MAX_DATABLOCKS_PER_FILE : Nat
  MAX_FILE_SIZE : Nat
deriving DecidableEq, Repr

/-- Modelled from the spec: `SDI4FS_MAX_NUMBER_OF_LINKS_TO_INODE` is `2^16 - 1`. -/
def MAX_NUMBER_OF_LINKS_TO_INODE : Nat := 65535

/-- Modelled from the spec: `SDI4FS_MAX_LINK_NAME_LENGTH` is 28 (terminator included). -/
def MAX_LINK_NAME_LENGTH : Nat := 28

/-- Modelled from the spec: INode type code of a directory. -/
def INODE_TYPE_DIR : Nat := 1

/-- Modelled from the spec: INode type code of a regular file. -/
def INODE_TYPE_REGULARFILE : Nat := 2

/-- The members of `class INode` (those of the `Block` base class included). -/
structure INode where
  id : Nat
  lastWriteTime : Nat
  creationTime : Nat
  size_b : Nat
  type : Nat
  inlined : Bool
  linkCounter : Nat
deriving DecidableEq, Repr

/-- Object of `class DirectoryINode`. -/
structure DirectoryINode extends INode where
  entries : List Hardlink
  dirEntryListIDs : List Nat
deriving DecidableEq, Repr

/-- Object of `class DirectoryEntryList`. -/
structure DirectoryEntryList where
  id : Nat
  lastWriteTime : Nat
  entries : List Hardlink
deriving DecidableEq, Repr

/-- Object of `class Directory`. -/
structure Directory where
  inode : DirectoryINode
  childCount : Nat
  entryLists : List DirectoryEntryList
deriving DecidableEq, Repr

/-- The name that a 28-byte name field holds after `strncpy` and
`cname[27] = 0`, read back as a C string: the characters before the first NUL,
at most 27 of them. -/
def storedName (name : List Char) : List Char :=
  (name.takeWhile (fun ch => ch ≠ Char.ofNat 0)).take (MAX_LINK_NAME_LENGTH - 1)

/-- The entries that the reader loop over the `n` (target id, name) slots of a
block recovers: slots with id zero are skipped. -/
def readLinks (n : Nat) (l : List Hardlink) : List Hardlink :=
  ((l.take n).filter (fun h => h.targetINodeBlockID ≠ 0)).map
    (fun h => { h with linkName := storedName h.linkName })

/-- The ids that the reader loop over a table of `n` block ids recovers. -/
def readIds (n : Nat) (l : List Nat) : List Nat := (l.take n).filter (fun i => i ≠ 0)

/-- The names and ids as written by the entry loop of `DirectoryINode::save` and
`DirectoryEntryList::save`. -/
def writeLinks (l : List Hardlink) : List Hardlink :=
  l.map (fun h => { h with linkName := storedName h.linkName })

/-- Method `INode::save` followed by `DirectoryINode::save`, as a log block. -/
def DirectoryINode.toBlock (n : DirectoryINode) : Block :=
  { id := n.id, lastWriteTime := n.lastWriteTime,
    body := .inode n.creationTime n.size_b (n.type % 16) n.inlined n.linkCounter
      (if n.inlined then .links (writeLinks n.entries) else .ids n.dirEntryListIDs) }

/-- Method `DirectoryEntryList::save`, as a log block. -/
def DirectoryEntryList.toBlock (l : DirectoryEntryList) : Block :=
  { id := l.id, lastWriteTime := l.lastWriteTime, body := .plain (.links (writeLinks l.entries)) }

/-- Function `FS::lookupBlockAddress`. -/
def lookupBlockAddress (s : FS) (id : Nat) : Option Nat :=
  if id = 0 ∨ id > s.logSize then some 0 else s.bmap[id - 1]?

/-- The block found after `dev.seekg(logStart_bptr + ((logPtr - 1) * SDI4FS_BLOCK_SIZE))`. -/
def readSlot (s : FS) (logPtr : Nat) : Option Block :=
  if logPtr = 0 then none else s.log[logPtr - 1]?

/-- The common start of `peekINodeType` and of the `load...` functions:
`lookupBlockAddress`, the check `logPtr == 0 || logPtr > logSize` and the seek to the
slot.  The inner `none` stands for the failed check. -/
def fetchBlock (s : FS) (id : Nat) : Option (Option Block) :=
  match lookupBlockAddress s id with
  | none => none
  | some logPtr =>
    if logPtr = 0 ∨ logPtr > s.logSize then some none
    else
      match readSlot s logPtr with
      | none => none
      | some b => some (some b)

/-- Function `FS::peekINodeType`.  The byte at offset 16 is defined by the embedding
only for slots that hold an INode. -/
def peekINodeType (s : FS) (id : Nat) : Option Nat :=
  if id = 0 then some 0
  else
    match fetchBlock s id with
    | none => none
    | some none => some 0
    | some (some ⟨_, _, .inode _ _ type _ _ _⟩) => some type
    | some (some ⟨_, _, .plain _⟩) => none

/-- Function `FS::loadDirEntryList`; the inner `none` is the null pointer. -/
def loadDirEntryList (c : Constants) (s : FS) (id : Nat) :
    Option (Option DirectoryEntryList) :=
  match fetchBlock s id with
  | none => none
  | some none => some none
  | some (some b) =>
    if b.id ≠ id then some none
    else
      match b.body with
      | .plain (.links l) =>
        some (some ⟨b.id, b.lastWriteTime, readLinks c.MAX_LINKS_PER_DIRENTRYLIST l⟩)
      | _ => none

/-- The loop of `FS::loadDirectory` over the requested entry list ids; the inner
`none` stands for the early `return nullptr`. -/
def loadDirEntryLists (c : Constants) (s : FS) :
    List Nat → Option (Option (List DirectoryEntryList))
  | [] => some (some [])
  | id :: rest =>
    match loadDirEntryList c s id with
    | none => none
    | some none => some none
    | some (some l) =>
      match loadDirEntryLists c s rest with
      | none => none
      | some none => some none
      | some (some ls) => some (some (l :: ls))

/-- Function `FS::loadDirectory` with the constructor `Directory(blockCreator, primary,
entryListIDs)` and `Directory::init`.  The member `childCount` is not initialised on
the non-inlined path before `init` adds to it; `uninit` is the value it holds. -/
def loadDirectory (c : Constants) (uninit : Nat) (s : FS) (id : Nat) :
    Option (Option Directory) :=
  match fetchBlock s id with
  | none => none
  | some none => some none
  | some (some b) =>
    if b.id ≠ id then some none
    else
      match b.body with
      | .inode creationTime size_b type inlined linkCounter payload =>
        if type ≠ INODE_TYPE_DIR then some none
        else
          let hdr : INode := ⟨b.id, b.lastWriteTime, creationTime, size_b, type, inlined,
            linkCounter⟩
          match inlined, payload with
          | true, .links l =>
            let entries := readLinks c.MAX_LINKS_PER_DIRENTRYLIST l
            some (some ⟨⟨hdr, entries, []⟩, entries.length, []⟩)
          | false, .ids l =>
            let ids := readIds c.MAX_DIRENTRYLISTS_PER_DIR l
            match loadDirEntryLists c s ids with
            | none => none
            | some none => some none
            | some (some lists) =>
              some (some ⟨⟨hdr, [], ids⟩,
                (lists.foldl (fun n l => (n + l.entries.length) % 4294967296) uninit),
                lists⟩)
          | _, _ => none
      | .plain _ => none

/-- Method `DirectoryINode::findLink` (with `DirectoryEntryList::findLink`): the first
entry with the given name. -/
def findLink (entries : List Hardlink) (linkName : List Char) : Option Hardlink :=
  entries.find? (fun h => h.linkName = linkName)

/-- Method `DirectoryINode::removeLink` (with `DirectoryEntryList::removeLink`): erase
the first entry with the given name. -/
def removeLink (entries : List Hardlink) (linkName : List Char) : List Hardlink :=
  match entries with
  | [] => []
  | h :: t => if h.linkName = linkName then t else h :: removeLink t linkName

/-- The search over the entry lists in `Directory::searchHardlink`. -/
def searchLists (lists : List DirectoryEntryList) (name : List Char) : Nat :=
  match lists with
  | [] => 0
  | l :: rest =>
    match findLink l.entries name with
    | some h => h.targetINodeBlockID
    | none => searchLists rest name

/-- Method `Directory::searchHardlink`. -/
def Directory.searchHardlink (d : Directory) (name : List Char) : Nat :=
  if name = [] ∨ '/' ∈ name then 0
  else if d.inode.inlined then
    match findLink d.inode.entries name with
    | none => 0
    | some h => h.targetINodeBlockID
  else searchLists d.entryLists name

/-- Pointers that `addHardlink` / `rmHardlink` put into `changedBlocks`: the link
target, the primary INode of the directory, or the entry list at a position of
`entryLists`. -/
inductive Ref where
  | target
  | primary
  | list (i : Nat)
deriving DecidableEq, Repr

/-- Callback `DirEntryListAllocator::alloc`; the inner `none` is `NULL`. -/
def allocDirEntryList (s : FS) : Option (FS × Option DirectoryEntryList) :=
  if (s.usedBlocks + 1) % 4294967296 > s.logSize then some (s, none)
  else
    match getNextBlockID s with
    | none => none
    | some (id, s') => some (s', some ⟨id, 0, []⟩)

/-- Method `DirectoryINode::convertToNonInline` for an inlined INode and an empty
list: the primary INode and the list afterwards. -/
def convertToNonInline (c : Constants) (n : DirectoryINode) (entryList : DirectoryEntryList) :
    DirectoryINode × DirectoryEntryList :=
  if n.entries.length ≤ c.MAX_LINKS_PER_DIRENTRYLIST then
    ({ n with entries := [], inlined := false,
              dirEntryListIDs := n.dirEntryListIDs ++ [entryList.id] },
     { entryList with entries := n.entries })
  else
    (n, { entryList with entries := n.entries.take c.MAX_LINKS_PER_DIRENTRYLIST })

/-- The loop of `Directory::addHardlink` over the existing entry lists: the position
of the first list that accepts the link, and the lists afterwards. -/
def addToLists (c : Constants) (link : Hardlink) :
    List DirectoryEntryList → Nat → Option (Nat × List DirectoryEntryList)
  | [], _ => none
  | l :: rest, i =>
    if l.entries.length ≥ c.MAX_LINKS_PER_DIRENTRYLIST then
      match addToLists c link rest (i + 1) with
      | none => none
      | some (k, rest') => some (k, l :: rest')
    else some (i, { l with entries := l.entries ++ [link] } :: rest)

/-- Method `DirectoryINode::addDirEntryList`. -/
def addDirEntryList (c : Constants) (n : DirectoryINode) (blockID : Nat) : DirectoryINode :=
  if n.inlined then n
  else if n.dirEntryListIDs.length = c.MAX_DIRENTRYLISTS_PER_DIR then n
  else { n with dirEntryListIDs := n.dirEntryListIDs ++ [blockID] }

/-- Method `INode::decrementLinkCounter` on the 16-bit counter. -/
def decrementLinkCounter (t : INode) : INode :=
  { t with linkCounter := (t.linkCounter + 65535) % 65536 }

/-- The second half of `Directory::addHardlink` (`if (!successInline)`): store the
link in an existing list or in a freshly allocated one, then `++childCount`. -/
def addHardlinkLists (c : Constants) (s : FS) (d : Directory) (target : INode) (link : Hardlink)
    (changedBlocks : List Ref) : Option (FS × Directory × INode × List Ref) :=
  match addToLists c link d.entryLists 0 with
  | some (k, lists) =>
    some (s, { d with entryLists := lists, childCount := (d.childCount + 1) % 4294967296 },
      target, changedBlocks ++ [.list k])
  | none =>
    match allocDirEntryList s with
    | none => none
    | some (s1, none) => some (s1, d, decrementLinkCounter target, changedBlocks)
    | some (s1, some newDirEntryList) =>
      let newList : DirectoryEntryList :=
        if newDirEntryList.entries.length ≥ c.MAX_LINKS_PER_DIRENTRYLIST then newDirEntryList
        else { newDirEntryList with entries := newDirEntryList.entries ++ [link] }
      some (s1,
        { d with
          entryLists := d.entryLists ++ [newList]
          inode := addDirEntryList c d.inode newList.id
          childCount := (d.childCount + 1) % 4294967296 },
        target, changedBlocks ++ [.primary, .list d.entryLists.length])

/-- Method `Directory::addHardlink`.  The result carries the state of the allocator,
the directory, the target INode and the returned list `changedBlocks`. -/
def Directory.addHardlink (c : Constants) (s : FS) (d : Directory) (target : INode)
    (name : List Char) : Option (FS × Directory × INode × List Ref) :=
  if d.searchHardlink name ≠ 0 then some (s, d, target, [])
  else if d.childCount = c.MAX_HARDLINKS_PER_DIR then some (s, d, target, [])
  else if target.linkCounter = MAX_NUMBER_OF_LINKS_TO_INODE then some (s, d, target, [])
  else
    let target1 : INode := { target with linkCounter := target.linkCounter + 1 }
    let link : Hardlink := ⟨name, target.id⟩
    if d.inode.inlined then
      if d.inode.entries.length < c.MAX_LINKS_PER_DIRENTRYLIST then
        some (s,
          { d with
            inode := { d.inode with entries := d.inode.entries ++ [link] }
            childCount := (d.childCount + 1) % 4294967296 },
          target1, [.target, .primary])
      else
        match allocDirEntryList s with
        | none => none
        | some (s1, none) => some (s1, d, decrementLinkCounter target1, [.target])
        | some (s1, some newDirEntryList) =>
          let (inode1, list1) := convertToNonInline c d.inode newDirEntryList
          addHardlinkLists c s1
            { d with inode := inode1, entryLists := d.entryLists ++ [list1] }
            target1 link [.target, .primary, .list d.entryLists.length]
    else addHardlinkLists c s d target1 link [.target]

/-- The loop of `Directory::rmHardlink` over the entry lists, at position `i`.  The
result is the position of the list that held the link, whether that list became
empty, and the lists with the link removed (an emptied list is still present). -/
def rmFromLists (name : List Char) :
    List DirectoryEntryList → Nat → Option (Nat × Bool × List DirectoryEntryList)
  | [], _ => none
  | l :: rest, i =>
    match findLink l.entries name with
    | some _ =>
      let l' : DirectoryEntryList := { l with entries := removeLink l.entries name }
      some (i, l'.entries.length = 0, l' :: rest)
    | none =>
      match rmFromLists name rest (i + 1) with
      | none => none
      | some (k, e, rest') => some (k, e, l :: rest')

/-- Method `DirectoryINode::removeDirEntryList`: erase the first occurrence of the id. -/
def removeDirEntryList (n : DirectoryINode) (blockID : Nat) : DirectoryINode :=
  if n.inlined then n else { n with dirEntryListIDs := n.dirEntryListIDs.erase blockID }

/-- Method `Directory::rmHardlink`.  When the removal empties an entry list, the code
calls `blockCreator->dealloc(*iter)`, which frees the id and deletes the list object,
and then evaluates `(*iter)->getId()` on the deleted object (Directory.cc 203-204): that
read has no defined result. -/
def Directory.rmHardlink (s : FS) (d : Directory) (target : INode) (name : List Char) :
    Option (FS × Directory × INode × List Ref) :=
  if name = [] ∨ '/' ∈ name then some (s, d, target, [])
  else
    let target1 := decrementLinkCounter target
    if d.inode.inlined then
      some (s,
        { d with
          inode := { d.inode with entries := removeLink d.inode.entries name }
          childCount := (d.childCount + 4294967295) % 4294967296 },
        target1, [.target, .primary])
    else
      match rmFromLists name d.entryLists 0 with
      | none =>
        some (s, { d with childCount := (d.childCount + 4294967295) % 4294967296 },
          target1, [.target])
      | some (k, false, lists) =>
        some (s,
          { d with entryLists := lists,
                   childCount := (d.childCount + 4294967295) % 4294967296 },
          target1, [.target, .list k])
      | some (_, true, _) => none

/-- Modelled from the spec: the helpers of `PathUtils.inc`, which is not part of the
sources.  `normalizePath` collapses ".", ".." and duplicate slashes and drops trailing
slashes; `split` cuts a path at the separator; `lastName` is the final component. -/
structure PathUtils where
  normalizePath : List Char → List Char
  split : List Char → Char → List (List Char)
  lastName : List Char → List Char

/-- Modelled from the spec: the helper `addUnique` of `ListUtils.inc`, which is not
part of the sources: append the elements that the list does not hold yet. -/
def addUnique {α : Type} [DecidableEq α] (list add : List α) : List α :=
  add.foldl (fun acc x => if x ∈ acc then acc else acc ++ [x]) list

/-- The loop of `FS::searchParent` over the directory names of the path. -/
def searchParentLoop (c : Constants) (uninit : Nat) (s : FS) :
    List (List Char) → Directory → Option (Option Directory)
  | [], currentDir => some (some currentDir)
  | name :: rest, currentDir =>
    let nextDirID := currentDir.searchHardlink name
    if nextDirID = 0 then some none
    else
      match peekINodeType s nextDirID with
      | none => none
      | some t =>
        if t ≠ INODE_TYPE_DIR then some none
        else
          match loadDirectory c uninit s nextDirID with
          | none => none
          | some none => some none
          | some (some dir) => searchParentLoop c uninit s rest dir

/-- Function `FS::searchParent`.  `pop_front` / `pop_back` on an empty list and the use
of a null root directory inside the loop are undefined. -/
def searchParent (c : Constants) (pu : PathUtils) (uninit : Nat) (s : FS)
    (absolutePath : List Char) : Option (Option Directory) :=
  if absolutePath.head? ≠ some '/' then some none
  else
    match pu.split absolutePath '/' with
    | [] => none
    | _ :: dirs1 =>
      if dirs1 = [] then none
      else
        let dirs := dirs1.dropLast
        match loadDirectory c uninit s 1 with
        | none => none
        | some none => if dirs = [] then some none else none
        | some (some root) => searchParentLoop c uninit s dirs root

/-- Saving the blocks of `changedBlocks` in order; the `i`-th save is stamped
`now (t0 + i)`. -/
def saveBlocks (now : Nat → Nat) : FS → List Block → Nat → Option FS
  | s, [], _ => some s
  | s, b :: rest, t0 =>
    match saveBlock s b (now t0) with
    | none => none
    | some s' => saveBlocks now s' rest (t0 + 1)

/-- The constructor `Directory(blockCreator, empty, parent)` of a new child directory:
`addHardlink(*inode, ".")` on the directory's own INode, then
`addHardlink(parent->getPrimaryINode(), "..")`.  Returns the new directory and the
parent's primary INode. -/
def newChildDirectory (c : Constants) (s : FS) (empty : DirectoryINode) (parent : INode) :
    Option (FS × Directory × INode) :=
  match Directory.addHardlink c s ⟨empty, 0, []⟩ empty.toINode ['.'] with
  | none => none
  | some (s1, d1, self1, _) =>
    let d1' : Directory := { d1 with inode := { d1.inode with linkCounter := self1.linkCounter } }
    match Directory.addHardlink c s1 d1' parent ['.', '.'] with
    | none => none
    | some (s2, d2, parent1, _) => some (s2, d2, parent1)

/-- The blocks behind the pointers of `changedBlocks` at the time they are saved:
`tgt` is the target INode's block, `d` the directory the call was made on. -/
def resolveRef (tgt : Block) (d : Directory) : Ref → Option Block
  | .target => some tgt
  | .primary => some d.inode.toBlock
  | .list i => (d.entryLists[i]?).map DirectoryEntryList.toBlock

/-- Resolve a whole list of pointers. -/
def resolveRefs (tgt : Block) (d : Directory) (refs : List Ref) : Option (List Block) :=
  refs.mapM (resolveRef tgt d)

/-- Function `FS::mkdir`.  `now 0` is the creation time of the new INode, `now 1`, ... are
the times of the block writes. -/
def mkdir (c : Constants) (pu : PathUtils) (uninit : Nat) (now : Nat → Nat) (s : FS)
    (absolutePath : List Char) : Option (Bool × FS) :=
  let absolutePath := pu.normalizePath absolutePath
  if absolutePath.head? ≠ some '/' then some (false, s)
  else if (s.usedBlocks + 4) % 4294967296 > s.logSize then some (false, s)
  else
    match searchParent c pu uninit s absolutePath with
    | none => none
    | some none => some (false, s)
    | some (some parent) =>
      if parent.searchHardlink (pu.lastName absolutePath) ≠ 0 then some (false, s)
      else if parent.childCount = c.MAX_HARDLINKS_PER_DIR then some (false, s)
      else if parent.inode.linkCounter = MAX_NUMBER_OF_LINKS_TO_INODE then some (false, s)
      else
        match getNextBlockID s with
        | none => none
        | some (newBlockID, s1) =>
          let newDirINode : DirectoryINode :=
            ⟨⟨newBlockID, 0, now 0, 0, INODE_TYPE_DIR, true, 0⟩, [], []⟩
          match newChildDirectory c s1 newDirINode parent.inode.toINode with
          | none => none
          | some (s2, newDir, parentINode) =>
            let parent1 : Directory :=
              { parent with inode := { parent.inode with linkCounter := parentINode.linkCounter } }
            match parent1.addHardlink c s2 newDir.inode.toINode (pu.lastName absolutePath) with
            | none => none
            | some (s3, parent2, target, changedBlocks) =>
              let newDir1 : Directory :=
                { newDir with inode := { newDir.inode with linkCounter := target.linkCounter } }
              match resolveRefs newDir1.inode.toBlock parent2 changedBlocks with
              | none => none
              | some blocks =>
                match saveBlocks now s3 blocks 1 with
                | none => none
                | some s4 => some (true, s4)

/-- Pointers collected by `FS::rmdir`: blocks of the parent directory object or of the
directory that is removed. -/
inductive RmdirRef where
  | parentINode
  | dirINode
  | parentList (i : Nat)
  | dirList (i : Nat)
deriving DecidableEq, Repr

/-- The block behind a pointer of `FS::rmdir` at the time it is saved. -/
def resolveRmdirRef (parent dir : Directory) : RmdirRef → Option Block
  | .parentINode => some parent.inode.toBlock
  | .dirINode => some dir.inode.toBlock
  | .parentList i => (parent.entryLists[i]?).map DirectoryEntryList.toBlock
  | .dirList i => (dir.entryLists[i]?).map DirectoryEntryList.toBlock

/-- The loop `for (auto &list : entryLists) freeBlock(list->getId())`. -/
def freeBlocks : FS → List Nat → Option FS
  | s, [] => some s
  | s, id :: rest =>
    match freeBlock s id with
    | none => none
    | some s' => freeBlocks s' rest

/-- Function `FS::rmdir`; `uninitP` and `uninitD` are the indeterminate start values of
`childCount` in the loaded parent and in the loaded directory. -/
def rmdir (c : Constants) (pu : PathUtils) (uninitP uninitD : Nat) (now : Nat → Nat) (s : FS)
    (absolutePath : List Char) : Option (Bool × FS) :=
  let absolutePath := pu.normalizePath absolutePath
  if absolutePath.head? ≠ some '/' then some (false, s)
  else if (s.usedBlocks + 2) % 4294967296 > s.logSize then some (false, s)
  else
    match searchParent c pu uninitP s absolutePath with
    | none => none
    | some none => some (false, s)
    | some (some parent) =>
      let id := parent.searchHardlink (pu.lastName absolutePath)
      if id = 0 then some (false, s)
      else if id = 1 then some (false, s)
      else
        match peekINodeType s id with
        | none => none
        | some t =>
          if t ≠ INODE_TYPE_DIR then some (false, s)
          else
            match loadDirectory c uninitD s id with
            | none => none
            | some none => some (false, s)
            | some (some dir) =>
              if dir.childCount > 2 then some (false, s)
              else
                match parent.rmHardlink s dir.inode.toINode (pu.lastName absolutePath) with
                | none => none
                | some (s1, parent1, dirINode, changed1) =>
                  let dir1 : Directory :=
                    { dir with inode := { dir.inode with linkCounter := dirINode.linkCounter } }
                  match dir1.rmHardlink s1 parent1.inode.toINode ['.', '.'] with
                  | none => none
                  | some (s2, dir2, parentINode, changed2) =>
                    let parent2 : Directory :=
                      { parent1 with
                        inode := { parent1.inode with linkCounter := parentINode.linkCounter } }
                    let refs1 : List RmdirRef := changed1.map (fun r =>
                      match r with
                      | .target => .dirINode
                      | .primary => .parentINode
                      | .list i => .parentList i)
                    let refs2 : List RmdirRef := changed2.map (fun r =>
                      match r with
                      | .target => .parentINode
                      | .primary => .dirINode
                      | .list i => .dirList i)
                    match (addUnique refs1 refs2).mapM (resolveRmdirRef parent2 dir2) with
                    | none => none
                    | some blocks =>
                      match saveBlocks now s2 blocks 0 with
                      | none => none
                      | some s3 =>
                        match freeBlocks s3
                          (if dir2.inode.inlined then []
                           else dir2.entryLists.map DirectoryEntryList.id) with
                        | none => none
                        | some s4 =>
                          match freeBlock s4 dir2.inode.id with
                          | none => none
                          | some s5 => some (true, s5)

/-! ### Files (the part that loading and recovery need) -/

/-- Object of `class FileINode`. -/
structure FileINode extends INode where
  data : List Nat
  entries : List Nat
deriving DecidableEq, Repr

/-- Object of `class DataBlockList`. -/
structure DataBlockList where
  id : Nat
  lastWriteTime : Nat
  entries : List Nat
deriving DecidableEq, Repr

/-- Object of `class File` (without the block cache). -/
structure File where
  inode : FileINode
  blockLists : List DataBlockList
  numberOfDataBlocks : Nat
deriving DecidableEq, Repr

/-- Number of binary digits of `n`, computed with `fuel` halving steps. -/
def bitLength : Nat → Nat → Nat
  | 0, _ => 0
  | fuel + 1, n => if n = 0 then 0 else bitLength fuel (n / 2) + 1

/-- Round `num / den` to the nearest integer, ties to even. -/
def roundHalfEven (num den : Nat) : Nat :=
  let m := num / den
  let r := num % den
  if 2 * r > den ∨ (2 * r = den ∧ m % 2 = 1) then m + 1 else m

/-- Conversion of an unsigned integer to `float` (24-bit significand, round to nearest,
ties to even); the value is again an integer. -/
def toFloat (n : Nat) : Nat :=
  let e := bitLength 64 n - 24
  roundHalfEven n (2 ^ e) * 2 ^ e

/-- The value of `ceil(a / ((float) b))` as computed in single precision: both operands are
converted to `float`, the quotient is rounded to a 24-bit significand (round to nearest,
ties to even), then `ceil` is taken. -/
def ceilDivFloat (a b : Nat) : Nat :=
  let x := toFloat a
  let y := toFloat b
  if x = 0 ∨ y = 0 then 0
  else
    let lx := bitLength 64 x
    let ly := bitLength 64 y
    if 24 + ly ≥ lx then
      -- `x * 2^t / y` lies in `[2^23, 2^25)`
      let t := 24 + ly - lx
      if x * 2 ^ t / y ≥ 2 ^ 24 then
        if t = 0 then roundHalfEven x (y * 2) * 2
        else (roundHalfEven (x * 2 ^ (t - 1)) y + 2 ^ (t - 1) - 1) / 2 ^ (t - 1)
      else (roundHalfEven (x * 2 ^ t) y + 2 ^ t - 1) / 2 ^ t
    else
      -- `x / (y * 2^u)` lies in `[2^23, 2^25)`
      let u := lx - (24 + ly)
      if x / (y * 2 ^ u) ≥ 2 ^ 24 then roundHalfEven x (y * 2 ^ (u + 1)) * 2 ^ (u + 1)
      else roundHalfEven x (y * 2 ^ u) * 2 ^ u

/-- Method `Directory::ls`. -/
def Directory.ls (d : Directory) : List (List Char) :=
  if d.inode.inlined then d.inode.entries.map Hardlink.linkName
  else (d.entryLists.map (fun l => l.entries.map Hardlink.linkName)).flatten

/-- The ids that the reader loops of `FileINode` and `DataBlockList` recover from a
table of `n` ids: reading stops at the first zero ("no gaps allowed"). -/
def readIdsNoGaps (n : Nat) (l : List Nat) : List Nat := (l.take n).takeWhile (fun i => i ≠ 0)

/-- Function `FS::loadDataBlockList`; the inner `none` is the null pointer. -/
def loadDataBlockList (c : Constants) (s : FS) (id : Nat) : Option (Option DataBlockList) :=
  match fetchBlock s id with
  | none => none
  | some none => some none
  | some (some b) =>
    if b.id ≠ id then some none
    else
      match b.body with
      | .plain (.ids l) =>
        some (some ⟨b.id, b.lastWriteTime,
          readIdsNoGaps c.MAX_DATABLOCKS_PER_DATABLOCKLIST l⟩)
      | _ => none

/-- The loop of `FS::loadFile` over the requested list ids. -/
def loadDataBlockLists (c : Constants) (s : FS) :
    List Nat → Option (Option (List DataBlockList))
  | [] => some (some [])
  | id :: rest =>
    match loadDataBlockList c s id with
    | none => none
    | some none => some none
    | some (some l) =>
      match loadDataBlockLists c s rest with
      | none => none
      | some none => some none
      | some (some ls) => some (some (l :: ls))

/-- Function `FS::loadFile` with the constructor `File(blockListCreator, primary,
blockListIDs)` and `File::init`. -/
def loadFile (c : Constants) (s : FS) (id : Nat) : Option (Option File) :=
  match fetchBlock s id with
  | none => none
  | some none => some none
  | some (some b) =>
    if b.id ≠ id then some none
    else
      match b.body with
      | .inode creationTime size_b type inlined linkCounter payload =>
        if type ≠ INODE_TYPE_REGULARFILE then some none
        else
          let hdr : INode := ⟨b.id, b.lastWriteTime, creationTime, size_b, type, inlined,
            linkCounter⟩
          match inlined, payload with
          | true, .bytes l =>
            if size_b ≤ c.MAX_BYTES_PER_INODE ∧ size_b ≤ l.length then
              some (some ⟨⟨hdr, l.take size_b, []⟩, [], 0⟩)
            else none
          | false, .ids l =>
            let entries := readIdsNoGaps c.MAX_DATABLOCKLISTS_PER_FILE l
            let numberOfDataBlocks := ceilDivFloat size_b c.MAX_BYTES_PER_DATABLOCK
            let numberOfDataBlockLists :=
              ceilDivFloat numberOfDataBlocks c.MAX_DATABLOCKS_PER_DATABLOCKLIST
            let blockListIDs :=
              (List.range numberOfDataBlockLists).map (fun i => entries.getD i 0)
            match loadDataBlockLists c s blockListIDs with
            | none => none
            | some none => some none
            | some (some lists) => some (some ⟨⟨hdr, [], entries⟩, lists, numberOfDataBlocks⟩)
          | _, _ => none
      | .plain _ => none

/-- Method `File::blocks`. -/
def File.blocks (f : File) : List Nat :=
  f.inode.id ::
    (if f.inode.inlined then []
     else (f.blockLists.map (fun l => l.id :: l.entries)).flatten)

/-- The assignment `bmapFilter[id - 1] = true` on the array of `logSize` flags. -/
def markFilter (bmapFilter : List Bool) (id : Nat) : Option (List Bool) :=
  if idx id < bmapFilter.length then some (bmapFilter.set (idx id) true) else none

/-- Marking a list of ids. -/
def markAll : List Bool → List Nat → Option (List Bool)
  | f, [] => some f
  | f, id :: rest =>
    match markFilter f id with
    | none => none
    | some f' => markAll f' rest

/-- Function `FS::recursiveRecovery`, with a bound `fuel` on the nesting depth of the
recursion.  A child that cannot be loaded is dereferenced as a null pointer by the
code, which has no defined result. -/
def recursiveRecovery (c : Constants) (uninit : Nat) (s : FS) :
    Nat → List Bool → Directory → Option (List Bool)
  | 0, _, _ => none
  | fuel + 1, bmapFilter, dir =>
    match markAll bmapFilter (dir.inode.id :: dir.entryLists.map DirectoryEntryList.id) with
    | none => none
    | some f0 =>
      dir.ls.foldlM (fun f link =>
        if link = ['.'] ∨ link = ['.', '.'] then some f
        else
          let linkID := dir.searchHardlink link
          match peekINodeType s linkID with
          | none => none
          | some t =>
            if t = INODE_TYPE_DIR then
              match loadDirectory c uninit s linkID with
              | some (some childDir) => recursiveRecovery c uninit s fuel f childDir
              | _ => none
            else if t = INODE_TYPE_REGULARFILE then
              match loadFile c s linkID with
              | some (some file) => markAll f file.blocks
              | _ => none
            else some f) f0

/-- Step 1 of `FS::reconstructBMap`: the scan for the latest write and the biggest id,
over the slots in the given order.  State: `(lastWritePtr, latestWriteTime, nextBlockID)`. -/
def recoveryScan (log : List Block) : Nat → Nat → Nat × Nat × Nat → Option (Nat × Nat × Nat)
  | 0, _, st => some st
  | n + 1, i, (lastWritePtr, latestWriteTime, nextBlockID) =>
    match log[i]? with
    | none => none
    | some b =>
      let st1 : Nat × Nat :=
        if b.id ≠ 0 ∧ b.lastWriteTime ≥ latestWriteTime then (i + 1, b.lastWriteTime)
        else (lastWritePtr, latestWriteTime)
      let next1 := if b.id ≠ 0 ∧ nextBlockID < b.id then b.id else nextBlockID
      recoveryScan log n (i + 1) (st1.1, st1.2, next1)

/-- Step 2 of `FS::reconstructBMap`: the circular sweep that fills the block map.
State: `(usedBlocks, bmap, latestWriteTimes)`. -/
def recoverySweep (logSize lastWritePtr : Nat) (log : List Block) :
    Nat → Nat → Nat × List Nat × List Nat → Option (Nat × List Nat × List Nat)
  | 0, _, st => some st
  | n + 1, i, (usedBlocks, bmap, latestWriteTimes) =>
    let j0 := (i + lastWritePtr) % 4294967296
    let j := if j0 ≥ logSize then j0 - logSize else j0
    match log[j]? with
    | none => none
    | some b =>
      if b.id = 0 then recoverySweep logSize lastWritePtr log n (i + 1)
        (usedBlocks, bmap, latestWriteTimes)
      else
        match bmap[b.id - 1]?, latestWriteTimes[b.id - 1]? with
        | some a, some t =>
          let used1 := if a = 0 then (usedBlocks + 1) % 4294967296 else usedBlocks
          if t ≤ b.lastWriteTime then
            recoverySweep logSize lastWritePtr log n (i + 1)
              (used1, bmap.set (b.id - 1) (j + 1), latestWriteTimes.set (b.id - 1) b.lastWriteTime)
          else recoverySweep logSize lastWritePtr log n (i + 1) (used1, bmap, latestWriteTimes)
        | _, _ => none

/-- The final loop of step 3 of `FS::reconstructBMap`: drop every entry whose flag is not
set.  State: `(usedBlocks, bmap)`. -/
def recoveryPrune (bmapFilter : List Bool) :
    Nat → Nat → Nat × List Nat → Option (Nat × List Nat)
  | 0, _, st => some st
  | n + 1, i, (usedBlocks, bmap) =>
    match bmapFilter[i]?, bmap[i]? with
    | some fl, some a =>
      if !fl ∧ a ≠ 0 then
        recoveryPrune bmapFilter n (i + 1) ((usedBlocks + 4294967295) % 4294967296, bmap.set i 0)
      else recoveryPrune bmapFilter n (i + 1) (usedBlocks, bmap)
    | some fl, none => if !fl then none else recoveryPrune bmapFilter n (i + 1) (usedBlocks, bmap)
    | none, _ => none

/-- The fields that steps 1 and 2 of `FS::reconstructBMap` have set when step 3 starts. -/
def recoveredState (s : FS) (lastWritePtr maxId usedBlocks : Nat) (bmap : List Nat) : FS :=
  { s with
    nextBlockID := (maxId + 1) % 4294967296
    write_ptr := if (lastWritePtr + 1) % 4294967296 > s.logSize then 1
                 else (lastWritePtr + 1) % 4294967296
    usedBlocks := usedBlocks
    bmap := bmap }

/-- The traversal of step 3 of `FS::reconstructBMap`: `bmapFilter` after
`recursiveRecovery(bmapFilter, *rootDir.get())`; `fuel` bounds the depth of the recursion. -/
def reachableFilter (c : Constants) (uninit : Nat) (fuel : Nat) (s : FS) : Option (List Bool) :=
  match loadDirectory c uninit s 1 with
  | some (some rootDir) =>
    recursiveRecovery c uninit s fuel (List.replicate s.logSize false) rootDir
  | _ => none

/-- Function `FS::reconstructBMap`, run on a state whose `bmap` is the zeroed
array of the constructor; `fuel` bounds the depth of the traversal of step 3. -/
def reconstructBMap (c : Constants) (uninit : Nat) (fuel : Nat) (s : FS) : Option FS :=
  match recoveryScan s.log s.logSize 0 (0, 0, 0) with
  | none => none
  | some (lastWritePtr, _, maxId) =>
    match recoverySweep s.logSize lastWritePtr s.log s.logSize 0
        (0, s.bmap, List.replicate s.logSize 0) with
    | none => none
    | some (usedBlocks, bmap, _) =>
      match reachableFilter c uninit fuel
          (recoveredState s lastWritePtr maxId usedBlocks bmap) with
      | none => none
      | some bmapFilter =>
        match recoveryPrune bmapFilter s.logSize 0 (usedBlocks, bmap) with
        | none => none
        | some (used3, bmap3) =>
          some { recoveredState s lastWritePtr maxId usedBlocks bmap with
                 usedBlocks := used3, bmap := bmap3 }

/-- Steps 1 and 2 of `FS::reconstructBMap`: the state on which the traversal of step 3
runs. -/
def recoverySwept (s : FS) : Option FS :=
  match recoveryScan s.log s.logSize 0 (0, 0, 0) with
  | none => none
  | some (lastWritePtr, _, maxId) =>
    match recoverySweep s.logSize lastWritePtr s.log s.logSize 0
        (0, s.bmap, List.replicate s.logSize 0) with
    | none => none
    | some (usedBlocks, bmap, _) => some (recoveredState s lastWritePtr maxId usedBlocks bmap)

/-- The device: the header fields, the block map region (as 32-bit entries) and the
log region. -/
structure Device where
  magic : Nat
  size_b : Nat
  write_ptr : Nat
  bmap_valid : Nat
  nextBlockID : Nat
  usedBlocks : Nat
  lastUmountTime : Nat
  bmap : List Nat
  log : List Block
deriving DecidableEq, Repr

/-- Function `FS::calcLayout`: `(bmapSize_b, logSize)`. -/
def calcLayout (c : Constants) (size_b : Nat) : Nat × Nat :=
  let bmapSize_b := (((size_b - c.HEADER_SIZE) / 1024 + 4095) / 4096) * 4096
  (bmapSize_b, (size_b - c.HEADER_SIZE - bmapSize_b) / 4096)

/-- The constructor `FS::FS` (mount) up to "fs: ready": `readHeader`, `calcLayout`, the
sanity checks, then `loadBMap` or `reconstructBMap`.  `none` also stands for a
mount that prints an error and gives up. -/
def mount (c : Constants) (uninit : Nat) (fuel : Nat) (dev : Device) : Option FS :=
  if dev.magic ≠ c.MAGIC then none
  else if dev.size_b < c.FS_MIN_SIZE ∨ dev.size_b > c.FS_MAX_SIZE then none
  else if dev.write_ptr = 0 then none
  else if dev.usedBlocks = 0 then none
  else
    let (bmapSize_b, logSize) := calcLayout c dev.size_b
    if dev.usedBlocks > logSize ∨ dev.write_ptr > logSize then none
    else if dev.bmap_valid = 1 then
      if dev.bmap.length < bmapSize_b / 4 then none
      else
        some { logSize := logSize, write_ptr := dev.write_ptr, nextBlockID := dev.nextBlockID,
               usedBlocks := dev.usedBlocks, bmap := dev.bmap.take (bmapSize_b / 4),
               log := dev.log }
    else
      reconstructBMap c uninit fuel
        { logSize := logSize, write_ptr := dev.write_ptr, nextBlockID := dev.nextBlockID,
          usedBlocks := dev.usedBlocks, bmap := List.replicate (bmapSize_b / 4) 0,
          log := dev.log }

/-- Method `FileINode::getUserVisibleSize_b`. -/
def FileINode.getUserVisibleSize_b (c : Constants) (n : FileINode) : Nat :=
  if n.inlined then 4096
  else ((1 + n.entries.length + ceilDivFloat n.size_b c.MAX_BYTES_PER_DATABLOCK) * 4096)
    % 4294967296

/-- One row of the listing built by `FS::ls`: the header row, or the fields that the
row of a child prints in this order. -/
inductive LsLine where
  | header
  | row (directory : Bool) (linkCounter internalSize_b userVisibleSize_b creationTime
      lastWriteTime : Nat) (linkName : List Char)
deriving DecidableEq, Repr

/-- Method `DirectoryINode::getUserVisibleSize_b`. -/
def DirectoryINode.getUserVisibleSize_b (n : DirectoryINode) : Nat :=
  ((n.dirEntryListIDs.length + 1) * 4096) % 4294967296

/-- The loop of `FS::ls` over the link names.  A child that cannot be loaded is
dereferenced as a null pointer by the code, which has no defined result. -/
def lsRows (c : Constants) (uninit : Nat) (s : FS) (dir : Directory) :
    List (List Char) → Option (List LsLine)
  | [] => some []
  | linkName :: rest =>
    let childID := dir.searchHardlink linkName
    match peekINodeType s childID with
    | none => none
    | some t =>
      if t = INODE_TYPE_DIR then
        match loadDirectory c uninit s childID with
        | some (some child) =>
          match lsRows c uninit s dir rest with
          | none => none
          | some rows =>
            some (.row true child.inode.linkCounter child.inode.size_b
              child.inode.getUserVisibleSize_b child.inode.creationTime
              child.inode.lastWriteTime linkName :: rows)
        | _ => none
      else if t = INODE_TYPE_REGULARFILE then
        match loadFile c s childID with
        | some (some child) =>
          match lsRows c uninit s dir rest with
          | none => none
          | some rows =>
            some (.row false child.inode.linkCounter child.inode.size_b
              (child.inode.getUserVisibleSize_b c) child.inode.creationTime
              child.inode.lastWriteTime linkName :: rows)
        | _ => none
      else lsRows c uninit s dir rest

/-- Function `FS::ls`. -/
def ls (c : Constants) (pu : PathUtils) (uninit : Nat) (s : FS) (absolutePath : List Char) :
    Option (Bool × List LsLine) :=
  let absolutePath := pu.normalizePath absolutePath
  if absolutePath.head? ≠ some '/' then some (false, [])
  else
    match searchParent c pu uninit s absolutePath with
    | none => none
    | some none => some (false, [])
    | some (some parent) =>
      let id := if absolutePath ≠ ['/'] then parent.searchHardlink (pu.lastName absolutePath)
                else 1
      if id = 0 then some (false, [])
      else
        match (if absolutePath ≠ ['/'] then peekINodeType s id else some INODE_TYPE_DIR) with
        | none => none
        | some t =>
          if t ≠ INODE_TYPE_DIR then some (false, [])
          else
            match loadDirectory c uninit s id with
            | none => none
            | some none => some (false, [])
            | some (some dir) =>
              match lsRows c uninit s dir dir.ls with
              | none => none
              | some rows => some (true, if dir.ls = [] then rows else .header :: rows)

/-- Cut a character list at every separator. -/
def splitOn (sep : Char) : List Char → List (List Char)
  | [] => [[]]
  | ch :: rest =>
    match splitOn sep rest with
    | [] => [[]]
    | w :: ws => if ch = sep then [] :: w :: ws else (ch :: w) :: ws

/-- Resolve "." and ".." while walking the components of a path. -/
def normalizeComponents : List (List Char) → List (List Char) → List (List Char)
  | [], acc => acc
  | comp :: rest, acc =>
    if comp = [] ∨ comp = ['.'] then normalizeComponents rest acc
    else if comp = ['.', '.'] then normalizeComponents rest acc.dropLast
    else normalizeComponents rest (acc ++ [comp])

/-- Modelled from the spec: an instance of the helpers of `PathUtils.inc`, used to run
the operations on concrete paths. -/
def specPathUtils : PathUtils where
  normalizePath := fun p =>
    if p.head? ≠ some '/' then p
    else
      match normalizeComponents (splitOn '/' p) [] with
      | [] => ['/']
      | comps => (comps.map (fun comp => '/' :: comp)).flatten
  split := fun p sep => splitOn sep p
  lastName := fun p => (splitOn '/' p).getLastD []

/-- The slot index visited by step 2 of the recovery at loop counter `i`. -/
def sweepIndex (logSize lastWritePtr i : Nat) : Nat :=
  if (i + lastWritePtr) % 4294967296 ≥ logSize then (i + lastWritePtr) % 4294967296 - logSize
  else (i + lastWritePtr) % 4294967296

/-- The pointer ranges kept by the allocator: `nextBlockID` may sit one past the last id. -/
def PtrRange (s : FS) : Prop :=
  1 ≤ s.write_ptr ∧ s.write_ptr ≤ s.logSize ∧ 1 ≤ s.nextBlockID ∧ s.nextBlockID ≤ s.logSize + 1

/-- One call of `gc`, `saveBlock` or `getNextBlockID`. -/
inductive AllocStep : FS → FS → Prop where
  | gc (s s' : FS) (p : Nat) : SDI4FS.gc s = some (p, s') → AllocStep s s'
  | saveBlock (s s' : FS) (b : Block) (now : Nat) : SDI4FS.saveBlock s b now = some s' →
      AllocStep s s'
  | getNextBlockID (s s' : FS) (k : Nat) : SDI4FS.getNextBlockID s = some (k, s') →
      AllocStep s s'

/-- Any number of allocator calls. -/
inductive AllocSteps : FS → FS → Prop where
  | refl (s : FS) : AllocSteps s s
  | tail (s t u : FS) : AllocSteps s t → AllocStep t u → AllocSteps s u

/-- Object of `class DataBlock`: the header, the byte array as far as its content is
known, and the `dirty` flag. -/
structure DataBlock where
  id : Nat
  lastWriteTime : Nat
  data : List Nat
  dirty : Bool
deriving DecidableEq, Repr

/-- Object of `class File` together with its member `cachedDataBlock`. -/
structure OpenFile extends File where
  cachedDataBlock : Option DataBlock
deriving DecidableEq, Repr

/-- The mounted file system with the map `openFiles` (keyed by the id of the primary
INode) and the number of calls of `now()` so far. -/
structure Mounted where
  fs : FS
  openFiles : List (Nat × OpenFile)
  clock : Nat
deriving DecidableEq, Repr

/-- The call `memcpy(&data[pos], src, n)` on an array whose known content is `data`. -/
def memcpyInto (data : List Nat) (pos : Nat) (src : List Nat) : List Nat :=
  data.take pos ++ src ++ data.drop (pos + src.length)

/-- Method `DataBlock::save` (with `Block::save`), as a log block. -/
def DataBlock.toBlock (b : DataBlock) : Block :=
  { id := b.id, lastWriteTime := b.lastWriteTime, body := .plain (.bytes b.data) }

/-- Method `DataBlockList::save`, as a log block. -/
def DataBlockList.toBlock (l : DataBlockList) : Block :=
  { id := l.id, lastWriteTime := l.lastWriteTime, body := .plain (.ids l.entries) }

/-- Method `INode::save` followed by `FileINode::save`, as a log block. -/
def FileINode.toBlock (n : FileINode) : Block :=
  { id := n.id, lastWriteTime := n.lastWriteTime,
    body := .inode n.creationTime n.size_b (n.type % 16) n.inlined n.linkCounter
      (if n.inlined then .bytes (n.data.take n.size_b) else .ids n.entries) }

/-- Method `DataBlock::read`.  The inner `none` is the result `false`; the outer `none`
stands for bytes of the array that were never written. -/
def DataBlock.read (c : Constants) (b : DataBlock) (pos n : Nat) : Option (Option (List Nat)) :=
  if pos > c.MAX_BYTES_PER_DATABLOCK ∨
      (pos + n) % 18446744073709551616 > c.MAX_BYTES_PER_DATABLOCK then some none
  else if pos + n ≤ b.data.length then some (some ((b.data.drop pos).take n))
  else none

/-- Method `DataBlock::write` of the bytes `src`.  The inner `none` is the result `false`;
the outer `none` stands for a write that leaves never-written bytes in front of `pos`. -/
def DataBlock.write (c : Constants) (b : DataBlock) (pos : Nat) (src : List Nat) :
    Option (Option DataBlock) :=
  if pos > c.MAX_BYTES_PER_DATABLOCK ∨
      (pos + src.length) % 18446744073709551616 > c.MAX_BYTES_PER_DATABLOCK then some none
  else if pos ≤ b.data.length then
    some (some { b with data := memcpyInto b.data pos src, dirty := true })
  else none

/-- Method `FileINode::readInline`. -/
def FileINode.readInline (c : Constants) (n : FileINode) (pos len : Nat) :
    Option (Option (List Nat)) :=
  if !n.inlined then some none
  else if pos > c.MAX_BYTES_PER_INODE ∨
      (pos + len) % 18446744073709551616 > c.MAX_BYTES_PER_INODE then some none
  else if pos + len ≤ n.data.length then some (some ((n.data.drop pos).take len))
  else none

/-- Method `FileINode::writeInline` of the bytes `src`. -/
def FileINode.writeInline (c : Constants) (n : FileINode) (pos : Nat) (src : List Nat) :
    Option (Option FileINode) :=
  if !n.inlined then some none
  else if pos > c.MAX_BYTES_PER_INODE ∨
      (pos + src.length) % 18446744073709551616 > c.MAX_BYTES_PER_INODE then some none
  else if pos ≤ n.data.length then some (some { n with data := memcpyInto n.data pos src })
  else none

/-- Method `FileINode::setInternalSize_b`. -/
def FileINode.setInternalSize_b (c : Constants) (n : FileINode) (size_b : Nat) : FileINode :=
  if size_b ≤ c.MAX_FILE_SIZE then { n with size_b := size_b } else n

/-- Method `FileINode::pushDataBlockList`. -/
def FileINode.pushDataBlockList (c : Constants) (n : FileINode) (id : Nat) : Bool × FileINode :=
  if n.entries.length = c.MAX_DATABLOCKLISTS_PER_FILE then (false, n)
  else (true, { n with entries := n.entries ++ [id] })

/-- Method `FileINode::popDataBlockList`. -/
def FileINode.popDataBlockList (n : FileINode) : FileINode :=
  if n.entries.length = 1 then n else { n with entries := n.entries.dropLast }

/-- Method `DataBlockList::pushDataBlock`. -/
def DataBlockList.pushDataBlock (c : Constants) (l : DataBlockList) (id : Nat) : DataBlockList :=
  if l.entries.length = c.MAX_DATABLOCKS_PER_DATABLOCKLIST then l
  else { l with entries := l.entries ++ [id] }

/-- Method `DataBlockList::popDataBlock`. -/
def DataBlockList.popDataBlock (l : DataBlockList) : DataBlockList :=
  { l with entries := l.entries.dropLast }

/-- Method `DataBlockList::getDataBlock`. -/
def DataBlockList.getDataBlock (l : DataBlockList) (index : Nat) : Nat :=
  l.entries.getD index 0

/-- Method `FileINode::convertToNonInline`: the INode and the data block afterwards.  The
result of `dataBlock.write` is not looked at. -/
def FileINode.convertToNonInline (c : Constants) (n : FileINode) (blockList : DataBlockList)
    (dataBlock : DataBlock) : Option (FileINode × DataBlock) :=
  let n1 := (n.pushDataBlockList c blockList.id).2
  if n.size_b ≤ n.data.length then
    match dataBlock.write c 0 (n.data.take n.size_b) with
    | none => none
    | some none => some ({ n1 with inlined := false }, dataBlock)
    | some (some d) => some ({ n1 with inlined := false }, d)
  else none

/-- Method `File::getDataBlockID`. -/
def OpenFile.getDataBlockID (c : Constants) (f : OpenFile) (blockNo : Nat) : Option Nat :=
  if f.inode.inlined then some 0
  else if blockNo ≥ f.numberOfDataBlocks then some 0
  else
    match f.blockLists[blockNo / c.MAX_DATABLOCKS_PER_DATABLOCKLIST]? with
    | none => none
    | some blockList =>
      some (blockList.getDataBlock (blockNo % c.MAX_DATABLOCKS_PER_DATABLOCKLIST))

/-- Method `File::getCachedDataBlockID`. -/
def OpenFile.getCachedDataBlockID (f : OpenFile) : Nat :=
  match f.cachedDataBlock with
  | some b => b.id
  | none => 0

/-- Method `File::cachedDataBlockIsDirty`. -/
def OpenFile.cachedDataBlockIsDirty (f : OpenFile) : Bool :=
  match f.cachedDataBlock with
  | some b => b.dirty
  | none => false

/-- Pointers that the methods of `File` put into `changedBlocks`: the primary INode, the
block list at a position of `blockLists`, or the data block handed in. -/
inductive FileRef where
  | primary
  | list (i : Nat)
  | dataBlock
deriving DecidableEq, Repr

/-- Callback `DataBlockListCreator::alloc`; the inner `none` is `NULL`. -/
def allocDataBlockList (s : FS) : Option (FS × Option DataBlockList) :=
  if (s.usedBlocks + 1) % 4294967296 > s.logSize then some (s, none)
  else
    match getNextBlockID s with
    | none => none
    | some (id, s1) => some (s1, some ⟨id, 0, []⟩)

/-- Method `File::convertToNonInline`.  A `NULL` from `alloc` is dereferenced. -/
def OpenFile.convertToNonInline (c : Constants) (s : FS) (f : OpenFile) (dataBlock : DataBlock) :
    Option (FS × OpenFile × List FileRef) :=
  if !f.inode.inlined then some (s, f, [])
  else
    match allocDataBlockList s with
    | none => none
    | some (_, none) => none
    | some (s1, some newList0) =>
      let newList := newList0.pushDataBlock c dataBlock.id
      match f.inode.convertToNonInline c newList dataBlock with
      | none => none
      | some (inode1, dataBlock1) =>
        some (s1,
          { f with
            inode := inode1
            blockLists := f.blockLists ++ [newList]
            numberOfDataBlocks := (f.numberOfDataBlocks + 1) % 4294967296
            cachedDataBlock := some dataBlock1 },
          [.list f.blockLists.length, .primary, .dataBlock])

/-- Method `File::addDataBlock`.  A `NULL` from `alloc` is dereferenced, and so is
`blockLists[blockLists.size() - 1]` of an empty vector. -/
def OpenFile.addDataBlock (c : Constants) (s : FS) (f : OpenFile) (dataBlock : DataBlock) :
    Option (FS × OpenFile × List FileRef) :=
  if f.inode.inlined then some (s, f, [])
  else
    let step : Option (FS × Option (OpenFile × List FileRef)) :=
      if f.numberOfDataBlocks % c.MAX_DATABLOCKS_PER_DATABLOCKLIST = 0 then
        match allocDataBlockList s with
        | none => none
        | some (_, none) => none
        | some (s1, some newList) =>
          match f.inode.pushDataBlockList c newList.id with
          | (false, _) => some (s1, none)
          | (true, inode1) =>
            some (s1, some ({ f with inode := inode1, blockLists := f.blockLists ++ [newList] },
              [.primary]))
      else some (s, some (f, []))
    match step with
    | none => none
    | some (s1, none) => some (s1, f, [])
    | some (s1, some (f1, changed)) =>
      match f1.blockLists.getLast? with
      | none => none
      | some last =>
        some (s1,
          { f1 with
            blockLists := f1.blockLists.dropLast ++ [last.pushDataBlock c dataBlock.id]
            numberOfDataBlocks := (f1.numberOfDataBlocks + 1) % 4294967296
            cachedDataBlock := some dataBlock },
          changed ++ [.list (f1.blockLists.length - 1)])

/-- Method `File::removeDataBlock`; `dealloc` is `freeBlock` on the id of the list. -/
def OpenFile.removeDataBlock (c : Constants) (s : FS) (f : OpenFile) :
    Option (FS × OpenFile × List FileRef) :=
  if f.inode.inlined then some (s, f, [])
  else
    match f.blockLists.getLast? with
    | none => none
    | some last =>
      let n1 := (f.numberOfDataBlocks + 4294967295) % 4294967296
      if n1 % c.MAX_DATABLOCKS_PER_DATABLOCKLIST = 0 ∧ n1 > c.MAX_DATABLOCKS_PER_DATABLOCKLIST then
        match freeBlock s last.id with
        | none => none
        | some s1 =>
          some (s1,
            { f with
              blockLists := f.blockLists.dropLast
              numberOfDataBlocks := n1
              inode := f.inode.popDataBlockList },
            [.primary])
      else
        some (s,
          { f with
            blockLists := f.blockLists.dropLast ++ [last.popDataBlock]
            numberOfDataBlocks := n1 },
          [.list (f.blockLists.length - 1)])

/-- Function `FS::loadDataBlock`; the inner `none` is the null pointer. -/
def loadDataBlock (s : FS) (id : Nat) : Option (Option DataBlock) :=
  match fetchBlock s id with
  | none => none
  | some none => some none
  | some (some b) =>
    if b.id ≠ id then some none
    else
      match b.body with
      | .plain (.bytes l) => some (some ⟨b.id, b.lastWriteTime, l, false⟩)
      | _ => none

/-- Subtraction of `uint32_t` values. -/
def sub32 (a b : Nat) : Nat := (a + 4294967296 - b % 4294967296) % 4294967296

/-- One call of `saveBlock`; the `i`-th call since the mount is stamped `now i`. -/
def Mounted.saveBlock (now : Nat → Nat) (m : Mounted) (b : Block) : Option Mounted :=
  match SDI4FS.saveBlock m.fs b (now m.clock) with
  | none => none
  | some fs1 => some { m with fs := fs1, clock := m.clock + 1 }

/-- The loop `for (Block *block : changedBlocks) saveBlock(*block)`. -/
def Mounted.saveBlocks (now : Nat → Nat) : Mounted → List Block → Option Mounted
  | m, [] => some m
  | m, b :: rest =>
    match m.saveBlock now b with
    | none => none
    | some m1 => Mounted.saveBlocks now m1 rest

/-- The block behind a pointer of `changedBlocks` at the time it is saved.  A pointer to
a block list that `dealloc` has deleted dangles. -/
def resolveFileRef (f : OpenFile) : FileRef → Option Block
  | .primary => some f.inode.toBlock
  | .list i => (f.blockLists[i]?).map DataBlockList.toBlock
  | .dataBlock => f.cachedDataBlock.map DataBlock.toBlock

/-- The statement `if (file->cachedDataBlockIsDirty()) saveBlock(*(file->
releaseCachedDataBlock().get()))`. -/
def saveCachedIfDirty (now : Nat → Nat) (m : Mounted) (f : OpenFile) :
    Option (Mounted × OpenFile) :=
  match f.cachedDataBlock with
  | none => some (m, f)
  | some b =>
    if b.dirty then
      match m.saveBlock now b.toBlock with
      | none => none
      | some m1 => some (m1, { f with cachedDataBlock := none })
    else some (m, f)

/-- Function `FS::switchNonInline`; `fresh id` is the indeterminate content of the array
of the new `DataBlock(id)`. -/
def switchNonInline (c : Constants) (fresh : Nat → List Nat) (now : Nat → Nat) (m : Mounted)
    (f : OpenFile) : Option (Mounted × OpenFile) :=
  if (m.fs.usedBlocks + 3) % 4294967296 > m.fs.logSize then some (m, f)
  else
    match getNextBlockID m.fs with
    | none => none
    | some (id, s1) =>
      match f.convertToNonInline c s1 ⟨id, 0, fresh id, false⟩ with
      | none => none
      | some (s2, f1, changedBlocks) =>
        match changedBlocks.mapM (resolveFileRef f1) with
        | none => none
        | some blocks =>
          match Mounted.saveBlocks now { m with fs := s2 } blocks with
          | none => none
          | some m1 => some (m1, f1)

/-- The id of the block behind a pointer. -/
def fileRefId (f : OpenFile) (r : FileRef) : Option Nat := (resolveFileRef f r).map Block.id

/-- The loop of `FS::addDataBlock` that enters the changed blocks into the map
`changedMetaBlocks` unless their id is a key already. -/
def addChanged (f : OpenFile) : List (Nat × FileRef) → List FileRef → Option (List (Nat × FileRef))
  | acc, [] => some acc
  | acc, r :: rest =>
    match fileRefId f r with
    | none => none
    | some id =>
      if (acc.map Prod.fst).contains id then addChanged f acc rest
      else addChanged f (acc ++ [(id, r)]) rest

/-- Function `FS::addDataBlock`. -/
def addDataBlock (c : Constants) (fresh : Nat → List Nat) (now : Nat → Nat) (m : Mounted)
    (f : OpenFile) (changedMetaBlocks : List (Nat × FileRef)) :
    Option (Bool × Mounted × OpenFile × List (Nat × FileRef)) :=
  if (m.fs.usedBlocks + 3) % 4294967296 > m.fs.logSize then
    some (false, m, f, changedMetaBlocks)
  else if f.numberOfDataBlocks = c.MAX_DATABLOCKS_PER_FILE then
    some (false, m, f, changedMetaBlocks)
  else
    match saveCachedIfDirty now m f with
    | none => none
    | some (m1, f1) =>
      match getNextBlockID m1.fs with
      | none => none
      | some (id, s2) =>
        match f1.addDataBlock c s2 ⟨id, 0, fresh id, false⟩ with
        | none => none
        | some (s3, f2, changedBlocks) =>
          match addChanged f2 changedMetaBlocks changedBlocks with
          | none => none
          | some acc => some (true, { m1 with fs := s3 }, f2, acc)

/-- The swap of the cached data block in `FS::read` and `FS::write`: unless block `id` is
cached already, save the cached block if it is dirty and load block `id`. -/
def cacheDataBlock (now : Nat → Nat) (m : Mounted) (f : OpenFile) (id : Nat) :
    Option (Mounted × OpenFile) :=
  if f.getCachedDataBlockID ≠ id then
    match saveCachedIfDirty now m f with
    | none => none
    | some (m1, f1) =>
      match loadDataBlock m1.fs id with
      | none => none
      | some b => some (m1, { f1 with cachedDataBlock := b })
  else some (m, f)

/-- The bytes `source[from], ..., source[from + n - 1]` of the caller's buffer. -/
def sliceOf (source : List Nat) (start n : Nat) : Option (List Nat) :=
  if start + n ≤ source.length then some ((source.drop start).take n) else none

/-- The value of `blockStart` in the loops of `FS::read` and `FS::write`: the offset of
`currentPos_b` in its data block, `currentPos_b - (dataBlockNo * MAX_BYTES_PER_DATABLOCK)`. -/
def blockStart (c : Constants) (currentPos_b : Nat) : Nat :=
  sub32 currentPos_b
    (((currentPos_b / c.MAX_BYTES_PER_DATABLOCK) * c.MAX_BYTES_PER_DATABLOCK) % 4294967296)

/-- The value of `blockBytes` in the loops of `FS::read` and `FS::write`: the rest of the
data block, cut to `bytesLeft = endPos - currentPos_b`. -/
def blockBytes (c : Constants) (endPos currentPos_b : Nat) : Nat :=
  if sub32 c.MAX_BYTES_PER_DATABLOCK (blockStart c currentPos_b) > sub32 endPos currentPos_b then
    sub32 endPos currentPos_b
  else sub32 c.MAX_BYTES_PER_DATABLOCK (blockStart c currentPos_b)

/-- The part "make sure the correct DataBlock is cached" of the loop of `FS::write`.  The
result of `addDataBlock` is not looked at. -/
def ensureCached (c : Constants) (fresh : Nat → List Nat) (now : Nat → Nat) (m : Mounted)
    (f : OpenFile) (changed : List (Nat × FileRef)) (dataBlockNo : Nat) :
    Option (Mounted × OpenFile × List (Nat × FileRef)) :=
  if f.numberOfDataBlocks = dataBlockNo then
    (addDataBlock c fresh now m f changed).map (fun r => r.2)
  else
    match f.getDataBlockID c dataBlockNo with
    | none => none
    | some id => (cacheDataBlock now m f id).map (fun r => (r.1, r.2, changed))

/-- The `while` loop of `FS::write`, with a bound on the number of rounds.  The result
`false` is an early `return false`. -/
def writeLoop (c : Constants) (fresh : Nat → List Nat) (now : Nat → Nat) (source : List Nat)
    (endPos : Nat) :
    Nat → Mounted → OpenFile → List (Nat × FileRef) → Nat → Nat →
      Option (Bool × Mounted × OpenFile × List (Nat × FileRef))
  | 0, m, f, changed, currentPos_b, _ =>
    if currentPos_b < endPos then none else some (true, m, f, changed)
  | fuel + 1, m, f, changed, currentPos_b, bytesCopied =>
    if currentPos_b < endPos then
      match ensureCached c fresh now m f changed
          (currentPos_b / c.MAX_BYTES_PER_DATABLOCK) with
      | none => none
      | some (m1, f1, changed1) =>
        match f1.cachedDataBlock with
        | none => some (false, m1, f1, changed1)
        | some b =>
          match sliceOf source bytesCopied (blockBytes c endPos currentPos_b) with
          | none => none
          | some src =>
            match b.write c (blockStart c currentPos_b) src with
            | none => none
            | some none => some (false, m1, f1, changed1)
            | some (some b1) =>
              writeLoop c fresh now source endPos fuel m1 { f1 with cachedDataBlock := some b1 }
                changed1 ((currentPos_b + blockBytes c endPos currentPos_b) % 4294967296)
                ((bytesCopied + blockBytes c endPos currentPos_b) % 4294967296)
    else some (true, m, f, changed)

/-- The entry of `openFiles` for a handle. -/
def Mounted.find (m : Mounted) (fileHandle : Nat) : Option OpenFile :=
  (m.openFiles.find? (fun e => e.1 = fileHandle)).map Prod.snd

/-- The file object of a handle after the call, stored back into `openFiles`. -/
def Mounted.store (m : Mounted) (fileHandle : Nat) (f : OpenFile) : Mounted :=
  { m with openFiles := m.openFiles.map (fun e => if e.1 = fileHandle then (e.1, f) else e) }

/-- Function `FS::write` of the first `n` bytes of `source`.  `n` is a `size_t`, the sums
`pos + n` are 64-bit sums. -/
def write (c : Constants) (fresh : Nat → List Nat) (now : Nat → Nat) (m : Mounted)
    (fileHandle : Nat) (source : List Nat) (pos n : Nat) : Option (Bool × Mounted) :=
  if n < 1 then some (false, m)
  else
    match m.find fileHandle with
    | none => some (false, m)
    | some f =>
      if pos > f.inode.size_b then some (false, m)
      else if (pos + n) % 18446744073709551616 ≥ c.MAX_FILE_SIZE then some (false, m)
      else if f.inode.inlined ∧ (pos + n) % 18446744073709551616 ≤ c.MAX_BYTES_PER_INODE then
        match sliceOf source 0 n with
        | none => none
        | some src =>
          match f.inode.writeInline c pos src with
          | none => none
          | some none => some (false, m)
          | some (some inode1) =>
            some (true, m.store fileHandle
              { f with inode := inode1.setInternalSize_b c ((pos + n) % 4294967296) })
      else
        let switched : Option (Mounted × OpenFile) :=
          if f.inode.inlined then switchNonInline c fresh now m f else some (m, f)
        match switched with
        | none => none
        | some (m1, f1) =>
          match writeLoop c fresh now source ((pos + n) % 4294967296) n m1 f1 [] pos 0 with
          | none => none
          | some (false, m2, f2, _) => some (false, m2.store fileHandle f2)
          | some (true, m2, f2, changedMetaBlocks) =>
            let f3 : OpenFile :=
              { f2 with inode := f2.inode.setInternalSize_b c ((pos + n) % 4294967296) }
            match (changedMetaBlocks.map Prod.snd).mapM (resolveFileRef f3) with
            | none => none
            | some blocks =>
              match Mounted.saveBlocks now m2 blocks with
              | none => none
              | some m3 => some (true, m3.store fileHandle f3)

/-- The `while` loop of `FS::read`, with a bound on the number of rounds; the result
carries the bytes copied to `target` so far. -/
def readLoop (c : Constants) (now : Nat → Nat) (endPos : Nat) :
    Nat → Mounted → OpenFile → Nat → List Nat → Option (Bool × Mounted × OpenFile × List Nat)
  | 0, m, f, currentPos_b, target =>
    if currentPos_b < endPos then none else some (true, m, f, target)
  | fuel + 1, m, f, currentPos_b, target =>
    if currentPos_b < endPos then
      match f.getDataBlockID c (currentPos_b / c.MAX_BYTES_PER_DATABLOCK) with
      | none => none
      | some dataBlockId =>
        match cacheDataBlock now m f dataBlockId with
        | none => none
        | some (m1, f1) =>
          match f1.cachedDataBlock with
          | none => some (false, m1, f1, target)
          | some b =>
            match b.read c (blockStart c currentPos_b) (blockBytes c endPos currentPos_b) with
            | none => none
            | some none => some (false, m1, f1, target)
            | some (some bytes) =>
              readLoop c now endPos fuel m1 f1
                ((currentPos_b + blockBytes c endPos currentPos_b) % 4294967296)
                (target ++ bytes)
    else some (true, m, f, target)

/-- Function `FS::read`; on success the result carries the `n` bytes copied to `target`. -/
def read (c : Constants) (now : Nat → Nat) (m : Mounted) (fileHandle : Nat) (pos n : Nat) :
    Option (Bool × Mounted × List Nat) :=
  if n < 1 then some (false, m, [])
  else
    match m.find fileHandle with
    | none => some (false, m, [])
    | some f =>
      if pos ≥ f.inode.size_b ∨ (pos + n) % 18446744073709551616 > f.inode.size_b then
        some (false, m, [])
      else if f.inode.inlined then
        match f.inode.readInline c pos n with
        | none => none
        | some none => some (false, m, [])
        | some (some bytes) => some (true, m, bytes)
      else
        match readLoop c now ((pos + n) % 4294967296) n m f pos [] with
        | none => none
        | some (ok, m1, f1, target) => some (ok, m1.store fileHandle f1, target)

/-- The loop of `FS::removeDataBlocks` over `file->removeDataBlock()`, with `addUnique`. -/
def removeDataBlockLoop (c : Constants) :
    Nat → FS → OpenFile → List FileRef → Option (FS × OpenFile × List FileRef)
  | 0, s, f, changed => some (s, f, changed)
  | n + 1, s, f, changed =>
    match f.removeDataBlock c s with
    | none => none
    | some (s1, f1, changed1) => removeDataBlockLoop c n s1 f1 (addUnique changed changed1)

/-- Function `FS::removeDataBlocks`. -/
def removeDataBlocks (c : Constants) (now : Nat → Nat) (m : Mounted) (f : OpenFile) (n : Nat) :
    Option (Mounted × OpenFile) :=
  if (m.fs.usedBlocks + 1) % 4294967296 > m.fs.logSize then some (m, f)
  else if f.numberOfDataBlocks ≤ n then some (m, f)
  else
    match removeDataBlockLoop c n m.fs f [] with
    | none => none
    | some (s1, f1, changedBlocks) =>
      match changedBlocks.mapM (resolveFileRef f1) with
      | none => none
      | some blocks =>
        match Mounted.saveBlocks now { m with fs := s1 } blocks with
        | none => none
        | some m1 => some (m1, f1)

/-- The number of data blocks that `FS::truncate` computes for a size. -/
def blocksForSize (c : Constants) (size : Nat) : Nat :=
  if size % c.MAX_BYTES_PER_DATABLOCK = 0 then
    (size / c.MAX_BYTES_PER_DATABLOCK + 1 + 4294967295) % 4294967296
  else (size / c.MAX_BYTES_PER_DATABLOCK + 1) % 4294967296

/-- Function `FS::truncate`. -/
def truncate (c : Constants) (now : Nat → Nat) (m : Mounted) (fileHandle : Nat) (size : Nat) :
    Option (Bool × Mounted) :=
  match m.find fileHandle with
  | none => some (false, m)
  | some f =>
    if size ≥ f.inode.size_b then some (false, m)
    else
      let newNumberOfBlocks := blocksForSize c size
      let oldNumberOfBlocks := blocksForSize c f.inode.size_b
      match saveCachedIfDirty now m f with
      | none => none
      | some (m1, f1) =>
        match removeDataBlocks c now m1 f1 (sub32 oldNumberOfBlocks newNumberOfBlocks) with
        | none => none
        | some (m2, f2) =>
          let f3 : OpenFile := { f2 with inode := f2.inode.setInternalSize_b c size }
          match m2.saveBlock now f3.inode.toBlock with
          | none => none
          | some m3 => some (true, m3.store fileHandle f3)

/-- Function `FS::flushFile`. -/
def flushFile (now : Nat → Nat) (m : Mounted) (handle : Nat) : Option Mounted :=
  match m.find handle with
  | none => some m
  | some f =>
    match m.saveBlock now f.inode.toBlock with
    | none => none
    | some m1 =>
      match saveCachedIfDirty now m1 f with
      | none => none
      | some (m2, f1) => some (m2.store handle f1)

/-- Function `FS::closeFile`. -/
def closeFile (now : Nat → Nat) (m : Mounted) (handle : Nat) : Option Mounted :=
  match flushFile now m handle with
  | none => none
  | some m1 => some { m1 with openFiles := m1.openFiles.filter (fun e => e.1 ≠ handle) }

/-- Function `FS::openFile`; the result 0 is the failure. -/
def openFile (c : Constants) (pu : PathUtils) (uninit : Nat) (m : Mounted)
    (absolutePath : List Char) : Option (Nat × Mounted) :=
  let absolutePath := pu.normalizePath absolutePath
  if absolutePath.head? ≠ some '/' then some (0, m)
  else
    match searchParent c pu uninit m.fs absolutePath with
    | none => none
    | some none => some (0, m)
    | some (some parent) =>
      let id := parent.searchHardlink (pu.lastName absolutePath)
      if id = 0 then some (0, m)
      else
        match peekINodeType m.fs id with
        | none => none
        | some t =>
          if t ≠ INODE_TYPE_REGULARFILE then some (0, m)
          else if (m.find id).isSome then some (0, m)
          else
            match loadFile c m.fs id with
            | none => none
            | some none => some (0, m)
            | some (some file) =>
              some (id, { m with openFiles := m.openFiles ++ [(id, ⟨file, none⟩)] })

/-! ### Files in the directory tree: touch, link, rm, rename -/

/-- Function `FS::touch`.  `now 0` is the creation time of the new INode, `now 1`, ... are
the times of the block writes. -/
def touch (c : Constants) (pu : PathUtils) (uninit : Nat) (now : Nat → Nat) (s : FS)
    (absolutePath : List Char) : Option (Bool × FS) :=
  let absolutePath := pu.normalizePath absolutePath
  if absolutePath.head? ≠ some '/' then some (false, s)
  else if (s.usedBlocks + 4) % 4294967296 > s.logSize then some (false, s)
  else
    match searchParent c pu uninit s absolutePath with
    | none => none
    | some none => some (false, s)
    | some (some parent) =>
      if parent.searchHardlink (pu.lastName absolutePath) ≠ 0 then some (false, s)
      else if parent.childCount = c.MAX_HARDLINKS_PER_DIR then some (false, s)
      else
        match getNextBlockID s with
        | none => none
        | some (newBlockID, s1) =>
          let newFileINode : FileINode :=
            ⟨⟨newBlockID, 0, now 0, 0, INODE_TYPE_REGULARFILE, true, 0⟩, [], []⟩
          match parent.addHardlink c s1 newFileINode.toINode (pu.lastName absolutePath) with
          | none => none
          | some (s2, parent1, target, changedBlocks) =>
            let newFileINode1 : FileINode :=
              { newFileINode with linkCounter := target.linkCounter }
            match resolveRefs newFileINode1.toBlock parent1 changedBlocks with
            | none => none
            | some blocks =>
              match saveBlocks now s2 blocks 1 with
              | none => none
              | some s3 => some (true, s3)

/-- Function `FS::link`.  The target name is looked up in `parent`, the directory of the
new link; `targetParent` is only tested for null.  A null result of `loadFile` is
dereferenced. -/
def link (c : Constants) (pu : PathUtils) (uninit : Nat) (now : Nat → Nat) (s : FS)
    (sourcePath targetPath : List Char) : Option (Bool × FS) :=
  let sourcePath := pu.normalizePath sourcePath
  let targetPath := pu.normalizePath targetPath
  if sourcePath.head? ≠ some '/' ∨ targetPath.head? ≠ some '/' then some (false, s)
  else if (s.usedBlocks + 3) % 4294967296 > s.logSize then some (false, s)
  else
    match searchParent c pu uninit s sourcePath with
    | none => none
    | some none => some (false, s)
    | some (some parent) =>
      if parent.searchHardlink (pu.lastName sourcePath) ≠ 0 then some (false, s)
      else if parent.childCount = c.MAX_HARDLINKS_PER_DIR then some (false, s)
      else
        match searchParent c pu uninit s targetPath with
        | none => none
        | some none => some (false, s)
        | some (some _) =>
          let targetID := parent.searchHardlink (pu.lastName targetPath)
          if targetID = 0 then some (false, s)
          else
            match peekINodeType s targetID with
            | none => none
            | some t =>
              if t ≠ INODE_TYPE_REGULARFILE then some (false, s)
              else
                match loadFile c s targetID with
                | none => none
                | some none => none
                | some (some file) =>
                  if file.inode.linkCounter = MAX_NUMBER_OF_LINKS_TO_INODE then some (false, s)
                  else
                    match parent.addHardlink c s file.inode.toINode (pu.lastName sourcePath) with
                    | none => none
                    | some (s1, parent1, target, changedBlocks) =>
                      let inode1 : FileINode :=
                        { file.inode with linkCounter := target.linkCounter }
                      match resolveRefs inode1.toBlock parent1 changedBlocks with
                      | none => none
                      | some blocks =>
                        match saveBlocks now s1 blocks 0 with
                        | none => none
                        | some s2 => some (true, s2)

/-- Function `FS::rm`. -/
def rm (c : Constants) (pu : PathUtils) (uninit : Nat) (now : Nat → Nat) (s : FS)
    (absolutePath : List Char) : Option (Bool × FS) :=
  let absolutePath := pu.normalizePath absolutePath
  if absolutePath.head? ≠ some '/' then some (false, s)
  else if (s.usedBlocks + 2) % 4294967296 > s.logSize then some (false, s)
  else
    match searchParent c pu uninit s absolutePath with
    | none => none
    | some none => some (false, s)
    | some (some parent) =>
      let id := parent.searchHardlink (pu.lastName absolutePath)
      if id = 0 then some (false, s)
      else
        match peekINodeType s id with
        | none => none
        | some t =>
          if t ≠ INODE_TYPE_REGULARFILE then some (false, s)
          else
            match loadFile c s id with
            | none => none
            | some none => some (false, s)
            | some (some file) =>
              match parent.rmHardlink s file.inode.toINode (pu.lastName absolutePath) with
              | none => none
              | some (s1, parent1, target, changedBlocks) =>
                let file1 : File :=
                  { file with inode := { file.inode with linkCounter := target.linkCounter } }
                match resolveRefs file1.inode.toBlock parent1 changedBlocks with
                | none => none
                | some blocks =>
                  match saveBlocks now s1 blocks 0 with
                  | none => none
                  | some s2 =>
                    if file1.inode.linkCounter = 0 then
                      match freeBlocks s2 file1.blocks with
                      | none => none
                      | some s3 => some (true, s3)
                    else some (true, s2)

/-- Pointers collected by `FS::rename`: blocks of the old parent, of the new parent or of
the object that is moved. -/
inductive RenameRef where
  | oldParentINode
  | newParentINode
  | targetINode
  | oldParentList (i : Nat)
  | newParentList (i : Nat)
  | targetList (i : Nat)
deriving DecidableEq, Repr

/-- The object behind `moveTarget` in `FS::rename`. -/
inductive MoveTarget where
  | dir (d : Directory)
  | file (f : File)
deriving DecidableEq, Repr

/-- The primary INode of the moved object (`getPrimaryINode()`). -/
def MoveTarget.inode : MoveTarget → INode
  | .dir d => d.inode.toINode
  | .file f => f.inode.toINode

/-- The moved object after its link counter was changed through the INode reference. -/
def MoveTarget.withLinkCounter (t : MoveTarget) (linkCounter : Nat) : MoveTarget :=
  match t with
  | .dir d => .dir { d with inode := { d.inode with linkCounter := linkCounter } }
  | .file f => .file { f with inode := { f.inode with linkCounter := linkCounter } }

/-- The block behind a pointer of `FS::rename` at the time it is saved. -/
def resolveRenameRef (oldParent newParent : Directory) (t : MoveTarget) :
    RenameRef → Option Block
  | .oldParentINode => some oldParent.inode.toBlock
  | .newParentINode => some newParent.inode.toBlock
  | .targetINode =>
    match t with
    | .dir d => some d.inode.toBlock
    | .file f => some f.inode.toBlock
  | .oldParentList i => (oldParent.entryLists[i]?).map DirectoryEntryList.toBlock
  | .newParentList i => (newParent.entryLists[i]?).map DirectoryEntryList.toBlock
  | .targetList i =>
    match t with
    | .dir d => (d.entryLists[i]?).map DirectoryEntryList.toBlock
    | .file _ => none

/-- The pointers returned by a call on the old parent with the moved INode as target. -/
def oldParentRef : Ref → RenameRef
  | .target => .targetINode
  | .primary => .oldParentINode
  | .list i => .oldParentList i

/-- The pointers returned by a call on the new parent with the moved INode as target. -/
def newParentRef : Ref → RenameRef
  | .target => .targetINode
  | .primary => .newParentINode
  | .list i => .newParentList i

/-- The pointers returned by a call on the moved directory with the INode of a parent as
target. -/
def movedDirRef (parent : RenameRef) : Ref → RenameRef
  | .target => parent
  | .primary => .targetINode
  | .list i => .targetList i

/-- The branch of `FS::rename` for a source and a destination in the same directory. -/
def renameSameParent (c : Constants) (now : Nat → Nat) (s : FS) (oldParent newParent : Directory)
    (moveTarget : MoveTarget) (sourceName destName : List Char) : Option (Bool × FS) :=
  match oldParent.rmHardlink s moveTarget.inode sourceName with
  | none => none
  | some (s1, oldParent1, target1, changes1) =>
    match oldParent1.addHardlink c s1 target1 destName with
    | none => none
    | some (s2, oldParent2, target2, changes2) =>
      let changes := addUnique (changes1.map oldParentRef) (changes2.map oldParentRef)
      match changes.mapM (resolveRenameRef oldParent2 newParent
          (moveTarget.withLinkCounter target2.linkCounter)) with
      | none => none
      | some blocks =>
        match saveBlocks now s2 blocks 0 with
        | none => none
        | some s3 => some (true, s3)

/-- The branch of `FS::rename` for different parents. -/
def renameOtherParent (c : Constants) (now : Nat → Nat) (s : FS) (oldParent newParent : Directory)
    (moveTarget : MoveTarget) (sourceName destName : List Char) : Option (Bool × FS) :=
  if newParent.childCount = c.MAX_HARDLINKS_PER_DIR then some (false, s)
  else if newParent.inode.linkCounter = MAX_NUMBER_OF_LINKS_TO_INODE then some (false, s)
  else
    match oldParent.rmHardlink s moveTarget.inode sourceName with
    | none => none
    | some (s1, oldParent1, target1, changes1) =>
      match newParent.addHardlink c s1 target1 destName with
      | none => none
      | some (s2, newParent1, target2, changes2) =>
        let changes := addUnique (changes1.map oldParentRef) (changes2.map newParentRef)
        let moved : Option (FS × Directory × Directory × MoveTarget × List RenameRef) :=
          match moveTarget.withLinkCounter target2.linkCounter with
          | .file f => some (s2, oldParent1, newParent1, .file f, changes)
          | .dir d =>
            match d.rmHardlink s2 oldParent1.inode.toINode ['.', '.'] with
            | none => none
            | some (s3, d1, oldINode, changes3) =>
              let oldParent2 : Directory :=
                { oldParent1 with
                  inode := { oldParent1.inode with linkCounter := oldINode.linkCounter } }
              match d1.addHardlink c s3 newParent1.inode.toINode ['.', '.'] with
              | none => none
              | some (s4, d2, newINode, changes4) =>
                let newParent2 : Directory :=
                  { newParent1 with
                    inode := { newParent1.inode with linkCounter := newINode.linkCounter } }
                some (s4, oldParent2, newParent2, .dir d2,
                  addUnique (addUnique changes (changes3.map (movedDirRef .oldParentINode)))
                    (changes4.map (movedDirRef .newParentINode)))
        match moved with
        | none => none
        | some (s5, oldParent3, newParent3, target3, changes5) =>
          match changes5.mapM (resolveRenameRef oldParent3 newParent3 target3) with
          | none => none
          | some blocks =>
            match saveBlocks now s5 blocks 0 with
            | none => none
            | some s6 => some (true, s6)

/-- Function `FS::rename`; `uninitO`, `uninitN` and `uninitT` are the indeterminate start
values of `childCount` in the three loaded directory objects.  A null `moveTarget` is
dereferenced. -/
def rename (c : Constants) (pu : PathUtils) (uninitO uninitN uninitT : Nat) (now : Nat → Nat)
    (s : FS) (sourcePath destPath : List Char) : Option (Bool × FS) :=
  let sourcePath := pu.normalizePath sourcePath
  let destPath := pu.normalizePath destPath
  if sourcePath.head? ≠ some '/' ∨ destPath.head? ≠ some '/' then some (false, s)
  else if (s.usedBlocks + 5) % 4294967296 > s.logSize then some (false, s)
  else if sourcePath <+: destPath ∧ destPath.length > sourcePath.length then some (false, s)
  else
    match searchParent c pu uninitO s sourcePath with
    | none => none
    | some none => some (false, s)
    | some (some oldParent) =>
      let targetID := oldParent.searchHardlink (pu.lastName sourcePath)
      if targetID = 0 then some (false, s)
      else
        match searchParent c pu uninitN s destPath with
        | none => none
        | some none => some (false, s)
        | some (some newParent) =>
          if newParent.searchHardlink (pu.lastName destPath) ≠ 0 then some (false, s)
          else
            match peekINodeType s targetID with
            | none => none
            | some t =>
              if t ≠ INODE_TYPE_DIR ∧ t ≠ INODE_TYPE_REGULARFILE then some (false, s)
              else
                let loaded : Option (Option MoveTarget) :=
                  if t = INODE_TYPE_DIR then
                    (loadDirectory c uninitT s targetID).map (Option.map MoveTarget.dir)
                  else (loadFile c s targetID).map (Option.map MoveTarget.file)
                match loaded with
                | none => none
                | some none => none
                | some (some moveTarget) =>
                  if oldParent.inode.id = newParent.inode.id then
                    renameSameParent c now s oldParent newParent moveTarget
                      (pu.lastName sourcePath) (pu.lastName destPath)
                  else
                    renameOtherParent c now s oldParent newParent moveTarget
                      (pu.lastName sourcePath) (pu.lastName destPath)

/-! ### File objects named in the statements about open files -/

/-- The file object after the switch to non-inlined storage with data block `k1` and block
list `k2`. -/
def switchedFile (fresh : Nat → List Nat) (f : OpenFile) (k1 k2 : Nat) : OpenFile :=
  { f with
    inode := { f.inode with entries := [k2], inlined := false }
    blockLists := [⟨k2, 0, [k1]⟩]
    numberOfDataBlocks := 1
    cachedDataBlock :=
      some ⟨k1, 0, memcpyInto (fresh k1) 0 (f.inode.data.take f.inode.size_b), true⟩ }

/-- The file object after the write of `MAX_BYTES_PER_DATABLOCK + 1` bytes `S` at position
0 to a file whose only data block `b` is cached, when no block can be added: the first
`MAX_BYTES_PER_DATABLOCK` bytes fill block `b`, then the last byte is copied to its start. -/
def overflowFile (c : Constants) (f : OpenFile) (b : DataBlock) (S : List Nat) : OpenFile :=
  { f with
    cachedDataBlock := some { b with
      data := memcpyInto (memcpyInto b.data 0 (S.take c.MAX_BYTES_PER_DATABLOCK)) 0
        ((S.drop c.MAX_BYTES_PER_DATABLOCK).take 1)
      dirty := true }
    inode := { f.inode with size_b := c.MAX_BYTES_PER_DATABLOCK + 1 } }

/-- The file object with another cached data block. -/
def OpenFile.withCache (f : OpenFile) (x : Option DataBlock) : OpenFile :=
  { f with cachedDataBlock := x }

/-- The file object with another `internalSize_b`. -/
def OpenFile.withSize (f : OpenFile) (size_b : Nat) : OpenFile :=
  { f with inode := { f.inode with size_b := size_b } }

/-! ### States used in examples -/

/-- Modelled from the spec: one choice of the constants of `Constants.inc` that fits
every block into 4096 bytes (header of 36 bytes, 32-byte directory entries, 4-byte ids). -/
def demoConstants : Constants :=
  { MAGIC := 1396984116, HEADER_SIZE := 36, FS_MIN_SIZE := 8192, FS_MAX_SIZE := 1099511627776,
    MAX_HARDLINKS_PER_DIR := 129413, MAX_LINKS_PER_DIRENTRYLIST := 127,
    MAX_DIRENTRYLISTS_PER_DIR := 1019, MAX_BYTES_PER_INODE := 4076,
    MAX_BYTES_PER_DATABLOCK := 4088, MAX_DATABLOCKS_PER_DATABLOCKLIST := 1022,
    MAX_DATABLOCKLISTS_PER_FILE := 1019, MAX_DATABLOCKS_PER_FILE := 1041418,
    MAX_FILE_SIZE := 4257316784 }

/-- An inlined directory INode block. -/
def dirBlock (id lastWriteTime linkCounter : Nat) (entries : List Hardlink) : Block :=
  ⟨id, lastWriteTime, .inode 0 0 1 true linkCounter (.links entries)⟩

/-- A device with two log slots that was not unmounted: the root directory in slot 1 and
its subdirectory "a" (block id 2) in slot 2. -/
def crashedDevice : Device :=
  { magic := 1396984116, size_b := 12324, write_ptr := 1, bmap_valid := 0, nextBlockID := 2,
    usedBlocks := 1, lastUmountTime := 0, bmap := List.replicate 1024 0,
    log := [dirBlock 1 5 3 [⟨['.'], 1⟩, ⟨['.', '.'], 1⟩, ⟨['a'], 2⟩],
            dirBlock 2 6 2 [⟨['.'], 2⟩, ⟨['.', '.'], 1⟩]] }

/-- The same device after a clean unmount: the header holds the block map flag, the
pointers and the counter, the block map region names the slots of blocks 1 and 2. -/
def cleanDevice : Device :=
  { crashedDevice with
    bmap_valid := 1, nextBlockID := 3, usedBlocks := 2,
    bmap := [1, 2] ++ List.replicate 1022 0 }


/-- Consistency of an allocator state as used by the claims about `gc`. -/
def Consistent (s : FS) : Prop :=
  1 ≤ s.write_ptr ∧ s.write_ptr ≤ s.logSize ∧ s.log.length = s.logSize ∧
  s.logSize ≤ s.bmap.length ∧ s.usedBlocks = countNZ s.bmap ∧
  ∀ k, k < s.bmap.length → s.bmap[k]? ≠ some 0 →
    slotId s (s.bmap.getD k 0) = some (k + 1)

instance (s : FS) : Decidable (Consistent s) := by
  unfold Consistent
  infer_instance

/-- The well-formedness of a mounted image that the directory operations rely on:
`Consistent`, pointers and counters in range, and stored ids that index the block map. -/
def WellFormed (s : FS) : Prop :=
  Consistent s ∧ s.logSize < 2147483648 ∧ s.bmap.length < 4294967296 ∧
  1 ≤ s.nextBlockID ∧ s.nextBlockID ≤ s.logSize + 1 ∧ s.usedBlocks ≤ s.logSize ∧
  ∀ b, b ∈ s.log → b.id ≤ s.bmap.length

/-- The slot reached from slot `w` by `m` circular advances. -/
def circSlot (L w m : Nat) : Nat := (w - 1 + m) % L + 1

/-- A slot is live when the block map names it for the id it holds. -/
def Live (s : FS) (q : Nat) : Prop :=
  ∃ id, slotId s q = some id ∧ id ≠ 0 ∧ bmapAt s id = some q

/-- The id stored in slot `q`, minus one (the index of its block map entry). -/
def slotIndex (s : FS) (q : Nat) : Nat := ((slotId s q).getD 0) - 1

instance (s : FS) : Decidable (WellFormed s) := by
  unfold WellFormed
  infer_instance

/-- The directory objects that a path walk holds in the image after `mkdir`, compared with
the walk before: the same INode and lists, or the parent with its new entry. -/
def Follows (P : Nat) (parent parent1 : Directory) (d d1 : Directory) : Prop :=
  (d.inode.id ≠ P ∧ d1.inode = d.inode ∧ d1.entryLists = d.entryLists) ∨
  (d = parent ∧ d1 = parent1)

/-- The directory object with the write time of its INode replaced when it is directory
`P`. -/
def restamp (P t : Nat) (d : Directory) : Directory :=
  if d.inode.id = P then { d with inode := { d.inode with lastWriteTime := t } } else d

/-- A listing row without its write time. -/
def LsLine.eraseTime : LsLine → LsLine
  | .header => .header
  | .row directory linkCounter internalSize_b userVisibleSize_b creationTime _ linkName =>
    .row directory linkCounter internalSize_b userVisibleSize_b creationTime 0 linkName

/-- The result of `ls` without the write times. -/
def eraseTimes (r : Option (Bool × List LsLine)) : Option (Bool × List LsLine) :=
  r.map (fun x => (x.1, x.2.map LsLine.eraseTime))

/-- Two images that hold the same blocks, except that the inlined directory `P` was
rewritten with the same entries at another time and the free id `N` is free in both, give
the same loader results up to the write time of `P`. -/
structure SameView (c : Constants) (s t : FS) (P N tm : Nat) : Prop where
  other : ∀ id, id ≠ P → id ≠ N → fetchBlock t id = fetchBlock s id
  freeS : fetchBlock s N = some none
  freeT : fetchBlock t N = some none
  ne : P ≠ 0
  parent : ∃ lwt ct sz lc l l1,
    fetchBlock s P = some (some ⟨P, lwt, .inode ct sz INODE_TYPE_DIR true lc (.links l)⟩) ∧
    fetchBlock t P = some (some ⟨P, tm, .inode ct sz INODE_TYPE_DIR true lc (.links l1)⟩) ∧
    readLinks c.MAX_LINKS_PER_DIRENTRYLIST l1 = readLinks c.MAX_LINKS_PER_DIRENTRYLIST l

def plainBlock (id : Nat) : Block := ⟨id, 0, .plain (.bytes [])⟩

/-- Two log slots, the root block live in slot 1, a superseded copy of block 2 in slot 2. -/
def gcStuck : FS :=
  { logSize := 2, write_ptr := 1, nextBlockID := 2, usedBlocks := 1,
    bmap := [1, 0], log := [plainBlock 1, plainBlock 2] }

def gcReclaim : FS :=
  { logSize := 2, write_ptr := 2, nextBlockID := 2, usedBlocks := 1,
    bmap := [1, 0], log := [plainBlock 1, plainBlock 2] }

def allocDemo : FS :=
  { logSize := 3, write_ptr := 3, nextBlockID := 2, usedBlocks := 2,
    bmap := [1, 2, 0], log := [plainBlock 1, plainBlock 2, plainBlock 0] }

/-- A clock for the examples: call `i` of `now()` returns `t0 + i`. -/
def clockFrom (t0 : Nat) : Nat → Nat := fun i => t0 + i

/-- A mounted image whose root directory is stored externally: the root INode (block 1)
names the entry list in block 2, which holds "." and "..". -/
def externalRoot : FS :=
  { logSize := 8, write_ptr := 3, nextBlockID := 3, usedBlocks := 2,
    bmap := [1, 2, 0, 0, 0, 0, 0, 0],
    log := [⟨1, 0, .inode 0 0 1 false 2 (.ids [2])⟩,
            ⟨2, 0, .plain (.links [⟨['.'], 1⟩, ⟨['.', '.'], 1⟩])⟩,
            plainBlock 0, plainBlock 0, plainBlock 0, plainBlock 0, plainBlock 0, plainBlock 0] }

/-- A mounted image with an empty inlined root directory. -/
def inlineRoot : FS :=
  { logSize := 8, write_ptr := 2, nextBlockID := 2, usedBlocks := 1,
    bmap := [1, 0, 0, 0, 0, 0, 0, 0],
    log := [dirBlock 1 0 2 [⟨['.'], 1⟩, ⟨['.', '.'], 1⟩],
            plainBlock 0, plainBlock 0, plainBlock 0, plainBlock 0, plainBlock 0, plainBlock 0,
            plainBlock 0] }

/-- The link counter of the persisted directory INode `id`. -/
def persistedLinkCounter (c : Constants) (s : FS) (id : Nat) : Option (Option Nat) :=
  (loadDirectory c 0 s id).map (Option.map (fun d => d.inode.linkCounter))

/-- The entries of the persisted directory `id`. -/
def persistedNames (c : Constants) (s : FS) (id : Nat) : Option (Option (List (List Char))) :=
  (loadDirectory c 0 s id).map (Option.map Directory.ls)

/-- The name of the `i`-th child of the full root: "d" followed by the character with
code `256 + i`. -/
def childName (i : Nat) : List Char := ['d', Char.ofNat (256 + i)]

/-- A mounted image whose inlined root directory is full: ".", ".." and 125
subdirectories (blocks 2 to 126), 14 free slots. -/
def fullRoot : FS :=
  { logSize := 140, write_ptr := 127, nextBlockID := 127, usedBlocks := 126,
    bmap := (List.range 126).map (fun i => i + 1) ++ List.replicate 14 0,
    log := dirBlock 1 0 127 ([⟨['.'], 1⟩, ⟨['.', '.'], 1⟩] ++
             (List.range 125).map (fun i => ⟨childName i, i + 2⟩)) ::
           (List.range 125).map (fun i => dirBlock (i + 2) 0 2 [⟨['.'], i + 2⟩, ⟨['.', '.'], 1⟩])
           ++ List.replicate 14 (plainBlock 0) }

/-- A mounted image with six log slots and an empty inlined root directory. -/
def sixSlots : FS :=
  { logSize := 6, write_ptr := 2, nextBlockID := 2, usedBlocks := 1,
    bmap := [1, 0, 0, 0, 0, 0],
    log := [dirBlock 1 0 2 [⟨['.'], 1⟩, ⟨['.', '.'], 1⟩],
            plainBlock 0, plainBlock 0, plainBlock 0, plainBlock 0, plainBlock 0] }

/-- The image `sixSlots` after `touch("/f")` with the clock at 10: the INode of the new
file is block 2, the root directory was written again to slot 3. -/
def sixSlotsFile : FS :=
  { logSize := 6, write_ptr := 4, nextBlockID := 3, usedBlocks := 2,
    bmap := [3, 2, 0, 0, 0, 0],
    log := [dirBlock 1 0 2 [⟨['.'], 1⟩, ⟨['.', '.'], 1⟩],
            ⟨2, 11, .inode 10 0 2 true 1 (.bytes [])⟩,
            dirBlock 1 12 2 [⟨['.'], 1⟩, ⟨['.', '.'], 1⟩, ⟨['f'], 2⟩],
            plainBlock 0, plainBlock 0, plainBlock 0] }

/-- The file object of "/f" as `openFile` loads it from `sixSlotsFile`. -/
def emptyFile : OpenFile := ⟨⟨⟨⟨2, 11, 10, 0, 2, true, 1⟩, [], []⟩, [], 0⟩, none⟩

/-- The mounted file system after `openFile("/f")` on `sixSlotsFile`. -/
def fileOpened : Mounted := ⟨sixSlotsFile, [(2, emptyFile)], 0⟩

/-- The known content of the array of a new `DataBlock` in the examples: none of its
bytes. -/
def noBytes : Nat → List Nat := fun _ => []

/-- The image `sixSlotsFile` after the switch of "/f" to non-inlined storage with the clock
at 20: block list 4 in slot 4, the INode in slot 5, data block 3 in slot 6. -/
def switchedImage : FS :=
  { logSize := 6, write_ptr := 1, nextBlockID := 5, usedBlocks := 4,
    bmap := [3, 5, 6, 4, 0, 0],
    log := [dirBlock 1 0 2 [⟨['.'], 1⟩, ⟨['.', '.'], 1⟩],
            ⟨2, 11, .inode 10 0 2 true 1 (.bytes [])⟩,
            dirBlock 1 12 2 [⟨['.'], 1⟩, ⟨['.', '.'], 1⟩, ⟨['f'], 2⟩],
            ⟨4, 20, .plain (.ids [3])⟩,
            ⟨2, 21, .inode 10 0 2 false 1 (.ids [4])⟩,
            ⟨3, 22, .plain (.bytes (noBytes 3))⟩] }

/-- The file object of "/f" with one block list and one data block that holds `data` and
is cached and dirty. -/
def oneBlockFile (size_b : Nat) (data : List Nat) : OpenFile :=
  ⟨⟨⟨⟨2, 11, 10, size_b, 2, false, 1⟩, [], [4]⟩, [⟨4, 0, [3]⟩], 1⟩, some ⟨3, 0, data, true⟩⟩

/-- The mounted file system after `write(2, S, 0, 4088)` on `fileOpened`, where `S` holds
4088 bytes of value 7: the data block is full. -/
def fileWritten : Mounted :=
  ⟨switchedImage, [(2, oneBlockFile 4088 (List.replicate 4088 7))], 3⟩

/-! ### The bytes held by an open file -/

/-- The bytes of data block `id` on the device. -/
def diskData (s : FS) (id : Nat) : Option (List Nat) :=
  match loadDataBlock s id with
  | some (some b) => some b.data
  | _ => none

/-- The bytes that data block `id` of an open file holds at the moment: those of the
cached block if `id` is cached, those of the block on the device otherwise. -/
def blockData (m : Mounted) (f : OpenFile) (id : Nat) : Option (List Nat) :=
  if f.getCachedDataBlockID = id then f.cachedDataBlock.map (fun b => b.data)
  else diskData m.fs id

/-- The cached block can be given up without losing bytes: a dirty block can be saved (the
image is well-formed and has two free slots), a clean block is the block on the device. -/
def Evictable (m : Mounted) (f : OpenFile) : Prop :=
  match f.cachedDataBlock with
  | none => True
  | some b =>
    if b.dirty then
      WellFormed m.fs ∧ m.fs.usedBlocks + 2 ≤ m.fs.logSize ∧ 1 ≤ b.id ∧ b.id ≤ m.fs.logSize
    else ∃ t, loadDataBlock m.fs b.id = some (some ⟨b.id, t, b.data, false⟩)

/-- The data blocks of a non-inlined open file hold the bytes `content`: byte `i` is byte
`i % MAX_BYTES_PER_DATABLOCK` of the block with number `i / MAX_BYTES_PER_DATABLOCK`. -/
def HoldsBytes (c : Constants) (m : Mounted) (f : OpenFile) (content : List Nat) : Prop :=
  ∀ i, i < content.length → ∃ id data,
    f.getDataBlockID c (i / c.MAX_BYTES_PER_DATABLOCK) = some id ∧ id ≠ 0 ∧
    blockData m f id = some data ∧ data[i % c.MAX_BYTES_PER_DATABLOCK]? = content[i]?

/-- A well-formed open file with the bytes `content`: `internalSize_b` is the number of
bytes; an inlined file holds them in its INode, a non-inlined file in its data blocks. -/
def WellFormedFile (c : Constants) (m : Mounted) (f : OpenFile) (content : List Nat) : Prop :=
  content.length = f.inode.size_b ∧ f.inode.size_b < 4294967296 ∧
  if f.inode.inlined then
    f.inode.size_b ≤ c.MAX_BYTES_PER_INODE ∧ content = f.inode.data.take f.inode.size_b
  else HoldsBytes c m f content ∧ Evictable m f

/-- A mounted image with eight log slots: the root directory and its subdirectory "a"
(block 2). -/
def rootWithA : FS :=
  { logSize := 8, write_ptr := 3, nextBlockID := 3, usedBlocks := 2,
    bmap := [1, 2, 0, 0, 0, 0, 0, 0],
    log := [dirBlock 1 0 3 [⟨['.'], 1⟩, ⟨['.', '.'], 1⟩, ⟨['a'], 2⟩],
            dirBlock 2 0 2 [⟨['.'], 2⟩, ⟨['.', '.'], 1⟩],
            plainBlock 0, plainBlock 0, plainBlock 0, plainBlock 0, plainBlock 0, plainBlock 0] }

/-- An image with 2096 log slots that holds the root directory (block 1), the file "/f"
(INode 2) with 2046 data blocks (blocks 6 to 2051) of 4088 bytes each, and the three
DataBlockLists of the file: block 3 names the data blocks 6 to 1027, block 4 the data
blocks 1028 to 2049, block 5 the data blocks 2050 and 2051.  Block `i` is in slot `i`. -/
def bigFileImage : FS :=
  { logSize := 2096, write_ptr := 2052, nextBlockID := 2052, usedBlocks := 2051,
    bmap := List.range' 1 2051 ++ List.replicate 45 0,
    log := [dirBlock 1 0 2 [⟨['.'], 1⟩, ⟨['.', '.'], 1⟩, ⟨['f'], 2⟩],
            ⟨2, 0, .inode 0 8364048 2 false 1 (.ids [3, 4, 5])⟩,
            ⟨3, 0, .plain (.ids (List.range' 6 1022))⟩,
            ⟨4, 0, .plain (.ids (List.range' 1028 1022))⟩,
            ⟨5, 0, .plain (.ids [2050, 2051])⟩] ++
      (List.range' 6 2046).map (fun i => ⟨i, 0, .plain (.bytes (List.replicate 4088 0))⟩) ++
      List.replicate 45 (plainBlock 0) }

/-- The file object of "/f" on `bigFileImage`, no data block cached. -/
def bigFile : OpenFile :=
  ⟨⟨⟨⟨2, 0, 0, 8364048, 2, false, 1⟩, [], [3, 4, 5]⟩,
    [⟨3, 0, List.range' 6 1022⟩, ⟨4, 0, List.range' 1028 1022⟩, ⟨5, 0, [2050, 2051]⟩], 2046⟩,
    none⟩

/-- The mounted `bigFileImage` with the file "/f" open under the handle 2. -/
def bigFileOpened : Mounted := ⟨bigFileImage, [(2, bigFile)], 0⟩

/-- The inlined directory `d` as it is loaded after `rmHardlink(name)` and a save of its
INode at time `t`. -/
def Directory.withoutLink (d : Directory) (name : List Char) (t : Nat) : Directory :=
  ⟨{ d.inode with entries := removeLink d.inode.entries name, lastWriteTime := t },
    (removeLink d.inode.entries name).length, []⟩

/-- A mounted image with six log slots: the root directory names the empty file "f"
(INode 2) twice, as "f" and as "g". -/
def twoNames : FS :=
  { logSize := 6, write_ptr := 3, nextBlockID := 3, usedBlocks := 2,
    bmap := [1, 2, 0, 0, 0, 0],
    log := [dirBlock 1 0 2 [⟨['.'], 1⟩, ⟨['.', '.'], 1⟩, ⟨['f'], 2⟩, ⟨['g'], 2⟩],
            ⟨2, 0, .inode 0 0 2 true 2 (.bytes [])⟩,
            plainBlock 0, plainBlock 0, plainBlock 0, plainBlock 0] }

/-- A mounted image with six log slots of which five are used: the root directory, the
file "f" (INode 2) with one DataBlockList (block 4) and one DataBlock (block 5), and the
empty file "g" (INode 3). -/
def fiveOfSix : FS :=
  { logSize := 6, write_ptr := 6, nextBlockID := 6, usedBlocks := 5,
    bmap := [1, 2, 3, 4, 5, 0],
    log := [dirBlock 1 0 2 [⟨['.'], 1⟩, ⟨['.', '.'], 1⟩, ⟨['f'], 2⟩, ⟨['g'], 3⟩],
            ⟨2, 0, .inode 0 4088 2 false 1 (.ids [4])⟩,
            ⟨3, 0, .inode 0 0 2 true 1 (.bytes [])⟩,
            ⟨4, 0, .plain (.ids [5])⟩,
            plainBlock 5, plainBlock 0] }

/-- A mounted image whose root directory is stored externally with two entry lists:
block 2 holds "." and "..", block 3 holds the only other entry, the empty file "f"
(INode 4). -/
def twoListRoot : FS :=
  { logSize := 8, write_ptr := 5, nextBlockID := 5, usedBlocks := 4,
    bmap := [1, 2, 3, 4, 0, 0, 0, 0],
    log := [⟨1, 0, .inode 0 0 1 false 2 (.ids [2, 3])⟩,
            ⟨2, 0, .plain (.links [⟨['.'], 1⟩, ⟨['.', '.'], 1⟩])⟩,
            ⟨3, 0, .plain (.links [⟨['f'], 4⟩])⟩,
            ⟨4, 0, .inode 0 0 2 true 1 (.bytes [])⟩,
            plainBlock 0, plainBlock 0, plainBlock 0, plainBlock 0] }

/-- A mounted image with eight log slots, all of them used, and two open files. The file
"/f" (INode 2, handle 2) has 4089 bytes in the data blocks 3 and 5; block 5 is cached and
dirty: its first byte is 1 in the cache and 9 on the device. The state is reached from an
image that holds only the root directory by `touch("/f")`, `openFile("/f")`, a write of
4088 bytes of value 7 and one byte 9 at position 0, `touch("/g")`, `openFile("/g")`, a
write of 4077 bytes of value 5 to "/g", a read of the 4089 bytes of "/f" and a write of
the byte 1 at position 4088 of "/f". -/
def fullLog : Mounted :=
  { fs :=
      { logSize := 8, write_ptr := 2, nextBlockID := 1, usedBlocks := 8,
        bmap := [2, 5, 7, 8, 1, 4, 6, 3],
        log := [⟨5, 68, .plain (.bytes [9])⟩,
                dirBlock 1 42 2 [⟨['.'], 1⟩, ⟨['.', '.'], 1⟩, ⟨['f'], 2⟩, ⟨['g'], 6⟩],
                ⟨8, 55, .plain (.ids [7])⟩,
                ⟨6, 56, .inode 40 0 2 false 1 (.ids [8])⟩,
                ⟨2, 21, .inode 10 0 2 false 1 (.ids [4])⟩,
                ⟨7, 57, .plain (.bytes [])⟩,
                ⟨3, 23, .plain (.bytes (List.replicate 4088 7))⟩,
                ⟨4, 24, .plain (.ids [3, 5])⟩] },
    openFiles :=
      [(2, ⟨⟨⟨⟨2, 11, 10, 4089, 2, false, 1⟩, [], [4]⟩, [⟨4, 0, [3, 5]⟩], 2⟩,
            some ⟨5, 68, [1], true⟩⟩),
       (6, ⟨⟨⟨⟨6, 41, 40, 4077, 2, false, 1⟩, [], [8]⟩, [⟨8, 0, [7]⟩], 1⟩,
            some ⟨7, 0, List.replicate 4077 5, true⟩⟩)],
    clock := 9 }

/-! ### The block map names the slots of its blocks -/

/-- The consistency of block map and log that `gc`, `saveBlock` and `freeBlock` keep:
every nonzero block map entry `bmap[id - 1] = p` names a log slot `p` whose stored id is
`id`. -/
def MapInv (s : FS) : Prop :=
  ∀ id p : Nat, id ≠ 0 → bmapAt s id = some p → p ≠ 0 → slotId s p = some id

/-- A link name of 28 characters, one more than a name field of a block can hold. -/
def longName : List Char := List.replicate 28 'a'

/-! ### The order of the copies in step 2 of the recovery -/

/-- The invariant of step 2 of the recovery after `i` slots of the sweep, with the order
of the copies: a nonzero entry names the visited copy of its block that has the greatest
write time and, among the copies with that time, was visited last; a zero entry belongs
to an id that no visited slot holds; `u` counts the nonzero entries. -/
structure SweepOrd (L lwp : Nat) (log : List Block) (i u : Nat) (bm lt : List Nat) : Prop where
  src : ∀ (k p : Nat), bm[k]? = some p → p ≠ 0 →
    ∃ m b, m < i ∧ p = sweepIndex L lwp m + 1 ∧ log[sweepIndex L lwp m]? = some b ∧
      b.id = k + 1 ∧ lt[k]? = some b.lastWriteTime ∧
      ∀ (m' : Nat) (b' : Block), m' < i → log[sweepIndex L lwp m']? = some b' →
        b'.id = k + 1 →
        b'.lastWriteTime ≤ b.lastWriteTime ∧ (b'.lastWriteTime = b.lastWriteTime → m' ≤ m)
  zero : ∀ (k : Nat), bm[k]? = some 0 →
    (lt[k]? = some 0 ∨ lt[k]? = none) ∧
    ∀ (m' : Nat) (b' : Block), m' < i → log[sweepIndex L lwp m']? = some b' → b'.id ≠ k + 1
  cnt : u = countNZ bm ∧ u ≤ i

/-- A log of four slots after a crash (zeroed block map): block 1 in slot 1, two copies
of block 2 with the same write time in slots 2 and 3, slot 4 free. -/
def sweepDemo : FS :=
  { logSize := 4, write_ptr := 1, nextBlockID := 1, usedBlocks := 0,
    bmap := [0, 0, 0, 0],
    log := [⟨1, 5, .plain (.bytes [])⟩, ⟨2, 7, .plain (.bytes [1])⟩,
            ⟨2, 7, .plain (.bytes [2])⟩, plainBlock 0] }

/-! ### What the traversal of step 3 marks -/

/-- The ids that `FS::recursiveRecovery(bmapFilter, dir)` marks, rule by rule as the
function assigns `bmapFilter[id - 1] = true`: the primary INode of the directory, its
entry lists, every block of a regular file behind a link other than "." and "..", and
everything that the call on a child directory behind such a link marks. -/
inductive Marks (c : Constants) (uninit : Nat) (s : FS) : Directory → Nat → Prop where
  | inode (dir : Directory) : Marks c uninit s dir dir.inode.id
  | list (dir : Directory) (l : DirectoryEntryList) : l ∈ dir.entryLists →
      Marks c uninit s dir l.id
  | file (dir : Directory) (link : List Char) (file : File) (id : Nat) : link ∈ dir.ls →
      link ≠ ['.'] → link ≠ ['.', '.'] →
      peekINodeType s (dir.searchHardlink link) = some INODE_TYPE_REGULARFILE →
      loadFile c s (dir.searchHardlink link) = some (some file) → id ∈ file.blocks →
      Marks c uninit s dir id
  | child (dir : Directory) (link : List Char) (childDir : Directory) (id : Nat) :
      link ∈ dir.ls → link ≠ ['.'] → link ≠ ['.', '.'] →
      peekINodeType s (dir.searchHardlink link) = some INODE_TYPE_DIR →
      loadDirectory c uninit s (dir.searchHardlink link) = some (some childDir) →
      Marks c uninit s childDir id → Marks c uninit s dir id

/-- Every flag that is set in `f` is set in `g`. -/
def FlagLe (f g : List Bool) : Prop := ∀ k : Nat, f[k]? = some true → g[k]? = some true

/-- The body of the loop over the links in `FS::recursiveRecovery`, for the link `link` of
`dir`; nested calls run with the bound `fuel`. -/
def recoveryStep (c : Constants) (uninit : Nat) (s : FS) (fuel : Nat) (dir : Directory)
    (f : List Bool) (link : List Char) : Option (List Bool) :=
  if link = ['.'] ∨ link = ['.', '.'] then some f
  else
    let linkID := dir.searchHardlink link
    match peekINodeType s linkID with
    | none => none
    | some t =>
      if t = INODE_TYPE_DIR then
        match loadDirectory c uninit s linkID with
        | some (some childDir) => recursiveRecovery c uninit s fuel f childDir
        | _ => none
      else if t = INODE_TYPE_REGULARFILE then
        match loadFile c s linkID with
        | some (some file) => markAll f file.blocks
        | _ => none
      else some f

/-- A log of four slots after a crash (zeroed block map): the root directory with the
subdirectory "a" (block 2), and block 3, which no directory names. -/
def pruneDemo : FS :=
  { logSize := 4, write_ptr := 1, nextBlockID := 1, usedBlocks := 0,
    bmap := [0, 0, 0, 0],
    log := [dirBlock 1 5 3 [⟨['.'], 1⟩, ⟨['.', '.'], 1⟩, ⟨['a'], 2⟩],
            dirBlock 2 6 2 [⟨['.'], 2⟩, ⟨['.', '.'], 1⟩],
            ⟨3, 7, .plain (.bytes [])⟩, plainBlock 0] }

/-! ### Unmounting -/

/-- Function `FS::umount` on the device `dev` that is mounted with state `s`: `saveBMap`
writes `bmapSize_b` bytes of the block map array to the block map region, then the header
fields `write_ptr` (offset 16), `nextBlockID` (24), `usedBlocks` (28) and the time `now`
of the unmount (32) are written, and at last `bmap_valid` (offset 20) is set to 1.  The
log region is the one of `s`.  A block map array shorter than `bmapSize_b` bytes is read
past its end. -/
def umount (c : Constants) (s : FS) (now : Nat) (dev : Device) : Option Device :=
  let bmapSize_b := (calcLayout c dev.size_b).1
  if s.bmap.length < bmapSize_b / 4 then none
  else
    some { dev with
      bmap := s.bmap.take (bmapSize_b / 4) ++ dev.bmap.drop (bmapSize_b / 4)
      write_ptr := s.write_ptr
      nextBlockID := s.nextBlockID
      usedBlocks := s.usedBlocks
      lastUmountTime := now
      bmap_valid := 1
      log := s.log }

/-- The device when the constructor `FS::FS` has returned from a mount: its last write is
`dev.seekp(20); write32(dev, 0)`, which marks the block map on the device as not valid. -/
def mountedDevice (dev : Device) : Device := { dev with bmap_valid := 0 }

/-- The state with which `cleanDevice` is mounted. -/
def cleanMounted : FS :=
  { logSize := 2, write_ptr := 1, nextBlockID := 3, usedBlocks := 2,
    bmap := [1, 2] ++ List.replicate 1022 0, log := cleanDevice.log }

/-! ### Sequences of calls on a directory object -/

/-- A call of `addHardlink` or `rmHardlink` on a directory object. -/
inductive DirOp where
  | add (target : INode) (name : List Char)
  | rm (target : INode) (name : List Char)
deriving DecidableEq, Repr

/-- The call on the directory object `x.2` with the allocator state `x.1`; the target
INode and the returned block pointers are dropped. -/
def DirOp.run (c : Constants) (x : FS × Directory) : DirOp → Option (FS × Directory)
  | .add target name => (x.2.addHardlink c x.1 target name).map (fun r => (r.1, r.2.1))
  | .rm target name => (x.2.rmHardlink x.1 target name).map (fun r => (r.1, r.2.1))

/-- The names in the order in which the surviving links were added: a new name goes to
the end, a removal takes out the first link of that name. -/
def insertionOrder (names : List (List Char)) : DirOp → List (List Char)
  | .add _ name => names ++ [name]
  | .rm _ name => names.erase name

/-- Every entry list but the last is full (and an inlined directory holds at most one
list's worth of entries and has no entry list). -/
def Packed (c : Constants) (d : Directory) : Prop :=
  (d.inode.inlined = true →
    d.inode.entries.length ≤ c.MAX_LINKS_PER_DIRENTRYLIST ∧ d.entryLists = []) ∧
  (d.inode.inlined = false →
    ∀ l, l ∈ d.entryLists.dropLast → c.MAX_LINKS_PER_DIRENTRYLIST ≤ l.entries.length)

/-- The call is one that the claim about the order of `ls` counts as successful.  For
`addHardlink`: the name is not present, the directory and the target can take one more
link, and a block is free for a new entry list.  For `rmHardlink`: the name is a valid
link name, and in a directory with entry lists no list but the last holds it. -/
def DirOp.ok (c : Constants) (x : FS × Directory) : DirOp → Prop
  | .add target name =>
    x.2.searchHardlink name = 0 ∧ x.2.childCount ≠ c.MAX_HARDLINKS_PER_DIR ∧
    target.linkCounter ≠ MAX_NUMBER_OF_LINKS_TO_INODE ∧
    (x.1.usedBlocks + 1) % 4294967296 ≤ x.1.logSize
  | .rm _ name =>
    ¬ (name = [] ∨ '/' ∈ name) ∧
    (x.2.inode.inlined = false →
      ∀ l, l ∈ x.2.entryLists.dropLast → findLink l.entries name = none)

/-- A sequence of successful calls on a directory object, from `x` to the last argument. -/
inductive OrderedRun (c : Constants) (x : FS × Directory) :
    List DirOp → FS × Directory → Prop where
  | nil : OrderedRun c x [] x
  | snoc (ops : List DirOp) (op : DirOp) (y z : FS × Directory) :
      OrderedRun c x ops y → op.ok c y → op.run c y = some z → OrderedRun c x (ops ++ [op]) z

/-- The names of a sequence of entry lists, list by list. -/
def listNames (lists : List DirectoryEntryList) : List (List Char) :=
  (lists.map (fun l => l.entries.map Hardlink.linkName)).flatten

/-- The root directory object of `fullRoot`: inlined, with 127 entries. -/
def fullRootDir : Directory :=
  ⟨⟨⟨1, 0, 0, 0, 1, true, 127⟩, [⟨['.'], 1⟩, ⟨['.', '.'], 1⟩] ++
      (List.range 125).map (fun i => ⟨childName i, i + 2⟩), []⟩, 127, []⟩

/-- Three calls on `fullRootDir`: add "y", remove the first child, add "z". -/
def holeOps : List DirOp :=
  [.add ⟨200, 0, 0, 0, 2, true, 0⟩ ['y'], .rm ⟨2, 0, 0, 0, 1, true, 2⟩ (childName 0),
   .add ⟨201, 0, 0, 0, 2, true, 0⟩ ['z']]

/-- The root directory object of `inlineRoot`. -/
def inlineRootDir : Directory :=
  ⟨⟨⟨1, 0, 0, 0, 1, true, 2⟩, [⟨['.'], 1⟩, ⟨['.', '.'], 1⟩], []⟩, 2, []⟩

/-- A mounted image with `L` log slots (`4 ≤ L`): the root directory (block 1) with the
subdirectories "a" (block 2) and "b" (block 3), and the directory "x" (block 4) inside
"/a".  Block `i` is in slot `i`; all four directories are stored inline. -/
def twoParents (L : Nat) : FS :=
  { logSize := L, write_ptr := 5, nextBlockID := 5, usedBlocks := 4,
    bmap := [1, 2, 3, 4] ++ List.replicate (L - 4) 0,
    log := [dirBlock 1 0 4 [⟨['.'], 1⟩, ⟨['.', '.'], 1⟩, ⟨['a'], 2⟩, ⟨['b'], 3⟩],
            dirBlock 2 0 3 [⟨['.'], 2⟩, ⟨['.', '.'], 1⟩, ⟨['x'], 4⟩],
            dirBlock 3 0 2 [⟨['.'], 3⟩, ⟨['.', '.'], 1⟩],
            dirBlock 4 0 2 [⟨['.'], 4⟩, ⟨['.', '.'], 2⟩]] ++
      List.replicate (L - 4) (plainBlock 0) }

/-- Three log slots: the root block live in slot 1, a superseded copy of block 2 in slot 2
(the write pointer), slot 3 free. -/
def gcSuperseded : FS :=
  { logSize := 3, write_ptr := 2, nextBlockID := 2, usedBlocks := 1,
    bmap := [1, 0, 0], log := [plainBlock 1, plainBlock 2, plainBlock 0] }

/-! ### Byte images of the block headers and of the directory entries -/

/-- Modelled from the spec: `write8` / `write16` / `write32` of `StreamUtils.inc`, which
is not part of the sources: the `k` bytes of `v` in the fixed byte order of the image
(least significant byte first); higher bytes of `v` are dropped. -/
def leBytes : Nat → Nat → List Nat
  | 0, _ => []
  | k + 1, v => v % 256 :: leBytes k (v / 256)

/-- Modelled from the spec: `read8` / `read16` / `read32` of `StreamUtils.inc`: the value
of a run of bytes, least significant byte first. -/
def leValue : List Nat → Nat
  | [] => 0
  | b :: bs => b + 256 * leValue bs

/-- Writing `bytes` at offset `pos` of a slot; the other bytes of the slot stay
(`seekp` skips them). -/
def putBytes (buf : List Nat) (pos : Nat) (bytes : List Nat) : List Nat :=
  buf.take pos ++ bytes ++ buf.drop (pos + bytes.length)

/-- The `k` bytes at offset `pos` of a slot. -/
def getBytes (buf : List Nat) (pos k : Nat) : List Nat := (buf.drop pos).take k

/-- Method `Block::save`: id and `lastWriteTime = now()` at offsets 0 and 4. -/
def Block.saveBytes (buf : List Nat) (now id : Nat) : List Nat :=
  putBytes (putBytes buf 0 (leBytes 4 id)) 4 (leBytes 4 now)

/-- Method `INode::save` on the slot content `buf`: the `Block` header, then
`creationTime`, `size_b`, the byte `type << 4 | inlined << 3`, one skipped byte and the
link counter. -/
def INode.saveBytes (buf : List Nat) (now : Nat) (n : INode) : List Nat :=
  let b0 := Block.saveBytes buf now n.id
  let b1 := putBytes b0 8 (leBytes 4 n.creationTime)
  let b2 := putBytes b1 12 (leBytes 4 n.size_b)
  let b3 := putBytes b2 16
    (leBytes 1 ((n.type <<< 4) ||| ((if n.inlined then 1 else 0) <<< 3)))
  putBytes b3 18 (leBytes 2 n.linkCounter)

/-- The constructor `Block(STREAM&)`: id, `lastWriteTime` and the stream position behind
the header.  For id 0 the constructor returns before it reads `lastWriteTime`, which then
holds `uninit`. -/
def Block.readBytes (uninit : Nat) (buf : List Nat) : Nat × Nat × Nat :=
  let id := leValue (getBytes buf 0 4)
  if id = 0 then (0, uninit, 4) else (id, leValue (getBytes buf 4 4), 8)

/-- The constructor `INode(STREAM&)`: the header fields and the stream position behind
them. -/
def INode.readBytes (uninit : Nat) (buf : List Nat) : INode × Nat :=
  let (id, lastWriteTime, pos) := Block.readBytes uninit buf
  let typeAndInline := leValue (getBytes buf (pos + 8) 1)
  ({ id := id, lastWriteTime := lastWriteTime,
     creationTime := leValue (getBytes buf pos 4),
     size_b := leValue (getBytes buf (pos + 4) 4),
     type := (typeAndInline >>> 4) &&& 15,
     inlined := decide ((typeAndInline &&& 8) ≠ 0),
     linkCounter := leValue (getBytes buf (pos + 10) 2) }, pos + 12)

/-- The byte read by `FS::peekINodeType` at offset 16 of a slot, reduced to its upper
four bits. -/
def peekTypeByte (buf : List Nat) : Nat := (leValue (getBytes buf 16 1) >>> 4) &&& 15

/-- The 28 bytes of a name field: `strncpy(cname, name, 28)` followed by
`cname[27] = 0`. -/
def nameField (name : List Char) : List Nat :=
  let bs := ((name.takeWhile (fun ch => ch ≠ Char.ofNat 0)).take
    (MAX_LINK_NAME_LENGTH - 1)).map (fun ch => ch.toNat % 256)
  bs ++ List.replicate (MAX_LINK_NAME_LENGTH - bs.length) 0

/-- The `std::string(cname)` built from the 28 bytes of a name field: the bytes before
the first NUL.  Without a NUL among them the constructor reads past the array. -/
def readName (bs : List Nat) : Option (List Char) :=
  if 0 ∈ bs then some ((bs.takeWhile (fun b => b ≠ 0)).map Char.ofNat) else none

/-- The entry loop of `DirectoryINode::save` / `DirectoryEntryList::save` from offset
`pos` on. -/
def writeEntries (buf : List Nat) (pos : Nat) : List Hardlink → List Nat
  | [] => buf
  | h :: t =>
    writeEntries (putBytes buf pos (leBytes 4 h.targetINodeBlockID ++ nameField h.linkName))
      (pos + 4 + MAX_LINK_NAME_LENGTH) t

/-- The loop "null ids of rest" over `k` slots from offset `pos` on: the id is zeroed, the
name field is skipped. -/
def zeroRest (buf : List Nat) (pos : Nat) : Nat → List Nat
  | 0 => buf
  | k + 1 => zeroRest (putBytes buf pos (leBytes 4 0)) (pos + 4 + MAX_LINK_NAME_LENGTH) k

/-- The two loops over the entry slots, which start at offset `pos`. -/
def saveEntries (c : Constants) (buf : List Nat) (pos : Nat) (entries : List Hardlink) :
    List Nat :=
  zeroRest (writeEntries buf pos entries)
    (pos + (4 + MAX_LINK_NAME_LENGTH) * entries.length)
    (c.MAX_LINKS_PER_DIRENTRYLIST - entries.length)

/-- The reader loop over `k` entry slots from offset `pos` on. -/
def readEntries (buf : List Nat) (pos : Nat) : Nat → Option (List Hardlink)
  | 0 => some []
  | k + 1 =>
    let id := leValue (getBytes buf pos 4)
    if id ≠ 0 then
      match readName (getBytes buf (pos + 4) MAX_LINK_NAME_LENGTH) with
      | none => none
      | some name =>
        (readEntries buf (pos + 4 + MAX_LINK_NAME_LENGTH) k).map (fun t => ⟨name, id⟩ :: t)
    else readEntries buf (pos + 4 + MAX_LINK_NAME_LENGTH) k

/-- The loops of `DirectoryINode::save` over the table of entry list ids. -/
def saveIdTable (buf : List Nat) (pos : Nat) (ids : List Nat) (n : Nat) : List Nat :=
  putBytes buf pos ((ids.map (leBytes 4)).flatten ++
    (List.replicate (n - ids.length) (leBytes 4 0)).flatten)

/-- The reader loop over a table of `k` ids from offset `pos` on. -/
def readIdTable (buf : List Nat) (pos : Nat) : Nat → List Nat
  | 0 => []
  | k + 1 =>
    let id := leValue (getBytes buf pos 4)
    if id ≠ 0 then id :: readIdTable buf (pos + 4) k else readIdTable buf (pos + 4) k

/-- Method `DirectoryINode::save` on the slot content `buf`. -/
def DirectoryINode.saveBytes (c : Constants) (buf : List Nat) (now : Nat)
    (n : DirectoryINode) : List Nat :=
  let b := INode.saveBytes buf now n.toINode
  if n.inlined then saveEntries c b 32 n.entries
  else saveIdTable b 20 n.dirEntryListIDs c.MAX_DIRENTRYLISTS_PER_DIR

/-- The constructor `DirectoryINode(STREAM&)`; `none` when a name field has no NUL. -/
def DirectoryINode.readBytes (c : Constants) (uninit : Nat) (buf : List Nat) :
    Option DirectoryINode :=
  let (hdr, pos) := INode.readBytes uninit buf
  if hdr.type ≠ INODE_TYPE_DIR then some ⟨hdr, [], []⟩
  else if hdr.inlined then
    (readEntries buf (pos + 12) c.MAX_LINKS_PER_DIRENTRYLIST).map (fun es => ⟨hdr, es, []⟩)
  else some ⟨hdr, [], readIdTable buf pos c.MAX_DIRENTRYLISTS_PER_DIR⟩

/-- Method `DirectoryEntryList::save` on the slot content `buf`. -/
def DirectoryEntryList.saveBytes (c : Constants) (buf : List Nat) (now : Nat)
    (l : DirectoryEntryList) : List Nat :=
  saveEntries c (Block.saveBytes buf now l.id) 32 l.entries

/-- The constructor `DirectoryEntryList(STREAM&)`; `none` when a name field has no NUL. -/
def DirectoryEntryList.readBytes (c : Constants) (uninit : Nat) (buf : List Nat) :
    Option DirectoryEntryList :=
  let (id, lastWriteTime, pos) := Block.readBytes uninit buf
  (readEntries buf (pos + 24) c.MAX_LINKS_PER_DIRENTRYLIST).map
    (fun es => ⟨id, lastWriteTime, es⟩)

/-- A slot content of 4096 bytes, all of them 255. -/
def dirtySlot : List Nat := List.replicate 4096 255

/-- A name as the claim describes it: 1 to 27 characters, each a byte different from
NUL. -/
def PlainName (name : List Char) : Prop :=
  1 ≤ name.length ∧ name.length ≤ 27 ∧ ∀ ch, ch ∈ name → ch.toNat ≠ 0 ∧ ch.toNat < 256

instance (name : List Char) : Decidable (PlainName name) := by
  unfold PlainName
  infer_instance

/-- An open file object with 1023 data blocks (ids 6 to 1028) in two DataBlockLists: block
3 holds 1022 ids, block 4 holds one. -/
def twoListFile : OpenFile :=
  { inode := ⟨⟨2, 0, 0, 4182024, 2, false, 1⟩, [], [3, 4]⟩,
    blockLists := [⟨3, 0, List.range' 6 1022⟩, ⟨4, 0, [1028]⟩],
    numberOfDataBlocks := 1023, cachedDataBlock := none }

/-- The links of a directory object in the order of `Directory::ls`: the inline entries,
or the entries of the entry lists one list after the other. -/
def Directory.links (d : Directory) : List Hardlink :=
  if d.inode.inlined then d.inode.entries
  else (d.entryLists.map DirectoryEntryList.entries).flatten

/-- The result of a lookup as `searchHardlink` returns it: the target id, or 0 when no
link was found. -/
def linkTarget (o : Option Hardlink) : Nat :=
  match o with
  | none => 0
  | some h => h.targetINodeBlockID

/-- Consistency of a directory object: `childCount` is the number of links; an inlined
directory has no entry list and at most one list's worth of inline entries; in an external
directory the INode names the entry lists in their order and no list is over-full. -/
def DirInv (c : Constants) (d : Directory) : Prop :=
  d.childCount = d.links.length ∧
  (d.inode.inlined = true → d.entryLists = [] ∧ d.inode.dirEntryListIDs = [] ∧
    d.inode.entries.length ≤ c.MAX_LINKS_PER_DIRENTRYLIST) ∧
  (d.inode.inlined = false →
    d.inode.dirEntryListIDs = d.entryLists.map DirectoryEntryList.id ∧
    ∀ l, l ∈ d.entryLists → l.entries.length ≤ c.MAX_LINKS_PER_DIRENTRYLIST)

instance (c : Constants) (d : Directory) : Decidable (DirInv c d) := by
  unfold DirInv
  infer_instance

/-- The root directory object of `inlineRoot` after `addHardlink(target, "")` for the
target INode 5: a third entry with the empty name. -/
def emptyNameDir : Directory :=
  ⟨⟨⟨1, 0, 0, 0, 1, true, 2⟩, [⟨['.'], 1⟩, ⟨['.', '.'], 1⟩, ⟨[], 5⟩], []⟩, 3, []⟩

/-- The root directory object of `twoListRoot`: external, the entry list of block 2 holds
"." and "..", the entry list of block 3 holds "f". -/
def twoListRootDir : Directory :=
  ⟨⟨⟨1, 0, 0, 0, 1, false, 2⟩, [], [2, 3]⟩, 3,
    [⟨2, 0, [⟨['.'], 1⟩, ⟨['.', '.'], 1⟩]⟩, ⟨3, 0, [⟨['f'], 4⟩]⟩]⟩

/-- The block map names a slot for the id: the entry exists and is not 0. -/
def LiveId (s : FS) (id : Nat) : Prop :=
  s.bmap[idx id]? ≠ none ∧ s.bmap[idx id]? ≠ some 0

instance (s : FS) (id : Nat) : Decidable (LiveId s id) := by
  unfold LiveId
  infer_instance

/-- An image with ten log slots that holds only the root directory. -/
def tenSlots : FS :=
  { logSize := 10, write_ptr := 2, nextBlockID := 2, usedBlocks := 1,
    bmap := [1, 0, 0, 0, 0, 0, 0, 0, 0, 0],
    log := [dirBlock 1 0 2 [⟨['.'], 1⟩, ⟨['.', '.'], 1⟩],
            plainBlock 0, plainBlock 0, plainBlock 0, plainBlock 0, plainBlock 0,
            plainBlock 0, plainBlock 0, plainBlock 0, plainBlock 0] }

/-- The mounted image `tenSlots` after `touch("/f")` with the clock at 10 and
`openFile("/f")`. -/
def tenSlotsOpened : Mounted :=
  ⟨{ logSize := 10, write_ptr := 4, nextBlockID := 3, usedBlocks := 2,
     bmap := [3, 2, 0, 0, 0, 0, 0, 0, 0, 0],
     log := [dirBlock 1 0 2 [⟨['.'], 1⟩, ⟨['.', '.'], 1⟩],
             ⟨2, 11, .inode 10 0 2 true 1 (.bytes [])⟩,
             dirBlock 1 12 2 [⟨['.'], 1⟩, ⟨['.', '.'], 1⟩, ⟨['f'], 2⟩],
             plainBlock 0, plainBlock 0, plainBlock 0, plainBlock 0, plainBlock 0,
             plainBlock 0, plainBlock 0] }, [(2, emptyFile)], 0⟩

/-- The image of `tenSlotsOpened` after the switch of "/f" to non-inlined storage with the
clock at 20. -/
def tenSlotsSwitched : FS :=
  { logSize := 10, write_ptr := 7, nextBlockID := 5, usedBlocks := 4,
    bmap := [3, 5, 6, 4, 0, 0, 0, 0, 0, 0],
    log := [dirBlock 1 0 2 [⟨['.'], 1⟩, ⟨['.', '.'], 1⟩],
            ⟨2, 11, .inode 10 0 2 true 1 (.bytes [])⟩,
            dirBlock 1 12 2 [⟨['.'], 1⟩, ⟨['.', '.'], 1⟩, ⟨['f'], 2⟩],
            ⟨4, 20, .plain (.ids [3])⟩,
            ⟨2, 21, .inode 10 0 2 false 1 (.ids [4])⟩,
            ⟨3, 22, .plain (.bytes (noBytes 3))⟩,
            plainBlock 0, plainBlock 0, plainBlock 0, plainBlock 0] }

/-- The mounted file system after `write(2, S, 0, 4088)` on `tenSlotsOpened` with the clock
at 20, where `S` holds 4088 bytes of value 7. -/
def tenSlotsWritten : Mounted :=
  ⟨tenSlotsSwitched, [(2, oneBlockFile 4088 (List.replicate 4088 7))], 3⟩

/-- The file object of "/f" with 4089 bytes: two data blocks, of which the second, block 5,
is cached and dirty and was never saved. -/
def twoBlockFile : OpenFile :=
  ⟨⟨⟨⟨2, 11, 10, 4089, 2, false, 1⟩, [], [4]⟩, [⟨4, 0, [3, 5]⟩], 2⟩, some ⟨5, 0, [9], true⟩⟩

/-- The mounted file system after `write(2, [9], 4088, 1)` on `tenSlotsWritten` with the
clock at 30: data block 3 was saved to slot 7, the block list to slot 8, and the new data
block 5 has no slot yet. -/
def twoBlocksWritten : Mounted :=
  ⟨{ logSize := 10, write_ptr := 9, nextBlockID := 6, usedBlocks := 4,
     bmap := [3, 5, 7, 8, 0, 0, 0, 0, 0, 0],
     log := [dirBlock 1 0 2 [⟨['.'], 1⟩, ⟨['.', '.'], 1⟩],
             ⟨2, 11, .inode 10 0 2 true 1 (.bytes [])⟩,
             dirBlock 1 12 2 [⟨['.'], 1⟩, ⟨['.', '.'], 1⟩, ⟨['f'], 2⟩],
             ⟨4, 20, .plain (.ids [3])⟩,
             ⟨2, 21, .inode 10 0 2 false 1 (.ids [4])⟩,
             ⟨3, 22, .plain (.bytes (noBytes 3))⟩,
             ⟨3, 33, .plain (.bytes (List.replicate 4088 7))⟩,
             ⟨4, 34, .plain (.ids [3, 5])⟩,
             plainBlock 0, plainBlock 0] }, [(2, twoBlockFile)], 5⟩

/-- A mounted image whose root directory is stored externally with two entry lists: block 2
holds "." and "..", block 3 holds the empty files "f" (INode 4) and "g" (INode 5). -/
def twoListRootFG : FS :=
  { logSize := 8, write_ptr := 6, nextBlockID := 6, usedBlocks := 5,
    bmap := [1, 2, 3, 4, 5, 0, 0, 0],
    log := [⟨1, 0, .inode 0 0 1 false 2 (.ids [2, 3])⟩,
            ⟨2, 0, .plain (.links [⟨['.'], 1⟩, ⟨['.', '.'], 1⟩])⟩,
            ⟨3, 0, .plain (.links [⟨['f'], 4⟩, ⟨['g'], 5⟩])⟩,
            ⟨4, 0, .inode 0 0 2 true 1 (.bytes [])⟩,
            ⟨5, 0, .inode 0 0 2 true 1 (.bytes [])⟩,
            plainBlock 0, plainBlock 0, plainBlock 0] }

/-- A mounted image with twelve log slots: the root directory with the subdirectories "a"
(INode 2) and "b" (INode 3).  "a" is stored in two entry lists: block 5 holds "." and "..",
block 6 holds "x" (the directory INode 4) and "y" (the empty file INode 7).  "b" and "x" are
stored inline. -/
def listParent : FS :=
  { logSize := 12, write_ptr := 8, nextBlockID := 8, usedBlocks := 7,
    bmap := [1, 2, 3, 4, 5, 6, 7, 0, 0, 0, 0, 0],
    log := [dirBlock 1 0 4 [⟨['.'], 1⟩, ⟨['.', '.'], 1⟩, ⟨['a'], 2⟩, ⟨['b'], 3⟩],
            ⟨2, 0, .inode 0 0 1 false 3 (.ids [5, 6])⟩,
            dirBlock 3 0 2 [⟨['.'], 3⟩, ⟨['.', '.'], 1⟩],
            dirBlock 4 0 2 [⟨['.'], 4⟩, ⟨['.', '.'], 2⟩],
            ⟨5, 0, .plain (.links [⟨['.'], 2⟩, ⟨['.', '.'], 1⟩])⟩,
            ⟨6, 0, .plain (.links [⟨['x'], 4⟩, ⟨['y'], 7⟩])⟩,
            ⟨7, 0, .inode 0 0 2 true 1 (.bytes [])⟩,
            plainBlock 0, plainBlock 0, plainBlock 0, plainBlock 0, plainBlock 0] }

/-- The entries of a full inlined directory with INode 3 below the root: ".", ".." and 125
names of the file INode 5. -/
def fullParentEntries : List Hardlink :=
  [⟨['.'], 3⟩, ⟨['.', '.'], 1⟩] ++ (List.range 125).map (fun i => ⟨childName i, 5⟩)

/-- A mounted image with twelve log slots: the root directory with the subdirectories "a"
(INode 2, which holds the directory "x", INode 4) and "b" (INode 3), all stored inline.  "b"
is full: it holds ".", ".." and 125 names of the empty file INode 5. -/
def fullParent : FS :=
  { logSize := 12, write_ptr := 6, nextBlockID := 6, usedBlocks := 5,
    bmap := [1, 2, 3, 4, 5, 0, 0, 0, 0, 0, 0, 0],
    log := [dirBlock 1 0 4 [⟨['.'], 1⟩, ⟨['.', '.'], 1⟩, ⟨['a'], 2⟩, ⟨['b'], 3⟩],
            dirBlock 2 0 3 [⟨['.'], 2⟩, ⟨['.', '.'], 1⟩, ⟨['x'], 4⟩],
            dirBlock 3 0 2 fullParentEntries,
            dirBlock 4 0 2 [⟨['.'], 4⟩, ⟨['.', '.'], 2⟩],
            ⟨5, 0, .inode 0 0 2 true 125 (.bytes [])⟩,
            plainBlock 0, plainBlock 0, plainBlock 0, plainBlock 0, plainBlock 0, plainBlock 0,
            plainBlock 0] }

/-! ## Theorems -/

@[simp] theorem zeroSlotId_bmap (s : FS) (p : Nat) : (zeroSlotId s p).bmap = s.bmap := rfl
@[simp] theorem zeroSlotId_usedBlocks (s : FS) (p : Nat) : (zeroSlotId s p).usedBlocks = s.usedBlocks := rfl
@[simp] theorem zeroSlotId_logSize (s : FS) (p : Nat) : (zeroSlotId s p).logSize = s.logSize := rfl
@[simp] theorem zeroSlotId_nextBlockID (s : FS) (p : Nat) : (zeroSlotId s p).nextBlockID = s.nextBlockID := rfl
@[simp] theorem zeroSlotId_write_ptr (s : FS) (p : Nat) : (zeroSlotId s p).write_ptr = s.write_ptr := rfl
@[simp] theorem zeroSlotId_log_length (s : FS) (p : Nat) : (zeroSlotId s p).log.length = s.log.length := by
  simp [zeroSlotId]

theorem slotId_zeroSlotId_same (s : FS) (p i : Nat) (h : slotId s p = some i) :
    slotId (zeroSlotId s p) p = some 0 := by
  unfold slotId at *
  split at h
  · simp at h
  · rename_i hp
    simp only [hp, if_false, zeroSlotId]
    cases hg : s.log[p - 1]? with
    | none => simp [hg] at h
    | some b => simp [List.getElem?_modify, hg]

theorem slotId_zeroSlotId_other (s : FS) (p q : Nat) (hq : q ≠ 0) (hp : p ≠ 0) (h : q ≠ p) :
    slotId (zeroSlotId s p) q = slotId s q := by
  unfold slotId
  simp only [hq, if_false, zeroSlotId]
  have : p - 1 ≠ q - 1 := by omega
  simp [List.getElem?_modify, this]

theorem bmapAt_congr (s t : FS) (h : t.bmap = s.bmap) (i : Nat) : bmapAt t i = bmapAt s i := by
  simp [bmapAt, h]

/-- Frame of the `gc` loop: nothing but `write_ptr` and the id fields of log slots is touched. -/
theorem gcLoop_frame (n : Nat) : ∀ (s s' : FS) (p : Nat), gcLoop n s = some (p, s') →
    s'.bmap = s.bmap ∧ s'.usedBlocks = s.usedBlocks ∧ s'.logSize = s.logSize ∧
    s'.nextBlockID = s.nextBlockID ∧ s'.log.length = s.log.length := by
  induction n with
  | zero =>
    intro s s' p h
    simp [gcLoop] at h
    obtain ⟨-, rfl⟩ := h
    simp
  | succ n ih =>
    intro s s' p h
    unfold gcLoop at h
    split at h
    · simp at h
    · split at h
      · simp at h
        obtain ⟨-, rfl⟩ := h
        simp
      · split at h
        · simp at h
        · split at h
          · have := ih _ _ _ h
            simpa using this
          · have := ih _ _ _ h
            simpa using this

/-- The returned slot of the `gc` loop. -/
theorem gcLoop_result (n : Nat) : ∀ (s s' : FS) (p : Nat), gcLoop n s = some (p, s') → p ≠ 0 →
    s'.write_ptr = p ∧ slotId s' p = some 0 ∧
    ∃ i, slotId s p = some i ∧ (i = 0 ∨ ∃ a, bmapAt s i = some a ∧ a ≠ p) := by
  induction n with
  | zero =>
    intro s s' p h hp
    simp [gcLoop] at h
    exact absurd h.1.symm hp
  | succ n ih =>
    intro s s' p h hp
    unfold gcLoop at h
    split at h
    · simp at h
    · rename_i id hid
      split at h
      · rename_i h0
        simp at h
        obtain ⟨rfl, rfl⟩ := h
        subst h0
        exact ⟨rfl, hid, 0, hid, Or.inl rfl⟩
      · rename_i h0
        split at h
        · simp at h
        · rename_i a ha
          split at h
          · rename_i hne
            obtain ⟨h1, h2, i, h3, h4⟩ := ih _ _ _ h hp
            refine ⟨h1, h2, ?_⟩
            by_cases hpw : p = s.write_ptr
            · subst hpw
              exact ⟨id, hid, Or.inr ⟨a, ha, hne⟩⟩
            · have hw0 : s.write_ptr ≠ 0 := by
                intro hw
                simp [slotId, hw] at hid
              rw [slotId_zeroSlotId_other s _ _ hp hw0 hpw] at h3
              refine ⟨i, h3, ?_⟩
              rcases h4 with h4 | ⟨a', h4, h5⟩
              · exact Or.inl h4
              · exact Or.inr ⟨a', by simpa [bmapAt, zeroSlotId] using h4, h5⟩
          · obtain ⟨h1, h2, i, h3, h4⟩ := ih _ _ _ h hp
            refine ⟨h1, h2, i, ?_, ?_⟩
            · simpa [slotId] using h3
            · rcases h4 with h4 | ⟨a', h4, h5⟩
              · exact Or.inl h4
              · exact Or.inr ⟨a', by simpa [bmapAt] using h4, h5⟩

theorem countNZ_set (l : List Nat) (i v : Nat) (h : i < l.length) :
    countNZ (l.set i v) + (if l[i] ≠ 0 then 1 else 0) = countNZ l + (if v ≠ 0 then 1 else 0) := by
  unfold countNZ
  rw [List.countP_set _ _ _ _ h]
  have := List.boole_getElem_le_countP (fun a => decide (a ≠ 0)) l i h
  simp only [decide_eq_true_eq] at this ⊢
  omega

theorem countNZ_le_length (l : List Nat) : countNZ l ≤ l.length := List.countP_le_length _

/-- When every one of the first `n` entries is nonzero, at least `n` entries are counted. -/
theorem le_countNZ_of_prefix (l : List Nat) (n : Nat) (hn : n ≤ l.length)
    (h : ∀ k, k < n → l[k]? ≠ some 0) : n ≤ countNZ l := by
  induction l generalizing n with
  | nil => simp at hn; omega
  | cons a l ih =>
    cases n with
    | zero => exact Nat.zero_le _
    | succ n =>
      have ha : a ≠ 0 := by
        intro h0
        exact h 0 (Nat.succ_pos _) (by simp [h0])
      have := ih n (by simpa using hn) (fun k hk => by simpa using h (k + 1) (by omega))
      have hc : countNZ (a :: l) = countNZ l + 1 := by
        simp [countNZ, List.countP_cons, ha]
      omega

/-- Under `usedBlocks = countNZ bmap` a map that is not full has a free id. -/
theorem exists_free_id (s : FS) (hlen : s.logSize ≤ s.bmap.length)
    (hInv : s.usedBlocks = countNZ s.bmap) (hU : s.usedBlocks < s.logSize) :
    ∃ k, 1 ≤ k ∧ k ≤ s.logSize ∧ s.bmap[k - 1]? = some 0 := by
  by_contra hne
  push_neg at hne
  have := le_countNZ_of_prefix s.bmap s.logSize hlen (fun k hk => by
    have := hne (k + 1) (by omega) (by omega)
    simpa using this)
  omega

theorem getNextBlockIDLoop_spec (s : FS) (hnb : 1 ≤ s.nextBlockID ∧ s.nextBlockID ≤ s.logSize)
    (hL : 2 * s.logSize ≤ 4294967296) (hlen : s.logSize ≤ s.bmap.length) :
    ∀ n i, n + i = s.logSize →
      (∀ j, j < i → s.bmap[circId s.logSize s.nextBlockID j - 1]? ≠ some 0) →
      (∃ j, i ≤ j ∧ j < s.logSize ∧ s.bmap[circId s.logSize s.nextBlockID j - 1]? = some 0) →
      ∃ i' k, i' < s.logSize ∧ k = circId s.logSize s.nextBlockID i' ∧
        s.bmap[k - 1]? = some 0 ∧
        (∀ j, j < i' → s.bmap[circId s.logSize s.nextBlockID j - 1]? ≠ some 0) ∧
        getNextBlockIDLoop s n i = some (k, { s with
          nextBlockID := if k + 1 > s.logSize then k + 1 - s.logSize else k + 1 }) := by
  intro n
  induction n with
  | zero =>
    intro i hi _ ⟨j, hj1, hj2, _⟩
    omega
  | succ n ih =>
    intro i hi hprev ⟨j, hj1, hj2, hj3⟩
    have hmod : (s.nextBlockID + i) % 4294967296 = s.nextBlockID + i :=
      Nat.mod_eq_of_lt (by omega)
    have hc : (if (s.nextBlockID + i) % 4294967296 > s.logSize
        then (s.nextBlockID + i) % 4294967296 - s.logSize
        else (s.nextBlockID + i) % 4294967296) = circId s.logSize s.nextBlockID i := by
      simp [circId, hmod]
    have hk1 : 1 ≤ circId s.logSize s.nextBlockID i := by
      unfold circId; split <;> omega
    have hk2 : circId s.logSize s.nextBlockID i ≤ s.logSize := by
      unfold circId; split <;> omega
    have hidx : idx (circId s.logSize s.nextBlockID i) = circId s.logSize s.nextBlockID i - 1 := by
      simp [idx]; omega
    obtain ⟨a, ha⟩ : ∃ a, s.bmap[circId s.logSize s.nextBlockID i - 1]? = some a := by
      have : circId s.logSize s.nextBlockID i - 1 < s.bmap.length := by omega
      exact ⟨_, List.getElem?_eq_getElem this⟩
    unfold getNextBlockIDLoop
    simp only [hc, bmapAt, hidx, ha]
    by_cases ha0 : a = 0
    · subst ha0
      refine ⟨i, _, by omega, rfl, ha, hprev, ?_⟩
      have hm2 : (circId s.logSize s.nextBlockID i + 1) % 4294967296
          = circId s.logSize s.nextBlockID i + 1 := Nat.mod_eq_of_lt (by omega)
      simp [hm2]
    · simp only [ha0, if_false]
      have hji : j ≠ i := by
        rintro rfl
        rw [ha] at hj3
        exact ha0 (by simpa using hj3)
      exact ih (i + 1) (by omega)
        (fun j' hj' => by
          by_cases h : j' = i
          · subst h; rw [ha]; simpa using ha0
          · exact hprev j' (by omega))
        ⟨j, by omega, hj2, hj3⟩

theorem advance_range (L p : Nat) (h1 : 1 ≤ p) (h2 : p ≤ L) (hL : L < 4294967295) :
    1 ≤ advance L p ∧ advance L p ≤ L ∧ advance L p = p % L + 1 := by
  have hm : (p + 1) % 4294967296 = p + 1 := Nat.mod_eq_of_lt (by omega)
  unfold advance
  rw [hm]
  by_cases hp : p = L
  · subst hp
    simp
    omega
  · have hlt : p < L := by omega
    have : ¬ (p + 1 > L) := by omega
    simp only [this, if_false]
    rw [Nat.mod_eq_of_lt hlt]
    omega

/-- The `gc` loop keeps `write_ptr` inside `[1, logSize]`. -/
theorem gcLoop_write_ptr (n : Nat) : ∀ (s s' : FS) (p : Nat), gcLoop n s = some (p, s') →
    1 ≤ s.write_ptr → s.write_ptr ≤ s.logSize → s.logSize < 4294967295 →
    1 ≤ s'.write_ptr ∧ s'.write_ptr ≤ s'.logSize := by
  induction n with
  | zero =>
    intro s s' p h h1 h2 _
    simp [gcLoop] at h
    obtain ⟨-, rfl⟩ := h
    exact ⟨h1, h2⟩
  | succ n ih =>
    intro s s' p h h1 h2 hL
    unfold gcLoop at h
    split at h
    · simp at h
    · split at h
      · simp at h
        obtain ⟨-, rfl⟩ := h
        exact ⟨h1, h2⟩
      · split at h
        · simp at h
        · split at h
          · exact ih _ _ _ h h1 h2 hL
          · have := advance_range s.logSize s.write_ptr h1 h2 hL
            exact ih _ _ _ h this.1 this.2.1 hL

theorem gc_frame (s s' : FS) (p : Nat) (h : gc s = some (p, s')) :
    s'.bmap = s.bmap ∧ s'.usedBlocks = s.usedBlocks ∧ s'.logSize = s.logSize ∧
    s'.nextBlockID = s.nextBlockID ∧ s'.log.length = s.log.length := by
  unfold gc at h
  split at h
  · simp at h
    obtain ⟨-, rfl⟩ := h
    simp
  · exact gcLoop_frame _ _ _ _ h

theorem gc_ne_zero (s s' : FS) (p : Nat) (h : gc s = some (p, s')) (hp : p ≠ 0) :
    gcLoop s.logSize s = some (p, s') := by
  unfold gc at h
  split at h
  · simp at h
    exact absurd h.1.symm hp
  · exact h

/-- C5: whenever `gc` returns a slot `p ≠ 0`, `p` is `write_ptr` at return, slot `p` holds
id 0 at return, before the call the slot held id 0 or the id of a block whose block map
entry is not `p`, and the call changed neither `usedBlocks` nor the block map. -/
theorem gc_returned_slot (s s' : FS) (p : Nat) (h : gc s = some (p, s')) (hp : p ≠ 0) :
    s'.write_ptr = p ∧ slotId s' p = some 0 ∧
    (∃ i, slotId s p = some i ∧ (i = 0 ∨ ∃ a, bmapAt s i = some a ∧ a ≠ p)) ∧
    s'.usedBlocks = s.usedBlocks ∧ s'.bmap = s.bmap := by
  have hl := gc_ne_zero s s' p h hp
  obtain ⟨h1, h2, h3⟩ := gcLoop_result _ _ _ _ hl hp
  obtain ⟨h4, h5, -⟩ := gcLoop_frame _ _ _ _ hl
  exact ⟨h1, h2, h3, h5, h4⟩

theorem gc_returned_slot_witness :
    (gc gcReclaim).map Prod.fst = some 2 ∧
    ((gc gcReclaim).map Prod.snd).map FS.write_ptr = some 2 := by
  have h : gc gcReclaim = some (2, zeroSlotId gcReclaim 2) := by decide
  have := gc_returned_slot gcReclaim _ 2 h (by decide)
  rw [h]
  exact ⟨rfl, by simpa using congrArg some this.1⟩

/-- C4, failing input: the state `gcStuck` is consistent and not full (`usedBlocks` is 1,
`logSize` is 2), and `gc` returns 0 on it: of the two iterations that the loop bound allows,
one skips the live slot and one zeroes the superseded slot without taking it. -/
theorem gc_zero_though_not_full :
    Consistent gcStuck ∧ gcStuck.usedBlocks < gcStuck.logSize ∧
    (gc gcStuck).map Prod.fst = some 0 := by
  decide

/-- C1, failing input: in the state `gcStuck` the counter `usedBlocks` equals the number
of nonzero block map entries (one).  `freeBlock(2)`, on an id whose entry is zero already,
decrements the counter all the same: afterwards `usedBlocks` is 0 and one entry is nonzero. -/
theorem freeBlock_breaks_usedBlocks :
    gcStuck.usedBlocks = countNZ gcStuck.bmap ∧
    ∃ s', freeBlock gcStuck 2 = some s' ∧ s'.usedBlocks = 0 ∧ countNZ s'.bmap = 1 := by
  refine ⟨by decide, _, rfl, by decide, by decide⟩

/-- C6: `freeBlock(id)` changes nothing for the ids 0 and 1; for every other id inside the
block map it sets `bmap[id-1]` to 0, decrements `usedBlocks` by one (as a 32-bit counter) and
leaves every other block map entry, `write_ptr`, the log, `logSize` and `nextBlockID`
unchanged. -/
theorem freeBlock_spec (s : FS) (id : Nat) :
    (id ≤ 1 → freeBlock s id = some s) ∧
    (2 ≤ id → id ≤ s.bmap.length →
      ∃ s', freeBlock s id = some s' ∧
        s'.bmap[id - 1]? = some 0 ∧
        s'.usedBlocks = (s.usedBlocks + 4294967295) % 4294967296 ∧
        (0 < s.usedBlocks → s.usedBlocks < 4294967296 → s'.usedBlocks + 1 = s.usedBlocks) ∧
        (∀ k, k ≠ id - 1 → s'.bmap[k]? = s.bmap[k]?) ∧
        s'.write_ptr = s.write_ptr ∧ s'.log = s.log ∧ s'.logSize = s.logSize ∧
        s'.nextBlockID = s.nextBlockID) := by
  constructor
  · intro h
    unfold freeBlock
    by_cases h0 : id = 0
    · simp [h0]
    · have : id = 1 := by omega
      simp [this]
  · intro h2 hlen
    have h0 : id ≠ 0 := by omega
    have h1 : id ≠ 1 := by omega
    have hlt : id - 1 < s.bmap.length := by omega
    refine ⟨{ s with bmap := s.bmap.set (id - 1) 0,
                     usedBlocks := (s.usedBlocks + 4294967295) % 4294967296 },
      by unfold freeBlock; rw [if_neg h0, if_neg h1, if_pos hlt], ?_, rfl, ?_, ?_, rfl, rfl, rfl, rfl⟩
    · simp [hlt]
    · intro hpos hr
      show (s.usedBlocks + 4294967295) % 4294967296 + 1 = s.usedBlocks
      omega
    · intro k hk
      show (s.bmap.set (id - 1) 0)[k]? = s.bmap[k]?
      rw [List.getElem?_set_ne (Ne.symm hk)]

theorem freeBlock_spec_witness :
    (freeBlock gcReclaim 1 = some gcReclaim) ∧
    (∃ s', freeBlock gcReclaim 2 = some s' ∧ s'.bmap[1]? = some 0) := by
  have h := freeBlock_spec gcReclaim 2
  have h1 := freeBlock_spec gcReclaim 1
  refine ⟨h1.1 (by decide), ?_⟩
  obtain ⟨s', hs, hb, -⟩ := h.2 (by decide) (by decide)
  exact ⟨s', hs, hb⟩


theorem slotId_lt (s : FS) (p i : Nat) (h : slotId s p = some i) :
    p ≠ 0 ∧ p - 1 < s.log.length := by
  unfold slotId at h
  split at h
  · simp at h
  · rename_i hp
    refine ⟨hp, ?_⟩
    cases hg : s.log[p - 1]? with
    | none => simp [hg] at h
    | some b => exact (List.getElem?_eq_some_iff.mp hg).1

/-- C2: `saveBlock(b)` for a block id inside the block map, `write_ptr` in `[1, logSize]`
and 32-bit counters below their maximum.  If `gc` yields a slot `p ≠ 0`, then afterwards
slot `p` of the log holds the image of `b` (its id and body, stamped `now`),
`bmap[b.id-1] = p`, `usedBlocks` is one higher exactly when `bmap[b.id-1]` was 0 before,
`write_ptr = (p mod logSize) + 1` and every other block map entry is unchanged; if `gc`
yields 0, the block map and `usedBlocks` are unchanged. -/
theorem saveBlock_spec (s s1 : FS) (b : Block) (now p : Nat) (hgc : gc s = some (p, s1))
    (hwp : 1 ≤ s.write_ptr ∧ s.write_ptr ≤ s.logSize) (hL : s.logSize < 4294967295)
    (hid : 1 ≤ b.id ∧ b.id ≤ s.bmap.length) (hU : s.usedBlocks < 4294967295) :
    (p ≠ 0 → ∃ s', saveBlock s b now = some s' ∧
      s'.log[p - 1]? = some { b with lastWriteTime := now } ∧
      s'.bmap[b.id - 1]? = some p ∧
      s'.usedBlocks = (if s.bmap[b.id - 1]? = some 0 then s.usedBlocks + 1 else s.usedBlocks) ∧
      s'.write_ptr = p % s.logSize + 1 ∧
      ∀ k, k ≠ b.id - 1 → s'.bmap[k]? = s.bmap[k]?) ∧
    (p = 0 → saveBlock s b now = some s1 ∧ s1.bmap = s.bmap ∧ s1.usedBlocks = s.usedBlocks) := by
  obtain ⟨fb, fu, fl, -, -⟩ := gc_frame s s1 p hgc
  constructor
  · intro hp
    have hl := gc_ne_zero s s1 p hgc hp
    obtain ⟨h1, h2, -⟩ := gcLoop_result _ _ _ _ hl hp
    obtain ⟨w1, w2⟩ := gcLoop_write_ptr _ _ _ _ hl hwp.1 hwp.2 hL
    obtain ⟨-, hplt⟩ := slotId_lt _ _ _ h2
    have hidx : idx b.id = b.id - 1 := by
      have : b.id ≠ 0 := by omega
      simp [idx, this]
    have hblt : b.id - 1 < s.bmap.length := by omega
    obtain ⟨a, ha⟩ : ∃ a, s.bmap[b.id - 1]? = some a := ⟨_, List.getElem?_eq_getElem hblt⟩
    have hadv := advance_range s1.logSize s1.write_ptr w1 w2 (by omega)
    refine ⟨{ s1 with
        log := s1.log.set (p - 1) { b with lastWriteTime := now }
        usedBlocks := if a = 0 then (s1.usedBlocks + 1) % 4294967296 else s1.usedBlocks
        bmap := s1.bmap.set (b.id - 1) p
        write_ptr := advance s1.logSize s1.write_ptr }, ?_, ?_, ?_, ?_, ?_, ?_⟩
    · unfold saveBlock
      simp only [hgc, hp, if_false, hplt, if_true, bmapAt, hidx, fb, ha]
    · simp [hplt]
    · show (s1.bmap.set (b.id - 1) p)[b.id - 1]? = some p
      rw [fb]
      simp [hblt]
    · show (if a = 0 then (s1.usedBlocks + 1) % 4294967296 else s1.usedBlocks) = _
      rw [ha, fu]
      have hm : (s.usedBlocks + 1) % 4294967296 = s.usedBlocks + 1 :=
        Nat.mod_eq_of_lt (by omega)
      by_cases h0 : a = 0
      · simp [h0, hm]
      · simp [h0]
    · show advance s1.logSize s1.write_ptr = _
      rw [hadv.2.2, h1, fl]
    · intro k hk
      show (s1.bmap.set (b.id - 1) p)[k]? = _
      rw [fb, List.getElem?_set_ne (Ne.symm hk)]
  · intro hp
    subst hp
    refine ⟨?_, fb, fu⟩
    unfold saveBlock
    simp [hgc]

theorem saveBlock_spec_witness :
    ∃ s', saveBlock gcReclaim (plainBlock 2) 7 = some s' ∧
      s'.log[1]? = some { plainBlock 2 with lastWriteTime := 7 } ∧ s'.usedBlocks = 2 := by
  have h : gc gcReclaim = some (2, zeroSlotId gcReclaim 2) := by decide
  obtain ⟨s', h1, h2, -, h4, -⟩ := (saveBlock_spec gcReclaim _ (plainBlock 2) 7 2 h
    (by decide) (by decide) (by decide) (by decide)).1 (by decide)
  exact ⟨s', h1, h2, by simpa using h4⟩

/-- C3: `getNextBlockID` for `nextBlockID` in `[1, logSize]`, with `2 * logSize ≤ 2^32`
and a block map that covers the log.  With `usedBlocks < logSize` and a zero entry present
it returns the first id `k` in the circular order `nextBlockID, ..., logSize, 1, ...` with
`bmap[k-1] = 0`, sets `nextBlockID` to `k + 1` wrapped into `[1, logSize]` and changes
nothing else; a zero entry is present whenever `usedBlocks` counts the nonzero entries and
is below `logSize`; with `usedBlocks = logSize` it returns 0 and changes nothing. -/
theorem getNextBlockID_spec (s : FS)
    (hnb : 1 ≤ s.nextBlockID ∧ s.nextBlockID ≤ s.logSize)
    (hL : 2 * s.logSize ≤ 4294967296) (hlen : s.logSize ≤ s.bmap.length) :
    (s.usedBlocks < s.logSize →
      (∃ k, 1 ≤ k ∧ k ≤ s.logSize ∧ s.bmap[k - 1]? = some 0) →
      ∃ i k, i < s.logSize ∧ k = circId s.logSize s.nextBlockID i ∧
        s.bmap[k - 1]? = some 0 ∧
        (∀ j, j < i → s.bmap[circId s.logSize s.nextBlockID j - 1]? ≠ some 0) ∧
        getNextBlockID s = some (k, { s with
          nextBlockID := if k + 1 > s.logSize then k + 1 - s.logSize else k + 1 }) ∧
        1 ≤ (if k + 1 > s.logSize then k + 1 - s.logSize else k + 1) ∧
        (if k + 1 > s.logSize then k + 1 - s.logSize else k + 1) ≤ s.logSize) ∧
    (s.usedBlocks = countNZ s.bmap → s.usedBlocks < s.logSize →
      ∃ k, 1 ≤ k ∧ k ≤ s.logSize ∧ s.bmap[k - 1]? = some 0) ∧
    (s.usedBlocks = s.logSize → getNextBlockID s = some (0, s)) := by
  refine ⟨?_, fun hInv hU => exists_free_id s hlen hInv hU, ?_⟩
  · intro hU ⟨k, hk1, hk2, hk3⟩
    have hex : ∃ j, 0 ≤ j ∧ j < s.logSize ∧
        s.bmap[circId s.logSize s.nextBlockID j - 1]? = some 0 := by
      by_cases hge : s.nextBlockID ≤ k
      · refine ⟨k - s.nextBlockID, Nat.zero_le _, by omega, ?_⟩
        have : circId s.logSize s.nextBlockID (k - s.nextBlockID) = k := by
          unfold circId; split <;> omega
        rw [this]; exact hk3
      · refine ⟨k + s.logSize - s.nextBlockID, Nat.zero_le _, by omega, ?_⟩
        have : circId s.logSize s.nextBlockID (k + s.logSize - s.nextBlockID) = k := by
          unfold circId; split <;> omega
        rw [this]; exact hk3
    obtain ⟨i, k', h1, h2, h3, h4, h5⟩ :=
      getNextBlockIDLoop_spec s hnb hL hlen s.logSize 0 (by omega) (fun j hj => by omega) hex
    have hne : s.usedBlocks ≠ s.logSize := by omega
    refine ⟨i, k', h1, h2, h3, h4, ?_, ?_, ?_⟩
    · unfold getNextBlockID
      rw [if_neg hne]
      exact h5
    · split <;> omega
    · have : k' ≤ s.logSize := by
        rw [h2]; unfold circId; split <;> omega
      split <;> omega
  · intro h
    unfold getNextBlockID
    rw [if_pos h]

theorem getNextBlockID_spec_witness :
    (1 ≤ allocDemo.nextBlockID ∧ allocDemo.nextBlockID ≤ allocDemo.logSize) ∧
    allocDemo.usedBlocks < allocDemo.logSize ∧
    ∃ i k, i < 3 ∧ k = circId 3 2 i ∧ allocDemo.bmap[k - 1]? = some 0 ∧
      (getNextBlockID allocDemo).map Prod.fst = some k := by
  refine ⟨by decide, by decide, ?_⟩
  obtain ⟨i, k, h1, h2, h3, -, h5, -⟩ :=
    (getNextBlockID_spec allocDemo (by decide) (by decide) (by decide)).1 (by decide)
      ⟨3, by decide, by decide, by decide⟩
  exact ⟨i, k, h1, h2, h3, by rw [h5]; rfl⟩

/-- Step 1 of the recovery never reports a write pointer beyond what it has read. -/
theorem recoveryScan_ptr (log : List Block) :
    ∀ (n i : Nat) (st st' : Nat × Nat × Nat), recoveryScan log n i st = some st' →
      st.1 ≤ i → st'.1 ≤ i + n := by
  intro n
  induction n with
  | zero =>
    intro i st st' h h1
    simp [recoveryScan] at h
    subst h
    exact h1
  | succ n ih =>
    intro i st st' h h1
    obtain ⟨lwp, lwt, nb⟩ := st
    unfold recoveryScan at h
    cases hb : log[i]? with
    | none => simp [hb] at h
    | some b =>
      simp only [hb] at h
      have := ih (i + 1) _ st' h (by
        show (if b.id ≠ 0 ∧ b.lastWriteTime ≥ lwt then (i + 1, b.lastWriteTime) else (lwp, lwt)).1 ≤ i + 1
        split
        · exact Nat.le_refl _
        · exact Nat.le_succ_of_le h1)
      omega

/-- Step 1 of the recovery never reports an id beyond those it has read. -/
theorem recoveryScan_maxId (log : List Block) (B : Nat) :
    ∀ (n i : Nat) (st st' : Nat × Nat × Nat), recoveryScan log n i st = some st' →
      st.2.2 ≤ B → (∀ q b, i ≤ q → q < i + n → log[q]? = some b → b.id ≤ B) →
      st'.2.2 ≤ B := by
  intro n
  induction n with
  | zero =>
    intro i st st' h h2 _
    simp [recoveryScan] at h
    subst h
    exact h2
  | succ n ih =>
    intro i st st' h h2 hB
    obtain ⟨lwp, lwt, nb⟩ := st
    unfold recoveryScan at h
    cases hb : log[i]? with
    | none => simp [hb] at h
    | some b =>
      simp only [hb] at h
      exact ih (i + 1) _ st' h (by
        show (if b.id ≠ 0 ∧ nb < b.id then b.id else nb) ≤ B
        split
        · exact hB i b (Nat.le_refl _) (by omega) hb
        · exact h2) (fun q b' h1 h2 h3 => hB q b' (by omega) (by omega) h3)

theorem sweepIndex_surj (L lwp q : Nat) (hq : q < L) (hl : lwp ≤ L) (hL : L < 2147483648) :
    ∃ i, i < L ∧ sweepIndex L lwp i = q := by
  by_cases h : lwp ≤ q
  · refine ⟨q - lwp, by omega, ?_⟩
    unfold sweepIndex
    have : (q - lwp + lwp) % 4294967296 = q := by
      rw [Nat.sub_add_cancel h]; exact Nat.mod_eq_of_lt (by omega)
    rw [this]
    simp [Nat.not_le.mpr hq]
  · refine ⟨q + L - lwp, by omega, ?_⟩
    unfold sweepIndex
    have : (q + L - lwp + lwp) % 4294967296 = q + L := by
      rw [Nat.sub_add_cancel (by omega)]; exact Nat.mod_eq_of_lt (by omega)
    rw [this]
    simp

/-- A completed sweep has only met ids that index the `logSize` write times. -/
theorem recoverySweep_ids (L lwp : Nat) (log : List Block) :
    ∀ (n i : Nat) (st st' : Nat × List Nat × List Nat),
      recoverySweep L lwp log n i st = some st' → st.2.2.length = L →
      ∀ m, m < n → ∃ b, log[sweepIndex L lwp (i + m)]? = some b ∧ b.id ≤ L := by
  intro n
  induction n with
  | zero => intro i st st' _ _ m hm; omega
  | succ n ih =>
    intro i st st' h hlen m hm
    obtain ⟨u, bm, lt⟩ := st
    unfold recoverySweep at h
    simp only at h
    have hj : (if (i + lwp) % 4294967296 ≥ L then (i + lwp) % 4294967296 - L
        else (i + lwp) % 4294967296) = sweepIndex L lwp i := rfl
    rw [hj] at h
    cases hb : log[sweepIndex L lwp i]? with
    | none => simp [hb] at h
    | some b =>
      simp only [hb] at h
      by_cases h0 : b.id = 0
      · simp only [h0, if_true] at h
        cases m with
        | zero => exact ⟨b, by simpa using hb, by omega⟩
        | succ m =>
          have := ih (i + 1) _ st' h hlen m (by omega)
          simpa [Nat.add_assoc, Nat.add_comm 1 m] using this
      · simp only [h0, if_false] at h
        cases hbm : bm[b.id - 1]? with
        | none => simp [hbm] at h
        | some a =>
          cases hlt : lt[b.id - 1]? with
          | none => simp [hbm, hlt] at h
          | some t =>
            simp only [hbm, hlt] at h
            have hidL : b.id ≤ L := by
              have := (List.getElem?_eq_some_iff.mp hlt).1
              simp at hlen
              omega
            cases m with
            | zero => exact ⟨b, by simpa using hb, hidL⟩
            | succ m =>
              split at h
              · have := ih (i + 1) _ st' h (by simpa using hlen) m (by omega)
                simpa [Nat.add_assoc, Nat.add_comm 1 m] using this
              · have := ih (i + 1) _ st' h hlen m (by omega)
                simpa [Nat.add_assoc, Nat.add_comm 1 m] using this

theorem getNextBlockIDLoop_range (s : FS) (hnb : 1 ≤ s.nextBlockID ∧ s.nextBlockID ≤ s.logSize + 1)
    (hL : s.logSize < 2147483648) :
    ∀ (n i k : Nat) (s' : FS), getNextBlockIDLoop s n i = some (k, s') → i + n ≤ s.logSize →
      s'.write_ptr = s.write_ptr ∧ s'.logSize = s.logSize ∧
      ((k = 0 ∧ s'.nextBlockID = s.nextBlockID) ∨
       (k ≠ 0 ∧ 1 ≤ s'.nextBlockID ∧ s'.nextBlockID ≤ s.logSize)) := by
  intro n
  induction n with
  | zero =>
    intro i k s' h _
    simp [getNextBlockIDLoop] at h
    obtain ⟨rfl, rfl⟩ := h
    exact ⟨rfl, rfl, Or.inl ⟨rfl, rfl⟩⟩
  | succ n ih =>
    intro i k s' h hi
    unfold getNextBlockIDLoop at h
    simp only at h
    have hmod : (s.nextBlockID + i) % 4294967296 = s.nextBlockID + i :=
      Nat.mod_eq_of_lt (by omega)
    rw [hmod] at h
    generalize hk0 : (if s.nextBlockID + i > s.logSize then s.nextBlockID + i - s.logSize
      else s.nextBlockID + i) = k0 at h
    have hk1 : 1 ≤ k0 ∧ k0 ≤ s.logSize := by
      rw [← hk0]; split <;> omega
    have hm2 : (k0 + 1) % 4294967296 = k0 + 1 := Nat.mod_eq_of_lt (by omega)
    rw [hm2] at h
    split at h
    · simp at h
    · split at h
      · simp only [Option.some.injEq, Prod.mk.injEq] at h
        obtain ⟨rfl, rfl⟩ := h
        refine ⟨rfl, rfl, Or.inr ⟨by omega, ?_, ?_⟩⟩
        · show 1 ≤ (if k0 + 1 > s.logSize then k0 + 1 - s.logSize else k0 + 1)
          split
          · omega
          · omega
        · show (if k0 + 1 > s.logSize then k0 + 1 - s.logSize else k0 + 1) ≤ s.logSize
          split
          · omega
          · omega
      · exact ih (i + 1) k s' h (by omega)

theorem allocStep_range (s t : FS) (h : AllocStep s t) (hr : PtrRange s)
    (hL : s.logSize < 2147483648) : PtrRange t ∧ t.logSize = s.logSize := by
  obtain ⟨w1, w2, n1, n2⟩ := hr
  cases h with
  | gc p hg =>
    obtain ⟨-, -, fl, fn, -⟩ := gc_frame s t p hg
    unfold SDI4FS.gc at hg
    split at hg
    · simp at hg
      obtain ⟨-, rfl⟩ := hg
      exact ⟨⟨w1, w2, n1, n2⟩, rfl⟩
    · have := gcLoop_write_ptr _ _ _ _ hg w1 w2 (by omega)
      exact ⟨⟨this.1, this.2, by omega, by omega⟩, fl⟩
  | saveBlock b now hs =>
    unfold SDI4FS.saveBlock at hs
    cases hg : SDI4FS.gc s with
    | none => simp [hg] at hs
    | some r =>
      obtain ⟨p, s1⟩ := r
      obtain ⟨-, -, fl, fn, -⟩ := gc_frame s s1 p hg
      have hw : 1 ≤ s1.write_ptr ∧ s1.write_ptr ≤ s1.logSize := by
        unfold SDI4FS.gc at hg
        split at hg
        · simp at hg
          obtain ⟨-, rfl⟩ := hg
          exact ⟨w1, w2⟩
        · exact gcLoop_write_ptr _ _ _ _ hg w1 w2 (by omega)
      simp only [hg] at hs
      split at hs
      · simp at hs
        subst hs
        exact ⟨⟨hw.1, hw.2, by omega, by omega⟩, fl⟩
      · split at hs
        · split at hs
          · simp at hs
          · simp only [Option.some.injEq] at hs
            subst hs
            have := advance_range s1.logSize s1.write_ptr hw.1 hw.2 (by omega)
            exact ⟨⟨this.1, this.2.1, by simpa [fn] using n1, by simp [fn, fl]; omega⟩, fl⟩
        · simp at hs
  | getNextBlockID k hn =>
    unfold SDI4FS.getNextBlockID at hn
    split at hn
    · simp at hn
      obtain ⟨-, rfl⟩ := hn
      exact ⟨⟨w1, w2, n1, n2⟩, rfl⟩
    · obtain ⟨h1, h2, h3⟩ := getNextBlockIDLoop_range s ⟨n1, n2⟩ hL _ _ _ _ hn (by omega)
      refine ⟨⟨by omega, by omega, ?_, ?_⟩, h2⟩
      · rcases h3 with ⟨-, h⟩ | ⟨-, h, -⟩ <;> omega
      · rcases h3 with ⟨-, h⟩ | ⟨-, -, h⟩ <;> omega

theorem allocSteps_range (s t : FS) (h : AllocSteps s t) (hr : PtrRange s)
    (hL : s.logSize < 2147483648) : PtrRange t ∧ t.logSize = s.logSize := by
  induction h with
  | refl => exact ⟨hr, rfl⟩
  | tail t u _ hstep ih =>
    obtain ⟨h1, h2⟩ := ih
    obtain ⟨h3, h4⟩ := allocStep_range t u hstep h1 (by omega)
    exact ⟨h3, by omega⟩

/-- What a completed run of `reconstructBMap` went through. -/
theorem reconstructBMap_inv (c : Constants) (uninit fuel : Nat) (s r : FS)
    (h : reconstructBMap c uninit fuel s = some r) :
    ∃ lwp lwt maxId u bm lt bmapFilter u3 bm3,
      recoveryScan s.log s.logSize 0 (0, 0, 0) = some (lwp, lwt, maxId) ∧
      recoverySweep s.logSize lwp s.log s.logSize 0 (0, s.bmap, List.replicate s.logSize 0)
        = some (u, bm, lt) ∧
      reachableFilter c uninit fuel (recoveredState s lwp maxId u bm) = some bmapFilter ∧
      recoveryPrune bmapFilter s.logSize 0 (u, bm) = some (u3, bm3) ∧
      r = { recoveredState s lwp maxId u bm with usedBlocks := u3, bmap := bm3 } := by
  unfold reconstructBMap at h
  cases hscan : recoveryScan s.log s.logSize 0 (0, 0, 0) with
  | none => rw [hscan] at h; cases h
  | some st =>
    obtain ⟨lwp, lwt, maxId⟩ := st
    rw [hscan] at h
    simp only at h
    cases hsweep : recoverySweep s.logSize lwp s.log s.logSize 0
        (0, s.bmap, List.replicate s.logSize 0) with
    | none => rw [hsweep] at h; cases h
    | some st2 =>
      obtain ⟨u, bm, lt⟩ := st2
      rw [hsweep] at h
      simp only at h
      cases hf : reachableFilter c uninit fuel (recoveredState s lwp maxId u bm) with
      | none => rw [hf] at h; cases h
      | some bmapFilter =>
        rw [hf] at h
        simp only at h
        cases hp : recoveryPrune bmapFilter s.logSize 0 (u, bm) with
        | none => rw [hp] at h; cases h
        | some st3 =>
          obtain ⟨u3, bm3⟩ := st3
          rw [hp] at h
          simp only [Option.some.injEq] at h
          exact ⟨lwp, lwt, maxId, u, bm, lt, bmapFilter, u3, bm3, rfl, hsweep, hf, hp, h.symm⟩

/-- The pointers that `reconstructBMap` recovers. -/
theorem reconstructBMap_range (c : Constants) (uninit fuel : Nat) (s r : FS)
    (h : reconstructBMap c uninit fuel s = some r) (h1 : 1 ≤ s.logSize)
    (hL : s.logSize < 2147483648) : PtrRange r ∧ r.logSize = s.logSize := by
  obtain ⟨lwp, lwt, maxId, u, bm, lt, bmapFilter, u3, bm3, hscan, hsweep, -, -, rfl⟩ :=
    reconstructBMap_inv c uninit fuel s r h
  have hlwp : lwp ≤ s.logSize := by
    have := recoveryScan_ptr s.log _ _ _ _ hscan (Nat.le_refl _)
    simpa using this
  have hids : ∀ q b, 0 ≤ q → q < 0 + s.logSize → s.log[q]? = some b → b.id ≤ s.logSize := by
    intro q b _ hq hb
    obtain ⟨i, hi, hiq⟩ := sweepIndex_surj s.logSize lwp q (by omega) hlwp hL
    obtain ⟨b', hb', hle⟩ := recoverySweep_ids s.logSize lwp s.log _ _ _ _ hsweep
      (by simp) i hi
    rw [Nat.zero_add, hiq, hb] at hb'
    cases hb'
    exact hle
  have hmax : maxId ≤ s.logSize :=
    recoveryScan_maxId s.log s.logSize _ _ _ _ hscan (Nat.zero_le _) hids
  have hw : (lwp + 1) % 4294967296 = lwp + 1 := Nat.mod_eq_of_lt (by omega)
  have hn : (maxId + 1) % 4294967296 = maxId + 1 := Nat.mod_eq_of_lt (by omega)
  refine ⟨⟨?_, ?_, ?_, ?_⟩, rfl⟩
  · show 1 ≤ (if (lwp + 1) % 4294967296 > s.logSize then 1 else (lwp + 1) % 4294967296)
    rw [hw]; split <;> omega
  · show (if (lwp + 1) % 4294967296 > s.logSize then 1 else (lwp + 1) % 4294967296) ≤ s.logSize
    rw [hw]; split <;> omega
  · show 1 ≤ (maxId + 1) % 4294967296
    omega
  · show (maxId + 1) % 4294967296 ≤ s.logSize + 1
    omega

/-- C8, amended: after a successful mount (with `logSize < 2^31`, and on the clean path a
header value of `nextBlockID` in `[1, logSize + 1]`, which the code loads unchecked) and
after any number of calls of `gc`, `saveBlock` and `getNextBlockID`, `write_ptr` lies in
`[1, logSize]` and `nextBlockID` in `[1, logSize + 1]`; the clean path takes `nextBlockID`
from the header as it is; and a `getNextBlockID` that hands out an id leaves
`nextBlockID ≤ logSize`. -/
theorem mount_ptr_ranges (c : Constants) (uninit fuel : Nat) (dev : Device) (s t : FS)
    (hm : mount c uninit fuel dev = some s) (hL : s.logSize < 2147483648)
    (hclean : dev.bmap_valid = 1 → 1 ≤ dev.nextBlockID ∧ dev.nextBlockID ≤ s.logSize + 1)
    (hsteps : AllocSteps s t) :
    1 ≤ t.write_ptr ∧ t.write_ptr ≤ t.logSize ∧ 1 ≤ t.nextBlockID ∧
    t.nextBlockID ≤ t.logSize + 1 ∧
    (dev.bmap_valid = 1 → s.nextBlockID = dev.nextBlockID) ∧
    (∀ k u, getNextBlockID t = some (k, u) → k ≠ 0 → u.nextBlockID ≤ u.logSize) := by
  have hs : PtrRange s ∧ (dev.bmap_valid = 1 → s.nextBlockID = dev.nextBlockID) := by
    unfold mount at hm
    split at hm
    · simp at hm
    · split at hm
      · simp at hm
      · split at hm
        · simp at hm
        · split at hm
          · simp at hm
          · rename_i hwp0 hu0
            simp only at hm
            split at hm
            · simp at hm
            · rename_i hchk
              push_neg at hchk
              split at hm
              · rename_i hv
                split at hm
                · simp at hm
                · simp only [Option.some.injEq] at hm
                  subst hm
                  have := hclean hv
                  exact ⟨⟨by show 1 ≤ dev.write_ptr; omega, hchk.2, this.1, this.2⟩, fun _ => rfl⟩
              · rename_i hv
                obtain ⟨_, _, _, _, _, _, _, _, _, -, -, -, -, hr⟩ :=
                  reconstructBMap_inv c uninit fuel _ s hm
                have hls : s.logSize = (calcLayout c dev.size_b).2 := by rw [hr]; rfl
                have := reconstructBMap_range c uninit fuel _ s hm (by
                  show 1 ≤ (calcLayout c dev.size_b).2
                  omega) (by
                  show (calcLayout c dev.size_b).2 < 2147483648
                  rw [← hls]; exact hL)
                exact ⟨this.1, fun h => absurd h hv⟩
  obtain ⟨hr, hlt⟩ := allocSteps_range s t hsteps hs.1 hL
  obtain ⟨w1, w2, n1, n2⟩ := hr
  refine ⟨w1, w2, n1, n2, hs.2, ?_⟩
  intro k u hk hk0
  unfold getNextBlockID at hk
  split at hk
  · simp at hk
    exact absurd hk.1.symm hk0
  · obtain ⟨-, h2, h3⟩ := getNextBlockIDLoop_range t ⟨n1, n2⟩ (by omega) _ _ _ _ hk (by omega)
    rcases h3 with ⟨h, -⟩ | ⟨-, -, h⟩
    · exact absurd h hk0
    · omega

theorem recovery_nextBlockID_past_logSize_aux :
    ∃ s, mount demoConstants 0 4 crashedDevice = some s ∧ s.logSize = 2 ∧ s.nextBlockID = 3 ∧
      ¬ (1 ≤ s.nextBlockID ∧ s.nextBlockID ≤ s.logSize) := by
  have h : (mount demoConstants 0 4 crashedDevice).map (fun s => (s.logSize, s.nextBlockID))
      = some (2, 3) := by
    set_option maxRecDepth 100000 in decide
  cases hm : mount demoConstants 0 4 crashedDevice with
  | none => rw [hm] at h; cases h
  | some s =>
    rw [hm] at h
    simp only [Option.map_some', Option.some.injEq, Prod.mk.injEq] at h
    exact ⟨s, rfl, h.1, h.2, by omega⟩

/-- C8, counterexample: on the recovery path `nextBlockID` is one more than the biggest id
found in the log; with a block of id `logSize` in the log it leaves `[1, logSize]`. -/
theorem recovery_nextBlockID_past_logSize :
    ∃ s, mount demoConstants 0 4 crashedDevice = some s ∧ s.logSize = 2 ∧ s.nextBlockID = 3 ∧
      ¬ (1 ≤ s.nextBlockID ∧ s.nextBlockID ≤ s.logSize) :=
  recovery_nextBlockID_past_logSize_aux

theorem mount_ptr_ranges_witness :
    (∃ s, mount demoConstants 0 4 crashedDevice = some s ∧
      1 ≤ s.write_ptr ∧ s.write_ptr ≤ s.logSize ∧ 1 ≤ s.nextBlockID ∧
      s.nextBlockID ≤ s.logSize + 1) ∧
    ∃ s, mount demoConstants 0 4 cleanDevice = some s ∧
      1 ≤ s.write_ptr ∧ s.write_ptr ≤ s.logSize ∧ 1 ≤ s.nextBlockID ∧
      s.nextBlockID ≤ s.logSize + 1 := by
  constructor
  · obtain ⟨s, hm, hl, -, -⟩ := recovery_nextBlockID_past_logSize_aux
    obtain ⟨h1, h2, h3, h4, -, -⟩ := mount_ptr_ranges demoConstants 0 4 crashedDevice s s hm
      (by omega) (by intro h; exact absurd h (by decide)) (AllocSteps.refl s)
    exact ⟨s, hm, h1, h2, h3, h4⟩
  · have h : (mount demoConstants 0 4 cleanDevice).map (fun s => s.logSize) = some 2 := by
      set_option maxRecDepth 100000 in decide
    cases hm : mount demoConstants 0 4 cleanDevice with
    | none => rw [hm] at h; cases h
    | some s =>
      rw [hm] at h
      simp only [Option.map_some', Option.some.injEq] at h
      obtain ⟨h1, h2, h3, h4, -, -⟩ := mount_ptr_ranges demoConstants 0 4 cleanDevice s s hm
        (by omega) (by intro _; rw [h]; decide) (AllocSteps.refl s)
      exact ⟨s, rfl, h1, h2, h3, h4⟩

theorem getElem?_replicate_zero (n k : Nat) (p : Nat) (h : (List.replicate n 0)[k]? = some p) :
    p = 0 := by
  have := List.getElem?_mem h
  exact (List.mem_replicate.mp this).2

/-- The final loop of the recovery keeps the flagged entries and clears the others. -/
theorem recoveryPrune_spec (bmapFilter : List Bool) :
    ∀ (n i u : Nat) (bm : List Nat) (st' : Nat × List Nat),
      recoveryPrune bmapFilter n i (u, bm) = some st' →
      ∀ k, (k < i ∨ i + n ≤ k → st'.2[k]? = bm[k]?) ∧
        (i ≤ k → k < i + n → ∃ fl, bmapFilter[k]? = some fl ∧
          (fl = true → st'.2[k]? = bm[k]?) ∧ (fl = false → st'.2[k]? = some 0)) := by
  intro n
  induction n with
  | zero =>
    intro i u bm st' h k
    simp [recoveryPrune] at h
    subst h
    exact ⟨fun _ => rfl, fun h1 h2 => by omega⟩
  | succ n ih =>
    intro i u bm st' h k
    unfold recoveryPrune at h
    cases hf : bmapFilter[i]? with
    | none => simp [hf] at h
    | some fl =>
      cases hb : bm[i]? with
      | none =>
        simp only [hf, hb] at h
        cases fl with
        | false => simp at h
        | true =>
          simp only [Bool.not_true, Bool.false_eq_true, if_false] at h
          obtain ⟨r1, r2⟩ := ih (i + 1) u bm st' h k
          refine ⟨fun hk => r1 (by omega), fun h1 h2 => ?_⟩
          by_cases hki : k = i
          · subst hki
            exact ⟨true, hf, ⟨fun _ => (ih (k + 1) u bm st' h k).1 (by omega),
              fun h' => by cases h'⟩⟩
          · exact r2 (by omega) (by omega)
      | some a =>
        simp only [hf, hb] at h
        have hil : i < bm.length := (List.getElem?_eq_some_iff.mp hb).1
        split at h
        · rename_i hc
          obtain ⟨r1, r2⟩ := ih (i + 1) _ _ st' h k
          refine ⟨fun hk => ?_, fun h1 h2 => ?_⟩
          · rw [r1 (by omega), List.getElem?_set_ne (by omega)]
          · by_cases hki : k = i
            · subst hki
              have hfl : fl = false := by
                cases fl with
                | false => rfl
                | true => simp at hc
              refine ⟨fl, hf, ⟨fun h' => (by rw [hfl] at h'; cases h'), fun _ => ?_⟩⟩
              rw [(ih (k + 1) _ _ st' h k).1 (by omega)]
              simp [hil]
            · obtain ⟨fl', e1, e2, e3⟩ := r2 (by omega) (by omega)
              refine ⟨fl', e1, fun h => ?_, e3⟩
              rw [e2 h, List.getElem?_set_ne (by omega)]
        · rename_i hc
          obtain ⟨r1, r2⟩ := ih (i + 1) _ _ st' h k
          refine ⟨fun hk => r1 (by omega), fun h1 h2 => ?_⟩
          by_cases hki : k = i
          · subst hki
            refine ⟨fl, hf, ⟨fun _ => (ih (k + 1) _ _ st' h k).1 (by omega), fun hfl => ?_⟩⟩
            rw [(ih (k + 1) _ _ st' h k).1 (by omega), hb]
            subst hfl
            simp at hc
            rw [hc]
          · exact r2 (by omega) (by omega)

theorem mem_zeroSlotId_log (s : FS) (p : Nat) (b : Block) (hb : b ∈ (zeroSlotId s p).log)
    (hid : b.id ≠ 0) : b ∈ s.log := by
  obtain ⟨q, hq⟩ := List.mem_iff_getElem?.mp hb
  simp only [zeroSlotId, List.getElem?_modify] at hq
  by_cases h : p - 1 = q
  · simp only [h, if_true] at hq
    cases hs : s.log[q]? with
    | none => simp [hs] at hq
    | some b0 =>
      simp [hs] at hq
      subst hq
      exact absurd rfl hid
  · simp [h] at hq
    exact List.getElem?_mem hq

theorem recoveryScan_total (log : List Block) :
    ∀ (n i : Nat) (st : Nat × Nat × Nat), i + n ≤ log.length →
      ∃ st', recoveryScan log n i st = some st' := by
  intro n
  induction n with
  | zero => intro i st _; exact ⟨st, rfl⟩
  | succ n ih =>
    intro i st h
    obtain ⟨a, b, d⟩ := st
    unfold recoveryScan
    obtain ⟨blk, hb⟩ : ∃ blk, log[i]? = some blk := ⟨_, List.getElem?_eq_getElem (by omega)⟩
    rw [hb]
    exact ih (i + 1) _ (by omega)

theorem recoverySweep_total (L lwp : Nat) (log : List Block) (hlen : log.length = L)
    (hids : ∀ b, b ∈ log → b.id ≤ L) (hlwp : lwp ≤ L) (hL : L < 2147483648) :
    ∀ (n i u : Nat) (bm lt : List Nat), i + n ≤ L → L ≤ bm.length → L ≤ lt.length →
      ∃ st', recoverySweep L lwp log n i (u, bm, lt) = some st' ∧
        st'.2.1.length = bm.length := by
  intro n
  induction n with
  | zero => intro i u bm lt _ _ _; exact ⟨_, rfl, rfl⟩
  | succ n ih =>
    intro i u bm lt h hbm hlt
    unfold recoverySweep
    simp only
    have hj0 : (i + lwp) % 4294967296 = i + lwp := Nat.mod_eq_of_lt (by omega)
    rw [hj0]
    have hj : (if i + lwp ≥ L then i + lwp - L else i + lwp) < log.length := by
      rw [hlen]; split <;> omega
    obtain ⟨blk, hb⟩ : ∃ blk, log[if i + lwp ≥ L then i + lwp - L else i + lwp]? = some blk :=
      ⟨_, List.getElem?_eq_getElem hj⟩
    rw [hb]
    simp only
    by_cases h0 : blk.id = 0
    · rw [if_pos h0]
      exact ih (i + 1) u bm lt (by omega) hbm hlt
    · rw [if_neg h0]
      have hid := hids blk (List.getElem?_mem hb)
      obtain ⟨a, ha⟩ : ∃ a, bm[blk.id - 1]? = some a := ⟨_, List.getElem?_eq_getElem (by omega)⟩
      obtain ⟨t, ht⟩ : ∃ t, lt[blk.id - 1]? = some t := ⟨_, List.getElem?_eq_getElem (by omega)⟩
      rw [ha, ht]
      simp only
      split
      · obtain ⟨st', e1, e2⟩ := ih (i + 1) (if a = 0 then (u + 1) % 4294967296 else u)
          (bm.set (blk.id - 1)
            ((if i + lwp ≥ L then i + lwp - L else i + lwp) + 1))
          (lt.set (blk.id - 1) blk.lastWriteTime) (by omega)
          (by rw [List.length_set]; exact hbm) (by rw [List.length_set]; exact hlt)
        exact ⟨st', e1, by rw [e2, List.length_set]⟩
      · exact ih (i + 1) _ bm lt (by omega) hbm hlt

theorem recoveryPrune_total (bmapFilter : List Bool) :
    ∀ (n i u : Nat) (bm : List Nat), i + n ≤ bmapFilter.length → i + n ≤ bm.length →
      ∃ st', recoveryPrune bmapFilter n i (u, bm) = some st' := by
  intro n
  induction n with
  | zero => intro i u bm _ _; exact ⟨_, rfl⟩
  | succ n ih =>
    intro i u bm hf hb
    unfold recoveryPrune
    obtain ⟨fl, hfl⟩ : ∃ fl, bmapFilter[i]? = some fl := ⟨_, List.getElem?_eq_getElem (by omega)⟩
    obtain ⟨a, ha⟩ : ∃ a, bm[i]? = some a := ⟨_, List.getElem?_eq_getElem (by omega)⟩
    rw [hfl, ha]
    simp only
    split
    · exact ih (i + 1) _ _ (by omega) (by rw [List.length_set]; omega)
    · exact ih (i + 1) _ _ (by omega) (by omega)

theorem markAll_length : ∀ (ids : List Nat) (f f1 : List Bool), markAll f ids = some f1 →
    f1.length = f.length := by
  intro ids
  induction ids with
  | nil =>
    intro f f1 h
    unfold markAll at h
    cases h
    rfl
  | cons id rest ih =>
    intro f f1 h
    unfold markAll at h
    cases hm : markFilter f id with
    | none => rw [hm] at h; cases h
    | some f2 =>
      rw [hm] at h
      simp only at h
      have := ih f2 f1 h
      unfold markFilter at hm
      split at hm
      · cases hm
        rw [this, List.length_set]
      · cases hm

theorem foldlM_option_inv {α β : Type} (P : β → Prop) (g : β → α → Option β)
    (hg : ∀ b a r, P b → g b a = some r → P r) :
    ∀ (l : List α) (b r : β), P b → l.foldlM g b = some r → P r := by
  intro l
  induction l with
  | nil =>
    intro b r hb h
    simp only [List.foldlM_nil] at h
    cases h
    exact hb
  | cons a t ih =>
    intro b r hb h
    rw [List.foldlM_cons] at h
    cases hga : g b a with
    | none => rw [hga] at h; cases h
    | some b1 =>
      rw [hga] at h
      exact ih b1 r (hg b a b1 hb hga) h

theorem foldlM_option_mono {α β : Type} (g g1 : β → α → Option β)
    (hg : ∀ b a r, g b a = some r → g1 b a = some r) :
    ∀ (l : List α) (b r : β), l.foldlM g b = some r → l.foldlM g1 b = some r := by
  intro l
  induction l with
  | nil => intro b r h; exact h
  | cons a t ih =>
    intro b r h
    rw [List.foldlM_cons] at h ⊢
    cases hga : g b a with
    | none => rw [hga] at h; cases h
    | some b1 =>
      rw [hga] at h
      rw [hg b a b1 hga]
      exact ih b1 r h

theorem recursiveRecovery_length (c : Constants) (uninit : Nat) (s : FS) :
    ∀ (fuel : Nat) (f f1 : List Bool) (dir : Directory),
      recursiveRecovery c uninit s fuel f dir = some f1 → f1.length = f.length := by
  intro fuel
  induction fuel with
  | zero =>
    intro f f1 dir h
    unfold recursiveRecovery at h
    cases h
  | succ fuel ih =>
    intro f f1 dir h
    unfold recursiveRecovery at h
    cases hm : markAll f (dir.inode.id :: dir.entryLists.map DirectoryEntryList.id) with
    | none => rw [hm] at h; cases h
    | some f0 =>
      rw [hm] at h
      simp only at h
      have h0 := markAll_length _ f f0 hm
      rw [← h0]
      refine foldlM_option_inv (fun g => g.length = f0.length) _ ?_ dir.ls f0 f1 rfl h
      intro b link r hb hstep
      simp only at hstep
      split at hstep
      · cases hstep; exact hb
      · split at hstep
        · cases hstep
        · split at hstep
          · split at hstep
            · rw [ih _ _ _ hstep]; exact hb
            · cases hstep
          · split at hstep
            · split at hstep
              · rw [markAll_length _ _ _ hstep]; exact hb
              · cases hstep
            · cases hstep; exact hb

theorem recursiveRecovery_mono (c : Constants) (uninit : Nat) (s : FS) :
    ∀ (fuel : Nat) (f f1 : List Bool) (dir : Directory),
      recursiveRecovery c uninit s fuel f dir = some f1 →
      recursiveRecovery c uninit s (fuel + 1) f dir = some f1 := by
  intro fuel
  induction fuel with
  | zero =>
    intro f f1 dir h
    unfold recursiveRecovery at h
    cases h
  | succ fuel ih =>
    intro f f1 dir h
    unfold recursiveRecovery at h ⊢
    cases hm : markAll f (dir.inode.id :: dir.entryLists.map DirectoryEntryList.id) with
    | none => rw [hm] at h; cases h
    | some f0 =>
      rw [hm] at h
      simp only at h ⊢
      refine foldlM_option_mono _ _ ?_ dir.ls f0 f1 h
      intro b link r hstep
      simp only at hstep ⊢
      split at hstep
      · rename_i hl
        rw [if_pos hl]; exact hstep
      · rename_i hl
        rw [if_neg hl]
        cases hp : peekINodeType s (dir.searchHardlink link) with
        | none => rw [hp] at hstep; cases hstep
        | some t =>
          rw [hp] at hstep
          simp only at hstep ⊢
          by_cases ht : t = INODE_TYPE_DIR
          · rw [if_pos ht] at hstep ⊢
            cases hl2 : loadDirectory c uninit s (dir.searchHardlink link) with
            | none => rw [hl2] at hstep; cases hstep
            | some od =>
              cases od with
              | none => rw [hl2] at hstep; cases hstep
              | some child =>
                rw [hl2] at hstep
                simp only at hstep ⊢
                exact ih _ _ _ hstep
          · rw [if_neg ht] at hstep ⊢
            exact hstep

theorem reachableFilter_mono (c : Constants) (uninit fuel fuel1 : Nat) (s : FS)
    (f : List Bool) (h : reachableFilter c uninit fuel s = some f) (hle : fuel ≤ fuel1) :
    reachableFilter c uninit fuel1 s = some f := by
  induction hle with
  | refl => exact h
  | step _ ih =>
    unfold reachableFilter at ih ⊢
    cases hl : loadDirectory c uninit s 1 with
    | none => rw [hl] at ih; cases ih
    | some od =>
      cases od with
      | none => rw [hl] at ih; cases ih
      | some root =>
        rw [hl] at ih
        simp only at ih ⊢
        exact recursiveRecovery_mono c uninit s _ _ _ _ ih

theorem reachableFilter_length (c : Constants) (uninit fuel : Nat) (s : FS)
    (f : List Bool) (h : reachableFilter c uninit fuel s = some f) : f.length = s.logSize := by
  unfold reachableFilter at h
  cases hl : loadDirectory c uninit s 1 with
  | none => rw [hl] at h; cases h
  | some od =>
    cases od with
    | none => rw [hl] at h; cases h
    | some root =>
      rw [hl] at h
      simp only at h
      rw [recursiveRecovery_length c uninit s _ _ _ _ h, List.length_replicate]

/-- `FS::reconstructBMap` as steps 1 and 2 followed by the traversal and the pruning. -/
theorem reconstructBMap_eq (c : Constants) (uninit fuel : Nat) (s : FS) :
    reconstructBMap c uninit fuel s =
      (recoverySwept s).bind (fun sB =>
        (reachableFilter c uninit fuel sB).bind (fun bmapFilter =>
          (recoveryPrune bmapFilter s.logSize 0 (sB.usedBlocks, sB.bmap)).map (fun st =>
            { sB with usedBlocks := st.1, bmap := st.2 }))) := by
  unfold reconstructBMap recoverySwept
  cases h1 : recoveryScan s.log s.logSize 0 (0, 0, 0) with
  | none => rfl
  | some st =>
    obtain ⟨lwp, lwt, maxId⟩ := st
    simp only
    cases h2 : recoverySweep s.logSize lwp s.log s.logSize 0
        (0, s.bmap, List.replicate s.logSize 0) with
    | none => rfl
    | some st2 =>
      obtain ⟨u, bm, lt⟩ := st2
      simp only [Option.some_bind]
      cases h3 : reachableFilter c uninit fuel (recoveredState s lwp maxId u bm) with
      | none => rfl
      | some filter =>
        simp only [Option.some_bind]
        have e1 : (recoveredState s lwp maxId u bm).usedBlocks = u := rfl
        have e2 : (recoveredState s lwp maxId u bm).bmap = bm := rfl
        rw [e1, e2]
        cases h4 : recoveryPrune filter s.logSize 0 (u, bm) with
        | none => rfl
        | some st4 =>
          obtain ⟨u3, bm3⟩ := st4
          rfl

/-- C9, failing input: `mkdir("/a")` on `externalRoot`, whose root directory keeps its
entries in a list block.  The call returns true, the root then maps "a" and the new
directory 3 holds "." and "..", but the root INode as persisted has `linkCounter` 2 before
and 2 afterwards: it is not among the blocks that are saved. -/
theorem mkdir_external_parent_linkCounter :
    ∃ s', mkdir demoConstants specPathUtils 0 (clockFrom 10) externalRoot ['/', 'a']
        = some (true, s') ∧
      persistedLinkCounter demoConstants externalRoot 1 = some (some 2) ∧
      persistedLinkCounter demoConstants s' 1 = some (some 2) ∧
      persistedNames demoConstants s' 1 = some (some [['.'], ['.', '.'], ['a']]) ∧
      persistedNames demoConstants s' 3 = some (some [['.'], ['.', '.']]) := by
  refine ⟨_, rfl, ?_, ?_, ?_, ?_⟩ <;> decide

set_option maxRecDepth 1000000 in
/-- C10, counterexample: (1) `fullRoot` has an inlined root directory without room for
another entry; `mkdir("/x")` returns true and converts the root to two entry lists
(`usedBlocks` goes from 126 to 129), and the `rmdir("/x")` that follows empties the second
list, where `Directory::rmHardlink` asks the deleted list object for its id: the call has
no defined result.  (2) On `inlineRoot` the round trip of "/a" changes the write time that
`ls("/")` prints for the root from 0 to 21. -/
theorem mkdir_rmdir_not_restored :
    (fullRoot.usedBlocks = 126 ∧
      (mkdir demoConstants specPathUtils 0 (clockFrom 10) fullRoot ['/', 'x']).map
          (fun r => (r.1, r.2.usedBlocks)) = some (true, 129) ∧
      ((mkdir demoConstants specPathUtils 0 (clockFrom 10) fullRoot ['/', 'x']).bind (fun r =>
        rmdir demoConstants specPathUtils 0 0 (clockFrom 20) r.2 ['/', 'x'])) = none) ∧
    ∃ s1 s2, mkdir demoConstants specPathUtils 0 (clockFrom 10) inlineRoot ['/', 'a']
        = some (true, s1) ∧
      rmdir demoConstants specPathUtils 0 0 (clockFrom 20) s1 ['/', 'a'] = some (true, s2) ∧
      ls demoConstants specPathUtils 0 inlineRoot ['/'] = some (true,
        [.header, .row true 2 0 4096 0 0 ['.'], .row true 2 0 4096 0 0 ['.', '.']]) ∧
      ls demoConstants specPathUtils 0 s2 ['/'] = some (true,
        [.header, .row true 2 0 4096 0 21 ['.'], .row true 2 0 4096 0 21 ['.', '.']]) := by
  refine ⟨⟨rfl, by decide, by decide⟩, _, _, rfl, rfl, ?_, ?_⟩ <;> decide

/-- The number of nonzero entries, counted over the indices. -/
theorem countNZ_eq_card (l : List Nat) :
    countNZ l = ((Finset.range l.length).filter (fun k => l[k]? ≠ some 0)).card := by
  induction l using List.reverseRecOn with
  | nil => simp [countNZ]
  | append_singleton l a ih =>
    have h1 : countNZ (l ++ [a]) = countNZ l + (if a ≠ 0 then 1 else 0) := by
      simp [countNZ, List.countP_append, List.countP_cons]
    rw [h1, ih]
    simp only [List.length_append, List.length_singleton, Finset.range_succ]
    rw [Finset.filter_insert]
    have hlast : (l ++ [a])[l.length]? = some a := by simp
    have hcongr : (Finset.range l.length).filter (fun k => (l ++ [a])[k]? ≠ some 0)
        = (Finset.range l.length).filter (fun k => l[k]? ≠ some 0) := by
      apply Finset.filter_congr
      intro k hk
      rw [List.getElem?_append_left (Finset.mem_range.mp hk)]
    rw [hcongr, hlast]
    by_cases ha : a = 0
    · simp [ha]
    · have : (some a : Option Nat) ≠ some 0 := by simpa using ha
      rw [if_pos this, if_pos ha, Finset.card_insert_of_not_mem]
      simp

/-- Pigeonhole: `M` distinct indices with nonzero entries need `M` nonzero entries. -/
theorem le_countNZ_of_injective (l : List Nat) (g : Nat → Nat) (M : Nat)
    (hinj : ∀ j1 j2, j1 < M → j2 < M → g j1 = g j2 → j1 = j2)
    (hnz : ∀ j, j < M → g j < l.length ∧ l[g j]? ≠ some 0) : M ≤ countNZ l := by
  rw [countNZ_eq_card]
  have hsub : (Finset.range M).image g ⊆
      (Finset.range l.length).filter (fun k => l[k]? ≠ some 0) := by
    intro k hk
    obtain ⟨j, hj, rfl⟩ := Finset.mem_image.mp hk
    have := hnz j (Finset.mem_range.mp hj)
    exact Finset.mem_filter.mpr ⟨Finset.mem_range.mpr this.1, this.2⟩
  have hcard : ((Finset.range M).image g).card = M := by
    rw [Finset.card_image_of_injOn]
    · simp
    · intro j1 h1 j2 h2 h
      exact hinj j1 j2 (Finset.mem_range.mp (Finset.mem_coe.mp h1))
        (Finset.mem_range.mp (Finset.mem_coe.mp h2)) h
  calc M = ((Finset.range M).image g).card := hcard.symm
    _ ≤ _ := Finset.card_le_card hsub

theorem Consistent.live {s : FS} (h : Consistent s) (k q : Nat) (hk : s.bmap[k]? = some q)
    (hq : q ≠ 0) : slotId s q = some (k + 1) := by
  obtain ⟨-, -, -, -, -, hl⟩ := h
  have hkl : k < s.bmap.length := (List.getElem?_eq_some_iff.mp hk).1
  have := hl k hkl (by rw [hk]; simpa using hq)
  have hg : s.bmap.getD k 0 = q := by
    simp [List.getD, hk]
  rwa [hg] at this

theorem circSlot_zero (L w : Nat) (h1 : 1 ≤ w) (h2 : w ≤ L) : circSlot L w 0 = w := by
  unfold circSlot
  rw [Nat.add_zero, Nat.mod_eq_of_lt (by omega)]
  omega

theorem circSlot_range (L w m : Nat) (hL : 0 < L) : 1 ≤ circSlot L w m ∧ circSlot L w m ≤ L := by
  unfold circSlot
  have := Nat.mod_lt (w - 1 + m) hL
  omega

theorem circSlot_advance (L w j : Nat) (h1 : 1 ≤ w) (h2 : w ≤ L) (hL : L < 4294967295) :
    circSlot L (advance L w) j = circSlot L w (j + 1) := by
  rw [(advance_range L w h1 h2 hL).2.2]
  unfold circSlot
  congr 1
  have e1 : w % L + 1 - 1 + j = w % L + j := by omega
  have e2 : w - 1 + (j + 1) = w + j := by omega
  rw [e1, e2, Nat.mod_add_mod]

theorem circSlot_inj (L w j1 j2 : Nat) (h1 : j1 < L) (h2 : j2 < L)
    (h : circSlot L w j1 = circSlot L w j2) : j1 = j2 := by
  unfold circSlot at h
  have h' : (w - 1 + j1) % L = (w - 1 + j2) % L := by omega
  rcases Nat.le_total j1 j2 with hle | hle
  · have hm : (w - 1 + j2) % L = (w - 1 + j1 + (j2 - j1)) % L := by
      congr 1; omega
    rw [hm] at h'
    have := (Nat.sub_mod_eq_zero_of_mod_eq h'.symm)
    have e : w - 1 + j1 + (j2 - j1) - (w - 1 + j1) = j2 - j1 := by omega
    rw [e] at this
    have hlt : j2 - j1 < L := by omega
    rw [Nat.mod_eq_of_lt hlt] at this
    omega
  · have hm : (w - 1 + j1) % L = (w - 1 + j2 + (j1 - j2)) % L := by
      congr 1; omega
    rw [hm] at h'
    have := (Nat.sub_mod_eq_zero_of_mod_eq h')
    have e : w - 1 + j2 + (j1 - j2) - (w - 1 + j2) = j1 - j2 := by omega
    rw [e] at this
    have hlt : j1 - j2 < L := by omega
    rw [Nat.mod_eq_of_lt hlt] at this
    omega

/-- The `gc` loop returns a slot once it has passed the live slots in front of it. -/
theorem gcLoop_finds (m : Nat) : ∀ (n : Nat) (s : FS), WellFormed s →
    (∀ j, j < m → Live s (circSlot s.logSize s.write_ptr j)) →
    ¬ Live s (circSlot s.logSize s.write_ptr m) → m + 2 ≤ n →
    ∃ p s1, gcLoop n s = some (p, s1) ∧ p ≠ 0 := by
  induction m with
  | zero =>
    intro n s hwf _ hnl hn
    obtain ⟨⟨w1, w2, hlen, hml, hu, hl⟩, hsm, hbl, -, -, -, hids⟩ := hwf
    rw [circSlot_zero _ _ w1 w2] at hnl
    obtain ⟨n', rfl⟩ : ∃ n', n = n' + 1 := ⟨n - 1, by omega⟩
    have hw0 : s.write_ptr ≠ 0 := by omega
    have hlt : s.write_ptr - 1 < s.log.length := by omega
    have hsl : slotId s s.write_ptr = some (s.log[s.write_ptr - 1]).id := by
      simp [slotId, hw0, List.getElem?_eq_getElem hlt]
    unfold gcLoop
    rw [hsl]
    simp only
    by_cases h0 : (s.log[s.write_ptr - 1]).id = 0
    · rw [if_pos h0]
      exact ⟨_, _, rfl, hw0⟩
    · rw [if_neg h0]
      have hidl : (s.log[s.write_ptr - 1]).id ≤ s.bmap.length :=
        hids _ (List.getElem_mem hlt)
      have hidx : idx (s.log[s.write_ptr - 1]).id = (s.log[s.write_ptr - 1]).id - 1 := by
        simp [idx, h0]
      obtain ⟨a, ha⟩ : ∃ a, s.bmap[(s.log[s.write_ptr - 1]).id - 1]? = some a :=
        ⟨_, List.getElem?_eq_getElem (by omega)⟩
      have hbm : bmapAt s (s.log[s.write_ptr - 1]).id = some a := by
        simp only [bmapAt, hidx]
        exact ha
      rw [hbm]
      simp only
      have hne : a ≠ s.write_ptr := by
        intro he
        exact hnl ⟨_, hsl, h0, by rw [hbm, he]⟩
      rw [if_pos hne]
      obtain ⟨n'', rfl⟩ : ∃ n'', n' = n'' + 1 := ⟨n' - 1, by omega⟩
      unfold gcLoop
      rw [zeroSlotId_write_ptr, slotId_zeroSlotId_same s _ _ hsl]
      simp only [if_true]
      exact ⟨_, _, rfl, hw0⟩
  | succ m ih =>
    intro n s hwf hlive hnl hn
    have hwf' := hwf
    obtain ⟨⟨w1, w2, hlen, hml, hu, hl⟩, hsm, hbl, nb1, nb2, hule, hids⟩ := hwf
    obtain ⟨id, hid, h0, hb⟩ := hlive 0 (Nat.succ_pos _)
    rw [circSlot_zero _ _ w1 w2] at hid hb
    obtain ⟨n', rfl⟩ : ∃ n', n = n' + 1 := ⟨n - 1, by omega⟩
    unfold gcLoop
    rw [hid]
    simp only [h0, if_false, hb, ne_eq, not_true_eq_false]
    have hadv := advance_range s.logSize s.write_ptr w1 w2 (by omega)
    have hwf2 : WellFormed { s with write_ptr := advance s.logSize s.write_ptr } :=
      ⟨⟨hadv.1, hadv.2.1, hlen, hml, hu, hl⟩, hsm, hbl, nb1, nb2, hule, hids⟩
    refine ih n' _ hwf2 ?_ ?_ (by omega)
    · intro j hj
      show Live _ (circSlot s.logSize (advance s.logSize s.write_ptr) j)
      rw [circSlot_advance _ _ _ w1 w2 (by omega)]
      exact hlive (j + 1) (by omega)
    · show ¬ Live _ (circSlot s.logSize (advance s.logSize s.write_ptr) m)
      rw [circSlot_advance _ _ _ w1 w2 (by omega)]
      exact hnl

/-- Fewer than `logSize` used blocks leave a slot that is not live among the first
`usedBlocks + 1` slots in front of `write_ptr`. -/
theorem exists_not_live (s : FS) (hwf : WellFormed s) (hu : s.usedBlocks < s.logSize) :
    ∃ m, m ≤ s.usedBlocks ∧ (∀ j, j < m → Live s (circSlot s.logSize s.write_ptr j)) ∧
      ¬ Live s (circSlot s.logSize s.write_ptr m) := by
  by_contra hcon
  have hall : ∀ m, m ≤ s.usedBlocks → Live s (circSlot s.logSize s.write_ptr m) := by
    intro m
    induction m using Nat.strong_induction_on with
    | _ m ih =>
      intro hm
      by_contra hnl
      exact hcon ⟨m, hm, fun j hj => ih j hj (by omega), hnl⟩
  obtain ⟨⟨w1, w2, hlen, hml, hused, hl⟩, -⟩ := hwf
  have := le_countNZ_of_injective s.bmap
    (fun j => slotIndex s (circSlot s.logSize s.write_ptr j)) (s.usedBlocks + 1)
    (by
      intro j1 j2 h1 h2 h
      obtain ⟨id1, e1, z1, b1⟩ := hall j1 (by omega)
      obtain ⟨id2, e2, z2, b2⟩ := hall j2 (by omega)
      simp only [slotIndex, e1, e2, Option.getD_some] at h
      have : id1 = id2 := by omega
      subst this
      rw [b1] at b2
      exact circSlot_inj _ _ _ _ (by omega) (by omega) (Option.some.inj b2))
    (by
      intro j hj
      obtain ⟨id, e, z, b⟩ := hall j (by omega)
      simp only [slotIndex, e, Option.getD_some]
      have hidx : idx id = id - 1 := by simp [idx, z]
      simp only [bmapAt, hidx] at b
      refine ⟨(List.getElem?_eq_some_iff.mp b).1, ?_⟩
      rw [b]
      have := (circSlot_range s.logSize s.write_ptr j (by omega)).1
      intro hh
      simp only [Option.some.injEq] at hh
      omega)
  omega

/-- With two free slots `gc` always finds one (the bound that the loop of `logSize`
iterations can keep). -/
theorem gc_finds (s : FS) (hwf : WellFormed s) (hu : s.usedBlocks + 2 ≤ s.logSize) :
    ∃ p s1, gc s = some (p, s1) ∧ p ≠ 0 := by
  obtain ⟨m, hm, hlive, hnl⟩ := exists_not_live s hwf (by omega)
  obtain ⟨p, s1, h, hp⟩ := gcLoop_finds m s.logSize s hwf hlive hnl (by omega)
  refine ⟨p, s1, ?_, hp⟩
  unfold gc
  rw [if_neg (by omega)]
  exact h

theorem Consistent.intro' {s : FS} (w1 : 1 ≤ s.write_ptr) (w2 : s.write_ptr ≤ s.logSize)
    (hlen : s.log.length = s.logSize) (hml : s.logSize ≤ s.bmap.length)
    (hu : s.usedBlocks = countNZ s.bmap)
    (hl : ∀ k q, s.bmap[k]? = some q → q ≠ 0 → slotId s q = some (k + 1)) : Consistent s := by
  refine ⟨w1, w2, hlen, hml, hu, ?_⟩
  intro k hk hne
  obtain ⟨q, hq⟩ : ∃ q, s.bmap[k]? = some q := ⟨_, List.getElem?_eq_getElem hk⟩
  have hg : s.bmap.getD k 0 = q := by simp [List.getD, hq]
  rw [hg]
  exact hl k q hq (by rw [hq] at hne; simpa using hne)

theorem getNextBlockIDLoop_finds (s : FS)
    (hnb : 1 ≤ s.nextBlockID ∧ s.nextBlockID ≤ s.logSize + 1)
    (hL : s.logSize < 2147483648) (hlen : s.logSize ≤ s.bmap.length) :
    ∀ n i, n + i = s.logSize →
      (∃ j, i ≤ j ∧ j < s.logSize ∧ s.bmap[circId s.logSize s.nextBlockID j - 1]? = some 0) →
      ∃ k nb, getNextBlockIDLoop s n i = some (k, { s with nextBlockID := nb }) ∧
        1 ≤ k ∧ k ≤ s.logSize ∧ s.bmap[k - 1]? = some 0 ∧ 1 ≤ nb ∧ nb ≤ s.logSize := by
  intro n
  induction n with
  | zero =>
    intro i hi ⟨j, hj1, hj2, _⟩
    omega
  | succ n ih =>
    intro i hi ⟨j, hj1, hj2, hj3⟩
    have hmod : (s.nextBlockID + i) % 4294967296 = s.nextBlockID + i :=
      Nat.mod_eq_of_lt (by omega)
    have hc : (if (s.nextBlockID + i) % 4294967296 > s.logSize
        then (s.nextBlockID + i) % 4294967296 - s.logSize
        else (s.nextBlockID + i) % 4294967296) = circId s.logSize s.nextBlockID i := by
      simp [circId, hmod]
    have hk1 : 1 ≤ circId s.logSize s.nextBlockID i := by
      unfold circId; split <;> omega
    have hk2 : circId s.logSize s.nextBlockID i ≤ s.logSize := by
      unfold circId; split <;> omega
    have hidx : idx (circId s.logSize s.nextBlockID i) = circId s.logSize s.nextBlockID i - 1 := by
      simp [idx]; omega
    obtain ⟨a, ha⟩ : ∃ a, s.bmap[circId s.logSize s.nextBlockID i - 1]? = some a := by
      have : circId s.logSize s.nextBlockID i - 1 < s.bmap.length := by omega
      exact ⟨_, List.getElem?_eq_getElem this⟩
    unfold getNextBlockIDLoop
    simp only [hc, bmapAt, hidx, ha]
    by_cases ha0 : a = 0
    · subst ha0
      have hm2 : (circId s.logSize s.nextBlockID i + 1) % 4294967296
          = circId s.logSize s.nextBlockID i + 1 := Nat.mod_eq_of_lt (by omega)
      refine ⟨_, _, by simp only [if_true]; rfl, hk1, hk2, ha, ?_, ?_⟩
      · rw [hm2]; split <;> omega
      · rw [hm2]; split <;> omega
    · simp only [ha0, if_false]
      have hji : j ≠ i := by
        rintro rfl
        rw [ha] at hj3
        exact ha0 (by simpa using hj3)
      exact ih (i + 1) (by omega) ⟨j, by omega, hj2, hj3⟩

theorem fetchBlock_congr (s t : FS) (h1 : t.bmap = s.bmap) (h2 : t.log = s.log)
    (h3 : t.logSize = s.logSize) (id : Nat) : fetchBlock t id = fetchBlock s id := by
  simp [fetchBlock, lookupBlockAddress, readSlot, h1, h2, h3]

/-- Under well-formedness the allocator hands out a free id of the log. -/
theorem getNextBlockID_wf (s : FS) (hwf : WellFormed s) (hu : s.usedBlocks < s.logSize) :
    ∃ k nb, getNextBlockID s = some (k, { s with nextBlockID := nb }) ∧ 1 ≤ k ∧
      k ≤ s.logSize ∧ s.bmap[k - 1]? = some 0 ∧ WellFormed { s with nextBlockID := nb } := by
  obtain ⟨hc, hsm, hbl, nb1, nb2, hule, hids⟩ := hwf
  obtain ⟨w1, w2, hlen, hml, hused, hl⟩ := hc
  obtain ⟨k, hk1, hk2, hk3⟩ := exists_free_id s hml hused hu
  have hex : ∃ j, 0 ≤ j ∧ j < s.logSize ∧
      s.bmap[circId s.logSize s.nextBlockID j - 1]? = some 0 := by
    by_cases hge : s.nextBlockID ≤ k
    · refine ⟨k - s.nextBlockID, Nat.zero_le _, by omega, ?_⟩
      have : circId s.logSize s.nextBlockID (k - s.nextBlockID) = k := by
        unfold circId; split <;> omega
      rw [this]; exact hk3
    · refine ⟨k + s.logSize - s.nextBlockID, Nat.zero_le _, by omega, ?_⟩
      have : circId s.logSize s.nextBlockID (k + s.logSize - s.nextBlockID) = k := by
        unfold circId; split <;> omega
      rw [this]; exact hk3
  obtain ⟨k', nb, h1, h2, h3, h4, h5, h6⟩ :=
    getNextBlockIDLoop_finds s ⟨nb1, nb2⟩ hsm hml s.logSize 0 (by omega) hex
  refine ⟨k', nb, ?_, h2, h3, h4, ⟨w1, w2, hlen, hml, hused, hl⟩, hsm, hbl, h5, by
    show nb ≤ s.logSize + 1
    omega, hule, hids⟩
  unfold getNextBlockID
  rw [if_neg (by omega)]
  exact h1

/-- The `gc` loop leaves live slots alone, and every block it leaves with an id was there
before. -/
theorem gcLoop_live_frame (n : Nat) : ∀ (s s' : FS) (p : Nat), gcLoop n s = some (p, s') →
    (∀ q, Live s q → s'.log[q - 1]? = s.log[q - 1]?) ∧
    (∀ b, b ∈ s'.log → b.id ≠ 0 → b ∈ s.log) := by
  induction n with
  | zero =>
    intro s s' p h
    simp [gcLoop] at h
    obtain ⟨-, rfl⟩ := h
    exact ⟨fun _ _ => rfl, fun _ h _ => h⟩
  | succ n ih =>
    intro s s' p h
    unfold gcLoop at h
    cases hid : slotId s s.write_ptr with
    | none => simp [hid] at h
    | some id =>
      simp only [hid] at h
      by_cases h0 : id = 0
      · simp only [h0, if_true, Option.some.injEq, Prod.mk.injEq] at h
        obtain ⟨-, rfl⟩ := h
        exact ⟨fun _ _ => rfl, fun _ h _ => h⟩
      · simp only [h0, if_false] at h
        cases ha : bmapAt s id with
        | none => simp [ha] at h
        | some a =>
          simp only [ha] at h
          by_cases hne : a ≠ s.write_ptr
          · rw [if_pos hne] at h
            obtain ⟨r1, r2⟩ := ih _ _ _ h
            refine ⟨fun q hq => ?_, fun b hb hz => mem_zeroSlotId_log s _ b (r2 b hb hz) hz⟩
            obtain ⟨id', e1, e2, e3⟩ := hq
            have hqw : q ≠ s.write_ptr := by
              rintro rfl
              rw [hid] at e1
              cases e1
              rw [ha] at e3
              cases e3
              exact hne rfl
            have hq0 : q ≠ 0 := by
              rintro rfl
              simp [slotId] at e1
            have hw0 : s.write_ptr ≠ 0 := by
              intro hw; simp [slotId, hw] at hid
            have hlive' : Live (zeroSlotId s s.write_ptr) q :=
              ⟨id', by rw [slotId_zeroSlotId_other s _ _ hq0 hw0 hqw]; exact e1, e2, e3⟩
            rw [r1 q hlive']
            have : s.write_ptr - 1 ≠ q - 1 := by omega
            simp [zeroSlotId, List.getElem?_modify, this]
          · rw [if_neg hne] at h
            obtain ⟨r1, r2⟩ := ih _ _ _ h
            exact ⟨fun q hq => r1 q hq, r2⟩

theorem readSlot_eq (s : FS) (q : Nat) (hq : q ≠ 0) : readSlot s q = s.log[q - 1]? := by
  simp [readSlot, hq]

theorem slotId_eq (s : FS) (q : Nat) (hq : q ≠ 0) : slotId s q = s.log[q - 1]?.map Block.id := by
  simp [slotId, hq]

/-- The effect of `saveBlock` on a well-formed image with two free slots. -/
theorem saveBlock_wf (s : FS) (b : Block) (now : Nat) (hwf : WellFormed s)
    (hu : s.usedBlocks + 2 ≤ s.logSize) (hid : 1 ≤ b.id ∧ b.id ≤ s.logSize) :
    ∃ s' p, saveBlock s b now = some s' ∧ WellFormed s' ∧
      s'.logSize = s.logSize ∧ s'.nextBlockID = s.nextBlockID ∧
      s'.bmap = s.bmap.set (b.id - 1) p ∧ p ≠ 0 ∧
      s'.usedBlocks = (if s.bmap[b.id - 1]? = some 0 then s.usedBlocks + 1 else s.usedBlocks) ∧
      fetchBlock s' b.id = some (some { b with lastWriteTime := now }) ∧
      ∀ id, id ≠ b.id → fetchBlock s' id = fetchBlock s id := by
  obtain ⟨p, s1, hgc, hp⟩ := gc_finds s hwf hu
  have hwf0 := hwf
  obtain ⟨hc, hsm, hbl, nb1, nb2, hule, hids⟩ := hwf
  have hlive := hc.live
  obtain ⟨w1, w2, hlen, hml, hused, -⟩ := hc
  obtain ⟨fb, fu, fl, fn, fll⟩ := gc_frame s s1 p hgc
  have hl := gc_ne_zero s s1 p hgc hp
  obtain ⟨hw1, hz, -⟩ := gcLoop_result _ _ _ _ hl hp
  obtain ⟨ww1, ww2⟩ := gcLoop_write_ptr _ _ _ _ hl w1 w2 (by omega)
  obtain ⟨hfr, hsub⟩ := gcLoop_live_frame _ _ _ _ hl
  obtain ⟨-, hplt⟩ := slotId_lt _ _ _ hz
  have hidx : idx b.id = b.id - 1 := by
    have : b.id ≠ 0 := by omega
    simp [idx, this]
  have hblt : b.id - 1 < s.bmap.length := by omega
  obtain ⟨a, ha⟩ : ∃ a, s.bmap[b.id - 1]? = some a := ⟨_, List.getElem?_eq_getElem hblt⟩
  have hadv := advance_range s1.logSize s1.write_ptr ww1 ww2 (by omega)
  have hple : p ≤ s.logSize := by rw [← hw1, ← fl]; exact ww2
  have hsave : saveBlock s b now = some { s1 with
      log := s1.log.set (p - 1) { b with lastWriteTime := now }
      usedBlocks := if a = 0 then (s1.usedBlocks + 1) % 4294967296 else s1.usedBlocks
      bmap := s1.bmap.set (b.id - 1) p
      write_ptr := advance s1.logSize s1.write_ptr } := by
    unfold saveBlock
    simp only [hgc, hp, if_false, hplt, if_true, bmapAt, hidx, fb, ha]
  -- every slot named by the old map survives the collection and is not the new slot
  have hkeep : ∀ (k q : Nat), s.bmap[k]? = some q → q ≠ 0 →
      q ≠ p ∧ (s1.log.set (p - 1) { b with lastWriteTime := now })[q - 1]? = s.log[q - 1]? := by
    intro k q hk hq
    have hsl := hlive k q hk hq
    have hlv : Live s q := ⟨k + 1, hsl, by omega, by simp [bmapAt, idx, hk]⟩
    have h1 := hfr q hlv
    have hqp : q ≠ p := by
      rintro rfl
      rw [slotId_eq _ _ hq] at hz hsl
      rw [h1, hsl] at hz
      simp at hz
    exact ⟨hqp, by rw [List.getElem?_set_ne (by omega)]; exact h1⟩
  have hcnt : countNZ (s.bmap.set (b.id - 1) p) = (if a = 0 then s.usedBlocks + 1
      else s.usedBlocks) := by
    have := countNZ_set s.bmap (b.id - 1) p hblt
    have hget : s.bmap[b.id - 1] = a := by
      have := List.getElem?_eq_getElem hblt
      rw [ha] at this
      exact (Option.some.inj this).symm
    rw [hget] at this
    simp only [hp, ne_eq, not_false_eq_true, if_true] at this
    by_cases h0 : a = 0
    · simp only [h0, not_true_eq_false, if_false, if_true] at this ⊢
      omega
    · simp only [h0, not_false_eq_true, if_true, if_false] at this ⊢
      omega
  have hulog : a = 0 → s.usedBlocks < s.logSize := by
    intro _; omega
  refine ⟨_, p, hsave, ?_, fl, fn, by rw [fb], hp, ?_, ?_, ?_⟩
  · -- well-formedness
    refine ⟨Consistent.intro' hadv.1 hadv.2.1 (by simpa using fll.trans hlen |>.trans fl.symm)
      (by simpa [fb, fl] using hml) ?_ ?_, by simpa [fl] using hsm, by simpa [fb] using hbl,
      by simpa [fn] using nb1, by simpa [fn, fl] using nb2, ?_, ?_⟩
    · show (if a = 0 then (s1.usedBlocks + 1) % 4294967296 else s1.usedBlocks)
        = countNZ (s1.bmap.set (b.id - 1) p)
      rw [fb, hcnt, fu]
      have hm : (s.usedBlocks + 1) % 4294967296 = s.usedBlocks + 1 :=
        Nat.mod_eq_of_lt (by omega)
      rw [hm]
    · intro k q hk hq
      have hk' : (s1.bmap.set (b.id - 1) p)[k]? = some q := hk
      rw [fb] at hk'
      show slotId { s1 with log := s1.log.set (p - 1) { b with lastWriteTime := now } } q = _
      rw [slotId_eq _ _ hq]
      show ((s1.log.set (p - 1) { b with lastWriteTime := now })[q - 1]?).map Block.id = _
      by_cases hkb : k = b.id - 1
      · subst hkb
        rw [List.getElem?_set_self hblt] at hk'
        cases hk'
        rw [List.getElem?_set_self hplt]
        simp
        omega
      · rw [List.getElem?_set_ne (Ne.symm hkb)] at hk'
        rw [(hkeep k q hk' hq).2, ← slotId_eq _ _ hq]
        exact hlive k q hk' hq
    · show (if a = 0 then (s1.usedBlocks + 1) % 4294967296 else s1.usedBlocks) ≤ s1.logSize
      rw [fu, fl]
      split
      · omega
      · exact hule
    · intro b' hb'
      have hb'' : b' ∈ s1.log.set (p - 1) { b with lastWriteTime := now } := hb'
      show b'.id ≤ (s1.bmap.set (b.id - 1) p).length
      rw [List.length_set, fb]
      rcases List.mem_or_eq_of_mem_set hb'' with hm | he
      · by_cases hz' : b'.id = 0
        · omega
        · exact hids b' (hsub b' hm hz')
      · subst he
        show b.id ≤ _
        omega
  · show (if a = 0 then (s1.usedBlocks + 1) % 4294967296 else s1.usedBlocks) = _
    rw [ha, fu]
    have hm : (s.usedBlocks + 1) % 4294967296 = s.usedBlocks + 1 :=
      Nat.mod_eq_of_lt (by omega)
    by_cases h0 : a = 0
    · simp [h0, hm]
    · simp [h0]
  · have hb0 : ¬ (b.id = 0 ∨ b.id > s1.logSize) := by rw [fl]; omega
    have hpc : ¬ (p > s1.logSize) := by rw [fl]; omega
    simp only [fetchBlock, lookupBlockAddress, hb0, if_false, fb, List.getElem?_set_self hblt,
      hpc, readSlot, hp, List.getElem?_set_self hplt, false_or]
  · intro id hne
    by_cases hr : id = 0 ∨ id > s.logSize
    · simp [fetchBlock, lookupBlockAddress, hr, fl]
    · have hne' : b.id - 1 ≠ id - 1 := by omega
      have hil : id - 1 < s.bmap.length := by omega
      obtain ⟨q, hq⟩ : ∃ q, s.bmap[id - 1]? = some q := ⟨_, List.getElem?_eq_getElem hil⟩
      simp only [fetchBlock, lookupBlockAddress, hr, fl, if_false, fb,
        List.getElem?_set_ne hne', hq]
      by_cases hq0 : q = 0 ∨ q > s.logSize
      · simp [hq0]
      · have hq1 : q ≠ 0 := by omega
        simp only [hq0, if_false, readSlot, hq1]
        rw [(hkeep (id - 1) q hq hq1).2]

/-- The effect of `freeBlock` on a live block of a well-formed image. -/
theorem freeBlock_wf (s : FS) (id : Nat) (hwf : WellFormed s) (h2 : 2 ≤ id)
    (hle : id ≤ s.logSize) (hlv : s.bmap[id - 1]? ≠ some 0) :
    ∃ s', freeBlock s id = some s' ∧ WellFormed s' ∧ s'.logSize = s.logSize ∧
      s'.bmap = s.bmap.set (id - 1) 0 ∧ s'.usedBlocks + 1 = s.usedBlocks ∧
      fetchBlock s' id = some none ∧ ∀ id', id' ≠ id → fetchBlock s' id' = fetchBlock s id' := by
  obtain ⟨hc, hsm, hbl, nb1, nb2, hule, hids⟩ := hwf
  have hlive := hc.live
  obtain ⟨w1, w2, hlen, hml, hused, -⟩ := hc
  have h0 : id ≠ 0 := by omega
  have h1 : id ≠ 1 := by omega
  have hlt : id - 1 < s.bmap.length := by omega
  obtain ⟨a, ha⟩ : ∃ a, s.bmap[id - 1]? = some a := ⟨_, List.getElem?_eq_getElem hlt⟩
  have ha0 : a ≠ 0 := by
    rintro rfl
    exact hlv ha
  have hcnt : countNZ (s.bmap.set (id - 1) 0) + 1 = s.usedBlocks := by
    have := countNZ_set s.bmap (id - 1) 0 hlt
    have hget : s.bmap[id - 1] = a := by
      have := List.getElem?_eq_getElem hlt
      rw [ha] at this
      exact (Option.some.inj this).symm
    rw [hget] at this
    simp only [ha0, ne_eq, not_false_eq_true, if_true, not_true_eq_false, if_false] at this
    omega
  have hmod : (s.usedBlocks + 4294967295) % 4294967296 + 1 = s.usedBlocks := by omega
  refine ⟨{ s with bmap := s.bmap.set (id - 1) 0,
                   usedBlocks := (s.usedBlocks + 4294967295) % 4294967296 },
    by unfold freeBlock; rw [if_neg h0, if_neg h1, if_pos hlt], ?_, rfl, rfl, hmod, ?_, ?_⟩
  · refine ⟨Consistent.intro' w1 w2 hlen (by simpa using hml) ?_ ?_, hsm, by simpa using hbl,
      nb1, nb2, ?_, ?_⟩
    · show (s.usedBlocks + 4294967295) % 4294967296 = countNZ (s.bmap.set (id - 1) 0)
      omega
    · intro k q hk hq
      have hk' : (s.bmap.set (id - 1) 0)[k]? = some q := hk
      by_cases hkb : k = id - 1
      · subst hkb
        rw [List.getElem?_set_self hlt] at hk'
        cases hk'
        exact absurd rfl hq
      · rw [List.getElem?_set_ne (Ne.symm hkb)] at hk'
        have := hlive k q hk' hq
        rw [slotId_eq _ _ hq] at this ⊢
        exact this
    · show (s.usedBlocks + 4294967295) % 4294967296 ≤ s.logSize
      omega
    · intro b hb
      show b.id ≤ (s.bmap.set (id - 1) 0).length
      rw [List.length_set]
      exact hids b hb
  · have hb0 : ¬ (id = 0 ∨ id > s.logSize) := by omega
    simp only [fetchBlock, lookupBlockAddress, hb0, if_false, List.getElem?_set_self hlt,
      true_or, if_true]
  · intro id' hne
    by_cases hr : id' = 0 ∨ id' > s.logSize
    · simp [fetchBlock, lookupBlockAddress, hr]
    · have hne' : id - 1 ≠ id' - 1 := by omega
      simp only [fetchBlock, lookupBlockAddress, hr, if_false, List.getElem?_set_ne hne',
        readSlot]

theorem storedName_eq_self (n : List Char) (hlen : n.length ≤ 27)
    (hnul : Char.ofNat 0 ∉ n) : storedName n = n := by
  unfold storedName MAX_LINK_NAME_LENGTH
  have h1 : n.takeWhile (fun ch => ch ≠ Char.ofNat 0) = n := by
    rw [List.takeWhile_eq_self_iff]
    intro ch hch
    have : ch ≠ Char.ofNat 0 := fun h => hnul (h ▸ hch)
    simpa using this
  rw [h1]
  exact List.take_of_length_le (by omega)

theorem storedName_length (n : List Char) : (storedName n).length ≤ 27 := by
  unfold storedName MAX_LINK_NAME_LENGTH
  rw [List.length_take]
  omega

theorem storedName_no_nul (n : List Char) : Char.ofNat 0 ∉ storedName n := by
  unfold storedName
  intro h
  have h1 := List.mem_of_mem_take h
  have h2 := List.mem_takeWhile_imp h1
  simp at h2

theorem storedName_idem (n : List Char) : storedName (storedName n) = storedName n :=
  storedName_eq_self _ (storedName_length n) (storedName_no_nul n)

theorem readLinks_mem (n : Nat) (l : List Hardlink) (h : Hardlink) (hm : h ∈ readLinks n l) :
    h.targetINodeBlockID ≠ 0 ∧ storedName h.linkName = h.linkName := by
  unfold readLinks at hm
  rw [List.mem_map] at hm
  obtain ⟨h0, hf, rfl⟩ := hm
  have := (List.mem_filter.mp hf).2
  refine ⟨by simpa using this, storedName_idem _⟩

theorem readLinks_length_le (n : Nat) (l : List Hardlink) : (readLinks n l).length ≤ n := by
  unfold readLinks
  rw [List.length_map]
  refine (List.length_filter_le _ _).trans ?_
  rw [List.length_take]
  omega

theorem readLinks_writeLinks (n : Nat) (es : List Hardlink) (hlen : es.length ≤ n)
    (hok : ∀ h, h ∈ es → h.targetINodeBlockID ≠ 0 ∧ storedName h.linkName = h.linkName) :
    readLinks n (writeLinks es) = es := by
  have hw : writeLinks es = es := by
    unfold writeLinks
    conv_rhs => rw [← List.map_id es]
    apply List.map_congr_left
    intro h hh
    rw [(hok h hh).2]
    rfl
  rw [hw]
  unfold readLinks
  rw [List.take_of_length_le hlen]
  have hf : es.filter (fun h => h.targetINodeBlockID ≠ 0) = es := by
    rw [List.filter_eq_self]
    intro h hh
    simpa using (hok h hh).1
  rw [hf]
  conv_rhs => rw [← List.map_id es]
  apply List.map_congr_left
  intro h hh
  rw [(hok h hh).2]
  rfl

theorem findLink_append_none (es : List Hardlink) (link : Hardlink) (name : List Char)
    (h : findLink es name = none) (hl : link.linkName = name) :
    findLink (es ++ [link]) name = some link := by
  unfold findLink at h ⊢
  rw [List.find?_append, h]
  simp [hl]

theorem findLink_append_some (es : List Hardlink) (link x : Hardlink) (name : List Char)
    (h : findLink es name = some x) : findLink (es ++ [link]) name = some x := by
  unfold findLink at h ⊢
  rw [List.find?_append, h]
  rfl

theorem removeLink_append_none (es : List Hardlink) (link : Hardlink) (name : List Char)
    (h : findLink es name = none) (hl : link.linkName = name) :
    removeLink (es ++ [link]) name = es := by
  induction es with
  | nil => simp [removeLink, hl]
  | cons a t ih =>
    unfold findLink at h
    rw [List.find?_cons] at h
    by_cases ha : a.linkName = name
    · simp [ha] at h
    · simp only [ha, decide_False] at h
      have ih' := ih h
      show removeLink (a :: (t ++ [link])) name = a :: t
      simp only [removeLink, ha, if_false, ih']

/-- What the fetch of a block tells about the block map. -/
theorem fetchBlock_some (s : FS) (id : Nat) (b : Block) (h : fetchBlock s id = some (some b)) :
    1 ≤ id ∧ id ≤ s.logSize ∧ s.bmap[id - 1]? ≠ some 0 ∧ b ∈ s.log := by
  unfold fetchBlock lookupBlockAddress at h
  by_cases hr : id = 0 ∨ id > s.logSize
  · simp [hr] at h
  · rw [if_neg hr] at h
    cases hq : s.bmap[id - 1]? with
    | none => rw [hq] at h; cases h
    | some q =>
      rw [hq] at h
      simp only at h
      by_cases hq0 : q = 0 ∨ q > s.logSize
      · rw [if_pos hq0] at h; cases h
      · rw [if_neg hq0] at h
        unfold readSlot at h
        have hq1 : q ≠ 0 := by omega
        rw [if_neg hq1] at h
        cases hb : s.log[q - 1]? with
        | none => rw [hb] at h; cases h
        | some b' =>
          rw [hb] at h
          simp only [Option.some.injEq] at h
          subst h
          refine ⟨by omega, by omega, ?_, List.getElem?_mem hb⟩
          intro h0
          cases h0
          exact hq1 rfl

theorem fetchBlock_free (s : FS) (id : Nat) (h : s.bmap[id - 1]? = some 0) :
    fetchBlock s id = some none := by
  unfold fetchBlock lookupBlockAddress
  by_cases hr : id = 0 ∨ id > s.logSize
  · simp [hr]
  · simp [hr, h]

/-- The two ways in which `loadDirectory` yields a directory. -/
theorem loadDirectory_inv (c : Constants) (u : Nat) (s : FS) (id : Nat) (d : Directory)
    (h : loadDirectory c u s id = some (some d)) :
    ∃ lwt ct sz lc, (∃ l, fetchBlock s id = some (some ⟨id, lwt, .inode ct sz INODE_TYPE_DIR
          true lc (.links l)⟩) ∧
        d = ⟨⟨⟨id, lwt, ct, sz, INODE_TYPE_DIR, true, lc⟩,
              readLinks c.MAX_LINKS_PER_DIRENTRYLIST l, []⟩,
             (readLinks c.MAX_LINKS_PER_DIRENTRYLIST l).length, []⟩) ∨
      (∃ l lists, fetchBlock s id = some (some ⟨id, lwt, .inode ct sz INODE_TYPE_DIR
          false lc (.ids l)⟩) ∧
        loadDirEntryLists c s (readIds c.MAX_DIRENTRYLISTS_PER_DIR l) = some (some lists) ∧
        d = ⟨⟨⟨id, lwt, ct, sz, INODE_TYPE_DIR, false, lc⟩, [],
              readIds c.MAX_DIRENTRYLISTS_PER_DIR l⟩,
             lists.foldl (fun n l => (n + l.entries.length) % 4294967296) u, lists⟩) := by
  unfold loadDirectory at h
  cases hf : fetchBlock s id with
  | none => rw [hf] at h; cases h
  | some ob =>
    cases ob with
    | none => rw [hf] at h; cases h
    | some b =>
      rw [hf] at h
      simp only at h
      obtain ⟨bid, lwt, body⟩ := b
      by_cases hid : bid ≠ id
      · rw [if_pos hid] at h; cases h
      · rw [if_neg hid] at h
        simp only [ne_eq, not_not] at hid
        subst hid
        cases body with
        | plain pl => cases h
        | inode ct sz ty il lc pl =>
          simp only at h
          by_cases hty : ty ≠ INODE_TYPE_DIR
          · rw [if_pos hty] at h; cases h
          · rw [if_neg hty] at h
            simp only [ne_eq, not_not] at hty
            subst hty
            refine ⟨lwt, ct, sz, lc, ?_⟩
            cases il with
            | true =>
              cases pl with
              | links l =>
                simp only [Option.some.injEq] at h
                exact Or.inl ⟨l, rfl, h.symm⟩
              | ids l => cases h
              | bytes l => cases h
            | false =>
              cases pl with
              | links l => cases h
              | bytes l => cases h
              | ids l =>
                simp only at h
                cases hl : loadDirEntryLists c s (readIds c.MAX_DIRENTRYLISTS_PER_DIR l) with
                | none => rw [hl] at h; cases h
                | some ol =>
                  cases ol with
                  | none => rw [hl] at h; cases h
                  | some lists =>
                    rw [hl] at h
                    simp only [Option.some.injEq] at h
                    exact Or.inr ⟨l, lists, rfl, hl, h.symm⟩

theorem loadDirectory_id (c : Constants) (u : Nat) (s : FS) (id : Nat) (d : Directory)
    (h : loadDirectory c u s id = some (some d)) : d.inode.id = id := by
  obtain ⟨lwt, ct, sz, lc, h1 | h1⟩ := loadDirectory_inv c u s id d h
  · obtain ⟨l, -, rfl⟩ := h1; rfl
  · obtain ⟨l, lists, -, -, rfl⟩ := h1; rfl

/-- Loading an inlined directory block. -/
theorem loadDirectory_inline (c : Constants) (u : Nat) (s : FS) (id lwt ct sz lc : Nat)
    (l : List Hardlink)
    (h : fetchBlock s id = some (some ⟨id, lwt, .inode ct sz INODE_TYPE_DIR true lc (.links l)⟩)) :
    loadDirectory c u s id = some (some ⟨⟨⟨id, lwt, ct, sz, INODE_TYPE_DIR, true, lc⟩,
      readLinks c.MAX_LINKS_PER_DIRENTRYLIST l, []⟩,
      (readLinks c.MAX_LINKS_PER_DIRENTRYLIST l).length, []⟩) := by
  unfold loadDirectory
  rw [h]
  simp

theorem peekINodeType_congr (s t : FS) (id : Nat) (h : fetchBlock t id = fetchBlock s id) :
    peekINodeType t id = peekINodeType s id := by
  unfold peekINodeType
  rw [h]

theorem loadDirEntryList_congr (c : Constants) (s t : FS) (id : Nat)
    (h : fetchBlock t id = fetchBlock s id) :
    loadDirEntryList c t id = loadDirEntryList c s id := by
  unfold loadDirEntryList
  rw [h]

theorem loadDataBlockList_congr (c : Constants) (s t : FS) (id : Nat)
    (h : fetchBlock t id = fetchBlock s id) :
    loadDataBlockList c t id = loadDataBlockList c s id := by
  unfold loadDataBlockList
  rw [h]

theorem searchHardlink_congr (d d1 : Directory) (h1 : d1.inode = d.inode)
    (h2 : d1.entryLists = d.entryLists) (name : List Char) :
    d1.searchHardlink name = d.searchHardlink name := by
  unfold Directory.searchHardlink
  rw [h1, h2]

/-- Loading an external directory block. -/
theorem loadDirectory_external (c : Constants) (u : Nat) (s : FS) (id lwt ct sz lc : Nat)
    (l : List Nat) (lists : List DirectoryEntryList)
    (h : fetchBlock s id = some (some ⟨id, lwt, .inode ct sz INODE_TYPE_DIR false lc (.ids l)⟩))
    (hl : loadDirEntryLists c s (readIds c.MAX_DIRENTRYLISTS_PER_DIR l) = some (some lists)) :
    loadDirectory c u s id = some (some ⟨⟨⟨id, lwt, ct, sz, INODE_TYPE_DIR, false, lc⟩, [],
      readIds c.MAX_DIRENTRYLISTS_PER_DIR l⟩,
      lists.foldl (fun n l => (n + l.entries.length) % 4294967296) u, lists⟩) := by
  unfold loadDirectory
  rw [h]
  simp [hl]

theorem loadDirEntryLists_mono (c : Constants) (s s1 : FS) (P N : Nat)
    (hF : ∀ id, id ≠ P → id ≠ N → fetchBlock s1 id = fetchBlock s id)
    (hN : fetchBlock s N = some none) (hPl : loadDirEntryList c s P = none) :
    ∀ (ids : List Nat) (lists : List DirectoryEntryList),
      loadDirEntryLists c s ids = some (some lists) →
      loadDirEntryLists c s1 ids = some (some lists) := by
  intro ids
  induction ids with
  | nil => intro lists h; exact h
  | cons id rest ih =>
    intro lists h
    unfold loadDirEntryLists at h ⊢
    cases h1 : loadDirEntryList c s id with
    | none => rw [h1] at h; cases h
    | some ol =>
      cases ol with
      | none => rw [h1] at h; cases h
      | some l =>
        rw [h1] at h
        simp only at h
        have hP : id ≠ P := by
          rintro rfl
          rw [hPl] at h1
          cases h1
        have hNN : id ≠ N := by
          rintro rfl
          unfold loadDirEntryList at h1
          rw [hN] at h1
          cases h1
        rw [loadDirEntryList_congr c s s1 id (hF id hP hNN), h1]
        simp only
        cases h2 : loadDirEntryLists c s rest with
        | none => rw [h2] at h; cases h
        | some ol2 =>
          cases ol2 with
          | none => rw [h2] at h; cases h
          | some ls =>
            rw [h2] at h
            rw [ih ls h2]
            exact h

theorem loadDirectory_free (c : Constants) (u : Nat) (s : FS) (N : Nat)
    (hN : fetchBlock s N = some none) : loadDirectory c u s N = some none := by
  unfold loadDirectory
  rw [hN]

theorem loadDirectory_mono (c : Constants) (u u1 : Nat) (s s1 : FS) (P N : Nat)
    (hF : ∀ id, id ≠ P → id ≠ N → fetchBlock s1 id = fetchBlock s id)
    (hN : fetchBlock s N = some none) (hPl : loadDirEntryList c s P = none)
    (id : Nat) (d : Directory) (h : loadDirectory c u s id = some (some d)) (hP : id ≠ P) :
    ∃ d1, loadDirectory c u1 s1 id = some (some d1) ∧ d1.inode = d.inode ∧
      d1.entryLists = d.entryLists := by
  have hNN : id ≠ N := by
    rintro rfl
    rw [loadDirectory_free c u s id hN] at h
    cases h
  have hf := hF id hP hNN
  obtain ⟨lwt, ct, sz, lc, h1 | h1⟩ := loadDirectory_inv c u s id d h
  · obtain ⟨l, hb, rfl⟩ := h1
    exact ⟨_, loadDirectory_inline c u1 s1 id lwt ct sz lc l (hf.trans hb), rfl, rfl⟩
  · obtain ⟨l, lists, hb, hl, rfl⟩ := h1
    exact ⟨_, loadDirectory_external c u1 s1 id lwt ct sz lc l lists (hf.trans hb)
      (loadDirEntryLists_mono c s s1 P N hF hN hPl _ _ hl), rfl, rfl⟩

/-- The path walk after `mkdir` follows the walk before. -/
theorem searchParentLoop_follow (c : Constants) (u u1 : Nat) (s s1 : FS) (P N : Nat)
    (parent parent1 : Directory)
    (hF : ∀ id, id ≠ P → id ≠ N → fetchBlock s1 id = fetchBlock s id)
    (hN : fetchBlock s N = some none) (hPl : loadDirEntryList c s P = none)
    (hPs : loadDirectory c u s P = some (some parent))
    (hP1 : loadDirectory c u1 s1 P = some (some parent1))
    (hpk : peekINodeType s1 P = peekINodeType s P)
    (hsh : ∀ nm, parent.searchHardlink nm ≠ 0 →
      parent1.searchHardlink nm = parent.searchHardlink nm) :
    ∀ (dirs : List (List Char)) (d d1 r : Directory), Follows P parent parent1 d d1 →
      searchParentLoop c u s dirs d = some (some r) →
      ∃ r1, searchParentLoop c u1 s1 dirs d1 = some (some r1) ∧
        Follows P parent parent1 r r1 := by
  intro dirs
  induction dirs with
  | nil =>
    intro d d1 r hfo h
    unfold searchParentLoop at h
    simp only [Option.some.injEq] at h
    subst h
    exact ⟨d1, rfl, hfo⟩
  | cons name rest ih =>
    intro d d1 r hfo h
    unfold searchParentLoop at h ⊢
    simp only at h ⊢
    by_cases h0 : d.searchHardlink name = 0
    · rw [if_pos h0] at h; cases h
    · rw [if_neg h0] at h
      have hs : d1.searchHardlink name = d.searchHardlink name := by
        rcases hfo with ⟨-, e1, e2⟩ | ⟨rfl, rfl⟩
        · exact searchHardlink_congr d d1 e1 e2 name
        · exact hsh name h0
      rw [hs, if_neg h0]
      cases hp : peekINodeType s (d.searchHardlink name) with
      | none => rw [hp] at h; cases h
      | some t =>
        rw [hp] at h
        simp only at h
        by_cases ht : t ≠ INODE_TYPE_DIR
        · rw [if_pos ht] at h; cases h
        · rw [if_neg ht] at h
          cases hl : loadDirectory c u s (d.searchHardlink name) with
          | none => rw [hl] at h; cases h
          | some od =>
            cases od with
            | none => rw [hl] at h; cases h
            | some dir =>
              rw [hl] at h
              simp only at h
              by_cases hP : d.searchHardlink name = P
              · rw [hP] at hl hp ⊢
                rw [hPs] at hl
                simp only [Option.some.injEq] at hl
                subst hl
                rw [hpk, hp]
                simp only
                rw [if_neg ht, hP1]
                exact ih parent parent1 r (Or.inr ⟨rfl, rfl⟩) h
              · have hNN : d.searchHardlink name ≠ N := by
                  intro e
                  rw [e, loadDirectory_free c u s N hN] at hl
                  cases hl
                obtain ⟨dir1, hl1, e1, e2⟩ :=
                  loadDirectory_mono c u u1 s s1 P N hF hN hPl _ dir hl hP
                rw [peekINodeType_congr s s1 _ (hF _ hP hNN), hp]
                simp only
                rw [if_neg ht, hl1]
                have hid := loadDirectory_id c u s _ dir hl
                exact ih dir dir1 r (Or.inl ⟨by rw [hid]; exact hP, e1, e2⟩) h

/-- A directory found by the path walk is the directory that its id loads. -/
theorem searchParentLoop_loaded (c : Constants) (u : Nat) (s : FS) :
    ∀ (dirs : List (List Char)) (d r : Directory),
      loadDirectory c u s d.inode.id = some (some d) →
      searchParentLoop c u s dirs d = some (some r) →
      loadDirectory c u s r.inode.id = some (some r) := by
  intro dirs
  induction dirs with
  | nil =>
    intro d r hd h
    unfold searchParentLoop at h
    simp only [Option.some.injEq] at h
    subst h
    exact hd
  | cons name rest ih =>
    intro d r hd h
    unfold searchParentLoop at h
    simp only at h
    split at h
    · cases h
    · split at h
      · cases h
      · split at h
        · cases h
        · split at h
          · cases h
          · cases h
          · rename_i dir hl
            have hid := loadDirectory_id c u s _ dir hl
            exact ih dir r (by rw [hid]; exact hl) h

theorem searchParent_loaded (c : Constants) (pu : PathUtils) (u : Nat) (s : FS)
    (path : List Char) (r : Directory) (h : searchParent c pu u s path = some (some r)) :
    loadDirectory c u s r.inode.id = some (some r) := by
  unfold searchParent at h
  split at h
  · cases h
  · split at h
    · cases h
    · split at h
      · cases h
      · simp only at h
        split at h
        · cases h
        · split at h <;> cases h
        · rename_i root hl
          have hid := loadDirectory_id c u s _ root hl
          exact searchParentLoop_loaded c u s _ root r (by rw [hid]; exact hl) h

theorem searchParent_follow (c : Constants) (pu : PathUtils) (u u1 : Nat) (s s1 : FS) (P N : Nat)
    (parent parent1 : Directory)
    (hF : ∀ id, id ≠ P → id ≠ N → fetchBlock s1 id = fetchBlock s id)
    (hN : fetchBlock s N = some none) (hPl : loadDirEntryList c s P = none)
    (hPs : loadDirectory c u s P = some (some parent))
    (hP1 : loadDirectory c u1 s1 P = some (some parent1))
    (hpk : peekINodeType s1 P = peekINodeType s P)
    (hsh : ∀ nm, parent.searchHardlink nm ≠ 0 →
      parent1.searchHardlink nm = parent.searchHardlink nm)
    (path : List Char) (r : Directory) (h : searchParent c pu u s path = some (some r)) :
    ∃ r1, searchParent c pu u1 s1 path = some (some r1) ∧ Follows P parent parent1 r r1 := by
  unfold searchParent at h ⊢
  by_cases hh : path.head? ≠ some '/'
  · rw [if_pos hh] at h; cases h
  · rw [if_neg hh] at h ⊢
    cases hsp : pu.split path '/' with
    | nil => rw [hsp] at h; cases h
    | cons x dirs1 =>
      rw [hsp] at h
      simp only at h ⊢
      by_cases hd : dirs1 = []
      · rw [if_pos hd] at h; cases h
      · rw [if_neg hd] at h ⊢
        cases hl : loadDirectory c u s 1 with
        | none => rw [hl] at h; cases h
        | some od =>
          cases od with
          | none =>
            rw [hl] at h
            simp only at h
            split at h <;> cases h
          | some root =>
            rw [hl] at h
            simp only at h
            by_cases hP : 1 = P
            · subst hP
              rw [hPs] at hl
              simp only [Option.some.injEq] at hl
              subst hl
              rw [hP1]
              exact searchParentLoop_follow c u u1 s s1 1 N parent parent1 hF hN hPl hPs hP1
                hpk hsh _ parent parent1 r (Or.inr ⟨rfl, rfl⟩) h
            · obtain ⟨root1, hl1, e1, e2⟩ :=
                loadDirectory_mono c u u1 s s1 P N hF hN hPl 1 root hl hP
              rw [hl1]
              have hid := loadDirectory_id c u s _ root hl
              exact searchParentLoop_follow c u u1 s s1 P N parent parent1 hF hN hPl hPs hP1
                hpk hsh _ root root1 r (Or.inl ⟨by rw [hid]; exact hP, e1, e2⟩) h

theorem restamp_searchHardlink (P t : Nat) (d : Directory) (name : List Char) :
    (restamp P t d).searchHardlink name = d.searchHardlink name := by
  unfold restamp
  split
  · rfl
  · rfl

theorem restamp_ls (P t : Nat) (d : Directory) : (restamp P t d).ls = d.ls := by
  unfold restamp
  split
  · rfl
  · rfl

theorem restamp_of_ne (P t : Nat) (d : Directory) (h : d.inode.id ≠ P) : restamp P t d = d := by
  unfold restamp
  rw [if_neg h]

theorem loadDirEntryLists_congr (c : Constants) (s t : FS)
    (h : ∀ id, loadDirEntryList c t id = loadDirEntryList c s id) (ids : List Nat) :
    loadDirEntryLists c t ids = loadDirEntryLists c s ids := by
  induction ids with
  | nil => rfl
  | cons id rest ih =>
    unfold loadDirEntryLists
    rw [h id, ih]

theorem loadDataBlockLists_congr (c : Constants) (s t : FS)
    (h : ∀ id, loadDataBlockList c t id = loadDataBlockList c s id) (ids : List Nat) :
    loadDataBlockLists c t ids = loadDataBlockLists c s ids := by
  induction ids with
  | nil => rfl
  | cons id rest ih =>
    unfold loadDataBlockLists
    rw [h id, ih]

theorem loadDirectory_congr (c : Constants) (u : Nat) (s t : FS) (id : Nat)
    (hf : fetchBlock t id = fetchBlock s id)
    (h : ∀ id, loadDirEntryList c t id = loadDirEntryList c s id) :
    loadDirectory c u t id = loadDirectory c u s id := by
  unfold loadDirectory
  rw [hf]
  simp only [loadDirEntryLists_congr c s t h]

theorem loadFile_congr (c : Constants) (s t : FS) (id : Nat)
    (hf : fetchBlock t id = fetchBlock s id)
    (h : ∀ id, loadDataBlockList c t id = loadDataBlockList c s id) :
    loadFile c t id = loadFile c s id := by
  unfold loadFile
  rw [hf]
  simp only [loadDataBlockLists_congr c s t h]

theorem SameView.peek {c : Constants} {s t : FS} {P N tm : Nat} (h : SameView c s t P N tm)
    (id : Nat) : peekINodeType t id = peekINodeType s id := by
  obtain ⟨lwt, ct, sz, lc, l, l1, hs, ht, -⟩ := h.parent
  by_cases hP : id = P
  · subst hP
    unfold peekINodeType
    rw [hs, ht]
  · by_cases hN : id = N
    · subst hN
      unfold peekINodeType
      rw [h.freeS, h.freeT]
    · exact peekINodeType_congr s t id (h.other id hP hN)

theorem SameView.entryList {c : Constants} {s t : FS} {P N tm : Nat}
    (h : SameView c s t P N tm) (id : Nat) :
    loadDirEntryList c t id = loadDirEntryList c s id := by
  obtain ⟨lwt, ct, sz, lc, l, l1, hs, ht, -⟩ := h.parent
  by_cases hP : id = P
  · subst hP
    unfold loadDirEntryList
    rw [hs, ht]
  · by_cases hN : id = N
    · subst hN
      unfold loadDirEntryList
      rw [h.freeS, h.freeT]
    · exact loadDirEntryList_congr c s t id (h.other id hP hN)

theorem SameView.blockList {c : Constants} {s t : FS} {P N tm : Nat}
    (h : SameView c s t P N tm) (id : Nat) :
    loadDataBlockList c t id = loadDataBlockList c s id := by
  obtain ⟨lwt, ct, sz, lc, l, l1, hs, ht, -⟩ := h.parent
  by_cases hP : id = P
  · subst hP
    unfold loadDataBlockList
    rw [hs, ht]
  · by_cases hN : id = N
    · subst hN
      unfold loadDataBlockList
      rw [h.freeS, h.freeT]
    · exact loadDataBlockList_congr c s t id (h.other id hP hN)

theorem SameView.file {c : Constants} {s t : FS} {P N tm : Nat}
    (h : SameView c s t P N tm) (id : Nat) : loadFile c t id = loadFile c s id := by
  obtain ⟨lwt, ct, sz, lc, l, l1, hs, ht, -⟩ := h.parent
  by_cases hP : id = P
  · subst hP
    unfold loadFile
    rw [hs, ht]
  · by_cases hN : id = N
    · subst hN
      unfold loadFile
      rw [h.freeS, h.freeT]
    · exact loadFile_congr c s t id (h.other id hP hN) h.blockList

theorem SameView.directory {c : Constants} {s t : FS} {P N tm : Nat}
    (h : SameView c s t P N tm) (u : Nat) (id : Nat) :
    loadDirectory c u t id = (loadDirectory c u s id).map (Option.map (restamp P tm)) := by
  by_cases hP : id = P
  · subst hP
    obtain ⟨lwt, ct, sz, lc, l, l1, hs, ht, hr⟩ := h.parent
    rw [loadDirectory_inline c u s id lwt ct sz lc l hs,
      loadDirectory_inline c u t id tm ct sz lc l1 ht, hr]
    simp [restamp]
  · by_cases hN : id = N
    · subst hN
      rw [loadDirectory_free c u s id h.freeS, loadDirectory_free c u t id h.freeT]
      rfl
    · rw [loadDirectory_congr c u s t id (h.other id hP hN) h.entryList]
      cases hl : loadDirectory c u s id with
      | none => rfl
      | some od =>
        cases od with
        | none => rfl
        | some d =>
          have hid := loadDirectory_id c u s id d hl
          simp only [Option.map_some']
          rw [restamp_of_ne P tm d (by rw [hid]; exact hP)]

theorem SameView.walkLoop {c : Constants} {s t : FS} {P N tm : Nat}
    (h : SameView c s t P N tm) (u : Nat) :
    ∀ (dirs : List (List Char)) (d : Directory),
      SDI4FS.searchParentLoop c u t dirs (restamp P tm d) =
        (SDI4FS.searchParentLoop c u s dirs d).map (Option.map (restamp P tm)) := by
  intro dirs
  induction dirs with
  | nil => intro d; rfl
  | cons name rest ih =>
    intro d
    unfold SDI4FS.searchParentLoop
    simp only [restamp_searchHardlink, h.peek, h.directory u]
    by_cases h0 : d.searchHardlink name = 0
    · simp [h0]
    · simp only [h0, if_false]
      cases hp : peekINodeType s (d.searchHardlink name) with
      | none => rfl
      | some ty =>
        simp only
        by_cases ht : ty ≠ INODE_TYPE_DIR
        · simp [ht]
        · simp only [ht, if_false]
          cases hl : loadDirectory c u s (d.searchHardlink name) with
          | none => rfl
          | some od =>
            cases od with
            | none => rfl
            | some dir =>
              simp only [Option.map_some']
              exact ih dir

theorem SameView.walk {c : Constants} {s t : FS} {P N tm : Nat}
    (h : SameView c s t P N tm) (pu : PathUtils) (u : Nat) (path : List Char) :
    SDI4FS.searchParent c pu u t path =
      (SDI4FS.searchParent c pu u s path).map (Option.map (restamp P tm)) := by
  unfold SDI4FS.searchParent
  by_cases hh : path.head? ≠ some '/'
  · simp [hh]
  · simp only [hh, if_false]
    cases hsp : pu.split path '/' with
    | nil => rfl
    | cons x dirs1 =>
      simp only
      by_cases hd : dirs1 = []
      · simp [hd]
      · simp only [hd, if_false, h.directory u]
        cases hl : loadDirectory c u s 1 with
        | none => rfl
        | some od =>
          cases od with
          | none =>
            simp only [Option.map_some', Option.map_none']
            split <;> rfl
          | some root =>
            simp only [Option.map_some']
            exact h.walkLoop u _ root

theorem SameView.rows {c : Constants} {s t : FS} {P N tm : Nat}
    (h : SameView c s t P N tm) (u : Nat) (dir : Directory) :
    ∀ names : List (List Char),
      (SDI4FS.lsRows c u t (restamp P tm dir) names).map (List.map LsLine.eraseTime) =
        (SDI4FS.lsRows c u s dir names).map (List.map LsLine.eraseTime) := by
  intro names
  induction names with
  | nil => rfl
  | cons name rest ih =>
    unfold SDI4FS.lsRows
    simp only [restamp_searchHardlink, h.peek, h.directory u, h.file]
    cases hp : peekINodeType s (dir.searchHardlink name) with
    | none => rfl
    | some ty =>
      simp only
      by_cases ht : ty = INODE_TYPE_DIR
      · simp only [ht, if_true]
        cases hl : loadDirectory c u s (dir.searchHardlink name) with
        | none => rfl
        | some od =>
          cases od with
          | none => rfl
          | some child =>
            simp only [Option.map_some']
            cases h1 : SDI4FS.lsRows c u s dir rest with
            | none =>
              rw [h1] at ih
              cases h2 : SDI4FS.lsRows c u t (restamp P tm dir) rest with
              | none => rfl
              | some r2 => rw [h2] at ih; cases ih
            | some r1 =>
              rw [h1] at ih
              cases h2 : SDI4FS.lsRows c u t (restamp P tm dir) rest with
              | none => rw [h2] at ih; cases ih
              | some r2 =>
                rw [h2] at ih
                simp only [Option.map_some', Option.some.injEq] at ih
                simp only [Option.map_some', List.map_cons, ih, LsLine.eraseTime]
                unfold restamp
                split <;> rfl
      · simp only [ht, if_false]
        by_cases hf : ty = INODE_TYPE_REGULARFILE
        · simp only [hf, if_true]
          cases hl : loadFile c s (dir.searchHardlink name) with
          | none => rfl
          | some od =>
            cases od with
            | none => rfl
            | some child =>
              simp only
              cases h1 : SDI4FS.lsRows c u s dir rest with
              | none =>
                rw [h1] at ih
                cases h2 : SDI4FS.lsRows c u t (restamp P tm dir) rest with
                | none => rfl
                | some r2 => rw [h2] at ih; cases ih
              | some r1 =>
                rw [h1] at ih
                cases h2 : SDI4FS.lsRows c u t (restamp P tm dir) rest with
                | none => rw [h2] at ih; cases ih
                | some r2 =>
                  rw [h2] at ih
                  simp only [Option.map_some', Option.some.injEq] at ih
                  simp only [Option.map_some', List.map_cons, ih]
        · simp only [hf, if_false]
          exact ih

/-- The listing of every path agrees up to write times. -/
theorem SameView.listing {c : Constants} {s t : FS} {P N tm : Nat}
    (h : SameView c s t P N tm) (pu : PathUtils) (u : Nat) (path : List Char) :
    eraseTimes (SDI4FS.ls c pu u t path) = eraseTimes (SDI4FS.ls c pu u s path) := by
  unfold SDI4FS.ls
  simp only
  by_cases hh : (pu.normalizePath path).head? ≠ some '/'
  · simp [hh]
  · simp only [hh, if_false, h.walk pu u]
    cases hsp : SDI4FS.searchParent c pu u s (pu.normalizePath path) with
    | none => rfl
    | some op =>
      cases op with
      | none => rfl
      | some parent =>
        simp only [Option.map_some', restamp_searchHardlink]
        generalize (if pu.normalizePath path ≠ ['/'] then
          parent.searchHardlink (pu.lastName (pu.normalizePath path)) else 1) = id
        by_cases h0 : id = 0
        · simp [h0]
        · simp only [h0, if_false, h.peek]
          generalize (if pu.normalizePath path ≠ ['/'] then peekINodeType s id
            else some INODE_TYPE_DIR) = pk
          cases pk with
          | none => rfl
          | some ty =>
            simp only
            by_cases ht : ty ≠ INODE_TYPE_DIR
            · simp [ht]
            · simp only [ht, if_false, h.directory u]
              cases hl : loadDirectory c u s id with
              | none => rfl
              | some od =>
                cases od with
                | none => rfl
                | some dir =>
                  simp only [Option.map_some', restamp_ls]
                  have := h.rows u dir dir.ls
                  cases h1 : SDI4FS.lsRows c u s dir dir.ls with
                  | none =>
                    rw [h1] at this
                    cases h2 : SDI4FS.lsRows c u t (restamp P tm dir) dir.ls with
                    | none => rfl
                    | some r2 => rw [h2] at this; cases this
                  | some r1 =>
                    rw [h1] at this
                    cases h2 : SDI4FS.lsRows c u t (restamp P tm dir) dir.ls with
                    | none => rw [h2] at this; cases this
                    | some r2 =>
                      rw [h2] at this
                      simp only [Option.map_some', Option.some.injEq] at this
                      simp only [eraseTimes, Option.map_some']
                      split <;> simp [this, LsLine.eraseTime]

/-- The inline branch of `Directory::addHardlink`. -/
theorem addHardlink_inline (c : Constants) (s : FS) (d : Directory) (target : INode)
    (name : List Char) (h1 : d.searchHardlink name = 0)
    (h2 : d.childCount ≠ c.MAX_HARDLINKS_PER_DIR)
    (h3 : target.linkCounter ≠ MAX_NUMBER_OF_LINKS_TO_INODE) (h4 : d.inode.inlined = true)
    (h5 : d.inode.entries.length < c.MAX_LINKS_PER_DIRENTRYLIST) :
    Directory.addHardlink c s d target name = some (s,
      { d with
        inode := { d.inode with entries := d.inode.entries ++ [⟨name, target.id⟩] }
        childCount := (d.childCount + 1) % 4294967296 },
      { target with linkCounter := target.linkCounter + 1 }, [.target, .primary]) := by
  unfold Directory.addHardlink
  rw [if_neg (by simpa using h1), if_neg h2, if_neg h3]
  simp only [h4, if_true, h5]

/-- The inline branch of `Directory::rmHardlink`. -/
theorem rmHardlink_inline (s : FS) (d : Directory) (target : INode) (name : List Char)
    (h1 : ¬ (name = [] ∨ '/' ∈ name)) (h4 : d.inode.inlined = true) :
    Directory.rmHardlink s d target name = some (s,
      { d with
        inode := { d.inode with entries := removeLink d.inode.entries name }
        childCount := (d.childCount + 4294967295) % 4294967296 },
      decrementLinkCounter target, [.target, .primary]) := by
  unfold Directory.rmHardlink
  rw [if_neg h1]
  simp only [h4, if_true]

/-- The constructor of a new child directory, for sane capacities. -/
theorem newChildDirectory_eq (c : Constants) (s : FS) (N t0 : Nat) (parent : INode)
    (hc1 : 2 ≤ c.MAX_LINKS_PER_DIRENTRYLIST) (hc2 : 2 ≤ c.MAX_HARDLINKS_PER_DIR)
    (hp : parent.linkCounter ≠ MAX_NUMBER_OF_LINKS_TO_INODE) :
    newChildDirectory c s ⟨⟨N, 0, t0, 0, INODE_TYPE_DIR, true, 0⟩, [], []⟩ parent =
      some (s, ⟨⟨⟨N, 0, t0, 0, INODE_TYPE_DIR, true, 1⟩,
        [⟨['.'], N⟩, ⟨['.', '.'], parent.id⟩], []⟩, 2, []⟩,
        { parent with linkCounter := parent.linkCounter + 1 }) := by
  unfold newChildDirectory
  rw [addHardlink_inline c s _ _ ['.'] (by simp [Directory.searchHardlink, findLink])
    (by simp only; omega) (by simp [MAX_NUMBER_OF_LINKS_TO_INODE]) rfl
    (by simp only [List.length_nil]; omega)]
  simp only
  rw [addHardlink_inline c s _ _ ['.', '.'] (by simp [Directory.searchHardlink, findLink])
    (by simp only; omega) hp rfl
    (by simp only [List.nil_append, List.length_singleton]; omega)]
  rfl

theorem saveBlocks_two (now : Nat → Nat) (s : FS) (b1 b2 : Block) (t0 : Nat) :
    saveBlocks now s [b1, b2] t0 =
      (saveBlock s b1 (now t0)).bind (fun s1 => saveBlock s1 b2 (now (t0 + 1))) := by
  unfold saveBlocks
  cases h : saveBlock s b1 (now t0) with
  | none => rfl
  | some s1 =>
    simp only [Option.some_bind]
    unfold saveBlocks
    cases h2 : saveBlock s1 b2 (now (t0 + 1)) with
    | none => rfl
    | some s2 => rfl

/-- Two consecutive saves on a well-formed image with room. -/
theorem saveBlock_twice (s : FS) (b1 b2 : Block) (t1 t2 : Nat) (hwf : WellFormed s)
    (hu : s.usedBlocks + 3 ≤ s.logSize) (h1 : 1 ≤ b1.id ∧ b1.id ≤ s.logSize)
    (h2 : 1 ≤ b2.id ∧ b2.id ≤ s.logSize) (hne : b1.id ≠ b2.id) :
    ∃ s2, (saveBlock s b1 t1).bind (fun s1 => saveBlock s1 b2 t2) = some s2 ∧
      WellFormed s2 ∧ s2.logSize = s.logSize ∧
      s2.usedBlocks = s.usedBlocks + (if s.bmap[b1.id - 1]? = some 0 then 1 else 0)
        + (if s.bmap[b2.id - 1]? = some 0 then 1 else 0) ∧
      fetchBlock s2 b1.id = some (some { b1 with lastWriteTime := t1 }) ∧
      fetchBlock s2 b2.id = some (some { b2 with lastWriteTime := t2 }) ∧
      ∀ id, id ≠ b1.id → id ≠ b2.id → fetchBlock s2 id = fetchBlock s id := by
  obtain ⟨sa, p, hs, hwfa, hla, -, hba, hp, hua, hfa, hoa⟩ :=
    saveBlock_wf s b1 t1 hwf (by omega) h1
  have hua' : sa.usedBlocks ≤ s.usedBlocks + 1 := by
    rw [hua]; split <;> omega
  obtain ⟨sb, q, hs2, hwfb, hlb, -, hbb, hq, hub, hfb, hob⟩ :=
    saveBlock_wf sa b2 t2 hwfa (by omega) (by rw [hla]; exact h2)
  have hidx : b1.id - 1 ≠ b2.id - 1 := by omega
  have hb2 : sa.bmap[b2.id - 1]? = s.bmap[b2.id - 1]? := by
    rw [hba, List.getElem?_set_ne hidx]
  refine ⟨sb, by rw [hs]; exact hs2, hwfb, hlb.trans hla, ?_, ?_, hfb, ?_⟩
  · rw [hub, hua, hb2]
    split <;> split <;> omega
  · rw [hob b1.id hne]
    exact hfa
  · intro id n1 n2
    rw [hob id n2, hoa id n1]

theorem resolveRefs_target_primary (tgt : Block) (d : Directory) :
    resolveRefs tgt d [.target, .primary] = some [tgt, d.inode.toBlock] := rfl

theorem loadDirectory_live (c : Constants) (u : Nat) (s : FS) (id : Nat) (d : Directory)
    (h : loadDirectory c u s id = some (some d)) :
    1 ≤ id ∧ id ≤ s.logSize ∧ s.bmap[id - 1]? ≠ some 0 := by
  obtain ⟨lwt, ct, sz, lc, h1 | h1⟩ := loadDirectory_inv c u s id d h
  · obtain ⟨l, hb, -⟩ := h1
    have := fetchBlock_some s id _ hb
    exact ⟨this.1, this.2.1, this.2.2.1⟩
  · obtain ⟨l, lists, hb, -, -⟩ := h1
    have := fetchBlock_some s id _ hb
    exact ⟨this.1, this.2.1, this.2.2.1⟩

/-- What a successful `mkdir` below an inlined parent with room does to the image. -/
theorem mkdir_inline (c : Constants) (pu : PathUtils) (u : Nat) (now : Nat → Nat) (s s1 : FS)
    (path : List Char) (parent : Directory) (hwf : WellFormed s)
    (hc1 : 2 ≤ c.MAX_LINKS_PER_DIRENTRYLIST) (hc2 : 2 ≤ c.MAX_HARDLINKS_PER_DIR)
    (hm : mkdir c pu u now s path = some (true, s1))
    (hsp : searchParent c pu u s (pu.normalizePath path) = some (some parent))
    (hin : parent.inode.inlined = true)
    (hroom : parent.inode.entries.length < c.MAX_LINKS_PER_DIRENTRYLIST) :
    ∃ N, 1 ≤ N ∧ N ≤ s.logSize ∧ s.bmap[N - 1]? = some 0 ∧
      (pu.normalizePath path).head? = some '/' ∧
      s.usedBlocks + 4 ≤ s.logSize ∧
      parent.searchHardlink (pu.lastName (pu.normalizePath path)) = 0 ∧
      parent.inode.linkCounter ≠ MAX_NUMBER_OF_LINKS_TO_INODE ∧
      WellFormed s1 ∧ s1.logSize = s.logSize ∧ s1.usedBlocks = s.usedBlocks + 1 ∧
      fetchBlock s1 N = some (some
        { (DirectoryINode.toBlock ⟨⟨N, 0, now 0, 0, INODE_TYPE_DIR, true, 2⟩,
            [⟨['.'], N⟩, ⟨['.', '.'], parent.inode.id⟩], []⟩) with lastWriteTime := now 1 }) ∧
      fetchBlock s1 parent.inode.id = some (some
        { (DirectoryINode.toBlock { parent.inode with
            linkCounter := parent.inode.linkCounter + 1
            entries := parent.inode.entries ++
              [⟨pu.lastName (pu.normalizePath path), N⟩] }) with lastWriteTime := now 2 }) ∧
      ∀ id, id ≠ parent.inode.id → id ≠ N → fetchBlock s1 id = fetchBlock s id := by
  have hload := searchParent_loaded c pu u s _ parent hsp
  obtain ⟨hP1, hP2, hPlive⟩ := loadDirectory_live c u s _ parent hload
  obtain ⟨hcons, hsm, hbl, nb1, nb2, hule, hids⟩ := id hwf
  unfold mkdir at hm
  simp only at hm
  by_cases hh : (pu.normalizePath path).head? ≠ some '/'
  · rw [if_pos hh] at hm; simp at hm
  rw [if_neg hh] at hm
  by_cases hu : (s.usedBlocks + 4) % 4294967296 > s.logSize
  · rw [if_pos hu] at hm; simp at hm
  rw [if_neg hu, hsp] at hm
  simp only at hm
  have hu4 : s.usedBlocks + 4 ≤ s.logSize := by omega
  by_cases h1 : parent.searchHardlink (pu.lastName (pu.normalizePath path)) ≠ 0
  · rw [if_pos h1] at hm; simp at hm
  rw [if_neg h1] at hm
  by_cases h2 : parent.childCount = c.MAX_HARDLINKS_PER_DIR
  · rw [if_pos h2] at hm; simp at hm
  rw [if_neg h2] at hm
  by_cases h3 : parent.inode.linkCounter = MAX_NUMBER_OF_LINKS_TO_INODE
  · rw [if_pos h3] at hm; simp at hm
  rw [if_neg h3] at hm
  obtain ⟨N, nb, hg, hN1, hN2, hfree, hwfA⟩ := getNextBlockID_wf s hwf (by omega)
  rw [hg] at hm
  simp only at hm
  rw [newChildDirectory_eq c _ N (now 0) parent.inode.toINode hc1 hc2 h3] at hm
  simp only at hm
  rw [addHardlink_inline c _ _ _ _ (by simpa [Directory.searchHardlink] using h1) (by exact h2)
    (by simp [MAX_NUMBER_OF_LINKS_TO_INODE]) (by exact hin) (by exact hroom)] at hm
  simp only at hm
  rw [resolveRefs_target_primary] at hm
  simp only at hm
  rw [saveBlocks_two] at hm
  have hPN : parent.inode.id ≠ N := by
    intro e
    rw [e] at hPlive
    exact hPlive hfree
  obtain ⟨s2, hsv, hwf2, hl2, hu2, hfN, hfP, hfo⟩ := saveBlock_twice
    { s with nextBlockID := nb }
    { (DirectoryINode.toBlock ⟨⟨N, 0, now 0, 0, INODE_TYPE_DIR, true, 2⟩,
        [⟨['.'], N⟩, ⟨['.', '.'], parent.inode.id⟩], []⟩) with lastWriteTime := 0 }
    (DirectoryINode.toBlock { parent.inode with
        linkCounter := parent.inode.linkCounter + 1
        entries := parent.inode.entries ++ [⟨pu.lastName (pu.normalizePath path), N⟩] })
    (now 1) (now 2) hwfA (by show s.usedBlocks + 3 ≤ s.logSize; omega) ⟨hN1, hN2⟩
    ⟨hP1, hP2⟩ (Ne.symm hPN)
  have hsv' := hsv
  rw [show (1 + 1 : Nat) = 2 from rfl] at hm
  have hm2 : some (true, s2) = some (true, s1) := by
    rw [← hm]
    have : ∀ (o : Option FS) (x : FS), o = some x →
        (match o with | none => none | some s4 => some (true, s4)) = some (true, x) := by
      intro o x ho; rw [ho]
    exact (this _ s2 hsv).symm
  simp only [Option.some.injEq, Prod.mk.injEq, true_and] at hm2
  subst hm2
  refine ⟨N, hN1, hN2, hfree, by simpa using hh, hu4, by simpa using h1, h3, hwf2, hl2, ?_,
    hfN, hfP, ?_⟩
  · rw [hu2]
    have e1 : ({ s with nextBlockID := nb } : FS).bmap = s.bmap := rfl
    simp only [e1, DirectoryINode.toBlock, hfree, if_true, hPlive, if_false]
  · intro id n1 n2
    rw [hfo id n2 n1]
    exact fetchBlock_congr s _ rfl rfl rfl id

theorem rmdir_refs (parent dir : Directory) :
    (addUnique
      (([Ref.target, Ref.primary] : List Ref).map (fun r =>
        match r with
        | .target => RmdirRef.dirINode
        | .primary => RmdirRef.parentINode
        | .list i => RmdirRef.parentList i))
      (([Ref.target, Ref.primary] : List Ref).map (fun r =>
        match r with
        | .target => RmdirRef.parentINode
        | .primary => RmdirRef.dirINode
        | .list i => RmdirRef.dirList i))).mapM (resolveRmdirRef parent dir) =
      some [dir.inode.toBlock, parent.inode.toBlock] := by
  have : addUnique [RmdirRef.dirINode, RmdirRef.parentINode]
      [RmdirRef.parentINode, RmdirRef.dirINode] = [RmdirRef.dirINode, RmdirRef.parentINode] := by
    decide
  simp only [List.map_cons, List.map_nil, this]
  rfl

theorem rmdir_tail (now : Nat → Nat) (s s3 s5 : FS) (ob : Option (List Block)) (b1 b2 : Block)
    (ids : List Nat) (M : Nat) (hb : ob = some [b1, b2])
    (hsv : (saveBlock s b1 (now 0)).bind (fun s1 => saveBlock s1 b2 (now 1)) = some s3)
    (hi : ids = []) (hfr : freeBlock s3 M = some s5) :
    (match ob with
      | none => none
      | some blocks =>
        match saveBlocks now s blocks 0 with
        | none => none
        | some s3 =>
          match freeBlocks s3 ids with
          | none => none
          | some s4 =>
            match freeBlock s4 M with
            | none => none
            | some s5 => some (true, s5)) = some (true, s5) := by
  subst hb hi
  simp only
  rw [saveBlocks_two, hsv]
  simp [freeBlocks, hfr]

/-- What `rmdir` of an inlined directory below an inlined parent does to the image. -/
theorem rmdir_inline (c : Constants) (pu : PathUtils) (uP uD : Nat) (now : Nat → Nat) (s : FS)
    (path : List Char) (parent dir : Directory) (N : Nat) (hwf : WellFormed s)
    (hhead : (pu.normalizePath path).head? = some '/')
    (hu : s.usedBlocks + 3 ≤ s.logSize)
    (hsp : searchParent c pu uP s (pu.normalizePath path) = some (some parent))
    (hname : ¬ (pu.lastName (pu.normalizePath path) = [] ∨
      '/' ∈ pu.lastName (pu.normalizePath path)))
    (hs : parent.searchHardlink (pu.lastName (pu.normalizePath path)) = N) (hN : 2 ≤ N)
    (hpk : peekINodeType s N = some INODE_TYPE_DIR)
    (hld : loadDirectory c uD s N = some (some dir))
    (hcc : dir.childCount ≤ 2)
    (hpin : parent.inode.inlined = true) (hdin : dir.inode.inlined = true)
    (hPN : parent.inode.id ≠ N) :
    ∃ s2, rmdir c pu uP uD now s path = some (true, s2) ∧ s2.usedBlocks + 1 = s.usedBlocks ∧
      fetchBlock s2 N = some none ∧
      fetchBlock s2 parent.inode.id = some (some
        { (DirectoryINode.toBlock { parent.inode with
            linkCounter := (parent.inode.linkCounter + 65535) % 65536
            entries := removeLink parent.inode.entries
              (pu.lastName (pu.normalizePath path)) }) with lastWriteTime := now 1 }) ∧
      ∀ id, id ≠ parent.inode.id → id ≠ N → fetchBlock s2 id = fetchBlock s id := by
  have hload := searchParent_loaded c pu uP s _ parent hsp
  obtain ⟨hP1, hP2, hPlive⟩ := loadDirectory_live c uP s _ parent hload
  obtain ⟨hN1, hN2, hNlive⟩ := loadDirectory_live c uD s _ dir hld
  have hdid := loadDirectory_id c uD s N dir hld
  obtain ⟨hcons, hsm, hbl, nb1, nb2, hule, hids⟩ := id hwf
  obtain ⟨s3, hsv, hwf3, hl3, hu3, hfN, hfP, hfo⟩ := saveBlock_twice s
    (DirectoryINode.toBlock { dir.inode with
        linkCounter := (dir.inode.linkCounter + 65535) % 65536
        entries := removeLink dir.inode.entries ['.', '.'] })
    (DirectoryINode.toBlock { parent.inode with
        linkCounter := (parent.inode.linkCounter + 65535) % 65536
        entries := removeLink parent.inode.entries (pu.lastName (pu.normalizePath path)) })
    (now 0) (now 1) hwf hu
    (by show 1 ≤ dir.inode.id ∧ dir.inode.id ≤ s.logSize; rw [hdid]; exact ⟨hN1, hN2⟩)
    ⟨hP1, hP2⟩
    (by show dir.inode.id ≠ parent.inode.id; rw [hdid]; exact Ne.symm hPN)
  have e1 : (DirectoryINode.toBlock { dir.inode with
        linkCounter := (dir.inode.linkCounter + 65535) % 65536
        entries := removeLink dir.inode.entries ['.', '.'] }).id = N := hdid
  rw [e1] at hfN
  have hNlive3 := (fetchBlock_some s3 N _ hfN).2.2.1
  obtain ⟨s5, hfr, -, -, -, hu5, hf5, hfo5⟩ :=
    freeBlock_wf s3 N hwf3 hN (by rw [hl3]; exact hN2) hNlive3
  refine ⟨s5, ?_, ?_, hf5, ?_, ?_⟩
  · unfold rmdir
    simp only
    rw [if_neg (by simpa using hhead), if_neg (by omega), hsp]
    simp only
    rw [hs, if_neg (by omega), if_neg (by omega), hpk]
    simp only
    rw [if_neg (by simp), hld]
    simp only
    rw [if_neg (by omega), rmHardlink_inline s parent _ _ hname hpin]
    simp only
    rw [rmHardlink_inline s _ _ ['.', '.'] (by decide) (by exact hdin)]
    simp only
    exact rmdir_tail now s s3 s5 _ _ _ _ _ (rmdir_refs _ _) hsv (by simp only [hdin, if_true])
      (by rw [hdid]; exact hfr)
  · rw [hu5, hu3]
    have e2 : (DirectoryINode.toBlock { parent.inode with
        linkCounter := (parent.inode.linkCounter + 65535) % 65536
        entries := removeLink parent.inode.entries
          (pu.lastName (pu.normalizePath path)) }).id = parent.inode.id := rfl
    rw [e1, e2, if_neg hNlive, if_neg hPlive]
    rfl
  · rw [hfo5 _ hPN]
    exact hfP
  · intro id n1 n2
    rw [hfo5 id n2, hfo id (by rw [e1]; exact n2) n1]

theorem searchParent_root (c : Constants) (pu : PathUtils) (u : Nat) (s : FS)
    (path : List Char) (r : Directory) (h : searchParent c pu u s path = some (some r)) :
    ∃ root, loadDirectory c u s 1 = some (some root) := by
  unfold searchParent at h
  split at h
  · cases h
  · split at h
    · cases h
    · split at h
      · cases h
      · simp only at h
        split at h
        · cases h
        · split at h <;> cases h
        · rename_i root hl
          exact ⟨root, hl⟩

theorem peekINodeType_inode (s : FS) (id lwt ct sz ty lc : Nat) (il : Bool) (pl : Payload)
    (h0 : id ≠ 0) (h : fetchBlock s id = some (some ⟨id, lwt, .inode ct sz ty il lc pl⟩)) :
    peekINodeType s id = some ty := by
  unfold peekINodeType
  rw [if_neg h0, h]

theorem loadDirEntryList_inode (c : Constants) (s : FS) (id lwt ct sz ty lc : Nat) (il : Bool)
    (pl : Payload) (h : fetchBlock s id = some (some ⟨id, lwt, .inode ct sz ty il lc pl⟩)) :
    loadDirEntryList c s id = none := by
  unfold loadDirEntryList
  rw [h]
  simp

theorem searchHardlink_inline_zero (c : Constants) (lwt ct sz lc P cc : Nat) (l : List Hardlink)
    (name : List Char) (hname : ¬ (name = [] ∨ '/' ∈ name))
    (h : Directory.searchHardlink ⟨⟨⟨P, lwt, ct, sz, INODE_TYPE_DIR, true, lc⟩,
      readLinks c.MAX_LINKS_PER_DIRENTRYLIST l, []⟩, cc, []⟩ name = 0) :
    findLink (readLinks c.MAX_LINKS_PER_DIRENTRYLIST l) name = none := by
  unfold Directory.searchHardlink at h
  rw [if_neg hname] at h
  simp only [if_true] at h
  cases hf : findLink (readLinks c.MAX_LINKS_PER_DIRENTRYLIST l) name with
  | none => rfl
  | some x =>
    rw [hf] at h
    simp only at h
    have hx : x ∈ readLinks c.MAX_LINKS_PER_DIRENTRYLIST l := by
      unfold findLink at hf
      exact List.mem_of_find?_eq_some hf
    exact absurd h (readLinks_mem _ _ x hx).1

/-- C10, amended: on a well-formed image, for capacities of at least 2 and a path whose
parent directory is inlined with room for one more entry (its link counter a 16-bit value)
and whose last name is a valid link name (not empty, no '/', at most 27 characters, no
NUL): if `mkdir(p)` returns true, then `rmdir(p)` on the result returns true, `usedBlocks`
is as before `mkdir`, and `ls` of every path gives the same result as before up to the
write times. -/
theorem mkdir_rmdir_round_trip (c : Constants) (pu : PathUtils) (u uP uD : Nat)
    (now now1 : Nat → Nat) (s s1 : FS) (path : List Char) (parent : Directory)
    (hwf : WellFormed s)
    (hc1 : 2 ≤ c.MAX_LINKS_PER_DIRENTRYLIST) (hc2 : 2 ≤ c.MAX_HARDLINKS_PER_DIR)
    (hm : mkdir c pu u now s path = some (true, s1))
    (hsp : searchParent c pu u s (pu.normalizePath path) = some (some parent))
    (hin : parent.inode.inlined = true)
    (hroom : parent.inode.entries.length < c.MAX_LINKS_PER_DIRENTRYLIST)
    (hlc : parent.inode.linkCounter < 65536)
    (hname : ¬ (pu.lastName (pu.normalizePath path) = [] ∨
      '/' ∈ pu.lastName (pu.normalizePath path)))
    (hlen : (pu.lastName (pu.normalizePath path)).length ≤ 27)
    (hnul : Char.ofNat 0 ∉ pu.lastName (pu.normalizePath path)) :
    ∃ s2, rmdir c pu uP uD now1 s1 path = some (true, s2) ∧ s2.usedBlocks = s.usedBlocks ∧
      ∀ (q : List Char) (u3 : Nat),
        eraseTimes (ls c pu u3 s2 q) = eraseTimes (ls c pu u3 s q) := by
  obtain ⟨N, hN1, hN2, hfree, hhead, hu4, hs0, hlc1, hwf1, hl1, hu1, hfN, hfP, hfo⟩ :=
    mkdir_inline c pu u now s s1 path parent hwf hc1 hc2 hm hsp hin hroom
  have hload := searchParent_loaded c pu u s _ parent hsp
  obtain ⟨root, hroot⟩ := searchParent_root c pu u s _ parent hsp
  have hrootlive := (loadDirectory_live c u s 1 root hroot).2.2
  obtain ⟨P, hP⟩ : ∃ P, parent.inode.id = P := ⟨_, rfl⟩
  rw [hP] at hload hfP hfo hfN
  obtain ⟨hP1, hP2, hPlive⟩ := loadDirectory_live c u s P parent hload
  generalize hnm : pu.lastName (pu.normalizePath path) = name at *
  obtain ⟨lwt, ct, sz, lc, h1 | h1⟩ := loadDirectory_inv c u s P parent hload
  swap
  · obtain ⟨l, lists, -, -, rfl⟩ := h1
    cases hin
  obtain ⟨l, hbP, rfl⟩ := h1
  simp only at hroom hlc hlc1 hfP
  generalize hes : readLinks c.MAX_LINKS_PER_DIRENTRYLIST l = es at *
  have hesok : ∀ h, h ∈ es → h.targetINodeBlockID ≠ 0 ∧ storedName h.linkName = h.linkName := by
    intro h hh
    rw [← hes] at hh
    exact readLinks_mem _ _ h hh
  have hfind : findLink es name = none := by
    rw [← hes]
    exact searchHardlink_inline_zero c lwt ct sz lc P _ l name hname (by rw [hes]; exact hs0)
  have hNP : N ≠ P := by
    rintro rfl
    exact hPlive hfree
  have hN2' : 2 ≤ N := by
    have : N ≠ 1 := by
      rintro rfl
      exact hrootlive hfree
    omega
  have hNfree : fetchBlock s N = some none := fetchBlock_free s N hfree
  -- the two directories as the image after `mkdir` holds them
  have hdirN : ∀ v, loadDirectory c v s1 N = some (some ⟨⟨⟨N, now 1, now 0, 0, INODE_TYPE_DIR,
      true, 2⟩, [⟨['.'], N⟩, ⟨['.', '.'], P⟩], []⟩, 2, []⟩) := by
    intro v
    have := loadDirectory_inline c v s1 N (now 1) (now 0) 0 2
      (writeLinks [⟨['.'], N⟩, ⟨['.', '.'], P⟩]) hfN
    rw [readLinks_writeLinks _ _ (by simp only [List.length_cons, List.length_nil]; omega)
      (by
        intro h hh
        simp only [List.mem_cons, List.mem_singleton, List.not_mem_nil, or_false] at hh
        rcases hh with rfl | rfl
        · exact ⟨by show N ≠ 0; omega, by show storedName ['.'] = ['.']; decide⟩
        · exact ⟨by show P ≠ 0; omega, by show storedName ['.', '.'] = ['.', '.']; decide⟩)] at this
    exact this
  have hokP : ∀ h, h ∈ es ++ [(⟨name, N⟩ : Hardlink)] →
      h.targetINodeBlockID ≠ 0 ∧ storedName h.linkName = h.linkName := by
    intro h hh
    rw [List.mem_append, List.mem_singleton] at hh
    rcases hh with hh | rfl
    · exact hesok h hh
    · exact ⟨by show N ≠ 0; omega, storedName_eq_self name hlen hnul⟩
  have hdirP : ∀ v, loadDirectory c v s1 P = some (some ⟨⟨⟨P, now 2, ct, sz, INODE_TYPE_DIR,
      true, lc + 1⟩, es ++ [(⟨name, N⟩ : Hardlink)], []⟩, (es ++ [(⟨name, N⟩ : Hardlink)]).length, []⟩) := by
    intro v
    have := loadDirectory_inline c v s1 P (now 2) ct sz (lc + 1)
      (writeLinks (es ++ [(⟨name, N⟩ : Hardlink)])) hfP
    rw [readLinks_writeLinks _ _ (by rw [List.length_append, List.length_singleton]; omega)
      hokP] at this
    exact this
  -- the walk to the parent after `mkdir`
  obtain ⟨r1, hsp1, hfol⟩ := searchParent_follow c pu u uP s s1 P N _ _ hfo hNfree
    (loadDirEntryList_inode c s P _ _ _ _ _ _ _ hbP) hload (hdirP uP)
    (by rw [peekINodeType_inode s1 P _ _ _ _ _ _ _ (by omega) hfP,
          peekINodeType_inode s P _ _ _ _ _ _ _ (by omega) hbP]
        rfl)
    (by
      intro nm hnz
      unfold Directory.searchHardlink at hnz ⊢
      by_cases hv : nm = [] ∨ '/' ∈ nm
      · rw [if_pos hv] at hnz
        exact absurd rfl hnz
      · rw [if_neg hv] at hnz
        rw [if_neg hv, if_neg hv]
        simp only [if_true] at hnz ⊢
        cases hf : findLink es nm with
        | none => rw [hf] at hnz; exact absurd rfl hnz
        | some x => rw [findLink_append_some es _ x nm hf])
    _ _ hsp
  have hr1 : r1 = ⟨⟨⟨P, now 2, ct, sz, INODE_TYPE_DIR, true, lc + 1⟩, es ++ [(⟨name, N⟩ : Hardlink)], []⟩,
      (es ++ [(⟨name, N⟩ : Hardlink)]).length, []⟩ := by
    rcases hfol with ⟨hne, -, -⟩ | ⟨-, h2⟩
    · exact absurd rfl hne
    · exact h2
  subst hr1
  obtain ⟨s2, hrm, hu2, hf2N, hf2P, hf2o⟩ := rmdir_inline c pu uP uD now1 s1 path _ _ N hwf1
    hhead (by omega) hsp1 (by rw [hnm]; exact hname)
    (by
      rw [hnm]
      unfold Directory.searchHardlink
      rw [if_neg hname]
      simp only [if_true]
      rw [findLink_append_none es _ name hfind rfl])
    hN2' (peekINodeType_inode s1 N _ _ _ _ _ _ _ (by omega) hfN) (hdirN uD) (le_refl 2)
    rfl rfl (Ne.symm hNP)
  refine ⟨s2, hrm, by omega, ?_⟩
  have hview : SameView c s s2 P N (now1 1) := by
    refine ⟨?_, hNfree, hf2N, by omega, ?_⟩
    · intro id n1 n2
      rw [hf2o id n1 n2, hfo id n1 n2]
    · refine ⟨lwt, ct, sz, lc, l, writeLinks es, hbP, ?_, ?_⟩
      · rw [hf2P, hnm, removeLink_append_none es _ name hfind rfl]
        have : (lc + 1 + 65535) % 65536 = lc := by omega
        simp only [DirectoryINode.toBlock, this]
        rfl
      · rw [hes]
        exact readLinks_writeLinks _ es (by rw [← hes]; exact readLinks_length_le _ _) hesok
  intro q u3
  exact hview.listing pu u3 q

theorem mkdir_rmdir_round_trip_witness :
    ∃ s1, mkdir demoConstants specPathUtils 0 (clockFrom 10) inlineRoot ['/', 'a']
        = some (true, s1) ∧
      ∃ s2, rmdir demoConstants specPathUtils 0 0 (clockFrom 20) s1 ['/', 'a'] = some (true, s2) ∧
        s2.usedBlocks = inlineRoot.usedBlocks ∧
        ∀ (q : List Char) (u3 : Nat),
          eraseTimes (ls demoConstants specPathUtils u3 s2 q) =
            eraseTimes (ls demoConstants specPathUtils u3 inlineRoot q) :=
  ⟨_, rfl, mkdir_rmdir_round_trip demoConstants specPathUtils 0 0 0 (clockFrom 10) (clockFrom 20)
    inlineRoot _ ['/', 'a']
    ⟨⟨⟨1, 0, 0, 0, 1, true, 2⟩, [⟨['.'], 1⟩, ⟨['.', '.'], 1⟩], []⟩, 2, []⟩
    (by decide) (by decide) (by decide) rfl rfl rfl (by decide) (by decide) (by decide)
    (by decide) (by decide)⟩

/-! ### Open files: the loops of read and write, the switch to non-inlined storage -/

theorem sub32_of_le (a b : Nat) (hb : b ≤ a) (ha : a < 4294967296) : sub32 a b = a - b := by
  unfold sub32
  omega

/-- The offset in the data block is the remainder of the position. -/
theorem blockStart_eq (c : Constants) (cur : Nat) (hcur : cur < 4294967296) :
    blockStart c cur = cur % c.MAX_BYTES_PER_DATABLOCK := by
  unfold blockStart
  have h1 : cur / c.MAX_BYTES_PER_DATABLOCK * c.MAX_BYTES_PER_DATABLOCK ≤ cur :=
    Nat.div_mul_le_self cur c.MAX_BYTES_PER_DATABLOCK
  rw [Nat.mod_eq_of_lt (by omega), sub32_of_le _ _ h1 hcur]
  have := Nat.div_add_mod cur c.MAX_BYTES_PER_DATABLOCK
  rw [Nat.mul_comm] at this
  omega

/-- The number of bytes handled in one round of the loops. -/
theorem blockBytes_eq (c : Constants) (endPos cur : Nat) (hM : 0 < c.MAX_BYTES_PER_DATABLOCK)
    (hM32 : c.MAX_BYTES_PER_DATABLOCK < 4294967296)
    (hlt : cur < endPos) (hend : endPos < 4294967296) :
    blockBytes c endPos cur =
      min (c.MAX_BYTES_PER_DATABLOCK - cur % c.MAX_BYTES_PER_DATABLOCK) (endPos - cur) := by
  unfold blockBytes
  rw [blockStart_eq c cur (by omega)]
  have hmod : cur % c.MAX_BYTES_PER_DATABLOCK < c.MAX_BYTES_PER_DATABLOCK := Nat.mod_lt _ hM
  rw [sub32_of_le _ _ (by omega) hM32, sub32_of_le _ _ (by omega) hend]
  split <;> omega

theorem writeLoop_done (c : Constants) (fresh : Nat → List Nat) (now : Nat → Nat)
    (source : List Nat) (endPos fuel : Nat) (m : Mounted) (f : OpenFile)
    (changed : List (Nat × FileRef)) (cur copied : Nat) (h : ¬ cur < endPos) :
    writeLoop c fresh now source endPos fuel m f changed cur copied = some (true, m, f, changed) := by
  cases fuel with
  | zero => rw [writeLoop, if_neg h]
  | succ k => rw [writeLoop, if_neg h]

/-- One round of the loop of `FS::write` that reaches `writeToCachedDataBlock`. -/
theorem writeLoop_step (c : Constants) (fresh : Nat → List Nat) (now : Nat → Nat)
    (source : List Nat) (endPos fuel : Nat) (m m1 : Mounted) (f f1 : OpenFile)
    (changed changed1 : List (Nat × FileRef)) (cur copied : Nat) (b b1 : DataBlock)
    (src : List Nat) (hlt : cur < endPos)
    (he : ensureCached c fresh now m f changed (cur / c.MAX_BYTES_PER_DATABLOCK) =
      some (m1, f1, changed1))
    (hc : f1.cachedDataBlock = some b)
    (hs : sliceOf source copied (blockBytes c endPos cur) = some src)
    (hw : b.write c (blockStart c cur) src = some (some b1)) :
    writeLoop c fresh now source endPos (fuel + 1) m f changed cur copied =
      writeLoop c fresh now source endPos fuel m1 { f1 with cachedDataBlock := some b1 } changed1
        ((cur + blockBytes c endPos cur) % 4294967296)
        ((copied + blockBytes c endPos cur) % 4294967296) := by
  rw [writeLoop, if_pos hlt]
  simp only [he, hc, hs, hw]

/-- The block that is cached already needs no swap. -/
theorem ensureCached_hit (c : Constants) (fresh : Nat → List Nat) (now : Nat → Nat) (m : Mounted)
    (f : OpenFile) (changed : List (Nat × FileRef)) (blockNo : Nat) (b : DataBlock)
    (hno : f.numberOfDataBlocks ≠ blockNo) (hid : f.getDataBlockID c blockNo = some b.id)
    (hc : f.cachedDataBlock = some b) :
    ensureCached c fresh now m f changed blockNo = some (m, f, changed) := by
  unfold ensureCached
  rw [if_neg hno, hid]
  simp only
  unfold cacheDataBlock OpenFile.getCachedDataBlockID
  rw [hc]
  simp

/-- The defect: when `FS::addDataBlock` refuses for lack of free blocks, the loop goes on
with the block that is cached. -/
theorem ensureCached_full (c : Constants) (fresh : Nat → List Nat) (now : Nat → Nat) (m : Mounted)
    (f : OpenFile) (changed : List (Nat × FileRef)) (blockNo : Nat)
    (hno : f.numberOfDataBlocks = blockNo)
    (hfull : (m.fs.usedBlocks + 3) % 4294967296 > m.fs.logSize) :
    ensureCached c fresh now m f changed blockNo = some (m, f, changed) := by
  unfold ensureCached addDataBlock
  rw [if_pos hno, if_pos hfull]
  rfl

theorem sliceOf_eq (source : List Nat) (start n : Nat) (h : start + n ≤ source.length) :
    sliceOf source start n = some ((source.drop start).take n) := by
  unfold sliceOf
  rw [if_pos h]

theorem DataBlock.write_eq (c : Constants) (b : DataBlock) (pos : Nat) (src : List Nat)
    (hp : pos + src.length ≤ c.MAX_BYTES_PER_DATABLOCK) (hd : pos ≤ b.data.length) :
    b.write c pos src = some (some { b with data := memcpyInto b.data pos src, dirty := true }) := by
  unfold DataBlock.write
  have h1 : ¬ (pos > c.MAX_BYTES_PER_DATABLOCK ∨
      (pos + src.length) % 18446744073709551616 > c.MAX_BYTES_PER_DATABLOCK) := by
    have := Nat.mod_le (pos + src.length) 18446744073709551616
    omega
  rw [if_neg h1, if_pos hd]

/-- The allocator scan from a start value in `[1, logSize + 1]`: it hands out the first
free id in circular order and moves `nextBlockID` behind it. -/
theorem getNextBlockIDLoop_first (s : FS)
    (hnb : 1 ≤ s.nextBlockID ∧ s.nextBlockID ≤ s.logSize + 1)
    (hL : s.logSize < 2147483648) (hlen : s.logSize ≤ s.bmap.length) :
    ∀ n i, n + i = s.logSize →
      (∀ j, j < i → s.bmap[circId s.logSize s.nextBlockID j - 1]? ≠ some 0) →
      (∃ j, i ≤ j ∧ j < s.logSize ∧ s.bmap[circId s.logSize s.nextBlockID j - 1]? = some 0) →
      ∃ i' k, i' < s.logSize ∧ k = circId s.logSize s.nextBlockID i' ∧
        s.bmap[k - 1]? = some 0 ∧
        (∀ j, j < i' → s.bmap[circId s.logSize s.nextBlockID j - 1]? ≠ some 0) ∧
        getNextBlockIDLoop s n i = some (k, { s with
          nextBlockID := if k + 1 > s.logSize then k + 1 - s.logSize else k + 1 }) := by
  intro n
  induction n with
  | zero =>
    intro i hi _ ⟨j, hj1, hj2, _⟩
    omega
  | succ n ih =>
    intro i hi hprev ⟨j, hj1, hj2, hj3⟩
    have hmod : (s.nextBlockID + i) % 4294967296 = s.nextBlockID + i :=
      Nat.mod_eq_of_lt (by omega)
    have hk1 : 1 ≤ circId s.logSize s.nextBlockID i := by
      unfold circId; split <;> omega
    have hk2 : circId s.logSize s.nextBlockID i ≤ s.logSize := by
      unfold circId; split <;> omega
    obtain ⟨a, ha⟩ : ∃ a, s.bmap[circId s.logSize s.nextBlockID i - 1]? = some a :=
      ⟨_, List.getElem?_eq_getElem (by omega)⟩
    have hidx : idx (circId s.logSize s.nextBlockID i) = circId s.logSize s.nextBlockID i - 1 := by
      unfold idx; rw [if_neg (by omega)]
    have hc : (if (s.nextBlockID + i) % 4294967296 > s.logSize
        then (s.nextBlockID + i) % 4294967296 - s.logSize
        else (s.nextBlockID + i) % 4294967296) = circId s.logSize s.nextBlockID i := by
      rw [hmod]; rfl
    unfold getNextBlockIDLoop
    simp only [hc, bmapAt, hidx, ha]
    by_cases ha0 : a = 0
    · subst ha0
      refine ⟨i, _, by omega, rfl, ha, hprev, ?_⟩
      rw [if_pos rfl, Nat.mod_eq_of_lt (by omega)]
    · rw [if_neg ha0]
      have hji : j ≠ i := by
        rintro rfl
        rw [ha] at hj3
        exact ha0 (Option.some.inj hj3)
      exact ih (i + 1) (by omega)
        (fun j' hj' => by
          by_cases h : j' = i
          · subst h; rw [ha]; intro h0; exact ha0 (Option.some.inj h0)
          · exact hprev j' (by omega))
        ⟨j, by omega, hj2, hj3⟩

/-- Every id of the log is reached by the circular order at some offset. -/
theorem circId_offset (L start k : Nat) (hs : 1 ≤ start ∧ start ≤ L + 1) (hk : 1 ≤ k ∧ k ≤ L) :
    ∃ t, t < L ∧ circId L start t = k := by
  by_cases hge : start ≤ k
  · exact ⟨k - start, by omega, by unfold circId; split <;> omega⟩
  · exact ⟨k + L - start, by omega, by unfold circId; split <;> omega⟩

/-- Two allocations in a row on a well-formed image with two free blocks hand out two
different free ids. -/
theorem getNextBlockID_two (s : FS) (hwf : WellFormed s) (hu : s.usedBlocks + 2 ≤ s.logSize) :
    ∃ k1 k2 nb1 nb2, getNextBlockID s = some (k1, { s with nextBlockID := nb1 }) ∧
      getNextBlockID { s with nextBlockID := nb1 } = some (k2, { s with nextBlockID := nb2 }) ∧
      k1 ≠ k2 ∧ 1 ≤ k1 ∧ k1 ≤ s.logSize ∧ 1 ≤ k2 ∧ k2 ≤ s.logSize ∧
      s.bmap[k1 - 1]? = some 0 ∧ s.bmap[k2 - 1]? = some 0 ∧
      WellFormed { s with nextBlockID := nb2 } := by
  obtain ⟨hc, hsm, hbl, nb1, nb2, hule, hids⟩ := hwf
  obtain ⟨w1, w2, hlen, hml, hused, hl⟩ := hc
  obtain ⟨f1, hf1, hf2, hf3⟩ := exists_free_id s hml hused (by omega)
  obtain ⟨t1, ht1, ht2⟩ := circId_offset s.logSize s.nextBlockID f1 ⟨nb1, nb2⟩ ⟨hf1, hf2⟩
  obtain ⟨i1, k1, hi1, hk1, hz1, -, hg1⟩ :=
    getNextBlockIDLoop_first s ⟨nb1, nb2⟩ hsm hml s.logSize 0 (by omega)
      (fun j hj => absurd hj (Nat.not_lt_zero _)) ⟨t1, Nat.zero_le _, ht1, by rw [ht2]; exact hf3⟩
  have hk1r : 1 ≤ k1 ∧ k1 ≤ s.logSize := by
    rw [hk1]; unfold circId; split <;> omega
  -- a second free id: mark `k1` as used and look again
  have hlt1 : k1 - 1 < s.bmap.length := by omega
  have hk1e : s.bmap[k1 - 1] = 0 := by
    have := List.getElem?_eq_getElem hlt1
    rw [hz1] at this
    exact (Option.some.inj this).symm
  obtain ⟨f2, hg1', hg2, hg3⟩ := exists_free_id
    { s with bmap := s.bmap.set (k1 - 1) 1, usedBlocks := s.usedBlocks + 1 }
    (by simpa using hml)
    (by
      show s.usedBlocks + 1 = countNZ (s.bmap.set (k1 - 1) 1)
      have := countNZ_set s.bmap (k1 - 1) 1 hlt1
      rw [hk1e] at this
      simp at this
      omega)
    (by show s.usedBlocks + 1 < s.logSize; omega)
  dsimp only at hg2 hg3
  have hne21 : f2 ≠ k1 := by
    rintro rfl
    simp [List.getElem?_set_self hlt1] at hg3
  have hfree2 : s.bmap[f2 - 1]? = some 0 := by
    have h : (s.bmap.set (k1 - 1) 1)[f2 - 1]? = some 0 := hg3
    rwa [List.getElem?_set_ne (by omega)] at h
  have hg1'' : 1 ≤ f2 ∧ f2 ≤ s.logSize := ⟨hg1', hg2⟩
  -- the second scan starts behind `k1`
  obtain ⟨v, hv, hcase⟩ : ∃ v, v = (if k1 + 1 > s.logSize then k1 + 1 - s.logSize else k1 + 1) ∧
      ((k1 + 1 ≤ s.logSize ∧ v = k1 + 1) ∨ (k1 = s.logSize ∧ v = 1)) := by
    refine ⟨_, rfl, ?_⟩
    split <;> omega
  rw [← hv] at hg1
  have hvr : 1 ≤ v ∧ v ≤ s.logSize + 1 := by omega
  obtain ⟨t2, ht3, ht4⟩ := circId_offset s.logSize v f2 hvr hg1''
  obtain ⟨i2, k2, hi2, hk2, hz2, hprev2, hg2'⟩ :=
    getNextBlockIDLoop_first { s with nextBlockID := v } hvr hsm hml s.logSize 0 (Nat.add_zero _)
      (fun j hj => absurd hj (Nat.not_lt_zero _))
      ⟨t2, Nat.zero_le _, ht3, by rw [ht4]; exact hfree2⟩
  dsimp only at hi2 hk2 hz2 hprev2 hg2'
  have hk2r : 1 ≤ k2 ∧ k2 ≤ s.logSize := by
    rw [hk2]
    unfold circId; split <;> omega
  have hi2t : i2 ≤ t2 := by
    by_contra hcon
    exact hprev2 t2 (by omega) (by rw [ht4]; exact hfree2)
  have hne : k1 ≠ k2 := by
    intro heq
    have e1 : circId s.logSize v i2 = k2 := hk2.symm
    have e2 : circId s.logSize v t2 = f2 := ht4
    unfold circId at e1 e2
    split at e1 <;> split at e2 <;> omega
  refine ⟨k1, k2, v, (if k2 + 1 > s.logSize then k2 + 1 - s.logSize else k2 + 1), ?_, ?_, hne, hk1r.1, hk1r.2, hk2r.1, hk2r.2, hz1, hz2, ?_⟩
  · unfold getNextBlockID
    rw [if_neg (by omega)]
    exact hg1
  · unfold getNextBlockID
    rw [if_neg (by show ¬ s.usedBlocks = s.logSize; omega)]
    exact hg2'
  · refine ⟨⟨w1, w2, hlen, hml, hused, hl⟩, hsm, hbl, ?_, ?_, hule, hids⟩
    · show 1 ≤ (if k2 + 1 > s.logSize then k2 + 1 - s.logSize else k2 + 1)
      split <;> omega
    · show (if k2 + 1 > s.logSize then k2 + 1 - s.logSize else k2 + 1) ≤ s.logSize + 1
      split <;> omega

theorem OpenFile.convertToNonInline_eq (c : Constants) (fresh : Nat → List Nat) (s : FS)
    (f : OpenFile) (k1 k2 nb : Nat)
    (hin : f.inode.inlined = true) (hbl : f.blockLists = []) (hnd : f.numberOfDataBlocks = 0)
    (hen : f.inode.entries = []) (hsz : f.inode.size_b ≤ c.MAX_BYTES_PER_DATABLOCK)
    (hdata : f.inode.size_b ≤ f.inode.data.length)
    (hc1 : 1 ≤ c.MAX_DATABLOCKLISTS_PER_FILE) (hc2 : 1 ≤ c.MAX_DATABLOCKS_PER_DATABLOCKLIST)
    (hu : s.usedBlocks + 1 ≤ s.logSize) (hu32 : s.usedBlocks + 1 < 4294967296)
    (hg : getNextBlockID s = some (k2, { s with nextBlockID := nb })) :
    f.convertToNonInline c s ⟨k1, 0, fresh k1, false⟩ =
      some ({ s with nextBlockID := nb }, switchedFile fresh f k1 k2,
        [.list 0, .primary, .dataBlock]) := by
  have h1 : ¬ (s.usedBlocks + 1 > s.logSize) := by omega
  have h2 : ¬ ((0 : Nat) = c.MAX_DATABLOCKLISTS_PER_FILE) := by omega
  have h3 : ¬ ((0 : Nat) = c.MAX_DATABLOCKS_PER_DATABLOCKLIST) := by omega
  have hw := DataBlock.write_eq c ⟨k1, 0, fresh k1, false⟩ 0 (f.inode.data.take f.inode.size_b)
    (by simp [List.length_take]; omega) (Nat.zero_le _)
  unfold OpenFile.convertToNonInline allocDataBlockList
  rw [hin, Nat.mod_eq_of_lt hu32, if_neg h1, hg]
  simp only [Bool.not_true, Bool.false_eq_true, if_false]
  unfold FileINode.convertToNonInline FileINode.pushDataBlockList DataBlockList.pushDataBlock
  simp only [hen, List.length_nil, List.nil_append, if_neg h2, if_neg h3, if_pos hdata, hw]
  simp only [switchedFile, hbl, hnd, List.nil_append, List.length_nil]

theorem Mounted.saveBlock_eq (now : Nat → Nat) (m : Mounted) (b : Block) (s' : FS)
    (h : SDI4FS.saveBlock m.fs b (now m.clock) = some s') :
    m.saveBlock now b = some { m with fs := s', clock := m.clock + 1 } := by
  unfold Mounted.saveBlock
  rw [h]

/-- Saving the new block list, the INode and the new data block after the switch. -/
theorem saveBlocks_switch (now : Nat → Nat) (m : Mounted) (b1 b2 b3 : Block)
    (hwf : WellFormed m.fs) (hu : m.fs.usedBlocks + 3 ≤ m.fs.logSize)
    (h1 : 1 ≤ b1.id ∧ b1.id ≤ m.fs.logSize) (h2 : 1 ≤ b2.id ∧ b2.id ≤ m.fs.logSize)
    (h3 : 1 ≤ b3.id ∧ b3.id ≤ m.fs.logSize)
    (hne12 : b1.id ≠ b2.id) (hne13 : b1.id ≠ b3.id) (hne23 : b2.id ≠ b3.id)
    (hf1 : m.fs.bmap[b1.id - 1]? = some 0) (hl2 : m.fs.bmap[b2.id - 1]? ≠ some 0)
    (hf3 : m.fs.bmap[b3.id - 1]? = some 0) :
    ∃ s', Mounted.saveBlocks now m [b1, b2, b3] =
        some { m with fs := s', clock := m.clock + 3 } ∧
      WellFormed s' ∧ s'.logSize = m.fs.logSize ∧ s'.usedBlocks = m.fs.usedBlocks + 2 ∧
      fetchBlock s' b1.id = some (some { b1 with lastWriteTime := now m.clock }) ∧
      fetchBlock s' b2.id = some (some { b2 with lastWriteTime := now (m.clock + 1) }) ∧
      fetchBlock s' b3.id = some (some { b3 with lastWriteTime := now (m.clock + 2) }) ∧
      ∀ id, id ≠ b1.id → id ≠ b2.id → id ≠ b3.id → fetchBlock s' id = fetchBlock m.fs id := by
  obtain ⟨sa, p, hs1, hwfa, hla, -, hba, -, hua, hfa, hoa⟩ :=
    saveBlock_wf m.fs b1 (now m.clock) hwf (by omega) h1
  rw [hf1, if_pos rfl] at hua
  have hb2a : sa.bmap[b2.id - 1]? ≠ some 0 := by
    rw [hba, List.getElem?_set_ne (by omega)]; exact hl2
  have hb3a : sa.bmap[b3.id - 1]? = some 0 := by
    rw [hba, List.getElem?_set_ne (by omega)]; exact hf3
  obtain ⟨sb, q, hs2, hwfb, hlb, -, hbb, -, hub, hfb, hob⟩ :=
    saveBlock_wf sa b2 (now (m.clock + 1)) hwfa (by omega) (by omega)
  rw [if_neg hb2a] at hub
  have hb3b : sb.bmap[b3.id - 1]? = some 0 := by
    rw [hbb, List.getElem?_set_ne (by omega)]; exact hb3a
  obtain ⟨sc, r, hs3, hwfc, hlc, -, -, -, huc, hfc, hoc⟩ :=
    saveBlock_wf sb b3 (now (m.clock + 2)) hwfb (by omega) (by omega)
  rw [hb3b, if_pos rfl] at huc
  refine ⟨sc, ?_, hwfc, by omega, by omega, ?_, ?_, hfc, ?_⟩
  · unfold Mounted.saveBlocks
    rw [Mounted.saveBlock_eq now m b1 sa hs1]
    unfold Mounted.saveBlocks
    rw [Mounted.saveBlock_eq now _ b2 sb hs2]
    unfold Mounted.saveBlocks
    rw [Mounted.saveBlock_eq now _ b3 sc hs3]
    rfl
  · rw [hoc _ hne13, hob _ hne12]; exact hfa
  · rw [hoc _ hne23]; exact hfb
  · intro id n1 n2 n3
    rw [hoc _ n3, hob _ n2, hoa _ n1]

/-- The switch of an inlined file to one block list and one data block on a well-formed
image with three free blocks. -/
theorem switchNonInline_spec (c : Constants) (fresh : Nat → List Nat) (now : Nat → Nat)
    (m : Mounted) (f : OpenFile) (hwf : WellFormed m.fs)
    (hu : m.fs.usedBlocks + 3 ≤ m.fs.logSize)
    (hin : f.inode.inlined = true) (hbl : f.blockLists = []) (hnd : f.numberOfDataBlocks = 0)
    (hen : f.inode.entries = []) (hsz : f.inode.size_b ≤ c.MAX_BYTES_PER_DATABLOCK)
    (hdata : f.inode.size_b ≤ f.inode.data.length)
    (hid : 1 ≤ f.inode.id ∧ f.inode.id ≤ m.fs.logSize)
    (hlive : m.fs.bmap[f.inode.id - 1]? ≠ some 0)
    (hc1 : 1 ≤ c.MAX_DATABLOCKLISTS_PER_FILE) (hc2 : 1 ≤ c.MAX_DATABLOCKS_PER_DATABLOCKLIST) :
    ∃ k1 k2 s', switchNonInline c fresh now m f =
        some ({ m with fs := s', clock := m.clock + 3 }, switchedFile fresh f k1 k2) ∧
      k1 ≠ k2 ∧ k1 ≠ f.inode.id ∧ k2 ≠ f.inode.id ∧ 1 ≤ k1 ∧ k1 ≤ m.fs.logSize ∧
      1 ≤ k2 ∧ k2 ≤ m.fs.logSize ∧
      m.fs.bmap[k1 - 1]? = some 0 ∧ m.fs.bmap[k2 - 1]? = some 0 ∧
      WellFormed s' ∧ s'.logSize = m.fs.logSize ∧ s'.usedBlocks = m.fs.usedBlocks + 2 ∧
      fetchBlock s' k2 = some (some ⟨k2, now m.clock, .plain (.ids [k1])⟩) ∧
      fetchBlock s' f.inode.id = some (some
        { (switchedFile fresh f k1 k2).inode.toBlock with lastWriteTime := now (m.clock + 1) }) ∧
      fetchBlock s' k1 = some (some ⟨k1, now (m.clock + 2),
        .plain (.bytes (memcpyInto (fresh k1) 0 (f.inode.data.take f.inode.size_b)))⟩) ∧
      ∀ id, id ≠ k1 → id ≠ k2 → id ≠ f.inode.id → fetchBlock s' id = fetchBlock m.fs id := by
  have hsm : m.fs.logSize < 2147483648 := hwf.2.1
  obtain ⟨k1, k2, nb1, nb2, hg1, hg2, hne, hk1a, hk1b, hk2a, hk2b, hz1, hz2, hwf2⟩ :=
    getNextBlockID_two m.fs hwf (by omega)
  have hn1 : k1 ≠ f.inode.id := by
    rintro rfl; exact hlive hz1
  have hn2 : k2 ≠ f.inode.id := by
    rintro rfl; exact hlive hz2
  have hconv := OpenFile.convertToNonInline_eq c fresh { m.fs with nextBlockID := nb1 } f k1 k2 nb2
    hin hbl hnd hen hsz hdata hc1 hc2 (by show m.fs.usedBlocks + 1 ≤ m.fs.logSize; omega)
    (by show m.fs.usedBlocks + 1 < 4294967296; omega) hg2
  obtain ⟨s', hsave, hwf', hl', hu', hf1, hf2, hf3, hfr⟩ :=
    saveBlocks_switch now { m with fs := { m.fs with nextBlockID := nb2 } }
      (⟨k2, 0, [k1]⟩ : DataBlockList).toBlock (switchedFile fresh f k1 k2).inode.toBlock
      (⟨k1, 0, memcpyInto (fresh k1) 0 (f.inode.data.take f.inode.size_b), true⟩ :
        DataBlock).toBlock
      hwf2 hu ⟨hk2a, hk2b⟩ hid ⟨hk1a, hk1b⟩ hn2 hne.symm (Ne.symm hn1) hz2 hlive hz1
  refine ⟨k1, k2, s', ?_, hne, hn1, hn2, hk1a, hk1b, hk2a, hk2b, hz1, hz2, hwf', hl', hu',
    hf1, hf2, hf3, ?_⟩
  · unfold switchNonInline
    rw [Nat.mod_eq_of_lt (by omega), if_neg (by omega), hg1]
    simp only
    rw [hconv]
    simp only [List.mapM_cons, List.mapM_nil, resolveFileRef, switchedFile,
      List.getElem?_cons_zero, Option.map_some', Option.pure_def, Option.bind_eq_bind,
      Option.some_bind]
    simp only [switchedFile] at hsave
    rw [hsave]
  · intro id n1 n2 n3
    exact hfr id n2 n3 n1

@[simp] theorem Mounted.store_fs (m : Mounted) (h : Nat) (f : OpenFile) :
    (m.store h f).fs = m.fs := rfl

theorem find_store_aux (l : List (Nat × OpenFile)) (h : Nat) (f f0 : OpenFile)
    (hf : (l.find? (fun e => e.1 = h)).map Prod.snd = some f0) :
    ((l.map (fun e => if e.1 = h then (e.1, f) else e)).find? (fun e => e.1 = h)).map Prod.snd
      = some f := by
  induction l with
  | nil => simp at hf
  | cons a t ih =>
    by_cases ha : a.1 = h
    · simp [List.find?, ha]
    · simp only [List.map_cons, if_neg ha]
      rw [List.find?_cons_of_neg _ (by simpa using ha)]
      rw [List.find?_cons_of_neg _ (by simpa using ha)] at hf
      exact ih hf

/-- The file object stored for a handle is the one found afterwards. -/
theorem Mounted.find_store (m : Mounted) (h : Nat) (f f0 : OpenFile) (hf : m.find h = some f0) :
    (m.store h f).find h = some f :=
  find_store_aux m.openFiles h f f0 hf

theorem memcpyInto_take (data src : List Nat) (pos : Nat) (hp : pos ≤ data.length) :
    (memcpyInto data pos src).take (pos + src.length) = data.take pos ++ src := by
  unfold memcpyInto
  rw [List.append_assoc, List.take_append_eq_append_take, List.length_take, Nat.min_eq_left hp,
    List.take_of_length_le (by rw [List.length_take]; omega)]
  rw [show pos + src.length - pos = src.length by omega, List.take_append_eq_append_take,
    List.take_of_length_le (Nat.le_refl _)]
  simp

theorem memcpyInto_length_ge (data src : List Nat) (pos : Nat) (hp : pos ≤ data.length) :
    pos + src.length ≤ (memcpyInto data pos src).length := by
  unfold memcpyInto
  simp only [List.length_append, List.length_take, Nat.min_eq_left hp]
  omega

/-- The write that switches an inlined file to one data block. -/
theorem write_switch (c : Constants) (fresh : Nat → List Nat) (now : Nat → Nat)
    (m m1 : Mounted) (h : Nat) (f f1 : OpenFile) (b : DataBlock) (src : List Nat) (pos n : Nat)
    (hf : m.find h = some f) (hin : f.inode.inlined = true) (hn : 1 ≤ n)
    (hpos : pos ≤ f.inode.size_b) (hsrc : n ≤ src.length)
    (hgt : pos + n > c.MAX_BYTES_PER_INODE) (hle : pos + n ≤ c.MAX_BYTES_PER_DATABLOCK)
    (hM32 : c.MAX_BYTES_PER_DATABLOCK < 4294967296)
    (hmax : pos + n < c.MAX_FILE_SIZE)
    (hsw : switchNonInline c fresh now m f = some (m1, f1))
    (hni : f1.inode.inlined = false) (hnd : f1.numberOfDataBlocks ≠ 0)
    (hid : f1.getDataBlockID c 0 = some b.id) (hc : f1.cachedDataBlock = some b)
    (hb : pos ≤ b.data.length) :
    write c fresh now m h src pos n = some (true, m1.store h
      { f1 with
        cachedDataBlock := some { b with data := memcpyInto b.data pos (src.take n), dirty := true }
        inode := { f1.inode with size_b := pos + n } }) := by
  have hM : 0 < c.MAX_BYTES_PER_DATABLOCK := by omega
  have hdiv : pos / c.MAX_BYTES_PER_DATABLOCK = 0 := Nat.div_eq_of_lt (by omega)
  have hmod : pos % c.MAX_BYTES_PER_DATABLOCK = pos := Nat.mod_eq_of_lt (by omega)
  have hend : (pos + n) % 4294967296 = pos + n := Nat.mod_eq_of_lt (by omega)
  have hbs : blockStart c pos = pos := by rw [blockStart_eq c pos (by omega), hmod]
  have hbb : blockBytes c (pos + n) pos = n := by
    rw [blockBytes_eq c (pos + n) pos hM hM32 (by omega) (by omega), hmod]
    omega
  unfold write
  rw [if_neg (by omega), hf]
  simp only
  rw [if_neg (by omega), Nat.mod_eq_of_lt (by omega), if_neg (by omega),
    if_neg (by omega)]
  simp only [hin, hend, if_true, hsw]
  obtain ⟨k, rfl⟩ : ∃ k, n = k + 1 := ⟨n - 1, by omega⟩
  rw [writeLoop_step c fresh now src (pos + (k + 1)) k m1 m1 f1 f1 [] [] pos 0 b
    { b with data := memcpyInto b.data pos ((src.drop 0).take (k + 1)), dirty := true }
    ((src.drop 0).take (k + 1)) (by omega)
    (by rw [hdiv]; exact ensureCached_hit c fresh now m1 f1 [] 0 b hnd hid hc) hc
    (by rw [hbb]; exact sliceOf_eq src 0 (k + 1) (by omega))
    (by
      rw [hbs]
      exact DataBlock.write_eq c b pos _ (by
        rw [List.length_take, List.drop_zero]; omega) hb)]
  rw [hbb, hend, writeLoop_done _ _ _ _ _ _ _ _ _ _ _ (by omega)]
  simp only [List.map_nil, List.mapM_nil, Option.pure_def, Mounted.saveBlocks]
  unfold FileINode.setInternalSize_b
  rw [if_pos (by omega)]
  simp [hni]

/-- The `gc` loop returns on every image whose pointers are in range. -/
theorem gcLoop_total (n : Nat) : ∀ s : FS, 1 ≤ s.write_ptr → s.write_ptr ≤ s.logSize →
    s.log.length = s.logSize → s.logSize < 4294967295 →
    (∀ b, b ∈ s.log → b.id ≤ s.bmap.length) → ∃ p s', gcLoop n s = some (p, s') := by
  induction n with
  | zero => intro s _ _ _ _ _; exact ⟨0, s, rfl⟩
  | succ n ih =>
    intro s h1 h2 hlen hL hids
    have hlt : s.write_ptr - 1 < s.log.length := by omega
    unfold gcLoop
    rw [slotId_eq s s.write_ptr (by omega), List.getElem?_eq_getElem hlt]
    simp only [Option.map_some']
    by_cases h0 : (s.log[s.write_ptr - 1]).id = 0
    · rw [if_pos h0]; exact ⟨_, _, rfl⟩
    · rw [if_neg h0]
      have hb : (s.log[s.write_ptr - 1]).id ≤ s.bmap.length :=
        hids _ (List.getElem_mem _)
      have hidx : idx (s.log[s.write_ptr - 1]).id < s.bmap.length := by
        unfold idx; rw [if_neg h0]; omega
      unfold bmapAt
      rw [List.getElem?_eq_getElem hidx]
      simp only
      split
      · exact ih (zeroSlotId s s.write_ptr) h1 h2 (by simpa [zeroSlotId] using hlen) hL
          (fun b hb' => by
            by_cases hb0 : b.id = 0
            · rw [hb0]; exact Nat.zero_le _
            · exact hids b (mem_zeroSlotId_log s _ b hb' hb0))
      · have := advance_range s.logSize s.write_ptr h1 h2 hL
        exact ih { s with write_ptr := advance s.logSize s.write_ptr } this.1 this.2.1 hlen hL hids

/-- The function `saveBlock` returns on every well-formed image for a block whose id indexes
the block map. -/
theorem saveBlock_total (s : FS) (b : Block) (now : Nat) (hwf : WellFormed s)
    (hid : 1 ≤ b.id ∧ b.id ≤ s.bmap.length) : ∃ s', saveBlock s b now = some s' := by
  obtain ⟨hc, hsm, hbl, nb1, nb2, hule, hids⟩ := hwf
  obtain ⟨w1, w2, hlen, hml, hused, hl⟩ := hc
  have hgc : ∃ p s1, gc s = some (p, s1) := by
    unfold gc
    split
    · exact ⟨_, _, rfl⟩
    · exact gcLoop_total _ s w1 w2 hlen (by omega) hids
  obtain ⟨p, s1, hg⟩ := hgc
  obtain ⟨fb, fu, fl, fn, fll⟩ := gc_frame s s1 p hg
  unfold saveBlock
  rw [hg]
  simp only
  by_cases hp : p = 0
  · rw [if_pos hp]; exact ⟨_, rfl⟩
  · rw [if_neg hp]
    have hl1 := gc_ne_zero s s1 p hg hp
    obtain ⟨-, hz, -⟩ := gcLoop_result _ _ _ _ hl1 hp
    obtain ⟨-, hplt⟩ := slotId_lt _ _ _ hz
    rw [if_pos hplt]
    have hidx : idx b.id < s1.bmap.length := by
      unfold idx; rw [if_neg (by omega), fb]; omega
    unfold bmapAt
    simp only
    rw [List.getElem?_eq_getElem hidx]
    exact ⟨_, rfl⟩

theorem readLoop_done (c : Constants) (now : Nat → Nat) (endPos fuel : Nat) (m : Mounted)
    (f : OpenFile) (cur : Nat) (target : List Nat) (h : ¬ cur < endPos) :
    readLoop c now endPos fuel m f cur target = some (true, m, f, target) := by
  cases fuel with
  | zero => rw [readLoop, if_neg h]
  | succ k => rw [readLoop, if_neg h]

/-- One round of the loop of `FS::read` that copies from the cached block. -/
theorem readLoop_step (c : Constants) (now : Nat → Nat) (endPos fuel1 fuel : Nat)
    (m m1 : Mounted) (f f1 : OpenFile) (cur id : Nat) (target bytes : List Nat) (b : DataBlock)
    (hfu : fuel1 = fuel + 1) (hlt : cur < endPos)
    (hid : f.getDataBlockID c (cur / c.MAX_BYTES_PER_DATABLOCK) = some id)
    (hsw : cacheDataBlock now m f id = some (m1, f1))
    (hc : f1.cachedDataBlock = some b)
    (hr : b.read c (blockStart c cur) (blockBytes c endPos cur) = some (some bytes)) :
    readLoop c now endPos fuel1 m f cur target =
      readLoop c now endPos fuel m1 f1 ((cur + blockBytes c endPos cur) % 4294967296)
        (target ++ bytes) := by
  subst hfu
  rw [readLoop, if_pos hlt]
  simp only [hid, hsw, hc, hr]

/-- A round of the loop of `FS::read` that finds no block in the cache ends the call. -/
theorem readLoop_fail (c : Constants) (now : Nat → Nat) (endPos fuel1 fuel : Nat)
    (m m1 : Mounted) (f f1 : OpenFile) (cur id : Nat) (target : List Nat)
    (hfu : fuel1 = fuel + 1) (hlt : cur < endPos)
    (hid : f.getDataBlockID c (cur / c.MAX_BYTES_PER_DATABLOCK) = some id)
    (hsw : cacheDataBlock now m f id = some (m1, f1))
    (hc : f1.cachedDataBlock = none) :
    readLoop c now endPos fuel1 m f cur target = some (false, m1, f1, target) := by
  subst hfu
  rw [readLoop, if_pos hlt]
  simp only [hid, hsw, hc]

theorem cacheDataBlock_hit (now : Nat → Nat) (m : Mounted) (f : OpenFile) (b : DataBlock)
    (hc : f.cachedDataBlock = some b) : cacheDataBlock now m f b.id = some (m, f) := by
  unfold cacheDataBlock OpenFile.getCachedDataBlockID
  rw [hc]
  simp

theorem DataBlock.read_eq (c : Constants) (b : DataBlock) (pos n : Nat)
    (hp : pos + n ≤ c.MAX_BYTES_PER_DATABLOCK) (hd : pos + n ≤ b.data.length) :
    b.read c pos n = some (some ((b.data.drop pos).take n)) := by
  unfold DataBlock.read
  have h1 : ¬ (pos > c.MAX_BYTES_PER_DATABLOCK ∨
      (pos + n) % 18446744073709551616 > c.MAX_BYTES_PER_DATABLOCK) := by
    have := Nat.mod_le (pos + n) 18446744073709551616
    omega
  rw [if_neg h1, if_pos hd]

theorem loadDataBlock_zero (s : FS) : loadDataBlock s 0 = some none := by
  unfold loadDataBlock fetchBlock lookupBlockAddress
  simp

/-- The block number behind the last block has the id 0. -/
theorem getDataBlockID_past (c : Constants) (f : OpenFile) (blockNo : Nat)
    (hni : f.inode.inlined = false) (h : blockNo ≥ f.numberOfDataBlocks) :
    f.getDataBlockID c blockNo = some 0 := by
  unfold OpenFile.getDataBlockID
  rw [hni]
  simp only [Bool.false_eq_true, if_false]
  rw [if_pos h]

/-- The id of a data block does not depend on the cache or on the size of the file. -/
theorem getDataBlockID_congr (c : Constants) (f g : OpenFile) (blockNo : Nat)
    (h1 : g.inode.inlined = f.inode.inlined) (h2 : g.numberOfDataBlocks = f.numberOfDataBlocks)
    (h3 : g.blockLists = f.blockLists) :
    g.getDataBlockID c blockNo = f.getDataBlockID c blockNo := by
  unfold OpenFile.getDataBlockID
  rw [h1, h2, h3]

/-- Evicting a dirty block on a well-formed image returns. -/
theorem saveCachedIfDirty_total (now : Nat → Nat) (m : Mounted) (f : OpenFile) (b : DataBlock)
    (hc : f.cachedDataBlock = some b) (hwf : WellFormed m.fs)
    (hid : 1 ≤ b.id ∧ b.id ≤ m.fs.bmap.length) :
    ∃ m1, saveCachedIfDirty now m f = some (m1, { f with cachedDataBlock :=
      (if b.dirty then none else some b) }) ∧ m1.openFiles = m.openFiles := by
  unfold saveCachedIfDirty
  rw [hc]
  simp only
  by_cases hd : b.dirty = true
  · rw [if_pos hd]
    obtain ⟨s', hs⟩ := saveBlock_total m.fs b.toBlock (now m.clock) hwf hid
    rw [Mounted.saveBlock_eq now m _ s' hs]
    exact ⟨{ m with fs := s', clock := m.clock + 1 }, by simp [hd], rfl⟩
  · rw [if_neg hd]
    refine ⟨m, ?_, rfl⟩
    simp only [hd, Bool.false_eq_true, if_false]
    rw [← hc]

/-- One round of the loop of `FS::write`, with the bound given by an equation. -/
theorem writeLoop_step_of (c : Constants) (fresh : Nat → List Nat) (now : Nat → Nat)
    (source : List Nat) (endPos fuel fuel1 : Nat) (m m1 : Mounted) (f f1 : OpenFile)
    (changed changed1 : List (Nat × FileRef)) (cur copied : Nat) (b b1 : DataBlock)
    (src : List Nat) (hfu : fuel = fuel1 + 1) (hlt : cur < endPos)
    (he : ensureCached c fresh now m f changed (cur / c.MAX_BYTES_PER_DATABLOCK) =
      some (m1, f1, changed1))
    (hc : f1.cachedDataBlock = some b)
    (hs : sliceOf source copied (blockBytes c endPos cur) = some src)
    (hw : b.write c (blockStart c cur) src = some (some b1)) :
    writeLoop c fresh now source endPos fuel m f changed cur copied =
      writeLoop c fresh now source endPos fuel1 m1 { f1 with cachedDataBlock := some b1 } changed1
        ((cur + blockBytes c endPos cur) % 4294967296)
        ((copied + blockBytes c endPos cur) % 4294967296) := by
  subst hfu
  exact writeLoop_step c fresh now source endPos fuel1 m m1 f f1 changed changed1 cur copied b b1
    src hlt he hc hs hw

/-- The write of `MAX_BYTES_PER_DATABLOCK + 1` bytes at position 0 to a file of one data
block when no block can be added: the last byte lands at the start of the only block. -/
theorem write_overflow (c : Constants) (fresh : Nat → List Nat) (now : Nat → Nat)
    (m : Mounted) (h : Nat) (f : OpenFile) (b : DataBlock) (S : List Nat)
    (hf : m.find h = some f) (hni : f.inode.inlined = false)
    (hnd : f.numberOfDataBlocks = 1) (hid : f.getDataBlockID c 0 = some b.id)
    (hc : f.cachedDataBlock = some b)
    (hfull : m.fs.usedBlocks + 3 > m.fs.logSize) (hu : m.fs.usedBlocks + 3 < 4294967296)
    (hS : S.length = c.MAX_BYTES_PER_DATABLOCK + 1) (hM : 0 < c.MAX_BYTES_PER_DATABLOCK)
    (hmax : c.MAX_BYTES_PER_DATABLOCK + 1 < c.MAX_FILE_SIZE)
    (hmax32 : c.MAX_FILE_SIZE ≤ 4294967296) :
    write c fresh now m h S 0 (c.MAX_BYTES_PER_DATABLOCK + 1) =
      some (true, m.store h (overflowFile c f b S)) := by
  obtain ⟨k, hk⟩ : ∃ k, c.MAX_BYTES_PER_DATABLOCK = k + 1 :=
    ⟨c.MAX_BYTES_PER_DATABLOCK - 1, by omega⟩
  have hM32 : c.MAX_BYTES_PER_DATABLOCK < 4294967296 := by omega
  have hend : (0 + (c.MAX_BYTES_PER_DATABLOCK + 1)) % 4294967296 =
      c.MAX_BYTES_PER_DATABLOCK + 1 := by
    rw [Nat.zero_add]; exact Nat.mod_eq_of_lt (by omega)
  have hbs0 : blockStart c 0 = 0 := by rw [blockStart_eq c 0 (by omega)]; simp
  have hbb0 : blockBytes c (c.MAX_BYTES_PER_DATABLOCK + 1) 0 = c.MAX_BYTES_PER_DATABLOCK := by
    rw [blockBytes_eq c _ 0 hM hM32 (by omega) (by omega)]
    simp
  have hbs1 : blockStart c c.MAX_BYTES_PER_DATABLOCK = 0 := by
    rw [blockStart_eq c _ hM32]; simp
  have hbb1 : blockBytes c (c.MAX_BYTES_PER_DATABLOCK + 1) c.MAX_BYTES_PER_DATABLOCK = 1 := by
    rw [blockBytes_eq c _ _ hM hM32 (by omega) (by omega)]
    simp
    omega
  unfold write
  rw [if_neg (by omega), hf]
  simp only
  rw [if_neg (by omega), Nat.mod_eq_of_lt (by omega), if_neg (by omega),
    if_neg (by simp [hni])]
  simp only [hni, hend, Bool.false_eq_true, if_false]
  -- first round: the cached block is block 0
  rw [writeLoop_step_of c fresh now S (c.MAX_BYTES_PER_DATABLOCK + 1) _
    c.MAX_BYTES_PER_DATABLOCK m m f f [] [] 0 0 b
    { b with data := memcpyInto b.data 0 ((S.drop 0).take c.MAX_BYTES_PER_DATABLOCK),
             dirty := true }
    ((S.drop 0).take c.MAX_BYTES_PER_DATABLOCK) rfl (by omega)
    (by
      rw [Nat.zero_div]
      exact ensureCached_hit c fresh now m f [] 0 b (by omega) hid hc) hc
    (by rw [hbb0]; exact sliceOf_eq S 0 _ (by omega))
    (by
      rw [hbs0]
      exact DataBlock.write_eq c b 0 _ (by
        rw [List.length_take, List.drop_zero]; omega) (Nat.zero_le _))]
  rw [hbb0, Nat.zero_add, Nat.mod_eq_of_lt hM32]
  -- second round: no block can be added
  rw [writeLoop_step_of c fresh now S (c.MAX_BYTES_PER_DATABLOCK + 1) _ k m m _ _ [] []
    c.MAX_BYTES_PER_DATABLOCK c.MAX_BYTES_PER_DATABLOCK
    { b with data := memcpyInto b.data 0 ((S.drop 0).take c.MAX_BYTES_PER_DATABLOCK),
             dirty := true }
    { b with data := memcpyInto (memcpyInto b.data 0 ((S.drop 0).take c.MAX_BYTES_PER_DATABLOCK))
               0 ((S.drop c.MAX_BYTES_PER_DATABLOCK).take 1),
             dirty := true }
    ((S.drop c.MAX_BYTES_PER_DATABLOCK).take 1) hk (by omega)
    (ensureCached_full c fresh now m _ [] _ (by
      show f.numberOfDataBlocks = _
      rw [hnd, Nat.div_self hM]) (by
      rw [Nat.mod_eq_of_lt hu]; exact hfull)) rfl
    (by rw [hbb1]; exact sliceOf_eq S _ 1 (by omega))
    (by
      rw [hbs1]
      exact DataBlock.write_eq c _ 0 _ (by
        rw [List.length_take, List.length_drop]; omega) (Nat.zero_le _))]
  rw [hbb1, Nat.mod_eq_of_lt (by omega), writeLoop_done _ _ _ _ _ _ _ _ _ _ _ (by omega)]
  simp only [List.map_nil, List.mapM_nil, Option.pure_def, Mounted.saveBlocks]
  unfold FileINode.setInternalSize_b
  rw [if_pos (by omega)]
  simp [hni, overflowFile]

theorem loadDataBlock_of_fetch (s : FS) (id t : Nat) (l : List Nat)
    (h : fetchBlock s id = some (some ⟨id, t, .plain (.bytes l)⟩)) :
    loadDataBlock s id = some (some ⟨id, t, l, false⟩) := by
  unfold loadDataBlock
  rw [h]
  simp

theorem blocksForSize_first (c : Constants) (k : Nat) (hk : 1 ≤ k)
    (hkM : k ≤ c.MAX_BYTES_PER_DATABLOCK) : blocksForSize c k = 1 := by
  unfold blocksForSize
  by_cases he : k = c.MAX_BYTES_PER_DATABLOCK
  · subst he
    rw [if_pos (Nat.mod_self _), Nat.div_self (by omega)]
  · rw [if_neg (by rw [Nat.mod_eq_of_lt (by omega)]; omega), Nat.div_eq_of_lt (by omega)]

theorem blocksForSize_second (c : Constants) (hM : 2 ≤ c.MAX_BYTES_PER_DATABLOCK) :
    blocksForSize c (c.MAX_BYTES_PER_DATABLOCK + 1) = 2 := by
  unfold blocksForSize
  have h1 : (c.MAX_BYTES_PER_DATABLOCK + 1) % c.MAX_BYTES_PER_DATABLOCK = 1 := by
    rw [Nat.add_mod_left, Nat.mod_eq_of_lt (by omega)]
  have h2 : (c.MAX_BYTES_PER_DATABLOCK + 1) / c.MAX_BYTES_PER_DATABLOCK = 1 := by
    rw [Nat.add_div_left _ (by omega), Nat.div_eq_of_lt (by omega)]
  rw [h1, h2, if_neg (by omega)]

theorem Mounted.find_congr (m m' : Mounted) (h : Nat) (he : m'.openFiles = m.openFiles) :
    m'.find h = m.find h := by
  unfold Mounted.find
  rw [he]

/-- The successful path of `FS::truncate` in terms of its three steps. -/
theorem truncate_eq (c : Constants) (now : Nat → Nat) (m m1 m2 m3 : Mounted) (h size : Nat)
    (f f1 f2 : OpenFile) (hf : m.find h = some f) (hlt : size < f.inode.size_b)
    (hsave : saveCachedIfDirty now m f = some (m1, f1))
    (hrm : removeDataBlocks c now m1 f1
      (sub32 (blocksForSize c f.inode.size_b) (blocksForSize c size)) = some (m2, f2))
    (hsv : m2.saveBlock now (f2.inode.setInternalSize_b c size).toBlock = some m3) :
    truncate c now m h size =
      some (true, m3.store h { f2 with inode := f2.inode.setInternalSize_b c size }) := by
  unfold truncate
  rw [hf]
  simp only
  rw [if_neg (by omega), hsave]
  simp only
  rw [hrm]
  simp only
  rw [hsv]

theorem saveCachedIfDirty_dirty (now : Nat → Nat) (m : Mounted) (f : OpenFile) (b : DataBlock)
    (s' : FS) (hc : f.cachedDataBlock = some b) (hd : b.dirty = true)
    (hs : saveBlock m.fs b.toBlock (now m.clock) = some s') :
    saveCachedIfDirty now m f =
      some ({ m with fs := s', clock := m.clock + 1 }, { f with cachedDataBlock := none }) := by
  unfold saveCachedIfDirty
  rw [hc]
  simp only
  rw [if_pos hd, Mounted.saveBlock_eq now m _ s' hs]

theorem saveCachedIfDirty_clean (now : Nat → Nat) (m : Mounted) (f : OpenFile)
    (hc : f.cachedDataBlockIsDirty = false) : saveCachedIfDirty now m f = some (m, f) := by
  unfold saveCachedIfDirty
  unfold OpenFile.cachedDataBlockIsDirty at hc
  cases hb : f.cachedDataBlock with
  | none => rfl
  | some b =>
    rw [hb] at hc
    simp only at hc
    simp only
    rw [if_neg (by rw [hc]; decide)]

theorem removeDataBlocks_keep (c : Constants) (now : Nat → Nat) (m : Mounted) (f : OpenFile)
    (n : Nat) (hu : m.fs.usedBlocks + 1 ≤ m.fs.logSize) (hu32 : m.fs.usedBlocks + 1 < 4294967296)
    (hn : f.numberOfDataBlocks ≤ n) : removeDataBlocks c now m f n = some (m, f) := by
  unfold removeDataBlocks
  rw [Nat.mod_eq_of_lt hu32, if_neg (by omega), if_pos hn]

/-- Reading the first `k` bytes of a file whose first data block has to be loaded. -/
theorem read_first_block (c : Constants) (now : Nat → Nat) (m : Mounted) (h : Nat)
    (f : OpenFile) (B : DataBlock) (id k : Nat)
    (hf : m.find h = some f) (hni : f.inode.inlined = false) (hsize : f.inode.size_b = k)
    (hc : f.cachedDataBlock = none) (hid : f.getDataBlockID c 0 = some id) (hid0 : id ≠ 0)
    (hload : loadDataBlock m.fs id = some (some B))
    (hk : 1 ≤ k) (hkM : k ≤ c.MAX_BYTES_PER_DATABLOCK)
    (hM32 : c.MAX_BYTES_PER_DATABLOCK < 4294967296) (hlen : k ≤ B.data.length) :
    read c now m h 0 k = some (true, m.store h (f.withCache (some B)), B.data.take k) := by
  have hbs0 : blockStart c 0 = 0 := by rw [blockStart_eq c 0 (by omega)]; simp
  have hbb0 : blockBytes c k 0 = k := by
    rw [blockBytes_eq c k 0 (by omega) hM32 (by omega) (by omega)]
    simp
    omega
  unfold read
  rw [if_neg (by omega), hf]
  simp only
  rw [hsize, Nat.mod_eq_of_lt (show 0 + k < 18446744073709551616 by omega),
    if_neg (show ¬ (0 ≥ k ∨ 0 + k > k) by omega)]
  simp only [hni, Bool.false_eq_true, if_false]
  rw [Nat.mod_eq_of_lt (show 0 + k < 4294967296 by omega), Nat.zero_add]
  obtain ⟨j, hj⟩ : ∃ j, k = j + 1 := ⟨k - 1, by omega⟩
  rw [readLoop_step c now k k j m m f (f.withCache (some B)) 0 id [] ((B.data.drop 0).take k)
    B hj (by omega) (by rw [Nat.zero_div]; exact hid)
    (by
      unfold cacheDataBlock OpenFile.getCachedDataBlockID
      rw [hc]
      simp only
      rw [if_pos (Ne.symm hid0), saveCachedIfDirty_clean now m f (by
        unfold OpenFile.cachedDataBlockIsDirty; rw [hc])]
      simp only [hload]
      rfl)
    rfl
    (by
      rw [hbs0, hbb0]
      exact DataBlock.read_eq c B 0 k (by omega) (by omega))]
  rw [hbb0, Nat.zero_add, Nat.mod_eq_of_lt (by omega),
    readLoop_done _ _ _ _ _ _ _ _ (by omega)]
  simp

/-- Truncating a file of one data block whose cached block is dirty, inside that block,
and reading it back: the read returns the first bytes of the block that was cached. -/
theorem truncate_read_one_block (c : Constants) (now2 now3 : Nat → Nat) (m : Mounted) (h : Nat)
    (f : OpenFile) (b : DataBlock) (k : Nat)
    (hf : m.find h = some f) (hni : f.inode.inlined = false)
    (hnd : f.numberOfDataBlocks = 1) (hid : f.getDataBlockID c 0 = some b.id)
    (hc : f.cachedDataBlock = some b) (hd : b.dirty = true) (hwf : WellFormed m.fs)
    (hbid : 1 ≤ b.id ∧ b.id ≤ m.fs.logSize) (hblive : m.fs.bmap[b.id - 1]? ≠ some 0)
    (hiid : 1 ≤ f.inode.id ∧ f.inode.id ≤ m.fs.logSize)
    (hne : f.inode.id ≠ b.id) (hu : m.fs.usedBlocks + 2 ≤ m.fs.logSize)
    (hsize : f.inode.size_b = c.MAX_BYTES_PER_DATABLOCK + 1)
    (hM : 2 ≤ c.MAX_BYTES_PER_DATABLOCK)
    (hmax : c.MAX_BYTES_PER_DATABLOCK + 1 < c.MAX_FILE_SIZE)
    (hmax32 : c.MAX_FILE_SIZE ≤ 4294967296)
    (hk : 1 ≤ k) (hkM : k ≤ c.MAX_BYTES_PER_DATABLOCK)
    (hlen : c.MAX_BYTES_PER_DATABLOCK ≤ b.data.length) :
    ∃ m2 m3, truncate c now2 m h k = some (true, m2) ∧
      read c now3 m2 h 0 k = some (true, m3, b.data.take k) := by
  have hsm : m.fs.logSize < 2147483648 := hwf.2.1
  have hM32 : c.MAX_BYTES_PER_DATABLOCK < 4294967296 := by omega
  obtain ⟨sa, p, hs1, hwfa, hla, -, -, -, hua, hfa, -⟩ :=
    saveBlock_wf m.fs b.toBlock (now2 m.clock) hwf (by omega) hbid
  have hua : sa.usedBlocks =
      if m.fs.bmap[b.id - 1]? = some 0 then m.fs.usedBlocks + 1 else m.fs.usedBlocks := hua
  have hfa : fetchBlock sa b.id = some (some ⟨b.id, now2 m.clock, .plain (.bytes b.data)⟩) := hfa
  rw [if_neg hblive] at hua
  have hsz : ∀ g : FileINode, FileINode.setInternalSize_b c g k = { g with size_b := k } := by
    intro g
    unfold FileINode.setInternalSize_b
    rw [if_pos (by omega)]
  obtain ⟨sb, q, hs2, hwfb, hlb, -, -, -, hub, hfb, hob⟩ :=
    saveBlock_wf sa ({ f.inode with size_b := k } : FileINode).toBlock (now2 (m.clock + 1)) hwfa
      (by omega) (by rw [hla]; exact hiid)
  have hob : ∀ id, id ≠ f.inode.id → fetchBlock sb id = fetchBlock sa id := hob
  have hfetch : fetchBlock sb b.id =
      some (some ⟨b.id, now2 m.clock, .plain (.bytes b.data)⟩) := by
    rw [hob b.id (Ne.symm hne)]
    exact hfa
  have ht := truncate_eq c now2 m ⟨sa, m.openFiles, m.clock + 1⟩ ⟨sa, m.openFiles, m.clock + 1⟩
    ⟨sb, m.openFiles, m.clock + 2⟩ h k f (f.withCache none) (f.withCache none) hf
    (by rw [hsize]; omega) (saveCachedIfDirty_dirty now2 m f b sa hc hd hs1)
    (by
      rw [blocksForSize_first c k hk hkM, hsize, blocksForSize_second c hM]
      exact removeDataBlocks_keep c now2 _ _ _ (by show sa.usedBlocks + 1 ≤ sa.logSize; omega)
        (by show sa.usedBlocks + 1 < 4294967296; omega)
        (by show f.numberOfDataBlocks ≤ sub32 2 1; rw [hnd]; decide))
    (by
      rw [hsz]
      exact Mounted.saveBlock_eq now2 ⟨sa, m.openFiles, m.clock + 1⟩ _ sb hs2)
  rw [hsz] at ht
  exact ⟨_, _, ht, read_first_block c now3 _ h _ ⟨b.id, now2 m.clock, b.data, false⟩ b.id k
    (Mounted.find_store ⟨sb, m.openFiles, m.clock + 2⟩ h _ f hf) hni rfl rfl
    ((getDataBlockID_congr c f _ 0 rfl rfl rfl).trans hid) (by omega)
    (loadDataBlock_of_fetch sb b.id _ b.data hfetch) hk hkM hM32
    (by show k ≤ b.data.length; omega)⟩

/-- C12 (divergence): a write of `S` at position 0 and a truncate to `k` that both return
true are not always followed by a read of `S[0..k)`.  For a non-inlined open file with one
data block (cached), a byte string `S` of `MAX_BYTES_PER_DATABLOCK + 1` bytes whose first
and last byte differ, `1 <= k <= MAX_BYTES_PER_DATABLOCK` and a well-formed image with
exactly two free blocks (no room for one more data block), `write(h, S, 0, |S|)` and
`truncate(h, k)` return true and `read(h, buf, 0, k)` returns true with a buffer of `k`
bytes that starts with the last byte of `S`, so the buffer is not `S[0..k)`. -/
theorem write_truncate_read_differs (c : Constants) (fresh : Nat → List Nat)
    (now now2 now3 : Nat → Nat) (m : Mounted) (h : Nat) (f : OpenFile) (b : DataBlock)
    (S : List Nat) (k : Nat)
    (hf : m.find h = some f) (hni : f.inode.inlined = false)
    (hnd : f.numberOfDataBlocks = 1) (hid : f.getDataBlockID c 0 = some b.id)
    (hc : f.cachedDataBlock = some b) (hwf : WellFormed m.fs)
    (hbid : 1 ≤ b.id ∧ b.id ≤ m.fs.logSize) (hblive : m.fs.bmap[b.id - 1]? ≠ some 0)
    (hiid : 1 ≤ f.inode.id ∧ f.inode.id ≤ m.fs.logSize) (hne : f.inode.id ≠ b.id)
    (hfull : m.fs.usedBlocks + 2 = m.fs.logSize)
    (hS : S.length = c.MAX_BYTES_PER_DATABLOCK + 1) (hM : 2 ≤ c.MAX_BYTES_PER_DATABLOCK)
    (hmax : c.MAX_BYTES_PER_DATABLOCK + 1 < c.MAX_FILE_SIZE)
    (hmax32 : c.MAX_FILE_SIZE ≤ 4294967296)
    (hk : 1 ≤ k) (hkM : k ≤ c.MAX_BYTES_PER_DATABLOCK)
    (hdiff : S[0]? ≠ S[c.MAX_BYTES_PER_DATABLOCK]?) :
    ∃ m1 m2 m3 buf, write c fresh now m h S 0 S.length = some (true, m1) ∧
      truncate c now2 m1 h k = some (true, m2) ∧
      read c now3 m2 h 0 k = some (true, m3, buf) ∧ buf.length = k ∧
      buf[0]? = S[c.MAX_BYTES_PER_DATABLOCK]? ∧ buf ≠ S.take k := by
  have hsm : m.fs.logSize < 2147483648 := hwf.2.1
  rw [hS]
  have hw := write_overflow c fresh now m h f b S hf hni hnd hid hc (by omega)
    (by omega) hS (by omega) hmax hmax32
  -- the data of the cached block after the write
  obtain ⟨D, hD⟩ : ∃ D, D = memcpyInto (memcpyInto b.data 0 (S.take c.MAX_BYTES_PER_DATABLOCK)) 0
      ((S.drop c.MAX_BYTES_PER_DATABLOCK).take 1) := ⟨_, rfl⟩
  have hDlen : c.MAX_BYTES_PER_DATABLOCK ≤ D.length := by
    rw [hD]
    unfold memcpyInto
    simp only [List.length_append, List.length_take, List.length_drop, List.take_zero,
      List.length_nil]
    omega
  have hD0 : D[0]? = S[c.MAX_BYTES_PER_DATABLOCK]? := by
    rw [hD]
    unfold memcpyInto
    simp only [List.take_zero, List.nil_append, List.append_assoc]
    rw [List.getElem?_append_left (by
      rw [List.length_take, List.length_drop]; omega)]
    rw [List.getElem?_take_of_lt (by omega), List.getElem?_drop]
    rfl
  obtain ⟨m2, m3, ht, hr⟩ := truncate_read_one_block c now2 now3 (m.store h (overflowFile c f b S))
    h (overflowFile c f b S) ⟨b.id, b.lastWriteTime, D, true⟩ k
    (Mounted.find_store m h _ f hf) hni hnd
    ((getDataBlockID_congr c f _ 0 rfl rfl rfl).trans hid) (by rw [hD]; rfl) rfl hwf hbid hblive
    hiid hne (by show m.fs.usedBlocks + 2 ≤ m.fs.logSize; omega) rfl hM hmax hmax32 hk hkM hDlen
  refine ⟨_, m2, m3, D.take k, hw, ht, hr, ?_, ?_, ?_⟩
  · rw [List.length_take]; omega
  · rw [List.getElem?_take_of_lt (by omega)]; exact hD0
  · intro heq
    have h1 : (D.take k)[0]? = (S.take k)[0]? := by rw [heq]
    rw [List.getElem?_take_of_lt (by omega), List.getElem?_take_of_lt (by omega), hD0] at h1
    exact hdiff h1.symm

@[simp] theorem Mounted.store_clock (m : Mounted) (h : Nat) (f : OpenFile) :
    (m.store h f).clock = m.clock := rfl

/-- The four rejections of `write` while the `size_t` sum `pos + n` does not wrap
(`pos + n` below `2^64`): the call returns false and leaves the mounted file system, the
open file objects included (contents, `internalSize_b`, inline flag, block lists),
unchanged whenever `n < 1`, the handle is not open, `pos > internalSize_b`, or
`pos + n >= MAX_FILE_SIZE`. -/
theorem write_rejects (c : Constants) (fresh : Nat → List Nat) (now : Nat → Nat) (m : Mounted)
    (fileHandle : Nat) (source : List Nat) (pos n : Nat)
    (hsum : pos + n < 18446744073709551616)
    (hrej : n < 1 ∨ m.find fileHandle = none ∨
      ∃ f, m.find fileHandle = some f ∧ (pos > f.inode.size_b ∨ pos + n ≥ c.MAX_FILE_SIZE)) :
    write c fresh now m fileHandle source pos n = some (false, m) := by
  unfold write
  by_cases hn : n < 1
  · rw [if_pos hn]
  · rw [if_neg hn]
    rcases hrej with h | h | ⟨f, hf, h⟩
    · exact absurd h hn
    · rw [h]
    · rw [hf]
      simp only
      by_cases hp : pos > f.inode.size_b
      · rw [if_pos hp]
      · rw [if_neg hp]
        have h2 : pos + n ≥ c.MAX_FILE_SIZE := by
          rcases h with h | h
          · exact absurd h hp
          · exact h
        rw [Nat.mod_eq_of_lt hsum, if_pos h2]

/-- C18: when the parent directory of a path already has `childCount ==
MAX_HARDLINKS_PER_DIR`, creating one more child in it by `mkdir`, `touch` or `link`
returns false and hands back the file system state as it was (block map, `usedBlocks`,
`nextBlockID` and the log with the parent directory unchanged); `Directory::addHardlink`
on such a directory returns no changed block and leaves the directory object, the
allocator state and the target INode (its `linkCounter`) as they were. -/
theorem full_directory_rejects_child (c : Constants) (pu : PathUtils) (uninit : Nat)
    (now : Nat → Nat) (s : FS) (path : List Char) (parent : Directory)
    (hparent : searchParent c pu uninit s (pu.normalizePath path) = some (some parent))
    (hfull : parent.childCount = c.MAX_HARDLINKS_PER_DIR) :
    mkdir c pu uninit now s path = some (false, s) ∧
    touch c pu uninit now s path = some (false, s) ∧
    (∀ targetPath, link c pu uninit now s path targetPath = some (false, s)) ∧
    (∀ (s0 : FS) (target : INode) (name : List Char),
      parent.addHardlink c s0 target name = some (s0, parent, target, [])) := by
  refine ⟨?_, ?_, ?_, ?_⟩
  · unfold mkdir
    simp only [hparent, hfull]
    split
    · rfl
    · split
      · rfl
      · split <;> simp
  · unfold touch
    simp only [hparent, hfull]
    split
    · rfl
    · split
      · rfl
      · split <;> simp
  · intro targetPath
    unfold link
    simp only [hparent, hfull]
    split
    · rfl
    · split
      · rfl
      · split <;> simp
  · intro s0 target name
    unfold Directory.addHardlink
    split
    · rfl
    · rfl

/-- C15 (divergence): when the new DataBlock that a write needs cannot be added because
`FS::addDataBlock` refuses for lack of free blocks (`usedBlocks + 3 > logSize`), `write`
does not return false: for a non-inlined open file whose cached DataBlock is `b` and a
write of `1 <= n <= MAX_BYTES_PER_DATABLOCK` bytes at the start of the missing block
(`pos = numberOfDataBlocks * MAX_BYTES_PER_DATABLOCK <= internalSize_b`) it returns true,
the first `n` bytes that the cached DataBlock held are overwritten by the new data, and
`internalSize_b` is set to `pos + n`. -/
theorem write_without_space_overwrites (c : Constants) (fresh : Nat → List Nat) (now : Nat → Nat)
    (m : Mounted) (h : Nat) (f : OpenFile) (b : DataBlock) (src : List Nat) (pos n : Nat)
    (hf : m.find h = some f) (hni : f.inode.inlined = false) (hc : f.cachedDataBlock = some b)
    (hfull : m.fs.usedBlocks + 3 > m.fs.logSize) (hu : m.fs.usedBlocks + 3 < 4294967296)
    (hpos : pos = f.numberOfDataBlocks * c.MAX_BYTES_PER_DATABLOCK)
    (hsz : pos ≤ f.inode.size_b) (hn : 1 ≤ n) (hnM : n ≤ c.MAX_BYTES_PER_DATABLOCK)
    (hM32 : c.MAX_BYTES_PER_DATABLOCK < 4294967296)
    (hmax : pos + n < c.MAX_FILE_SIZE) (hmax32 : c.MAX_FILE_SIZE ≤ 4294967296)
    (hsrc : n ≤ src.length) :
    write c fresh now m h src pos n = some (true, m.store h
      { f with
        cachedDataBlock :=
          some { b with data := src.take n ++ b.data.drop n, dirty := true }
        inode := { f.inode with size_b := pos + n } }) := by
  have hM : 0 < c.MAX_BYTES_PER_DATABLOCK := by omega
  have hdiv : pos / c.MAX_BYTES_PER_DATABLOCK = f.numberOfDataBlocks := by
    rw [hpos]; exact Nat.mul_div_cancel _ hM
  have hmod : pos % c.MAX_BYTES_PER_DATABLOCK = 0 := by
    rw [hpos]; exact Nat.mul_mod_left _ _
  have hend : (pos + n) % 4294967296 = pos + n := Nat.mod_eq_of_lt (by omega)
  have hbs : blockStart c pos = 0 := by rw [blockStart_eq c pos (by omega), hmod]
  have hbb : blockBytes c (pos + n) pos = n := by
    rw [blockBytes_eq c (pos + n) pos hM hM32 (by omega) (by omega), hmod]
    omega
  unfold write
  rw [if_neg (by omega), hf]
  simp only
  rw [if_neg (by omega), Nat.mod_eq_of_lt (by omega), if_neg (by omega),
    if_neg (by simp [hni])]
  simp only [hni, hend, Bool.false_eq_true, if_false]
  obtain ⟨k, rfl⟩ : ∃ k, n = k + 1 := ⟨n - 1, by omega⟩
  rw [writeLoop_step c fresh now src (pos + (k + 1)) k m m f f [] [] pos 0 b
    { b with data := memcpyInto b.data 0 ((src.drop 0).take (k + 1)), dirty := true }
    ((src.drop 0).take (k + 1)) (by omega)
    (ensureCached_full c fresh now m f [] _ hdiv.symm (by
      rw [Nat.mod_eq_of_lt hu]; exact hfull)) hc
    (by rw [hbb]; exact sliceOf_eq src 0 (k + 1) (by omega))
    (by
      rw [hbs]
      exact DataBlock.write_eq c b 0 _ (by
        rw [List.length_take, List.drop_zero]; omega) (Nat.zero_le _))]
  rw [hbb, hend, writeLoop_done _ _ _ _ _ _ _ _ _ _ _ (by omega)]
  simp only [List.map_nil, List.mapM_nil, Option.pure_def, Mounted.saveBlocks]
  unfold FileINode.setInternalSize_b
  rw [if_pos (by omega)]
  simp [memcpyInto, List.length_take, Nat.min_eq_left hsrc, hni]

/-- C17 (inline boundary), for a write that passes the checks of `write` (`n >= 1`,
`pos <= internalSize_b`) to an inlined open file whose payload is known: with
`pos + n <= MAX_BYTES_PER_INODE` the write returns true, the file stays inlined, only the
file object changes (no block is allocated or saved) and `internalSize_b = pos + n`; with
`pos + n = MAX_BYTES_PER_INODE + 1` on a well-formed image with at least 3 free blocks it
returns true and leaves the file non-inlined with exactly one DataBlockList (block `k2`)
and one DataBlock (block `k1`, cached) whose first `pos + n` bytes are the first `pos`
bytes of the former inline payload followed by the new data; two blocks were allocated. -/
theorem inline_boundary (c : Constants) (fresh : Nat → List Nat) (now : Nat → Nat)
    (m : Mounted) (h : Nat) (f : OpenFile) (src : List Nat) (pos n : Nat)
    (hf : m.find h = some f) (hin : f.inode.inlined = true) (hn : 1 ≤ n)
    (hpos : pos ≤ f.inode.size_b) (hsrc : n ≤ src.length)
    (hsz : f.inode.size_b ≤ c.MAX_BYTES_PER_INODE) (hdata : f.inode.size_b ≤ f.inode.data.length)
    (hcI : c.MAX_BYTES_PER_INODE + 1 ≤ c.MAX_BYTES_PER_DATABLOCK)
    (hM32 : c.MAX_BYTES_PER_DATABLOCK < 4294967296)
    (hcF : c.MAX_BYTES_PER_INODE + 1 < c.MAX_FILE_SIZE)
    (hc1 : 1 ≤ c.MAX_DATABLOCKLISTS_PER_FILE) (hc2 : 1 ≤ c.MAX_DATABLOCKS_PER_DATABLOCKLIST) :
    (pos + n ≤ c.MAX_BYTES_PER_INODE →
      write c fresh now m h src pos n = some (true, m.store h
        { f with inode := { f.inode with
            data := memcpyInto f.inode.data pos (src.take n), size_b := pos + n } })) ∧
    (pos + n = c.MAX_BYTES_PER_INODE + 1 → f.blockLists = [] → f.numberOfDataBlocks = 0 →
      f.inode.entries = [] → WellFormed m.fs → m.fs.usedBlocks + 3 ≤ m.fs.logSize →
      1 ≤ f.inode.id ∧ f.inode.id ≤ m.fs.logSize → m.fs.bmap[f.inode.id - 1]? ≠ some 0 →
      ∃ m1 f1 k1 k2 data, write c fresh now m h src pos n = some (true, m1) ∧
        m1.find h = some f1 ∧ f1.inode.inlined = false ∧ f1.inode.size_b = pos + n ∧
        f1.inode.entries = [k2] ∧ f1.blockLists = [⟨k2, 0, [k1]⟩] ∧
        f1.numberOfDataBlocks = 1 ∧ f1.cachedDataBlock = some ⟨k1, 0, data, true⟩ ∧
        data.take (pos + n) = f.inode.data.take pos ++ src.take n ∧ k1 ≠ k2 ∧
        m1.fs.usedBlocks = m.fs.usedBlocks + 2 ∧ WellFormed m1.fs) := by
  constructor
  · intro hle
    unfold write
    rw [if_neg (by omega), hf]
    simp only
    rw [if_neg (by omega), Nat.mod_eq_of_lt (by omega), if_neg (by omega),
      if_pos ⟨hin, hle⟩, sliceOf_eq src 0 n (by omega)]
    simp only [List.drop_zero]
    unfold FileINode.writeInline
    have hlen : (src.take n).length = n := by rw [List.length_take]; omega
    have hb : ¬ (pos > c.MAX_BYTES_PER_INODE ∨
        (pos + (src.take n).length) % 18446744073709551616 > c.MAX_BYTES_PER_INODE) := by
      rw [hlen, Nat.mod_eq_of_lt (by omega)]; omega
    rw [hin]
    simp only [Bool.not_true, Bool.false_eq_true, if_false]
    rw [if_neg hb, if_pos (by omega)]
    simp only
    unfold FileINode.setInternalSize_b
    rw [Nat.mod_eq_of_lt (by omega), if_pos (by omega)]
    simp [hin]
  · intro heq hbl hnd hen hwf hu hid hlive
    obtain ⟨k1, k2, s', hsw, hne, -, -, -, -, -, -, -, -, hwf', -, hu', -⟩ :=
      switchNonInline_spec c fresh now m f hwf hu hin hbl hnd hen (by omega) hdata hid hlive
        hc1 hc2
    have hD : pos ≤ (memcpyInto (fresh k1) 0 (f.inode.data.take f.inode.size_b)).length := by
      have := memcpyInto_length_ge (fresh k1) (f.inode.data.take f.inode.size_b) 0
        (Nat.zero_le _)
      rw [List.length_take] at this
      omega
    have hw := write_switch c fresh now m _ h f (switchedFile fresh f k1 k2)
      ⟨k1, 0, memcpyInto (fresh k1) 0 (f.inode.data.take f.inode.size_b), true⟩ src pos n
      hf hin hn hpos hsrc (by omega) (by omega) hM32 (by omega) hsw rfl
      (by simp [switchedFile])
      (by
        unfold OpenFile.getDataBlockID switchedFile DataBlockList.getDataBlock
        simp [Nat.mod_eq_of_lt hc2, Nat.div_eq_of_lt hc2]) rfl hD
    refine ⟨_,
      { switchedFile fresh f k1 k2 with
        cachedDataBlock := some
          { (⟨k1, 0, memcpyInto (fresh k1) 0 (f.inode.data.take f.inode.size_b), true⟩ :
              DataBlock) with
            data := memcpyInto (memcpyInto (fresh k1) 0 (f.inode.data.take f.inode.size_b)) pos
              (src.take n), dirty := true }
        inode := { (switchedFile fresh f k1 k2).inode with size_b := pos + n } }, k1, k2,
      memcpyInto (memcpyInto (fresh k1) 0 (f.inode.data.take f.inode.size_b)) pos (src.take n),
      hw, ?_, rfl, rfl, rfl, rfl, rfl, rfl, ?_, hne, hu', hwf'⟩
    · exact Mounted.find_store _ h _ f hf
    · have := memcpyInto_take (memcpyInto (fresh k1) 0 (f.inode.data.take f.inode.size_b))
        (src.take n) pos hD
      rw [List.length_take, Nat.min_eq_left hsrc] at this
      rw [this]
      congr 1
      unfold memcpyInto
      simp only [List.take_zero, List.nil_append, List.append_assoc]
      rw [List.take_append_of_le_length (by rw [List.length_take]; omega), List.take_take,
        Nat.min_eq_left hpos]

/-- C11 (divergence): a write of `S` at position 0 that returns true is not always followed
by a read that returns `S`.  For a non-inlined open file with one data block (cached), a
byte string `S` of `MAX_BYTES_PER_DATABLOCK + 1` bytes and a well-formed image without room
for one more data block (`usedBlocks + 3 > logSize`), `write(h, S, 0, |S|)` returns true and
the following `read(h, buf, 0, |S|)` returns false. -/
theorem write_then_read_fails (c : Constants) (fresh : Nat → List Nat) (now now2 : Nat → Nat)
    (m : Mounted) (h : Nat) (f : OpenFile) (b : DataBlock) (S : List Nat)
    (hf : m.find h = some f) (hni : f.inode.inlined = false)
    (hnd : f.numberOfDataBlocks = 1) (hid : f.getDataBlockID c 0 = some b.id)
    (hc : f.cachedDataBlock = some b) (hwf : WellFormed m.fs)
    (hbid : 1 ≤ b.id ∧ b.id ≤ m.fs.bmap.length)
    (hfull : m.fs.usedBlocks + 3 > m.fs.logSize)
    (hS : S.length = c.MAX_BYTES_PER_DATABLOCK + 1) (hM : 0 < c.MAX_BYTES_PER_DATABLOCK)
    (hmax : c.MAX_BYTES_PER_DATABLOCK + 1 < c.MAX_FILE_SIZE)
    (hmax32 : c.MAX_FILE_SIZE ≤ 4294967296) :
    ∃ m1, write c fresh now m h S 0 S.length = some (true, m1) ∧
      ∃ m2 buf, read c now2 m1 h 0 S.length = some (false, m2, buf) := by
  have hu : m.fs.usedBlocks + 3 < 4294967296 := by
    have := hwf.2.1
    have := hwf.2.2.2.2.2.1
    omega
  obtain ⟨k, hk⟩ : ∃ k, c.MAX_BYTES_PER_DATABLOCK = k + 1 :=
    ⟨c.MAX_BYTES_PER_DATABLOCK - 1, by omega⟩
  have hM32 : c.MAX_BYTES_PER_DATABLOCK < 4294967296 := by omega
  rw [hS]
  refine ⟨_, write_overflow c fresh now m h f b S hf hni hnd hid hc hfull hu hS hM hmax hmax32,
    ?_⟩
  have hbs0 : blockStart c 0 = 0 := by rw [blockStart_eq c 0 (by omega)]; simp
  have hbb0 : blockBytes c (c.MAX_BYTES_PER_DATABLOCK + 1) 0 = c.MAX_BYTES_PER_DATABLOCK := by
    rw [blockBytes_eq c _ 0 hM hM32 (by omega) (by omega)]
    simp
  have hend : (0 + (c.MAX_BYTES_PER_DATABLOCK + 1)) % 4294967296 =
      c.MAX_BYTES_PER_DATABLOCK + 1 := by
    rw [Nat.zero_add]; exact Nat.mod_eq_of_lt (by omega)
  have hsz : (overflowFile c f b S).inode.size_b = c.MAX_BYTES_PER_DATABLOCK + 1 := rfl
  have hni2 : (overflowFile c f b S).inode.inlined = false := hni
  unfold read
  rw [if_neg (by omega), Mounted.find_store m h _ f hf]
  simp only
  rw [hsz, Nat.mod_eq_of_lt (show 0 + (c.MAX_BYTES_PER_DATABLOCK + 1) < 18446744073709551616 by
    omega), if_neg (show ¬ (0 ≥ c.MAX_BYTES_PER_DATABLOCK + 1 ∨
      0 + (c.MAX_BYTES_PER_DATABLOCK + 1) > c.MAX_BYTES_PER_DATABLOCK + 1) by omega)]
  simp only [hni2, hend, Bool.false_eq_true, if_false]
  -- first round: block 0 is the cached block
  have hlen : c.MAX_BYTES_PER_DATABLOCK ≤
      (memcpyInto (memcpyInto b.data 0 (S.take c.MAX_BYTES_PER_DATABLOCK)) 0
        ((S.drop c.MAX_BYTES_PER_DATABLOCK).take 1)).length := by
    unfold memcpyInto
    simp only [List.length_append, List.length_take, List.length_drop, List.take_zero,
      List.length_nil]
    omega
  obtain ⟨b2, hb2, hb2id, hb2len, hb2d⟩ : ∃ b2,
      (overflowFile c f b S).cachedDataBlock = some b2 ∧ b2.id = b.id ∧
      c.MAX_BYTES_PER_DATABLOCK ≤ b2.data.length ∧ b2.dirty = true := ⟨_, rfl, rfl, hlen, rfl⟩
  rw [readLoop_step c now2 (c.MAX_BYTES_PER_DATABLOCK + 1) _ c.MAX_BYTES_PER_DATABLOCK _ _ _ _ 0
    b.id [] _ b2 rfl (by omega)
    (by
      rw [Nat.zero_div]
      exact (getDataBlockID_congr c f (overflowFile c f b S) 0 rfl rfl rfl).trans hid)
    (by rw [← hb2id]; exact cacheDataBlock_hit now2 _ _ b2 hb2) hb2
    (by
      rw [hbs0, hbb0]
      exact DataBlock.read_eq c _ 0 _ (by omega) (by omega))]
  rw [hbb0, Nat.zero_add, Nat.mod_eq_of_lt hM32]
  -- second round: block 1 does not exist
  obtain ⟨m1, hsv, -⟩ := saveCachedIfDirty_total now2 (m.store h (overflowFile c f b S))
    (overflowFile c f b S) b2 hb2 hwf (by rw [hb2id]; exact hbid)
  rw [hb2d, if_pos rfl] at hsv
  rw [readLoop_fail c now2 (c.MAX_BYTES_PER_DATABLOCK + 1) _ k _ m1 _
    { overflowFile c f b S with cachedDataBlock := none } _ 0 _ hk (by omega)
    (by
      rw [Nat.div_self hM]
      exact getDataBlockID_past c _ 1 hni (by show 1 ≥ f.numberOfDataBlocks; omega))
    (by
      unfold cacheDataBlock OpenFile.getCachedDataBlockID
      rw [hb2]
      simp only
      rw [if_pos (by omega), hsv]
      simp only [loadDataBlock_zero]) rfl]
  exact ⟨_, _, rfl⟩

theorem touch_sixSlots :
    touch demoConstants specPathUtils 0 (clockFrom 10) sixSlots ['/', 'f'] =
      some (true, sixSlotsFile) := by decide

theorem openFile_sixSlotsFile :
    openFile demoConstants specPathUtils 0 ⟨sixSlotsFile, [], 0⟩ ['/', 'f'] =
      some (2, fileOpened) := by decide

theorem wf_sixSlotsFile : WellFormed sixSlotsFile := by decide

theorem switch_fileOpened :
    switchNonInline demoConstants noBytes (clockFrom 20) fileOpened emptyFile =
      some (⟨switchedImage, [(2, emptyFile)], 3⟩, oneBlockFile 0 (noBytes 3)) := by
  rfl

theorem wf_switchedImage : WellFormed switchedImage := by decide

theorem write_fileOpened :
    write demoConstants noBytes (clockFrom 20) fileOpened 2 (List.replicate 4088 7) 0 4088 =
      some (true, fileWritten) := by
  rw [write_switch demoConstants noBytes (clockFrom 20) fileOpened _ 2 emptyFile _
    ⟨3, 0, noBytes 3, true⟩ (List.replicate 4088 7) 0 4088 rfl rfl (by decide) (by decide)
    (by simp only [List.length_replicate]; decide) (by decide) (by decide) (by decide)
    (by decide) switch_fileOpened rfl (by decide) rfl rfl (Nat.zero_le _)]
  have hd : memcpyInto (noBytes 3) 0 (List.take 4088 (List.replicate 4088 7)) =
      List.replicate 4088 7 := by
    simp only [memcpyInto, noBytes, List.take_nil, List.drop_nil, List.nil_append,
      List.append_nil, List.take_replicate, Nat.min_self]
  rw [hd]
  rfl

/-! ### Reading the bytes of a well-formed file -/

theorem loadDataBlock_inv (s : FS) (id : Nat) (b : DataBlock)
    (h : loadDataBlock s id = some (some b)) :
    ∃ t, b = ⟨id, t, b.data, false⟩ ∧
      fetchBlock s id = some (some ⟨id, t, .plain (.bytes b.data)⟩) := by
  unfold loadDataBlock at h
  cases hf : fetchBlock s id with
  | none => rw [hf] at h; cases h
  | some o =>
    cases o with
    | none => rw [hf] at h; cases h
    | some blk =>
      rw [hf] at h
      simp only at h
      by_cases hne : blk.id ≠ id
      · rw [if_pos hne] at h; cases h
      · rw [if_neg hne] at h
        have hid : blk.id = id := by omega
        obtain ⟨bid, lwt, body⟩ := blk
        cases body with
        | inode _ _ _ _ _ _ => cases h
        | plain p =>
          cases p with
          | links _ => cases h
          | ids _ => cases h
          | bytes l =>
            simp only [Option.some.injEq] at h
            subst h
            simp only at hid
            subst hid
            exact ⟨lwt, rfl, rfl⟩

theorem diskData_of_load (s : FS) (id : Nat) (b : DataBlock)
    (h : loadDataBlock s id = some (some b)) : diskData s id = some b.data := by
  unfold diskData
  rw [h]

theorem diskData_inv (s : FS) (id : Nat) (data : List Nat) (h : diskData s id = some data) :
    ∃ t, loadDataBlock s id = some (some ⟨id, t, data, false⟩) := by
  unfold diskData at h
  cases hl : loadDataBlock s id with
  | none => rw [hl] at h; cases h
  | some o =>
    cases o with
    | none => rw [hl] at h; cases h
    | some b =>
      rw [hl] at h
      simp only [Option.some.injEq] at h
      obtain ⟨t, hb, -⟩ := loadDataBlock_inv s id b hl
      rw [h] at hb
      exact ⟨t, by rw [hb]⟩

theorem loadDataBlock_congr (s t : FS) (id : Nat) (h : fetchBlock t id = fetchBlock s id) :
    loadDataBlock t id = loadDataBlock s id := by
  unfold loadDataBlock
  rw [h]

theorem blockData_cached (m : Mounted) (f : OpenFile) (b : DataBlock)
    (hc : f.cachedDataBlock = some b) : blockData m f b.id = some b.data := by
  unfold blockData OpenFile.getCachedDataBlockID
  rw [hc]
  simp

theorem blockData_other (m : Mounted) (f : OpenFile) (id : Nat)
    (hne : f.getCachedDataBlockID ≠ id) : blockData m f id = diskData m.fs id := by
  unfold blockData
  rw [if_neg hne]

/-- What is on the device for block `id` when `blockData` takes it from there. -/
theorem blockData_load (m : Mounted) (f : OpenFile) (id : Nat) (data : List Nat)
    (hne : f.getCachedDataBlockID ≠ id) (hd : blockData m f id = some data) :
    ∃ t, loadDataBlock m.fs id = some (some ⟨id, t, data, false⟩) := by
  rw [blockData_other m f id hne] at hd
  exact diskData_inv m.fs id data hd

/-- The swap of the cached block in `FS::read`: afterwards block `id` is cached with the
bytes it held, the cache is clean or unchanged, and every block holds its bytes as before. -/
theorem cacheDataBlock_spec (now : Nat → Nat) (m : Mounted) (f : OpenFile) (id : Nat)
    (data : List Nat) (hev : Evictable m f) (hid0 : id ≠ 0)
    (hd : blockData m f id = some data) :
    ∃ m1 f1 b, cacheDataBlock now m f id = some (m1, f1) ∧ f1.toFile = f.toFile ∧
      f1.cachedDataBlock = some b ∧ b.id = id ∧ b.data = data ∧ Evictable m1 f1 ∧
      ∀ id' d', blockData m f id' = some d' → blockData m1 f1 id' = some d' := by
  by_cases hhit : f.getCachedDataBlockID = id
  · -- the block is cached already
    cases hc : f.cachedDataBlock with
    | none =>
      unfold OpenFile.getCachedDataBlockID at hhit
      rw [hc] at hhit
      exact absurd hhit.symm hid0
    | some b =>
      have hbid : b.id = id := by
        unfold OpenFile.getCachedDataBlockID at hhit
        rw [hc] at hhit
        exact hhit
      refine ⟨m, f, b, ?_, rfl, hc, hbid, ?_, hev, fun _ _ h => h⟩
      · unfold cacheDataBlock
        rw [if_neg (by simpa using hhit)]
      · have := blockData_cached m f b hc
        rw [hbid, hd] at this
        exact (Option.some.inj this).symm
  · obtain ⟨t, hload⟩ := blockData_load m f id data hhit hd
    cases hc : f.cachedDataBlock with
    | none =>
      refine ⟨m, { f with cachedDataBlock := some ⟨id, t, data, false⟩ }, ⟨id, t, data, false⟩,
        ?_, rfl, rfl, rfl, rfl, ?_, ?_⟩
      · unfold cacheDataBlock
        rw [if_pos hhit]
        unfold saveCachedIfDirty
        rw [hc]
        simp only [hload]
      · unfold Evictable
        simp only [Bool.false_eq_true, if_false]
        exact ⟨t, hload⟩
      · intro id' d' h'
        by_cases he : id' = id
        · subst he
          rw [hd] at h'
          rw [← Option.some.inj h']
          exact blockData_cached m _ ⟨id', t, data, false⟩ rfl
        · have hne0 : f.getCachedDataBlockID ≠ id' := by
            intro h0
            unfold blockData at h'
            rw [if_pos h0, hc] at h'
            cases h'
          rw [blockData_other m f id' hne0] at h'
          rw [blockData_other m _ id' (by
            unfold OpenFile.getCachedDataBlockID
            simp only
            exact fun h => he h.symm)]
          exact h'
    | some b0 =>
      have hb0 : f.getCachedDataBlockID = b0.id := by
        unfold OpenFile.getCachedDataBlockID; rw [hc]
      have hb0id : b0.id ≠ id := by rw [← hb0]; exact hhit
      unfold Evictable at hev
      rw [hc] at hev
      simp only at hev
      by_cases hdirty : b0.dirty = true
      · -- the dirty block is saved first
        rw [if_pos hdirty] at hev
        obtain ⟨hwf, hu, hb1, hb2⟩ := hev
        obtain ⟨s', p, hs, hwf', hl', -, -, -, hu', hfs, hfr⟩ :=
          saveBlock_wf m.fs b0.toBlock (now m.clock) hwf hu ⟨hb1, hb2⟩
        have hfs : fetchBlock s' b0.id =
            some (some ⟨b0.id, now m.clock, .plain (.bytes b0.data)⟩) := hfs
        have hfr : ∀ id', id' ≠ b0.id → fetchBlock s' id' = fetchBlock m.fs id' := hfr
        have hload' : loadDataBlock s' id = some (some ⟨id, t, data, false⟩) := by
          rw [loadDataBlock_congr m.fs s' id (hfr id (Ne.symm hb0id))]
          exact hload
        refine ⟨{ m with fs := s', clock := m.clock + 1 },
          { f with cachedDataBlock := some ⟨id, t, data, false⟩ }, ⟨id, t, data, false⟩,
          ?_, rfl, rfl, rfl, rfl, ?_, ?_⟩
        · unfold cacheDataBlock
          rw [if_pos hhit]
          unfold saveCachedIfDirty
          rw [hc]
          simp only
          rw [if_pos hdirty, Mounted.saveBlock_eq now m _ s' hs]
          simp only [hload']
        · unfold Evictable
          simp only [Bool.false_eq_true, if_false]
          exact ⟨t, hload'⟩
        · intro id' d' h'
          by_cases he : id' = id
          · subst he
            rw [hd] at h'
            rw [← Option.some.inj h']
            exact blockData_cached _ _ ⟨id', t, data, false⟩ rfl
          · have hne1 : OpenFile.getCachedDataBlockID
                { f with cachedDataBlock := some ⟨id, t, data, false⟩ } ≠ id' := by
              unfold OpenFile.getCachedDataBlockID
              simp only
              exact fun h => he h.symm
            rw [blockData_other _ _ id' hne1]
            by_cases he0 : id' = b0.id
            · subst he0
              have := blockData_cached m f b0 hc
              rw [h'] at this
              rw [diskData_of_load s' b0.id _ (loadDataBlock_of_fetch s' b0.id _ b0.data hfs)]
              exact this.symm
            · rw [blockData_other m f id' (by rw [hb0]; exact fun h => he0 h.symm)] at h'
              unfold diskData at h' ⊢
              rw [loadDataBlock_congr m.fs s' id' (hfr id' he0)]
              exact h'
      · -- a clean block is dropped
        rw [if_neg hdirty] at hev
        obtain ⟨t0, hl0⟩ := hev
        refine ⟨m, { f with cachedDataBlock := some ⟨id, t, data, false⟩ }, ⟨id, t, data, false⟩,
          ?_, rfl, rfl, rfl, rfl, ?_, ?_⟩
        · unfold cacheDataBlock
          rw [if_pos hhit]
          unfold saveCachedIfDirty
          rw [hc]
          simp only
          rw [if_neg hdirty]
          simp only [hload]
        · unfold Evictable
          simp only [Bool.false_eq_true, if_false]
          exact ⟨t, hload⟩
        · intro id' d' h'
          by_cases he : id' = id
          · subst he
            rw [hd] at h'
            rw [← Option.some.inj h']
            exact blockData_cached _ _ ⟨id', t, data, false⟩ rfl
          · have hne1 : OpenFile.getCachedDataBlockID
                { f with cachedDataBlock := some ⟨id, t, data, false⟩ } ≠ id' := by
              unfold OpenFile.getCachedDataBlockID
              simp only
              exact fun h => he h.symm
            rw [blockData_other _ _ id' hne1]
            by_cases he0 : id' = b0.id
            · subst he0
              have := blockData_cached m f b0 hc
              rw [h'] at this
              rw [diskData_of_load m.fs b0.id _ hl0]
              exact this.symm
            · rw [blockData_other m f id' (by rw [hb0]; exact fun h => he0 h.symm)] at h'
              exact h'

theorem HoldsBytes.swap (c : Constants) (m m1 : Mounted) (f f1 : OpenFile) (content : List Nat)
    (hb : HoldsBytes c m f content) (hfile : f1.toFile = f.toFile)
    (hpres : ∀ id' d', blockData m f id' = some d' → blockData m1 f1 id' = some d') :
    HoldsBytes c m1 f1 content := by
  intro i hi
  obtain ⟨id, data, h1, h2, h3, h4⟩ := hb i hi
  refine ⟨id, data, ?_, h2, hpres id data h3, h4⟩
  rw [← h1]
  unfold OpenFile.getDataBlockID
  rw [hfile]

/-- The bytes of one round: the part of the cached block is the part of the content. -/
theorem chunk_eq (content data : List Nat) (cur bs bb : Nat) (hbb : 0 < bb)
    (hend : cur + bb ≤ content.length)
    (h : ∀ t, t < bb → data[bs + t]? = content[cur + t]?) :
    bs + bb ≤ data.length ∧ (data.drop bs).take bb = (content.drop cur).take bb := by
  have hlast := h (bb - 1) (by omega)
  have hlen : bs + bb ≤ data.length := by
    by_contra hcon
    rw [List.getElem?_eq_none (by omega), List.getElem?_eq_getElem (by omega)] at hlast
    cases hlast
  refine ⟨hlen, ?_⟩
  apply List.ext_getElem?
  intro t
  by_cases ht : t < bb
  · rw [List.getElem?_take_of_lt ht, List.getElem?_take_of_lt ht, List.getElem?_drop,
      List.getElem?_drop]
    exact h t ht
  · rw [List.getElem?_eq_none (by rw [List.length_take]; omega),
      List.getElem?_eq_none (by rw [List.length_take]; omega)]

theorem take_drop_chunk (content : List Nat) (cur bb r : Nat) (hbb : bb ≤ r) :
    (content.drop cur).take bb ++ (content.drop (cur + bb)).take (r - bb) =
      (content.drop cur).take r := by
  rw [← List.drop_drop, ← List.take_append_drop bb (List.take r (List.drop cur content))]
  rw [List.take_take, Nat.min_eq_left hbb, List.drop_take]

/-- The loop of `FS::read` on a file that holds `content`: it returns true and appends the
bytes `content[cur .. endPos)` to the buffer. -/
theorem readLoop_spec (c : Constants) (now : Nat → Nat) (content : List Nat) (endPos : Nat)
    (hM : 0 < c.MAX_BYTES_PER_DATABLOCK) (hM32 : c.MAX_BYTES_PER_DATABLOCK < 4294967296)
    (hend : endPos ≤ content.length) (hend32 : endPos < 4294967296) :
    ∀ (fuel : Nat) (m : Mounted) (f : OpenFile) (cur : Nat) (target : List Nat),
      HoldsBytes c m f content → Evictable m f → cur ≤ endPos → endPos - cur ≤ fuel →
      ∃ m1 f1, readLoop c now endPos fuel m f cur target =
        some (true, m1, f1, target ++ (content.drop cur).take (endPos - cur)) := by
  intro fuel
  induction fuel with
  | zero =>
    intro m f cur target _ _ hcur hfuel
    refine ⟨m, f, ?_⟩
    rw [readLoop_done c now endPos 0 m f cur target (by omega)]
    have : endPos - cur = 0 := by omega
    rw [this]
    simp
  | succ fuel ih =>
    intro m f cur target hb hev hcur hfuel
    by_cases hlt : cur < endPos
    · -- one round
      obtain ⟨id, data, hid, hid0, hdata, -⟩ := hb cur (by omega)
      obtain ⟨m1, f1, b, hsw, hfile, hc1, hbid, hbdata, hev1, hpres⟩ :=
        cacheDataBlock_spec now m f id data hev hid0 hdata
      have hb1 : HoldsBytes c m1 f1 content := hb.swap c m m1 f f1 content hfile hpres
      have hbs : blockStart c cur = cur % c.MAX_BYTES_PER_DATABLOCK :=
        blockStart_eq c cur (by omega)
      have hbb : blockBytes c endPos cur =
          min (c.MAX_BYTES_PER_DATABLOCK - cur % c.MAX_BYTES_PER_DATABLOCK) (endPos - cur) :=
        blockBytes_eq c endPos cur hM hM32 hlt hend32
      have hmod : cur % c.MAX_BYTES_PER_DATABLOCK < c.MAX_BYTES_PER_DATABLOCK :=
        Nat.mod_lt _ hM
      obtain ⟨bb, hbbdef⟩ : ∃ bb, bb = blockBytes c endPos cur := ⟨_, rfl⟩
      have hbb1 : 0 < bb := by rw [hbbdef, hbb]; omega
      have hbb2 : cur + bb ≤ endPos := by rw [hbbdef, hbb]; omega
      have hbb3 : cur % c.MAX_BYTES_PER_DATABLOCK + bb ≤ c.MAX_BYTES_PER_DATABLOCK := by
        rw [hbbdef, hbb]; omega
      -- every byte of the round lies in block `id`
      have hbytes : ∀ t, t < bb →
          data[cur % c.MAX_BYTES_PER_DATABLOCK + t]? = content[cur + t]? := by
        intro t ht
        obtain ⟨id', data', hid', -, hdata', hget⟩ := hb (cur + t) (by omega)
        have hdm := Nat.div_add_mod cur c.MAX_BYTES_PER_DATABLOCK
        have hdiv : (cur + t) / c.MAX_BYTES_PER_DATABLOCK = cur / c.MAX_BYTES_PER_DATABLOCK := by
          rw [show cur + t = cur % c.MAX_BYTES_PER_DATABLOCK + t +
            c.MAX_BYTES_PER_DATABLOCK * (cur / c.MAX_BYTES_PER_DATABLOCK) by omega,
            Nat.add_mul_div_left _ _ hM, Nat.div_eq_of_lt (by omega)]
          omega
        have hmodt : (cur + t) % c.MAX_BYTES_PER_DATABLOCK =
            cur % c.MAX_BYTES_PER_DATABLOCK + t := by
          rw [show cur + t = cur % c.MAX_BYTES_PER_DATABLOCK + t +
            c.MAX_BYTES_PER_DATABLOCK * (cur / c.MAX_BYTES_PER_DATABLOCK) by omega,
            Nat.add_mul_mod_self_left, Nat.mod_eq_of_lt (by omega)]
        rw [hdiv, hid] at hid'
        have hide : id' = id := (Option.some.inj hid').symm
        rw [hide, hdata] at hdata'
        rw [← Option.some.inj hdata', hmodt] at hget
        exact hget
      obtain ⟨hlen, hchunk⟩ := chunk_eq content data cur (cur % c.MAX_BYTES_PER_DATABLOCK) bb
        hbb1 (by omega) hbytes
      obtain ⟨m2, f2, hrest⟩ := ih m1 f1 (cur + bb)
        (target ++ (data.drop (cur % c.MAX_BYTES_PER_DATABLOCK)).take bb) hb1 hev1 hbb2
        (by omega)
      refine ⟨m2, f2, ?_⟩
      rw [readLoop_step c now endPos (fuel + 1) fuel m m1 f f1 cur id target
        ((data.drop (cur % c.MAX_BYTES_PER_DATABLOCK)).take bb) b rfl hlt hid hsw hc1
        (by
          rw [hbs, ← hbbdef, ← hbdata]
          exact DataBlock.read_eq c b _ bb hbb3 (by rw [hbdata]; exact hlen))]
      rw [← hbbdef, Nat.mod_eq_of_lt (by omega), hrest, List.append_assoc, hchunk,
        show endPos - (cur + bb) = endPos - cur - bb by omega,
        take_drop_chunk content cur bb (endPos - cur) (by omega)]
    · refine ⟨m, f, ?_⟩
      rw [readLoop_done c now endPos (fuel + 1) m f cur target hlt]
      have : endPos - cur = 0 := by omega
      rw [this]
      simp

/-- The two cases of `FS::read` on a file that holds `content`. -/
theorem read_cases (c : Constants) (now : Nat → Nat) (m : Mounted) (fileHandle : Nat)
    (f : OpenFile) (content : List Nat) (pos n : Nat)
    (hM : 0 < c.MAX_BYTES_PER_DATABLOCK) (hM32 : c.MAX_BYTES_PER_DATABLOCK < 4294967296)
    (hsum : pos + n < 18446744073709551616)
    (hf : m.find fileHandle = some f) (hwf : WellFormedFile c m f content) :
    (1 ≤ n ∧ pos + n ≤ f.inode.size_b →
      ∃ m1, read c now m fileHandle pos n = some (true, m1, (content.drop pos).take n)) ∧
    (¬ (1 ≤ n ∧ pos + n ≤ f.inode.size_b) →
      read c now m fileHandle pos n = some (false, m, [])) := by
  obtain ⟨hlen, hs32, hcase⟩ := hwf
  constructor
  · rintro ⟨hn, hle⟩
    unfold read
    rw [if_neg (show ¬ n < 1 by omega), hf]
    simp only
    rw [if_neg (show ¬ (pos ≥ f.inode.size_b ∨
      (pos + n) % 18446744073709551616 > f.inode.size_b) by
        rw [Nat.mod_eq_of_lt hsum]; omega)]
    by_cases hin : f.inode.inlined = true
    · rw [if_pos hin] at hcase
      rw [if_pos hin]
      obtain ⟨hsz, hcont⟩ := hcase
      have hdl : f.inode.size_b ≤ f.inode.data.length := by
        have := congrArg List.length hcont
        rw [List.length_take] at this
        omega
      unfold FileINode.readInline
      rw [hin]
      simp only [Bool.not_true, Bool.false_eq_true, if_false]
      rw [if_neg (show ¬ (pos > c.MAX_BYTES_PER_INODE ∨
        (pos + n) % 18446744073709551616 > c.MAX_BYTES_PER_INODE) by
          rw [Nat.mod_eq_of_lt hsum]; omega), if_pos (show pos + n ≤ f.inode.data.length by omega)]
      refine ⟨m, ?_⟩
      simp only
      rw [hcont, List.drop_take, List.take_take, Nat.min_eq_left (by omega)]
    · rw [if_neg hin] at hcase
      rw [if_neg hin]
      obtain ⟨hb, hev⟩ := hcase
      obtain ⟨m1, f1, hl⟩ := readLoop_spec c now content (pos + n) hM hM32 (by omega) (by omega)
        n m f pos [] hb hev (by omega) (by omega)
      rw [Nat.mod_eq_of_lt (show pos + n < 4294967296 by omega), hl]
      refine ⟨m1.store fileHandle f1, ?_⟩
      simp only [List.nil_append, Nat.add_sub_cancel_left]
  · intro hno
    unfold read
    by_cases hn : n < 1
    · rw [if_pos hn]
    · rw [if_neg hn, hf]
      simp only
      rw [if_pos]
      rw [Nat.mod_eq_of_lt hsum]
      omega

theorem read_unknown (c : Constants) (now : Nat → Nat) (m : Mounted) (fileHandle pos n : Nat)
    (hf : m.find fileHandle = none) : read c now m fileHandle pos n = some (false, m, []) := by
  unfold read
  rw [hf]
  split <;> rfl

/-- The contract of `read(h, buf, pos, n)` where the cached block can be given up without
loss (`WellFormedFile`): with an unknown handle the call returns false. On an open handle
of a file that holds the bytes `content` (their number is `internalSize_b`), the call
returns true if `n >= 1` and `pos + n <= internalSize_b`, and then the buffer holds the `n`
bytes of `content` from `pos` on; in every other case it returns false and changes
nothing. The sum `pos + n` is a 64-bit sum that does not wrap. -/
theorem read_spec (c : Constants) (now : Nat → Nat) (m : Mounted) (fileHandle pos n : Nat)
    (hM : 0 < c.MAX_BYTES_PER_DATABLOCK) (hM32 : c.MAX_BYTES_PER_DATABLOCK < 4294967296)
    (hsum : pos + n < 18446744073709551616) :
    (m.find fileHandle = none → read c now m fileHandle pos n = some (false, m, [])) ∧
    ∀ f content, m.find fileHandle = some f → WellFormedFile c m f content →
      (1 ≤ n ∧ pos + n ≤ f.inode.size_b →
        ∃ m1, read c now m fileHandle pos n = some (true, m1, (content.drop pos).take n)) ∧
      (¬ (1 ≤ n ∧ pos + n ≤ f.inode.size_b) →
        read c now m fileHandle pos n = some (false, m, [])) :=
  ⟨read_unknown c now m fileHandle pos n,
    fun f content hf hwf => read_cases c now m fileHandle f content pos n hM hM32 hsum hf hwf⟩

/-- The file of `fileWritten` holds 4088 bytes of value 7 in its cached block. -/
theorem wellFormedFile_fileWritten :
    WellFormedFile demoConstants fileWritten (oneBlockFile 4088 (List.replicate 4088 7))
      (List.replicate 4088 7) := by
  refine ⟨by simp only [List.length_replicate]; rfl, by decide, ?_⟩
  rw [if_neg (by decide)]
  constructor
  · intro i hi
    simp only [List.length_replicate] at hi
    refine ⟨3, List.replicate 4088 7, ?_, by decide, rfl, ?_⟩
    · rw [show i / demoConstants.MAX_BYTES_PER_DATABLOCK = 0 from Nat.div_eq_of_lt hi]
      rfl
    · rw [show i % demoConstants.MAX_BYTES_PER_DATABLOCK = i from Nat.mod_eq_of_lt hi]
  · exact ⟨wf_switchedImage, by decide, by decide, by decide⟩

theorem read_spec_witness :
    ∃ m1, read demoConstants (clockFrom 30) fileWritten 2 10 5 =
      some (true, m1, ((List.replicate 4088 7).drop 10).take 5) :=
  ((read_spec demoConstants (clockFrom 30) fileWritten 2 10 5 (by decide) (by decide)
    (by decide)).2 (oneBlockFile 4088 (List.replicate 4088 7)) (List.replicate 4088 7) rfl
    wellFormedFile_fileWritten).1 ⟨by decide, by decide⟩

/-! ### Renaming into the own subtree -/

/-- C19 (amended): for every source path `s` and every remainder `t` such that `s` and
`s + "/" + t` are normalized paths (`normalizePath` leaves them as they are), `rename(s,
s + "/" + t)` returns false and changes nothing: a path cannot be moved into its own
subtree. -/
theorem rename_into_subtree (c : Constants) (pu : PathUtils) (uninitO uninitN uninitT : Nat)
    (now : Nat → Nat) (s : FS) (src t : List Char)
    (hs : pu.normalizePath src = src)
    (hd : pu.normalizePath (src ++ '/' :: t) = src ++ '/' :: t) :
    rename c pu uninitO uninitN uninitT now s src (src ++ '/' :: t) = some (false, s) := by
  unfold rename
  simp only [hs, hd]
  split
  · rfl
  · split
    · rfl
    · rw [if_pos ⟨List.prefix_append _ _, by simp⟩]

theorem rename_into_subtree_witness :
    rename demoConstants specPathUtils 0 0 0 (clockFrom 10) rootWithA ['/', 'a']
      (['/', 'a'] ++ '/' :: ['b']) = some (false, rootWithA) :=
  rename_into_subtree demoConstants specPathUtils 0 0 0 (clockFrom 10) rootWithA ['/', 'a'] ['b']
    (by decide) (by decide)

/-- C19 (counterexample): with the remainder "../b" the destination "/a/../b" is
normalized to "/b", which is not below "/a": `rename` moves the directory and returns
true. -/
theorem rename_dotdot_remainder :
    (rename demoConstants specPathUtils 0 0 0 (clockFrom 10) rootWithA ['/', 'a']
      (['/', 'a'] ++ '/' :: ['.', '.', '/', 'b'])).map Prod.fst = some true ∧
    (ls demoConstants specPathUtils 0 rootWithA ['/', 'b']).map Prod.fst = some false ∧
    ((rename demoConstants specPathUtils 0 0 0 (clockFrom 10) rootWithA ['/', 'a']
      (['/', 'a'] ++ '/' :: ['.', '.', '/', 'b'])).bind
        (fun r => ls demoConstants specPathUtils 0 r.2 ['/', 'b'])).map Prod.fst = some true := by
  decide

/-! ### Truncating across a DataBlockList boundary -/

theorem blocksForSize_mul (c : Constants) (n : Nat) (hM : 0 < c.MAX_BYTES_PER_DATABLOCK)
    (hn : n < 4294967296) : blocksForSize c (n * c.MAX_BYTES_PER_DATABLOCK) = n := by
  unfold blocksForSize
  rw [if_pos (Nat.mul_mod_left _ _), Nat.mul_div_cancel _ hM]
  omega

/-- C16 (divergence): `truncate` does not return for every open handle and smaller size.
For a non-inlined open file with a clean cache, three DataBlockLists and
`2 * MAX_DATABLOCKS_PER_DATABLOCKLIST + 2` data blocks, the truncate that removes the two
blocks of the third list first collects a pointer to that list in `changedBlocks`, then
deallocates (deletes) the emptied list, and then saves the collected blocks: the pointer
dangles and the call has no defined result. -/
theorem truncate_across_list_boundary (c : Constants) (now : Nat → Nat) (m : Mounted) (h : Nat)
    (f : OpenFile) (l0 l1 l2 : DataBlockList)
    (hf : m.find h = some f) (hni : f.inode.inlined = false)
    (hclean : f.cachedDataBlockIsDirty = false)
    (hL : 2 ≤ c.MAX_DATABLOCKS_PER_DATABLOCKLIST) (hM : 0 < c.MAX_BYTES_PER_DATABLOCK)
    (hnd : f.numberOfDataBlocks = 2 * c.MAX_DATABLOCKS_PER_DATABLOCKLIST + 2)
    (h32 : 2 * c.MAX_DATABLOCKS_PER_DATABLOCKLIST + 2 < 4294967296)
    (hbl : f.blockLists = [l0, l1, l2])
    (hsz : f.inode.size_b =
      (2 * c.MAX_DATABLOCKS_PER_DATABLOCKLIST + 2) * c.MAX_BYTES_PER_DATABLOCK)
    (hu : m.fs.usedBlocks + 1 ≤ m.fs.logSize) (hu32 : m.fs.usedBlocks + 1 < 4294967296)
    (hid : 2 ≤ l2.id ∧ l2.id ≤ m.fs.bmap.length) :
    truncate c now m h
      (2 * c.MAX_DATABLOCKS_PER_DATABLOCKLIST * c.MAX_BYTES_PER_DATABLOCK) = none := by
  have hlt : 2 * c.MAX_DATABLOCKS_PER_DATABLOCKLIST * c.MAX_BYTES_PER_DATABLOCK <
      f.inode.size_b := by
    rw [hsz]
    exact Nat.mul_lt_mul_of_pos_right (by omega) hM
  have hsub : sub32 (2 * c.MAX_DATABLOCKS_PER_DATABLOCKLIST + 2)
      (2 * c.MAX_DATABLOCKS_PER_DATABLOCKLIST) = 2 := by
    unfold sub32; omega
  have hfree : ∃ s1, freeBlock m.fs l2.id = some s1 := by
    unfold freeBlock
    rw [if_neg (by omega), if_neg (by omega), if_pos (by omega)]
    exact ⟨_, rfl⟩
  obtain ⟨s1, hs1⟩ := hfree
  have hmod1 : (2 * c.MAX_DATABLOCKS_PER_DATABLOCKLIST + 2 + 4294967295) % 4294967296 =
      2 * c.MAX_DATABLOCKS_PER_DATABLOCKLIST + 1 := by omega
  have hmod2 : (2 * c.MAX_DATABLOCKS_PER_DATABLOCKLIST + 1 + 4294967295) % 4294967296 =
      2 * c.MAX_DATABLOCKS_PER_DATABLOCKLIST := by omega
  have hr1 : (2 * c.MAX_DATABLOCKS_PER_DATABLOCKLIST + 1) % c.MAX_DATABLOCKS_PER_DATABLOCKLIST
      = 1 := by
    rw [Nat.add_comm, Nat.add_mul_mod_self_right, Nat.mod_eq_of_lt (by omega)]
  have hr2 : (2 * c.MAX_DATABLOCKS_PER_DATABLOCKLIST) % c.MAX_DATABLOCKS_PER_DATABLOCKLIST
      = 0 := Nat.mul_mod_left _ _
  unfold truncate
  rw [hf]
  simp only
  rw [if_neg (by omega), hsz, blocksForSize_mul c _ hM h32, blocksForSize_mul c _ hM (by omega),
    hsub]
  unfold saveCachedIfDirty
  unfold OpenFile.cachedDataBlockIsDirty at hclean
  have hrem : removeDataBlocks c now m f 2 = none := by
    unfold removeDataBlocks
    rw [Nat.mod_eq_of_lt hu32, if_neg (by omega), hnd, if_neg (by omega)]
    have hc1 : ¬ ((1 : Nat) = 0 ∧
        2 * c.MAX_DATABLOCKS_PER_DATABLOCKLIST + 1 > c.MAX_DATABLOCKS_PER_DATABLOCKLIST) := by
      omega
    have hc2 : 2 * c.MAX_DATABLOCKS_PER_DATABLOCKLIST > c.MAX_DATABLOCKS_PER_DATABLOCKLIST := by
      omega
    unfold removeDataBlockLoop OpenFile.removeDataBlock
    simp only [hni, hbl, hnd, hmod1, hr1, Bool.false_eq_true, if_false,
      List.getLast?_cons_cons, List.getLast?_singleton, if_neg hc1]
    unfold removeDataBlockLoop OpenFile.removeDataBlock
    simp only [hni, Bool.false_eq_true, if_false, hmod2, hr2, List.dropLast, List.cons_append,
      List.nil_append, List.getLast?_cons_cons, List.getLast?_singleton, hc2, and_self, if_true,
      show l2.popDataBlock.id = l2.id from rfl, hs1]
    simp [removeDataBlockLoop, addUnique, resolveFileRef, List.mapM.loop]
  cases hcb : f.cachedDataBlock with
  | none =>
    simp only
    rw [hrem]
  | some b =>
    rw [hcb] at hclean
    simp only at hclean
    simp only
    rw [if_neg (by rw [hclean]; decide)]
    simp only
    rw [hrem]

/-! ### The statements about open files at concrete inputs -/

theorem write_rejects_witness :
    write demoConstants noBytes (clockFrom 30) fileWritten 2 [9] 5000 1 =
      some (false, fileWritten) :=
  write_rejects demoConstants noBytes (clockFrom 30) fileWritten 2 [9] 5000 1 (by decide)
    (Or.inr (Or.inr ⟨oneBlockFile 4088 (List.replicate 4088 7), rfl, Or.inl (by decide)⟩))

theorem write_without_space_overwrites_witness :
    write demoConstants noBytes (clockFrom 30) fileWritten 2 [9] 4088 1 =
      some (true, fileWritten.store 2
        { oneBlockFile 4088 (List.replicate 4088 7) with
          cachedDataBlock :=
            some { (⟨3, 0, List.replicate 4088 7, true⟩ : DataBlock) with
              data := [9].take 1 ++ (List.replicate 4088 7).drop 1, dirty := true }
          inode := { (oneBlockFile 4088 (List.replicate 4088 7)).inode with
            size_b := 4088 + 1 } }) :=
  write_without_space_overwrites demoConstants noBytes (clockFrom 30) fileWritten 2
    (oneBlockFile 4088 (List.replicate 4088 7)) ⟨3, 0, List.replicate 4088 7, true⟩ [9] 4088 1
    rfl rfl rfl (by decide) (by decide) (by decide) (by decide) (by decide) (by decide)
    (by decide) (by decide) (by decide) (by decide)

theorem write_then_read_fails_witness :
    ∃ m1, write demoConstants noBytes (clockFrom 30) fileWritten 2
        (List.replicate 4088 7 ++ [9]) 0 (List.replicate 4088 7 ++ [9]).length =
          some (true, m1) ∧
      ∃ m2 buf, read demoConstants (clockFrom 40) m1 2 0
        (List.replicate 4088 7 ++ [9]).length = some (false, m2, buf) :=
  write_then_read_fails demoConstants noBytes (clockFrom 30) (clockFrom 40) fileWritten 2
    (oneBlockFile 4088 (List.replicate 4088 7)) ⟨3, 0, List.replicate 4088 7, true⟩
    (List.replicate 4088 7 ++ [9]) rfl rfl rfl (by decide) rfl wf_switchedImage
    ⟨by decide, by decide⟩ (by decide)
    (by simp only [List.length_append, List.length_replicate, List.length_singleton]; rfl)
    (by decide) (by decide) (by decide)

theorem write_truncate_read_differs_witness :
    ∃ m1 m2 m3 buf, write demoConstants noBytes (clockFrom 30) fileWritten 2
        (List.replicate 4088 7 ++ [9]) 0 (List.replicate 4088 7 ++ [9]).length =
          some (true, m1) ∧
      truncate demoConstants (clockFrom 40) m1 2 1 = some (true, m2) ∧
      read demoConstants (clockFrom 50) m2 2 0 1 = some (true, m3, buf) ∧ buf.length = 1 ∧
      buf[0]? = (List.replicate 4088 7 ++ [9])[demoConstants.MAX_BYTES_PER_DATABLOCK]? ∧
      buf ≠ (List.replicate 4088 7 ++ [9]).take 1 :=
  write_truncate_read_differs demoConstants noBytes (clockFrom 30) (clockFrom 40) (clockFrom 50)
    fileWritten 2 (oneBlockFile 4088 (List.replicate 4088 7)) ⟨3, 0, List.replicate 4088 7, true⟩
    (List.replicate 4088 7 ++ [9]) 1 rfl rfl rfl (by decide) rfl wf_switchedImage
    ⟨by decide, by decide⟩ (by decide) ⟨by decide, by decide⟩ (by decide) (by decide)
    (by simp only [List.length_append, List.length_replicate, List.length_singleton]; rfl)
    (by decide) (by decide) (by decide) (by decide) (by decide)
    (by
      rw [List.getElem?_append_left (by simp only [List.length_replicate]; decide),
        List.getElem?_append_right (by simp only [List.length_replicate]; decide)]
      simp only [List.length_replicate, List.getElem?_replicate]
      decide)

theorem truncate_across_list_boundary_witness :
    truncate demoConstants (clockFrom 10) bigFileOpened 2
      (2 * demoConstants.MAX_DATABLOCKS_PER_DATABLOCKLIST *
        demoConstants.MAX_BYTES_PER_DATABLOCK) = none :=
  truncate_across_list_boundary demoConstants (clockFrom 10) bigFileOpened 2 bigFile
    ⟨3, 0, List.range' 6 1022⟩ ⟨4, 0, List.range' 1028 1022⟩ ⟨5, 0, [2050, 2051]⟩
    rfl rfl rfl (by decide) (by decide) (by decide) (by decide) rfl (by decide) (by decide)
    (by decide)
    ⟨by decide, by
      show 5 ≤ (List.range' 1 2051 ++ List.replicate 45 0).length
      simp only [List.length_append, List.length_range', List.length_replicate]
      decide⟩

theorem inline_boundary_witness :
    write demoConstants noBytes (clockFrom 20) fileOpened 2 [7, 8, 9] 0 3 =
      some (true, fileOpened.store 2
        { emptyFile with inode := { emptyFile.inode with
            data := memcpyInto emptyFile.inode.data 0 ([7, 8, 9].take 3), size_b := 0 + 3 } }) ∧
    ∃ m1 f1 k1 k2 data,
      write demoConstants noBytes (clockFrom 20) fileOpened 2 (List.replicate 4077 7) 0 4077 =
        some (true, m1) ∧
      m1.find 2 = some f1 ∧ f1.inode.inlined = false ∧ f1.inode.size_b = 0 + 4077 ∧
      f1.inode.entries = [k2] ∧ f1.blockLists = [⟨k2, 0, [k1]⟩] ∧
      f1.numberOfDataBlocks = 1 ∧ f1.cachedDataBlock = some ⟨k1, 0, data, true⟩ ∧
      data.take (0 + 4077) = emptyFile.inode.data.take 0 ++ (List.replicate 4077 7).take 4077 ∧
      k1 ≠ k2 ∧ m1.fs.usedBlocks = fileOpened.fs.usedBlocks + 2 ∧ WellFormed m1.fs :=
  ⟨(inline_boundary demoConstants noBytes (clockFrom 20) fileOpened 2 emptyFile [7, 8, 9] 0 3
      rfl rfl (by decide) (by decide) (by decide) (by decide) (by decide) (by decide)
      (by decide) (by decide) (by decide) (by decide)).1 (by decide),
   (inline_boundary demoConstants noBytes (clockFrom 20) fileOpened 2 emptyFile
      (List.replicate 4077 7) 0 4077
      rfl rfl (by decide) (by decide) (by simp only [List.length_replicate]; decide)
      (by decide) (by decide) (by decide)
      (by decide) (by decide) (by decide) (by decide)).2 (by decide) rfl rfl rfl
      wf_sixSlotsFile (by decide) ⟨by decide, by decide⟩ (by decide)⟩

/-- C17 (counterexample): a write of one byte at position 1 to the empty inlined file of
`fileOpened` has `pos + n = 2 <= MAX_BYTES_PER_INODE`, but it returns false, since `pos`
is behind the end of the file. -/
theorem inline_write_behind_end :
    fileOpened.find 2 = some emptyFile ∧ emptyFile.inode.inlined = true ∧
    1 + 1 ≤ demoConstants.MAX_BYTES_PER_INODE ∧
    write demoConstants noBytes (clockFrom 20) fileOpened 2 [7] 1 1 =
      some (false, fileOpened) := by
  decide

theorem full_directory_rejects_child_witness :
    mkdir demoConstants specPathUtils 129411 (clockFrom 10) externalRoot ['/', 'b'] =
      some (false, externalRoot) ∧
    touch demoConstants specPathUtils 129411 (clockFrom 10) externalRoot ['/', 'b'] =
      some (false, externalRoot) ∧
    ∀ targetPath, link demoConstants specPathUtils 129411 (clockFrom 10) externalRoot
      ['/', 'b'] targetPath = some (false, externalRoot) :=
  have h := full_directory_rejects_child demoConstants specPathUtils 129411 (clockFrom 10)
    externalRoot ['/', 'b']
    ⟨⟨⟨1, 0, 0, 0, 1, false, 2⟩, [], [2]⟩, 129413, [⟨2, 0, [⟨['.'], 1⟩, ⟨['.', '.'], 1⟩]⟩]⟩
    (by decide) (by decide)
  ⟨h.1, h.2.1, h.2.2.1⟩

/-! ### Removing a file -/

/-- The loop over `freeBlock` for ids from 2 on inside the block map: every entry of the
ids is 0 afterwards, the other entries are as before, `usedBlocks` has dropped by the
number of ids. -/
theorem freeBlocks_spec (ids : List Nat) : ∀ (s : FS),
    (∀ id, id ∈ ids → 2 ≤ id ∧ id ≤ s.bmap.length) → ids.length ≤ s.usedBlocks →
    s.usedBlocks < 4294967296 →
    ∃ s', freeBlocks s ids = some s' ∧ s'.log = s.log ∧ s'.logSize = s.logSize ∧
      s'.bmap.length = s.bmap.length ∧ s'.usedBlocks + ids.length = s.usedBlocks ∧
      (∀ id, id ∈ ids → s'.bmap[id - 1]? = some 0) ∧
      (∀ k, k + 1 ∉ ids → s'.bmap[k]? = s.bmap[k]?) := by
  induction ids with
  | nil =>
    intro s _ _ _
    exact ⟨s, rfl, rfl, rfl, rfl, rfl, fun _ h => absurd h (List.not_mem_nil _), fun _ _ => rfl⟩
  | cons id rest ih =>
    intro s hr hlen h32
    obtain ⟨h2, hle⟩ := hr id (List.mem_cons_self _ _)
    simp only [List.length_cons] at hlen
    have hfb : freeBlock s id = some { s with
        bmap := s.bmap.set (id - 1) 0, usedBlocks := s.usedBlocks - 1 } := by
      unfold freeBlock
      rw [if_neg (by omega), if_neg (by omega), if_pos (by omega)]
      have : (s.usedBlocks + 4294967295) % 4294967296 = s.usedBlocks - 1 := by omega
      rw [this]
    obtain ⟨s', hs', hlog, hls, hbl, hub, hz, hfr⟩ := ih
      { s with bmap := s.bmap.set (id - 1) 0, usedBlocks := s.usedBlocks - 1 }
      (fun i hi => by
        have := hr i (List.mem_cons_of_mem _ hi)
        simp only [List.length_set]
        exact this)
      (by show rest.length ≤ s.usedBlocks - 1; omega)
      (by show s.usedBlocks - 1 < 4294967296; omega)
    simp only [List.length_set] at hbl
    refine ⟨s', ?_, hlog, hls, hbl, ?_, ?_, ?_⟩
    · unfold freeBlocks
      rw [hfb]
      exact hs'
    · have hub1 : s'.usedBlocks + rest.length = s.usedBlocks - 1 := hub
      simp only [List.length_cons]
      omega
    · intro i hi
      by_cases hir : i ∈ rest
      · exact hz i hir
      · have hie : i = id := by
          rcases List.mem_cons.mp hi with h | h
          · exact h
          · exact absurd h hir
        subst hie
        have := hfr (i - 1) (by
          rw [show i - 1 + 1 = i by omega]
          exact hir)
        rw [this]
        show (s.bmap.set (i - 1) 0)[i - 1]? = some 0
        rw [List.getElem?_set_self (by omega)]
    · intro k hk
      have hk1 : k + 1 ∉ rest := fun h => hk (List.mem_cons_of_mem _ h)
      have hk2 : k ≠ id - 1 := by
        intro h
        apply hk
        rw [h, show id - 1 + 1 = id by omega]
        exact List.mem_cons_self _ _
      rw [hfr k hk1]
      show (s.bmap.set (id - 1) 0)[k]? = s.bmap[k]?
      rw [List.getElem?_set_ne (by omega)]

/-- Two saves of blocks that are live already, on a well-formed image with two free
slots. -/
theorem saveBlocks_two_live (now : Nat → Nat) (s : FS) (b1 b2 : Block) (hwf : WellFormed s)
    (hu : s.usedBlocks + 2 ≤ s.logSize) (h1 : 1 ≤ b1.id ∧ b1.id ≤ s.logSize)
    (h2 : 1 ≤ b2.id ∧ b2.id ≤ s.logSize) (hne : b1.id ≠ b2.id)
    (hl1 : s.bmap[b1.id - 1]? ≠ some 0) (hl2 : s.bmap[b2.id - 1]? ≠ some 0) :
    ∃ s2, saveBlocks now s [b1, b2] 0 = some s2 ∧ WellFormed s2 ∧ s2.logSize = s.logSize ∧
      s2.usedBlocks = s.usedBlocks ∧ s2.bmap.length = s.bmap.length ∧
      fetchBlock s2 b1.id = some (some { b1 with lastWriteTime := now 0 }) ∧
      fetchBlock s2 b2.id = some (some { b2 with lastWriteTime := now 1 }) ∧
      (∀ id, id ≠ b1.id → id ≠ b2.id → fetchBlock s2 id = fetchBlock s id) ∧
      (∀ k : Nat, s.bmap[k]? ≠ some 0 → s2.bmap[k]? ≠ some 0) := by
  obtain ⟨sa, p, hs1, hwfa, hla, -, hba, hp, hua, hfa, hoa⟩ :=
    saveBlock_wf s b1 (now 0) hwf hu h1
  rw [if_neg hl1] at hua
  have hl2a : sa.bmap[b2.id - 1]? ≠ some 0 := by
    rw [hba, List.getElem?_set_ne (by omega)]; exact hl2
  obtain ⟨sb, q, hs2, hwfb, hlb, -, hbb, hq, hub, hfb, hob⟩ :=
    saveBlock_wf sa b2 (now 1) hwfa (by omega) (by omega)
  rw [if_neg hl2a] at hub
  refine ⟨sb, ?_, hwfb, by omega, by omega, ?_, ?_, hfb, ?_, ?_⟩
  · rw [saveBlocks_two, hs1]
    exact hs2
  · rw [hbb, hba]
    simp only [List.length_set]
  · rw [hob b1.id hne]
    exact hfa
  · intro id n1 n2
    rw [hob id n2, hoa id n1]
  · intro k hk
    rw [hbb, hba]
    intro hcon
    by_cases hk2 : k = b2.id - 1
    · subst hk2
      by_cases hlt : b2.id - 1 < s.bmap.length
      · rw [List.getElem?_set_self (by simp only [List.length_set]; exact hlt)] at hcon
        exact hq (Option.some.inj hcon)
      · rw [List.getElem?_eq_none (by simp only [List.length_set]; omega)] at hcon
        cases hcon
    · rw [List.getElem?_set_ne (by omega)] at hcon
      by_cases hk1 : k = b1.id - 1
      · subst hk1
        by_cases hlt : b1.id - 1 < s.bmap.length
        · rw [List.getElem?_set_self hlt] at hcon
          exact hp (Option.some.inj hcon)
        · rw [List.getElem?_eq_none (by simp only [List.length_set]; omega)] at hcon
          cases hcon
      · rw [List.getElem?_set_ne (by omega)] at hcon
        exact hk hcon

/-- The two ways in which `loadFile` yields a file. -/
theorem loadFile_inv (c : Constants) (s : FS) (id : Nat) (f : File)
    (h : loadFile c s id = some (some f)) :
    ∃ lwt ct sz lc, (∃ l, fetchBlock s id = some (some ⟨id, lwt, .inode ct sz
          INODE_TYPE_REGULARFILE true lc (.bytes l)⟩) ∧
        sz ≤ c.MAX_BYTES_PER_INODE ∧ sz ≤ l.length ∧
        f = ⟨⟨⟨id, lwt, ct, sz, INODE_TYPE_REGULARFILE, true, lc⟩, l.take sz, []⟩, [], 0⟩) ∨
      (∃ l lists, fetchBlock s id = some (some ⟨id, lwt, .inode ct sz
          INODE_TYPE_REGULARFILE false lc (.ids l)⟩) ∧
        loadDataBlockLists c s ((List.range (ceilDivFloat
          (ceilDivFloat sz c.MAX_BYTES_PER_DATABLOCK) c.MAX_DATABLOCKS_PER_DATABLOCKLIST)).map
            (fun i => (readIdsNoGaps c.MAX_DATABLOCKLISTS_PER_FILE l).getD i 0)) =
          some (some lists) ∧
        f = ⟨⟨⟨id, lwt, ct, sz, INODE_TYPE_REGULARFILE, false, lc⟩, [],
              readIdsNoGaps c.MAX_DATABLOCKLISTS_PER_FILE l⟩, lists,
             ceilDivFloat sz c.MAX_BYTES_PER_DATABLOCK⟩) := by
  unfold loadFile at h
  split at h
  · cases h
  · cases h
  · rename_i b hf
    split at h
    · cases h
    · rename_i hid
      simp only [ne_eq, not_not] at hid
      split at h
      · rename_i ct sz ty il lc pl hbody
        split at h
        · cases h
        · rename_i hty
          simp only [ne_eq, not_not] at hty
          obtain ⟨bid, lwt, body⟩ := b
          simp only at hid hbody
          subst hid hbody hty
          refine ⟨lwt, ct, sz, lc, ?_⟩
          split at h
          · rename_i l
            split at h
            · rename_i hsz
              simp only [Option.some.injEq] at h
              exact Or.inl ⟨l, hf, hsz.1, hsz.2, h.symm⟩
            · cases h
          · rename_i l
            dsimp only at h
            split at h
            · cases h
            · cases h
            · rename_i lists hl
              simp only [Option.some.injEq] at h
              exact Or.inr ⟨l, lists, hf, hl, h.symm⟩
          · cases h
      · cases h

theorem readIdsNoGaps_idem (n : Nat) (l : List Nat) :
    readIdsNoGaps n (readIdsNoGaps n l) = readIdsNoGaps n l := by
  unfold readIdsNoGaps
  have hlen : ((l.take n).takeWhile (fun i => decide (i ≠ 0))).length ≤ n := by
    refine (List.Sublist.length_le (List.takeWhile_sublist _)).trans ?_
    rw [List.length_take]
    omega
  rw [List.take_of_length_le hlen, List.takeWhile_idem]

/-- A slot that holds an INode is not loaded as a DataBlockList. -/
theorem loadDataBlockList_inode (c : Constants) (s : FS) (id lwt ct sz ty lc : Nat) (il : Bool)
    (pl : Payload) (h : fetchBlock s id = some (some ⟨id, lwt, .inode ct sz ty il lc pl⟩)) :
    loadDataBlockList c s id = none := by
  unfold loadDataBlockList
  rw [h]
  simp

/-- The fetch of a block looks at its block map entry and at the log only. -/
theorem fetchBlock_entry_congr (s t : FS) (id : Nat) (h1 : t.log = s.log)
    (h2 : t.logSize = s.logSize) (h3 : t.bmap[id - 1]? = s.bmap[id - 1]?) :
    fetchBlock t id = fetchBlock s id := by
  unfold fetchBlock lookupBlockAddress readSlot
  rw [h1, h2, h3]

theorem removeLink_mem (es : List Hardlink) (name : List Char) (h : Hardlink)
    (hm : h ∈ removeLink es name) : h ∈ es := by
  induction es with
  | nil => exact hm
  | cons a t ih =>
    unfold removeLink at hm
    by_cases ha : a.linkName = name
    · rw [if_pos ha] at hm
      exact List.mem_cons_of_mem _ hm
    · rw [if_neg ha] at hm
      rcases List.mem_cons.mp hm with h1 | h1
      · rw [h1]; exact List.mem_cons_self _ _
      · exact List.mem_cons_of_mem _ (ih h1)

theorem removeLink_length_le (es : List Hardlink) (name : List Char) :
    (removeLink es name).length ≤ es.length := by
  induction es with
  | nil => exact Nat.le_refl _
  | cons a t ih =>
    unfold removeLink
    by_cases ha : a.linkName = name
    · rw [if_pos ha]; simp
    · rw [if_neg ha]; simp only [List.length_cons]; omega

/-- Removing the first entry with a name leaves the entries of every other name. -/
theorem findLink_removeLink_ne (es : List Hardlink) (name other : List Char)
    (hne : other ≠ name) : findLink (removeLink es name) other = findLink es other := by
  induction es with
  | nil => rfl
  | cons a t ih =>
    unfold removeLink
    by_cases ha : a.linkName = name
    · rw [if_pos ha]
      unfold findLink
      rw [List.find?_cons]
      have : ¬ a.linkName = other := by rw [ha]; exact fun h => hne h.symm
      simp only [this, decide_False]
    · rw [if_neg ha]
      unfold findLink at ih ⊢
      rw [List.find?_cons, List.find?_cons, ih]

/-- Loading a file again after its INode was saved with another link counter. -/
theorem loadFile_resave (c : Constants) (s s1 : FS) (fid k t : Nat) (file : File)
    (h : loadFile c s fid = some (some file))
    (hf : fetchBlock s1 fid = some (some
      { ({ file.inode with linkCounter := k } : FileINode).toBlock with lastWriteTime := t }))
    (hl : ∀ id, loadDataBlockList c s1 id = loadDataBlockList c s id) :
    loadFile c s1 fid = some (some
      { file with inode := { file.inode with linkCounter := k, lastWriteTime := t } }) := by
  obtain ⟨lwt, ct, sz, lc, h1 | h1⟩ := loadFile_inv c s fid file h
  · obtain ⟨l, -, hsz1, hsz2, rfl⟩ := h1
    have hf1 : fetchBlock s1 fid = some (some ⟨fid, t, .inode ct sz INODE_TYPE_REGULARFILE
        true k (.bytes ((l.take sz).take sz))⟩) := hf
    unfold loadFile
    rw [hf1]
    dsimp only
    rw [if_neg (by simp), if_neg (by simp), if_pos ⟨hsz1, by
      rw [List.length_take, List.length_take]; omega⟩]
    simp only [List.take_take, Nat.min_self]
  · obtain ⟨l, lists, -, hll, rfl⟩ := h1
    have hf1 : fetchBlock s1 fid = some (some ⟨fid, t, .inode ct sz INODE_TYPE_REGULARFILE
        false k (.ids (readIdsNoGaps c.MAX_DATABLOCKLISTS_PER_FILE l))⟩) := hf
    unfold loadFile
    rw [hf1]
    dsimp only
    rw [if_neg (by simp), if_neg (by simp), readIdsNoGaps_idem,
      loadDataBlockLists_congr c s s1 hl, hll]

theorem peekINodeType_zero (s : FS) : peekINodeType s 0 = some 0 := by
  unfold peekINodeType
  rw [if_pos rfl]

/-- The course of `FS::rm` on a regular file below an inlined parent, up to the saves of
the two INodes: `s2` is the image after them. -/
theorem rm_eq (c : Constants) (pu : PathUtils) (uninit : Nat) (now : Nat → Nat) (s : FS)
    (path name : List Char) (parent : Directory) (file : File) (fid : Nat)
    (hwf : WellFormed s) (hu : s.usedBlocks + 2 ≤ s.logSize)
    (hhead : (pu.normalizePath path).head? = some '/')
    (hsp : searchParent c pu uninit s (pu.normalizePath path) = some (some parent))
    (hin : parent.inode.inlined = true)
    (hnm : pu.lastName (pu.normalizePath path) = name)
    (hfid : parent.searchHardlink name = fid)
    (hty : peekINodeType s fid = some INODE_TYPE_REGULARFILE)
    (hfile : loadFile c s fid = some (some file)) :
    ∃ s2, rm c pu uninit now s path =
        (if (file.inode.linkCounter + 65535) % 65536 = 0 then
          (freeBlocks s2 file.blocks).map (fun s3 => (true, s3))
         else some (true, s2)) ∧
      WellFormed s2 ∧ s2.logSize = s.logSize ∧ s2.usedBlocks = s.usedBlocks ∧
      s2.bmap.length = s.bmap.length ∧
      fetchBlock s2 fid = some (some
        { ({ file.inode with linkCounter := (file.inode.linkCounter + 65535) % 65536 } :
            FileINode).toBlock with lastWriteTime := now 0 }) ∧
      (∀ s3 u, fetchBlock s3 parent.inode.id = fetchBlock s2 parent.inode.id →
        loadDirectory c u s3 parent.inode.id =
          some (some (parent.withoutLink name (now 1)))) ∧
      (∀ id, id ≠ fid → id ≠ parent.inode.id → fetchBlock s2 id = fetchBlock s id) ∧
      (∀ k : Nat, s.bmap[k]? ≠ some 0 → s2.bmap[k]? ≠ some 0) ∧
      fid ≠ parent.inode.id ∧ file.inode.id = fid ∧
      (∀ id, loadDataBlockList c s2 id = loadDataBlockList c s id) := by
  have hfid0 : ¬ fid = 0 := by
    intro h
    rw [h, peekINodeType_zero] at hty
    cases hty
  have hname : ¬ (name = [] ∨ '/' ∈ name) := by
    intro h
    apply hfid0
    rw [← hfid]
    unfold Directory.searchHardlink
    rw [if_pos h]
  have hload := searchParent_loaded c pu uninit s _ parent hsp
  obtain ⟨hP1, hP2, hPlive⟩ := loadDirectory_live c uninit s _ parent hload
  obtain ⟨P, hP⟩ : ∃ P, parent.inode.id = P := ⟨_, rfl⟩
  rw [hP] at hload hP1 hP2 hPlive
  obtain ⟨lwt, ct, sz, lc, h1 | h1⟩ := loadDirectory_inv c uninit s P parent hload
  swap
  · obtain ⟨l, lists, -, -, rfl⟩ := h1
    cases hin
  obtain ⟨l, hbP, rfl⟩ := h1
  generalize hes : readLinks c.MAX_LINKS_PER_DIRENTRYLIST l = es at *
  have hesok : ∀ h, h ∈ es → h.targetINodeBlockID ≠ 0 ∧ storedName h.linkName = h.linkName := by
    intro h hh
    rw [← hes] at hh
    exact readLinks_mem _ _ h hh
  have heslen : es.length ≤ c.MAX_LINKS_PER_DIRENTRYLIST := by
    rw [← hes]
    exact readLinks_length_le _ _
  -- the file
  obtain ⟨flwt, fct, fsz, flc, fil, fdata, fentries, fpl, flists, fn, hfb, hfeq⟩ :
      ∃ flwt fct fsz flc fil fdata fentries fpl flists fn,
        fetchBlock s fid = some (some ⟨fid, flwt,
          .inode fct fsz INODE_TYPE_REGULARFILE fil flc fpl⟩) ∧
        file = ⟨⟨⟨fid, flwt, fct, fsz, INODE_TYPE_REGULARFILE, fil, flc⟩, fdata, fentries⟩,
          flists, fn⟩ := by
    obtain ⟨flwt, fct, fsz, flc, h1 | h1⟩ := loadFile_inv c s fid file hfile
    · obtain ⟨l, h1, -, -, h2⟩ := h1
      exact ⟨flwt, fct, fsz, flc, _, _, _, _, _, _, h1, h2⟩
    · obtain ⟨l, lists, h1, -, h2⟩ := h1
      exact ⟨flwt, fct, fsz, flc, _, _, _, _, _, _, h1, h2⟩
  obtain ⟨hF1, hF2, hFlive, -⟩ := fetchBlock_some s fid _ hfb
  have hne : fid ≠ P := by
    rintro rfl
    rw [hbP] at hfb
    cases hfb
  subst hfeq
  obtain ⟨s2, hsv, hwf2, hl2, hu2, hbl2, hf1, hf2, hfo, hlv⟩ := saveBlocks_two_live now s
    ({ (⟨⟨fid, flwt, fct, fsz, INODE_TYPE_REGULARFILE, fil, flc⟩, fdata, fentries⟩ : FileINode)
        with linkCounter := (flc + 65535) % 65536 } : FileINode).toBlock
    (⟨⟨P, lwt, ct, sz, INODE_TYPE_DIR, true, lc⟩, removeLink es name, []⟩ :
      DirectoryINode).toBlock
    hwf hu ⟨hF1, hF2⟩ ⟨hP1, hP2⟩ hne hFlive hPlive
  refine ⟨s2, ?_, hwf2, hl2, hu2, hbl2, hf1, ?_, ?_, hlv, hne, rfl, ?_⟩
  · obtain ⟨-, hL, -⟩ := hwf
    have hguard : ¬ ((s.usedBlocks + 2) % 4294967296 > s.logSize) := by omega
    have hrm := rmHardlink_inline s
      (⟨⟨⟨P, lwt, ct, sz, INODE_TYPE_DIR, true, lc⟩, es, []⟩, es.length, []⟩ : Directory)
      (⟨fid, flwt, fct, fsz, INODE_TYPE_REGULARFILE, fil, flc⟩ : INode) name hname rfl
    unfold rm
    simp only [hhead, ne_eq, not_true_eq_false, if_false, hguard, hsp, hnm, hfid, hfid0, hty,
      hfile, hrm, resolveRefs_target_primary]
    simp only [decrementLinkCounter]
    rw [show saveBlocks now s _ 0 = some s2 from hsv]
    simp only
    by_cases h0 : (flc + 65535) % 65536 = 0
    · rw [if_pos h0, if_pos h0]
      simp only [File.blocks]
      cases freeBlocks s2 (fid :: if fil = true then []
        else (flists.map (fun l => l.id :: l.entries)).flatten) <;> rfl
    · rw [if_neg h0, if_neg h0]
  · intro s3 u h3
    have := loadDirectory_inline c u s3 P (now 1) ct sz lc (writeLinks (removeLink es name))
      (h3.trans hf2)
    rw [this, readLinks_writeLinks _ _ ((removeLink_length_le es name).trans heslen)
      (fun h hh => hesok h (removeLink_mem es name h hh))]
    rfl
  · intro id n1 n2
    exact hfo id n1 n2
  · intro id
    by_cases h1 : id = fid
    · subst h1
      rw [loadDataBlockList_inode c s2 id _ _ _ _ _ _ _ hf1,
        loadDataBlockList_inode c s id _ _ _ _ _ _ _ hfb]
    · by_cases h2 : id = P
      · subst h2
        rw [loadDataBlockList_inode c s2 id _ _ _ _ _ _ _ hf2,
          loadDataBlockList_inode c s id _ _ _ _ _ _ _ hbP]
      · unfold loadDataBlockList
        rw [hfo id h1 h2]

theorem wf_twoNames : WellFormed twoNames := by decide

/-- C20 (counterexample): on `fiveOfSix`, where fewer than two blocks are free, `rm("/g")`
of the regular file "g" returns false and removes nothing; on `twoListRoot`, whose root
directory is stored in entry lists, `rm("/f")` of the file with the one block 4 empties
the second entry list, and `Directory::rmHardlink` then reads the id of the list object
that it has deleted: the call has no defined result. -/
theorem rm_guard_and_entry_list :
    peekINodeType fiveOfSix 3 = some INODE_TYPE_REGULARFILE ∧
    rm demoConstants specPathUtils 0 (clockFrom 30) fiveOfSix ['/', 'g'] =
      some (false, fiveOfSix) ∧
    (loadFile demoConstants twoListRoot 4).map (Option.map File.blocks) = some (some [4]) ∧
    twoListRoot.usedBlocks = 4 ∧
    rm demoConstants specPathUtils 0 (clockFrom 30) twoListRoot ['/', 'f'] = none := by
  decide

/-! ### Reading on a full log -/

/-- On a full log `saveBlock` returns without saving: `gc` yields 0. -/
theorem saveBlock_full (s : FS) (b : Block) (t : Nat) (h : s.usedBlocks = s.logSize) :
    saveBlock s b t = some s := by
  unfold saveBlock gc
  rw [if_pos h]
  rfl

/-- Loading another data block while the cached block is dirty and the log is full: the
dirty block is released and not saved. -/
theorem cacheDataBlock_full (now : Nat → Nat) (m : Mounted) (f : OpenFile) (b B : DataBlock)
    (id : Nat) (hc : f.cachedDataBlock = some b) (hd : b.dirty = true) (hne : b.id ≠ id)
    (hfull : m.fs.usedBlocks = m.fs.logSize) (hl : loadDataBlock m.fs id = some (some B)) :
    cacheDataBlock now m f id =
      some ({ m with clock := m.clock + 1 }, f.withCache (some B)) := by
  unfold cacheDataBlock
  rw [if_pos (by unfold OpenFile.getCachedDataBlockID; rw [hc]; exact hne),
    saveCachedIfDirty_dirty now m f b m.fs hc hd (saveBlock_full _ _ _ hfull)]
  simp only [hl]
  rfl

/-- Loading another data block while the cached block is clean. -/
theorem cacheDataBlock_clean (now : Nat → Nat) (m : Mounted) (f : OpenFile) (b B : DataBlock)
    (id : Nat) (hc : f.cachedDataBlock = some b) (hd : b.dirty = false) (hne : b.id ≠ id)
    (hl : loadDataBlock m.fs id = some (some B)) :
    cacheDataBlock now m f id = some (m, f.withCache (some B)) := by
  unfold cacheDataBlock
  rw [if_pos (by unfold OpenFile.getCachedDataBlockID; rw [hc]; exact hne),
    saveCachedIfDirty_clean now m f (by unfold OpenFile.cachedDataBlockIsDirty; rw [hc]; exact hd)]
  simp only [hl]
  rfl

/-- The result of `FS::read` on a non-inlined file from the result of its loop. -/
theorem read_of_loop (c : Constants) (now : Nat → Nat) (m : Mounted) (h : Nat) (f : OpenFile)
    (pos n : Nat) (ok : Bool) (m1 : Mounted) (f1 : OpenFile) (target : List Nat)
    (hf : m.find h = some f) (hni : f.inode.inlined = false) (hn : 1 ≤ n)
    (hp : pos + n ≤ f.inode.size_b) (h32 : pos + n < 4294967296)
    (hl : readLoop c now (pos + n) n m f pos [] = some (ok, m1, f1, target)) :
    read c now m h pos n = some (ok, m1.store h f1, target) := by
  unfold read
  rw [if_neg (by omega), hf]
  simp only
  rw [if_neg (by
    rw [Nat.mod_eq_of_lt (by omega)]
    omega), if_neg (by rw [hni]; simp), Nat.mod_eq_of_lt h32, hl]

/-- C13 (divergence): `read` does not always return the bytes of a well-formed file. For
a non-inlined open file of `MAX_BYTES_PER_DATABLOCK + 1` bytes with two data blocks, the
second one cached and dirty, on a full log (`usedBlocks = logSize`): `read` of the last
byte alone returns the byte of the cached block, but `read` of the whole file releases the
dirty block without saving it (`saveBlock` returns when `gc` yields 0), loads the first
block and then the copy of the second block on the device, and returns true with the
byte of that copy as the last byte. -/
theorem read_stale_on_full_log (c : Constants) (now now2 : Nat → Nat) (m : Mounted) (h : Nat)
    (f : OpenFile) (b : DataBlock) (id0 t0 t1 : Nat) (d0 d1 : List Nat)
    (hf : m.find h = some f) (hni : f.inode.inlined = false)
    (hsz : f.inode.size_b = c.MAX_BYTES_PER_DATABLOCK + 1)
    (hid0 : f.getDataBlockID c 0 = some id0) (hid1 : f.getDataBlockID c 1 = some b.id)
    (hne : b.id ≠ id0) (hc : f.cachedDataBlock = some b) (hd : b.dirty = true)
    (hfull : m.fs.usedBlocks = m.fs.logSize)
    (hl0 : loadDataBlock m.fs id0 = some (some ⟨id0, t0, d0, false⟩))
    (hl1 : loadDataBlock m.fs b.id = some (some ⟨b.id, t1, d1, false⟩))
    (hd0 : c.MAX_BYTES_PER_DATABLOCK ≤ d0.length) (hd1 : 1 ≤ d1.length)
    (hb : 1 ≤ b.data.length)
    (hM : 1 ≤ c.MAX_BYTES_PER_DATABLOCK) (hM32 : c.MAX_BYTES_PER_DATABLOCK + 1 < 4294967296)
    (hdiff : b.data[0]? ≠ d1[0]?) :
    ∃ m1 m2 buf, read c now m h c.MAX_BYTES_PER_DATABLOCK 1 = some (true, m1, b.data.take 1) ∧
      read c now2 m h 0 (c.MAX_BYTES_PER_DATABLOCK + 1) = some (true, m2, buf) ∧
      buf.length = c.MAX_BYTES_PER_DATABLOCK + 1 ∧
      buf[c.MAX_BYTES_PER_DATABLOCK]? = d1[0]? ∧
      buf[c.MAX_BYTES_PER_DATABLOCK]? ≠ b.data[0]? := by
  have hdiv1 : c.MAX_BYTES_PER_DATABLOCK / c.MAX_BYTES_PER_DATABLOCK = 1 := Nat.div_self hM
  have hbs1 : blockStart c c.MAX_BYTES_PER_DATABLOCK = 0 := by
    rw [blockStart_eq c _ (by omega), Nat.mod_self]
  have hbs0 : blockStart c 0 = 0 := by
    rw [blockStart_eq c _ (by omega), Nat.zero_mod]
  have hbb1 : blockBytes c (c.MAX_BYTES_PER_DATABLOCK + 1) c.MAX_BYTES_PER_DATABLOCK = 1 := by
    rw [blockBytes_eq c _ _ hM (by omega) (by omega) hM32, Nat.mod_self]
    omega
  have hbb0 : blockBytes c (c.MAX_BYTES_PER_DATABLOCK + 1) 0 = c.MAX_BYTES_PER_DATABLOCK := by
    rw [blockBytes_eq c _ _ hM (by omega) (by omega) hM32, Nat.zero_mod]
    omega
  -- the read of the last byte
  have hr1 : readLoop c now (c.MAX_BYTES_PER_DATABLOCK + 1) 1 m f c.MAX_BYTES_PER_DATABLOCK [] =
      some (true, m, f, b.data.take 1) := by
    rw [readLoop_step c now _ 1 0 m m f f c.MAX_BYTES_PER_DATABLOCK b.id [] (b.data.take 1) b rfl
      (by omega) (by rw [hdiv1]; exact hid1) (cacheDataBlock_hit now m f b hc) hc
      (by rw [hbs1, hbb1]; exact DataBlock.read_eq c b 0 1 (by omega) (by omega)),
      hbb1, Nat.mod_eq_of_lt hM32, readLoop_done c now _ 0 m f _ _ (by omega)]
    rfl
  -- the read of the whole file
  have hc1 : (f.withCache (some ⟨id0, t0, d0, false⟩)).cachedDataBlock =
      some ⟨id0, t0, d0, false⟩ := rfl
  have hid1' : (f.withCache (some ⟨id0, t0, d0, false⟩)).getDataBlockID c 1 = some b.id := by
    exact (getDataBlockID_congr c f _ 1 rfl rfl rfl).trans hid1
  have hr2 : readLoop c now2 (c.MAX_BYTES_PER_DATABLOCK + 1) (c.MAX_BYTES_PER_DATABLOCK + 1) m f
      0 [] = some (true, { m with clock := m.clock + 1 },
        f.withCache (some ⟨b.id, t1, d1, false⟩),
        d0.take c.MAX_BYTES_PER_DATABLOCK ++ d1.take 1) := by
    rw [readLoop_step c now2 _ _ c.MAX_BYTES_PER_DATABLOCK m { m with clock := m.clock + 1 } f
      (f.withCache (some ⟨id0, t0, d0, false⟩)) 0 id0 [] (d0.take c.MAX_BYTES_PER_DATABLOCK)
      ⟨id0, t0, d0, false⟩ rfl (by omega) (by rw [Nat.zero_div]; exact hid0)
      (cacheDataBlock_full now2 m f b _ id0 hc hd hne hfull hl0) hc1
      (by rw [hbs0, hbb0]; exact DataBlock.read_eq c _ 0 _ (by omega) (by simpa using hd0)),
      hbb0, Nat.zero_add, Nat.mod_eq_of_lt (by omega)]
    obtain ⟨k, hk⟩ : ∃ k, c.MAX_BYTES_PER_DATABLOCK = k + 1 :=
      ⟨c.MAX_BYTES_PER_DATABLOCK - 1, by omega⟩
    rw [readLoop_step c now2 (c.MAX_BYTES_PER_DATABLOCK + 1) c.MAX_BYTES_PER_DATABLOCK k
      { m with clock := m.clock + 1 }
      { m with clock := m.clock + 1 } (f.withCache (some ⟨id0, t0, d0, false⟩))
      ((f.withCache (some ⟨id0, t0, d0, false⟩)).withCache (some ⟨b.id, t1, d1, false⟩))
      c.MAX_BYTES_PER_DATABLOCK b.id _ (d1.take 1) ⟨b.id, t1, d1, false⟩ hk
      (by omega) (by rw [hdiv1]; exact hid1')
      (cacheDataBlock_clean now2 _ _ ⟨id0, t0, d0, false⟩ _ b.id hc1 rfl (Ne.symm hne) hl1) rfl
      (by rw [hbs1, hbb1]; exact DataBlock.read_eq c _ 0 1 (by omega) (by simpa using hd1)),
      hbb1, Nat.mod_eq_of_lt hM32, readLoop_done c now2 _ k _ _ _ _ (by omega)]
    rfl
  refine ⟨m.store h f,
    Mounted.store { m with clock := m.clock + 1 } h
      (f.withCache (some ⟨b.id, t1, d1, false⟩)),
    d0.take c.MAX_BYTES_PER_DATABLOCK ++ d1.take 1, ?_, ?_, ?_, ?_, ?_⟩
  · exact read_of_loop c now m h f _ 1 _ _ _ _ hf hni (by omega) (by omega) (by omega) hr1
  · exact read_of_loop c now2 m h f 0 _ _ _ _ _ hf hni (by omega) (by omega) (by omega)
      (by rw [Nat.zero_add]; exact hr2)
  · rw [List.length_append, List.length_take, List.length_take]
    omega
  · rw [List.getElem?_append_right (by rw [List.length_take]; omega), List.length_take,
      Nat.min_eq_left hd0, Nat.sub_self, List.getElem?_take_of_lt (by omega)]
  · rw [List.getElem?_append_right (by rw [List.length_take]; omega), List.length_take,
      Nat.min_eq_left hd0, Nat.sub_self, List.getElem?_take_of_lt (by omega)]
    exact fun h => hdiff h.symm

theorem read_stale_on_full_log_witness :
    ∃ m1 m2 buf, read demoConstants (clockFrom 80) fullLog 2 4088 1 = some (true, m1, [1]) ∧
      read demoConstants (clockFrom 80) fullLog 2 0 4089 = some (true, m2, buf) ∧
      buf.length = 4089 ∧ buf[4088]? = some 9 := by
  obtain ⟨m1, m2, buf, h1, h2, h3, h4, -⟩ := read_stale_on_full_log demoConstants
    (clockFrom 80) (clockFrom 80) fullLog 2
    ⟨⟨⟨⟨2, 11, 10, 4089, 2, false, 1⟩, [], [4]⟩, [⟨4, 0, [3, 5]⟩], 2⟩, some ⟨5, 68, [1], true⟩⟩
    ⟨5, 68, [1], true⟩ 3 23 68 (List.replicate 4088 7) [9]
    rfl rfl rfl (by decide) (by decide) (by decide) rfl rfl (by decide)
    (loadDataBlock_of_fetch _ 3 23 _ rfl) (loadDataBlock_of_fetch _ 5 68 _ rfl)
    (by simp only [List.length_replicate]; decide) (by decide) (by decide) (by decide)
    (by decide) (by decide)
  exact ⟨m1, m2, buf, h1, h2, h3, h4⟩

/-! ### Block map and log stay consistent -/

/-- A slot that the block map names is live. -/
theorem MapInv.slot_of_live (s : FS) (h : MapInv s) (id q : Nat) (hid : id ≠ 0)
    (hq : bmapAt s id = some q) (hq0 : q ≠ 0) : Live s q :=
  ⟨id, h id q hid hq hq0, hid, hq⟩

/-- The `gc` loop keeps `MapInv` and leaves every slot alone that the block map names. -/
theorem gcLoop_MapInv (n : Nat) (s s' : FS) (p : Nat) (h : gcLoop n s = some (p, s'))
    (hinv : MapInv s) :
    MapInv s' ∧
    ∀ id q : Nat, id ≠ 0 → bmapAt s id = some q → q ≠ 0 → s'.log[q - 1]? = s.log[q - 1]? := by
  obtain ⟨hb, -⟩ := gcLoop_frame n s s' p h
  have hfr := (gcLoop_live_frame n s s' p h).1
  have hkeep : ∀ id q : Nat, id ≠ 0 → bmapAt s id = some q → q ≠ 0 →
      s'.log[q - 1]? = s.log[q - 1]? :=
    fun id q hid hq hq0 => hfr q (hinv.slot_of_live s id q hid hq hq0)
  refine ⟨?_, hkeep⟩
  intro id q hid hq hq0
  have hq' : bmapAt s id = some q := by
    unfold bmapAt at hq ⊢
    rw [← hb]
    exact hq
  have := hinv id q hid hq' hq0
  rw [slotId_eq _ _ hq0] at this ⊢
  rw [hkeep id q hid hq' hq0]
  exact this

theorem gc_MapInv (s s' : FS) (p : Nat) (h : gc s = some (p, s')) (hinv : MapInv s) :
    MapInv s' ∧
    ∀ id q : Nat, id ≠ 0 → bmapAt s id = some q → q ≠ 0 → s'.log[q - 1]? = s.log[q - 1]? := by
  unfold gc at h
  split at h
  · simp only [Option.some.injEq, Prod.mk.injEq] at h
    obtain ⟨-, rfl⟩ := h
    exact ⟨hinv, fun _ _ _ _ _ => rfl⟩
  · exact gcLoop_MapInv _ _ _ _ h hinv

theorem saveBlock_MapInv (s s' : FS) (b : Block) (now : Nat)
    (h : saveBlock s b now = some s') (hinv : MapInv s) (hlen : s.bmap.length < 4294967296) :
    MapInv s' ∧
    ∀ id q : Nat, id ≠ 0 → bmapAt s id = some q → q ≠ 0 → s'.log[q - 1]? = s.log[q - 1]? := by
  unfold saveBlock at h
  cases hgc : gc s with
  | none => simp [hgc] at h
  | some r =>
    obtain ⟨p, s1⟩ := r
    obtain ⟨hinv1, hkeep1⟩ := gc_MapInv s s1 p hgc hinv
    obtain ⟨hb, -⟩ := gc_frame s s1 p hgc
    simp only [hgc] at h
    by_cases hp : p = 0
    · rw [if_pos hp] at h
      simp only [Option.some.injEq] at h
      subst h
      exact ⟨hinv1, hkeep1⟩
    · rw [if_neg hp] at h
      have hz : slotId s1 p = some 0 := (gcLoop_result _ _ _ _ (gc_ne_zero s s1 p hgc hp) hp).2.1
      split at h
      · rename_i hpl
        split at h
        · simp at h
        · rename_i a ha
          simp only [Option.some.injEq] at h
          subst h
          have hbl : idx b.id < s1.bmap.length := by
            unfold bmapAt at ha
            simp only at ha
            exact (List.getElem?_eq_some_iff.mp ha).1
          -- slots named by the map of `s1` differ from `p`
          have hne : ∀ id q : Nat, id ≠ 0 → bmapAt s1 id = some q → q ≠ 0 → q ≠ p := by
            intro id q hid hq hq0 hqp
            have := hinv1 id q hid hq hq0
            rw [hqp, hz] at this
            exact hid (by simpa using this.symm)
          constructor
          · intro id q hid hq hq0
            unfold bmapAt at hq
            simp only at hq
            by_cases hi : idx id = idx b.id
            · rw [hi, List.getElem?_set_self hbl] at hq
              simp only [Option.some.injEq] at hq
              subst hq
              have hbid : b.id = id := by
                unfold idx at hi hbl
                rw [if_neg hid] at hi
                split at hi
                · rename_i hb0
                  rw [if_pos hb0, hb] at hbl
                  omega
                · omega
              rw [slotId_eq _ _ hp]
              simp only [List.getElem?_set_self hpl, Option.map_some', hbid]
            · rw [List.getElem?_set_ne (Ne.symm hi)] at hq
              have hq1 : bmapAt s1 id = some q := hq
              have hqp := hne id q hid hq1 hq0
              have := hinv1 id q hid hq1 hq0
              rw [slotId_eq _ _ hq0] at this ⊢
              simp only
              rw [List.getElem?_set_ne (by omega)]
              exact this
          · intro id q hid hq hq0
            have hq1 : bmapAt s1 id = some q := by
              unfold bmapAt at hq ⊢
              rw [hb]
              exact hq
            have hqp := hne id q hid hq1 hq0
            simp only
            rw [List.getElem?_set_ne (by omega)]
            exact hkeep1 id q hid hq hq0
      · simp at h

theorem slotId_log_congr (s s' : FS) (q : Nat) (h : s'.log = s.log) :
    slotId s' q = slotId s q := by
  unfold slotId
  rw [h]

theorem freeBlock_MapInv (s s' : FS) (id : Nat) (h : freeBlock s id = some s')
    (hinv : MapInv s) : MapInv s' := by
  unfold freeBlock at h
  split at h
  · rw [← Option.some.inj h]
    exact hinv
  · split at h
    · rw [← Option.some.inj h]
      exact hinv
    · split at h
      · rename_i hl
        have hlog : s'.log = s.log := by rw [← Option.some.inj h]
        have hbm : s'.bmap = s.bmap.set (id - 1) 0 := by rw [← Option.some.inj h]
        intro i q hi hq hq0
        unfold bmapAt at hq
        rw [hbm] at hq
        by_cases he : idx i = id - 1
        · rw [he, List.getElem?_set_self hl] at hq
          exact absurd (Option.some.inj hq).symm hq0
        · rw [List.getElem?_set_ne (Ne.symm he)] at hq
          rw [slotId_log_congr s s' q hlog]
          exact hinv i q hi hq hq0
      · simp at h

/-- A consistent state satisfies `MapInv`. -/
theorem MapInv_of_Consistent (s : FS) (h : Consistent s) : MapInv s := by
  intro id p hid hp hp0
  obtain ⟨-, -, -, -, -, hl⟩ := h
  unfold bmapAt idx at hp
  rw [if_neg hid] at hp
  have hk : id - 1 < s.bmap.length := (List.getElem?_eq_some_iff.mp hp).1
  have := hl (id - 1) hk (by rw [hp]; simpa using hp0)
  rw [List.getD_eq_getElem?_getD, hp] at this
  simpa [Nat.sub_add_cancel (Nat.one_le_iff_ne_zero.mpr hid)] using this

/-- C30: the consistency of block map and log (every nonzero entry `bmap[id - 1] = p`
names a slot `p` that holds the id `id`) is kept by `gc`, by `saveBlock` and by
`freeBlock`; `gc` and `saveBlock` moreover leave every slot as it is that a block map
entry names before the call, so `gc` does not zero the id of such a slot and `saveBlock`
does not write onto it.  The block map is indexed by 32-bit values. -/
theorem log_bmap_consistency (s : FS) (hinv : MapInv s) (hlen : s.bmap.length < 4294967296) :
    (∀ (p : Nat) (s' : FS), gc s = some (p, s') →
      MapInv s' ∧ ∀ id q : Nat, id ≠ 0 → bmapAt s id = some q → q ≠ 0 →
        s'.log[q - 1]? = s.log[q - 1]? ∧ slotId s' q = some id) ∧
    (∀ (b : Block) (now : Nat) (s' : FS), saveBlock s b now = some s' →
      MapInv s' ∧ ∀ id q : Nat, id ≠ 0 → bmapAt s id = some q → q ≠ 0 →
        s'.log[q - 1]? = s.log[q - 1]?) ∧
    (∀ (id : Nat) (s' : FS), freeBlock s id = some s' → MapInv s') := by
  refine ⟨?_, ?_, ?_⟩
  · intro p s' h
    obtain ⟨h1, h2⟩ := gc_MapInv s s' p h hinv
    refine ⟨h1, fun id q hid hq hq0 => ⟨h2 id q hid hq hq0, ?_⟩⟩
    have := hinv id q hid hq hq0
    rw [slotId_eq _ _ hq0] at this ⊢
    rw [h2 id q hid hq hq0]
    exact this
  · intro b now s' h
    exact saveBlock_MapInv s s' b now h hinv hlen
  · intro id s' h
    exact freeBlock_MapInv s s' id h hinv

theorem log_bmap_consistency_witness :
    MapInv gcReclaim ∧
    (∃ s', gc gcReclaim = some (2, s') ∧ MapInv s' ∧ slotId s' 1 = some 1) ∧
    (∃ s', saveBlock gcReclaim (plainBlock 2) 7 = some s' ∧ MapInv s' ∧
      s'.bmap = [1, 2] ∧ s'.log[0]? = gcReclaim.log[0]?) ∧
    ∃ s', freeBlock gcReclaim 2 = some s' ∧ MapInv s' := by
  have hinv : MapInv gcReclaim := MapInv_of_Consistent _ (by decide)
  obtain ⟨h1, h2, h3⟩ := log_bmap_consistency gcReclaim hinv (by decide)
  refine ⟨hinv, ⟨_, rfl, (h1 2 _ rfl).1, ((h1 2 _ rfl).2 1 1 (by decide) rfl (by decide)).2⟩,
    ⟨_, rfl, (h2 (plainBlock 2) 7 _ rfl).1, rfl,
      (h2 (plainBlock 2) 7 _ rfl).2 1 1 (by decide) rfl (by decide)⟩,
    ⟨_, rfl, h3 2 _ rfl⟩⟩

/-! ### Calls that return false -/

theorem mkdir_false (c : Constants) (pu : PathUtils) (uninit : Nat) (now : Nat → Nat)
    (s s' : FS) (path : List Char) (h : mkdir c pu uninit now s path = some (false, s')) :
    s' = s := by
  unfold mkdir at h
  dsimp only at h
  repeat' split at h
  all_goals first
    | exact ((Prod.mk.inj (Option.some.inj h)).2).symm
    | simp at h

theorem touch_false (c : Constants) (pu : PathUtils) (uninit : Nat) (now : Nat → Nat)
    (s s' : FS) (path : List Char) (h : touch c pu uninit now s path = some (false, s')) :
    s' = s := by
  unfold touch at h
  dsimp only at h
  repeat' split at h
  all_goals first
    | exact ((Prod.mk.inj (Option.some.inj h)).2).symm
    | simp at h

theorem rmdir_false (c : Constants) (pu : PathUtils) (uninitP uninitD : Nat) (now : Nat → Nat)
    (s s' : FS) (path : List Char) (h : rmdir c pu uninitP uninitD now s path = some (false, s')) :
    s' = s := by
  unfold rmdir at h
  dsimp only at h
  repeat' split at h
  all_goals first
    | exact ((Prod.mk.inj (Option.some.inj h)).2).symm
    | simp at h

theorem rm_false (c : Constants) (pu : PathUtils) (uninit : Nat) (now : Nat → Nat)
    (s s' : FS) (path : List Char) (h : rm c pu uninit now s path = some (false, s')) :
    s' = s := by
  unfold rm at h
  dsimp only at h
  repeat' split at h
  all_goals first
    | exact ((Prod.mk.inj (Option.some.inj h)).2).symm
    | simp at h

theorem link_false (c : Constants) (pu : PathUtils) (uninit : Nat) (now : Nat → Nat)
    (s s' : FS) (src tgt : List Char) (h : link c pu uninit now s src tgt = some (false, s')) :
    s' = s := by
  unfold link at h
  dsimp only at h
  repeat' split at h
  all_goals first
    | exact ((Prod.mk.inj (Option.some.inj h)).2).symm
    | simp at h

theorem renameSameParent_false (c : Constants) (now : Nat → Nat) (s s' : FS)
    (oldParent newParent : Directory) (t : MoveTarget) (a b : List Char)
    (h : renameSameParent c now s oldParent newParent t a b = some (false, s')) : s' = s := by
  unfold renameSameParent at h
  dsimp only at h
  repeat' split at h
  all_goals first
    | exact ((Prod.mk.inj (Option.some.inj h)).2).symm
    | simp at h

theorem renameOtherParent_false (c : Constants) (now : Nat → Nat) (s s' : FS)
    (oldParent newParent : Directory) (t : MoveTarget) (a b : List Char)
    (h : renameOtherParent c now s oldParent newParent t a b = some (false, s')) : s' = s := by
  unfold renameOtherParent at h
  dsimp only at h
  repeat' split at h
  all_goals first
    | exact ((Prod.mk.inj (Option.some.inj h)).2).symm
    | simp at h

theorem rename_false (c : Constants) (pu : PathUtils) (uO uN uT : Nat) (now : Nat → Nat)
    (s s' : FS) (src dst : List Char)
    (h : rename c pu uO uN uT now s src dst = some (false, s')) : s' = s := by
  unfold rename at h
  dsimp only at h
  repeat' split at h
  all_goals first
    | exact ((Prod.mk.inj (Option.some.inj h)).2).symm
    | simp at h
    | exact renameSameParent_false _ _ _ _ _ _ _ _ _ h
    | exact renameOtherParent_false _ _ _ _ _ _ _ _ _ h

theorem mod_budget (u k L : Nat) (hu : u + k < 4294967296) (hb : u + k > L) :
    (u + k) % 4294967296 > L := by
  rw [Nat.mod_eq_of_lt hu]
  exact hb

theorem mkdir_budget (c : Constants) (pu : PathUtils) (uninit : Nat) (now : Nat → Nat)
    (s : FS) (path : List Char) (hu : s.usedBlocks + 4 < 4294967296)
    (hb : s.usedBlocks + 4 > s.logSize) : mkdir c pu uninit now s path = some (false, s) := by
  unfold mkdir
  dsimp only
  split
  · rfl
  · rw [if_pos (mod_budget _ _ _ hu hb)]

theorem touch_budget (c : Constants) (pu : PathUtils) (uninit : Nat) (now : Nat → Nat)
    (s : FS) (path : List Char) (hu : s.usedBlocks + 4 < 4294967296)
    (hb : s.usedBlocks + 4 > s.logSize) : touch c pu uninit now s path = some (false, s) := by
  unfold touch
  dsimp only
  split
  · rfl
  · rw [if_pos (mod_budget _ _ _ hu hb)]

theorem rmdir_budget (c : Constants) (pu : PathUtils) (uninitP uninitD : Nat) (now : Nat → Nat)
    (s : FS) (path : List Char) (hu : s.usedBlocks + 2 < 4294967296)
    (hb : s.usedBlocks + 2 > s.logSize) :
    rmdir c pu uninitP uninitD now s path = some (false, s) := by
  unfold rmdir
  dsimp only
  split
  · rfl
  · rw [if_pos (mod_budget _ _ _ hu hb)]

theorem rm_budget (c : Constants) (pu : PathUtils) (uninit : Nat) (now : Nat → Nat)
    (s : FS) (path : List Char) (hu : s.usedBlocks + 2 < 4294967296)
    (hb : s.usedBlocks + 2 > s.logSize) : rm c pu uninit now s path = some (false, s) := by
  unfold rm
  dsimp only
  split
  · rfl
  · rw [if_pos (mod_budget _ _ _ hu hb)]

theorem link_budget (c : Constants) (pu : PathUtils) (uninit : Nat) (now : Nat → Nat)
    (s : FS) (src tgt : List Char) (hu : s.usedBlocks + 3 < 4294967296)
    (hb : s.usedBlocks + 3 > s.logSize) : link c pu uninit now s src tgt = some (false, s) := by
  unfold link
  dsimp only
  split
  · rfl
  · rw [if_pos (mod_budget _ _ _ hu hb)]

theorem rename_budget (c : Constants) (pu : PathUtils) (uO uN uT : Nat) (now : Nat → Nat)
    (s : FS) (src dst : List Char) (hu : s.usedBlocks + 5 < 4294967296)
    (hb : s.usedBlocks + 5 > s.logSize) :
    rename c pu uO uN uT now s src dst = some (false, s) := by
  unfold rename
  dsimp only
  split
  · rfl
  · rw [if_pos (mod_budget _ _ _ hu hb)]

/-- C27: whenever `mkdir`, `touch`, `rmdir`, `rm`, `link` or `rename` returns false, the
state is the one before the call (block map, `usedBlocks`, `write_ptr`, `nextBlockID` and
every log slot); and when `usedBlocks + budget > logSize` (budget 4 for `mkdir` and
`touch`, 2 for `rmdir` and `rm`, 5 for `rename`, 3 for `link`; the sum formed in 32 bits
without wrapping) each of them returns false and leaves the state as it is. -/
theorem false_changes_nothing (c : Constants) (pu : PathUtils) (now : Nat → Nat) (s : FS) :
    (∀ (u : Nat) (path : List Char) (s' : FS),
      mkdir c pu u now s path = some (false, s') → s' = s) ∧
    (∀ (u : Nat) (path : List Char) (s' : FS),
      touch c pu u now s path = some (false, s') → s' = s) ∧
    (∀ (u v : Nat) (path : List Char) (s' : FS),
      rmdir c pu u v now s path = some (false, s') → s' = s) ∧
    (∀ (u : Nat) (path : List Char) (s' : FS),
      rm c pu u now s path = some (false, s') → s' = s) ∧
    (∀ (u : Nat) (src tgt : List Char) (s' : FS),
      link c pu u now s src tgt = some (false, s') → s' = s) ∧
    (∀ (u v w : Nat) (src dst : List Char) (s' : FS),
      rename c pu u v w now s src dst = some (false, s') → s' = s) ∧
    (s.usedBlocks + 5 < 4294967296 →
      (s.usedBlocks + 4 > s.logSize → ∀ (u : Nat) (path : List Char),
        mkdir c pu u now s path = some (false, s) ∧
        touch c pu u now s path = some (false, s)) ∧
      (s.usedBlocks + 2 > s.logSize → ∀ (u v : Nat) (path : List Char),
        rmdir c pu u v now s path = some (false, s) ∧
        rm c pu u now s path = some (false, s)) ∧
      (s.usedBlocks + 5 > s.logSize → ∀ (u v w : Nat) (src dst : List Char),
        rename c pu u v w now s src dst = some (false, s)) ∧
      (s.usedBlocks + 3 > s.logSize → ∀ (u : Nat) (src tgt : List Char),
        link c pu u now s src tgt = some (false, s))) := by
  refine ⟨fun u path s' h => mkdir_false c pu u now s s' path h,
    fun u path s' h => touch_false c pu u now s s' path h,
    fun u v path s' h => rmdir_false c pu u v now s s' path h,
    fun u path s' h => rm_false c pu u now s s' path h,
    fun u src tgt s' h => link_false c pu u now s s' src tgt h,
    fun u v w src dst s' h => rename_false c pu u v w now s s' src dst h, ?_⟩
  intro hu
  exact ⟨fun hb u path => ⟨mkdir_budget c pu u now s path (by omega) hb,
      touch_budget c pu u now s path (by omega) hb⟩,
    fun hb u v path => ⟨rmdir_budget c pu u v now s path (by omega) hb,
      rm_budget c pu u now s path (by omega) hb⟩,
    fun hb u v w src dst => rename_budget c pu u v w now s src dst hu hb,
    fun hb u src tgt => link_budget c pu u now s src tgt (by omega) hb⟩

theorem false_changes_nothing_witness :
    (∀ s', mkdir demoConstants specPathUtils 0 (clockFrom 10) inlineRoot ['/', 'a', '/', 'b'] =
      some (false, s') → s' = inlineRoot) ∧
    mkdir demoConstants specPathUtils 0 (clockFrom 10) inlineRoot ['/', 'a', '/', 'b'] =
      some (false, inlineRoot) ∧
    fiveOfSix.usedBlocks + 2 > fiveOfSix.logSize ∧
    rmdir demoConstants specPathUtils 0 0 (clockFrom 10) fiveOfSix ['/', 'a'] =
      some (false, fiveOfSix) ∧
    rm demoConstants specPathUtils 0 (clockFrom 10) fiveOfSix ['/', 'g'] =
      some (false, fiveOfSix) ∧
    link demoConstants specPathUtils 0 (clockFrom 10) fiveOfSix ['/', 'h'] ['/', 'g'] =
      some (false, fiveOfSix) := by
  have h1 := false_changes_nothing demoConstants specPathUtils (clockFrom 10) inlineRoot
  have h2 := (false_changes_nothing demoConstants specPathUtils (clockFrom 10) fiveOfSix).2.2.2.2.2.2
    (by decide)
  exact ⟨fun s' h => h1.1 0 _ s' h, by decide, by decide,
    (h2.2.1 (by decide) 0 0 _).1, (h2.2.1 (by decide) 0 0 _).2,
    h2.2.2.2 (by decide) 0 _ _⟩

/-! ### Removing an absent name; names that are too long -/

/-- Erasing a name that is not among the entries leaves them as they are. -/
theorem removeLink_absent (es : List Hardlink) (name : List Char)
    (h : findLink es name = none) : removeLink es name = es := by
  induction es with
  | nil => rfl
  | cons x t ih =>
    unfold findLink at h
    rw [List.find?_cons] at h
    unfold removeLink
    by_cases hx : x.linkName = name
    · simp [hx] at h
    · simp only [hx, decide_False] at h
      rw [if_neg hx, ih h]

/-- No entry list holds the name: the loop of `rmHardlink` finds nothing. -/
theorem rmFromLists_absent (name : List Char) (lists : List DirectoryEntryList)
    (h : ∀ l ∈ lists, findLink l.entries name = none) (i : Nat) :
    rmFromLists name lists i = none := by
  induction lists generalizing i with
  | nil => rfl
  | cons l rest ih =>
    unfold rmFromLists
    rw [h l (List.mem_cons_self _ _)]
    dsimp only
    rw [ih (fun l' hl' => h l' (List.mem_cons_of_mem _ hl'))]

/-- C24: `Directory::rmHardlink(target, name)` with a valid name that no entry of the
directory carries (inlined or stored in entry lists) leaves the entries as they are, but
it still decrements `target.linkCounter` (16-bit) and `childCount` (32-bit), and it
returns the target (and for an inlined directory the primary INode) as changed blocks. -/
theorem rmHardlink_absent_name (s : FS) (d : Directory) (target : INode) (name : List Char)
    (hname : ¬ (name = [] ∨ '/' ∈ name))
    (hin : d.inode.inlined = true → findLink d.inode.entries name = none)
    (hex : d.inode.inlined = false → ∀ l ∈ d.entryLists, findLink l.entries name = none) :
    Directory.rmHardlink s d target name =
      some (s, { d with childCount := (d.childCount + 4294967295) % 4294967296 },
        { target with linkCounter := (target.linkCounter + 65535) % 65536 },
        if d.inode.inlined then [.target, .primary] else [.target]) := by
  unfold Directory.rmHardlink
  rw [if_neg hname]
  dsimp only
  cases hi : d.inode.inlined with
  | true =>
    rw [if_pos rfl, removeLink_absent _ _ (hin hi)]
    rfl
  | false =>
    rw [if_neg (by simp), rmFromLists_absent name _ (hex hi) 0]
    rfl

theorem rmHardlink_absent_name_witness :
    Directory.searchHardlink
      ⟨⟨⟨1, 0, 0, 0, 1, true, 2⟩, [⟨['.'], 1⟩, ⟨['.', '.'], 1⟩], []⟩, 2, []⟩ ['x'] = 0 ∧
    Directory.rmHardlink inlineRoot
      ⟨⟨⟨1, 0, 0, 0, 1, true, 2⟩, [⟨['.'], 1⟩, ⟨['.', '.'], 1⟩], []⟩, 2, []⟩
      ⟨2, 0, 0, 0, 2, true, 1⟩ ['x'] =
      some (inlineRoot,
        ⟨⟨⟨1, 0, 0, 0, 1, true, 2⟩, [⟨['.'], 1⟩, ⟨['.', '.'], 1⟩], []⟩, 1, []⟩,
        ⟨2, 0, 0, 0, 2, true, 0⟩, [.target, .primary]) :=
  ⟨by decide,
   rmHardlink_absent_name inlineRoot
    ⟨⟨⟨1, 0, 0, 0, 1, true, 2⟩, [⟨['.'], 1⟩, ⟨['.', '.'], 1⟩], []⟩, 2, []⟩
    ⟨2, 0, 0, 0, 2, true, 1⟩ ['x'] (by decide) (fun _ => by decide) (fun h => by simp at h)⟩

set_option maxRecDepth 1000000 in
/-- C25, failing input: on `inlineRoot`, `touch` and `mkdir` of the path "/" followed by
the 28 characters of `longName` both return true and add an entry.  The directory object
holds the link under the name of 28 characters (`addHardlink` on the loaded root), the
persisted directory is read back with a name of 27 characters, and a second `touch` of
the same path returns true again and leaves two entries that are read back with the same
name. -/
theorem long_name_accepted :
    longName.length = 28 ∧
    (touch demoConstants specPathUtils 0 (clockFrom 10) inlineRoot ('/' :: longName)).map
      (fun r => (r.1, persistedNames demoConstants r.2 1)) =
        some (true, some (some [['.'], ['.', '.'], List.replicate 27 'a'])) ∧
    (mkdir demoConstants specPathUtils 0 (clockFrom 10) inlineRoot ('/' :: longName)).map
      (fun r => (r.1, persistedNames demoConstants r.2 1)) =
        some (true, some (some [['.'], ['.', '.'], List.replicate 27 'a'])) ∧
    ((loadDirectory demoConstants 0 inlineRoot 1).bind (fun r => r.bind (fun root =>
      (Directory.addHardlink demoConstants inlineRoot root ⟨2, 0, 10, 0, 2, true, 0⟩
        longName).map (fun r => r.2.1.ls)))) = some [['.'], ['.', '.'], longName] ∧
    ((touch demoConstants specPathUtils 0 (clockFrom 10) inlineRoot ('/' :: longName)).bind
      (fun r => touch demoConstants specPathUtils 0 (clockFrom 20) r.2 ('/' :: longName))).map
      (fun r => (r.1, persistedNames demoConstants r.2 1)) =
        some (true, some (some [['.'], ['.', '.'], List.replicate 27 'a',
          List.replicate 27 'a'])) := by
  refine ⟨by decide, by decide, by decide, by decide, by decide⟩

/-! ### Step 2 of the recovery: the copy that wins -/

theorem recoverySweep_ord (L lwp : Nat) (log : List Block) (hL : L < 2147483648) :
    ∀ (n i : Nat) (u : Nat) (bm lt : List Nat) (st' : Nat × List Nat × List Nat),
      i + n ≤ L →
      recoverySweep L lwp log n i (u, bm, lt) = some st' →
      SweepOrd L lwp log i u bm lt → SweepOrd L lwp log (i + n) st'.1 st'.2.1 st'.2.2 := by
  intro n
  induction n with
  | zero =>
    intro i u bm lt st' _ h hinv
    simp [recoverySweep] at h
    subst h
    exact hinv
  | succ n ih =>
    intro i u bm lt st' hiL h hinv
    unfold recoverySweep at h
    simp only at h
    have hj : (if (i + lwp) % 4294967296 ≥ L then (i + lwp) % 4294967296 - L
        else (i + lwp) % 4294967296) = sweepIndex L lwp i := rfl
    rw [hj] at h
    have hin : i + (n + 1) = (i + 1) + n := by omega
    rw [hin]
    cases hb : log[sweepIndex L lwp i]? with
    | none => simp [hb] at h
    | some b =>
      simp only [hb] at h
      by_cases h0 : b.id = 0
      · simp only [h0, if_true] at h
        refine ih (i + 1) u bm lt st' (by omega) h ⟨?_, ?_, hinv.cnt.1, by have := hinv.cnt.2; omega⟩
        · intro k p hk hp
          obtain ⟨m, b', hm, h1, h2, h3, h4, h5⟩ := hinv.src k p hk hp
          refine ⟨m, b', by omega, h1, h2, h3, h4, ?_⟩
          intro m' b'' hm' hb'' hid
          by_cases hmi : m' = i
          · subst hmi
            rw [hb] at hb''
            cases hb''
            omega
          · exact h5 m' b'' (by omega) hb'' hid
        · intro k hk
          refine ⟨(hinv.zero k hk).1, ?_⟩
          intro m' b'' hm' hb''
          by_cases hmi : m' = i
          · subst hmi
            rw [hb] at hb''
            cases hb''
            omega
          · exact (hinv.zero k hk).2 m' b'' (by omega) hb''
      · simp only [h0, if_false] at h
        cases hbm : bm[b.id - 1]? with
        | none => simp [hbm] at h
        | some a =>
          cases hlt : lt[b.id - 1]? with
          | none => simp [hbm, hlt] at h
          | some t =>
            simp only [hbm, hlt] at h
            have hbl : b.id - 1 < bm.length := (List.getElem?_eq_some_iff.mp hbm).1
            have hll : b.id - 1 < lt.length := (List.getElem?_eq_some_iff.mp hlt).1
            have hbid : b.id = (b.id - 1) + 1 := by omega
            by_cases hle : t ≤ b.lastWriteTime
            · simp only [hle, if_true] at h
              refine ih (i + 1) _ _ _ st' (by omega) h ⟨?_, ?_, ?_⟩
              · intro k p hk hp
                by_cases hkk : k = b.id - 1
                · subst hkk
                  rw [List.getElem?_set_self hbl] at hk
                  cases hk
                  refine ⟨i, b, by omega, rfl, hb, hbid, by simp [hll], ?_⟩
                  intro m' b' hm' hb' hid
                  by_cases hmi : m' = i
                  · subst hmi
                    rw [hb] at hb'
                    cases hb'
                    exact ⟨Nat.le_refl _, fun _ => Nat.le_refl _⟩
                  · by_cases ha : a = 0
                    · subst ha
                      exact absurd hid ((hinv.zero _ hbm).2 m' b' (by omega) hb')
                    · obtain ⟨m0, b0, -, -, -, -, h4, h5⟩ := hinv.src _ a hbm ha
                      rw [hlt] at h4
                      cases h4
                      have := (h5 m' b' (by omega) hb' hid).1
                      exact ⟨by omega, fun _ => by omega⟩
                · rw [List.getElem?_set_ne (Ne.symm hkk)] at hk
                  obtain ⟨m, b', hm, h1, h2, h3, h4, h5⟩ := hinv.src k p hk hp
                  refine ⟨m, b', by omega, h1, h2, h3,
                    by rw [List.getElem?_set_ne (Ne.symm hkk)]; exact h4, ?_⟩
                  intro m' b'' hm' hb'' hid
                  by_cases hmi : m' = i
                  · subst hmi
                    rw [hb] at hb''
                    cases hb''
                    omega
                  · exact h5 m' b'' (by omega) hb'' hid
              · intro k hk
                by_cases hkk : k = b.id - 1
                · subst hkk
                  rw [List.getElem?_set_self hbl] at hk
                  simp at hk
                · rw [List.getElem?_set_ne (Ne.symm hkk)] at hk ⊢
                  refine ⟨(hinv.zero k hk).1, ?_⟩
                  intro m' b'' hm' hb''
                  by_cases hmi : m' = i
                  · subst hmi
                    rw [hb] at hb''
                    cases hb''
                    omega
                  · exact (hinv.zero k hk).2 m' b'' (by omega) hb''
              · have hc := countNZ_set bm (b.id - 1) (sweepIndex L lwp i + 1) hbl
                have hget : bm[b.id - 1] = a := by
                  rw [List.getElem?_eq_getElem hbl] at hbm
                  exact Option.some.inj hbm
                rw [hget] at hc
                obtain ⟨hu1, hu2⟩ := hinv.cnt
                show (if a = 0 then (u + 1) % 4294967296 else u) =
                    countNZ (bm.set (b.id - 1) (sweepIndex L lwp i + 1)) ∧
                  (if a = 0 then (u + 1) % 4294967296 else u) ≤ i + 1
                by_cases ha : a = 0
                · rw [if_pos ha, Nat.mod_eq_of_lt (by omega)]
                  simp only [ha, ne_eq, not_true_eq_false, if_false, Nat.add_zero,
                    Nat.succ_ne_zero, not_false_eq_true, if_true] at hc
                  omega
                · rw [if_neg ha]
                  simp only [ne_eq, ha, not_false_eq_true, if_true, Nat.succ_ne_zero] at hc
                  omega
            · simp only [hle, if_false] at h
              have ha : a ≠ 0 := by
                rintro rfl
                rcases (hinv.zero _ hbm).1 with hz | hz
                · rw [hlt] at hz
                  cases hz
                  omega
                · rw [hlt] at hz
                  cases hz
              rw [if_neg ha] at h
              refine ih (i + 1) _ bm lt st' (by omega) h
                ⟨?_, ?_, hinv.cnt.1, by have := hinv.cnt.2; omega⟩
              · intro k p hk hp
                obtain ⟨m, b', hm, h1, h2, h3, h4, h5⟩ := hinv.src k p hk hp
                refine ⟨m, b', by omega, h1, h2, h3, h4, ?_⟩
                intro m' b'' hm' hb'' hid
                by_cases hmi : m' = i
                · subst hmi
                  rw [hb] at hb''
                  cases hb''
                  have hk' : k = b.id - 1 := by omega
                  subst hk'
                  rw [hlt] at h4
                  cases h4
                  exact ⟨by omega, fun he => by omega⟩
                · exact h5 m' b'' (by omega) hb'' hid
              · intro k hk
                refine ⟨(hinv.zero k hk).1, ?_⟩
                intro m' b'' hm' hb''
                by_cases hmi : m' = i
                · subst hmi
                  rw [hb] at hb''
                  cases hb''
                  intro hid
                  have hk' : k = b.id - 1 := by omega
                  subst hk'
                  rw [hbm] at hk
                  exact ha (Option.some.inj hk)
                · exact (hinv.zero k hk).2 m' b'' (by omega) hb''

theorem countNZ_replicate_zero (n : Nat) : countNZ (List.replicate n 0) = 0 := by
  unfold countNZ
  rw [List.countP_eq_zero]
  intro a ha
  simp [(List.mem_replicate.mp ha).2]

theorem sweepIndex_mod (L lwp m : Nat) (hm : m < L) (hl : lwp ≤ L) (hL : L < 2147483648) :
    sweepIndex L lwp m = (lwp + m) % L := by
  unfold sweepIndex
  rw [Nat.mod_eq_of_lt (by omega : m + lwp < 4294967296)]
  split
  · rw [Nat.mod_eq_sub_mod (by omega), Nat.mod_eq_of_lt (by omega)]
    omega
  · rw [Nat.mod_eq_of_lt (by omega)]
    omega

/-- The number of nonzero entries of a map whose nonzero entries are exactly those of the
ids that occur in the log is the number of distinct ids in the log. -/
theorem countNZ_eq_distinct (log : List Block) (bm : List Nat)
    (h1 : ∀ k, k < bm.length → bm[k]? ≠ some 0 → ∃ b, b ∈ log ∧ b.id = k + 1)
    (h2 : ∀ b, b ∈ log → b.id ≠ 0 → b.id - 1 < bm.length ∧ bm[b.id - 1]? ≠ some 0) :
    countNZ bm = ((log.map Block.id).filter (fun i => i ≠ 0)).dedup.length := by
  rw [countNZ_eq_card, ← List.card_toFinset]
  rw [← Finset.card_image_of_injective _ (fun a b h => Nat.succ.inj h : Function.Injective Nat.succ)]
  congr 1
  ext id
  simp only [Finset.mem_image, Finset.mem_filter, Finset.mem_range, List.mem_toFinset,
    List.mem_filter, List.mem_map, decide_eq_true_eq]
  constructor
  · rintro ⟨k, ⟨hk, hne⟩, rfl⟩
    obtain ⟨b, hb, hid⟩ := h1 k hk hne
    exact ⟨⟨b, hb, hid⟩, Nat.succ_ne_zero k⟩
  · rintro ⟨⟨b, hb, rfl⟩, hne⟩
    obtain ⟨hlt, hnz⟩ := h2 b hb hne
    exact ⟨b.id - 1, ⟨hlt, hnz⟩, by omega⟩

/-- C28: step 2 of `reconstructBMap` on a zeroed block map (`n >= logSize` entries; the
log has `logSize < 2^31` slots and holds only ids up to `logSize`) returns, and
afterwards: the sweep visits slot `(lastWritePtr + m) % logSize` (0-based) at counter `m`
and so every slot; for every nonzero id that occurs in some slot, `bmap[id - 1]` is the
(1-based) number of a slot that holds this id, whose write time is maximal among all slots
holding the id and which, among those with the same time, is visited last; ids that occur
in no slot have entry 0; `usedBlocks` is the number of distinct nonzero ids in the log. -/
theorem recovery_pass_b (s : FS) (n : Nat)
    (hlen : s.log.length = s.logSize) (hids : ∀ b, b ∈ s.log → b.id ≤ s.logSize)
    (hL : s.logSize < 2147483648) (hb : s.bmap = List.replicate n 0) (hn : s.logSize ≤ n) :
    ∃ lwp t maxId r,
      recoveryScan s.log s.logSize 0 (0, 0, 0) = some (lwp, t, maxId) ∧
      recoverySwept s = some r ∧ r.bmap.length = n ∧
      (∀ m, m < s.logSize → sweepIndex s.logSize lwp m = (lwp + m) % s.logSize) ∧
      (∀ (q : Nat) (b : Block), s.log[q]? = some b →
        ∃ m, m < s.logSize ∧ sweepIndex s.logSize lwp m = q) ∧
      (∀ id, id ≠ 0 → (∃ b, b ∈ s.log ∧ b.id = id) →
        ∃ m b, m < s.logSize ∧ r.bmap[id - 1]? = some (sweepIndex s.logSize lwp m + 1) ∧
          s.log[sweepIndex s.logSize lwp m]? = some b ∧ b.id = id ∧
          ∀ (m' : Nat) (b' : Block), m' < s.logSize →
            s.log[sweepIndex s.logSize lwp m']? = some b' → b'.id = id →
            b'.lastWriteTime ≤ b.lastWriteTime ∧
            (b'.lastWriteTime = b.lastWriteTime → m' ≤ m)) ∧
      (∀ k, k < n → (∀ b, b ∈ s.log → b.id ≠ k + 1) → r.bmap[k]? = some 0) ∧
      r.usedBlocks = ((s.log.map Block.id).filter (fun i => i ≠ 0)).dedup.length := by
  obtain ⟨⟨lwp, t, maxId⟩, hscan⟩ := recoveryScan_total s.log s.logSize 0 (0, 0, 0) (by omega)
  have hlwp : lwp ≤ s.logSize := by
    have := recoveryScan_ptr s.log s.logSize 0 (0, 0, 0) _ hscan (Nat.le_refl _)
    simpa using this
  obtain ⟨⟨u, bm, lt⟩, hsw, hbl⟩ := recoverySweep_total s.logSize lwp s.log hlen hids hlwp hL
    s.logSize 0 0 s.bmap (List.replicate s.logSize 0) (by omega)
    (by rw [hb]; simpa using hn) (by simp)
  have hbl' : bm.length = n := by
    have : bm.length = s.bmap.length := hbl
    rw [this, hb]
    simp
  have h0 : SweepOrd s.logSize lwp s.log 0 0 s.bmap (List.replicate s.logSize 0) := by
    refine ⟨?_, ?_, ?_⟩
    · intro k p hk hp
      rw [hb] at hk
      exact absurd (getElem?_replicate_zero _ _ _ hk) hp
    · intro k _
      refine ⟨?_, fun m' _ hm' => by omega⟩
      by_cases hk : k < s.logSize
      · left; simp [List.getElem?_replicate, hk]
      · right; simp [List.getElem?_replicate, hk]
    · rw [hb, countNZ_replicate_zero]
      exact ⟨rfl, Nat.le_refl _⟩
  have hfin := recoverySweep_ord s.logSize lwp s.log hL s.logSize 0 0 _ _ _ (by omega) hsw h0
  simp only [Nat.zero_add] at hfin
  have hvisit : ∀ (q : Nat) (b : Block), s.log[q]? = some b →
      ∃ m, m < s.logSize ∧ sweepIndex s.logSize lwp m = q := by
    intro q b hq
    have hql : q < s.logSize := by
      have := (List.getElem?_eq_some_iff.mp hq).1
      omega
    exact sweepIndex_surj s.logSize lwp q hql hlwp hL
  have hnz : ∀ b, b ∈ s.log → b.id ≠ 0 → b.id - 1 < bm.length ∧ bm[b.id - 1]? ≠ some 0 := by
    intro b hbm hid
    have hle := hids b hbm
    refine ⟨by omega, ?_⟩
    intro hz
    obtain ⟨q, hq⟩ := List.getElem?_of_mem hbm
    obtain ⟨m, hm, hmq⟩ := hvisit q b hq
    exact (hfin.zero _ hz).2 m b hm (by rw [hmq]; exact hq) (by omega)
  have hsrc : ∀ k, k < bm.length → bm[k]? ≠ some 0 → ∃ b, b ∈ s.log ∧ b.id = k + 1 := by
    intro k hk hne
    obtain ⟨m, b, -, -, h2, h3, -⟩ := hfin.src k bm[k] (List.getElem?_eq_getElem hk)
      (by
        intro h
        apply hne
        rw [List.getElem?_eq_getElem hk, h])
    exact ⟨b, List.getElem?_mem h2, h3⟩
  have hr : recoverySwept s = some (recoveredState s lwp maxId u bm) := by
    unfold recoverySwept
    rw [hscan]
    simp only
    rw [hsw]
  refine ⟨lwp, t, maxId, _, hscan, hr, hbl', fun m hm => sweepIndex_mod _ _ _ hm hlwp hL,
    hvisit, ?_, ?_, ?_⟩
  · rintro id hid ⟨b, hbm, rfl⟩
    obtain ⟨hlt, hne⟩ := hnz b hbm hid
    obtain ⟨m, b1, hm, h1, h2, h3, -, h5⟩ := hfin.src (b.id - 1) bm[b.id - 1]
      (List.getElem?_eq_getElem hlt)
      (by
        intro h
        apply hne
        rw [List.getElem?_eq_getElem hlt, h])
    have hidd : b.id - 1 + 1 = b.id := by omega
    rw [hidd] at h3 h5
    refine ⟨m, b1, hm, ?_, h2, h3, h5⟩
    show bm[b.id - 1]? = _
    rw [List.getElem?_eq_getElem hlt, h1]
  · intro k hk hno
    show bm[k]? = some 0
    by_contra hne
    obtain ⟨b, hbm, hid⟩ := hsrc k (by omega) hne
    exact hno b hbm hid
  · show u = _
    rw [hfin.cnt.1]
    exact countNZ_eq_distinct s.log bm hsrc hnz

theorem recovery_pass_b_witness :
    ∃ r, recoverySwept sweepDemo = some r ∧ r.bmap = [1, 3, 0, 0] ∧ r.usedBlocks = 2 ∧
      r.bmap[2]? = some 0 := by
  obtain ⟨lwp, t, maxId, r, -, hr, -, -, -, -, hz, hu⟩ :=
    recovery_pass_b sweepDemo 4 (by decide) (by decide) (by decide) rfl (by decide)
  refine ⟨r, hr, ?_, ?_, hz 2 (by decide) (by decide)⟩
  · have h : recoverySwept sweepDemo = some (recoveredState sweepDemo 3 2 2 [1, 3, 0, 0]) := by
      decide
    rw [h] at hr
    rw [← Option.some.inj hr]
    rfl
  · rw [hu]
    decide

/-! ### Step 3 of the recovery: the marked ids -/

theorem FlagLe.refl (f : List Bool) : FlagLe f f := fun _ h => h

theorem FlagLe.trans {f g h : List Bool} (a : FlagLe f g) (b : FlagLe g h) : FlagLe f h :=
  fun k hk => b k (a k hk)

theorem markFilter_spec (f f1 : List Bool) (id : Nat) (h : markFilter f id = some f1) :
    idx id < f.length ∧ f1.length = f.length ∧
    ∀ k : Nat, f1[k]? = some true ↔ (f[k]? = some true ∨ idx id = k) := by
  unfold markFilter at h
  split at h
  · rename_i hlt
    cases h
    refine ⟨hlt, by simp, ?_⟩
    intro k
    by_cases hk : idx id = k
    · subst hk
      simp [List.getElem?_set_self hlt]
    · rw [List.getElem?_set_ne hk]
      simp [hk]
  · cases h

theorem markAll_spec : ∀ (ids : List Nat) (f f1 : List Bool), markAll f ids = some f1 →
    (∀ id, id ∈ ids → idx id < f.length) ∧
    ∀ k : Nat, f1[k]? = some true ↔ (f[k]? = some true ∨ ∃ id, id ∈ ids ∧ idx id = k) := by
  intro ids
  induction ids with
  | nil =>
    intro f f1 h
    unfold markAll at h
    cases h
    simp
  | cons id rest ih =>
    intro f f1 h
    unfold markAll at h
    cases hm : markFilter f id with
    | none => rw [hm] at h; cases h
    | some f2 =>
      rw [hm] at h
      simp only at h
      obtain ⟨h1, h2, h3⟩ := markFilter_spec f f2 id hm
      obtain ⟨h4, h5⟩ := ih f2 f1 h
      constructor
      · intro i hi
        rcases List.mem_cons.mp hi with rfl | hi
        · exact h1
        · rw [← h2]; exact h4 i hi
      · intro k
        rw [h5 k, h3 k]
        constructor
        · rintro ((hk | hk) | ⟨i, hi, hk⟩)
          · exact Or.inl hk
          · exact Or.inr ⟨id, List.mem_cons_self _ _, hk⟩
          · exact Or.inr ⟨i, List.mem_cons_of_mem _ hi, hk⟩
        · rintro (hk | ⟨i, hi, hk⟩)
          · exact Or.inl (Or.inl hk)
          · rcases List.mem_cons.mp hi with rfl | hi
            · exact Or.inl (Or.inr hk)
            · exact Or.inr ⟨i, hi, hk⟩

/-- An invariant of a fold over a list whose steps may use that the element is in the
list. -/
theorem foldlM_option_inv_mem {α β : Type} (P : β → Prop) (g : β → α → Option β) :
    ∀ (l : List α) (b r : β), (∀ b a r, a ∈ l → P b → g b a = some r → P r) →
      P b → l.foldlM g b = some r → P r := by
  intro l
  induction l with
  | nil =>
    intro b r _ hb h
    simp only [List.foldlM_nil] at h
    cases h
    exact hb
  | cons a t ih =>
    intro b r hg hb h
    rw [List.foldlM_cons] at h
    cases hga : g b a with
    | none => rw [hga] at h; cases h
    | some b1 =>
      rw [hga] at h
      exact ih b1 r (fun b a' r ha' => hg b a' r (List.mem_cons_of_mem _ ha'))
        (hg b a b1 (List.mem_cons_self _ _) hb hga) h

/-- In a completed fold with steps that only set flags, the step for each element of the
list was taken, and what it set is still set at the end. -/
theorem foldlM_option_step {α : Type} (g : List Bool → α → Option (List Bool))
    (hg : ∀ b a r, g b a = some r → FlagLe b r) :
    ∀ (l : List α) (b r : List Bool) (a : α), l.foldlM g b = some r → a ∈ l →
      ∃ b1 r1, g b1 a = some r1 ∧ FlagLe r1 r := by
  intro l
  induction l with
  | nil => intro b r a _ ha; cases ha
  | cons x t ih =>
    intro b r a h ha
    rw [List.foldlM_cons] at h
    cases hgx : g b x with
    | none => rw [hgx] at h; cases h
    | some b1 =>
      rw [hgx] at h
      rcases List.mem_cons.mp ha with rfl | ha
      · refine ⟨b, b1, hgx, ?_⟩
        exact foldlM_option_inv (fun r => FlagLe b1 r) g
          (fun b' a' r' hb' hstep => hb'.trans (hg b' a' r' hstep)) t b1 r (FlagLe.refl _) h
      · exact ih b1 r a h ha

theorem recursiveRecovery_succ (c : Constants) (uninit : Nat) (s : FS) (fuel : Nat)
    (f : List Bool) (dir : Directory) :
    recursiveRecovery c uninit s (fuel + 1) f dir =
      (markAll f (dir.inode.id :: dir.entryLists.map DirectoryEntryList.id)).bind
        (fun f0 => dir.ls.foldlM (recoveryStep c uninit s fuel dir) f0) := by
  rw [recursiveRecovery]
  cases markAll f (dir.inode.id :: dir.entryLists.map DirectoryEntryList.id) <;> rfl

/-- The ways in which one step of the loop over the links returns. -/
theorem recoveryStep_cases (c : Constants) (uninit : Nat) (s : FS) (fuel : Nat)
    (dir : Directory) (f r : List Bool) (link : List Char)
    (h : recoveryStep c uninit s fuel dir f link = some r) :
    ((link = ['.'] ∨ link = ['.', '.']) ∧ r = f) ∨
    (link ≠ ['.'] ∧ link ≠ ['.', '.'] ∧
      ((peekINodeType s (dir.searchHardlink link) = some INODE_TYPE_DIR ∧
          ∃ childDir, loadDirectory c uninit s (dir.searchHardlink link) = some (some childDir) ∧
            recursiveRecovery c uninit s fuel f childDir = some r) ∨
       (peekINodeType s (dir.searchHardlink link) = some INODE_TYPE_REGULARFILE ∧
          ∃ file, loadFile c s (dir.searchHardlink link) = some (some file) ∧
            markAll f file.blocks = some r) ∨
       (∃ t, peekINodeType s (dir.searchHardlink link) = some t ∧ t ≠ INODE_TYPE_DIR ∧
          t ≠ INODE_TYPE_REGULARFILE ∧ r = f))) := by
  unfold recoveryStep at h
  split at h
  · rename_i hl
    exact Or.inl ⟨hl, (Option.some.inj h).symm⟩
  · rename_i hl
    have hl1 : link ≠ ['.'] := fun e => hl (Or.inl e)
    have hl2 : link ≠ ['.', '.'] := fun e => hl (Or.inr e)
    refine Or.inr ⟨hl1, hl2, ?_⟩
    dsimp only at h
    split at h
    · cases h
    · rename_i t ht
      split at h
      · rename_i htd
        subst htd
        split at h
        · rename_i childDir hc
          exact Or.inl ⟨ht, childDir, hc, h⟩
        · cases h
      · rename_i htd
        split at h
        · rename_i htf
          subst htf
          split at h
          · rename_i file hf
            exact Or.inr (Or.inl ⟨ht, file, hf, h⟩)
          · cases h
        · rename_i htf
          exact Or.inr (Or.inr ⟨t, ht, htd, htf, (Option.some.inj h).symm⟩)

theorem markAll_le (ids : List Nat) (f f1 : List Bool) (h : markAll f ids = some f1) :
    FlagLe f f1 := fun k hk => ((markAll_spec ids f f1 h).2 k).mpr (Or.inl hk)

/-- The traversal only sets flags. -/
theorem recursiveRecovery_le (c : Constants) (uninit : Nat) (s : FS) :
    ∀ (fuel : Nat) (f f1 : List Bool) (dir : Directory),
      recursiveRecovery c uninit s fuel f dir = some f1 → FlagLe f f1 := by
  intro fuel
  induction fuel with
  | zero =>
    intro f f1 dir h
    unfold recursiveRecovery at h
    cases h
  | succ fuel ih =>
    intro f f1 dir h
    rw [recursiveRecovery_succ] at h
    cases hm : markAll f (dir.inode.id :: dir.entryLists.map DirectoryEntryList.id) with
    | none => rw [hm] at h; cases h
    | some f0 =>
      rw [hm] at h
      simp only [Option.some_bind] at h
      refine foldlM_option_inv (fun g => FlagLe f g) _ ?_ dir.ls f0 f1 (markAll_le _ _ _ hm) h
      intro b link r hb hstep
      rcases recoveryStep_cases c uninit s fuel dir b r link hstep with
        ⟨-, rfl⟩ | ⟨-, -, ⟨-, child, -, hrec⟩ | ⟨-, file, -, hmark⟩ | ⟨t, -, -, -, rfl⟩⟩
      · exact hb
      · exact hb.trans (ih _ _ _ hrec)
      · exact hb.trans (markAll_le _ _ _ hmark)
      · exact hb

theorem recoveryStep_le (c : Constants) (uninit : Nat) (s : FS) (fuel : Nat)
    (dir : Directory) (b r : List Bool) (link : List Char)
    (hstep : recoveryStep c uninit s fuel dir b link = some r) : FlagLe b r := by
  rcases recoveryStep_cases c uninit s fuel dir b r link hstep with
    ⟨-, rfl⟩ | ⟨-, -, ⟨-, child, -, hrec⟩ | ⟨-, file, -, hmark⟩ | ⟨t, -, -, -, rfl⟩⟩
  · exact FlagLe.refl _
  · exact recursiveRecovery_le c uninit s _ _ _ _ hrec
  · exact markAll_le _ _ _ hmark
  · exact FlagLe.refl _

theorem idx_eq_succ (id k n : Nat) (h : idx id = k) (hlt : idx id < n) (hn : n < 4294967296) :
    id = k + 1 := by
  unfold idx at h hlt
  by_cases h0 : id = 0
  · rw [if_pos h0] at hlt
    omega
  · rw [if_neg h0] at h
    omega

theorem recoveryStep_length (c : Constants) (uninit : Nat) (s : FS) (fuel : Nat)
    (dir : Directory) (b r : List Bool) (link : List Char)
    (hstep : recoveryStep c uninit s fuel dir b link = some r) : r.length = b.length := by
  rcases recoveryStep_cases c uninit s fuel dir b r link hstep with
    ⟨-, rfl⟩ | ⟨-, -, ⟨-, child, -, hrec⟩ | ⟨-, file, -, hmark⟩ | ⟨t, -, -, -, rfl⟩⟩
  · rfl
  · exact recursiveRecovery_length c uninit s _ _ _ _ hrec
  · exact markAll_length _ _ _ hmark
  · rfl

/-- In a completed fold over the links, the step for each link was taken on flags of the
same length, and what it set is still set at the end. -/
theorem foldlM_recoveryStep (c : Constants) (uninit : Nat) (s : FS) (fuel : Nat)
    (dir : Directory) :
    ∀ (l : List (List Char)) (b r : List Bool) (a : List Char),
      l.foldlM (recoveryStep c uninit s fuel dir) b = some r → a ∈ l →
      ∃ b1 r1, b1.length = b.length ∧ recoveryStep c uninit s fuel dir b1 a = some r1 ∧
        FlagLe r1 r := by
  intro l
  induction l with
  | nil => intro b r a _ ha; cases ha
  | cons x t ih =>
    intro b r a h ha
    rw [List.foldlM_cons] at h
    cases hgx : recoveryStep c uninit s fuel dir b x with
    | none => rw [hgx] at h; cases h
    | some b1 =>
      rw [hgx] at h
      rcases List.mem_cons.mp ha with rfl | ha
      · refine ⟨b, b1, rfl, hgx, ?_⟩
        exact foldlM_option_inv (fun r => FlagLe b1 r) _
          (fun b' a' r' hb' hstep => hb'.trans (recoveryStep_le c uninit s fuel dir b' r' a' hstep))
          t b1 r (FlagLe.refl _) h
      · obtain ⟨b2, r2, h1, h2, h3⟩ := ih b1 r a h ha
        exact ⟨b2, r2, by rw [h1, recoveryStep_length c uninit s fuel dir b b1 x hgx], h2, h3⟩

/-- Every flag that the traversal sets belongs to an id that it marks. -/
theorem recursiveRecovery_sound (c : Constants) (uninit : Nat) (s : FS) :
    ∀ (fuel : Nat) (f f1 : List Bool) (dir : Directory),
      recursiveRecovery c uninit s fuel f dir = some f1 → f.length < 4294967296 →
      ∀ k : Nat, f1[k]? = some true → f[k]? = some true ∨ Marks c uninit s dir (k + 1) := by
  intro fuel
  induction fuel with
  | zero =>
    intro f f1 dir h
    unfold recursiveRecovery at h
    cases h
  | succ fuel ih =>
    intro f f1 dir h hlen
    rw [recursiveRecovery_succ] at h
    cases hm : markAll f (dir.inode.id :: dir.entryLists.map DirectoryEntryList.id) with
    | none => rw [hm] at h; cases h
    | some f0 =>
      rw [hm] at h
      simp only [Option.some_bind] at h
      obtain ⟨hm1, hm2⟩ := markAll_spec _ f f0 hm
      have hP0 : f0.length = f.length ∧
          ∀ k : Nat, f0[k]? = some true → f[k]? = some true ∨ Marks c uninit s dir (k + 1) := by
        refine ⟨markAll_length _ _ _ hm, ?_⟩
        intro k hk
        rcases (hm2 k).mp hk with hk | ⟨id, hid, hidx⟩
        · exact Or.inl hk
        · right
          have := idx_eq_succ id k f.length hidx (hm1 id hid) hlen
          rw [← this]
          rcases List.mem_cons.mp hid with rfl | hid
          · exact Marks.inode dir
          · obtain ⟨l, hl, rfl⟩ := List.mem_map.mp hid
            exact Marks.list dir l hl
      have := foldlM_option_inv_mem
        (fun g => g.length = f.length ∧
          ∀ k : Nat, g[k]? = some true → f[k]? = some true ∨ Marks c uninit s dir (k + 1))
        (recoveryStep c uninit s fuel dir) dir.ls f0 f1 ?_ hP0 h
      · exact this.2
      · intro b link r hlink ⟨hbl, hb⟩ hstep
        refine ⟨by rw [recoveryStep_length c uninit s fuel dir b r link hstep, hbl], ?_⟩
        intro k hk
        rcases recoveryStep_cases c uninit s fuel dir b r link hstep with
          ⟨-, rfl⟩ | ⟨hl1, hl2, ⟨hp, child, hc, hrec⟩ | ⟨hp, file, hf, hmark⟩ | ⟨t, -, -, -, rfl⟩⟩
        · exact hb k hk
        · rcases ih b r child hrec (by omega) k hk with h1 | h1
          · exact hb k h1
          · exact Or.inr (Marks.child dir link child _ hlink hl1 hl2 hp hc h1)
        · obtain ⟨g1, g2⟩ := markAll_spec _ b r hmark
          rcases (g2 k).mp hk with h1 | ⟨id, hid, hidx⟩
          · exact hb k h1
          · have := idx_eq_succ id k b.length hidx (g1 id hid) (by omega)
            rw [← this]
            exact Or.inr (Marks.file dir link file id hlink hl1 hl2 hp hf hid)
        · exact hb k hk

/-- Every id that the traversal marks has its flag set when the traversal returns. -/
theorem recursiveRecovery_complete (c : Constants) (uninit : Nat) (s : FS)
    (dir : Directory) (id : Nat) (hmk : Marks c uninit s dir id) :
    ∀ (fuel : Nat) (f f1 : List Bool),
      recursiveRecovery c uninit s fuel f dir = some f1 → f.length < 4294967296 →
      id ≠ 0 ∧ f1[id - 1]? = some true := by
  induction hmk with
  | inode dir =>
    intro fuel f f1 h hlen
    cases fuel with
    | zero => unfold recursiveRecovery at h; cases h
    | succ fuel =>
      have hle := recursiveRecovery_le c uninit s _ _ _ _ h
      rw [recursiveRecovery_succ] at h
      cases hm : markAll f (dir.inode.id :: dir.entryLists.map DirectoryEntryList.id) with
      | none => rw [hm] at h; cases h
      | some f0 =>
        rw [hm] at h
        simp only [Option.some_bind] at h
        obtain ⟨hm1, hm2⟩ := markAll_spec _ f f0 hm
        have hid := idx_eq_succ dir.inode.id _ f.length rfl
          (hm1 _ (List.mem_cons_self _ _)) hlen
        have h0 : f0[idx dir.inode.id]? = some true :=
          (hm2 _).mpr (Or.inr ⟨_, List.mem_cons_self _ _, rfl⟩)
        have hfold : FlagLe f0 f1 := foldlM_option_inv (fun r => FlagLe f0 r) _
          (fun b' a' r' hb' hstep => hb'.trans (recoveryStep_le c uninit s fuel dir b' r' a' hstep))
          dir.ls f0 f1 (FlagLe.refl _) h
        refine ⟨by omega, ?_⟩
        have := hfold _ h0
        have e : idx dir.inode.id = dir.inode.id - 1 := by omega
        rw [e] at this
        exact this
  | list dir l hl =>
    intro fuel f f1 h hlen
    cases fuel with
    | zero => unfold recursiveRecovery at h; cases h
    | succ fuel =>
      rw [recursiveRecovery_succ] at h
      cases hm : markAll f (dir.inode.id :: dir.entryLists.map DirectoryEntryList.id) with
      | none => rw [hm] at h; cases h
      | some f0 =>
        rw [hm] at h
        simp only [Option.some_bind] at h
        obtain ⟨hm1, hm2⟩ := markAll_spec _ f f0 hm
        have hmem : l.id ∈ dir.inode.id :: dir.entryLists.map DirectoryEntryList.id :=
          List.mem_cons_of_mem _ (List.mem_map.mpr ⟨l, hl, rfl⟩)
        have hid := idx_eq_succ l.id _ f.length rfl (hm1 _ hmem) hlen
        have h0 : f0[idx l.id]? = some true := (hm2 _).mpr (Or.inr ⟨_, hmem, rfl⟩)
        have hfold : FlagLe f0 f1 := foldlM_option_inv (fun r => FlagLe f0 r) _
          (fun b' a' r' hb' hstep => hb'.trans (recoveryStep_le c uninit s fuel dir b' r' a' hstep))
          dir.ls f0 f1 (FlagLe.refl _) h
        refine ⟨by omega, ?_⟩
        have := hfold _ h0
        have e : idx l.id = l.id - 1 := by omega
        rw [e] at this
        exact this
  | file dir link file id hlink hl1 hl2 hp hf hid =>
    intro fuel f f1 h hlen
    cases fuel with
    | zero => unfold recursiveRecovery at h; cases h
    | succ fuel =>
      rw [recursiveRecovery_succ] at h
      cases hm : markAll f (dir.inode.id :: dir.entryLists.map DirectoryEntryList.id) with
      | none => rw [hm] at h; cases h
      | some f0 =>
        rw [hm] at h
        simp only [Option.some_bind] at h
        obtain ⟨b1, r1, hb1, hstep, hle⟩ := foldlM_recoveryStep c uninit s fuel dir dir.ls f0 f1
          link h hlink
        have hb1' : b1.length < 4294967296 := by
          rw [hb1, markAll_length _ _ _ hm]; exact hlen
        rcases recoveryStep_cases c uninit s fuel dir b1 r1 link hstep with
          ⟨hdot, -⟩ | ⟨-, -, ⟨hp', -⟩ | ⟨-, file', hf', hmark⟩ | ⟨t, hp', -, htf, -⟩⟩
        · rcases hdot with e | e
          · exact absurd e hl1
          · exact absurd e hl2
        · rw [hp] at hp'
          exact absurd (Option.some.inj hp') (by decide)
        · rw [hf] at hf'
          cases hf'
          obtain ⟨g1, g2⟩ := markAll_spec _ b1 r1 hmark
          have hidd := idx_eq_succ id _ b1.length rfl (g1 id hid) hb1'
          have h0 : r1[idx id]? = some true := (g2 _).mpr (Or.inr ⟨id, hid, rfl⟩)
          refine ⟨by omega, ?_⟩
          have := hle _ h0
          have e : idx id = id - 1 := by omega
          rw [e] at this
          exact this
        · rw [hp] at hp'
          exact absurd (Option.some.inj hp').symm htf
  | child dir link childDir id hlink hl1 hl2 hp hc _ ih =>
    intro fuel f f1 h hlen
    cases fuel with
    | zero => unfold recursiveRecovery at h; cases h
    | succ fuel =>
      rw [recursiveRecovery_succ] at h
      cases hm : markAll f (dir.inode.id :: dir.entryLists.map DirectoryEntryList.id) with
      | none => rw [hm] at h; cases h
      | some f0 =>
        rw [hm] at h
        simp only [Option.some_bind] at h
        obtain ⟨b1, r1, hb1, hstep, hle⟩ := foldlM_recoveryStep c uninit s fuel dir dir.ls f0 f1
          link h hlink
        have hb1' : b1.length < 4294967296 := by
          rw [hb1, markAll_length _ _ _ hm]; exact hlen
        rcases recoveryStep_cases c uninit s fuel dir b1 r1 link hstep with
          ⟨hdot, -⟩ | ⟨-, -, ⟨-, child', hc', hrec⟩ | ⟨hp', -⟩ | ⟨t, hp', htd, -, -⟩⟩
        · rcases hdot with e | e
          · exact absurd e hl1
          · exact absurd e hl2
        · rw [hc] at hc'
          cases hc'
          obtain ⟨h1, h2⟩ := ih fuel b1 r1 hrec hb1'
          exact ⟨h1, hle _ h2⟩
        · rw [hp] at hp'
          exact absurd (Option.some.inj hp') (by decide)
        · rw [hp] at hp'
          exact absurd (Option.some.inj hp').symm htd

/-- The final loop of the recovery keeps the counter equal to the number of nonzero
entries. -/
theorem recoveryPrune_count (bmapFilter : List Bool) :
    ∀ (n i u : Nat) (bm : List Nat) (st' : Nat × List Nat),
      recoveryPrune bmapFilter n i (u, bm) = some st' → u = countNZ bm → u < 4294967296 →
      st'.1 = countNZ st'.2 := by
  intro n
  induction n with
  | zero =>
    intro i u bm st' h hu _
    simp [recoveryPrune] at h
    subst h
    exact hu
  | succ n ih =>
    intro i u bm st' h hu hlt
    unfold recoveryPrune at h
    cases hf : bmapFilter[i]? with
    | none => simp [hf] at h
    | some fl =>
      cases hb : bm[i]? with
      | none =>
        simp only [hf, hb] at h
        split at h
        · cases h
        · exact ih _ _ _ _ h hu hlt
      | some a =>
        simp only [hf, hb] at h
        split at h
        · rename_i hcond
          have hil : i < bm.length := (List.getElem?_eq_some_iff.mp hb).1
          have hc := countNZ_set bm i 0 hil
          have hget : bm[i] = a := by
            rw [List.getElem?_eq_getElem hil] at hb
            exact Option.some.inj hb
          rw [hget] at hc
          have ha : a ≠ 0 := by simpa using hcond.2
          simp only [ne_eq, ha, not_false_eq_true, if_true, not_true_eq_false, if_false,
            Nat.add_zero] at hc
          exact ih _ _ _ _ h (by omega) (by omega)
        · exact ih _ _ _ _ h hu hlt

/-- Steps 1 and 2 of the recovery on a zeroed block map end in a state that satisfies the
invariant of the sweep. -/
theorem recoverySwept_ord (s sB : FS) (n : Nat) (hL : s.logSize < 2147483648)
    (hb : s.bmap = List.replicate n 0) (hB : recoverySwept s = some sB) :
    ∃ lwp lt, SweepOrd s.logSize lwp s.log s.logSize sB.usedBlocks sB.bmap lt ∧
      sB.logSize = s.logSize ∧ sB.log = s.log := by
  unfold recoverySwept at hB
  cases hscan : recoveryScan s.log s.logSize 0 (0, 0, 0) with
  | none => rw [hscan] at hB; cases hB
  | some st =>
    obtain ⟨lwp, t, maxId⟩ := st
    rw [hscan] at hB
    simp only at hB
    cases hsw : recoverySweep s.logSize lwp s.log s.logSize 0
        (0, s.bmap, List.replicate s.logSize 0) with
    | none => rw [hsw] at hB; cases hB
    | some st2 =>
      obtain ⟨u, bm, lt⟩ := st2
      rw [hsw] at hB
      simp only [Option.some.injEq] at hB
      subst hB
      have h0 : SweepOrd s.logSize lwp s.log 0 0 s.bmap (List.replicate s.logSize 0) := by
        refine ⟨?_, ?_, ?_⟩
        · intro k p hk hp
          rw [hb] at hk
          exact absurd (getElem?_replicate_zero _ _ _ hk) hp
        · intro k _
          refine ⟨?_, fun m' _ hm' => by omega⟩
          by_cases hk : k < s.logSize
          · left; simp [List.getElem?_replicate, hk]
          · right; simp [List.getElem?_replicate, hk]
        · rw [hb, countNZ_replicate_zero]
          exact ⟨rfl, Nat.le_refl _⟩
      have hfin := recoverySweep_ord s.logSize lwp s.log hL s.logSize 0 0 _ _ _ (by omega) hsw h0
      simp only [Nat.zero_add] at hfin
      exact ⟨lwp, lt, hfin, rfl, rfl⟩

/-- The flags after the traversal of step 3 are those of the ids that the traversal from
the root directory marks. -/
theorem reachableFilter_marks (c : Constants) (uninit fuel : Nat) (s : FS) (f : List Bool)
    (hL : s.logSize < 4294967296) (h : reachableFilter c uninit fuel s = some f) :
    ∃ root, loadDirectory c uninit s 1 = some (some root) ∧
      ∀ k : Nat, f[k]? = some true ↔ Marks c uninit s root (k + 1) := by
  unfold reachableFilter at h
  cases hl : loadDirectory c uninit s 1 with
  | none => rw [hl] at h; cases h
  | some od =>
    cases od with
    | none => rw [hl] at h; cases h
    | some root =>
      rw [hl] at h
      simp only at h
      refine ⟨root, rfl, fun k => ⟨?_, ?_⟩⟩
      · intro hk
        rcases recursiveRecovery_sound c uninit s fuel _ f root h (by simpa using hL) k hk
          with h1 | h1
        · have := List.getElem?_mem h1
          simp at this
        · exact h1
      · intro hk
        have := (recursiveRecovery_complete c uninit s root (k + 1) hk fuel _ f h
          (by simpa using hL)).2
        simpa using this

/-- C29: step 3 of `reconstructBMap`, on the state `sB` that steps 1 and 2 reach from a
zeroed block map (`n >= logSize` entries, `logSize < 2^31` slots, ids up to `logSize`).
Whenever the traversal from the root directory (id 1) completes within some nesting depth
`fuel`, the recovery returns the same state for every larger bound, and in it an entry
`bmap[k]` is nonzero exactly when step 2 left it nonzero and the traversal marks the id
`k + 1` (`Marks`: directory INodes, their entry lists, and for regular files the primary
INode, the block lists and the data blocks, skipping "." and ".."); marked ids keep the
slot of step 2; `usedBlocks` is the number of nonzero entries. -/
theorem recovery_pass_c (c : Constants) (uninit : Nat) (s sB : FS) (n fuel : Nat)
    (bmapFilter : List Bool)
    (hlen : s.log.length = s.logSize) (hids : ∀ b, b ∈ s.log → b.id ≤ s.logSize)
    (hL : s.logSize < 2147483648) (hb : s.bmap = List.replicate n 0) (hn : s.logSize ≤ n)
    (hB : recoverySwept s = some sB)
    (hf : reachableFilter c uninit fuel sB = some bmapFilter) :
    ∃ root r, loadDirectory c uninit sB 1 = some (some root) ∧
      (∀ fuel1, fuel ≤ fuel1 → reconstructBMap c uninit fuel1 s = some r) ∧
      (∀ k, k < n →
        (r.bmap[k]? ≠ some 0 ↔ (sB.bmap[k]? ≠ some 0 ∧ Marks c uninit sB root (k + 1)))) ∧
      (∀ k, Marks c uninit sB root (k + 1) → r.bmap[k]? = sB.bmap[k]?) ∧
      r.usedBlocks = countNZ r.bmap := by
  obtain ⟨lwp, lt, hord, hBl, hlog⟩ := recoverySwept_ord s sB n hL hb hB
  have hbmlen : sB.bmap.length = n := by
    obtain ⟨⟨lwp', t, maxId⟩, hscan⟩ :=
      recoveryScan_total s.log s.logSize 0 (0, 0, 0) (by omega)
    have hlwp : lwp' ≤ s.logSize := by
      have := recoveryScan_ptr s.log s.logSize 0 (0, 0, 0) _ hscan (Nat.le_refl _)
      simpa using this
    obtain ⟨⟨u, bm, lt'⟩, hsw, hbl⟩ := recoverySweep_total s.logSize lwp' s.log hlen hids hlwp
      hL s.logSize 0 0 s.bmap (List.replicate s.logSize 0) (by omega)
      (by rw [hb]; simpa using hn) (by simp)
    have hr : recoverySwept s = some (recoveredState s lwp' maxId u bm) := by
      unfold recoverySwept
      rw [hscan]
      simp only
      rw [hsw]
    rw [hr] at hB
    rw [← Option.some.inj hB]
    show bm.length = n
    have : bm.length = s.bmap.length := hbl
    rw [this, hb]
    simp
  have hfl : bmapFilter.length = s.logSize := by
    rw [reachableFilter_length c uninit fuel sB bmapFilter hf, hBl]
  obtain ⟨root, hroot, hmarks⟩ := reachableFilter_marks c uninit fuel sB bmapFilter
    (by omega) hf
  obtain ⟨⟨u3, bm3⟩, hprune⟩ := recoveryPrune_total bmapFilter s.logSize 0 sB.usedBlocks
    sB.bmap (by omega) (by omega)
  have hspec := recoveryPrune_spec bmapFilter _ _ _ _ _ hprune
  have hzero : ∀ k, s.logSize ≤ k → k < n → sB.bmap[k]? = some 0 := by
    intro k hk hkn
    by_contra hne
    obtain ⟨m, b, -, -, h2, h3, -⟩ := hord.src k sB.bmap[k]
      (List.getElem?_eq_getElem (by omega))
      (by
        intro h
        apply hne
        rw [List.getElem?_eq_getElem (by omega), h])
    have := hids b (List.getElem?_mem h2)
    omega
  refine ⟨root, { sB with usedBlocks := u3, bmap := bm3 }, hroot, ?_, ?_, ?_, ?_⟩
  · intro fuel1 hle
    rw [reconstructBMap_eq, hB]
    simp only [Option.some_bind]
    rw [reachableFilter_mono c uninit fuel fuel1 sB bmapFilter hf hle]
    simp only [Option.some_bind]
    rw [hprune]
    rfl
  · intro k hk
    show bm3[k]? ≠ some 0 ↔ _
    by_cases hkl : k < s.logSize
    · obtain ⟨fl, e1, e2, e3⟩ := (hspec k).2 (Nat.zero_le _) (by omega)
      cases fl with
      | true =>
        rw [e2 rfl]
        exact ⟨fun h => ⟨h, (hmarks k).mp e1⟩, fun h => h.1⟩
      | false =>
        rw [e3 rfl]
        refine ⟨fun h => absurd rfl h, fun h => ?_⟩
        have := (hmarks k).mpr h.2
        rw [e1] at this
        cases this
    · have e := (hspec k).1 (Or.inr (by omega))
      have e0 : bm3[k]? = sB.bmap[k]? := e
      rw [e0, hzero k (by omega) hk]
      exact ⟨fun h => absurd rfl h, fun h => absurd rfl h.1⟩
  · intro k hk
    show bm3[k]? = _
    have hk1 := (hmarks k).mpr hk
    have hkl : k < s.logSize := by
      have := (List.getElem?_eq_some_iff.mp hk1).1
      omega
    obtain ⟨fl, e1, e2, -⟩ := (hspec k).2 (Nat.zero_le _) (by omega)
    rw [e1] at hk1
    exact e2 (Option.some.inj hk1)
  · show u3 = countNZ bm3
    have := hord.cnt
    exact recoveryPrune_count bmapFilter _ _ _ _ _ hprune this.1 (by omega)

theorem recovery_pass_c_witness :
    ∃ r, reconstructBMap demoConstants 0 2 pruneDemo = some r ∧
      r.usedBlocks = countNZ r.bmap ∧ r.bmap = [1, 2, 0, 0] ∧ r.usedBlocks = 2 := by
  obtain ⟨root, r, -, hr, -, -, hu⟩ := recovery_pass_c demoConstants 0 pruneDemo
    (recoveredState pruneDemo 3 3 3 [1, 2, 3, 0]) 4 2 [true, true, false, false]
    (by decide) (by decide) (by decide) rfl (by decide) (by decide) (by decide)
  have h := hr 2 (Nat.le_refl _)
  have h2 : (reconstructBMap demoConstants 0 2 pruneDemo).map (fun r => (r.bmap, r.usedBlocks))
      = some ([1, 2, 0, 0], 2) := by decide
  rw [h] at h2
  simp only [Option.map_some', Option.some.injEq, Prod.mk.injEq] at h2
  exact ⟨r, h, hu, h2.1, h2.2⟩

/-! ### Unmount and mount again -/

/-- C26: a mounted state `s` of the device `dev` (valid magic and size, `logSize` and the
length of the block map as `calcLayout` gives them) whose `write_ptr` and `usedBlocks`
pass the checks of the mount.  `umount` returns a device with `bmap_valid = 1` whose block
map region holds the block map of `s`; mounting that device returns exactly `s` again
(block map, `write_ptr`, `nextBlockID`, `usedBlocks`, log), whatever the indeterminate
values and the bound of the recovery are, so the block map is loaded and not
reconstructed; the mount leaves `bmap_valid = 0` on the device, and a mount of the device
in that state runs the recovery.  No other function of the embedding writes the header. -/
theorem umount_mount_round_trip (c : Constants) (s : FS) (dev : Device) (now : Nat)
    (hmagic : dev.magic = c.MAGIC)
    (hsize : c.FS_MIN_SIZE ≤ dev.size_b ∧ dev.size_b ≤ c.FS_MAX_SIZE)
    (hlog : s.logSize = (calcLayout c dev.size_b).2)
    (hbm : s.bmap.length = (calcLayout c dev.size_b).1 / 4)
    (hw : s.write_ptr ≠ 0 ∧ s.write_ptr ≤ s.logSize)
    (hu : s.usedBlocks ≠ 0 ∧ s.usedBlocks ≤ s.logSize) :
    ∃ dev1, umount c s now dev = some dev1 ∧ dev1.bmap_valid = 1 ∧
      dev1.bmap.take ((calcLayout c dev.size_b).1 / 4) = s.bmap ∧
      (∀ uninit fuel, mount c uninit fuel dev1 = some s) ∧
      (mountedDevice dev1).bmap_valid = 0 ∧
      (∀ uninit fuel, mount c uninit fuel (mountedDevice dev1) =
        reconstructBMap c uninit fuel { s with bmap := List.replicate s.bmap.length 0 }) := by
  have htake : (s.bmap.take ((calcLayout c dev.size_b).1 / 4) ++
      dev.bmap.drop ((calcLayout c dev.size_b).1 / 4)).take ((calcLayout c dev.size_b).1 / 4)
      = s.bmap := by
    rw [List.take_append_of_le_length (by rw [List.length_take]; omega), List.take_take,
      Nat.min_self, ← hbm, List.take_length]
  refine ⟨{ dev with
      bmap := s.bmap.take ((calcLayout c dev.size_b).1 / 4) ++
        dev.bmap.drop ((calcLayout c dev.size_b).1 / 4)
      write_ptr := s.write_ptr
      nextBlockID := s.nextBlockID
      usedBlocks := s.usedBlocks
      lastUmountTime := now
      bmap_valid := 1
      log := s.log }, ?_, rfl, htake, ?_, rfl, ?_⟩
  · unfold umount
    dsimp only
    rw [if_neg (by omega)]
  · intro uninit fuel
    unfold mount
    dsimp only
    rw [if_neg (by simpa using hmagic), if_neg (by omega), if_neg (by simpa using hw.1),
      if_neg (by simpa using hu.1)]
    rw [← hlog]
    rw [if_neg (by omega), if_pos rfl]
    rw [if_neg (by
      rw [List.length_append, List.length_take, List.length_drop]
      omega)]
    rw [htake]
  · intro uninit fuel
    unfold mount mountedDevice
    dsimp only
    rw [if_neg (by simpa using hmagic), if_neg (by omega), if_neg (by simpa using hw.1),
      if_neg (by simpa using hu.1)]
    rw [← hlog]
    rw [if_neg (by omega), if_neg (by decide), hbm]

theorem umount_mount_round_trip_witness :
    ∃ dev1, umount demoConstants cleanMounted 9 (mountedDevice cleanDevice) = some dev1 ∧
      dev1.bmap_valid = 1 ∧ mount demoConstants 0 0 dev1 = some cleanMounted := by
  obtain ⟨dev1, h1, h2, -, h3, -⟩ := umount_mount_round_trip demoConstants cleanMounted
    (mountedDevice cleanDevice) 9 (by decide) (by decide) (by decide)
    ((show cleanMounted.bmap.length = 1024 by
        simp only [cleanMounted, List.length_append, List.length_replicate, List.length_cons,
          List.length_nil]).trans
      (show (calcLayout demoConstants (mountedDevice cleanDevice).size_b).1 / 4 = 1024 by
        decide).symm)
    (by decide) (by decide)
  exact ⟨dev1, h1, h2, h3 0 0⟩

/-! ### The order of the names in a directory listing -/

theorem listNames_cons (l : DirectoryEntryList) (rest : List DirectoryEntryList) :
    listNames (l :: rest) = l.entries.map Hardlink.linkName ++ listNames rest := by
  simp [listNames]

theorem listNames_append (a b : List DirectoryEntryList) :
    listNames (a ++ b) = listNames a ++ listNames b := by
  simp [listNames]

theorem findLink_none_iff (es : List Hardlink) (name : List Char) :
    findLink es name = none ↔ name ∉ es.map Hardlink.linkName := by
  unfold findLink
  rw [List.find?_eq_none]
  simp only [decide_eq_true_eq, List.mem_map, not_exists, not_and]

theorem removeLink_names (es : List Hardlink) (name : List Char) :
    (removeLink es name).map Hardlink.linkName = (es.map Hardlink.linkName).erase name := by
  induction es with
  | nil => rfl
  | cons x t ih =>
    unfold removeLink
    rw [List.map_cons, List.erase_cons]
    by_cases hx : x.linkName = name
    · simp [hx]
    · rw [if_neg hx]
      simp only [List.map_cons, beq_iff_eq, hx, if_false, ih]

theorem getNextBlockIDLoop_frame (s : FS) : ∀ (n i id : Nat) (s' : FS),
    getNextBlockIDLoop s n i = some (id, s') →
    s'.usedBlocks = s.usedBlocks ∧ s'.logSize = s.logSize := by
  intro n
  induction n with
  | zero =>
    intro i id s' h
    unfold getNextBlockIDLoop at h
    cases h
    exact ⟨rfl, rfl⟩
  | succ n ih =>
    intro i id s' h
    unfold getNextBlockIDLoop at h
    dsimp only at h
    split at h
    · cases h
    · split at h
      · cases h
        exact ⟨rfl, rfl⟩
      · exact ih _ _ _ h

theorem getNextBlockID_frame (s s' : FS) (id : Nat) (h : getNextBlockID s = some (id, s')) :
    s'.usedBlocks = s.usedBlocks ∧ s'.logSize = s.logSize := by
  unfold getNextBlockID at h
  split at h
  · cases h
    exact ⟨rfl, rfl⟩
  · exact getNextBlockIDLoop_frame s _ _ _ _ h

/-- With a free block the allocator callback returns a new, empty entry list. -/
theorem allocDirEntryList_some (s s1 : FS) (r : Option DirectoryEntryList)
    (hfree : (s.usedBlocks + 1) % 4294967296 ≤ s.logSize)
    (h : allocDirEntryList s = some (s1, r)) :
    (∃ id, r = some ⟨id, 0, []⟩) ∧ s1.usedBlocks = s.usedBlocks ∧ s1.logSize = s.logSize := by
  unfold allocDirEntryList at h
  rw [if_neg (by omega)] at h
  split at h
  · cases h
  · rename_i id s' hg
    cases h
    exact ⟨⟨id, rfl⟩, getNextBlockID_frame s _ id hg⟩

theorem addToLists_none (c : Constants) (link : Hardlink) :
    ∀ (lists : List DirectoryEntryList) (i : Nat), addToLists c link lists i = none →
      ∀ l, l ∈ lists → c.MAX_LINKS_PER_DIRENTRYLIST ≤ l.entries.length := by
  intro lists
  induction lists with
  | nil => intro i _ l hl; cases hl
  | cons x rest ih =>
    intro i h l hl
    unfold addToLists at h
    split at h
    · rename_i hfull
      split at h
      · rename_i hrest
        rcases List.mem_cons.mp hl with rfl | hl
        · exact hfull
        · exact ih _ hrest l hl
      · cases h
    · cases h

theorem addToLists_some (c : Constants) (link : Hardlink) :
    ∀ (lists lists' : List DirectoryEntryList) (i k : Nat),
      addToLists c link lists i = some (k, lists') →
      (∀ l, l ∈ lists.dropLast → c.MAX_LINKS_PER_DIRENTRYLIST ≤ l.entries.length) →
      listNames lists' = listNames lists ++ [link.linkName] ∧ lists' ≠ [] ∧
      ∀ l, l ∈ lists'.dropLast → c.MAX_LINKS_PER_DIRENTRYLIST ≤ l.entries.length := by
  intro lists
  induction lists with
  | nil =>
    intro lists' i k h
    unfold addToLists at h
    cases h
  | cons x rest ih =>
    intro lists' i k h hP
    unfold addToLists at h
    split at h
    · rename_i hfull
      split at h
      · cases h
      · rename_i k' rest' hrest
        cases h
        have hne : rest ≠ [] := by
          rintro rfl
          unfold addToLists at hrest
          cases hrest
        obtain ⟨y, t, rfl⟩ := List.exists_cons_of_ne_nil hne
        obtain ⟨h1, h2, h3⟩ := ih rest' (i + 1) _ hrest (fun l hl => hP l (by
          rw [List.dropLast_cons₂]
          exact List.mem_cons_of_mem _ hl))
        refine ⟨by rw [listNames_cons, listNames_cons, h1, List.append_assoc], by simp, ?_⟩
        obtain ⟨y', t', rfl⟩ := List.exists_cons_of_ne_nil h2
        intro l hl
        rw [List.dropLast_cons₂] at hl
        rcases List.mem_cons.mp hl with rfl | hl
        · exact hfull
        · exact h3 l hl
    · rename_i hroom
      cases h
      have hrest : rest = [] := by
        by_contra hne
        obtain ⟨y, t, rfl⟩ := List.exists_cons_of_ne_nil hne
        exact hroom (hP x (by rw [List.dropLast_cons₂]; exact List.mem_cons_self _ _))
      subst hrest
      refine ⟨by simp [listNames], by simp, ?_⟩
      intro l hl
      simp at hl

theorem rmFromLists_none (name : List Char) :
    ∀ (lists : List DirectoryEntryList) (i : Nat), rmFromLists name lists i = none →
      ∀ l, l ∈ lists → findLink l.entries name = none := by
  intro lists
  induction lists with
  | nil => intro i _ l hl; cases hl
  | cons x rest ih =>
    intro i h l hl
    unfold rmFromLists at h
    split at h
    · cases h
    · rename_i hx
      split at h
      · rename_i hrest
        rcases List.mem_cons.mp hl with rfl | hl
        · exact hx
        · exact ih _ hrest l hl
      · cases h

theorem rmFromLists_some (name : List Char) :
    ∀ (lists lists' : List DirectoryEntryList) (i k : Nat) (e : Bool),
      rmFromLists name lists i = some (k, e, lists') →
      (∀ l, l ∈ lists.dropLast → findLink l.entries name = none) →
      listNames lists' = (listNames lists).erase name ∧ lists' ≠ [] ∧
      ∀ (P : DirectoryEntryList → Prop), (∀ l, l ∈ lists.dropLast → P l) →
        ∀ l, l ∈ lists'.dropLast → P l := by
  intro lists
  induction lists with
  | nil =>
    intro lists' i k e h
    unfold rmFromLists at h
    cases h
  | cons x rest ih =>
    intro lists' i k e h hP
    unfold rmFromLists at h
    split at h
    · rename_i hl hx
      cases h
      have hrest : rest = [] := by
        by_contra hne
        obtain ⟨y, t, rfl⟩ := List.exists_cons_of_ne_nil hne
        have := hP x (by rw [List.dropLast_cons₂]; exact List.mem_cons_self _ _)
        rw [this] at hx
        cases hx
      subst hrest
      refine ⟨by simp [listNames, removeLink_names], by simp, ?_⟩
      intro P _ l hl
      simp at hl
    · rename_i hx
      split at h
      · cases h
      · rename_i k' e' rest' hrest
        cases h
        have hne : rest ≠ [] := by
          rintro rfl
          unfold rmFromLists at hrest
          cases hrest
        obtain ⟨y, t, rfl⟩ := List.exists_cons_of_ne_nil hne
        obtain ⟨h1, h2, h3⟩ := ih rest' (i + 1) _ _ hrest (fun l hl => hP l (by
          rw [List.dropLast_cons₂]
          exact List.mem_cons_of_mem _ hl))
        refine ⟨?_, by simp, ?_⟩
        · rw [listNames_cons, listNames_cons, h1,
            List.erase_append_right _ ((findLink_none_iff _ _).mp hx)]
        · obtain ⟨y', t', rfl⟩ := List.exists_cons_of_ne_nil h2
          intro P hPl l hl
          rw [List.dropLast_cons₂] at hl
          rcases List.mem_cons.mp hl with rfl | hl
          · exact hPl _ (by rw [List.dropLast_cons₂]; exact List.mem_cons_self _ _)
          · exact h3 P (fun l hl => hPl l (by
              rw [List.dropLast_cons₂]
              exact List.mem_cons_of_mem _ hl)) l hl

theorem ls_inlined (d : Directory) (h : d.inode.inlined = true) :
    d.ls = d.inode.entries.map Hardlink.linkName := by
  unfold Directory.ls
  rw [if_pos h]

theorem ls_external (d : Directory) (h : d.inode.inlined = false) :
    d.ls = listNames d.entryLists := by
  unfold Directory.ls
  rw [if_neg (by simp [h])]
  rfl

theorem addDirEntryList_inlined (c : Constants) (n : DirectoryINode) (id : Nat) :
    (addDirEntryList c n id).inlined = n.inlined := by
  unfold addDirEntryList
  split
  · rfl
  · split <;> rfl

theorem not_mem_listNames (name : List Char) (lists : List DirectoryEntryList)
    (h : ∀ l, l ∈ lists → findLink l.entries name = none) : name ∉ listNames lists := by
  induction lists with
  | nil => simp [listNames]
  | cons x rest ih =>
    rw [listNames_cons, List.mem_append]
    rintro (hx | hx)
    · exact (findLink_none_iff _ _).mp (h x (List.mem_cons_self _ _)) hx
    · exact ih (fun l hl => h l (List.mem_cons_of_mem _ hl)) hx

/-- The second half of `addHardlink` on a packed sequence of entry lists: the name goes to
the end of the listing. -/
theorem addHardlinkLists_order (c : Constants) (hc : 0 < c.MAX_LINKS_PER_DIRENTRYLIST)
    (s s' : FS) (d d' : Directory) (target t' : INode) (link : Hardlink)
    (refs refs' : List Ref)
    (hex : d.inode.inlined = false)
    (hP : ∀ l, l ∈ d.entryLists.dropLast → c.MAX_LINKS_PER_DIRENTRYLIST ≤ l.entries.length)
    (hfree : (s.usedBlocks + 1) % 4294967296 ≤ s.logSize)
    (h : addHardlinkLists c s d target link refs = some (s', d', t', refs')) :
    d'.inode.inlined = false ∧ listNames d'.entryLists = listNames d.entryLists ++ [link.linkName] ∧
    ∀ l, l ∈ d'.entryLists.dropLast → c.MAX_LINKS_PER_DIRENTRYLIST ≤ l.entries.length := by
  unfold addHardlinkLists at h
  split at h
  · rename_i k lists hadd
    cases h
    obtain ⟨h1, -, h3⟩ := addToLists_some c link _ _ _ _ hadd hP
    exact ⟨hex, h1, h3⟩
  · rename_i hadd
    have hfull := addToLists_none c link _ _ hadd
    split at h
    · cases h
    · rename_i s1 halloc
      obtain ⟨⟨id, hid⟩, -, -⟩ := allocDirEntryList_some s s1 none hfree halloc
      cases hid
    · rename_i s1 newDirEntryList halloc
      obtain ⟨⟨id, hid⟩, -, -⟩ := allocDirEntryList_some s s1 _ hfree halloc
      cases hid
      cases h
      refine ⟨by rw [addDirEntryList_inlined]; exact hex, ?_, ?_⟩
      · dsimp only
        rw [listNames_append]
        have : ¬ ((⟨id, 0, []⟩ : DirectoryEntryList).entries.length
            ≥ c.MAX_LINKS_PER_DIRENTRYLIST) := by
          simp only [List.length_nil]
          omega
        rw [if_neg this]
        simp [listNames]
      · dsimp only
        rw [List.dropLast_concat]
        exact hfull

/-- One successful `addHardlink` on a packed directory appends the name to the listing
and leaves the directory packed. -/
theorem addHardlink_order (c : Constants) (hc : 0 < c.MAX_LINKS_PER_DIRENTRYLIST)
    (s s' : FS) (d d' : Directory) (target t' : INode) (name : List Char) (refs : List Ref)
    (hP : Packed c d)
    (h1 : d.searchHardlink name = 0) (h2 : d.childCount ≠ c.MAX_HARDLINKS_PER_DIR)
    (h3 : target.linkCounter ≠ MAX_NUMBER_OF_LINKS_TO_INODE)
    (hfree : (s.usedBlocks + 1) % 4294967296 ≤ s.logSize)
    (h : d.addHardlink c s target name = some (s', d', t', refs)) :
    d'.ls = d.ls ++ [name] ∧ Packed c d' := by
  unfold Directory.addHardlink at h
  rw [if_neg (by simpa using h1), if_neg h2, if_neg h3] at h
  dsimp only at h
  cases hin : d.inode.inlined with
  | true =>
    obtain ⟨hlen, hnil⟩ := hP.1 hin
    rw [if_pos hin] at h
    split at h
    · rename_i hroom
      cases h
      refine ⟨?_, ?_, ?_⟩
      · rw [ls_inlined _ hin, ls_inlined _ (by exact hin)]
        simp
      · intro _
        exact ⟨by simp only [List.length_append, List.length_singleton]; omega, hnil⟩
      · intro hf
        rw [hin] at hf
        cases hf
    · rename_i hroom
      split at h
      · cases h
      · rename_i s1 halloc
        obtain ⟨⟨id, hid⟩, -, -⟩ := allocDirEntryList_some s s1 none hfree halloc
        cases hid
      · rename_i s1 newDirEntryList halloc
        obtain ⟨⟨id, hid⟩, hu, hl⟩ := allocDirEntryList_some s s1 _ hfree halloc
        cases hid
        have hconv : ∃ n1 l1, convertToNonInline c d.inode ⟨id, 0, []⟩ = (n1, l1) ∧
            n1.inlined = false ∧ l1.entries = d.inode.entries := by
          unfold convertToNonInline
          rw [if_pos hlen]
          exact ⟨_, _, rfl, rfl, rfl⟩
        obtain ⟨n1, l1, hc1, hc2, hc3⟩ := hconv
        rw [hc1] at h
        dsimp only at h
        rw [hnil] at h
        obtain ⟨g1, g2, g3⟩ := addHardlinkLists_order c hc s1 s' _ d' _ t' _ _ refs hc2
          (by
            intro l hl
            simp at hl)
          (by rw [hu, hl]; exact hfree) h
        refine ⟨?_, ?_, ?_⟩
        · rw [ls_external _ g1, g2, ls_inlined _ hin]
          simp [listNames, hc3]
        · intro hf
          rw [g1] at hf
          cases hf
        · intro _
          exact g3
  | false =>
    rw [if_neg (by simp [hin])] at h
    obtain ⟨g1, g2, g3⟩ := addHardlinkLists_order c hc s s' d d' _ t' _ _ refs hin
      (hP.2 hin) hfree h
    refine ⟨?_, ?_, ?_⟩
    · rw [ls_external _ g1, g2, ls_external _ hin]
    · intro hf
      rw [g1] at hf
      cases hf
    · intro _
      exact g3

/-- One `rmHardlink` with a valid name that, in a directory with entry lists, only the
last list may hold: the first link of that name leaves the listing, and a packed
directory stays packed. -/
theorem rmHardlink_order (c : Constants) (s s' : FS) (d d' : Directory) (target t' : INode)
    (name : List Char) (refs : List Ref) (hP : Packed c d)
    (hname : ¬ (name = [] ∨ '/' ∈ name))
    (hlast : d.inode.inlined = false →
      ∀ l, l ∈ d.entryLists.dropLast → findLink l.entries name = none)
    (h : d.rmHardlink s target name = some (s', d', t', refs)) :
    d'.ls = d.ls.erase name ∧ Packed c d' := by
  unfold Directory.rmHardlink at h
  rw [if_neg hname] at h
  dsimp only at h
  cases hin : d.inode.inlined with
  | true =>
    obtain ⟨hlen, hnil⟩ := hP.1 hin
    rw [if_pos hin] at h
    cases h
    refine ⟨?_, ?_, ?_⟩
    · rw [ls_inlined _ hin, ls_inlined _ (by exact hin)]
      exact removeLink_names _ _
    · intro _
      exact ⟨Nat.le_trans (removeLink_length_le _ _) hlen, hnil⟩
    · intro hf
      rw [hin] at hf
      cases hf
  | false =>
    rw [if_neg (by simp [hin])] at h
    split at h
    · rename_i hrm
      cases h
      have hno := rmFromLists_none name _ _ hrm
      refine ⟨?_, ?_, ?_⟩
      · rw [ls_external _ hin, ls_external _ (by exact hin)]
        symm
        exact List.erase_of_not_mem (not_mem_listNames name _ hno)
      · intro hf
        rw [hin] at hf
        cases hf
      · intro _
        exact hP.2 hin
    · rename_i k lists hrm
      cases h
      obtain ⟨g1, -, g3⟩ := rmFromLists_some name _ _ _ _ _ hrm (hlast hin)
      refine ⟨?_, ?_, ?_⟩
      · rw [ls_external _ hin, ls_external _ (by exact hin)]
        exact g1
      · intro hf
        rw [hin] at hf
        cases hf
      · intro _
        exact g3 _ (hP.2 hin)
    · cases h

/-- C23 (amended): for every sequence of successful `addHardlink` / `rmHardlink` calls on
a directory object that starts packed (inlined, or with every entry list but the last
full), where each `rmHardlink` on a directory with entry lists removes a link of the last
list (`DirOp.ok`), `ls` returns the names in the order in which the surviving links were
added, and the directory stays packed. -/
theorem ls_insertion_order (c : Constants) (hc : 0 < c.MAX_LINKS_PER_DIRENTRYLIST)
    (x z : FS × Directory) (ops : List DirOp) (hP : Packed c x.2)
    (h : OrderedRun c x ops z) :
    z.2.ls = ops.foldl insertionOrder x.2.ls ∧ Packed c z.2 := by
  induction h with
  | nil => exact ⟨rfl, hP⟩
  | snoc ops op y z _ hok hrun ih =>
    obtain ⟨ih1, ih2⟩ := ih
    rw [List.foldl_append, List.foldl_cons, List.foldl_nil, ← ih1]
    cases op with
    | add target name =>
      obtain ⟨h1, h2, h3, h4⟩ := hok
      simp only [DirOp.run] at hrun
      show z.2.ls = y.2.ls ++ [name] ∧ _
      cases hr : Directory.addHardlink c y.1 y.2 target name with
      | none => rw [hr] at hrun; cases hrun
      | some r =>
        obtain ⟨s', d', t', refs⟩ := r
        rw [hr] at hrun
        cases hrun
        exact addHardlink_order c hc y.1 s' y.2 d' target t' name refs ih2 h1 h2 h3 h4 hr
    | rm target name =>
      obtain ⟨h1, h2⟩ := hok
      simp only [DirOp.run] at hrun
      show z.2.ls = y.2.ls.erase name ∧ _
      cases hr : Directory.rmHardlink y.1 y.2 target name with
      | none => rw [hr] at hrun; cases hrun
      | some r =>
        obtain ⟨s', d', t', refs⟩ := r
        rw [hr] at hrun
        cases hrun
        exact rmHardlink_order c y.1 s' y.2 d' target t' name refs ih2 h1 h2 hr

set_option maxRecDepth 1000000 in
/-- C23 (counterexample): the root directory object of `fullRoot` (inlined, 127 entries;
`loadDirectory` returns it).  Adding "y" converts it to two entry lists (127 entries and
"y"), removing the first child leaves room in the first list, and the link "z" that is
added next is placed there: `ls` ends with "z", "y", although "y" was added before "z". -/
theorem ls_order_after_hole :
    loadDirectory demoConstants 0 fullRoot 1 = some (some fullRootDir) ∧
    (holeOps.foldlM (DirOp.run demoConstants) (fullRoot, fullRootDir)).map
      (fun z => (z.2.ls.length, z.2.ls.drop 126)) = some (128, [['z'], ['y']]) ∧
    (holeOps.foldl insertionOrder fullRootDir.ls).drop 126 = [['y'], ['z']] := by
  refine ⟨by decide, by decide, by decide⟩

theorem ls_insertion_order_witness :
    ∃ z, OrderedRun demoConstants (inlineRoot, inlineRootDir)
        ([] ++ [.add ⟨2, 0, 0, 0, 2, true, 0⟩ ['a']] ++ [.add ⟨3, 0, 0, 0, 2, true, 0⟩ ['b']]
          ++ [.rm ⟨2, 0, 0, 0, 2, true, 1⟩ ['a']]) z ∧
      z.2.ls = [['.'], ['.', '.'], ['b']] := by
  have h1 : OrderedRun demoConstants (inlineRoot, inlineRootDir)
      ([] ++ [.add ⟨2, 0, 0, 0, 2, true, 0⟩ ['a']]) _ :=
    OrderedRun.snoc [] _ _ _ OrderedRun.nil
      (show _ ∧ _ ∧ _ ∧ _ from ⟨by decide, by decide, by decide, by decide⟩) rfl
  have h2 := OrderedRun.snoc _ (.add ⟨3, 0, 0, 0, 2, true, 0⟩ ['b']) _ _ h1
    (show _ ∧ _ ∧ _ ∧ _ from ⟨by decide, by decide, by decide, by decide⟩) rfl
  have h3 := OrderedRun.snoc _ (.rm ⟨2, 0, 0, 0, 2, true, 1⟩ ['a']) _ _ h2
    (show _ ∧ _ from ⟨by decide, fun h => by cases h⟩) rfl
  have hP : Packed demoConstants (inlineRoot, inlineRootDir).2 :=
    ⟨fun _ => ⟨by decide, rfl⟩, fun h => by cases h⟩
  exact ⟨_, h3, (ls_insertion_order demoConstants (by decide) _ _ _ hP h3).1⟩

/-! ### Hard links to files -/

/-- What a successful `link` has checked: the parent of the new link exists, it holds the
last name of the target path, and that entry is a regular file that can be loaded. -/
theorem link_true (c : Constants) (pu : PathUtils) (uninit : Nat) (now : Nat → Nat)
    (s s' : FS) (src tgt : List Char)
    (h : link c pu uninit now s src tgt = some (true, s')) :
    ∃ parent file,
      searchParent c pu uninit s (pu.normalizePath src) = some (some parent) ∧
      parent.searchHardlink (pu.lastName (pu.normalizePath src)) = 0 ∧
      parent.searchHardlink (pu.lastName (pu.normalizePath tgt)) ≠ 0 ∧
      peekINodeType s (parent.searchHardlink (pu.lastName (pu.normalizePath tgt))) =
        some INODE_TYPE_REGULARFILE ∧
      loadFile c s (parent.searchHardlink (pu.lastName (pu.normalizePath tgt))) =
        some (some file) := by
  unfold link at h
  dsimp only at h
  split at h
  · simp at h
  · split at h
    · simp at h
    · split at h
      · simp at h
      · simp at h
      · rename_i parent hparent
        split at h
        · simp at h
        · rename_i hsrc
          split at h
          · simp at h
          · split at h
            · simp at h
            · simp at h
            · split at h
              · simp at h
              · rename_i htgt
                split at h
                · simp at h
                · rename_i t ht
                  split at h
                  · simp at h
                  · rename_i htype
                    split at h
                    · simp at h
                    · simp at h
                    · rename_i file hfile
                      refine ⟨parent, file, hparent, by simpa using hsrc, htgt, ?_, hfile⟩
                      rw [ht]
                      simpa using htype

set_option maxRecDepth 1000000 in
/-- C22: `link` looks the last name of the target path up in the parent directory of the
new link: whenever it returns true, that parent exists, does not hold the last name of the
new path yet, holds an entry under the last name of the target path, and this entry is a
regular file.  Failing input: on `sixSlotsFile`, `link` of the path "/" followed by the 28
characters of `longName` to "/f" returns true and the persisted link counter of the file
(INode 2) goes from 1 to 2, but the persisted root directory does not map the last name of
the new path (the lookup gives 0): it holds the link to INode 2 under a name of 27
characters. -/
theorem link_in_source_parent :
    (∀ (c : Constants) (pu : PathUtils) (uninit : Nat) (now : Nat → Nat) (s s' : FS)
      (src tgt : List Char), link c pu uninit now s src tgt = some (true, s') →
      ∃ parent file,
        searchParent c pu uninit s (pu.normalizePath src) = some (some parent) ∧
        parent.searchHardlink (pu.lastName (pu.normalizePath src)) = 0 ∧
        parent.searchHardlink (pu.lastName (pu.normalizePath tgt)) ≠ 0 ∧
        peekINodeType s (parent.searchHardlink (pu.lastName (pu.normalizePath tgt))) =
          some INODE_TYPE_REGULARFILE ∧
        loadFile c s (parent.searchHardlink (pu.lastName (pu.normalizePath tgt))) =
          some (some file)) ∧
    (loadFile demoConstants sixSlotsFile 2).map (Option.map (fun f => f.inode.linkCounter)) =
      some (some 1) ∧
    (link demoConstants specPathUtils 0 (clockFrom 30) sixSlotsFile ('/' :: longName)
        ['/', 'f']).map (fun r => (r.1,
          (loadFile demoConstants r.2 2).map (Option.map (fun f => f.inode.linkCounter)))) =
      some (true, some (some 2)) ∧
    (link demoConstants specPathUtils 0 (clockFrom 30) sixSlotsFile ('/' :: longName)
        ['/', 'f']).map (fun r =>
          (loadDirectory demoConstants 0 r.2 1).map (Option.map (fun d =>
            (d.searchHardlink longName, d.searchHardlink (List.replicate 27 'a'))))) =
      some (some (some (0, 2))) ∧
    (link demoConstants specPathUtils 0 (clockFrom 30) sixSlotsFile ('/' :: longName)
        ['/', 'f']).map (fun r => persistedNames demoConstants r.2 1) =
      some (some (some [['.'], ['.', '.'], ['f'], List.replicate 27 'a'])) := by
  refine ⟨fun c pu uninit now s s' src tgt h => link_true c pu uninit now s s' src tgt h,
    by decide, by decide, by decide, by decide⟩

set_option maxRecDepth 1000000 in
theorem link_in_source_parent_witness :
    (∃ parent file,
      searchParent demoConstants specPathUtils 0 sixSlotsFile
        (specPathUtils.normalizePath ['/', 'g']) = some (some parent) ∧
      parent.searchHardlink (specPathUtils.lastName (specPathUtils.normalizePath ['/', 'g']))
        = 0 ∧
      parent.searchHardlink (specPathUtils.lastName (specPathUtils.normalizePath ['/', 'f']))
        ≠ 0 ∧
      peekINodeType sixSlotsFile (parent.searchHardlink
        (specPathUtils.lastName (specPathUtils.normalizePath ['/', 'f']))) =
          some INODE_TYPE_REGULARFILE ∧
      loadFile demoConstants sixSlotsFile (parent.searchHardlink
        (specPathUtils.lastName (specPathUtils.normalizePath ['/', 'f']))) =
          some (some file)) ∧
    (link demoConstants specPathUtils 0 (clockFrom 30) sixSlotsFile ['/', 'g']
        ['/', 'f']).map (fun r => (r.1,
          (loadFile demoConstants r.2 2).map (Option.map (fun f => f.inode.linkCounter)),
          (loadDirectory demoConstants 0 r.2 1).map (Option.map (fun d =>
            d.searchHardlink ['g'])))) = some (true, some (some 2), some (some 2)) := by
  have h : ∃ s', link demoConstants specPathUtils 0 (clockFrom 30) sixSlotsFile ['/', 'g']
      ['/', 'f'] = some (true, s') := ⟨_, rfl⟩
  obtain ⟨s', hs⟩ := h
  exact ⟨link_in_source_parent.1 demoConstants specPathUtils 0 (clockFrom 30) sixSlotsFile s'
    ['/', 'g'] ['/', 'f'] hs, by decide⟩

theorem saveBlocks_cons (now : Nat → Nat) (s : FS) (b : Block) (rest : List Block) (t0 : Nat) :
    saveBlocks now s (b :: rest) t0 =
      (saveBlock s b (now t0)).bind (fun s1 => saveBlocks now s1 rest (t0 + 1)) := by
  rw [saveBlocks]
  cases saveBlock s b (now t0) <;> rfl

/-- One save of a block that is live already, on a well-formed image with two free
slots. -/
theorem saveBlock_live (s : FS) (b : Block) (t : Nat) (hwf : WellFormed s)
    (hu : s.usedBlocks + 2 ≤ s.logSize) (h1 : 1 ≤ b.id ∧ b.id ≤ s.logSize)
    (hl : s.bmap[b.id - 1]? ≠ some 0) :
    ∃ s1, saveBlock s b t = some s1 ∧ WellFormed s1 ∧ s1.logSize = s.logSize ∧
      s1.usedBlocks = s.usedBlocks ∧
      fetchBlock s1 b.id = some (some { b with lastWriteTime := t }) ∧
      (∀ id, id ≠ b.id → fetchBlock s1 id = fetchBlock s id) ∧
      (∀ k : Nat, s.bmap[k]? ≠ some 0 → s1.bmap[k]? ≠ some 0) := by
  obtain ⟨sa, p, hs1, hwfa, hla, -, hba, hp, hua, hfa, hoa⟩ := saveBlock_wf s b t hwf hu h1
  rw [if_neg hl] at hua
  refine ⟨sa, hs1, hwfa, hla, hua, hfa, hoa, ?_⟩
  intro k hk
  rw [hba]
  intro hcon
  by_cases hk1 : k = b.id - 1
  · subst hk1
    by_cases hlt : b.id - 1 < s.bmap.length
    · rw [List.getElem?_set_self hlt] at hcon
      exact hp (Option.some.inj hcon)
    · rw [List.getElem?_eq_none (by simp only [List.length_set]; omega)] at hcon
      cases hcon
  · rw [List.getElem?_set_ne (by omega)] at hcon
    exact hk hcon

/-- Three saves of blocks that are live already. -/
theorem saveBlocks_three_live (now : Nat → Nat) (s : FS) (b1 b2 b3 : Block)
    (hwf : WellFormed s) (hu : s.usedBlocks + 2 ≤ s.logSize)
    (h1 : 1 ≤ b1.id ∧ b1.id ≤ s.logSize) (h2 : 1 ≤ b2.id ∧ b2.id ≤ s.logSize)
    (h3 : 1 ≤ b3.id ∧ b3.id ≤ s.logSize)
    (n12 : b1.id ≠ b2.id) (n13 : b1.id ≠ b3.id) (n23 : b2.id ≠ b3.id)
    (hl1 : s.bmap[b1.id - 1]? ≠ some 0) (hl2 : s.bmap[b2.id - 1]? ≠ some 0)
    (hl3 : s.bmap[b3.id - 1]? ≠ some 0) :
    ∃ s3, saveBlocks now s [b1, b2, b3] 0 = some s3 ∧ WellFormed s3 ∧
      s3.logSize = s.logSize ∧ s3.usedBlocks = s.usedBlocks ∧
      fetchBlock s3 b1.id = some (some { b1 with lastWriteTime := now 0 }) ∧
      fetchBlock s3 b2.id = some (some { b2 with lastWriteTime := now 1 }) ∧
      fetchBlock s3 b3.id = some (some { b3 with lastWriteTime := now 2 }) ∧
      (∀ id, id ≠ b1.id → id ≠ b2.id → id ≠ b3.id → fetchBlock s3 id = fetchBlock s id) := by
  obtain ⟨sa, e1, wa, la, ua, fa, oa, ka⟩ := saveBlock_live s b1 (now 0) hwf hu h1 hl1
  obtain ⟨sb, e2, wb, lb, ub, fb, ob, kb⟩ := saveBlock_live sa b2 (now 1) wa (by omega)
    (by omega) (ka _ hl2)
  obtain ⟨sc, e3, wc, lc, uc, fc, oc, -⟩ := saveBlock_live sb b3 (now 2) wb (by omega)
    (by omega) (kb _ (ka _ hl3))
  refine ⟨sc, ?_, wc, by omega, by omega, ?_, ?_, fc, ?_⟩
  · rw [saveBlocks_cons, e1, Option.some_bind, saveBlocks_cons, e2, Option.some_bind,
      saveBlocks_cons, e3, Option.some_bind]
    rfl
  · rw [oc _ n13, ob _ n12]
    exact fa
  · rw [oc _ n23]
    exact fb
  · intro id m1 m2 m3
    rw [oc id m3, ob id m2, oa id m1]

theorem renameChanges_eq :
    addUnique (addUnique (addUnique ([Ref.target, Ref.primary].map oldParentRef)
        ([Ref.target, Ref.primary].map newParentRef))
        ([Ref.target, Ref.primary].map (movedDirRef RenameRef.oldParentINode)))
        ([Ref.target, Ref.primary].map (movedDirRef RenameRef.newParentINode)) =
      [RenameRef.targetINode, RenameRef.oldParentINode, RenameRef.newParentINode] := by
  decide

theorem searchHardlink_inlined_none (d : Directory) (name : List Char)
    (hin : d.inode.inlined = true) (h : findLink d.inode.entries name = none) :
    d.searchHardlink name = 0 := by
  rw [Directory.searchHardlink]
  split
  · rfl
  · simp only [hin, if_true, h]

theorem renameOtherParent_inline (c : Constants) (now : Nat → Nat) (s : FS)
    (a b d : Directory) (x : List Char)
    (hx : ¬ (x = [] ∨ '/' ∈ x)) (hain : a.inode.inlined = true)
    (hbin : b.inode.inlined = true) (hdin : d.inode.inlined = true)
    (hbx : b.searchHardlink x = 0) (hbcc : b.childCount ≠ c.MAX_HARDLINKS_PER_DIR)
    (hblc : b.inode.linkCounter ≠ MAX_NUMBER_OF_LINKS_TO_INODE)
    (hbroom : b.inode.entries.length < c.MAX_LINKS_PER_DIRENTRYLIST)
    (hdlc : 1 ≤ d.inode.linkCounter ∧ d.inode.linkCounter < 65536)
    (hdd : findLink (removeLink d.inode.entries ['.', '.']) ['.', '.'] = none)
    (hdroom : (removeLink d.inode.entries ['.', '.']).length < c.MAX_LINKS_PER_DIRENTRYLIST)
    (hdcc : (d.childCount + 4294967295) % 4294967296 ≠ c.MAX_HARDLINKS_PER_DIR) :
    renameOtherParent c now s a b (.dir d) x x =
      (saveBlocks now s
        [({ d.inode with
            linkCounter := (d.inode.linkCounter + 65535) % 65536 + 1
            entries := removeLink d.inode.entries ['.', '.'] ++ [⟨['.', '.'], b.inode.id⟩] } :
            DirectoryINode).toBlock,
         ({ a.inode with
            linkCounter := (a.inode.linkCounter + 65535) % 65536
            entries := removeLink a.inode.entries x } : DirectoryINode).toBlock,
         ({ b.inode with
            linkCounter := b.inode.linkCounter + 1
            entries := b.inode.entries ++ [⟨x, d.inode.id⟩] } : DirectoryINode).toBlock]
        0).map (fun s' => (true, s')) := by
  unfold renameOtherParent
  rw [if_neg hbcc, if_neg hblc]
  rw [rmHardlink_inline s a _ x hx hain]
  dsimp only
  rw [addHardlink_inline c s b _ x hbx hbcc _ hbin hbroom]
  dsimp only [MoveTarget.withLinkCounter, MoveTarget.inode]
  swap
  · show (d.inode.linkCounter + 65535) % 65536 ≠ 65535
    omega
  rw [rmHardlink_inline s _ _ ['.', '.'] (by decide) _]
  swap
  · exact hdin
  dsimp only
  rw [addHardlink_inline c s _ _ ['.', '.'] _ _ _ _ _]
  rotate_left
  · exact searchHardlink_inlined_none _ _ hdin hdd
  · exact hdcc
  · exact hblc
  · exact hdin
  · exact hdroom
  dsimp only
  rw [renameChanges_eq]
  have hm : ∀ (A B D : Directory),
      [RenameRef.targetINode, RenameRef.oldParentINode, RenameRef.newParentINode].mapM
        (resolveRenameRef A B (.dir D)) =
        some [D.inode.toBlock, A.inode.toBlock, B.inode.toBlock] := fun _ _ _ => rfl
  rw [hm]
  dsimp only
  have hmap : ∀ o : Option FS, (match o with
      | none => none
      | some s6 => some (true, s6)) = o.map (fun s' => (true, s')) := by
    intro o
    cases o <;> rfl
  dsimp only [decrementLinkCounter]
  exact hmap _

theorem removeLink_length_found (es : List Hardlink) (name : List Char)
    (h : findLink es name ≠ none) : (removeLink es name).length + 1 = es.length := by
  induction es with
  | nil => exact absurd rfl h
  | cons a t ih =>
    unfold removeLink
    by_cases ha : a.linkName = name
    · rw [if_pos ha]
      rfl
    · rw [if_neg ha]
      have : findLink t name ≠ none := by
        intro hn
        apply h
        unfold findLink at hn ⊢
        rw [List.find?_cons]
        simp only [ha, decide_False]
        exact hn
      simp only [List.length_cons, ih this]

/-- A name that an inlined directory resolves to a nonzero id is a valid link name and is
the name of one of the entries. -/
theorem searchHardlink_found (d : Directory) (name : List Char) (hin : d.inode.inlined = true)
    (h : d.searchHardlink name ≠ 0) :
    ¬ (name = [] ∨ '/' ∈ name) ∧ ∃ l, l ∈ d.inode.entries ∧ l.linkName = name := by
  rw [Directory.searchHardlink] at h
  split at h
  · exact absurd rfl h
  · rename_i hn
    refine ⟨hn, ?_⟩
    try simp only [hin, if_true] at h
    cases hf : findLink d.inode.entries name with
    | none => rw [hf] at h; exact absurd rfl h
    | some l =>
      unfold findLink at hf
      exact ⟨l, List.mem_of_find?_eq_some hf, by simpa using List.find?_some hf⟩

theorem searchHardlink_zero_inlined (d : Directory) (name : List Char)
    (hin : d.inode.inlined = true) (hn : ¬ (name = [] ∨ '/' ∈ name))
    (hok : ∀ l, l ∈ d.inode.entries → l.targetINodeBlockID ≠ 0)
    (h : d.searchHardlink name = 0) : findLink d.inode.entries name = none := by
  rw [Directory.searchHardlink] at h
  rw [if_neg hn] at h
  simp only [hin, if_true] at h
  cases hf : findLink d.inode.entries name with
  | none => rfl
  | some l =>
    rw [hf] at h
    unfold findLink at hf
    exact absurd h (hok l (List.mem_of_find?_eq_some hf))

/-- What `loadDirectory` tells about an inlined directory object. -/
theorem loadDirectory_inlined_facts (c : Constants) (u : Nat) (s : FS) (id : Nat)
    (d : Directory) (h : loadDirectory c u s id = some (some d))
    (hin : d.inode.inlined = true) :
    d.inode.id = id ∧ d.inode.type = INODE_TYPE_DIR ∧
    d.inode.entries.length ≤ c.MAX_LINKS_PER_DIRENTRYLIST ∧
    d.childCount = d.inode.entries.length ∧
    (∀ l, l ∈ d.inode.entries →
      l.targetINodeBlockID ≠ 0 ∧ storedName l.linkName = l.linkName) ∧
    peekINodeType s id = some INODE_TYPE_DIR := by
  obtain ⟨h1, -, -⟩ := loadDirectory_live c u s id d h
  obtain ⟨lwt, ct, sz, lc, h1 | h1⟩ := loadDirectory_inv c u s id d h
  · obtain ⟨l, hb, rfl⟩ := h1
    exact ⟨rfl, rfl, readLinks_length_le _ _, rfl, fun l hl => readLinks_mem _ _ l hl,
      peekINodeType_inode s id _ _ _ _ _ _ _ (by omega) hb⟩
  · obtain ⟨l, lists, -, -, rfl⟩ := h1
    cases hin

/-- Loading an inlined directory INode that was saved at time `t`. -/
theorem loadDirectory_saved (c : Constants) (u t : Nat) (s : FS) (n : DirectoryINode)
    (hin : n.inlined = true) (hty : n.type = INODE_TYPE_DIR)
    (hlen : n.entries.length ≤ c.MAX_LINKS_PER_DIRENTRYLIST)
    (hok : ∀ l, l ∈ n.entries → l.targetINodeBlockID ≠ 0 ∧ storedName l.linkName = l.linkName)
    (hf : fetchBlock s n.id = some (some { n.toBlock with lastWriteTime := t })) :
    loadDirectory c u s n.id = some (some ⟨⟨⟨n.id, t, n.creationTime, n.size_b,
      INODE_TYPE_DIR, true, n.linkCounter⟩, n.entries, []⟩, n.entries.length, []⟩) := by
  have hb : fetchBlock s n.id = some (some ⟨n.id, t,
      .inode n.creationTime n.size_b INODE_TYPE_DIR true n.linkCounter
        (.links (writeLinks n.entries))⟩) := by
    rw [hf]
    unfold DirectoryINode.toBlock
    simp only [hin, hty, if_true]
    rfl
  rw [loadDirectory_inline c u s n.id t _ _ _ _ hb, readLinks_writeLinks _ _ hlen hok]

/-- C21 (as worded): with only four free blocks in the log, `rename("/a/x", "/b/x")` is
refused by the budget check although "/a" and "/b" are distinct directories and "x" is a
directory in "/a": the call returns false, the image is unchanged and "/a" still maps
"x". -/
theorem rename_refused_without_budget :
    (loadDirectory demoConstants 0 (twoParents 8) 2).map
      (Option.map (fun d => d.searchHardlink ['x'])) = some (some 4) ∧
    (loadDirectory demoConstants 0 (twoParents 8) 3).map
      (Option.map (fun d => d.searchHardlink ['x'])) = some (some 0) ∧
    peekINodeType (twoParents 8) 4 = some INODE_TYPE_DIR ∧
    rename demoConstants specPathUtils 0 0 0 (clockFrom 40) (twoParents 8)
      ['/', 'a', '/', 'x'] ['/', 'b', '/', 'x'] = some (false, twoParents 8) := by
  decide

/-- C31 (amended): gc step on a superseded slot.  When the slot at `write_ptr` holds an
id different from 0 whose block map entry differs from `write_ptr`, one iteration of the
loop of `gc` zeroes that slot's id on disk and changes nothing else: `write_ptr`, the
block map, the counters and the ids of the other slots stay, and the search continues at
the same slot.  With one more iteration left, the zeroed slot is found free and
returned. -/
theorem gc_superseded_step (s : FS) (n id a : Nat)
    (hs : slotId s s.write_ptr = some id) (hid : id ≠ 0)
    (ha : bmapAt s id = some a) (hne : a ≠ s.write_ptr) :
    gcLoop (n + 1) s = gcLoop n (zeroSlotId s s.write_ptr) ∧
    (zeroSlotId s s.write_ptr).write_ptr = s.write_ptr ∧
    slotId (zeroSlotId s s.write_ptr) s.write_ptr = some 0 ∧
    (∀ q, q ≠ 0 → q ≠ s.write_ptr → slotId (zeroSlotId s s.write_ptr) q = slotId s q) ∧
    (zeroSlotId s s.write_ptr).bmap = s.bmap ∧
    (zeroSlotId s s.write_ptr).usedBlocks = s.usedBlocks ∧
    gcLoop (n + 2) s = some (s.write_ptr, zeroSlotId s s.write_ptr) := by
  have hp : s.write_ptr ≠ 0 := by
    intro h0
    rw [h0] at hs
    simp [slotId] at hs
  have h1 : ∀ m, gcLoop (m + 1) s = gcLoop m (zeroSlotId s s.write_ptr) := by
    intro m
    rw [gcLoop]
    simp only [hs, hid, ha, if_false, hne, ne_eq, not_false_eq_true, if_true]
  have hz := slotId_zeroSlotId_same s s.write_ptr id hs
  refine ⟨h1 n, rfl, hz, fun q hq hqp => slotId_zeroSlotId_other s s.write_ptr q hq hp hqp,
    rfl, rfl, ?_⟩
  rw [h1 (n + 1), gcLoop]
  have hw : (zeroSlotId s s.write_ptr).write_ptr = s.write_ptr := rfl
  rw [hw, hz]
  simp

/-- C31 (as worded): on `gcSuperseded` the slot at the write pointer (slot 2) holds the
id 2, whose block map entry is 0.  The iteration that zeroes it leaves the write pointer
at slot 2, not at the next slot 3, and `gc` returns the zeroed slot 2 although the free
slot 3 follows. -/
theorem gc_superseded_no_advance :
    slotId gcSuperseded gcSuperseded.write_ptr = some 2 ∧
    bmapAt gcSuperseded 2 = some 0 ∧
    advance gcSuperseded.logSize gcSuperseded.write_ptr = 3 ∧
    slotId gcSuperseded 3 = some 0 ∧
    (gcLoop 1 gcSuperseded).map (fun r => (r.1, r.2.write_ptr, slotId r.2 2)) =
      some (0, 2, some 0) ∧
    (gc gcSuperseded).map (fun r => (r.1, r.2.write_ptr)) = some (2, 2) := by
  decide

theorem gc_superseded_step_witness :
    gcLoop (0 + 1) gcSuperseded = gcLoop 0 (zeroSlotId gcSuperseded gcSuperseded.write_ptr) ∧
    (zeroSlotId gcSuperseded gcSuperseded.write_ptr).write_ptr = gcSuperseded.write_ptr ∧
    slotId (zeroSlotId gcSuperseded gcSuperseded.write_ptr) gcSuperseded.write_ptr = some 0 ∧
    (∀ q, q ≠ 0 → q ≠ gcSuperseded.write_ptr →
      slotId (zeroSlotId gcSuperseded gcSuperseded.write_ptr) q = slotId gcSuperseded q) ∧
    (zeroSlotId gcSuperseded gcSuperseded.write_ptr).bmap = gcSuperseded.bmap ∧
    (zeroSlotId gcSuperseded gcSuperseded.write_ptr).usedBlocks = gcSuperseded.usedBlocks ∧
    gcLoop (0 + 2) gcSuperseded =
      some (gcSuperseded.write_ptr, zeroSlotId gcSuperseded gcSuperseded.write_ptr) :=
  gc_superseded_step gcSuperseded 0 2 0 (by decide) (by decide) (by decide) (by decide)

/-- C36: on `rootWithA` (root with the directory "a", six free blocks, no entry "ab"),
`rename("/a", "/ab")` is rejected by the descendant check, which compares the two paths
as strings (`destPath.find(sourcePath) == 0` and `destPath` longer): the call returns
false and the image is unchanged, although "/ab" is not below "/a".  The same call with
the destination "/b" returns true. -/
theorem rename_rejects_string_prefix :
    (loadDirectory demoConstants 0 rootWithA 1).map
      (Option.map (fun d => (d.searchHardlink ['a'], d.searchHardlink ['a', 'b']))) =
        some (some (2, 0)) ∧
    peekINodeType rootWithA 2 = some INODE_TYPE_DIR ∧
    rootWithA.usedBlocks + 5 ≤ rootWithA.logSize ∧
    specPathUtils.normalizePath ['/', 'a'] = ['/', 'a'] ∧
    specPathUtils.normalizePath ['/', 'a', 'b'] = ['/', 'a', 'b'] ∧
    rename demoConstants specPathUtils 0 0 0 (clockFrom 50) rootWithA ['/', 'a']
      ['/', 'a', 'b'] = some (false, rootWithA) ∧
    (rename demoConstants specPathUtils 0 0 0 (clockFrom 50) rootWithA ['/', 'a']
      ['/', 'b']).map (fun r => r.1) = some true := by
  decide

theorem layout_arith (n : Nat) (hn : 4096 ≤ n) :
    ((n / 1024 + 4095) / 4096) * 4096 ≤ n ∧
    (n - ((n / 1024 + 4095) / 4096) * 4096) / 4096 ≤ ((n / 1024 + 4095) / 4096) * 4096 / 4 := by
  omega

theorem ceil_div_4096 (q : Nat) : ⌈(q : ℚ) / 4096⌉₊ = (q + 4095) / 4096 := by
  apply le_antisymm
  · rw [Nat.ceil_le, div_le_iff₀ (by norm_num)]
    have : q ≤ (q + 4095) / 4096 * 4096 := by omega
    exact_mod_cast this
  · rw [Nat.div_le_iff_le_mul_add_pred (by norm_num)]
    have h := Nat.le_ceil ((q : ℚ) / 4096)
    rw [div_le_iff₀ (by norm_num)] at h
    have h' : q ≤ ⌈(q : ℚ) / 4096⌉₊ * 4096 := by exact_mod_cast h
    omega

/-- C37: layout arithmetic of `calcLayout`.  For every `size_b` that `readHeader` accepts
(`FS_MIN_SIZE ≤ size_b ≤ FS_MAX_SIZE`, with `FS_MIN_SIZE` at least `HEADER_SIZE + 4096`):
`bmapSize_b` is `ceil(floor((size_b - HEADER_SIZE) / 1024) / 4096) * 4096`, a multiple of
4096 that is not larger than `size_b - HEADER_SIZE`; the block map has at least `logSize`
entries of four bytes, so that `lookupBlockAddress` reads inside the block map for every
id; and header, block map and log fit into the image. -/
theorem calcLayout_arithmetic (c : Constants) (size_b : Nat)
    (hmin : c.HEADER_SIZE + 4096 ≤ c.FS_MIN_SIZE)
    (hacc : ¬ (size_b < c.FS_MIN_SIZE ∨ size_b > c.FS_MAX_SIZE)) :
    (calcLayout c size_b).1 = ⌈(((size_b - c.HEADER_SIZE) / 1024 : Nat) : ℚ) / 4096⌉₊ * 4096 ∧
    (calcLayout c size_b).1 % 4096 = 0 ∧
    (calcLayout c size_b).1 ≤ size_b - c.HEADER_SIZE ∧
    (calcLayout c size_b).2 =
      (size_b - c.HEADER_SIZE - (calcLayout c size_b).1) / 4096 ∧
    (calcLayout c size_b).2 ≤ (calcLayout c size_b).1 / 4 ∧
    c.HEADER_SIZE + (calcLayout c size_b).1 + (calcLayout c size_b).2 * 4096 ≤ size_b ∧
    ∀ s : FS, s.logSize = (calcLayout c size_b).2 →
      s.bmap.length = (calcLayout c size_b).1 / 4 →
      ∀ id, ∃ p, lookupBlockAddress s id = some p ∧
        (1 ≤ id → id ≤ s.logSize → id - 1 < s.bmap.length ∧ s.bmap[id - 1]? = some p) := by
  have hn : 4096 ≤ size_b - c.HEADER_SIZE := by omega
  obtain ⟨h1, h2⟩ := layout_arith (size_b - c.HEADER_SIZE) hn
  have hB : (calcLayout c size_b).1 =
      (((size_b - c.HEADER_SIZE) / 1024 + 4095) / 4096) * 4096 := rfl
  have hLg : (calcLayout c size_b).2 =
      (size_b - c.HEADER_SIZE - (calcLayout c size_b).1) / 4096 := rfl
  refine ⟨?_, ?_, ?_, hLg, ?_, ?_, ?_⟩
  · rw [hB, ceil_div_4096]
  · rw [hB]
    exact Nat.mul_mod_left _ _
  · rw [hB]
    exact h1
  · rw [hLg, hB]
    exact h2
  · rw [hLg]
    rw [hB] at *
    omega
  · intro s hL hlen id
    unfold lookupBlockAddress
    by_cases hid : id = 0 ∨ id > s.logSize
    · rw [if_pos hid]
      exact ⟨0, rfl, fun a b => absurd hid (by omega)⟩
    · rw [if_neg hid]
      have hlt : id - 1 < s.bmap.length := by
        rw [hlen]
        have : s.logSize ≤ (calcLayout c size_b).1 / 4 := by
          rw [hL, hLg, hB]
          exact h2
        omega
      exact ⟨s.bmap[id - 1], List.getElem?_eq_getElem hlt,
        fun _ _ => ⟨hlt, List.getElem?_eq_getElem hlt⟩⟩

theorem calcLayout_arithmetic_witness :
    (calcLayout demoConstants 12324).1 =
      ⌈(((12324 - demoConstants.HEADER_SIZE) / 1024 : Nat) : ℚ) / 4096⌉₊ * 4096 ∧
    (calcLayout demoConstants 12324).1 % 4096 = 0 ∧
    (calcLayout demoConstants 12324).1 ≤ 12324 - demoConstants.HEADER_SIZE ∧
    (calcLayout demoConstants 12324).2 =
      (12324 - demoConstants.HEADER_SIZE - (calcLayout demoConstants 12324).1) / 4096 ∧
    (calcLayout demoConstants 12324).2 ≤ (calcLayout demoConstants 12324).1 / 4 ∧
    demoConstants.HEADER_SIZE + (calcLayout demoConstants 12324).1 +
      (calcLayout demoConstants 12324).2 * 4096 ≤ 12324 ∧
    ∀ s : FS, s.logSize = (calcLayout demoConstants 12324).2 →
      s.bmap.length = (calcLayout demoConstants 12324).1 / 4 →
      ∀ id, ∃ p, lookupBlockAddress s id = some p ∧
        (1 ≤ id → id ≤ s.logSize → id - 1 < s.bmap.length ∧ s.bmap[id - 1]? = some p) :=
  calcLayout_arithmetic demoConstants 12324 (by decide) (by decide)

theorem putBytes_length (buf : List Nat) (q : Nat) (bs : List Nat)
    (h : q + bs.length ≤ buf.length) : (putBytes buf q bs).length = buf.length := by
  unfold putBytes
  simp only [List.length_append, List.length_take, List.length_drop]
  omega

theorem putBytes_getElem? (buf : List Nat) (q : Nat) (bs : List Nat)
    (h : q + bs.length ≤ buf.length) (i : Nat) :
    (putBytes buf q bs)[i]? = if q ≤ i ∧ i < q + bs.length then bs[i - q]? else buf[i]? := by
  unfold putBytes
  have hq : (buf.take q).length = q := by rw [List.length_take]; omega
  by_cases h1 : i < q
  · rw [if_neg (by omega), List.append_assoc, List.getElem?_append_left (by omega),
      List.getElem?_take_of_lt h1]
  · by_cases h2 : i < q + bs.length
    · rw [if_pos ⟨by omega, h2⟩, List.getElem?_append_left
        (by rw [List.length_append, hq]; exact h2), List.getElem?_append_right (by omega), hq]
    · rw [if_neg (by omega), List.getElem?_append_right
        (by rw [List.length_append, hq]; omega), List.length_append, hq, List.getElem?_drop]
      congr 1
      omega

theorem getBytes_getElem? (buf : List Nat) (p k j : Nat) :
    (getBytes buf p k)[j]? = if j < k then buf[p + j]? else none := by
  unfold getBytes
  by_cases h : j < k
  · rw [if_pos h, List.getElem?_take_of_lt h, List.getElem?_drop]
  · rw [if_neg h, List.getElem?_take_eq_none (by omega)]

theorem getBytes_putBytes_same (buf : List Nat) (q : Nat) (bs : List Nat)
    (h : q + bs.length ≤ buf.length) : getBytes (putBytes buf q bs) q bs.length = bs := by
  apply List.ext_getElem?
  intro j
  rw [getBytes_getElem?, putBytes_getElem? buf q bs h]
  by_cases hj : j < bs.length
  · rw [if_pos hj, if_pos ⟨by omega, by omega⟩]
    congr 1
    omega
  · rw [if_neg hj, List.getElem?_eq_none (by omega)]

theorem getBytes_putBytes_other (buf : List Nat) (q : Nat) (bs : List Nat) (p k : Nat)
    (h : q + bs.length ≤ buf.length) (hd : p + k ≤ q ∨ q + bs.length ≤ p) :
    getBytes (putBytes buf q bs) p k = getBytes buf p k := by
  apply List.ext_getElem?
  intro j
  rw [getBytes_getElem?, getBytes_getElem?, putBytes_getElem? buf q bs h]
  by_cases hj : j < k
  · rw [if_pos hj, if_pos hj, if_neg (by omega)]
  · rw [if_neg hj, if_neg hj]

theorem putBytes_append (buf : List Nat) (q : Nat) (a b : List Nat)
    (h : q + a.length + b.length ≤ buf.length) :
    putBytes buf q (a ++ b) = putBytes (putBytes buf q a) (q + a.length) b := by
  apply List.ext_getElem?
  intro i
  have ha : (putBytes buf q a).length = buf.length := putBytes_length buf q a (by omega)
  rw [putBytes_getElem? buf q (a ++ b) (by rw [List.length_append]; omega),
    putBytes_getElem? _ (q + a.length) b (by rw [ha]; omega),
    putBytes_getElem? buf q a (by omega), List.length_append]
  by_cases h1 : q ≤ i ∧ i < q + a.length
  · rw [if_pos ⟨h1.1, by omega⟩, if_neg (by omega), if_pos h1,
      List.getElem?_append_left (by omega)]
  · by_cases h2 : q + a.length ≤ i ∧ i < q + a.length + b.length
    · rw [if_pos ⟨by omega, by omega⟩, if_pos h2, List.getElem?_append_right (by omega)]
      congr 1
      omega
    · rw [if_neg (by omega), if_neg h2, if_neg h1]

theorem leBytes_length (k v : Nat) : (leBytes k v).length = k := by
  induction k generalizing v with
  | zero => rfl
  | succ k ih => simp [leBytes, ih]

theorem leValue_leBytes (k v : Nat) : leValue (leBytes k v) = v % 256 ^ k := by
  induction k generalizing v with
  | zero => simp [leBytes, leValue, Nat.mod_one]
  | succ k ih =>
    simp only [leBytes, leValue, ih]
    rw [pow_succ, Nat.mul_comm (256 ^ k) 256, Nat.mod_mul]

theorem leValue_leBytes_of_lt (k v : Nat) (h : v < 256 ^ k) : leValue (leBytes k v) = v := by
  rw [leValue_leBytes, Nat.mod_eq_of_lt h]

theorem typeByte_codec (t : Nat) (il : Bool) (ht : t ≤ 15) :
    ((((t <<< 4) ||| ((if il then 1 else 0) <<< 3)) % 256 ^ 1) >>> 4) &&& 15 = t ∧
    decide (((((t <<< 4) ||| ((if il then 1 else 0) <<< 3)) % 256 ^ 1) &&& 8) ≠ 0) = il := by
  interval_cases t <;> cases il <;> decide

/-- The six fields that `INode::save` writes, read back from the slot. -/
theorem INode.saveBytes_fields (buf : List Nat) (now : Nat) (n : INode)
    (hlen : 20 ≤ buf.length) :
    (INode.saveBytes buf now n).length = buf.length ∧
    getBytes (INode.saveBytes buf now n) 0 4 = leBytes 4 n.id ∧
    getBytes (INode.saveBytes buf now n) 4 4 = leBytes 4 now ∧
    getBytes (INode.saveBytes buf now n) 8 4 = leBytes 4 n.creationTime ∧
    getBytes (INode.saveBytes buf now n) 12 4 = leBytes 4 n.size_b ∧
    getBytes (INode.saveBytes buf now n) 16 1 =
      leBytes 1 ((n.type <<< 4) ||| ((if n.inlined then 1 else 0) <<< 3)) ∧
    getBytes (INode.saveBytes buf now n) 18 2 = leBytes 2 n.linkCounter ∧
    ∀ p k, 20 ≤ p → getBytes (INode.saveBytes buf now n) p k = getBytes buf p k := by
  have l4 : ∀ v, (leBytes 4 v).length = 4 := fun v => leBytes_length 4 v
  have l1 : ∀ v, (leBytes 1 v).length = 1 := fun v => leBytes_length 1 v
  have l2 : ∀ v, (leBytes 2 v).length = 2 := fun v => leBytes_length 2 v
  have L0 : (putBytes buf 0 (leBytes 4 n.id)).length = buf.length :=
    putBytes_length _ _ _ (by rw [l4]; omega)
  have L1 : (Block.saveBytes buf now n.id).length = buf.length := by
    unfold Block.saveBytes
    rw [putBytes_length _ _ _ (by rw [l4, L0]; omega), L0]
  have L2 : (putBytes (Block.saveBytes buf now n.id) 8 (leBytes 4 n.creationTime)).length
      = buf.length := by
    rw [putBytes_length _ _ _ (by rw [l4, L1]; omega), L1]
  have L3 : (putBytes (putBytes (Block.saveBytes buf now n.id) 8 (leBytes 4 n.creationTime))
      12 (leBytes 4 n.size_b)).length = buf.length := by
    rw [putBytes_length _ _ _ (by rw [l4, L2]; omega), L2]
  have L4 : (putBytes (putBytes (putBytes (Block.saveBytes buf now n.id) 8
      (leBytes 4 n.creationTime)) 12 (leBytes 4 n.size_b)) 16
      (leBytes 1 ((n.type <<< 4) ||| ((if n.inlined then 1 else 0) <<< 3)))).length
      = buf.length := by
    rw [putBytes_length _ _ _ (by rw [l1, L3]; omega), L3]
  have step5 : ∀ p k, (p + k ≤ 18 ∨ 20 ≤ p) →
      getBytes (INode.saveBytes buf now n) p k = getBytes (putBytes (putBytes (putBytes
        (Block.saveBytes buf now n.id) 8 (leBytes 4 n.creationTime)) 12
        (leBytes 4 n.size_b)) 16
        (leBytes 1 ((n.type <<< 4) ||| ((if n.inlined then 1 else 0) <<< 3)))) p k := by
    intro p k h
    unfold INode.saveBytes
    exact getBytes_putBytes_other _ _ _ _ _ (by rw [l2, L4]; omega) (by rw [l2]; omega)
  have step4 : ∀ p k, (p + k ≤ 16 ∨ 17 ≤ p) →
      getBytes (putBytes (putBytes (putBytes
        (Block.saveBytes buf now n.id) 8 (leBytes 4 n.creationTime)) 12
        (leBytes 4 n.size_b)) 16
        (leBytes 1 ((n.type <<< 4) ||| ((if n.inlined then 1 else 0) <<< 3)))) p k =
      getBytes (putBytes (putBytes
        (Block.saveBytes buf now n.id) 8 (leBytes 4 n.creationTime)) 12
        (leBytes 4 n.size_b)) p k := by
    intro p k h
    exact getBytes_putBytes_other _ _ _ _ _ (by rw [l1, L3]; omega) (by rw [l1]; omega)
  have step3 : ∀ p k, (p + k ≤ 12 ∨ 16 ≤ p) →
      getBytes (putBytes (putBytes
        (Block.saveBytes buf now n.id) 8 (leBytes 4 n.creationTime)) 12
        (leBytes 4 n.size_b)) p k =
      getBytes (putBytes (Block.saveBytes buf now n.id) 8 (leBytes 4 n.creationTime)) p k := by
    intro p k h
    exact getBytes_putBytes_other _ _ _ _ _ (by rw [l4, L2]; omega) (by rw [l4]; omega)
  have step2 : ∀ p k, (p + k ≤ 8 ∨ 12 ≤ p) →
      getBytes (putBytes (Block.saveBytes buf now n.id) 8 (leBytes 4 n.creationTime)) p k =
      getBytes (Block.saveBytes buf now n.id) p k := by
    intro p k h
    exact getBytes_putBytes_other _ _ _ _ _ (by rw [l4, L1]; omega) (by rw [l4]; omega)
  have step1 : ∀ p k, (p + k ≤ 4 ∨ 8 ≤ p) →
      getBytes (Block.saveBytes buf now n.id) p k =
      getBytes (putBytes buf 0 (leBytes 4 n.id)) p k := by
    intro p k h
    unfold Block.saveBytes
    exact getBytes_putBytes_other _ _ _ _ _ (by rw [l4, L0]; omega) (by rw [l4]; omega)
  have step0 : ∀ p k, 4 ≤ p →
      getBytes (putBytes buf 0 (leBytes 4 n.id)) p k = getBytes buf p k := by
    intro p k h
    exact getBytes_putBytes_other _ _ _ _ _ (by rw [l4]; omega) (by rw [l4]; omega)
  refine ⟨?_, ?_, ?_, ?_, ?_, ?_, ?_, ?_⟩
  · unfold INode.saveBytes
    rw [putBytes_length _ _ _ (by rw [l2, L4]; omega), L4]
  · rw [step5 _ _ (by omega), step4 _ _ (by omega), step3 _ _ (by omega),
      step2 _ _ (by omega), step1 _ _ (by omega)]
    have := getBytes_putBytes_same buf 0 (leBytes 4 n.id) (by rw [l4]; omega)
    rw [l4] at this
    exact this
  · rw [step5 _ _ (by omega), step4 _ _ (by omega), step3 _ _ (by omega),
      step2 _ _ (by omega)]
    unfold Block.saveBytes
    have := getBytes_putBytes_same (putBytes buf 0 (leBytes 4 n.id)) 4 (leBytes 4 now)
      (by rw [l4, L0]; omega)
    rw [l4] at this
    exact this
  · rw [step5 _ _ (by omega), step4 _ _ (by omega), step3 _ _ (by omega)]
    have := getBytes_putBytes_same (Block.saveBytes buf now n.id) 8
      (leBytes 4 n.creationTime) (by rw [l4, L1]; omega)
    rw [l4] at this
    exact this
  · rw [step5 _ _ (by omega), step4 _ _ (by omega)]
    have := getBytes_putBytes_same (putBytes (Block.saveBytes buf now n.id) 8
      (leBytes 4 n.creationTime)) 12 (leBytes 4 n.size_b) (by rw [l4, L2]; omega)
    rw [l4] at this
    exact this
  · rw [step5 _ _ (by omega)]
    have := getBytes_putBytes_same (putBytes (putBytes (Block.saveBytes buf now n.id) 8
      (leBytes 4 n.creationTime)) 12 (leBytes 4 n.size_b)) 16
      (leBytes 1 ((n.type <<< 4) ||| ((if n.inlined then 1 else 0) <<< 3)))
      (by rw [l1, L3]; omega)
    rw [l1] at this
    exact this
  · unfold INode.saveBytes
    have := getBytes_putBytes_same (putBytes (putBytes (putBytes
      (Block.saveBytes buf now n.id) 8 (leBytes 4 n.creationTime)) 12
      (leBytes 4 n.size_b)) 16
      (leBytes 1 ((n.type <<< 4) ||| ((if n.inlined then 1 else 0) <<< 3)))) 18
      (leBytes 2 n.linkCounter) (by rw [l2, L4]; omega)
    rw [l2] at this
    exact this
  · intro p k hp
    rw [step5 _ _ (by omega), step4 _ _ (by omega), step3 _ _ (by omega),
      step2 _ _ (by omega), step1 _ _ (by omega), step0 _ _ (by omega)]

/-- Reading back the header that `INode::save` wrote. -/
theorem INode.readBytes_saveBytes (buf : List Nat) (uninit now : Nat) (n : INode)
    (hlen : 20 ≤ buf.length) (hid : n.id ≠ 0 ∧ n.id < 4294967296) (hnow : now < 4294967296)
    (hct : n.creationTime < 4294967296) (hsz : n.size_b < 4294967296)
    (hlc : n.linkCounter < 65536) (ht : n.type ≤ 15) :
    INode.readBytes uninit (INode.saveBytes buf now n) = ({ n with lastWriteTime := now }, 20) ∧
    peekTypeByte (INode.saveBytes buf now n) = n.type := by
  obtain ⟨-, f0, f4, f8, f12, f16, f18, -⟩ := INode.saveBytes_fields buf now n hlen
  obtain ⟨t1, t2⟩ := typeByte_codec n.type n.inlined ht
  constructor
  · unfold INode.readBytes Block.readBytes
    rw [f0, leValue_leBytes_of_lt 4 n.id (by omega), if_neg hid.1]
    simp only [f4, f8, f12, f16, f18, leValue_leBytes]
    rw [t1, t2, Nat.mod_eq_of_lt (by omega : now < 256 ^ 4),
      Nat.mod_eq_of_lt (by omega : n.creationTime < 256 ^ 4),
      Nat.mod_eq_of_lt (by omega : n.size_b < 256 ^ 4),
      Nat.mod_eq_of_lt (by omega : n.linkCounter < 256 ^ 2)]
  · unfold peekTypeByte
    rw [f16, leValue_leBytes, t1]

/-- C38: INode header codec and type peek agree.  For every INode with type at most 15
(id different from 0, fields within the widths of their C types) and every prior content
of the slot, the constructor `INode(STREAM&)` run on the bytes that `INode::save` wrote
restores id, `creationTime`, `size_b`, type, the inlined flag and `linkCounter`
(`lastWriteTime` is the time of the save), and the upper four bits of the byte at offset
16 are the type.  On a well-formed image with two free slots, `peekINodeType` of the id
after `saveBlock` of the INode returns the type. -/
theorem inode_header_codec (buf : List Nat) (uninit now : Nat) (n : INode)
    (hlen : 20 ≤ buf.length) (hid : n.id ≠ 0 ∧ n.id < 4294967296) (hnow : now < 4294967296)
    (hct : n.creationTime < 4294967296) (hsz : n.size_b < 4294967296)
    (hlc : n.linkCounter < 65536) (ht : n.type ≤ 15) :
    (INode.readBytes uninit (INode.saveBytes buf now n)).1 = { n with lastWriteTime := now } ∧
    peekTypeByte (INode.saveBytes buf now n) = n.type ∧
    ∀ (s : FS) (payload : Payload), WellFormed s → s.usedBlocks + 2 ≤ s.logSize →
      n.id ≤ s.logSize →
      ∃ s', saveBlock s ⟨n.id, n.lastWriteTime, .inode n.creationTime n.size_b (n.type % 16)
          n.inlined n.linkCounter payload⟩ now = some s' ∧
        peekINodeType s' n.id = some n.type := by
  obtain ⟨h1, h2⟩ := INode.readBytes_saveBytes buf uninit now n hlen hid hnow hct hsz hlc ht
  refine ⟨by rw [h1], h2, ?_⟩
  intro s payload hwf hu hle
  obtain ⟨s', p, hs, -, -, -, -, -, -, hf, -⟩ := saveBlock_wf s
    ⟨n.id, n.lastWriteTime, .inode n.creationTime n.size_b (n.type % 16)
      n.inlined n.linkCounter payload⟩ now hwf hu ⟨by show 1 ≤ n.id; omega, hle⟩
  refine ⟨s', hs, ?_⟩
  have := peekINodeType_inode s' n.id now n.creationTime n.size_b (n.type % 16)
    n.linkCounter n.inlined payload hid.1 hf
  rw [this, Nat.mod_eq_of_lt (by omega)]

set_option maxRecDepth 1000000 in
theorem inode_header_codec_witness :
    (INode.readBytes 0 (INode.saveBytes (List.replicate 32 255) 7
      ⟨2, 0, 5, 0, 1, true, 3⟩)).1 = ⟨2, 7, 5, 0, 1, true, 3⟩ ∧
    peekTypeByte (INode.saveBytes (List.replicate 32 255) 7 ⟨2, 0, 5, 0, 1, true, 3⟩) = 1 ∧
    ∀ (s : FS) (payload : Payload), WellFormed s → s.usedBlocks + 2 ≤ s.logSize →
      2 ≤ s.logSize →
      ∃ s', saveBlock s ⟨2, 0, .inode 5 0 (1 % 16) true 3 payload⟩ 7 = some s' ∧
        peekINodeType s' 2 = some 1 :=
  inode_header_codec (List.replicate 32 255) 0 7 ⟨2, 0, 5, 0, 1, true, 3⟩ (by decide)
    (by decide) (by decide) (by decide) (by decide) (by decide) (by decide)

theorem takeWhile_eq_self_of_all {α : Type} (p : α → Bool) (l : List α)
    (h : ∀ a, a ∈ l → p a = true) : l.takeWhile p = l := by
  induction l with
  | nil => rfl
  | cons a t ih =>
    rw [List.takeWhile_cons, h a (List.mem_cons_self _ _)]
    simp only [if_true]
    rw [ih (fun b hb => h b (List.mem_cons_of_mem _ hb))]

theorem takeWhile_append_zeros (l : List Nat) (k : Nat) (h : ∀ a, a ∈ l → a ≠ 0) :
    (l ++ List.replicate k 0).takeWhile (fun b => b ≠ 0) = l := by
  induction l with
  | nil =>
    cases k with
    | zero => rfl
    | succ k => simp [List.replicate_succ, List.takeWhile_cons]
  | cons a t ih =>
    have ha : a ≠ 0 := h a (List.mem_cons_self _ _)
    rw [List.cons_append, List.takeWhile_cons]
    simp only [ha, ne_eq, not_false_eq_true, decide_True, if_true]
    rw [ih (fun b hb => h b (List.mem_cons_of_mem _ hb))]

theorem nameField_plain (name : List Char) (h : PlainName name) :
    nameField name = name.map (fun ch => ch.toNat) ++ List.replicate (28 - name.length) 0 := by
  obtain ⟨h1, h2, h3⟩ := h
  unfold nameField
  have htw : name.takeWhile (fun ch => ch ≠ Char.ofNat 0) = name := by
    apply takeWhile_eq_self_of_all
    intro ch hch
    have := (h3 ch hch).1
    simp only [ne_eq, decide_eq_true_eq]
    intro hc
    rw [hc] at this
    exact this rfl
  have htk : name.take (MAX_LINK_NAME_LENGTH - 1) = name :=
    List.take_of_length_le (by show name.length ≤ 27; exact h2)
  have hmap : name.map (fun ch => ch.toNat % 256) = name.map (fun ch => ch.toNat) := by
    apply List.map_congr_left
    intro ch hch
    exact Nat.mod_eq_of_lt (h3 ch hch).2
  simp only [htw, htk, hmap, List.length_map]
  rfl

theorem nameField_length (name : List Char) : (nameField name).length = 28 := by
  unfold nameField
  simp only [List.length_append, List.length_map, List.length_replicate, List.length_take]
  have : MAX_LINK_NAME_LENGTH = 28 := rfl
  omega

theorem readName_nameField (name : List Char) (h : PlainName name) :
    readName (nameField name) = some name := by
  rw [nameField_plain name h]
  obtain ⟨h1, h2, h3⟩ := h
  unfold readName
  have hz : 0 ∈ name.map (fun ch => ch.toNat) ++ List.replicate (28 - name.length) 0 := by
    apply List.mem_append_right
    rw [List.mem_replicate]
    exact ⟨by omega, rfl⟩
  rw [if_pos hz, takeWhile_append_zeros]
  · rw [List.map_map]
    congr 1
    conv_rhs => rw [← List.map_id name]
    apply List.map_congr_left
    intro ch _
    exact Char.ofNat_toNat ch
  · intro a ha
    rw [List.mem_map] at ha
    obtain ⟨ch, hch, rfl⟩ := ha
    exact (h3 ch hch).1

theorem writeEntries_frame (es : List Hardlink) : ∀ (buf : List Nat) (pos : Nat),
    pos + 32 * es.length ≤ buf.length →
    (writeEntries buf pos es).length = buf.length ∧
    ∀ p k, p + k ≤ pos → getBytes (writeEntries buf pos es) p k = getBytes buf p k := by
  induction es with
  | nil => intro buf pos _; exact ⟨rfl, fun _ _ _ => rfl⟩
  | cons e t ih =>
    intro buf pos h
    rw [List.length_cons] at h
    have hl : (leBytes 4 e.targetINodeBlockID ++ nameField e.linkName).length = 32 := by
      rw [List.length_append, leBytes_length, nameField_length]
    have hput := putBytes_length buf pos
      (leBytes 4 e.targetINodeBlockID ++ nameField e.linkName) (by rw [hl]; omega)
    obtain ⟨i1, i2⟩ := ih (putBytes buf pos
      (leBytes 4 e.targetINodeBlockID ++ nameField e.linkName)) (pos + 4 + MAX_LINK_NAME_LENGTH)
      (by rw [hput]; show pos + 4 + 28 + 32 * t.length ≤ buf.length; omega)
    unfold writeEntries
    refine ⟨by rw [i1, hput], ?_⟩
    intro p k hpk
    rw [i2 p k (by omega), getBytes_putBytes_other _ _ _ _ _ (by rw [hl]; omega)
      (Or.inl hpk)]

theorem zeroRest_frame (r : Nat) : ∀ (buf : List Nat) (pos : Nat),
    pos + 32 * r ≤ buf.length →
    (zeroRest buf pos r).length = buf.length ∧
    ∀ p k, p + k ≤ pos → getBytes (zeroRest buf pos r) p k = getBytes buf p k := by
  induction r with
  | zero => intro buf pos _; exact ⟨rfl, fun _ _ _ => rfl⟩
  | succ r ih =>
    intro buf pos h
    have hl : (leBytes 4 0).length = 4 := leBytes_length 4 0
    have hput := putBytes_length buf pos (leBytes 4 0) (by rw [hl]; omega)
    obtain ⟨i1, i2⟩ := ih (putBytes buf pos (leBytes 4 0)) (pos + 4 + MAX_LINK_NAME_LENGTH)
      (by rw [hput]; show pos + 4 + 28 + 32 * r ≤ buf.length; omega)
    unfold zeroRest
    refine ⟨by rw [i1, hput], ?_⟩
    intro p k hpk
    rw [i2 p k (by omega), getBytes_putBytes_other _ _ _ _ _ (by rw [hl]; omega)
      (Or.inl hpk)]

theorem readEntries_zeroRest (r : Nat) : ∀ (buf : List Nat) (pos : Nat),
    pos + 32 * r ≤ buf.length → readEntries (zeroRest buf pos r) pos r = some [] := by
  induction r with
  | zero => intro buf pos _; rfl
  | succ r ih =>
    intro buf pos h
    have hl : (leBytes 4 0).length = 4 := leBytes_length 4 0
    have hput := putBytes_length buf pos (leBytes 4 0) (by rw [hl]; omega)
    have hfr := (zeroRest_frame r (putBytes buf pos (leBytes 4 0))
      (pos + 4 + MAX_LINK_NAME_LENGTH)
      (by rw [hput]; show pos + 4 + 28 + 32 * r ≤ buf.length; omega)).2
    have hid : getBytes (zeroRest buf pos (r + 1)) pos 4 = leBytes 4 0 := by
      unfold zeroRest
      rw [hfr pos 4 (by omega)]
      have := getBytes_putBytes_same buf pos (leBytes 4 0) (by rw [hl]; omega)
      rw [hl] at this
      exact this
    unfold readEntries
    simp only [hid]
    rw [if_neg (by decide)]
    unfold zeroRest
    exact ih _ _ (by rw [hput]; show pos + 4 + 28 + 32 * r ≤ buf.length; omega)

/-- The entries written by the two loops of `save` are the ones that the reader loop
recovers, whatever the slot held before. -/
theorem readEntries_saveEntries (es : List Hardlink) : ∀ (buf : List Nat) (pos r : Nat),
    pos + 32 * (es.length + r) ≤ buf.length →
    (∀ e, e ∈ es → e.targetINodeBlockID ≠ 0 ∧ e.targetINodeBlockID < 4294967296 ∧
      PlainName e.linkName) →
    readEntries (zeroRest (writeEntries buf pos es)
      (pos + (4 + MAX_LINK_NAME_LENGTH) * es.length) r) pos (es.length + r) = some es := by
  induction es with
  | nil =>
    intro buf pos r h _
    simp only [List.length_nil, Nat.mul_zero, Nat.add_zero, Nat.zero_add] at h ⊢
    exact readEntries_zeroRest r buf pos h
  | cons e t ih =>
    intro buf pos r h hok
    rw [List.length_cons] at h
    obtain ⟨e0, e1, e2⟩ := hok e (List.mem_cons_self _ _)
    have hl : (leBytes 4 e.targetINodeBlockID ++ nameField e.linkName).length = 32 := by
      rw [List.length_append, leBytes_length, nameField_length]
    have hput := putBytes_length buf pos
      (leBytes 4 e.targetINodeBlockID ++ nameField e.linkName) (by rw [hl]; omega)
    have hpos : pos + (4 + MAX_LINK_NAME_LENGTH) * (e :: t).length =
        (pos + 4 + MAX_LINK_NAME_LENGTH) + (4 + MAX_LINK_NAME_LENGTH) * t.length := by
      rw [List.length_cons]
      show pos + (4 + 28) * (t.length + 1) = (pos + 4 + 28) + (4 + 28) * t.length
      omega
    have hw := writeEntries_frame t (putBytes buf pos
      (leBytes 4 e.targetINodeBlockID ++ nameField e.linkName)) (pos + 4 + MAX_LINK_NAME_LENGTH)
      (by rw [hput]; show pos + 4 + 28 + 32 * t.length ≤ buf.length; omega)
    have hz := zeroRest_frame r (writeEntries (putBytes buf pos
      (leBytes 4 e.targetINodeBlockID ++ nameField e.linkName))
      (pos + 4 + MAX_LINK_NAME_LENGTH) t)
      ((pos + 4 + MAX_LINK_NAME_LENGTH) + (4 + MAX_LINK_NAME_LENGTH) * t.length)
      (by rw [hw.1, hput]; show pos + 4 + 28 + (4 + 28) * t.length + 32 * r ≤ buf.length; omega)
    have hsplit := putBytes_append buf pos (leBytes 4 e.targetINodeBlockID)
      (nameField e.linkName) (by rw [leBytes_length, nameField_length]; omega)
    have hp4 : (putBytes buf pos (leBytes 4 e.targetINodeBlockID)).length = buf.length :=
      putBytes_length _ _ _ (by rw [leBytes_length]; omega)
    have hfr : ∀ p k, p + k ≤ pos + 32 →
        getBytes (zeroRest (writeEntries buf pos (e :: t))
          (pos + (4 + MAX_LINK_NAME_LENGTH) * (e :: t).length) r) p k =
        getBytes (putBytes buf pos
          (leBytes 4 e.targetINodeBlockID ++ nameField e.linkName)) p k := by
      intro p k hpk
      rw [hpos]
      unfold writeEntries
      rw [hz.2 p k (by show p + k ≤ pos + 4 + 28 + (4 + 28) * t.length; omega),
        hw.2 p k (by show p + k ≤ pos + 4 + 28; omega)]
    have hid : getBytes (zeroRest (writeEntries buf pos (e :: t))
        (pos + (4 + MAX_LINK_NAME_LENGTH) * (e :: t).length) r) pos 4 =
        leBytes 4 e.targetINodeBlockID := by
      rw [hfr pos 4 (by omega), hsplit, leBytes_length,
        getBytes_putBytes_other _ _ _ _ _ (by rw [nameField_length, hp4]; omega)
          (Or.inl (by omega))]
      have := getBytes_putBytes_same buf pos (leBytes 4 e.targetINodeBlockID)
        (by rw [leBytes_length]; omega)
      rw [leBytes_length] at this
      exact this
    have hname : getBytes (zeroRest (writeEntries buf pos (e :: t))
        (pos + (4 + MAX_LINK_NAME_LENGTH) * (e :: t).length) r) (pos + 4)
        MAX_LINK_NAME_LENGTH = nameField e.linkName := by
      rw [hfr (pos + 4) MAX_LINK_NAME_LENGTH (by show pos + 4 + 28 ≤ pos + 32; omega), hsplit,
        leBytes_length]
      have := getBytes_putBytes_same (putBytes buf pos (leBytes 4 e.targetINodeBlockID))
        (pos + 4) (nameField e.linkName) (by rw [nameField_length, hp4]; omega)
      rw [nameField_length] at this
      exact this
    have htail := ih (putBytes buf pos
      (leBytes 4 e.targetINodeBlockID ++ nameField e.linkName)) (pos + 4 + MAX_LINK_NAME_LENGTH)
      r (by rw [hput]; show pos + 4 + 28 + 32 * (t.length + r) ≤ buf.length; omega)
      (fun x hx => hok x (List.mem_cons_of_mem _ hx))
    have hcount : (e :: t).length + r = (t.length + r) + 1 := by
      rw [List.length_cons]
      omega
    rw [hcount]
    unfold readEntries
    simp only [hid, hname]
    rw [leValue_leBytes_of_lt 4 _ (by omega), if_pos e0, readName_nameField _ e2]
    simp only
    have heq : zeroRest (writeEntries buf pos (e :: t))
        (pos + (4 + MAX_LINK_NAME_LENGTH) * (e :: t).length) r =
        zeroRest (writeEntries (putBytes buf pos
          (leBytes 4 e.targetINodeBlockID ++ nameField e.linkName))
          (pos + 4 + MAX_LINK_NAME_LENGTH) t)
          ((pos + 4 + MAX_LINK_NAME_LENGTH) + (4 + MAX_LINK_NAME_LENGTH) * t.length) r := by
      rw [hpos]
      rfl
    rw [heq, htail]
    rfl

theorem blockReadBytes_congr (u : Nat) (b1 b2 : List Nat)
    (h : ∀ p k, p + k ≤ 8 → getBytes b1 p k = getBytes b2 p k) :
    Block.readBytes u b1 = Block.readBytes u b2 := by
  unfold Block.readBytes
  rw [h 0 4 (by omega), h 4 4 (by omega)]

theorem inodeReadBytes_congr (u : Nat) (b1 b2 : List Nat)
    (h : ∀ p k, p + k ≤ 20 → getBytes b1 p k = getBytes b2 p k) :
    INode.readBytes u b1 = INode.readBytes u b2 := by
  unfold INode.readBytes
  rw [blockReadBytes_congr u b1 b2 (fun p k hpk => h p k (by omega))]
  have hp : (Block.readBytes u b2).2.2 ≤ 8 := by
    unfold Block.readBytes
    by_cases h0 : leValue (getBytes b2 0 4) = 0
    · simp only [h0, if_true]
      omega
    · simp only [h0, if_false]
      omega
  generalize Block.readBytes u b2 = r at hp
  obtain ⟨id, lwt, pos⟩ := r
  simp only at hp ⊢
  rw [h (pos + 8) 1 (by omega), h pos 4 (by omega), h (pos + 4) 4 (by omega),
    h (pos + 10) 2 (by omega)]

theorem saveEntries_frame (c : Constants) (buf : List Nat) (es : List Hardlink)
    (hlen : es.length ≤ c.MAX_LINKS_PER_DIRENTRYLIST)
    (hbuf : 32 + 32 * c.MAX_LINKS_PER_DIRENTRYLIST ≤ buf.length) :
    ∀ p k, p + k ≤ 32 → getBytes (saveEntries c buf 32 es) p k = getBytes buf p k := by
  intro p k hpk
  unfold saveEntries
  have hw := writeEntries_frame es buf 32 (by omega)
  have hz := zeroRest_frame (c.MAX_LINKS_PER_DIRENTRYLIST - es.length)
    (writeEntries buf 32 es) (32 + (4 + MAX_LINK_NAME_LENGTH) * es.length)
    (by rw [hw.1]; show 32 + (4 + 28) * es.length + _ ≤ _; omega)
  rw [hz.2 p k (by omega), hw.2 p k hpk]

theorem readEntries_saveEntries_slot (c : Constants) (buf : List Nat) (es : List Hardlink)
    (hlen : es.length ≤ c.MAX_LINKS_PER_DIRENTRYLIST)
    (hbuf : 32 + 32 * c.MAX_LINKS_PER_DIRENTRYLIST ≤ buf.length)
    (hok : ∀ e, e ∈ es → e.targetINodeBlockID ≠ 0 ∧ e.targetINodeBlockID < 4294967296 ∧
      PlainName e.linkName) :
    readEntries (saveEntries c buf 32 es) 32 c.MAX_LINKS_PER_DIRENTRYLIST = some es := by
  have := readEntries_saveEntries es buf 32 (c.MAX_LINKS_PER_DIRENTRYLIST - es.length)
    (by omega) hok
  rw [Nat.add_sub_cancel' hlen] at this
  exact this

/-- C39: directory entry codec round trip.  For every list of at most
`MAX_LINKS_PER_DIRENTRYLIST` hardlinks with target ids different from 0 and names of 1 to 27
characters other than NUL, and for every prior content `buf` of the slot (the skipped name
fields of the unused slots keep its bytes): the bytes written by `DirectoryINode::save` for
an inlined directory INode, read by the constructor `DirectoryINode(STREAM&)`, give the same
header and the same (name, target id) pairs in the same order, and the bytes written by
`DirectoryEntryList::save`, read by `DirectoryEntryList(STREAM&)`, give the same list. -/
theorem entry_codec_round_trip (c : Constants) (buf : List Nat) (uninit now : Nat)
    (n : DirectoryINode) (l : DirectoryEntryList)
    (hbuf : 32 + 32 * c.MAX_LINKS_PER_DIRENTRYLIST ≤ buf.length) (hnow : now < 4294967296)
    (hin : n.inlined = true) (hty : n.type = INODE_TYPE_DIR)
    (hid : n.id ≠ 0 ∧ n.id < 4294967296)
    (hct : n.creationTime < 4294967296) (hsz : n.size_b < 4294967296)
    (hlc : n.linkCounter < 65536)
    (hnl : n.entries.length ≤ c.MAX_LINKS_PER_DIRENTRYLIST)
    (hne : ∀ e, e ∈ n.entries → e.targetINodeBlockID ≠ 0 ∧
      e.targetINodeBlockID < 4294967296 ∧ PlainName e.linkName)
    (hlid : l.id ≠ 0 ∧ l.id < 4294967296)
    (hll : l.entries.length ≤ c.MAX_LINKS_PER_DIRENTRYLIST)
    (hle : ∀ e, e ∈ l.entries → e.targetINodeBlockID ≠ 0 ∧
      e.targetINodeBlockID < 4294967296 ∧ PlainName e.linkName) :
    DirectoryINode.readBytes c uninit (DirectoryINode.saveBytes c buf now n) =
      some ⟨{ n.toINode with lastWriteTime := now }, n.entries, []⟩ ∧
    DirectoryEntryList.readBytes c uninit (DirectoryEntryList.saveBytes c buf now l) =
      some { l with lastWriteTime := now } := by
  constructor
  · obtain ⟨hL, -, -, -, -, -, -, -⟩ := INode.saveBytes_fields buf now n.toINode (by omega)
    have hhdr := (INode.readBytes_saveBytes buf uninit now n.toINode (by omega) hid hnow
      hct hsz hlc (by rw [hty]; decide)).1
    unfold DirectoryINode.readBytes DirectoryINode.saveBytes
    simp only [hin, if_true]
    rw [inodeReadBytes_congr uninit _ (INode.saveBytes buf now n.toINode)
      (fun p k hpk => saveEntries_frame c _ n.entries hnl (by rw [hL]; exact hbuf) p k
        (by omega)), hhdr]
    simp only [hty, ne_eq, not_true_eq_false, if_false, hin, if_true]
    rw [readEntries_saveEntries_slot c _ n.entries hnl (by rw [hL]; exact hbuf) hne]
    rfl
  · have l4 : ∀ v, (leBytes 4 v).length = 4 := fun v => leBytes_length 4 v
    have L0 : (putBytes buf 0 (leBytes 4 l.id)).length = buf.length :=
      putBytes_length _ _ _ (by rw [l4]; omega)
    have L1 : (Block.saveBytes buf now l.id).length = buf.length := by
      unfold Block.saveBytes
      rw [putBytes_length _ _ _ (by rw [l4, L0]; omega), L0]
    have h0 : getBytes (Block.saveBytes buf now l.id) 0 4 = leBytes 4 l.id := by
      unfold Block.saveBytes
      rw [getBytes_putBytes_other _ _ _ _ _ (by rw [l4, L0]; omega) (Or.inl (by omega))]
      have := getBytes_putBytes_same buf 0 (leBytes 4 l.id) (by rw [l4]; omega)
      rw [l4] at this
      exact this
    have h4 : getBytes (Block.saveBytes buf now l.id) 4 4 = leBytes 4 now := by
      unfold Block.saveBytes
      have := getBytes_putBytes_same (putBytes buf 0 (leBytes 4 l.id)) 4 (leBytes 4 now)
        (by rw [l4, L0]; omega)
      rw [l4] at this
      exact this
    have hblk : Block.readBytes uninit (Block.saveBytes buf now l.id) = (l.id, now, 8) := by
      unfold Block.readBytes
      rw [h0, h4, leValue_leBytes_of_lt 4 l.id (by omega), if_neg hlid.1,
        leValue_leBytes_of_lt 4 now (by omega)]
    unfold DirectoryEntryList.readBytes DirectoryEntryList.saveBytes
    rw [blockReadBytes_congr uninit _ (Block.saveBytes buf now l.id)
      (fun p k hpk => saveEntries_frame c _ l.entries hll (by rw [L1]; exact hbuf) p k
        (by omega)), hblk]
    simp only
    rw [readEntries_saveEntries_slot c _ l.entries hll (by rw [L1]; exact hbuf) hle]
    rfl

set_option maxRecDepth 1000000 in
theorem entry_codec_round_trip_witness :
    DirectoryINode.readBytes demoConstants 0 (DirectoryINode.saveBytes demoConstants
      dirtySlot 7 ⟨⟨3, 0, 5, 0, 1, true, 2⟩,
        [⟨['.'], 3⟩, ⟨['.', '.'], 1⟩, ⟨['a', 'b'], 9⟩], []⟩) =
      some ⟨⟨3, 7, 5, 0, 1, true, 2⟩, [⟨['.'], 3⟩, ⟨['.', '.'], 1⟩, ⟨['a', 'b'], 9⟩], []⟩ ∧
    DirectoryEntryList.readBytes demoConstants 0 (DirectoryEntryList.saveBytes demoConstants
      dirtySlot 7 ⟨4, 0, [⟨['x'], 6⟩, ⟨['y', 'z'], 8⟩]⟩) =
      some ⟨4, 7, [⟨['x'], 6⟩, ⟨['y', 'z'], 8⟩]⟩ :=
  entry_codec_round_trip demoConstants dirtySlot 0 7
    ⟨⟨3, 0, 5, 0, 1, true, 2⟩, [⟨['.'], 3⟩, ⟨['.', '.'], 1⟩, ⟨['a', 'b'], 9⟩], []⟩
    ⟨4, 0, [⟨['x'], 6⟩, ⟨['y', 'z'], 8⟩]⟩
    (by rw [dirtySlot, List.length_replicate]; decide) (by decide) rfl rfl (by decide) (by decide)
    (by decide) (by decide) (by decide) (by decide) (by decide) (by decide) (by decide)

/-- C33: `File::removeDataBlock` at the step from `MAX_DATABLOCKS_PER_DATABLOCKLIST + 1` to
`MAX_DATABLOCKS_PER_DATABLOCKLIST` data blocks.  For an external file whose first list is
full and whose second list holds one id, the call pops that id and keeps the emptied
second list: the test `numberOfDataBlocks > MAX_DATABLOCKS_PER_DATABLOCKLIST` fails, no
block is freed, the file object still has two lists, the second of them empty, the INode
is unchanged (it still names both lists) and the emptied list is returned as the block to
save. -/
theorem removeDataBlock_keeps_empty_list (c : Constants) (s : FS) (f : OpenFile)
    (l1 l2 : DataBlockList) (x : Nat)
    (hM : 0 < c.MAX_DATABLOCKS_PER_DATABLOCKLIST)
    (h32 : c.MAX_DATABLOCKS_PER_DATABLOCKLIST + 1 < 4294967296)
    (hex : f.inode.inlined = false) (hl : f.blockLists = [l1, l2])
    (h1 : l1.entries.length = c.MAX_DATABLOCKS_PER_DATABLOCKLIST) (h2 : l2.entries = [x])
    (hn : f.numberOfDataBlocks = c.MAX_DATABLOCKS_PER_DATABLOCKLIST + 1) :
    f.removeDataBlock c s = some (s,
      { f with blockLists := [l1, { l2 with entries := [] }],
               numberOfDataBlocks := c.MAX_DATABLOCKS_PER_DATABLOCKLIST },
      [.list 1]) := by
  unfold OpenFile.removeDataBlock
  have hn1 : (f.numberOfDataBlocks + 4294967295) % 4294967296 =
      c.MAX_DATABLOCKS_PER_DATABLOCKLIST := by
    rw [hn]
    omega
  simp only [hex, Bool.false_eq_true, if_false, hl, List.getLast?_cons_cons,
    List.getLast?_singleton, hn1, Nat.mod_self, Nat.lt_irrefl, and_false]
  simp [DataBlockList.popDataBlock, h2]

theorem removeDataBlock_keeps_empty_list_witness :
    twoListFile.removeDataBlock demoConstants sixSlots = some (sixSlots,
      { twoListFile with blockLists := [⟨3, 0, List.range' 6 1022⟩, ⟨4, 0, []⟩],
                         numberOfDataBlocks := 1022 },
      [.list 1]) :=
  removeDataBlock_keeps_empty_list demoConstants sixSlots twoListFile
    ⟨3, 0, List.range' 6 1022⟩ ⟨4, 0, [1028]⟩ 1028 (by decide) (by decide) rfl rfl
    (by simp [demoConstants]) rfl rfl

theorem findLink_append (A B : List Hardlink) (name : List Char) :
    findLink (A ++ B) name = (findLink A name).or (findLink B name) := by
  unfold findLink
  rw [List.find?_append]

theorem searchLists_links (lists : List DirectoryEntryList) (name : List Char) :
    searchLists lists name =
      linkTarget (findLink (lists.map DirectoryEntryList.entries).flatten name) := by
  induction lists with
  | nil => rfl
  | cons l rest ih =>
    rw [searchLists, List.map_cons, List.flatten_cons, findLink_append]
    cases hl : findLink l.entries name with
    | none => simp only [Option.none_or]; exact ih
    | some h => rfl

theorem searchHardlink_links (d : Directory) (name : List Char)
    (hv : ¬ (name = [] ∨ '/' ∈ name)) :
    d.searchHardlink name = linkTarget (findLink d.links name) := by
  unfold Directory.searchHardlink Directory.links
  rw [if_neg hv]
  cases hin : d.inode.inlined with
  | true =>
    simp only [if_true]
    cases findLink d.inode.entries name <;> rfl
  | false =>
    simp only [Bool.false_eq_true, if_false]
    exact searchLists_links _ _

theorem findLink_insert_other (A B : List Hardlink) (link : Hardlink) (other : List Char)
    (h : link.linkName ≠ other) :
    findLink (A ++ link :: B) other = findLink (A ++ B) other := by
  rw [findLink_append, findLink_append]
  congr 1
  unfold findLink
  rw [List.find?_cons_of_neg]
  simpa using h

theorem findLink_insert_same (A B : List Hardlink) (link : Hardlink) (name : List Char)
    (hA : findLink A name = none) (h : link.linkName = name) :
    findLink (A ++ link :: B) name = some link := by
  rw [findLink_append, hA, Option.none_or]
  unfold findLink
  rw [List.find?_cons_of_pos]
  simpa using h

theorem findLink_append_left_none (A B : List Hardlink) (name : List Char)
    (h : findLink (A ++ B) name = none) : findLink A name = none ∧ findLink B name = none := by
  rw [findLink_append] at h
  cases hA : findLink A name with
  | none => rw [hA, Option.none_or] at h; exact ⟨rfl, h⟩
  | some x => rw [hA] at h; cases h

/-- The first list with room takes the link; the lists before it are full. -/
theorem addToLists_split (c : Constants) (link : Hardlink) :
    ∀ (lists lists' : List DirectoryEntryList) (i k : Nat),
      addToLists c link lists i = some (k, lists') →
      ∃ pre l post, lists = pre ++ l :: post ∧
        (∀ x, x ∈ pre → c.MAX_LINKS_PER_DIRENTRYLIST ≤ x.entries.length) ∧
        l.entries.length < c.MAX_LINKS_PER_DIRENTRYLIST ∧
        lists' = pre ++ { l with entries := l.entries ++ [link] } :: post ∧
        k = i + pre.length := by
  intro lists
  induction lists with
  | nil =>
    intro lists' i k h
    unfold addToLists at h
    cases h
  | cons x rest ih =>
    intro lists' i k h
    unfold addToLists at h
    by_cases hfull : x.entries.length ≥ c.MAX_LINKS_PER_DIRENTRYLIST
    · rw [if_pos hfull] at h
      cases hr : addToLists c link rest (i + 1) with
      | none => rw [hr] at h; cases h
      | some r =>
        obtain ⟨k1, rest1⟩ := r
        rw [hr] at h
        simp only [Option.some.injEq, Prod.mk.injEq] at h
        obtain ⟨pre, l, post, e1, e2, e3, e4, e5⟩ := ih rest1 (i + 1) k1 hr
        refine ⟨x :: pre, l, post, by rw [e1]; rfl, ?_, e3, ?_, ?_⟩
        · intro y hy
          rcases List.mem_cons.mp hy with rfl | hy
          · exact hfull
          · exact e2 y hy
        · rw [← h.2, e4]; rfl
        · rw [← h.1, e5, List.length_cons]; omega
    · rw [if_neg hfull] at h
      simp only [Option.some.injEq, Prod.mk.injEq] at h
      exact ⟨[], x, rest, rfl, fun _ hy => absurd hy (List.not_mem_nil _), by omega,
        h.2.symm, by rw [← h.1]; rfl⟩

theorem flatten_length_full (M : Nat) (lists : List DirectoryEntryList)
    (h : ∀ l, l ∈ lists → l.entries.length = M) :
    (lists.map DirectoryEntryList.entries).flatten.length = lists.length * M := by
  induction lists with
  | nil => simp
  | cons x rest ih =>
    rw [List.map_cons, List.flatten_cons, List.length_append, List.length_cons,
      ih (fun l hl => h l (List.mem_cons_of_mem _ hl)), h x (List.mem_cons_self _ _)]
    rw [Nat.add_mul, Nat.one_mul, Nat.add_comm]

theorem allocDirEntryList_wf (s : FS) (hwf : WellFormed s) (hu : s.usedBlocks + 1 ≤ s.logSize) :
    ∃ id nb, allocDirEntryList s =
        some ({ s with nextBlockID := nb }, some ⟨id, 0, []⟩) ∧ 1 ≤ id ∧ id ≤ s.logSize ∧
      WellFormed { s with nextBlockID := nb } := by
  obtain ⟨k, nb, hg, hk1, hk2, -, hw⟩ := getNextBlockID_wf s hwf (by omega)
  have hsm : s.logSize < 2147483648 := hwf.2.1
  refine ⟨k, nb, ?_, hk1, hk2, hw⟩
  unfold allocDirEntryList
  rw [if_neg (by rw [Nat.mod_eq_of_lt (by omega)]; omega), hg]

/-- The second half of `Directory::addHardlink` on an external directory: the link goes
into the first list with room, or into a new list that is registered in the INode. -/
theorem addHardlinkLists_ext (c : Constants) (s : FS) (d : Directory) (t : INode)
    (link : Hardlink) (refs : List Ref)
    (hM : 0 < c.MAX_LINKS_PER_DIRENTRYLIST) (hex : d.inode.inlined = false)
    (hroom : (∀ x, x ∈ d.entryLists → c.MAX_LINKS_PER_DIRENTRYLIST ≤ x.entries.length) →
      d.inode.dirEntryListIDs.length ≠ c.MAX_DIRENTRYLISTS_PER_DIR)
    (hwf : WellFormed s) (hfree : s.usedBlocks + 1 ≤ s.logSize) :
    ∃ s' d' refs', addHardlinkLists c s d t link refs = some (s', d', t, refs') ∧
      d'.childCount = (d.childCount + 1) % 4294967296 ∧
      ((∃ pre l post, d.entryLists = pre ++ l :: post ∧
          (∀ x, x ∈ pre → c.MAX_LINKS_PER_DIRENTRYLIST ≤ x.entries.length) ∧
          l.entries.length < c.MAX_LINKS_PER_DIRENTRYLIST ∧ s' = s ∧ d'.inode = d.inode ∧
          d'.entryLists = pre ++ { l with entries := l.entries ++ [link] } :: post) ∨
       ((∀ x, x ∈ d.entryLists → c.MAX_LINKS_PER_DIRENTRYLIST ≤ x.entries.length) ∧
          ∃ id nb, s' = { s with nextBlockID := nb } ∧ WellFormed s' ∧
            d'.inode = { d.inode with dirEntryListIDs := d.inode.dirEntryListIDs ++ [id] } ∧
            d'.entryLists = d.entryLists ++ [⟨id, 0, [link]⟩])) := by
  unfold addHardlinkLists
  cases hadd : addToLists c link d.entryLists 0 with
  | some r =>
    obtain ⟨k, lists⟩ := r
    obtain ⟨pre, l, post, e1, e2, e3, e4, -⟩ := addToLists_split c link _ _ _ _ hadd
    exact ⟨s, _, _, rfl, rfl, Or.inl ⟨pre, l, post, e1, e2, e3, rfl, rfl, e4⟩⟩
  | none =>
    have hfull := addToLists_none c link _ _ hadd
    obtain ⟨id, nb, halloc, -, -, hwf'⟩ := allocDirEntryList_wf s hwf hfree
    simp only [halloc]
    have hnew : (if ([] : List Hardlink).length ≥ c.MAX_LINKS_PER_DIRENTRYLIST
        then (⟨id, 0, []⟩ : DirectoryEntryList)
        else { (⟨id, 0, []⟩ : DirectoryEntryList) with entries := [] ++ [link] }) =
        ⟨id, 0, [link]⟩ := by
      rw [if_neg (by simp; omega)]
      rfl
    refine ⟨_, _, _, rfl, rfl, Or.inr ⟨hfull, id, nb, rfl, hwf', ?_, ?_⟩⟩
    · show addDirEntryList c d.inode _ = _
      rw [hnew]
      unfold addDirEntryList
      rw [if_neg (by simp [hex]), if_neg (hroom hfull)]
    · show d.entryLists ++ [_] = _
      rw [hnew]

/-- The conversion branch of `Directory::addHardlink`: a full inlined directory. -/
theorem addHardlink_convert (c : Constants) (s : FS) (d : Directory) (target : INode)
    (name : List Char)
    (hM : 0 < c.MAX_LINKS_PER_DIRENTRYLIST) (hL : c.MAX_DIRENTRYLISTS_PER_DIR ≠ 1)
    (h1 : d.searchHardlink name = 0)
    (h2 : d.childCount ≠ c.MAX_HARDLINKS_PER_DIR)
    (h3 : target.linkCounter ≠ MAX_NUMBER_OF_LINKS_TO_INODE) (h4 : d.inode.inlined = true)
    (h5 : d.inode.entries.length = c.MAX_LINKS_PER_DIRENTRYLIST)
    (h6 : d.entryLists = [] ∧ d.inode.dirEntryListIDs = [])
    (hwf : WellFormed s) (hfree : s.usedBlocks + 1 ≤ s.logSize) :
    ∃ s' refs id1 id2, d.addHardlink c s target name = some (s',
      { d with
        inode := { d.inode with inlined := false, entries := [],
                                dirEntryListIDs := [id1, id2] }
        entryLists := [⟨id1, 0, d.inode.entries⟩, ⟨id2, 0, [⟨name, target.id⟩]⟩]
        childCount := (d.childCount + 1) % 4294967296 },
      { target with linkCounter := target.linkCounter + 1 }, refs) := by
  obtain ⟨id1, nb1, halloc, -, -, hwf1⟩ := allocDirEntryList_wf s hwf hfree
  have hconv : convertToNonInline c d.inode ⟨id1, 0, []⟩ =
      ({ d.inode with entries := [], inlined := false, dirEntryListIDs := [id1] },
       ⟨id1, 0, d.inode.entries⟩) := by
    unfold convertToNonInline
    rw [if_pos (by omega), h6.2]
    rfl
  obtain ⟨s', d', refs', hl, hcc, hpl⟩ := addHardlinkLists_ext c { s with nextBlockID := nb1 }
    { d with inode := { d.inode with entries := [], inlined := false,
                                     dirEntryListIDs := [id1] },
             entryLists := d.entryLists ++ [⟨id1, 0, d.inode.entries⟩] }
    { target with linkCounter := target.linkCounter + 1 } ⟨name, target.id⟩
    [.target, .primary, .list d.entryLists.length] hM rfl
    (fun _ => by show [id1].length ≠ _; intro h; exact hL h.symm) hwf1 hfree
  have hres : d.addHardlink c s target name = some (s', d',
      { target with linkCounter := target.linkCounter + 1 }, refs') := by
    unfold Directory.addHardlink
    rw [if_neg (by simpa using h1), if_neg h2, if_neg h3]
    simp only [h4, if_true, h5, Nat.lt_irrefl, if_false, halloc, hconv]
    exact hl
  rcases hpl with ⟨pre, l, post, e1, e2, e3, -, -, -⟩ | ⟨-, id2, nb2, -, -, e4, e5⟩
  · exfalso
    have e1' : [(⟨id1, 0, d.inode.entries⟩ : DirectoryEntryList)] = pre ++ l :: post := by
      have : d.entryLists ++ [(⟨id1, 0, d.inode.entries⟩ : DirectoryEntryList)] =
          pre ++ l :: post := e1
      rw [h6.1] at this
      exact this
    have hlen := congrArg List.length e1'
    simp only [List.length_singleton, List.length_append, List.length_cons, List.length_nil]
      at hlen
    have hpre : pre = [] := List.length_eq_zero.mp (by omega)
    have hpost : post = [] := List.length_eq_zero.mp (by omega)
    rw [hpre, hpost] at e1'
    have hl1 : l = ⟨id1, 0, d.inode.entries⟩ := (List.cons.inj e1').1.symm
    rw [hl1] at e3
    have : d.inode.entries.length < c.MAX_LINKS_PER_DIRENTRYLIST := e3
    omega
  · refine ⟨s', refs', id1, id2, ?_⟩
    rw [hres]
    have e4' : d'.inode =
        { d.inode with inlined := false, entries := [], dirEntryListIDs := [id1, id2] } := e4
    have e5' : d'.entryLists = [⟨id1, 0, d.inode.entries⟩, ⟨id2, 0, [⟨name, target.id⟩]⟩] := by
      have : d'.entryLists = (d.entryLists ++ [(⟨id1, 0, d.inode.entries⟩ :
          DirectoryEntryList)]) ++ [⟨id2, 0, [⟨name, target.id⟩]⟩] := e5
      rw [h6.1] at this
      exact this
    have hcc' : d'.childCount = (d.childCount + 1) % 4294967296 := hcc
    cases d' with
    | mk inode cc lists =>
      simp only at e4' e5' hcc'
      rw [e4', e5', hcc']

theorem flatten_entries_insert (pre post : List DirectoryEntryList) (l : DirectoryEntryList)
    (link : Hardlink) :
    ((pre ++ { l with entries := l.entries ++ [link] } :: post).map
        DirectoryEntryList.entries).flatten =
      ((pre.map DirectoryEntryList.entries).flatten ++ l.entries) ++
        link :: (post.map DirectoryEntryList.entries).flatten ∧
    ((pre ++ l :: post).map DirectoryEntryList.entries).flatten =
      ((pre.map DirectoryEntryList.entries).flatten ++ l.entries) ++
        (post.map DirectoryEntryList.entries).flatten := by
  simp [List.flatten_append]

/-- What the search results of a directory look like after one link was inserted into its
sequence of links. -/
theorem search_after_insert (d d' : Directory) (A B : List Hardlink) (name : List Char)
    (id : Nat) (hname : ¬ (name = [] ∨ '/' ∈ name))
    (hd : d.links = A ++ B) (hd' : d'.links = A ++ ⟨name, id⟩ :: B)
    (hnew : findLink d.links name = none) :
    d'.searchHardlink name = id ∧
    ∀ other, other ≠ name → d'.searchHardlink other = d.searchHardlink other := by
  constructor
  · rw [searchHardlink_links d' name hname, hd']
    rw [hd] at hnew
    rw [findLink_insert_same A B _ name (findLink_append_left_none A B name hnew).1 rfl]
    rfl
  · intro other hne
    by_cases hv : other = [] ∨ '/' ∈ other
    · unfold Directory.searchHardlink
      rw [if_pos hv, if_pos hv]
    · rw [searchHardlink_links d' other hv, searchHardlink_links d other hv, hd', hd,
        findLink_insert_other A B _ other (fun h => hne h.symm)]

/-- C34 (amended): `Directory::addHardlink(target, name)` for a valid link name (not empty,
no '/') on a consistent directory object that does not contain the name, with
`childCount < MAX_HARDLINKS_PER_DIR`, `target.linkCounter < 65535` and an allocator that
succeeds (well-formed image with a free block).  The call returns
the target with a link counter one higher; afterwards `searchHardlink(name)` is the
target id, every other name maps to the same id as before, `childCount` is one higher and
the object is consistent again.  Placement: an inlined directory with room takes the link
inline; a full inlined directory is converted (its entries move to a fresh entry list, the
INode becomes external) and the link goes into a second new list; in an external directory
the link goes into the first list with room, or, when all lists are full, into a new list
whose id is appended to the INode. -/
theorem addHardlink_spec (c : Constants) (s : FS) (d : Directory) (target : INode)
    (name : List Char)
    (hc : 0 < c.MAX_LINKS_PER_DIRENTRYLIST ∧
      c.MAX_HARDLINKS_PER_DIR ≤ c.MAX_LINKS_PER_DIRENTRYLIST * c.MAX_DIRENTRYLISTS_PER_DIR ∧
      c.MAX_HARDLINKS_PER_DIR < 4294967296)
    (hinv : DirInv c d) (hname : ¬ (name = [] ∨ '/' ∈ name))
    (hnew : findLink d.links name = none)
    (hcc : d.childCount < c.MAX_HARDLINKS_PER_DIR) (hlc : target.linkCounter < 65535)
    (hwf : WellFormed s) (hfree : s.usedBlocks + 1 ≤ s.logSize) :
    ∃ s' d' refs, d.addHardlink c s target name =
        some (s', d', { target with linkCounter := target.linkCounter + 1 }, refs) ∧
      d'.searchHardlink name = target.id ∧
      (∀ other, other ≠ name → d'.searchHardlink other = d.searchHardlink other) ∧
      d'.childCount = d.childCount + 1 ∧ DirInv c d' ∧
      (d.inode.inlined = true → d.inode.entries.length < c.MAX_LINKS_PER_DIRENTRYLIST →
        s' = s ∧ d'.entryLists = [] ∧
        d'.inode = { d.inode with entries := d.inode.entries ++ [⟨name, target.id⟩] }) ∧
      (d.inode.inlined = true → c.MAX_LINKS_PER_DIRENTRYLIST ≤ d.inode.entries.length →
        ∃ id1 id2,
          d'.inode =
            { d.inode with inlined := false, entries := [], dirEntryListIDs := [id1, id2] } ∧
          d'.entryLists = [⟨id1, 0, d.inode.entries⟩, ⟨id2, 0, [⟨name, target.id⟩]⟩]) ∧
      (d.inode.inlined = false →
        (∃ pre l post, d.entryLists = pre ++ l :: post ∧
          (∀ x, x ∈ pre → c.MAX_LINKS_PER_DIRENTRYLIST ≤ x.entries.length) ∧
          l.entries.length < c.MAX_LINKS_PER_DIRENTRYLIST ∧ s' = s ∧ d'.inode = d.inode ∧
          d'.entryLists =
            pre ++ { l with entries := l.entries ++ [⟨name, target.id⟩] } :: post) ∨
        ((∀ x, x ∈ d.entryLists → c.MAX_LINKS_PER_DIRENTRYLIST ≤ x.entries.length) ∧
          ∃ id, d'.inode =
              { d.inode with dirEntryListIDs := d.inode.dirEntryListIDs ++ [id] } ∧
            d'.entryLists = d.entryLists ++ [⟨id, 0, [⟨name, target.id⟩]⟩])) := by
  obtain ⟨hM, hcap, h32⟩ := hc
  obtain ⟨hcnt, hinl, hext⟩ := hinv
  have hs0 : d.searchHardlink name = 0 := by
    rw [searchHardlink_links d name hname, hnew]
    rfl
  have h2 : d.childCount ≠ c.MAX_HARDLINKS_PER_DIR := by omega
  have h3 : target.linkCounter ≠ MAX_NUMBER_OF_LINKS_TO_INODE := by
    unfold MAX_NUMBER_OF_LINKS_TO_INODE
    omega
  have hmod : (d.childCount + 1) % 4294967296 = d.childCount + 1 :=
    Nat.mod_eq_of_lt (by omega)
  cases hin : d.inode.inlined with
  | true =>
    obtain ⟨hnil, hids, hlen⟩ := hinl hin
    have hlinks : d.links = d.inode.entries := by
      unfold Directory.links
      rw [if_pos hin]
    by_cases hroom : d.inode.entries.length < c.MAX_LINKS_PER_DIRENTRYLIST
    · have hres := addHardlink_inline c s d target name hs0 h2 h3 hin hroom
      have hl' : ({ d with
          inode := { d.inode with entries := d.inode.entries ++ [⟨name, target.id⟩] }
          childCount := (d.childCount + 1) % 4294967296 } : Directory).links =
          d.inode.entries ++ [⟨name, target.id⟩] := by
        unfold Directory.links
        rw [if_pos (by exact hin)]
      obtain ⟨q1, q2⟩ := search_after_insert d _ d.inode.entries [] name target.id hname
        (by rw [hlinks, List.append_nil]) hl' hnew
      refine ⟨s, _, _, hres, q1, q2, hmod, ⟨?_, ?_, ?_⟩, ?_, ?_, ?_⟩
      · show (d.childCount + 1) % 4294967296 = _
        rw [hl', hmod, hcnt, hlinks, List.length_append]
        rfl
      · intro _
        refine ⟨hnil, hids, ?_⟩
        show (d.inode.entries ++ [_]).length ≤ _
        rw [List.length_append]
        exact hroom
      · intro hf
        exact absurd (hin.symm.trans hf) (by decide)
      · intro _ _
        exact ⟨rfl, hnil, rfl⟩
      · intro _ hfull
        omega
      · intro hf
        simp at hf
    · have hfull : d.inode.entries.length = c.MAX_LINKS_PER_DIRENTRYLIST := by omega
      have hL : c.MAX_DIRENTRYLISTS_PER_DIR ≠ 1 := by
        intro h1
        rw [h1, Nat.mul_one] at hcap
        rw [hcnt, hlinks] at hcc
        omega
      obtain ⟨s', refs, id1, id2, hres⟩ := addHardlink_convert c s d target name hM hL hs0 h2 h3
        hin hfull ⟨hnil, hids⟩ hwf hfree
      have hl' : ({ d with
          inode := { d.inode with inlined := false, entries := [],
                                  dirEntryListIDs := [id1, id2] }
          entryLists := [⟨id1, 0, d.inode.entries⟩, ⟨id2, 0, [⟨name, target.id⟩]⟩]
          childCount := (d.childCount + 1) % 4294967296 } : Directory).links =
          d.inode.entries ++ [⟨name, target.id⟩] := by
        unfold Directory.links
        simp
      obtain ⟨q1, q2⟩ := search_after_insert d _ d.inode.entries [] name target.id hname
        (by rw [hlinks, List.append_nil]) hl' hnew
      refine ⟨s', _, refs, hres, q1, q2, hmod, ⟨?_, ?_, ?_⟩, ?_, ?_, ?_⟩
      · show (d.childCount + 1) % 4294967296 = _
        rw [hl', hmod, hcnt, hlinks, List.length_append]
        rfl
      · intro hf
        simp at hf
      · intro _
        refine ⟨rfl, ?_⟩
        intro l hl
        simp only [List.mem_cons, List.mem_singleton, List.not_mem_nil, or_false] at hl
        rcases hl with rfl | rfl
        · exact hlen
        · exact hM
      · intro _ hr
        exact absurd hr hroom
      · intro _ _
        exact ⟨id1, id2, rfl, rfl⟩
      · intro hf
        simp at hf
  | false =>
    obtain ⟨hids, hlen⟩ := hext hin
    have hlinks : d.links = (d.entryLists.map DirectoryEntryList.entries).flatten := by
      unfold Directory.links
      rw [if_neg (by simp [hin])]
    have hroomL : (∀ x, x ∈ d.entryLists → c.MAX_LINKS_PER_DIRENTRYLIST ≤ x.entries.length) →
        d.inode.dirEntryListIDs.length ≠ c.MAX_DIRENTRYLISTS_PER_DIR := by
      intro hfull hcon
      have hfl := flatten_length_full c.MAX_LINKS_PER_DIRENTRYLIST d.entryLists
        (fun l hl => Nat.le_antisymm (hlen l hl) (hfull l hl))
      rw [hids, List.length_map] at hcon
      rw [hcnt, hlinks, hfl, hcon, Nat.mul_comm] at hcc
      omega
    obtain ⟨s', d', refs', hl, hcc', hpl⟩ := addHardlinkLists_ext c s d
      { target with linkCounter := target.linkCounter + 1 } ⟨name, target.id⟩ [.target]
      hM hin hroomL hwf hfree
    have hres : d.addHardlink c s target name = some (s', d',
        { target with linkCounter := target.linkCounter + 1 }, refs') := by
      unfold Directory.addHardlink
      rw [if_neg (by simpa using hs0), if_neg h2, if_neg h3]
      simp only [hin, Bool.false_eq_true, if_false]
      exact hl
    have hin' : d'.inode.inlined = false := by
      rcases hpl with ⟨pre, l, post, -, -, -, -, e5, -⟩ | ⟨-, id, nb, -, -, e4, -⟩
      · rw [e5]; exact hin
      · rw [e4]; exact hin
    have hlinks' : d'.links = (d'.entryLists.map DirectoryEntryList.entries).flatten := by
      unfold Directory.links
      rw [if_neg (by simp [hin'])]
    rw [hmod] at hcc'
    have hAB : ∃ A B, d.links = A ++ B ∧ d'.links = A ++ ⟨name, target.id⟩ :: B := by
      rcases hpl with ⟨pre, l, post, e1, -, -, -, -, e6⟩ | ⟨-, id, nb, -, -, -, e5⟩
      · obtain ⟨f1, f2⟩ := flatten_entries_insert pre post l ⟨name, target.id⟩
        refine ⟨(pre.map DirectoryEntryList.entries).flatten ++ l.entries,
          (post.map DirectoryEntryList.entries).flatten, ?_, ?_⟩
        · rw [hlinks, e1]; exact f2
        · rw [hlinks', e6]; exact f1
      · refine ⟨d.links, [], by rw [List.append_nil], ?_⟩
        rw [hlinks', e5, hlinks]
        simp
    obtain ⟨A, B, hA, hB⟩ := hAB
    obtain ⟨q1, q2⟩ := search_after_insert d d' A B name target.id hname hA hB hnew
    refine ⟨s', d', refs', hres, q1, q2, hcc', ⟨?_, ?_, ?_⟩, ?_, ?_, ?_⟩
    · rw [hcc', hB, hcnt, hA]
      simp only [List.length_append, List.length_cons]
      omega
    · intro hf
      exact absurd (hin'.symm.trans hf) (by decide)
    · intro _
      rcases hpl with ⟨pre, l, post, e1, -, e3, -, e5, e6⟩ | ⟨-, id, nb, -, -, e4, e5⟩
      · refine ⟨?_, ?_⟩
        · rw [e5, e6, hids, e1]
          simp
        · intro x hx
          rw [e6] at hx
          rcases List.mem_append.mp hx with hx | hx
          · exact hlen x (by rw [e1]; exact List.mem_append_left _ hx)
          · rcases List.mem_cons.mp hx with rfl | hx
            · show (l.entries ++ [_]).length ≤ _
              rw [List.length_append]
              exact e3
            · exact hlen x (by rw [e1]; exact List.mem_append_right _ (List.mem_cons_of_mem _ hx))
      · refine ⟨?_, ?_⟩
        · rw [e4, e5, List.map_append, ← hids]
          rfl
        · intro x hx
          rw [e5] at hx
          rcases List.mem_append.mp hx with hx | hx
          · exact hlen x hx
          · rw [List.mem_singleton.mp hx]
            exact hM
    · intro hf
      simp at hf
    · intro hf
      simp at hf
    · intro _
      rcases hpl with ⟨pre, l, post, e1, e2, e3, e4, e5, e6⟩ | ⟨hfull, id, nb, -, -, e4, e5⟩
      · exact Or.inl ⟨pre, l, post, e1, e2, e3, e4, e5, e6⟩
      · exact Or.inr ⟨hfull, id, e4, e5⟩

/-- C34 (as worded): `addHardlink(target, "")` on the root directory object of `inlineRoot`,
which holds "." and ".." only.  The empty name is not present, `childCount` is 2 and the
link counter of the target is 0, so the call adds the link (`childCount` 3, link counter 1,
third entry with the empty name), but `searchHardlink("")` still returns 0, not the target
id 5: `searchHardlink` refuses an empty name and a name with '/', `addHardlink` does not
check the name.  `mkdir("/.")` reaches this call with the empty last name. -/
theorem addHardlink_empty_name :
    inlineRootDir.ls = [['.'], ['.', '.']] ∧ inlineRootDir.childCount = 2 ∧
    (inlineRootDir.addHardlink demoConstants inlineRoot ⟨5, 0, 0, 0, 2, true, 0⟩ []).map
      (fun r => (r.2.1.childCount, r.2.2.1.linkCounter, r.2.1.ls, r.2.1.searchHardlink [])) =
      some (3, 1, [['.'], ['.', '.'], []], 0) ∧
    (mkdir demoConstants specPathUtils 0 (clockFrom 0) inlineRoot ['/', '.']).map
      (fun r => (r.1, persistedNames demoConstants r.2 1)) =
      some (true, some (some [['.'], ['.', '.'], []])) := by
  decide

set_option maxRecDepth 1000000 in
theorem addHardlink_spec_witness :
    ∃ s' d' refs, inlineRootDir.addHardlink demoConstants inlineRoot ⟨5, 0, 0, 0, 2, true, 0⟩ ['a'] =
        some (s', d', ⟨5, 0, 0, 0, 2, true, 1⟩, refs) ∧
      d'.searchHardlink ['a'] = 5 ∧
      (∀ other, other ≠ ['a'] → d'.searchHardlink other = inlineRootDir.searchHardlink other) ∧
      d'.childCount = inlineRootDir.childCount + 1 ∧ DirInv demoConstants d' ∧
      (inlineRootDir.inode.inlined = true → inlineRootDir.inode.entries.length < demoConstants.MAX_LINKS_PER_DIRENTRYLIST →
        s' = inlineRoot ∧ d'.entryLists = [] ∧
        d'.inode = { inlineRootDir.inode with entries := inlineRootDir.inode.entries ++ [⟨['a'], 5⟩] }) ∧
      (inlineRootDir.inode.inlined = true → demoConstants.MAX_LINKS_PER_DIRENTRYLIST ≤ inlineRootDir.inode.entries.length →
        ∃ id1 id2,
          d'.inode =
            { inlineRootDir.inode with inlined := false, entries := [], dirEntryListIDs := [id1, id2] } ∧
          d'.entryLists = [⟨id1, 0, inlineRootDir.inode.entries⟩, ⟨id2, 0, [⟨['a'], 5⟩]⟩]) ∧
      (inlineRootDir.inode.inlined = false →
        (∃ pre l post, inlineRootDir.entryLists = pre ++ l :: post ∧
          (∀ x, x ∈ pre → demoConstants.MAX_LINKS_PER_DIRENTRYLIST ≤ x.entries.length) ∧
          l.entries.length < demoConstants.MAX_LINKS_PER_DIRENTRYLIST ∧ s' = inlineRoot ∧ d'.inode = inlineRootDir.inode ∧
          d'.entryLists =
            pre ++ { l with entries := l.entries ++ [⟨['a'], 5⟩] } :: post) ∨
        ((∀ x, x ∈ inlineRootDir.entryLists → demoConstants.MAX_LINKS_PER_DIRENTRYLIST ≤ x.entries.length) ∧
          ∃ id, d'.inode =
              { inlineRootDir.inode with dirEntryListIDs := inlineRootDir.inode.dirEntryListIDs ++ [id] } ∧
            d'.entryLists = inlineRootDir.entryLists ++ [⟨id, 0, [⟨['a'], 5⟩]⟩])) :=
  addHardlink_spec demoConstants inlineRoot inlineRootDir ⟨5, 0, 0, 0, 2, true, 0⟩ ['a']
    (by decide) (by decide) (by decide) (by decide) (by decide) (by decide) (by decide)
    (by decide)

theorem findLink_cons_ne (a : Hardlink) (t : List Hardlink) (name : List Char)
    (ha : a.linkName ≠ name) : findLink (a :: t) name = findLink t name := by
  unfold findLink
  rw [List.find?_cons]
  simp [ha]

theorem findLink_cons_eq (a : Hardlink) (t : List Hardlink) (name : List Char)
    (ha : a.linkName = name) : findLink (a :: t) name = some a := by
  unfold findLink
  rw [List.find?_cons]
  simp [ha]

theorem removeLink_append_found (A B : List Hardlink) (name : List Char)
    (h : findLink A name ≠ none) : removeLink (A ++ B) name = removeLink A name ++ B := by
  induction A with
  | nil => exact absurd rfl h
  | cons a t ih =>
    by_cases ha : a.linkName = name
    · rw [List.cons_append, removeLink, if_pos ha, removeLink, if_pos ha]
    · rw [List.cons_append, removeLink, if_neg ha, removeLink, if_neg ha, List.cons_append]
      congr 1
      apply ih
      rw [findLink_cons_ne a t name ha] at h
      exact h

theorem removeLink_append_absent (A B : List Hardlink) (name : List Char)
    (h : findLink A name = none) : removeLink (A ++ B) name = A ++ removeLink B name := by
  induction A with
  | nil => rfl
  | cons a t ih =>
    have ha : a.linkName ≠ name := by
      intro hc
      rw [findLink_cons_eq a t name hc] at h
      cases h
    have ht : findLink t name = none := by
      rw [findLink_cons_ne a t name ha] at h
      exact h
    rw [List.cons_append, removeLink, if_neg ha, ih ht, List.cons_append]

/-- The first list that holds the name loses its first link of that name; the lists
before it do not hold the name. -/
theorem rmFromLists_split (name : List Char) :
    ∀ (lists lists' : List DirectoryEntryList) (i k : Nat) (e : Bool),
      rmFromLists name lists i = some (k, e, lists') →
      ∃ pre l post, lists = pre ++ l :: post ∧
        (∀ x, x ∈ pre → findLink x.entries name = none) ∧
        findLink l.entries name ≠ none ∧
        lists' = pre ++ { l with entries := removeLink l.entries name } :: post ∧
        e = decide ((removeLink l.entries name).length = 0) ∧ k = i + pre.length := by
  intro lists
  induction lists with
  | nil =>
    intro lists' i k e h
    unfold rmFromLists at h
    cases h
  | cons x rest ih =>
    intro lists' i k e h
    unfold rmFromLists at h
    cases hx : findLink x.entries name with
    | some y =>
      rw [hx] at h
      simp only [Option.some.injEq, Prod.mk.injEq] at h
      refine ⟨[], x, rest, rfl, fun _ hy => absurd hy (List.not_mem_nil _), ?_, h.2.2.symm,
        h.2.1.symm, by rw [← h.1]; rfl⟩
      rw [hx]
      exact Option.some_ne_none _
    | none =>
      rw [hx] at h
      simp only at h
      cases hr : rmFromLists name rest (i + 1) with
      | none => rw [hr] at h; cases h
      | some r =>
        obtain ⟨k1, e1, rest1⟩ := r
        rw [hr] at h
        simp only [Option.some.injEq, Prod.mk.injEq] at h
        obtain ⟨pre, l, post, f1, f2, f3, f4, f5, f6⟩ := ih rest1 (i + 1) k1 e1 hr
        refine ⟨x :: pre, l, post, by rw [f1]; rfl, ?_, f3, ?_, ?_, ?_⟩
        · intro y hy
          rcases List.mem_cons.mp hy with rfl | hy
          · exact hx
          · exact f2 y hy
        · rw [← h.2.2, f4]; rfl
        · rw [← h.2.1, f5]
        · rw [← h.1, f6, List.length_cons]; omega

theorem findLink_flatten_none (pre : List DirectoryEntryList) (name : List Char)
    (h : ∀ x, x ∈ pre → findLink x.entries name = none) :
    findLink (pre.map DirectoryEntryList.entries).flatten name = none := by
  induction pre with
  | nil => rfl
  | cons x rest ih =>
    rw [List.map_cons, List.flatten_cons, findLink_append, h x (List.mem_cons_self _ _),
      Option.none_or]
    exact ih (fun y hy => h y (List.mem_cons_of_mem _ hy))

theorem flatten_entries_remove (pre post : List DirectoryEntryList) (l : DirectoryEntryList)
    (name : List Char) (hpre : ∀ x, x ∈ pre → findLink x.entries name = none)
    (hl : findLink l.entries name ≠ none) :
    ((pre ++ { l with entries := removeLink l.entries name } :: post).map
        DirectoryEntryList.entries).flatten =
      removeLink ((pre ++ l :: post).map DirectoryEntryList.entries).flatten name := by
  have h1 : ((pre ++ l :: post).map DirectoryEntryList.entries).flatten =
      (pre.map DirectoryEntryList.entries).flatten ++
        (l.entries ++ (post.map DirectoryEntryList.entries).flatten) := by
    simp [List.flatten_append]
  rw [h1, removeLink_append_absent _ _ name (findLink_flatten_none pre name hpre),
    removeLink_append_found _ _ name hl]
  simp [List.flatten_append]

/-- What the search results of a directory look like after the first link of a name was
taken out of its sequence of links. -/
theorem search_after_remove (d d' : Directory) (name : List Char)
    (hname : ¬ (name = [] ∨ '/' ∈ name))
    (hd' : d'.links = removeLink d.links name)
    (honce : findLink (removeLink d.links name) name = none) :
    d'.searchHardlink name = 0 ∧
    ∀ other, other ≠ name → d'.searchHardlink other = d.searchHardlink other := by
  constructor
  · rw [searchHardlink_links d' name hname, hd', honce]
    rfl
  · intro other hne
    by_cases hv : other = [] ∨ '/' ∈ other
    · unfold Directory.searchHardlink
      rw [if_pos hv, if_pos hv]
    · rw [searchHardlink_links d' other hv, searchHardlink_links d other hv, hd',
        findLink_removeLink_ne _ name other hne]

/-- The removal that empties no entry list: `Directory::rmHardlink(target, name)` for a
valid link name (not empty,
no '/') on a consistent directory object that holds the name once, where the removal
does not empty an entry list.  The call frees nothing; afterwards `searchHardlink(name)`
is 0, every other name maps to the same id as before, `childCount` and
`target.linkCounter` are each one lower, the links are the former ones without the link of
that name, the directory is inlined exactly if it was before, the INode names the same
entry lists, and no entry list is empty if none was before. -/
theorem rmHardlink_spec (c : Constants) (s : FS) (d : Directory) (target : INode)
    (name : List Char)
    (hinv : DirInv c d) (hname : ¬ (name = [] ∨ '/' ∈ name))
    (hin : findLink d.links name ≠ none)
    (honce : findLink (removeLink d.links name) name = none)
    (hlc : 1 ≤ target.linkCounter ∧ target.linkCounter < 65536)
    (hcc : d.childCount < 4294967296)
    (hkeep : d.inode.inlined = false → ∀ l, l ∈ d.entryLists →
      findLink l.entries name ≠ none → 2 ≤ l.entries.length) :
    ∃ d' t' refs, d.rmHardlink s target name = some (s, d', t', refs) ∧
      t' = { target with linkCounter := t'.linkCounter } ∧
      t'.linkCounter + 1 = target.linkCounter ∧
      d'.searchHardlink name = 0 ∧
      (∀ other, other ≠ name → d'.searchHardlink other = d.searchHardlink other) ∧
      d'.childCount + 1 = d.childCount ∧ DirInv c d' ∧
      d'.links = removeLink d.links name ∧
      d'.inode.inlined = d.inode.inlined ∧
      d'.inode.dirEntryListIDs = d.inode.dirEntryListIDs ∧
      d'.entryLists.length = d.entryLists.length ∧
      ((∀ l, l ∈ d.entryLists → l.entries ≠ []) → ∀ l, l ∈ d'.entryLists → l.entries ≠ []) := by
  obtain ⟨hcnt, hinl, hext⟩ := hinv
  have hlen1 := removeLink_length_found d.links name hin
  have hcc1 : (d.childCount + 4294967295) % 4294967296 + 1 = d.childCount := by
    rw [hcnt] at hcc ⊢
    omega
  have hlc1 : (decrementLinkCounter target).linkCounter + 1 = target.linkCounter := by
    show (target.linkCounter + 65535) % 65536 + 1 = _
    omega
  cases hi : d.inode.inlined with
  | true =>
    obtain ⟨hnil, hids, hlen⟩ := hinl hi
    have hlinks : d.links = d.inode.entries := by
      unfold Directory.links
      rw [if_pos hi]
    have hres := rmHardlink_inline s d target name hname hi
    have hl' : ({ d with
        inode := { d.inode with entries := removeLink d.inode.entries name }
        childCount := (d.childCount + 4294967295) % 4294967296 } : Directory).links =
        removeLink d.links name := by
      unfold Directory.links
      rw [if_pos (by exact hi), if_pos hi]
    obtain ⟨q1, q2⟩ := search_after_remove d _ name hname hl' honce
    refine ⟨_, _, _, hres, rfl, hlc1, q1, q2, hcc1, ⟨?_, ?_, ?_⟩, hl', hi, rfl, rfl,
      fun h => h⟩
    · show (d.childCount + 4294967295) % 4294967296 = _
      rw [hl']
      omega
    · intro _
      refine ⟨hnil, hids, ?_⟩
      show (removeLink d.inode.entries name).length ≤ _
      exact Nat.le_trans (removeLink_length_le _ _) hlen
    · intro hf
      exact absurd (hi.symm.trans hf) (by decide)
  | false =>
    obtain ⟨hids, hlen⟩ := hext hi
    have hlinks : d.links = (d.entryLists.map DirectoryEntryList.entries).flatten := by
      unfold Directory.links
      rw [if_neg (by simp [hi])]
    cases hr : rmFromLists name d.entryLists 0 with
    | none =>
      exfalso
      apply hin
      rw [hlinks]
      exact findLink_flatten_none _ name (rmFromLists_none name _ _ hr)
    | some r =>
      obtain ⟨k, e, lists⟩ := r
      obtain ⟨pre, l, post, e1, e2, e3, e4, e5, -⟩ := rmFromLists_split name _ _ _ _ _ hr
      have hl2 : 2 ≤ l.entries.length :=
        hkeep hi l (by rw [e1]; exact List.mem_append_right _ (List.mem_cons_self _ _)) e3
      have hlr := removeLink_length_found l.entries name e3
      have he : e = false := by
        rw [e5]
        exact decide_eq_false (by omega)
      subst he
      have hres : d.rmHardlink s target name = some (s,
          { d with entryLists := lists,
                   childCount := (d.childCount + 4294967295) % 4294967296 },
          decrementLinkCounter target, [.target, .list k]) := by
        unfold Directory.rmHardlink
        rw [if_neg hname]
        simp only [hi, Bool.false_eq_true, if_false, hr]
      have hl' : ({ d with
          entryLists := lists
          childCount := (d.childCount + 4294967295) % 4294967296 } : Directory).links =
          removeLink d.links name := by
        unfold Directory.links
        rw [if_neg (by simp [hi]), if_neg (by simp [hi])]
        show (lists.map DirectoryEntryList.entries).flatten = _
        rw [e4, e1]
        exact flatten_entries_remove pre post l name e2 e3
      obtain ⟨q1, q2⟩ := search_after_remove d _ name hname hl' honce
      refine ⟨_, _, _, hres, rfl, hlc1, q1, q2, hcc1, ⟨?_, ?_, ?_⟩, hl', hi, rfl, ?_, ?_⟩
      · show (d.childCount + 4294967295) % 4294967296 = _
        rw [hl']
        omega
      · intro hf
        exact absurd (hi.symm.trans hf) (by decide)
      · intro _
        refine ⟨?_, ?_⟩
        · show d.inode.dirEntryListIDs = lists.map DirectoryEntryList.id
          rw [hids, e4, e1]
          simp
        · intro x hx
          have hx' : x ∈ lists := hx
          rw [e4] at hx'
          rcases List.mem_append.mp hx' with hx' | hx'
          · exact hlen x (by rw [e1]; exact List.mem_append_left _ hx')
          · rcases List.mem_cons.mp hx' with rfl | hx'
            · show (removeLink l.entries name).length ≤ _
              exact Nat.le_trans (removeLink_length_le _ _)
                (hlen l (by rw [e1]; exact List.mem_append_right _ (List.mem_cons_self _ _)))
            · exact hlen x (by
                rw [e1]
                exact List.mem_append_right _ (List.mem_cons_of_mem _ hx'))
      · show lists.length = _
        rw [e4, e1]
        simp
      · intro hne x hx
        have hx' : x ∈ lists := hx
        rw [e4] at hx'
        rcases List.mem_append.mp hx' with hx' | hx'
        · exact hne x (by rw [e1]; exact List.mem_append_left _ hx')
        · rcases List.mem_cons.mp hx' with rfl | hx'
          · show removeLink l.entries name ≠ []
            intro hcon
            rw [hcon] at hlr
            simp at hlr
            omega
          · exact hne x (by
              rw [e1]
              exact List.mem_append_right _ (List.mem_cons_of_mem _ hx'))

/-- The directory object `emptyNameDir` lists a link with the empty name (target 5), which
`searchHardlink` does not find, and `rmHardlink(target, "")` returns at its check of the
name and changes nothing: `childCount` stays 3, the link counter of the target stays 1 and the link is
still listed. -/
theorem rmHardlink_empty_name :
    emptyNameDir.ls = [['.'], ['.', '.'], []] ∧
    (inlineRootDir.addHardlink demoConstants inlineRoot ⟨5, 0, 0, 0, 2, true, 0⟩ []).map
      (fun r => r.2.1) = some emptyNameDir ∧
    emptyNameDir.rmHardlink inlineRoot ⟨5, 0, 0, 0, 2, true, 1⟩ [] =
      some (inlineRoot, emptyNameDir, ⟨5, 0, 0, 0, 2, true, 1⟩, []) := by
  decide

/-- C35: the removal that empties an entry list.  The root directory of `twoListRoot` is
stored in two entry lists and contains the name "f" (`searchHardlink` returns the id 4),
which is the only entry of the list of block 3.  `rmHardlink(target, "f")` on the directory
object loaded from the image empties that list, deallocates it and then reads the id of the
deleted list object (Directory.cc 203-204); the call has no defined result, so none of the
effects that the claim states is delivered. -/
theorem rmHardlink_emptied_list :
    loadDirectory demoConstants 0 twoListRoot 1 = some (some twoListRootDir) ∧
    twoListRootDir.searchHardlink ['f'] = 4 ∧
    twoListRootDir.rmHardlink twoListRoot ⟨4, 0, 0, 0, 2, true, 1⟩ ['f'] = none := by
  decide

set_option maxRecDepth 1000000 in
theorem rmHardlink_spec_witness :
    ∃ d' t' refs, twoListRootDir.rmHardlink twoListRoot ⟨1, 0, 0, 0, 1, false, 2⟩ ['.', '.'] =
        some (twoListRoot, d', t', refs) ∧
      t' = { (⟨1, 0, 0, 0, 1, false, 2⟩ : INode) with linkCounter := t'.linkCounter } ∧
      t'.linkCounter + 1 = 2 ∧
      d'.searchHardlink ['.', '.'] = 0 ∧
      (∀ other, other ≠ ['.', '.'] → d'.searchHardlink other = twoListRootDir.searchHardlink other) ∧
      d'.childCount + 1 = twoListRootDir.childCount ∧ DirInv demoConstants d' ∧
      d'.links = removeLink twoListRootDir.links ['.', '.'] ∧
      d'.inode.inlined = twoListRootDir.inode.inlined ∧
      d'.inode.dirEntryListIDs = twoListRootDir.inode.dirEntryListIDs ∧
      d'.entryLists.length = twoListRootDir.entryLists.length ∧
      ((∀ l, l ∈ twoListRootDir.entryLists → l.entries ≠ []) → ∀ l, l ∈ d'.entryLists → l.entries ≠ []) :=
  rmHardlink_spec demoConstants twoListRoot twoListRootDir ⟨1, 0, 0, 0, 1, false, 2⟩ ['.', '.']
    (by decide) (by decide) (by decide) (by decide) (by decide) (by decide) (by decide)

/-- The effect of `FS::saveBlock` on the counters and on the block map. -/
theorem saveBlock_effect (s s' : FS) (b : Block) (t : Nat) (h : saveBlock s b t = some s') :
    s'.logSize = s.logSize ∧
    ((s'.bmap = s.bmap ∧ s'.usedBlocks = s.usedBlocks) ∨
     ∃ p a, p ≠ 0 ∧ s.bmap[idx b.id]? = some a ∧ s'.bmap = s.bmap.set (idx b.id) p ∧
       s'.usedBlocks = if a = 0 then (s.usedBlocks + 1) % 4294967296 else s.usedBlocks) := by
  unfold saveBlock at h
  cases hg : gc s with
  | none => rw [hg] at h; cases h
  | some r =>
    obtain ⟨p, s1⟩ := r
    obtain ⟨fb, fu, fl, -, -⟩ := gc_frame s s1 p hg
    rw [hg] at h
    simp only at h
    by_cases hp : p = 0
    · rw [if_pos hp] at h
      cases h
      exact ⟨fl, Or.inl ⟨fb, fu⟩⟩
    · rw [if_neg hp] at h
      by_cases hlt : p - 1 < s1.log.length
      · rw [if_pos hlt] at h
        simp only [bmapAt] at h
        cases ha : s1.bmap[idx b.id]? with
        | none => rw [ha] at h; cases h
        | some a =>
          rw [ha] at h
          simp only [Option.some.injEq] at h
          rw [← h]
          refine ⟨fl, Or.inr ⟨p, a, hp, by rw [← fb]; exact ha, ?_, ?_⟩⟩
          · show s1.bmap.set (idx b.id) p = _
            rw [fb]
          · show (if a = 0 then (s1.usedBlocks + 1) % 4294967296 else s1.usedBlocks) = _
            rw [fu]
      · rw [if_neg hlt] at h
        cases h

/-- Saving a block leaves the other entries of the block map, keeps every live id live
and, when the block was live, keeps `usedBlocks`. -/
theorem saveBlock_live_frame (s s' : FS) (b : Block) (t : Nat)
    (h : saveBlock s b t = some s') :
    s'.logSize = s.logSize ∧ s'.bmap.length = s.bmap.length ∧
    (∀ k, k ≠ idx b.id → s'.bmap[k]? = s.bmap[k]?) ∧
    (∀ id, LiveId s id → LiveId s' id) ∧
    (s.bmap[idx b.id]? ≠ some 0 → s'.usedBlocks = s.usedBlocks) ∧
    (s'.usedBlocks = s.usedBlocks ∨
      (s.bmap[idx b.id]? = some 0 ∧ s'.usedBlocks = (s.usedBlocks + 1) % 4294967296)) := by
  obtain ⟨hl, hcase⟩ := saveBlock_effect s s' b t h
  rcases hcase with ⟨hb, hu⟩ | ⟨p, a, hp, ha, hb, hu⟩
  · refine ⟨hl, by rw [hb], fun k _ => by rw [hb], ?_, fun _ => hu, Or.inl hu⟩
    intro id hid
    unfold LiveId at hid ⊢
    rw [hb]
    exact hid
  · refine ⟨hl, by rw [hb, List.length_set], ?_, ?_, ?_, ?_⟩
    · intro k hk
      rw [hb, List.getElem?_set_ne (fun hc => hk hc.symm)]
    · intro id hid
      unfold LiveId at hid ⊢
      rw [hb]
      by_cases hk : idx id = idx b.id
      · rw [hk]
        have hlt : idx b.id < s.bmap.length := by
          by_contra hcon
          rw [List.getElem?_eq_none (by omega)] at ha
          cases ha
        rw [List.getElem?_set_self hlt]
        exact ⟨Option.some_ne_none _, fun hc => hp (Option.some.inj hc)⟩
      · rw [List.getElem?_set_ne (fun hc => hk hc.symm)]
        exact hid
    · intro hne
      rw [hu, if_neg (fun h0 => hne (by rw [ha, h0]))]
    · by_cases h0 : a = 0
      · right
        rw [hu, if_pos h0]
        exact ⟨by rw [ha, h0], rfl⟩
      · left
        rw [hu, if_neg h0]

theorem Mounted.saveBlock_inv (now : Nat → Nat) (m m1 : Mounted) (b : Block)
    (h : m.saveBlock now b = some m1) :
    ∃ s', SDI4FS.saveBlock m.fs b (now m.clock) = some s' ∧
      m1 = { m with fs := s', clock := m.clock + 1 } := by
  unfold Mounted.saveBlock at h
  cases hs : SDI4FS.saveBlock m.fs b (now m.clock) with
  | none => rw [hs] at h; cases h
  | some s' =>
    rw [hs] at h
    exact ⟨s', rfl, (Option.some.inj h).symm⟩

/-- Saving a list of blocks that are all live. -/
theorem Mounted.saveBlocks_live (now : Nat → Nat) (blocks : List Block) :
    ∀ (m m1 : Mounted), Mounted.saveBlocks now m blocks = some m1 →
      (∀ b, b ∈ blocks → LiveId m.fs b.id) →
      m1.openFiles = m.openFiles ∧ m1.fs.logSize = m.fs.logSize ∧
      m1.fs.usedBlocks = m.fs.usedBlocks ∧
      (∀ k, (∀ b, b ∈ blocks → k ≠ idx b.id) → m1.fs.bmap[k]? = m.fs.bmap[k]?) ∧
      (∀ id, LiveId m.fs id → LiveId m1.fs id) := by
  induction blocks with
  | nil =>
    intro m m1 h _
    unfold Mounted.saveBlocks at h
    cases h
    exact ⟨rfl, rfl, rfl, fun _ _ => rfl, fun _ h => h⟩
  | cons b rest ih =>
    intro m m1 h hlive
    unfold Mounted.saveBlocks at h
    cases hs : m.saveBlock now b with
    | none => rw [hs] at h; cases h
    | some m2 =>
      rw [hs] at h
      simp only at h
      obtain ⟨s', hs', rfl⟩ := Mounted.saveBlock_inv now m m2 b hs
      obtain ⟨f1, -, f3, f4, f5, -⟩ := saveBlock_live_frame m.fs s' b _ hs'
      obtain ⟨g1, g2, g3, g4, g5⟩ := ih _ m1 h
        (fun x hx => f4 x.id (hlive x (List.mem_cons_of_mem _ hx)))
      refine ⟨g1, by rw [g2]; exact f1, ?_, ?_, fun id hid => g5 id (f4 id hid)⟩
      · rw [g3]
        exact f5 (hlive b (List.mem_cons_self _ _)).2
      · intro k hk
        rw [g4 k (fun x hx => hk x (List.mem_cons_of_mem _ hx))]
        exact f3 k (hk b (List.mem_cons_self _ _))

/-- The effect of `FS::freeBlock` for an id of at least 2. -/
theorem freeBlock_effect (s s' : FS) (id : Nat) (h2 : 2 ≤ id) (h : freeBlock s id = some s') :
    s'.logSize = s.logSize ∧ s'.bmap.length = s.bmap.length ∧
    s'.usedBlocks = (s.usedBlocks + 4294967295) % 4294967296 ∧
    s'.bmap[id - 1]? = some 0 ∧
    (∀ k, k ≠ id - 1 → s'.bmap[k]? = s.bmap[k]?) ∧
    (∀ x, x ≠ id → x ≠ 0 → LiveId s x → LiveId s' x) := by
  unfold freeBlock at h
  rw [if_neg (by omega), if_neg (by omega)] at h
  by_cases hlt : id - 1 < s.bmap.length
  · rw [if_pos hlt] at h
    cases h
    refine ⟨rfl, by simp, rfl, ?_, ?_, ?_⟩
    · show (s.bmap.set (id - 1) 0)[id - 1]? = some 0
      rw [List.getElem?_set_self hlt]
    · intro k hk
      show (s.bmap.set (id - 1) 0)[k]? = _
      rw [List.getElem?_set_ne (fun hc => hk hc.symm)]
    · intro x hx hx0 hlive
      unfold LiveId at hlive ⊢
      have hidx : idx x = x - 1 := by unfold idx; rw [if_neg hx0]
      show (s.bmap.set (id - 1) 0)[idx x]? ≠ none ∧ (s.bmap.set (id - 1) 0)[idx x]? ≠ some 0
      rw [List.getElem?_set_ne (by rw [hidx]; omega)]
      exact hlive
  · rw [if_neg hlt] at h
    cases h

/-- One call of `File::removeDataBlock` on an external file: the counter goes down by one
and either the last list loses its last id, or the last list is freed and dropped. -/
theorem removeDataBlock_step (c : Constants) (s s1 : FS) (f f1 : OpenFile)
    (ch : List FileRef) (hex : f.inode.inlined = false)
    (h : f.removeDataBlock c s = some (s1, f1, ch)) :
    ∃ last, f.blockLists.getLast? = some last ∧
      f1.numberOfDataBlocks = (f.numberOfDataBlocks + 4294967295) % 4294967296 ∧
      f1.cachedDataBlock = f.cachedDataBlock ∧ f1.inode.toINode = f.inode.toINode ∧
      ((s1 = s ∧ f1.blockLists = f.blockLists.dropLast ++ [last.popDataBlock] ∧
          f1.inode = f.inode ∧ ch = [.list (f.blockLists.length - 1)]) ∨
       (freeBlock s last.id = some s1 ∧ f1.blockLists = f.blockLists.dropLast ∧
          f1.inode = f.inode.popDataBlockList ∧ ch = [.primary])) := by
  unfold OpenFile.removeDataBlock at h
  rw [if_neg (by simp [hex])] at h
  cases hl : f.blockLists.getLast? with
  | none => rw [hl] at h; cases h
  | some last =>
    rw [hl] at h
    simp only at h
    split at h
    · cases hfr : freeBlock s last.id with
      | none => rw [hfr] at h; cases h
      | some s2 =>
        rw [hfr] at h
        simp only [Option.some.injEq, Prod.mk.injEq] at h
        obtain ⟨rfl, rfl, rfl⟩ := h
        refine ⟨last, rfl, rfl, rfl, ?_, Or.inr ⟨hfr, rfl, rfl, rfl⟩⟩
        show f.inode.popDataBlockList.toINode = _
        unfold FileINode.popDataBlockList
        split <;> rfl
    · simp only [Option.some.injEq, Prod.mk.injEq] at h
      obtain ⟨rfl, rfl, rfl⟩ := h
      exact ⟨last, rfl, rfl, rfl, rfl, Or.inl ⟨rfl, rfl, rfl, rfl⟩⟩

/-- The loop of `FS::removeDataBlocks` on an external file lowers the counter by the number
of rounds and keeps the header of the INode and the cache. -/
theorem removeDataBlockLoop_count (c : Constants) (n : Nat) :
    ∀ (s s1 : FS) (f f1 : OpenFile) (ch ch1 : List FileRef),
      f.inode.inlined = false →
      removeDataBlockLoop c n s f ch = some (s1, f1, ch1) →
      n ≤ f.numberOfDataBlocks → f.numberOfDataBlocks < 4294967296 →
      f1.numberOfDataBlocks + n = f.numberOfDataBlocks ∧
      f1.inode.toINode = f.inode.toINode ∧ f1.cachedDataBlock = f.cachedDataBlock := by
  induction n with
  | zero =>
    intro s s1 f f1 ch ch1 _ h _ _
    unfold removeDataBlockLoop at h
    simp only [Option.some.injEq, Prod.mk.injEq] at h
    obtain ⟨-, rfl, -⟩ := h
    exact ⟨rfl, rfl, rfl⟩
  | succ n ih =>
    intro s s1 f f1 ch ch1 hex h hn h32
    unfold removeDataBlockLoop at h
    cases hr : f.removeDataBlock c s with
    | none => rw [hr] at h; cases h
    | some r =>
      obtain ⟨s2, f2, ch2⟩ := r
      rw [hr] at h
      simp only at h
      obtain ⟨last, -, e1, e2, e3, -⟩ := removeDataBlock_step c s s2 f f2 ch2 hex hr
      have hex2 : f2.inode.inlined = false := by
        have : f2.inode.toINode.inlined = f.inode.toINode.inlined := by rw [e3]
        exact this.trans hex
      have hnd : f2.numberOfDataBlocks + 1 = f.numberOfDataBlocks := by
        rw [e1]
        omega
      obtain ⟨g1, g2, g3⟩ := ih s2 s1 f2 f1 _ ch1 hex2 h (by omega) (by omega)
      exact ⟨by omega, g2.trans e3, g3.trans e2⟩

theorem ceil_div_cases (size M : Nat) (hM : 0 < M) :
    (size % M = 0 → (size + M - 1) / M = size / M) ∧
    (size % M ≠ 0 → (size + M - 1) / M = size / M + 1) := by
  have hdm : size / M * M + size % M = size := by
    rw [Nat.mul_comm]
    exact Nat.div_add_mod size M
  have hml := Nat.mod_lt size hM
  constructor
  · intro h0
    apply Nat.div_eq_of_lt_le
    · omega
    · rw [Nat.add_mul, Nat.one_mul]
      omega
  · intro h0
    apply Nat.div_eq_of_lt_le
    · rw [Nat.add_mul, Nat.one_mul]
      omega
    · rw [Nat.add_mul, Nat.add_mul, Nat.one_mul]
      omega

theorem blocksForSize_ceil (c : Constants) (size : Nat) (hM : 0 < c.MAX_BYTES_PER_DATABLOCK)
    (h32 : size < 4294967296) :
    blocksForSize c size =
      (size + c.MAX_BYTES_PER_DATABLOCK - 1) / c.MAX_BYTES_PER_DATABLOCK := by
  unfold blocksForSize
  have hd : size / c.MAX_BYTES_PER_DATABLOCK ≤ size := Nat.div_le_self _ _
  obtain ⟨c1, c2⟩ := ceil_div_cases size c.MAX_BYTES_PER_DATABLOCK hM
  by_cases h0 : size % c.MAX_BYTES_PER_DATABLOCK = 0
  · rw [if_pos h0, c1 h0]
    generalize size / c.MAX_BYTES_PER_DATABLOCK = q at hd
    omega
  · rw [if_neg h0]
    have e2 := c2 h0
    have hlt : size / c.MAX_BYTES_PER_DATABLOCK < size := by
      by_contra hcon
      have hM1 : c.MAX_BYTES_PER_DATABLOCK = 1 ∨ size = 0 := by
        by_contra hh
        push_neg at hh
        have := Nat.div_lt_self (Nat.pos_of_ne_zero hh.2) (by omega :
          1 < c.MAX_BYTES_PER_DATABLOCK)
        omega
      rcases hM1 with h1 | h1
      · rw [h1, Nat.mod_one] at h0
        exact h0 rfl
      · rw [h1, Nat.zero_mod] at h0
        exact h0 rfl
    rw [Nat.mod_eq_of_lt (by omega)]
    exact e2.symm

theorem blocksForSize_mono (c : Constants) (a b : Nat) (hM : 0 < c.MAX_BYTES_PER_DATABLOCK)
    (hab : a ≤ b) (h32 : b < 4294967296) : blocksForSize c a ≤ blocksForSize c b := by
  rw [blocksForSize_ceil c a hM (by omega), blocksForSize_ceil c b hM h32]
  exact Nat.div_le_div_right (by omega)

theorem blocksForSize_pos (c : Constants) (a : Nat) (hM : 0 < c.MAX_BYTES_PER_DATABLOCK)
    (ha : 0 < a) (h32 : a < 4294967296) : 0 < blocksForSize c a := by
  rw [blocksForSize_ceil c a hM h32]
  exact Nat.div_pos (by omega) hM

theorem blocksForSize_le (c : Constants) (a : Nat) (hM : 0 < c.MAX_BYTES_PER_DATABLOCK)
    (h32 : a < 4294967296) : blocksForSize c a ≤ a := by
  rw [blocksForSize_ceil c a hM h32]
  rw [Nat.div_le_iff_le_mul_add_pred hM]
  have : a ≤ c.MAX_BYTES_PER_DATABLOCK * a := Nat.le_mul_of_pos_left a hM
  omega

theorem blocksForSize_zero (c : Constants) (hM : 0 < c.MAX_BYTES_PER_DATABLOCK) :
    blocksForSize c 0 = 0 := by
  rw [blocksForSize_ceil c 0 hM (by omega)]
  exact Nat.div_eq_of_lt (by omega)

/-- The statement that saves a dirty cached block changes neither the INode, nor the block
lists, nor the block counter of the file object. -/
theorem saveCachedIfDirty_inv (now : Nat → Nat) (m m1 : Mounted) (f f1 : OpenFile)
    (h : saveCachedIfDirty now m f = some (m1, f1)) :
    f1.toFile = f.toFile ∧ m1.openFiles = m.openFiles ∧
    ((m1 = m ∧ f1 = f ∧ f.cachedDataBlockIsDirty = false) ∨
     ∃ b s', f.cachedDataBlock = some b ∧ b.dirty = true ∧
       saveBlock m.fs b.toBlock (now m.clock) = some s' ∧
       m1 = { m with fs := s', clock := m.clock + 1 } ∧ f1.cachedDataBlock = none) := by
  unfold saveCachedIfDirty at h
  cases hc : f.cachedDataBlock with
  | none =>
    rw [hc] at h
    simp only [Option.some.injEq, Prod.mk.injEq] at h
    obtain ⟨rfl, rfl⟩ := h
    refine ⟨rfl, rfl, Or.inl ⟨rfl, rfl, ?_⟩⟩
    unfold OpenFile.cachedDataBlockIsDirty
    rw [hc]
  | some b =>
    rw [hc] at h
    simp only at h
    by_cases hd : b.dirty = true
    · rw [if_pos hd] at h
      cases hs : m.saveBlock now b.toBlock with
      | none => rw [hs] at h; cases h
      | some m2 =>
        rw [hs] at h
        simp only [Option.some.injEq, Prod.mk.injEq] at h
        obtain ⟨rfl, rfl⟩ := h
        obtain ⟨s', hs', rfl⟩ := Mounted.saveBlock_inv now m m2 _ hs
        exact ⟨rfl, rfl, Or.inr ⟨b, s', rfl, hd, hs', rfl, rfl⟩⟩
    · rw [if_neg hd] at h
      simp only [Option.some.injEq, Prod.mk.injEq] at h
      obtain ⟨rfl, rfl⟩ := h
      refine ⟨rfl, rfl, Or.inl ⟨rfl, rfl, ?_⟩⟩
      unfold OpenFile.cachedDataBlockIsDirty
      rw [hc]
      simpa using hd

/-- The steps of a call of `FS::truncate` that returns true. -/
theorem truncate_inv (c : Constants) (now : Nat → Nat) (m m' : Mounted) (h size : Nat)
    (htr : truncate c now m h size = some (true, m')) :
    ∃ f m1 f1 m2 f2 m3, m.find h = some f ∧ size < f.inode.size_b ∧
      saveCachedIfDirty now m f = some (m1, f1) ∧
      removeDataBlocks c now m1 f1
        (sub32 (blocksForSize c f.inode.size_b) (blocksForSize c size)) = some (m2, f2) ∧
      m2.saveBlock now (f2.inode.setInternalSize_b c size).toBlock = some m3 ∧
      m' = m3.store h { f2 with inode := f2.inode.setInternalSize_b c size } := by
  unfold truncate at htr
  cases hf : m.find h with
  | none => rw [hf] at htr; simp at htr
  | some f =>
    rw [hf] at htr
    simp only at htr
    by_cases hge : size ≥ f.inode.size_b
    · rw [if_pos hge] at htr
      simp at htr
    · rw [if_neg hge] at htr
      cases h1 : saveCachedIfDirty now m f with
      | none => rw [h1] at htr; cases htr
      | some r1 =>
        obtain ⟨m1, f1⟩ := r1
        rw [h1] at htr
        simp only at htr
        cases h2 : removeDataBlocks c now m1 f1
            (sub32 (blocksForSize c f.inode.size_b) (blocksForSize c size)) with
        | none => rw [h2] at htr; cases htr
        | some r2 =>
          obtain ⟨m2, f2⟩ := r2
          rw [h2] at htr
          simp only at htr
          cases h3 : m2.saveBlock now (f2.inode.setInternalSize_b c size).toBlock with
          | none => rw [h3] at htr; cases htr
          | some m3 =>
            rw [h3] at htr
            simp only [Option.some.injEq, Prod.mk.injEq, true_and] at htr
            exact ⟨f, m1, f1, m2, f2, m3, rfl, by omega, h1, h2, h3, htr.symm⟩

/-- The two outcomes of `FS::removeDataBlocks`: nothing happens (no free block, or the
request covers all data blocks), or the loop runs and the collected blocks are saved. -/
theorem removeDataBlocks_inv (c : Constants) (now : Nat → Nat) (m m2 : Mounted)
    (f f2 : OpenFile) (n : Nat) (h : removeDataBlocks c now m f n = some (m2, f2)) :
    (m2 = m ∧ f2 = f ∧
      ((m.fs.usedBlocks + 1) % 4294967296 > m.fs.logSize ∨ f.numberOfDataBlocks ≤ n)) ∨
    (¬ (m.fs.usedBlocks + 1) % 4294967296 > m.fs.logSize ∧ n < f.numberOfDataBlocks ∧
      ∃ s1 changed blocks, removeDataBlockLoop c n m.fs f [] = some (s1, f2, changed) ∧
        changed.mapM (resolveFileRef f2) = some blocks ∧
        Mounted.saveBlocks now { m with fs := s1 } blocks = some m2) := by
  unfold removeDataBlocks at h
  by_cases h1 : (m.fs.usedBlocks + 1) % 4294967296 > m.fs.logSize
  · rw [if_pos h1] at h
    simp only [Option.some.injEq, Prod.mk.injEq] at h
    exact Or.inl ⟨h.1.symm, h.2.symm, Or.inl h1⟩
  · rw [if_neg h1] at h
    by_cases h2 : f.numberOfDataBlocks ≤ n
    · rw [if_pos h2] at h
      simp only [Option.some.injEq, Prod.mk.injEq] at h
      exact Or.inl ⟨h.1.symm, h.2.symm, Or.inr h2⟩
    · rw [if_neg h2] at h
      cases hl : removeDataBlockLoop c n m.fs f [] with
      | none => rw [hl] at h; cases h
      | some r =>
        obtain ⟨s1, f1, changed⟩ := r
        rw [hl] at h
        simp only at h
        cases hm : changed.mapM (resolveFileRef f1) with
        | none => rw [hm] at h; cases h
        | some blocks =>
          rw [hm] at h
          simp only at h
          cases hs : Mounted.saveBlocks now { m with fs := s1 } blocks with
          | none => rw [hs] at h; cases h
          | some m3 =>
            rw [hs] at h
            simp only [Option.some.injEq, Prod.mk.injEq] at h
            obtain ⟨rfl, rfl⟩ := h
            exact Or.inr ⟨h1, by omega, s1, changed, blocks, rfl, hm, hs⟩

theorem Mounted.saveBlocks_openFiles (now : Nat → Nat) (blocks : List Block) :
    ∀ (m m1 : Mounted), Mounted.saveBlocks now m blocks = some m1 →
      m1.openFiles = m.openFiles := by
  induction blocks with
  | nil =>
    intro m m1 h
    unfold Mounted.saveBlocks at h
    cases h
    rfl
  | cons b rest ih =>
    intro m m1 h
    unfold Mounted.saveBlocks at h
    cases hs : m.saveBlock now b with
    | none => rw [hs] at h; cases h
    | some m2 =>
      rw [hs] at h
      simp only at h
      obtain ⟨s', -, rfl⟩ := Mounted.saveBlock_inv now m m2 b hs
      exact ih { m with fs := s', clock := m.clock + 1 } m1 h

/-- The file object after a call of `FS::truncate` that returns true, for an external file
whose block counter fits its size. -/
theorem truncate_count (c : Constants) (now : Nat → Nat) (m m' : Mounted) (h size : Nat)
    (f : OpenFile) (htr : truncate c now m h size = some (true, m'))
    (hf : m.find h = some f) (hex : f.inode.inlined = false)
    (hM : 0 < c.MAX_BYTES_PER_DATABLOCK)
    (hsz : f.inode.size_b ≤ c.MAX_FILE_SIZE ∧ f.inode.size_b < 4294967296)
    (hcount : f.numberOfDataBlocks = blocksForSize c f.inode.size_b)
    (hu : m.fs.usedBlocks + 2 ≤ m.fs.logSize ∧ m.fs.logSize < 4294967295) :
    ∃ f', m'.find h = some f' ∧ f'.inode.inlined = false ∧ f'.inode.size_b = size ∧
      (0 < size → f'.numberOfDataBlocks = blocksForSize c size) ∧
      (size = 0 → f'.numberOfDataBlocks = f.numberOfDataBlocks ∧
        0 < f'.numberOfDataBlocks) := by
  obtain ⟨f0, m1, f1, m2, f2, m3, hf0, hlt, h1, h2, h3, rfl⟩ := truncate_inv c now m m' h size htr
  rw [hf] at hf0
  cases hf0
  obtain ⟨e1, e2, e3⟩ := saveCachedIfDirty_inv now m m1 f f1 h1
  have hino1 : f1.inode = f.inode := congrArg File.inode e1
  have hnd1 : f1.numberOfDataBlocks = f.numberOfDataBlocks := congrArg File.numberOfDataBlocks e1
  have hbud : m1.fs.logSize = m.fs.logSize ∧ m1.fs.usedBlocks ≤ m.fs.usedBlocks + 1 := by
    rcases e3 with ⟨rfl, -, -⟩ | ⟨b, s', -, -, hs, rfl, -⟩
    · exact ⟨rfl, by omega⟩
    · obtain ⟨g1, -, -, -, -, g6⟩ := saveBlock_live_frame m.fs s' _ _ hs
      refine ⟨g1, ?_⟩
      show s'.usedBlocks ≤ _
      rcases g6 with g | ⟨-, g⟩
      · omega
      · rw [g]
        exact Nat.mod_le _ _
  have hold : blocksForSize c f.inode.size_b ≤ f.inode.size_b :=
    blocksForSize_le c _ hM hsz.2
  have hnew : blocksForSize c size ≤ blocksForSize c f.inode.size_b :=
    blocksForSize_mono c _ _ hM (by omega) hsz.2
  have hn : sub32 (blocksForSize c f.inode.size_b) (blocksForSize c size) =
      blocksForSize c f.inode.size_b - blocksForSize c size :=
    sub32_of_le _ _ hnew (by omega)
  rw [hn] at h2
  have hopen3 : m3.openFiles = m.openFiles := by
    obtain ⟨s3, -, rfl⟩ := Mounted.saveBlock_inv now m2 m3 _ h3
    show m2.openFiles = _
    rcases removeDataBlocks_inv c now m1 m2 f1 f2 _ h2 with ⟨rfl, -, -⟩ |
      ⟨-, -, s1, changed, blocks, -, -, hs⟩
    · exact e2
    · rw [Mounted.saveBlocks_openFiles now blocks _ m2 hs]
      exact e2
  have hfind : (m3.store h { f2 with inode := f2.inode.setInternalSize_b c size }).find h =
      some { f2 with inode := f2.inode.setInternalSize_b c size } :=
    Mounted.find_store m3 h _ f (by rw [Mounted.find_congr m m3 h hopen3]; exact hf)
  have hset : ∀ n : FileINode, n.size_b = f.inode.size_b →
      (n.setInternalSize_b c size).size_b = size ∧
      (n.setInternalSize_b c size).inlined = n.inlined := by
    intro n _
    unfold FileINode.setInternalSize_b
    rw [if_pos (by omega)]
    exact ⟨rfl, rfl⟩
  have hfacts : f2.inode.toINode = f.inode.toINode ∧
      (0 < size → f2.numberOfDataBlocks = blocksForSize c size) ∧
      (size = 0 → f2.numberOfDataBlocks = f.numberOfDataBlocks) := by
    rcases removeDataBlocks_inv c now m1 m2 f1 f2 _ h2 with ⟨-, rfl, hk⟩ |
      ⟨-, hnlt, s1, changed, blocks, hloop, -, -⟩
    · refine ⟨by rw [hino1], ?_, fun _ => hnd1⟩
      intro hpos
      exfalso
      have := blocksForSize_pos c size hM hpos (by omega)
      rcases hk with hk | hk
      · rw [hbud.1, Nat.mod_eq_of_lt (by omega)] at hk
        omega
      · rw [hnd1, hcount] at hk
        omega
    · obtain ⟨g1, g2, -⟩ := removeDataBlockLoop_count c _ m1.fs s1 f1 f2 [] changed
        (by rw [hino1]; exact hex) hloop (by omega) (by rw [hnd1, hcount]; omega)
      refine ⟨by rw [g2, hino1], ?_, ?_⟩
      · intro _
        rw [hnd1, hcount] at g1
        omega
      · intro h0
        exfalso
        rw [h0, blocksForSize_zero c hM, hnd1, hcount] at hnlt
        omega
  obtain ⟨k1, k2, k3⟩ := hfacts
  have hsz2 : f2.inode.size_b = f.inode.size_b := congrArg INode.size_b k1
  have hin2 : f2.inode.inlined = f.inode.inlined := congrArg INode.inlined k1
  obtain ⟨s1, s2⟩ := hset f2.inode hsz2
  refine ⟨_, hfind, ?_, s1, k2, ?_⟩
  · show (f2.inode.setInternalSize_b c size).inlined = false
    rw [s2, hin2]
    exact hex
  · intro h0
    refine ⟨k3 h0, ?_⟩
    show 0 < f2.numberOfDataBlocks
    rw [k3 h0, hcount]
    exact blocksForSize_pos c _ hM (by omega) hsz.2

theorem allocDataBlockList_frame (s s1 : FS) (r : Option DataBlockList)
    (h : allocDataBlockList s = some (s1, r)) :
    s1.usedBlocks = s.usedBlocks ∧ s1.logSize = s.logSize := by
  unfold allocDataBlockList at h
  split at h
  · cases h
    exact ⟨rfl, rfl⟩
  · cases hg : getNextBlockID s with
    | none => rw [hg] at h; cases h
    | some q =>
      obtain ⟨id, s2⟩ := q
      rw [hg] at h
      cases h
      exact getNextBlockID_frame s _ id hg

/-- Method `File::addDataBlock` on an external file whose INode can take one more list:
the counter goes up by one, and a list is added exactly when the counter was a multiple of
the list capacity. -/
theorem fileAddDataBlock_inv (c : Constants) (s s1 : FS) (f f1 : OpenFile)
    (db : DataBlock) (ch : List FileRef) (hex : f.inode.inlined = false)
    (hpush : f.numberOfDataBlocks % c.MAX_DATABLOCKS_PER_DATABLOCKLIST = 0 →
      f.inode.entries.length ≠ c.MAX_DATABLOCKLISTS_PER_FILE)
    (h : f.addDataBlock c s db = some (s1, f1, ch)) :
    s1.usedBlocks = s.usedBlocks ∧ s1.logSize = s.logSize ∧
    f1.numberOfDataBlocks = (f.numberOfDataBlocks + 1) % 4294967296 ∧
    f1.inode.toINode = f.inode.toINode ∧
    f1.inode.entries.length = f.inode.entries.length +
      (if f.numberOfDataBlocks % c.MAX_DATABLOCKS_PER_DATABLOCKLIST = 0 then 1 else 0) := by
  unfold OpenFile.addDataBlock at h
  rw [if_neg (by simp [hex])] at h
  by_cases h0 : f.numberOfDataBlocks % c.MAX_DATABLOCKS_PER_DATABLOCKLIST = 0
  · simp only [h0, if_true] at h
    cases ha : allocDataBlockList s with
    | none => rw [ha] at h; cases h
    | some q =>
      obtain ⟨s2, r⟩ := q
      obtain ⟨u1, u2⟩ := allocDataBlockList_frame s s2 r ha
      rw [ha] at h
      cases r with
      | none => simp at h
      | some newList =>
        simp only at h
        have hp : f.inode.pushDataBlockList c newList.id =
            (true, { f.inode with entries := f.inode.entries ++ [newList.id] }) := by
          unfold FileINode.pushDataBlockList
          rw [if_neg (hpush h0)]
        rw [hp] at h
        simp only at h
        cases hl : (f.blockLists ++ [newList]).getLast? with
        | none => rw [hl] at h; cases h
        | some last =>
          rw [hl] at h
          simp only [Option.some.injEq, Prod.mk.injEq] at h
          obtain ⟨rfl, rfl, -⟩ := h
          refine ⟨u1, u2, rfl, rfl, ?_⟩
          show (f.inode.entries ++ [newList.id]).length = _
          rw [List.length_append, if_pos h0]
          rfl
  · simp only [h0, if_false] at h
    cases hl : f.blockLists.getLast? with
    | none => rw [hl] at h; cases h
    | some last =>
      rw [hl] at h
      simp only [Option.some.injEq, Prod.mk.injEq] at h
      obtain ⟨rfl, rfl, -⟩ := h
      refine ⟨rfl, rfl, rfl, rfl, ?_⟩
      rw [if_neg h0]
      rfl

theorem saveCachedIfDirty_budget (now : Nat → Nat) (m m1 : Mounted) (f f1 : OpenFile)
    (h : saveCachedIfDirty now m f = some (m1, f1)) :
    f1.toFile = f.toFile ∧ m1.openFiles = m.openFiles ∧ m1.fs.logSize = m.fs.logSize ∧
    m1.fs.usedBlocks ≤ m.fs.usedBlocks + 1 := by
  obtain ⟨e1, e2, e3⟩ := saveCachedIfDirty_inv now m m1 f f1 h
  refine ⟨e1, e2, ?_⟩
  rcases e3 with ⟨rfl, -, -⟩ | ⟨b, s', -, -, hs, rfl, -⟩
  · exact ⟨rfl, by omega⟩
  · obtain ⟨g1, -, -, -, -, g6⟩ := saveBlock_live_frame m.fs s' _ _ hs
    refine ⟨g1, ?_⟩
    show s'.usedBlocks ≤ _
    rcases g6 with g | ⟨-, g⟩
    · omega
    · rw [g]
      exact Nat.mod_le _ _

/-- Function `FS::addDataBlock` with enough free blocks, on an external file that is not
full. -/
theorem addDataBlock_inv (c : Constants) (fresh : Nat → List Nat) (now : Nat → Nat)
    (m m1 : Mounted) (f f1 : OpenFile) (changed ch1 : List (Nat × FileRef)) (ok : Bool)
    (hex : f.inode.inlined = false)
    (hbud : ¬ (m.fs.usedBlocks + 3) % 4294967296 > m.fs.logSize)
    (hfull : f.numberOfDataBlocks ≠ c.MAX_DATABLOCKS_PER_FILE)
    (hpush : f.numberOfDataBlocks % c.MAX_DATABLOCKS_PER_DATABLOCKLIST = 0 →
      f.inode.entries.length ≠ c.MAX_DATABLOCKLISTS_PER_FILE)
    (h : addDataBlock c fresh now m f changed = some (ok, m1, f1, ch1)) :
    m1.openFiles = m.openFiles ∧ m1.fs.logSize = m.fs.logSize ∧
    m1.fs.usedBlocks ≤ m.fs.usedBlocks + 1 ∧
    f1.numberOfDataBlocks = (f.numberOfDataBlocks + 1) % 4294967296 ∧
    f1.inode.toINode = f.inode.toINode ∧
    f1.inode.entries.length = f.inode.entries.length +
      (if f.numberOfDataBlocks % c.MAX_DATABLOCKS_PER_DATABLOCKLIST = 0 then 1 else 0) := by
  unfold addDataBlock at h
  rw [if_neg hbud, if_neg hfull] at h
  cases h1 : saveCachedIfDirty now m f with
  | none => rw [h1] at h; cases h
  | some q1 =>
    obtain ⟨ma, fa⟩ := q1
    obtain ⟨e1, e2, e3, e4⟩ := saveCachedIfDirty_budget now m ma f fa h1
    rw [h1] at h
    simp only at h
    cases h2 : getNextBlockID ma.fs with
    | none => rw [h2] at h; cases h
    | some q2 =>
      obtain ⟨id, s2⟩ := q2
      obtain ⟨g1, g2⟩ := getNextBlockID_frame ma.fs s2 id h2
      rw [h2] at h
      simp only at h
      cases h3 : fa.addDataBlock c s2 ⟨id, 0, fresh id, false⟩ with
      | none => rw [h3] at h; cases h
      | some q3 =>
        obtain ⟨s3, f2, chB⟩ := q3
        rw [h3] at h
        simp only at h
        cases h4 : addChanged f2 changed chB with
        | none => rw [h4] at h; cases h
        | some acc =>
          rw [h4] at h
          simp only [Option.some.injEq, Prod.mk.injEq] at h
          obtain ⟨-, rfl, rfl, -⟩ := h
          have hino : fa.inode = f.inode := congrArg File.inode e1
          have hnd : fa.numberOfDataBlocks = f.numberOfDataBlocks :=
            congrArg File.numberOfDataBlocks e1
          obtain ⟨k1, k2, k3, k4, k5⟩ := fileAddDataBlock_inv c s2 s3 fa f2 _ chB
            (by rw [hino]; exact hex) (by rw [hnd, hino]; exact hpush) h3
          rw [hnd] at k3 k5
          rw [hino] at k4 k5
          refine ⟨e2, ?_, ?_, k3, k4, k5⟩
          · show s3.logSize = _
            rw [k2, g2, e3]
          · show s3.usedBlocks ≤ _
            rw [k1, g1]
            exact e4

theorem cacheDataBlock_budget (now : Nat → Nat) (m m1 : Mounted) (f f1 : OpenFile) (id : Nat)
    (h : cacheDataBlock now m f id = some (m1, f1)) :
    f1.toFile = f.toFile ∧ m1.openFiles = m.openFiles ∧ m1.fs.logSize = m.fs.logSize ∧
    m1.fs.usedBlocks ≤ m.fs.usedBlocks + 1 := by
  unfold cacheDataBlock at h
  by_cases hne : f.getCachedDataBlockID ≠ id
  · rw [if_pos hne] at h
    cases h1 : saveCachedIfDirty now m f with
    | none => rw [h1] at h; cases h
    | some q1 =>
      obtain ⟨ma, fa⟩ := q1
      obtain ⟨e1, e2, e3, e4⟩ := saveCachedIfDirty_budget now m ma f fa h1
      rw [h1] at h
      simp only at h
      cases h2 : loadDataBlock ma.fs id with
      | none => rw [h2] at h; cases h
      | some b =>
        rw [h2] at h
        simp only [Option.some.injEq, Prod.mk.injEq] at h
        obtain ⟨rfl, rfl⟩ := h
        exact ⟨e1, e2, e3, e4⟩
  · rw [if_neg hne] at h
    simp only [Option.some.injEq, Prod.mk.injEq] at h
    obtain ⟨rfl, rfl⟩ := h
    exact ⟨rfl, rfl, rfl, by omega⟩

/-- One round of the loop of `FS::write` moves the position to the end of its data block or
to the end of the write. -/
theorem write_pos_step (M cur endPos : Nat) (hM : 0 < M) (hlt : cur < endPos) :
    cur < cur + min (M - cur % M) (endPos - cur) ∧
    cur + min (M - cur % M) (endPos - cur) ≤ endPos ∧
    (cur + min (M - cur % M) (endPos - cur) + M - 1) / M = cur / M + 1 ∧
    (cur + min (M - cur % M) (endPos - cur) < endPos →
      (cur + min (M - cur % M) (endPos - cur)) / M = cur / M + 1 ∧
      cur / M + 1 ≤ (endPos - 1) / M) ∧
    (cur + M - 1) / M ≤ cur / M + 1 ∧ cur / M ≤ (cur + M - 1) / M := by
  have hdm : cur / M * M + cur % M = cur := by
    rw [Nat.mul_comm]
    exact Nat.div_add_mod cur M
  have hml := Nat.mod_lt cur hM
  obtain ⟨c1, c2⟩ := ceil_div_cases cur M hM
  have hmin : (min (M - cur % M) (endPos - cur) = M - cur % M ∧
      M - cur % M ≤ endPos - cur) ∨
      (min (M - cur % M) (endPos - cur) = endPos - cur ∧ endPos - cur ≤ M - cur % M) := by
    rcases Nat.le_total (M - cur % M) (endPos - cur) with h | h
    · left
      exact ⟨Nat.min_eq_left h, h⟩
    · right
      exact ⟨Nat.min_eq_right h, h⟩
  generalize min (M - cur % M) (endPos - cur) = bb at hmin
  have hceil : (cur + bb + M - 1) / M = cur / M + 1 := by
    apply Nat.div_eq_of_lt_le
    · rw [Nat.add_mul, Nat.one_mul]
      omega
    · rw [Nat.add_mul, Nat.add_mul, Nat.one_mul]
      omega
  refine ⟨by omega, by omega, hceil, ?_, ?_, ?_⟩
  · intro hlt2
    have hbb : bb = M - cur % M := by omega
    constructor
    · apply Nat.div_eq_of_lt_le
      · rw [Nat.add_mul, Nat.one_mul]
        omega
      · rw [Nat.add_mul, Nat.add_mul, Nat.one_mul]
        omega
    · rw [Nat.le_div_iff_mul_le hM, Nat.add_mul, Nat.one_mul]
      omega
  · by_cases h0 : cur % M = 0
    · rw [c1 h0]
      omega
    · rw [c2 h0]
  · by_cases h0 : cur % M = 0
    · rw [c1 h0]
    · rw [c2 h0]
      omega

/-- The number of lists of a file stays within what its data blocks need when one data block
is added, and a file that is not full has room for the list of the new block. -/
theorem lists_step (E N L D X : Nat) (hinv : E * L < N + L) (hN : N < D)
    (hD : D ≤ L * X) :
    (N % L = 0 → E ≠ X) ∧ (E + (if N % L = 0 then 1 else 0)) * L < N + 1 + L := by
  have hdm : N / L * L + N % L = N := by
    rw [Nat.mul_comm]
    exact Nat.div_add_mod N L
  by_cases h0 : N % L = 0
  · have hEq : E ≤ N / L := by
      have h1 : E * L < (N / L + 1) * L := by
        rw [Nat.add_mul, Nat.one_mul]
        omega
      have := Nat.lt_of_mul_lt_mul_right h1
      omega
    have hEL : E * L ≤ N / L * L := Nat.mul_le_mul_right L hEq
    refine ⟨fun _ hE => ?_, ?_⟩
    · subst hE
      rw [Nat.mul_comm] at hD
      omega
    · rw [if_pos h0, Nat.add_mul, Nat.one_mul]
      omega
  · refine ⟨fun h => absurd h h0, ?_⟩
    rw [if_neg h0, Nat.add_zero]
    omega

/-- The step "make sure the correct DataBlock is cached" of `FS::write` on an external file
with three free blocks: a data block is added exactly when the position has reached the end
of the blocks. -/
theorem ensureCached_inv (c : Constants) (fresh : Nat → List Nat) (now : Nat → Nat)
    (m m1 : Mounted) (f f1 : OpenFile) (changed ch1 : List (Nat × FileRef)) (k : Nat)
    (hex : f.inode.inlined = false)
    (hbud : m.fs.usedBlocks + 3 ≤ m.fs.logSize) (h32 : m.fs.logSize < 4294967296)
    (hk : k < c.MAX_DATABLOCKS_PER_FILE) (hD32 : c.MAX_DATABLOCKS_PER_FILE < 4294967296)
    (hD : c.MAX_DATABLOCKS_PER_FILE ≤
      c.MAX_DATABLOCKS_PER_DATABLOCKLIST * c.MAX_DATABLOCKLISTS_PER_FILE)
    (hinv : f.inode.entries.length * c.MAX_DATABLOCKS_PER_DATABLOCKLIST <
      f.numberOfDataBlocks + c.MAX_DATABLOCKS_PER_DATABLOCKLIST)
    (h : ensureCached c fresh now m f changed k = some (m1, f1, ch1)) :
    m1.openFiles = m.openFiles ∧ m1.fs.logSize = m.fs.logSize ∧
    m1.fs.usedBlocks ≤ m.fs.usedBlocks + 1 ∧ f1.inode.toINode = f.inode.toINode ∧
    f1.numberOfDataBlocks = (if f.numberOfDataBlocks = k then k + 1 else f.numberOfDataBlocks) ∧
    f1.inode.entries.length * c.MAX_DATABLOCKS_PER_DATABLOCKLIST <
      f1.numberOfDataBlocks + c.MAX_DATABLOCKS_PER_DATABLOCKLIST := by
  unfold ensureCached at h
  by_cases hno : f.numberOfDataBlocks = k
  · rw [if_pos hno] at h
    cases ha : addDataBlock c fresh now m f changed with
    | none => rw [ha] at h; cases h
    | some q =>
      obtain ⟨ok, ma, fa, cha⟩ := q
      rw [ha] at h
      simp only [Option.map_some', Option.some.injEq, Prod.mk.injEq] at h
      obtain ⟨rfl, rfl, rfl⟩ := h
      obtain ⟨l1, l2⟩ := lists_step f.inode.entries.length f.numberOfDataBlocks
        c.MAX_DATABLOCKS_PER_DATABLOCKLIST c.MAX_DATABLOCKS_PER_FILE
        c.MAX_DATABLOCKLISTS_PER_FILE hinv (by omega) hD
      obtain ⟨e1, e2, e3, e4, e5, e6⟩ := addDataBlock_inv c fresh now m ma f fa changed cha ok
        hex (by rw [Nat.mod_eq_of_lt (by omega)]; omega) (by omega) l1 ha
      rw [Nat.mod_eq_of_lt (by omega)] at e4
      refine ⟨e1, e2, e3, e5, ?_, ?_⟩
      · rw [if_pos hno, e4, hno]
      · rw [e6, e4]
        exact l2
  · rw [if_neg hno] at h
    cases hg : f.getDataBlockID c k with
    | none => rw [hg] at h; cases h
    | some id =>
      rw [hg] at h
      simp only at h
      cases hc : cacheDataBlock now m f id with
      | none => rw [hc] at h; cases h
      | some q =>
        obtain ⟨ma, fa⟩ := q
        rw [hc] at h
        simp only [Option.map_some', Option.some.injEq, Prod.mk.injEq] at h
        obtain ⟨rfl, rfl, rfl⟩ := h
        obtain ⟨e1, e2, e3, e4⟩ := cacheDataBlock_budget now m ma f fa id hc
        have hino : fa.inode = f.inode := congrArg File.inode e1
        have hnd : fa.numberOfDataBlocks = f.numberOfDataBlocks :=
          congrArg File.numberOfDataBlocks e1
        refine ⟨e2, e3, e4, by rw [hino], ?_, ?_⟩
        · rw [if_neg hno, hnd]
        · rw [hino, hnd]
          exact hinv

/-- The loop of `FS::write` on an external file with enough free blocks: the file stays
external, the header of its INode is kept, and the number of data blocks ends as the larger
of the number before and the number that the end position needs. -/
theorem writeLoop_count (c : Constants) (fresh : Nat → List Nat) (now : Nat → Nat)
    (source : List Nat) (endPos N0 : Nat)
    (hM : 0 < c.MAX_BYTES_PER_DATABLOCK) (hM32 : c.MAX_BYTES_PER_DATABLOCK < 4294967296)
    (hend : endPos < 4294967296)
    (hendD : endPos ≤ c.MAX_DATABLOCKS_PER_FILE * c.MAX_BYTES_PER_DATABLOCK)
    (hD32 : c.MAX_DATABLOCKS_PER_FILE < 4294967296)
    (hD : c.MAX_DATABLOCKS_PER_FILE ≤
      c.MAX_DATABLOCKS_PER_DATABLOCKLIST * c.MAX_DATABLOCKLISTS_PER_FILE) :
    ∀ (fuel : Nat) (m : Mounted) (f : OpenFile) (changed : List (Nat × FileRef))
      (cur copied : Nat) (m2 : Mounted) (f2 : OpenFile) (ch2 : List (Nat × FileRef)),
      writeLoop c fresh now source endPos fuel m f changed cur copied =
        some (true, m2, f2, ch2) →
      f.inode.inlined = false → cur ≤ endPos → m.fs.logSize < 4294967296 →
      N0 ≤ f.numberOfDataBlocks →
      (cur + c.MAX_BYTES_PER_DATABLOCK - 1) / c.MAX_BYTES_PER_DATABLOCK ≤ f.numberOfDataBlocks →
      (f.numberOfDataBlocks = N0 ∨ f.numberOfDataBlocks =
        (cur + c.MAX_BYTES_PER_DATABLOCK - 1) / c.MAX_BYTES_PER_DATABLOCK) →
      f.inode.entries.length * c.MAX_DATABLOCKS_PER_DATABLOCKLIST <
        f.numberOfDataBlocks + c.MAX_DATABLOCKS_PER_DATABLOCKLIST →
      (cur < endPos → m.fs.usedBlocks + 3 + ((endPos - 1) / c.MAX_BYTES_PER_DATABLOCK -
        cur / c.MAX_BYTES_PER_DATABLOCK) ≤ m.fs.logSize) →
      m2.openFiles = m.openFiles ∧ f2.inode.toINode = f.inode.toINode ∧
      N0 ≤ f2.numberOfDataBlocks ∧
      (endPos + c.MAX_BYTES_PER_DATABLOCK - 1) / c.MAX_BYTES_PER_DATABLOCK ≤
        f2.numberOfDataBlocks ∧
      (f2.numberOfDataBlocks = N0 ∨ f2.numberOfDataBlocks =
        (endPos + c.MAX_BYTES_PER_DATABLOCK - 1) / c.MAX_BYTES_PER_DATABLOCK) := by
  intro fuel
  induction fuel with
  | zero =>
    intro m f changed cur copied m2 f2 ch2 h hex hcur h32 hN0 hceil hor hinv hbud
    rw [writeLoop] at h
    by_cases hlt : cur < endPos
    · rw [if_pos hlt] at h
      cases h
    · rw [if_neg hlt] at h
      simp only [Option.some.injEq, Prod.mk.injEq, true_and] at h
      obtain ⟨rfl, rfl, -⟩ := h
      have hce : cur = endPos := by omega
      subst hce
      exact ⟨rfl, rfl, hN0, hceil, hor⟩
  | succ fuel ih =>
    intro m f changed cur copied m2 f2 ch2 h hex hcur h32 hN0 hceil hor hinv hbud
    rw [writeLoop] at h
    by_cases hlt : cur < endPos
    · rw [if_pos hlt] at h
      have hb := hbud hlt
      have hkD : cur / c.MAX_BYTES_PER_DATABLOCK < c.MAX_DATABLOCKS_PER_FILE := by
        rw [Nat.div_lt_iff_lt_mul hM]
        omega
      cases he : ensureCached c fresh now m f changed (cur / c.MAX_BYTES_PER_DATABLOCK) with
      | none => rw [he] at h; cases h
      | some q =>
        obtain ⟨m1, f1, ch1⟩ := q
        rw [he] at h
        simp only at h
        obtain ⟨e1, e2, e3, e4, e5, e6⟩ := ensureCached_inv c fresh now m m1 f f1 changed ch1
          (cur / c.MAX_BYTES_PER_DATABLOCK) hex (by omega) h32 hkD hD32 hD hinv he
        cases hcb : f1.cachedDataBlock with
        | none => rw [hcb] at h; simp at h
        | some b =>
          rw [hcb] at h
          simp only at h
          cases hs : sliceOf source copied (blockBytes c endPos cur) with
          | none => rw [hs] at h; cases h
          | some src =>
            rw [hs] at h
            simp only at h
            cases hw : b.write c (blockStart c cur) src with
            | none => rw [hw] at h; cases h
            | some r =>
              rw [hw] at h
              cases r with
              | none => simp at h
              | some b1 =>
                simp only at h
                rw [blockBytes_eq c endPos cur hM hM32 hlt hend] at h
                obtain ⟨p1, p2, p3, p4, p5, p6⟩ :=
                  write_pos_step c.MAX_BYTES_PER_DATABLOCK cur endPos hM hlt
                rw [Nat.mod_eq_of_lt (by omega : cur + min (c.MAX_BYTES_PER_DATABLOCK -
                  cur % c.MAX_BYTES_PER_DATABLOCK) (endPos - cur) < 4294967296)] at h
                have hex1 : f1.inode.inlined = false := by
                  have : f1.inode.inlined = f.inode.inlined := congrArg INode.inlined e4
                  rw [this]
                  exact hex
                obtain ⟨r1, r2, r3, r4, r5⟩ := ih m1 { f1 with cachedDataBlock := some b1 } ch1
                  _ _ m2 f2 ch2 h hex1 p2 (by rw [e2]; exact h32)
                  (by
                    show N0 ≤ f1.numberOfDataBlocks
                    rw [e5]
                    split <;> omega)
                  (by
                    show _ ≤ f1.numberOfDataBlocks
                    rw [e5, p3]
                    split <;> omega)
                  (by
                    show f1.numberOfDataBlocks = N0 ∨ f1.numberOfDataBlocks = _
                    rw [e5, p3]
                    split <;> omega)
                  e6
                  (by
                    intro hlt2
                    obtain ⟨q1, q2⟩ := p4 hlt2
                    rw [q1, e2]
                    omega)
                exact ⟨r1.trans e1, r2.trans e4, r3, r4, r5⟩
    · rw [if_neg hlt] at h
      simp only [Option.some.injEq, Prod.mk.injEq, true_and] at h
      obtain ⟨rfl, rfl, -⟩ := h
      have hce : cur = endPos := by omega
      subst hce
      exact ⟨rfl, rfl, hN0, hceil, hor⟩

/-- The file object after a call of `FS::write` that returns true, for an external file
whose block counter fits its size, when the write ends at or behind the old end of the file
and the free blocks suffice. -/
theorem write_count (c : Constants) (fresh : Nat → List Nat) (now : Nat → Nat)
    (m m' : Mounted) (h : Nat) (source : List Nat) (pos n : Nat) (f : OpenFile)
    (hw : write c fresh now m h source pos n = some (true, m'))
    (hf : m.find h = some f) (hex : f.inode.inlined = false)
    (hM : 0 < c.MAX_BYTES_PER_DATABLOCK ∧ c.MAX_BYTES_PER_DATABLOCK < 4294967296)
    (hF : c.MAX_FILE_SIZE ≤ c.MAX_DATABLOCKS_PER_FILE * c.MAX_BYTES_PER_DATABLOCK ∧
      c.MAX_FILE_SIZE ≤ 4294967296)
    (hD : c.MAX_DATABLOCKS_PER_FILE ≤
      c.MAX_DATABLOCKS_PER_DATABLOCKLIST * c.MAX_DATABLOCKLISTS_PER_FILE ∧
      c.MAX_DATABLOCKS_PER_FILE < 4294967296)
    (hn64 : pos + n < 18446744073709551616)
    (hcount : f.numberOfDataBlocks = blocksForSize c f.inode.size_b)
    (hlists : f.inode.entries.length * c.MAX_DATABLOCKS_PER_DATABLOCKLIST <
      f.numberOfDataBlocks + c.MAX_DATABLOCKS_PER_DATABLOCKLIST)
    (happ : f.inode.size_b ≤ pos + n)
    (hu : m.fs.usedBlocks + 3 + ((pos + n - 1) / c.MAX_BYTES_PER_DATABLOCK -
      pos / c.MAX_BYTES_PER_DATABLOCK) ≤ m.fs.logSize ∧ m.fs.logSize < 4294967296) :
    ∃ f', m'.find h = some f' ∧ f'.inode.inlined = false ∧ f'.inode.size_b = pos + n ∧
      0 < f'.inode.size_b ∧ f'.numberOfDataBlocks = blocksForSize c (pos + n) := by
  unfold write at hw
  by_cases hn1 : n < 1
  · rw [if_pos hn1] at hw
    cases hw
  rw [if_neg hn1, hf] at hw
  simp only at hw
  by_cases hp : pos > f.inode.size_b
  · rw [if_pos hp] at hw
    cases hw
  rw [if_neg hp, Nat.mod_eq_of_lt hn64] at hw
  by_cases hmax : pos + n ≥ c.MAX_FILE_SIZE
  · rw [if_pos hmax] at hw
    cases hw
  rw [if_neg hmax, if_neg (by simp [hex]), Nat.mod_eq_of_lt (by omega : pos + n < 4294967296)]
    at hw
  simp only [hex, Bool.false_eq_true, if_false] at hw
  cases hl : writeLoop c fresh now source (pos + n) n m f [] pos 0 with
  | none => rw [hl] at hw; cases hw
  | some q =>
    obtain ⟨ok, m2, f2, ch2⟩ := q
    rw [hl] at hw
    cases ok with
    | false => simp at hw
    | true =>
      simp only at hw
      cases hr : (ch2.map Prod.snd).mapM
          (resolveFileRef { f2 with inode := f2.inode.setInternalSize_b c (pos + n) }) with
      | none => rw [hr] at hw; cases hw
      | some blocks =>
        rw [hr] at hw
        simp only at hw
        cases hs : Mounted.saveBlocks now m2 blocks with
        | none => rw [hs] at hw; cases hw
        | some m3 =>
          rw [hs] at hw
          simp only [Option.some.injEq, Prod.mk.injEq, true_and] at hw
          subst hw
          have hc0 := blocksForSize_ceil c f.inode.size_b hM.1 (by omega)
          have hcp := blocksForSize_ceil c (pos + n) hM.1 (by omega)
          have hmono1 : (pos + c.MAX_BYTES_PER_DATABLOCK - 1) / c.MAX_BYTES_PER_DATABLOCK ≤
              (f.inode.size_b + c.MAX_BYTES_PER_DATABLOCK - 1) / c.MAX_BYTES_PER_DATABLOCK :=
            Nat.div_le_div_right (by omega)
          have hmono2 : (f.inode.size_b + c.MAX_BYTES_PER_DATABLOCK - 1) /
              c.MAX_BYTES_PER_DATABLOCK ≤
              (pos + n + c.MAX_BYTES_PER_DATABLOCK - 1) / c.MAX_BYTES_PER_DATABLOCK :=
            Nat.div_le_div_right (by omega)
          obtain ⟨r1, r2, r3, r4, r5⟩ := writeLoop_count c fresh now source (pos + n)
            f.numberOfDataBlocks hM.1 hM.2 (by omega) (by omega) hD.2 hD.1 n m f [] pos 0
            m2 f2 ch2 hl hex (by omega) hu.2 (Nat.le_refl _) (by rw [hcount, hc0]; exact hmono1)
            (Or.inl rfl) hlists (fun _ => hu.1)
          have hopen3 : m3.openFiles = m.openFiles := by
            rw [Mounted.saveBlocks_openFiles now blocks m2 m3 hs]
            exact r1
          have hset : (f2.inode.setInternalSize_b c (pos + n)).size_b = pos + n ∧
              (f2.inode.setInternalSize_b c (pos + n)).inlined = f2.inode.inlined := by
            unfold FileINode.setInternalSize_b
            rw [if_pos (by omega)]
            exact ⟨rfl, rfl⟩
          refine ⟨_, Mounted.find_store m3 h _ f
            (by rw [Mounted.find_congr m m3 h hopen3]; exact hf), ?_, hset.1, ?_, ?_⟩
          · show (f2.inode.setInternalSize_b c (pos + n)).inlined = false
            rw [hset.2, congrArg INode.inlined r2]
            exact hex
          · show 0 < (f2.inode.setInternalSize_b c (pos + n)).size_b
            rw [hset.1]
            omega
          · show f2.numberOfDataBlocks = _
            rw [hcp]
            rw [hcount, hc0] at r3 r5
            omega

theorem touch_tenSlots :
    touch demoConstants specPathUtils 0 (clockFrom 10) tenSlots ['/', 'f'] =
      some (true, tenSlotsOpened.fs) := by decide

theorem openFile_tenSlots :
    openFile demoConstants specPathUtils 0 ⟨tenSlotsOpened.fs, [], 0⟩ ['/', 'f'] =
      some (2, tenSlotsOpened) := by decide

theorem switch_tenSlotsOpened :
    switchNonInline demoConstants noBytes (clockFrom 20) tenSlotsOpened emptyFile =
      some (⟨tenSlotsSwitched, [(2, emptyFile)], 3⟩, oneBlockFile 0 (noBytes 3)) := by
  rfl

theorem write_tenSlotsOpened :
    write demoConstants noBytes (clockFrom 20) tenSlotsOpened 2 (List.replicate 4088 7) 0 4088 =
      some (true, tenSlotsWritten) := by
  rw [write_switch demoConstants noBytes (clockFrom 20) tenSlotsOpened _ 2 emptyFile _
    ⟨3, 0, noBytes 3, true⟩ (List.replicate 4088 7) 0 4088 rfl rfl (by decide) (by decide)
    (by simp only [List.length_replicate]; decide) (by decide) (by decide) (by decide)
    (by decide) switch_tenSlotsOpened rfl (by decide) rfl rfl (Nat.zero_le _)]
  have hd : memcpyInto (noBytes 3) 0 (List.take 4088 (List.replicate 4088 7)) =
      List.replicate 4088 7 := by
    simp only [memcpyInto, noBytes, List.take_nil, List.drop_nil, List.nil_append,
      List.append_nil, List.take_replicate, Nat.min_self]
  rw [hd]
  rfl

theorem write_tenSlotsWritten :
    write demoConstants noBytes (clockFrom 30) tenSlotsWritten 2 [9] 4088 1 =
      some (true, twoBlocksWritten) := by
  rfl

/-- The number of data blocks after `write` and `truncate`, as the code has it: for an
external open file whose number of data blocks is
`ceil(internalSize_b / MAX_BYTES_PER_DATABLOCK)` and whose INode holds no more block lists
than these data blocks need, with constants that fit each other. After a `write` that
returns true, ends at or behind the old end of the file and finds three free blocks plus one
for every further data block it reaches, the file is external, `internalSize_b` is
`pos + n > 0` and the number of data blocks is the rounded-up quotient again. After a
`truncate` that returns true while two blocks are free, `internalSize_b` is the new size;
for a new size above zero the number of data blocks is the rounded-up quotient, and for
`truncate(h, 0)` no data block is removed and `internalSize_b` is zero. -/
theorem count_after_write_truncate (c : Constants) (fresh : Nat → List Nat) (now : Nat → Nat)
    (m : Mounted) (h : Nat) (f : OpenFile)
    (hf : m.find h = some f) (hex : f.inode.inlined = false)
    (hM : 0 < c.MAX_BYTES_PER_DATABLOCK ∧ c.MAX_BYTES_PER_DATABLOCK < 4294967296)
    (hF : c.MAX_FILE_SIZE ≤ c.MAX_DATABLOCKS_PER_FILE * c.MAX_BYTES_PER_DATABLOCK ∧
      c.MAX_FILE_SIZE ≤ 4294967296)
    (hD : c.MAX_DATABLOCKS_PER_FILE ≤
      c.MAX_DATABLOCKS_PER_DATABLOCKLIST * c.MAX_DATABLOCKLISTS_PER_FILE ∧
      c.MAX_DATABLOCKS_PER_FILE < 4294967296)
    (hsz : f.inode.size_b ≤ c.MAX_FILE_SIZE ∧ f.inode.size_b < 4294967296)
    (hcount : f.numberOfDataBlocks =
      (f.inode.size_b + c.MAX_BYTES_PER_DATABLOCK - 1) / c.MAX_BYTES_PER_DATABLOCK)
    (hlists : f.inode.entries.length * c.MAX_DATABLOCKS_PER_DATABLOCKLIST <
      f.numberOfDataBlocks + c.MAX_DATABLOCKS_PER_DATABLOCKLIST)
    (h32 : m.fs.logSize < 4294967295) :
    (∀ (source : List Nat) (pos n : Nat) (m' : Mounted),
      write c fresh now m h source pos n = some (true, m') →
      pos + n < 18446744073709551616 → f.inode.size_b ≤ pos + n →
      m.fs.usedBlocks + 3 + ((pos + n - 1) / c.MAX_BYTES_PER_DATABLOCK -
        pos / c.MAX_BYTES_PER_DATABLOCK) ≤ m.fs.logSize →
      ∃ f', m'.find h = some f' ∧ f'.inode.inlined = false ∧ f'.inode.size_b = pos + n ∧
        0 < f'.inode.size_b ∧
        f'.numberOfDataBlocks =
          (f'.inode.size_b + c.MAX_BYTES_PER_DATABLOCK - 1) / c.MAX_BYTES_PER_DATABLOCK) ∧
    (∀ (size : Nat) (m' : Mounted),
      truncate c now m h size = some (true, m') → m.fs.usedBlocks + 2 ≤ m.fs.logSize →
      ∃ f', m'.find h = some f' ∧ f'.inode.inlined = false ∧ f'.inode.size_b = size ∧
        (0 < size → f'.numberOfDataBlocks =
          (f'.inode.size_b + c.MAX_BYTES_PER_DATABLOCK - 1) / c.MAX_BYTES_PER_DATABLOCK) ∧
        (size = 0 → f'.numberOfDataBlocks = f.numberOfDataBlocks ∧
          0 < f'.numberOfDataBlocks)) := by
  have hcount' : f.numberOfDataBlocks = blocksForSize c f.inode.size_b := by
    rw [blocksForSize_ceil c _ hM.1 hsz.2]
    exact hcount
  constructor
  · intro source pos n m' hw hn64 happ hu
    obtain ⟨f', g1, g2, g3, g4, g5⟩ := write_count c fresh now m m' h source pos n f hw hf hex
      hM hF hD hn64 hcount' hlists happ ⟨hu, by omega⟩
    have hlt : pos + n < c.MAX_FILE_SIZE := by
      unfold write at hw
      by_cases hn1 : n < 1
      · rw [if_pos hn1] at hw
        cases hw
      rw [if_neg hn1, hf] at hw
      simp only at hw
      by_cases hp : pos > f.inode.size_b
      · rw [if_pos hp] at hw
        cases hw
      rw [if_neg hp, Nat.mod_eq_of_lt hn64] at hw
      by_cases hmax : pos + n ≥ c.MAX_FILE_SIZE
      · rw [if_pos hmax] at hw
        cases hw
      · omega
    refine ⟨f', g1, g2, g3, g4, ?_⟩
    rw [g5, g3]
    exact blocksForSize_ceil c _ hM.1 (by omega)
  · intro size m' htr hu
    obtain ⟨f', g1, g2, g3, g4, g5⟩ := truncate_count c now m m' h size f htr hf hex hM.1 hsz
      hcount' ⟨hu, h32⟩
    have hlt : size < f.inode.size_b := by
      obtain ⟨f0, -, -, -, -, -, hf0, hlt, -⟩ := truncate_inv c now m m' h size htr
      rw [hf] at hf0
      cases hf0
      omega
    refine ⟨f', g1, g2, g3, ?_, g5⟩
    intro hpos
    rw [g4 hpos, g3]
    exact blocksForSize_ceil c _ hM.1 (by omega)

/-- C32: `truncate(h, 0)` on an external file.  On `twoBlocksWritten` (the file "/f" with
4089 bytes in two data blocks) the call returns true, leaves the file external with
`internalSize_b = 0` and removes neither of the two data blocks: `FS::removeDataBlocks` is
asked for both blocks and refuses.  So the number of data blocks is 2 and not
`ceil(0 / MAX_BYTES_PER_DATABLOCK)`, and `internalSize_b > 0` fails.  `truncate(h, 1)` on
the same state does remove a data block.  After `closeFile` and `openFile` the file object
has no data block and no block list, while its INode still names block list 4 and the blocks
3, 4 and 5 keep their slots. -/
theorem truncate_to_zero_external :
    ∃ m' f', truncate demoConstants (clockFrom 40) twoBlocksWritten 2 0 = some (true, m') ∧
      m'.find 2 = some f' ∧ f'.inode.inlined = false ∧ f'.inode.size_b = 0 ∧
      f'.numberOfDataBlocks = 2 ∧
      ¬ (0 < f'.inode.size_b ∧ f'.numberOfDataBlocks =
        (f'.inode.size_b + demoConstants.MAX_BYTES_PER_DATABLOCK - 1) /
          demoConstants.MAX_BYTES_PER_DATABLOCK) ∧
      (∃ m1 f1, truncate demoConstants (clockFrom 40) twoBlocksWritten 2 1 = some (true, m1) ∧
        m1.find 2 = some f1 ∧ f1.inode.size_b = 1 ∧ f1.numberOfDataBlocks = 1) ∧
      ∃ m2 m3 f3, closeFile (clockFrom 50) m' 2 = some m2 ∧
        openFile demoConstants specPathUtils 0 m2 ['/', 'f'] = some (2, m3) ∧
        m3.find 2 = some f3 ∧ f3.inode.inlined = false ∧ f3.inode.size_b = 0 ∧
        f3.inode.entries = [4] ∧ f3.blockLists = [] ∧ f3.numberOfDataBlocks = 0 ∧
        m3.fs.bmap = [3, 1, 7, 8, 9, 0, 0, 0, 0, 0] :=
  ⟨_, _, rfl, rfl, rfl, rfl, rfl, by decide, ⟨_, _, rfl, rfl, rfl, rfl⟩,
    _, _, _, rfl, rfl, rfl, rfl, rfl, rfl, rfl, rfl, rfl⟩

theorem count_after_write_truncate_witness :
    ∃ mW fW mT fT,
      write demoConstants noBytes (clockFrom 40) twoBlocksWritten 2 [5, 6] 4089 2 =
        some (true, mW) ∧
      mW.find 2 = some fW ∧ fW.inode.inlined = false ∧ fW.inode.size_b = 4091 ∧
      fW.numberOfDataBlocks = 2 ∧
      truncate demoConstants (clockFrom 40) twoBlocksWritten 2 1 = some (true, mT) ∧
      mT.find 2 = some fT ∧ fT.inode.inlined = false ∧ fT.inode.size_b = 1 ∧
      fT.numberOfDataBlocks = 1 ∧
      (∃ f', mW.find 2 = some f' ∧ f'.inode.inlined = false ∧ f'.inode.size_b = 4089 + 2 ∧
        0 < f'.inode.size_b ∧
        f'.numberOfDataBlocks = (f'.inode.size_b + demoConstants.MAX_BYTES_PER_DATABLOCK - 1) /
          demoConstants.MAX_BYTES_PER_DATABLOCK) ∧
      (∃ f', mT.find 2 = some f' ∧ f'.inode.inlined = false ∧ f'.inode.size_b = 1 ∧
        (0 < 1 → f'.numberOfDataBlocks =
          (f'.inode.size_b + demoConstants.MAX_BYTES_PER_DATABLOCK - 1) /
            demoConstants.MAX_BYTES_PER_DATABLOCK) ∧
        (1 = 0 → f'.numberOfDataBlocks = twoBlockFile.numberOfDataBlocks ∧
          0 < f'.numberOfDataBlocks)) :=
  ⟨_, _, _, _, rfl, rfl, rfl, rfl, rfl, rfl, rfl, rfl, rfl, rfl,
    (count_after_write_truncate demoConstants noBytes (clockFrom 40) twoBlocksWritten 2
      twoBlockFile rfl rfl (by decide) (by decide) (by decide) (by decide) (by decide)
      (by decide) (by decide)).1 [5, 6] 4089 2 _ rfl (by decide) (by decide) (by decide),
    (count_after_write_truncate demoConstants noBytes (clockFrom 40) twoBlocksWritten 2
      twoBlockFile rfl rfl (by decide) (by decide) (by decide) (by decide) (by decide)
      (by decide) (by decide)).2 1 _ rfl (by decide)⟩

theorem idx_of_two_le (id : Nat) (h : 2 ≤ id) : idx id = id - 1 := by
  unfold idx
  rw [if_neg (by omega)]

theorem addUnique_mem {α : Type} [DecidableEq α] (a : List α) :
    ∀ (l : List α) (x : α), x ∈ addUnique l a → x ∈ l ∨ x ∈ a := by
  induction a with
  | nil =>
    intro l x h
    exact Or.inl h
  | cons y t ih =>
    intro l x h
    unfold addUnique at h
    rw [List.foldl_cons] at h
    rcases ih _ x h with h1 | h1
    · by_cases hy : y ∈ l
      · rw [if_pos hy] at h1
        exact Or.inl h1
      · rw [if_neg hy, List.mem_append, List.mem_singleton] at h1
        rcases h1 with h2 | h2
        · exact Or.inl h2
        · exact Or.inr (by rw [h2]; exact List.mem_cons_self _ _)
    · exact Or.inr (List.mem_cons_of_mem _ h1)

/-- The ids of the block lists after one call of `File::removeDataBlock`. -/
theorem removeDataBlock_ids (f : OpenFile) (last : DataBlockList)
    (hl : f.blockLists.getLast? = some last) :
    (f.blockLists.dropLast ++ [last.popDataBlock]).map DataBlockList.id =
      f.blockLists.map DataBlockList.id ∧
    f.blockLists.dropLast.map DataBlockList.id ++ [last.id] =
      f.blockLists.map DataBlockList.id := by
  have h1 : f.blockLists = f.blockLists.dropLast ++ [last] :=
    (List.dropLast_append_getLast? last hl).symm
  constructor
  · nth_rewrite 2 [h1]
    rw [List.map_append, List.map_append]
    rfl
  · nth_rewrite 2 [h1]
    rw [List.map_append]
    rfl

/-- The loop of `FS::removeDataBlocks` on an external file with distinct, live block lists:
the lists that remain are a front part of the lists before, every dropped list lowers
`usedBlocks` by one, the block map changes only at the ids of the lists, and the pointers
collected are the primary INode and block lists. -/
theorem removeDataBlockLoop_frame (c : Constants) (n : Nat) :
    ∀ (s s1 : FS) (f f1 : OpenFile) (ch ch1 : List FileRef),
      f.inode.inlined = false →
      removeDataBlockLoop c n s f ch = some (s1, f1, ch1) →
      (∀ x, x ∈ f.blockLists.map DataBlockList.id → 2 ≤ x ∧ LiveId s x) →
      (f.blockLists.map DataBlockList.id).Nodup →
      f.blockLists.length ≤ s.usedBlocks → s.usedBlocks < 4294967296 →
      (f1.blockLists.map DataBlockList.id) <+: (f.blockLists.map DataBlockList.id) ∧
      f1.inode.toINode = f.inode.toINode ∧
      s1.logSize = s.logSize ∧
      s1.usedBlocks + (f.blockLists.length - f1.blockLists.length) = s.usedBlocks ∧
      f1.blockLists.length ≤ s1.usedBlocks ∧
      (∀ k, (∀ x, x ∈ f.blockLists.map DataBlockList.id → k ≠ idx x) →
        s1.bmap[k]? = s.bmap[k]?) ∧
      (∀ x, x ∈ f1.blockLists.map DataBlockList.id → LiveId s1 x) ∧
      (∀ x, x ≠ 0 → x ∉ f.blockLists.map DataBlockList.id → LiveId s x → LiveId s1 x) ∧
      (∀ r, r ∈ ch1 → r ∈ ch ∨ r = .primary ∨ ∃ i, r = .list i) := by
  induction n with
  | zero =>
    intro s s1 f f1 ch ch1 hex h hids hnd hu h32
    unfold removeDataBlockLoop at h
    simp only [Option.some.injEq, Prod.mk.injEq] at h
    obtain ⟨rfl, rfl, rfl⟩ := h
    exact ⟨List.prefix_refl _, rfl, rfl, by omega, hu, fun _ _ => rfl,
      fun x hx => (hids x hx).2, fun _ _ _ hl => hl, fun r hr => Or.inl hr⟩
  | succ n ih =>
    intro s s1 f f1 ch ch1 hex h hids hnd hu h32
    unfold removeDataBlockLoop at h
    cases hr : f.removeDataBlock c s with
    | none => rw [hr] at h; cases h
    | some q =>
      obtain ⟨s2, f2, chstep⟩ := q
      rw [hr] at h
      simp only at h
      obtain ⟨last, hl, -, -, hino, hcase⟩ := removeDataBlock_step c s s2 f f2 chstep hex hr
      obtain ⟨i1, i2⟩ := removeDataBlock_ids f last hl
      have hex2 : f2.inode.inlined = false := by
        rw [congrArg INode.inlined hino]
        exact hex
      have hlen : f.blockLists.length = f.blockLists.dropLast.length + 1 := by
        have := congrArg List.length i2
        simp only [List.length_append, List.length_map, List.length_singleton] at this
        omega
      rcases hcase with ⟨hs2, hbl, -, rfl⟩ | ⟨hfree, hbl, -, rfl⟩
      · rw [hs2] at h
        have hids2 : f2.blockLists.map DataBlockList.id = f.blockLists.map DataBlockList.id := by
          rw [hbl]
          exact i1
        have hlen2 : f2.blockLists.length = f.blockLists.length := by
          have := congrArg List.length hids2
          simpa only [List.length_map] using this
        obtain ⟨r1, r2, r3, r4, r5, r6, r7, r8, r9⟩ := ih s s1 f2 f1 _ ch1 hex2 h
          (by rw [hids2]; exact hids) (by rw [hids2]; exact hnd) (by rw [hlen2]; exact hu) h32
        rw [hids2] at r1 r6 r8
        rw [hlen2] at r4
        refine ⟨r1, r2.trans hino, r3, r4, r5, r6, r7, r8, ?_⟩
        intro r hr1
        rcases r9 r hr1 with h1 | h1
        · rcases addUnique_mem _ _ r h1 with h2 | h2
          · exact Or.inl h2
          · rw [List.mem_singleton] at h2
            exact Or.inr (Or.inr ⟨_, h2⟩)
        · exact Or.inr h1
      · have hmem : last.id ∈ f.blockLists.map DataBlockList.id := by
          rw [← i2]
          exact List.mem_append_right _ (List.mem_singleton.mpr rfl)
        obtain ⟨hl2, hlive⟩ := hids _ hmem
        obtain ⟨e1, e2, e3, e4, e5, e6⟩ := freeBlock_effect s s2 last.id hl2 hfree
        have hids2 : f2.blockLists.map DataBlockList.id =
            f.blockLists.dropLast.map DataBlockList.id := by rw [hbl]
        have hpre : f2.blockLists.map DataBlockList.id <+: f.blockLists.map DataBlockList.id := by
          rw [hids2, ← i2]
          exact List.prefix_append _ _
        have hlen2 : f2.blockLists.length = f.blockLists.dropLast.length := by rw [hbl]
        have hnd' : (f.blockLists.dropLast.map DataBlockList.id ++ [last.id]).Nodup := by
          rw [i2]
          exact hnd
        have hnotin : last.id ∉ f.blockLists.dropLast.map DataBlockList.id := by
          intro hin
          have := (List.nodup_append.mp hnd').2.2
          exact this hin (List.mem_singleton.mpr rfl)
        have hu2 : s2.usedBlocks + 1 = s.usedBlocks := by
          rw [e3]
          omega
        obtain ⟨r1, r2, r3, r4, r5, r6, r7, r8, r9⟩ := ih s2 s1 f2 f1 _ ch1 hex2 h
          (by
            intro x hx
            have hx' := hpre.subset hx
            refine ⟨(hids x hx').1, e6 x ?_ (by have := (hids x hx').1; omega) (hids x hx').2⟩
            intro hxe
            rw [hids2, hxe] at hx
            exact hnotin hx)
          (hnd.sublist hpre.sublist) (by rw [hlen2]; omega) (by omega)
        have hpl : f1.blockLists.length ≤ f2.blockLists.length := by
          have := r1.length_le
          simpa only [List.length_map] using this
        refine ⟨r1.trans hpre, r2.trans hino, r3.trans e1, by omega, r5, ?_, r7, ?_, ?_⟩
        · intro k hk
          rw [r6 k (fun x hx => hk x (hpre.subset hx))]
          exact e5 k (by
            have := hk _ hmem
            rw [idx_of_two_le _ hl2] at this
            exact this)
        · intro x hx0 hxn hxl
          exact r8 x hx0 (fun hin => hxn (hpre.subset hin))
            (e6 x (fun hxe => hxn (by rw [hxe]; exact hmem)) hx0 hxl)
        · intro r hr1
          rcases r9 r hr1 with h1 | h1
          · rcases addUnique_mem _ _ r h1 with h2 | h2
            · exact Or.inl h2
            · rw [List.mem_singleton] at h2
              exact Or.inr (Or.inl h2)
          · exact Or.inr h1

theorem mapM_option_mem {α β : Type} (g : α → Option β) :
    ∀ (l : List α) (bs : List β), l.mapM g = some bs →
      ∀ b, b ∈ bs → ∃ r, r ∈ l ∧ g r = some b := by
  intro l
  induction l with
  | nil =>
    intro bs h b hb
    simp only [List.mapM_nil, Option.pure_def, Option.some.injEq] at h
    subst h
    cases hb
  | cons a t ih =>
    intro bs h b hb
    rw [List.mapM_cons] at h
    cases ha : g a with
    | none => rw [ha] at h; cases h
    | some y =>
      rw [ha] at h
      cases ht : t.mapM g with
      | none => rw [ht] at h; cases h
      | some ys =>
        rw [ht] at h
        simp only [Option.pure_def, Option.bind_eq_bind, Option.some_bind, Option.some.injEq]
          at h
        subst h
        rcases List.mem_cons.mp hb with h1 | h1
        · exact ⟨a, List.mem_cons_self _ _, by rw [ha, h1]⟩
        · obtain ⟨r, hr, hg⟩ := ih ys ht b h1
          exact ⟨r, List.mem_cons_of_mem _ hr, hg⟩

/-- The blocks behind the pointers that `FS::removeDataBlocks` collects carry the id of the
primary INode or of a block list of the file. -/
theorem resolveFileRef_id (f : OpenFile) (r : FileRef) (b : Block)
    (hr : r = .primary ∨ ∃ i, r = .list i) (h : resolveFileRef f r = some b) :
    b.id = f.inode.id ∨ b.id ∈ f.blockLists.map DataBlockList.id := by
  rcases hr with rfl | ⟨i, rfl⟩
  · unfold resolveFileRef at h
    cases h
    exact Or.inl rfl
  · replace h : (f.blockLists[i]?).map DataBlockList.toBlock = some b := h
    cases hl : f.blockLists[i]? with
    | none => rw [hl] at h; cases h
    | some l =>
      rw [hl] at h
      cases h
      exact Or.inr (List.mem_map.mpr ⟨l, List.getElem?_mem hl, rfl⟩)

/-- C40 (as the code has it): a `truncate` that returns true on an external open file whose
primary INode and block lists have distinct ids with slots in the block map. It first saves
the cached data block if that one is dirty, so the entry of that block changes, and
`usedBlocks` goes up by one if the block had no slot before. Apart from that, no data block
is released: the block lists that remain are a front part of the lists before, every entry
of the block map other than those of the INode, of the block lists and of the saved cached
block is unchanged, and `usedBlocks` goes down by the number of block lists that were
dropped. -/
theorem truncate_releases_no_data_block (c : Constants) (now : Nat → Nat) (m m' : Mounted)
    (h size : Nat) (f : OpenFile)
    (htr : truncate c now m h size = some (true, m'))
    (hf : m.find h = some f) (hex : f.inode.inlined = false)
    (hino : f.inode.id ≠ 0 ∧ LiveId m.fs f.inode.id)
    (hlists : ∀ x, x ∈ f.blockLists.map DataBlockList.id → 2 ≤ x ∧ LiveId m.fs x)
    (hnd : (f.inode.id :: f.blockLists.map DataBlockList.id).Nodup)
    (hu : f.blockLists.length ≤ m.fs.usedBlocks ∧ m.fs.usedBlocks + 1 < 4294967296) :
    ∃ f' flush, m'.find h = some f' ∧
      (f'.blockLists.map DataBlockList.id) <+: (f.blockLists.map DataBlockList.id) ∧
      (∀ k, k ≠ idx f.inode.id →
        (∀ x, x ∈ f.blockLists.map DataBlockList.id → k ≠ idx x) →
        (∀ b, f.cachedDataBlock = some b → b.dirty = true → k ≠ idx b.id) →
        m'.fs.bmap[k]? = m.fs.bmap[k]?) ∧
      (flush = 0 ∨ (flush = 1 ∧ ∃ b, f.cachedDataBlock = some b ∧ b.dirty = true ∧
        m.fs.bmap[idx b.id]? = some 0)) ∧
      m'.fs.usedBlocks + (f.blockLists.length - f'.blockLists.length) =
        m.fs.usedBlocks + flush := by
  obtain ⟨f0, m1, f1, m2, f2, m3, hf0, -, h1, h2, h3, rfl⟩ := truncate_inv c now m m' h size htr
  rw [hf] at hf0
  cases hf0
  obtain ⟨e1, e2, e3⟩ := saveCachedIfDirty_inv now m m1 f f1 h1
  have hino1 : f1.inode = f.inode := congrArg File.inode e1
  have hbl1 : f1.blockLists = f.blockLists := congrArg File.blockLists e1
  have hnd2 : (f.blockLists.map DataBlockList.id).Nodup := (List.nodup_cons.mp hnd).2
  have hnotin : f.inode.id ∉ f.blockLists.map DataBlockList.id := (List.nodup_cons.mp hnd).1
  -- the flush of the cache
  have hflush : ∃ flush, m1.fs.logSize = m.fs.logSize ∧
      m1.fs.usedBlocks = m.fs.usedBlocks + flush ∧
      (flush = 0 ∨ (flush = 1 ∧ ∃ b, f.cachedDataBlock = some b ∧ b.dirty = true ∧
        m.fs.bmap[idx b.id]? = some 0)) ∧
      (∀ k, (∀ b, f.cachedDataBlock = some b → b.dirty = true → k ≠ idx b.id) →
        m1.fs.bmap[k]? = m.fs.bmap[k]?) ∧
      (∀ id, LiveId m.fs id → LiveId m1.fs id) := by
    rcases e3 with ⟨rfl, -, -⟩ | ⟨b, s', hb, hd, hs, rfl, -⟩
    · exact ⟨0, rfl, rfl, Or.inl rfl, fun _ _ => rfl, fun _ hl => hl⟩
    · obtain ⟨g1, -, g3, g4, -, g6⟩ := saveBlock_live_frame m.fs s' _ _ hs
      rcases g6 with g | ⟨g, g'⟩
      · exact ⟨0, g1, g, Or.inl rfl, fun k hk => g3 k (hk b hb hd), g4⟩
      · refine ⟨1, g1, ?_, Or.inr ⟨rfl, b, hb, hd, g⟩, fun k hk => g3 k (hk b hb hd), g4⟩
        show s'.usedBlocks = _
        rw [g', Nat.mod_eq_of_lt (by omega)]
  obtain ⟨flush, a1, a2, a3, a4, a5⟩ := hflush
  -- the removal of the data blocks
  have hrem : (f2.blockLists.map DataBlockList.id) <+: (f.blockLists.map DataBlockList.id) ∧
      f2.inode.toINode = f.inode.toINode ∧ m2.openFiles = m.openFiles ∧
      m2.fs.usedBlocks + (f.blockLists.length - f2.blockLists.length) = m1.fs.usedBlocks ∧
      (∀ k, k ≠ idx f.inode.id → (∀ x, x ∈ f.blockLists.map DataBlockList.id → k ≠ idx x) →
        m2.fs.bmap[k]? = m1.fs.bmap[k]?) ∧
      LiveId m2.fs f.inode.id := by
    rcases removeDataBlocks_inv c now m1 m2 f1 f2 _ h2 with ⟨rfl, rfl, -⟩ |
      ⟨-, -, s1, changed, blocks, hloop, hmap, hsave⟩
    · rw [hbl1, hino1]
      exact ⟨List.prefix_refl _, rfl, e2, by omega, fun _ _ _ => rfl, a5 _ hino.2⟩
    · obtain ⟨r1, r2, r3, r4, r5, r6, r7, r8, r9⟩ := removeDataBlockLoop_frame c _ m1.fs s1
        f1 f2 [] changed (by rw [hino1]; exact hex) hloop
        (by
          rw [hbl1]
          intro x hx
          exact ⟨(hlists x hx).1, a5 x (hlists x hx).2⟩)
        (by rw [hbl1]; exact hnd2) (by rw [hbl1]; omega) (by omega)
      rw [hbl1] at r1 r4 r6 r8
      rw [hino1] at r2
      have hid2 : f2.inode.id = f.inode.id := congrArg INode.id r2
      have hlive1 : LiveId s1 f.inode.id := r8 _ hino.1 hnotin (a5 _ hino.2)
      have hblocks : ∀ b, b ∈ blocks →
          b.id = f.inode.id ∨ b.id ∈ f2.blockLists.map DataBlockList.id := by
        intro b hb
        obtain ⟨r, hr, hg⟩ := mapM_option_mem (resolveFileRef f2) changed blocks hmap b hb
        have hkind : r = .primary ∨ ∃ i, r = .list i := by
          rcases r9 r hr with h0 | h0
          · cases h0
          · exact h0
        have := resolveFileRef_id f2 r b hkind hg
        rw [hid2] at this
        exact this
      obtain ⟨t1, -, t3, t4, t5⟩ := Mounted.saveBlocks_live now blocks
        { m1 with fs := s1 } m2 hsave
        (by
          intro b hb
          rcases hblocks b hb with hb1 | hb1
          · rw [hb1]
            exact hlive1
          · exact r7 _ hb1)
      refine ⟨r1, r2, t1.trans e2, ?_, ?_, t5 _ hlive1⟩
      · rw [t3]
        exact r4
      · intro k hk1 hk2
        rw [t4 k (by
          intro b hb
          rcases hblocks b hb with hb1 | hb1
          · rw [hb1]
            exact hk1
          · exact hk2 _ (r1.subset hb1))]
        exact r6 k hk2
  obtain ⟨b1, b2, b3, b4, b5, b6⟩ := hrem
  -- the save of the primary INode
  obtain ⟨s3, hs3, rfl⟩ := Mounted.saveBlock_inv now m2 m3 _ h3
  have hbid : (f2.inode.setInternalSize_b c size).toBlock.id = f.inode.id := by
    have : (f2.inode.setInternalSize_b c size).id = f2.inode.id := by
      unfold FileINode.setInternalSize_b
      split <;> rfl
    show (f2.inode.setInternalSize_b c size).id = _
    rw [this]
    exact congrArg INode.id b2
  obtain ⟨-, -, g3, -, g5, -⟩ := saveBlock_live_frame m2.fs s3 _ _ hs3
  rw [hbid] at g3 g5
  have hu3 : s3.usedBlocks = m2.fs.usedBlocks := g5 b6.2
  refine ⟨_, flush, Mounted.find_store _ h _ f
    (by
      rw [Mounted.find_congr m { fs := s3, openFiles := m2.openFiles, clock := m2.clock + 1 }
        h b3]
      exact hf), b1, ?_, a3, ?_⟩
  · intro k hk1 hk2 hk3
    show s3.bmap[k]? = _
    rw [g3 k hk1, b5 k hk1 hk2]
    exact a4 k hk3
  · show s3.usedBlocks + (f.blockLists.length - f2.blockLists.length) = _
    rw [hu3, b4, a2]

/-- The call `truncate(2, 1)` on `twoBlocksWritten` removes data block 5, which is cached,
dirty and without a slot: the call saves it first, so its entry of the block map changes
from 0 to slot 9 and `usedBlocks` rises from 4 to 5 although no block list is dropped. -/
theorem truncate_saves_removed_block :
    ∃ m' f', truncate demoConstants (clockFrom 40) twoBlocksWritten 2 1 = some (true, m') ∧
      twoBlocksWritten.find 2 = some twoBlockFile ∧ m'.find 2 = some f' ∧
      twoBlockFile.blockLists.map DataBlockList.entries = [[3, 5]] ∧
      f'.blockLists.map DataBlockList.entries = [[3]] ∧
      twoBlocksWritten.fs.bmap[idx 5]? = some 0 ∧ m'.fs.bmap[idx 5]? = some 9 ∧
      f'.blockLists.length = twoBlockFile.blockLists.length ∧
      twoBlocksWritten.fs.usedBlocks = 4 ∧ m'.fs.usedBlocks = 5 :=
  ⟨_, _, rfl, rfl, rfl, rfl, rfl, rfl, rfl, rfl, rfl, rfl⟩

theorem truncate_releases_no_data_block_witness :
    ∃ m', truncate demoConstants (clockFrom 40) twoBlocksWritten 2 1 = some (true, m') ∧
      ∃ f' flush, m'.find 2 = some f' ∧
        (f'.blockLists.map DataBlockList.id) <+: (twoBlockFile.blockLists.map DataBlockList.id) ∧
        (∀ k, k ≠ idx twoBlockFile.inode.id →
          (∀ x, x ∈ twoBlockFile.blockLists.map DataBlockList.id → k ≠ idx x) →
          (∀ b, twoBlockFile.cachedDataBlock = some b → b.dirty = true → k ≠ idx b.id) →
          m'.fs.bmap[k]? = twoBlocksWritten.fs.bmap[k]?) ∧
        (flush = 0 ∨ (flush = 1 ∧ ∃ b, twoBlockFile.cachedDataBlock = some b ∧ b.dirty = true ∧
          twoBlocksWritten.fs.bmap[idx b.id]? = some 0)) ∧
        m'.fs.usedBlocks + (twoBlockFile.blockLists.length - f'.blockLists.length) =
          twoBlocksWritten.fs.usedBlocks + flush :=
  ⟨_, rfl, truncate_releases_no_data_block demoConstants (clockFrom 40) twoBlocksWritten _ 2 1
    twoBlockFile rfl rfl rfl (by decide) (by decide) (by decide) (by decide)⟩

/-- C14: the fourth rejection of `write` fails when the `size_t` sum `pos + n` wraps.  For
an external open file, a position inside the file and `n = 2^64 - pos`, the sum
`pos + n` is `2^64`, far above `MAX_FILE_SIZE`, but the sum that the code compares with
`MAX_FILE_SIZE` is 0: the call passes the check, the loop copies nothing because the 32-bit
end position 0 is not above `pos`, `internalSize_b` is set to 0 and the call returns
true. -/
theorem write_sum_wraps (c : Constants) (fresh : Nat → List Nat) (now : Nat → Nat)
    (m : Mounted) (fileHandle : Nat) (f : OpenFile) (source : List Nat) (pos n : Nat)
    (hf : m.find fileHandle = some f) (hex : f.inode.inlined = false)
    (hn : 1 ≤ n) (hpos : pos ≤ f.inode.size_b)
    (hsum : pos + n = 18446744073709551616) (hmax : 0 < c.MAX_FILE_SIZE) :
    write c fresh now m fileHandle source pos n =
      some (true, m.store fileHandle { f with inode := { f.inode with size_b := 0 } }) := by
  unfold write
  rw [if_neg (by omega), hf]
  simp only
  rw [if_neg (by omega), hsum]
  simp only [Nat.mod_self, ge_iff_le, Nat.le_zero_eq, hex, Bool.false_eq_true, false_and,
    if_false]
  rw [if_neg (by omega)]
  have h0 : (18446744073709551616 : Nat) % 4294967296 = 0 := by decide
  rw [h0, writeLoop_done c fresh now source 0 n m f [] pos 0 (by omega)]
  simp only [List.map_nil, List.mapM_nil, Option.pure_def, Mounted.saveBlocks]
  have hset : f.inode.setInternalSize_b c 0 = { f.inode with size_b := 0 } := by
    unfold FileINode.setInternalSize_b
    rw [if_pos (Nat.zero_le _)]
  rw [hset]
  simp only [hex]

theorem write_sum_wraps_witness :
    fileWritten.find 2 = some (oneBlockFile 4088 (List.replicate 4088 7)) ∧
    (oneBlockFile 4088 (List.replicate 4088 7)).inode.size_b = 4088 ∧
    4088 + 18446744073709547528 ≥ demoConstants.MAX_FILE_SIZE ∧
    write demoConstants noBytes (clockFrom 30) fileWritten 2 [] 4088 18446744073709547528 =
      some (true, fileWritten.store 2
        { oneBlockFile 4088 (List.replicate 4088 7) with
          inode := { (oneBlockFile 4088 (List.replicate 4088 7)).inode with size_b := 0 } }) :=
  ⟨rfl, rfl, by decide,
    write_sum_wraps demoConstants noBytes (clockFrom 30) fileWritten 2
      (oneBlockFile 4088 (List.replicate 4088 7)) [] 4088 18446744073709547528 rfl rfl
      (by decide) (by decide) (by decide) (by decide)⟩

/-- The blocks of a list that have no slot in the block map yet. -/
theorem newBlocks_congr (s sa : FS) (blocks : List Block)
    (h : ∀ b, b ∈ blocks → sa.bmap[b.id - 1]? = s.bmap[b.id - 1]?) :
    blocks.filter (fun b => sa.bmap[b.id - 1]? = some 0) =
      blocks.filter (fun b => s.bmap[b.id - 1]? = some 0) := by
  apply List.filter_congr
  intro b hb
  rw [h b hb]

/-- Saving a list of blocks with distinct ids on a well-formed image that has two free slots
more than new blocks are saved: every block is stored with the time of its save, the other
blocks are untouched, and `usedBlocks` grows by the number of new blocks. -/
theorem saveBlocks_distinct (now : Nat → Nat) (blocks : List Block) :
    ∀ (s : FS) (t0 : Nat), WellFormed s →
      (∀ b, b ∈ blocks → 1 ≤ b.id ∧ b.id ≤ s.logSize) →
      (blocks.map Block.id).Nodup →
      s.usedBlocks + (blocks.filter (fun b => s.bmap[b.id - 1]? = some 0)).length + 2 ≤
        s.logSize →
      ∃ s', saveBlocks now s blocks t0 = some s' ∧ WellFormed s' ∧ s'.logSize = s.logSize ∧
        s'.bmap.length = s.bmap.length ∧
        s'.usedBlocks = s.usedBlocks +
          (blocks.filter (fun b => s.bmap[b.id - 1]? = some 0)).length ∧
        (∀ (i : Nat) (b : Block), blocks[i]? = some b →
          fetchBlock s' b.id = some (some { b with lastWriteTime := now (t0 + i) })) ∧
        (∀ id, (∀ b, b ∈ blocks → id ≠ b.id) → fetchBlock s' id = fetchBlock s id) ∧
        (∀ k : Nat, s.bmap[k]? ≠ some 0 → s'.bmap[k]? ≠ some 0) := by
  induction blocks with
  | nil =>
    intro s t0 hwf _ _ _
    exact ⟨s, rfl, hwf, rfl, rfl, rfl, fun i b h => by simp at h, fun _ _ => rfl,
      fun _ h => h⟩
  | cons b rest ih =>
    intro s t0 hwf hid hnd hu
    have hb := hid b (List.mem_cons_self _ _)
    have hfl : (rest.filter (fun b => s.bmap[b.id - 1]? = some 0)).length ≤
        ((b :: rest).filter (fun b => s.bmap[b.id - 1]? = some 0)).length := by
      rw [List.filter_cons]
      split
      · simp only [List.length_cons]; omega
      · exact Nat.le_refl _
    obtain ⟨sa, p, hs1, hwfa, hla, -, hba, hp, hua, hfa, hoa⟩ :=
      saveBlock_wf s b (now t0) hwf (by omega) hb
    rw [List.map_cons, List.nodup_cons] at hnd
    have hne : ∀ x, x ∈ rest → x.id ≠ b.id := by
      intro x hx heq
      exact hnd.1 (List.mem_map.mpr ⟨x, hx, heq⟩)
    have hsame : ∀ x, x ∈ rest → sa.bmap[x.id - 1]? = s.bmap[x.id - 1]? := by
      intro x hx
      have h1 := (hid x (List.mem_cons_of_mem _ hx)).1
      have h2 := hne x hx
      rw [hba, List.getElem?_set_ne (by omega)]
    have hcong := newBlocks_congr s sa rest hsame
    have hcount : sa.usedBlocks + (rest.filter (fun b => s.bmap[b.id - 1]? = some 0)).length =
        s.usedBlocks + ((b :: rest).filter (fun b => s.bmap[b.id - 1]? = some 0)).length := by
      rw [hua, List.filter_cons]
      by_cases h0 : s.bmap[b.id - 1]? = some 0
      · simp only [h0, if_true, decide_True, List.length_cons]
        omega
      · simp only [h0, if_false, decide_False]
        rfl
    obtain ⟨s', e1, e2, e3, e4, e5, e6, e7, e8⟩ := ih sa (t0 + 1) hwfa
      (fun x hx => by rw [hla]; exact hid x (List.mem_cons_of_mem _ hx)) hnd.2
      (by rw [hcong, hla]; omega)
    refine ⟨s', ?_, e2, e3.trans hla, ?_, ?_, ?_, ?_, ?_⟩
    · rw [saveBlocks_cons, hs1, Option.some_bind]
      exact e1
    · rw [e4, hba, List.length_set]
    · rw [e5, hcong]
      exact hcount
    · intro i x hx
      cases i with
      | zero =>
        simp only [List.getElem?_cons_zero, Option.some.injEq] at hx
        subst hx
        rw [e7 b.id (fun y hy => (hne y hy).symm)]
        exact hfa
      | succ j =>
        simp only [List.getElem?_cons_succ] at hx
        have := e6 j x hx
        rw [show t0 + (j + 1) = t0 + 1 + j by omega]
        exact this
    · intro id hno
      rw [e7 id (fun y hy => hno y (List.mem_cons_of_mem _ hy)),
        hoa id (hno b (List.mem_cons_self _ _))]
    · intro k hk
      apply e8
      rw [hba]
      intro hcon
      by_cases hk1 : k = b.id - 1
      · subst hk1
        by_cases hlt : b.id - 1 < s.bmap.length
        · rw [List.getElem?_set_self hlt] at hcon
          exact hp (Option.some.inj hcon)
        · rw [List.getElem?_eq_none (by simp only [List.length_set]; omega)] at hcon
          cases hcon
      · rw [List.getElem?_set_ne (by omega)] at hcon
        exact hk hcon

/-- What `loadDirEntryList` tells about the block it read. -/
theorem loadDirEntryList_inv (c : Constants) (s : FS) (id : Nat) (l : DirectoryEntryList)
    (h : loadDirEntryList c s id = some (some l)) :
    ∃ t raw, fetchBlock s id = some (some ⟨id, t, .plain (.links raw)⟩) ∧
      l = ⟨id, t, readLinks c.MAX_LINKS_PER_DIRENTRYLIST raw⟩ := by
  unfold loadDirEntryList at h
  cases hf : fetchBlock s id with
  | none => rw [hf] at h; cases h
  | some o =>
    cases o with
    | none => rw [hf] at h; cases h
    | some b =>
      rw [hf] at h
      simp only at h
      by_cases hne : b.id ≠ id
      · rw [if_pos hne] at h
        cases h
      · rw [if_neg hne] at h
        have hid : b.id = id := by omega
        obtain ⟨bid, blwt, body⟩ := b
        cases body with
        | inode a1 a2 a3 a4 a5 a6 => cases h
        | plain pl =>
          cases pl with
          | links raw =>
            simp only [Option.some.injEq] at h
            subst hid
            exact ⟨blwt, raw, rfl, h.symm⟩
          | bytes x => cases h
          | ids x => cases h

/-- Loading an entry list that was saved at time `t`. -/
theorem loadDirEntryList_saved (c : Constants) (s : FS) (l : DirectoryEntryList) (t : Nat)
    (hlen : l.entries.length ≤ c.MAX_LINKS_PER_DIRENTRYLIST)
    (hok : ∀ h, h ∈ l.entries → h.targetINodeBlockID ≠ 0 ∧ storedName h.linkName = h.linkName)
    (hf : fetchBlock s l.id = some (some { l.toBlock with lastWriteTime := t })) :
    loadDirEntryList c s l.id = some (some { l with lastWriteTime := t }) := by
  unfold loadDirEntryList
  rw [hf]
  simp only [DirectoryEntryList.toBlock, ne_eq, not_true_eq_false, if_false]
  rw [readLinks_writeLinks _ _ hlen hok]

/-- The lists that `loadDirEntryLists` returns are the lists of the requested ids, one by
one. -/
theorem loadDirEntryLists_inv (c : Constants) (s : FS) :
    ∀ (ids : List Nat) (lists : List DirectoryEntryList),
      loadDirEntryLists c s ids = some (some lists) →
      List.Forall₂ (fun id l => loadDirEntryList c s id = some (some l)) ids lists := by
  intro ids
  induction ids with
  | nil =>
    intro lists h
    unfold loadDirEntryLists at h
    cases h
    exact List.Forall₂.nil
  | cons id rest ih =>
    intro lists h
    unfold loadDirEntryLists at h
    cases h1 : loadDirEntryList c s id with
    | none => rw [h1] at h; cases h
    | some ol =>
      cases ol with
      | none => rw [h1] at h; cases h
      | some l =>
        rw [h1] at h
        simp only at h
        cases h2 : loadDirEntryLists c s rest with
        | none => rw [h2] at h; cases h
        | some ol2 =>
          cases ol2 with
          | none => rw [h2] at h; cases h
          | some ls =>
            rw [h2] at h
            cases h
            exact List.Forall₂.cons h1 (ih ls h2)

theorem loadDirEntryLists_of_forall (c : Constants) (s : FS) :
    ∀ (ids : List Nat) (lists : List DirectoryEntryList),
      List.Forall₂ (fun id l => loadDirEntryList c s id = some (some l)) ids lists →
      loadDirEntryLists c s ids = some (some lists) := by
  intro ids lists h
  induction h with
  | nil => rfl
  | cons h1 _ ih =>
    unfold loadDirEntryLists
    rw [h1]
    simp only
    rw [ih]

/-- The ids of the loaded lists are the requested ids. -/
theorem forall2_load_ids (c : Constants) (s : FS) (ids : List Nat)
    (lists : List DirectoryEntryList)
    (h : List.Forall₂ (fun id l => loadDirEntryList c s id = some (some l)) ids lists) :
    lists.map DirectoryEntryList.id = ids := by
  induction h with
  | nil => rfl
  | cons h1 _ ih =>
    obtain ⟨t, raw, -, rfl⟩ := loadDirEntryList_inv c s _ _ h1
    rw [List.map_cons, ih]

/-- What is known about every list of a loaded directory. -/
theorem forall2_load_mem (c : Constants) (s : FS) (ids : List Nat)
    (lists : List DirectoryEntryList)
    (h : List.Forall₂ (fun id l => loadDirEntryList c s id = some (some l)) ids lists) :
    ∀ l, l ∈ lists → loadDirEntryList c s l.id = some (some l) := by
  induction h with
  | nil => intro l hl; cases hl
  | cons h1 _ ih =>
    intro l hl
    rcases List.mem_cons.mp hl with rfl | hl
    · obtain ⟨t, raw, -, e⟩ := loadDirEntryList_inv c s _ _ h1
      have : (_ : DirectoryEntryList).id = _ := congrArg DirectoryEntryList.id e
      rw [this]
      exact h1
    · exact ih l hl

/-- Loading the lists of a directory again after the blocks of some of them were saved:
every list is replaced by what `g` makes of it. -/
theorem loadDirEntryLists_map (c : Constants) (s s' : FS) (g : DirectoryEntryList →
    DirectoryEntryList) :
    ∀ (ids : List Nat) (lists : List DirectoryEntryList),
      loadDirEntryLists c s ids = some (some lists) →
      (∀ l, l ∈ lists → loadDirEntryList c s l.id = some (some l) →
        loadDirEntryList c s' l.id = some (some (g l))) →
      loadDirEntryLists c s' ids = some (some (lists.map g)) := by
  intro ids lists h hg
  have hf := loadDirEntryLists_inv c s ids lists h
  apply loadDirEntryLists_of_forall
  clear h
  induction hf with
  | nil => exact List.Forall₂.nil
  | cons h1 _ ih =>
    rename_i id l ids1 lists1 _
    rw [List.map_cons]
    refine List.Forall₂.cons ?_ (ih (fun x hx => hg x (List.mem_cons_of_mem _ hx)))
    obtain ⟨t, raw, -, e⟩ := loadDirEntryList_inv c s _ _ h1
    have hid : l.id = id := congrArg DirectoryEntryList.id e
    have := hg l (List.mem_cons_self _ _) (by rw [hid]; exact h1)
    rw [hid] at this
    exact this

theorem loadDataBlockList_links (c : Constants) (s : FS) (id t : Nat) (raw : List Hardlink)
    (h : fetchBlock s id = some (some ⟨id, t, .plain (.links raw)⟩)) :
    loadDataBlockList c s id = none := by
  unfold loadDataBlockList
  rw [h]
  simp

/-- The removal of a link from an external directory that keeps the list of the link
non-empty: the list at the position returned loses the link and is the only block of the
directory that changes. -/
theorem rmHardlink_external (s : FS) (d : Directory) (target : INode) (name : List Char)
    (hname : ¬ (name = [] ∨ '/' ∈ name)) (hex : d.inode.inlined = false)
    (hfound : searchLists d.entryLists name ≠ 0)
    (hkeep : ∀ l, l ∈ d.entryLists → findLink l.entries name ≠ none → 2 ≤ l.entries.length) :
    ∃ pre l post, d.entryLists = pre ++ l :: post ∧
      (∀ x, x ∈ pre → findLink x.entries name = none) ∧ findLink l.entries name ≠ none ∧
      d.rmHardlink s target name = some (s,
        { d with entryLists := pre ++ { l with entries := removeLink l.entries name } :: post,
                 childCount := (d.childCount + 4294967295) % 4294967296 },
        decrementLinkCounter target, [.target, .list pre.length]) := by
  cases hr : rmFromLists name d.entryLists 0 with
  | none =>
    exfalso
    apply hfound
    rw [searchLists_links, findLink_flatten_none _ name (rmFromLists_none name _ _ hr)]
    rfl
  | some r =>
    obtain ⟨k, e, lists⟩ := r
    obtain ⟨pre, l, post, e1, e2, e3, e4, e5, e6⟩ := rmFromLists_split name _ _ _ _ _ hr
    have hl2 : 2 ≤ l.entries.length :=
      hkeep l (by rw [e1]; exact List.mem_append_right _ (List.mem_cons_self _ _)) e3
    have hlr := removeLink_length_found l.entries name e3
    have he : e = false := by
      rw [e5]
      exact decide_eq_false (by omega)
    subst he
    refine ⟨pre, l, post, e1, e2, e3, ?_⟩
    unfold Directory.rmHardlink
    rw [if_neg hname]
    simp only [hex, Bool.false_eq_true, if_false, hr]
    rw [e4, e6, Nat.zero_add]

theorem resolveRefs_target_list (tgt : Block) (d : Directory) (pre post : List DirectoryEntryList)
    (l : DirectoryEntryList) (h : d.entryLists = pre ++ l :: post) :
    resolveRefs tgt d [.target, .list pre.length] = some [tgt, l.toBlock] := by
  unfold resolveRefs
  have : d.entryLists[pre.length]? = some l := by
    rw [h, List.getElem?_append_right (Nat.le_refl _), Nat.sub_self]
    exact List.getElem?_cons_zero
  rw [List.mapM_cons, List.mapM_cons, List.mapM_nil]
  simp only [resolveRef, this, Option.map_some', Option.pure_def, Option.bind_eq_bind,
    Option.some_bind]

theorem readLinks_ok_remove (c : Constants) (raw : List Hardlink) (name : List Char) :
    (removeLink (readLinks c.MAX_LINKS_PER_DIRENTRYLIST raw) name).length ≤
      c.MAX_LINKS_PER_DIRENTRYLIST ∧
    ∀ h, h ∈ removeLink (readLinks c.MAX_LINKS_PER_DIRENTRYLIST raw) name →
      h.targetINodeBlockID ≠ 0 ∧ storedName h.linkName = h.linkName :=
  ⟨Nat.le_trans (removeLink_length_le _ _) (readLinks_length_le _ _),
    fun h hh => readLinks_mem _ _ h (removeLink_mem _ _ h hh)⟩

/-- The course of `FS::rm` on a regular file below a parent stored in entry lists, when the
removal keeps the entry list of the name non-empty, up to the saves of the file INode and of
that list: `s2` is the image after them. -/
theorem rm_eq_external (c : Constants) (pu : PathUtils) (uninit : Nat) (now : Nat → Nat)
    (s : FS) (path name : List Char) (parent : Directory) (file : File) (fid : Nat)
    (hwf : WellFormed s) (hu : s.usedBlocks + 2 ≤ s.logSize)
    (hhead : (pu.normalizePath path).head? = some '/')
    (hsp : searchParent c pu uninit s (pu.normalizePath path) = some (some parent))
    (hex : parent.inode.inlined = false)
    (hnd : parent.inode.dirEntryListIDs.Nodup)
    (hkeep : ∀ l, l ∈ parent.entryLists → findLink l.entries name ≠ none →
      2 ≤ l.entries.length)
    (hnm : pu.lastName (pu.normalizePath path) = name)
    (hfid : parent.searchHardlink name = fid)
    (hty : peekINodeType s fid = some INODE_TYPE_REGULARFILE)
    (hfile : loadFile c s fid = some (some file)) :
    ∃ s2, rm c pu uninit now s path =
        (if (file.inode.linkCounter + 65535) % 65536 = 0 then
          (freeBlocks s2 file.blocks).map (fun s3 => (true, s3))
         else some (true, s2)) ∧
      WellFormed s2 ∧ s2.logSize = s.logSize ∧ s2.usedBlocks = s.usedBlocks ∧
      s2.bmap.length = s.bmap.length ∧
      fetchBlock s2 fid = some (some
        { ({ file.inode with linkCounter := (file.inode.linkCounter + 65535) % 65536 } :
            FileINode).toBlock with lastWriteTime := now 0 }) ∧
      (∀ s3 u, fetchBlock s3 parent.inode.id = fetchBlock s2 parent.inode.id →
        (∀ id, id ∈ parent.inode.dirEntryListIDs → fetchBlock s3 id = fetchBlock s2 id) →
        ∃ d', loadDirectory c u s3 parent.inode.id = some (some d') ∧
          d'.inode = parent.inode ∧ d'.links = removeLink parent.links name) ∧
      (∀ id, id ≠ fid → id ∉ parent.inode.dirEntryListIDs → fetchBlock s2 id = fetchBlock s id) ∧
      (∀ k : Nat, s.bmap[k]? ≠ some 0 → s2.bmap[k]? ≠ some 0) ∧
      fid ≠ parent.inode.id ∧ file.inode.id = fid ∧
      (∀ id, loadDataBlockList c s2 id = loadDataBlockList c s id) := by
  have hfid0 : ¬ fid = 0 := by
    intro h
    rw [h, peekINodeType_zero] at hty
    cases hty
  have hname : ¬ (name = [] ∨ '/' ∈ name) := by
    intro h
    apply hfid0
    rw [← hfid]
    unfold Directory.searchHardlink
    rw [if_pos h]
  have hload := searchParent_loaded c pu uninit s _ parent hsp
  obtain ⟨hP1, hP2, hPlive⟩ := loadDirectory_live c uninit s _ parent hload
  obtain ⟨P, hP⟩ : ∃ P, parent.inode.id = P := ⟨_, rfl⟩
  rw [hP] at hload hP1 hP2 hPlive
  obtain ⟨lwt, ct, sz, lc, h1 | h1⟩ := loadDirectory_inv c uninit s P parent hload
  · obtain ⟨l, -, rfl⟩ := h1
    cases hex
  obtain ⟨raw, lists, hbP, hll, rfl⟩ := h1
  generalize hids : readIds c.MAX_DIRENTRYLISTS_PER_DIR raw = ids at *
  have hF2 := loadDirEntryLists_inv c s ids lists hll
  have hmap := forall2_load_ids c s ids lists hF2
  have hmem := forall2_load_mem c s ids lists hF2
  -- the file
  obtain ⟨flwt, fct, fsz, flc, fil, fdata, fentries, fpl, flists, fn, hfb, hfeq⟩ :
      ∃ flwt fct fsz flc fil fdata fentries fpl flists fn,
        fetchBlock s fid = some (some ⟨fid, flwt,
          .inode fct fsz INODE_TYPE_REGULARFILE fil flc fpl⟩) ∧
        file = ⟨⟨⟨fid, flwt, fct, fsz, INODE_TYPE_REGULARFILE, fil, flc⟩, fdata, fentries⟩,
          flists, fn⟩ := by
    obtain ⟨flwt, fct, fsz, flc, h1 | h1⟩ := loadFile_inv c s fid file hfile
    · obtain ⟨l, h1, -, -, h2⟩ := h1
      exact ⟨flwt, fct, fsz, flc, _, _, _, _, _, _, h1, h2⟩
    · obtain ⟨l, lists, h1, -, h2⟩ := h1
      exact ⟨flwt, fct, fsz, flc, _, _, _, _, _, _, h1, h2⟩
  obtain ⟨hF1, hF2', hFlive, -⟩ := fetchBlock_some s fid _ hfb
  have hne : fid ≠ P := by
    rintro rfl
    rw [hbP] at hfb
    cases hfb
  subst hfeq
  -- the removal in memory
  have hfound : searchLists lists name ≠ 0 := by
    have : Directory.searchHardlink
        ⟨⟨⟨P, lwt, ct, sz, INODE_TYPE_DIR, false, lc⟩, [], ids⟩,
          lists.foldl (fun n l => (n + l.entries.length) % 4294967296) uninit, lists⟩ name =
        searchLists lists name := by
      unfold Directory.searchHardlink
      rw [if_neg hname]
      rfl
    rw [← this, hfid]
    exact hfid0
  obtain ⟨pre, l, post, e1, e2, e3, hrm⟩ := rmHardlink_external s
    (⟨⟨⟨P, lwt, ct, sz, INODE_TYPE_DIR, false, lc⟩, [], ids⟩,
      lists.foldl (fun n l => (n + l.entries.length) % 4294967296) uninit, lists⟩ : Directory)
    (⟨fid, flwt, fct, fsz, INODE_TYPE_REGULARFILE, fil, flc⟩ : INode) name hname rfl hfound
    hkeep
  have e1' : lists = pre ++ l :: post := e1
  have hlmem : l ∈ lists := by
    rw [e1']
    exact List.mem_append_right _ (List.mem_cons_self _ _)
  obtain ⟨tl, rawl, hfl, hleq⟩ := loadDirEntryList_inv c s l.id l (hmem l hlmem)
  obtain ⟨hL1, hL2, hLlive, -⟩ := fetchBlock_some s l.id _ hfl
  have hnel : fid ≠ l.id := by
    intro heq
    rw [heq, hfl] at hfb
    cases hfb
  have hnePl : P ≠ l.id := by
    intro heq
    rw [heq, hfl] at hbP
    cases hbP
  have hlin : l.id ∈ ids := by
    rw [← hmap]
    exact List.mem_map.mpr ⟨l, hlmem, rfl⟩
  obtain ⟨s2, hsv, hwf2, hl2, hu2, hbl2, hf1, hf2, hfo, hlv⟩ := saveBlocks_two_live now s
    ({ (⟨⟨fid, flwt, fct, fsz, INODE_TYPE_REGULARFILE, fil, flc⟩, fdata, fentries⟩ : FileINode)
        with linkCounter := (flc + 65535) % 65536 } : FileINode).toBlock
    ({ l with entries := removeLink l.entries name } : DirectoryEntryList).toBlock
    hwf hu ⟨hF1, hF2'⟩ ⟨hL1, hL2⟩ hnel hFlive hLlive
  have hres := resolveRefs_target_list
    ({ (⟨⟨fid, flwt, fct, fsz, INODE_TYPE_REGULARFILE, fil, flc⟩, fdata, fentries⟩ : FileINode)
        with linkCounter := (flc + 65535) % 65536 } : FileINode).toBlock
    ({ (⟨⟨⟨P, lwt, ct, sz, INODE_TYPE_DIR, false, lc⟩, [], ids⟩,
      lists.foldl (fun n l => (n + l.entries.length) % 4294967296) uninit, lists⟩ : Directory)
      with entryLists := pre ++ { l with entries := removeLink l.entries name } :: post,
           childCount := (lists.foldl (fun n l => (n + l.entries.length) % 4294967296) uninit
             + 4294967295) % 4294967296 })
    pre post { l with entries := removeLink l.entries name } rfl
  refine ⟨s2, ?_, hwf2, hl2, hu2, hbl2, hf1, ?_, ?_, hlv, hne, rfl, ?_⟩
  · obtain ⟨-, hL, -⟩ := hwf
    have hguard : ¬ ((s.usedBlocks + 2) % 4294967296 > s.logSize) := by omega
    unfold rm
    simp only [hhead, ne_eq, not_true_eq_false, if_false, hguard, hsp, hnm, hfid, hfid0, hty,
      hfile, hrm]
    simp only [decrementLinkCounter]
    rw [hres]
    simp only
    rw [show saveBlocks now s _ 0 = some s2 from hsv]
    simp only
    by_cases h0 : (flc + 65535) % 65536 = 0
    · rw [if_pos h0, if_pos h0]
      simp only [File.blocks]
      cases freeBlocks s2 (fid :: if fil = true then []
        else (flists.map (fun l => l.id :: l.entries)).flatten) <;> rfl
    · rw [if_neg h0, if_neg h0]
  · intro s3 u h3 h3l
    have hP3 : fetchBlock s3 P = some (some ⟨P, lwt, .inode ct sz INODE_TYPE_DIR false lc
        (.ids raw)⟩) := by
      rw [h3, hfo P hne.symm hnePl]
      exact hbP
    have hlists3 := loadDirEntryLists_map c s s3
      (fun x => if x.id = l.id then
        { x with entries := removeLink x.entries name, lastWriteTime := now 1 } else x)
      ids lists hll (by
        intro x hx hxl
        have hxin : x.id ∈ ids := by
          rw [← hmap]
          exact List.mem_map.mpr ⟨x, hx, rfl⟩
        by_cases hxe : x.id = l.id
        · have hxeq : x = l := by
            have := hmem l hlmem
            rw [← hxe, hxl] at this
            exact Option.some.inj (Option.some.inj this)
          subst hxeq
          simp only [eq_self_iff_true, if_true]
          obtain ⟨q1, q2⟩ := readLinks_ok_remove c rawl name
          have hent : x.entries = readLinks c.MAX_LINKS_PER_DIRENTRYLIST rawl := by
            rw [hleq]
          have := loadDirEntryList_saved c s3
            ({ x with entries := removeLink x.entries name } : DirectoryEntryList) (now 1)
            (by rw [hent]; exact q1) (by rw [hent]; exact q2)
            (by
              show fetchBlock s3 x.id = _
              rw [h3l x.id hxin]
              exact hf2)
          exact this
        · simp only [hxe, if_false]
          obtain ⟨tx, rawx, hfx, -⟩ := loadDirEntryList_inv c s x.id x hxl
          have hxf : x.id ≠ fid := by
            intro heq
            rw [heq, hfb] at hfx
            cases hfx
          rw [loadDirEntryList_congr c s s3 x.id (by
            rw [h3l x.id hxin, hfo x.id hxf hxe])]
          exact hxl)
    rw [← hids] at hlists3
    have hld := loadDirectory_external c u s3 P lwt ct sz lc raw _ hP3 hlists3
    refine ⟨_, hld, by rw [hids], ?_⟩
    have hnd' : (pre.map DirectoryEntryList.id ++ l.id :: post.map DirectoryEntryList.id).Nodup := by
      have : lists.map DirectoryEntryList.id =
          pre.map DirectoryEntryList.id ++ l.id :: post.map DirectoryEntryList.id := by
        rw [e1', List.map_append, List.map_cons]
      rw [← this, hmap]
      exact hnd
    have hpre : ∀ x, x ∈ pre → x.id ≠ l.id := by
      intro x hx heq
      have h1 := (List.nodup_append.mp hnd').2.2
      exact h1 (List.mem_map.mpr ⟨x, hx, rfl⟩) (by rw [heq]; exact List.mem_cons_self _ _)
    have hpost : ∀ x, x ∈ post → x.id ≠ l.id := by
      intro x hx heq
      have h1 := (List.nodup_cons.mp (List.nodup_append.mp hnd').2.1).1
      exact h1 (by rw [← heq]; exact List.mem_map.mpr ⟨x, hx, rfl⟩)
    have hmapg : (lists.map (fun x => if x.id = l.id then
        ({ x with entries := removeLink x.entries name, lastWriteTime := now 1 } :
          DirectoryEntryList) else x)).map DirectoryEntryList.entries =
        (pre ++ ({ l with entries := removeLink l.entries name } : DirectoryEntryList) ::
          post).map DirectoryEntryList.entries := by
      rw [e1']
      simp only [List.map_append, List.map_cons, List.map_map, if_true]
      congr 1
      · apply List.map_congr_left
        intro x hx
        simp only [Function.comp, if_neg (hpre x hx)]
      · congr 1
        apply List.map_congr_left
        intro x hx
        simp only [Function.comp, if_neg (hpost x hx)]
    show (Directory.links ⟨⟨⟨P, lwt, ct, sz, INODE_TYPE_DIR, false, lc⟩, [],
      readIds c.MAX_DIRENTRYLISTS_PER_DIR raw⟩, _, _⟩) = _
    unfold Directory.links
    simp only [Bool.false_eq_true, if_false]
    rw [hmapg, flatten_entries_remove pre post l name e2 e3, e1']
  · intro id n1 n2
    have : id ≠ l.id := fun h => n2 (h ▸ hlin)
    exact hfo id n1 this
  · intro id
    by_cases h1 : id = fid
    · subst h1
      rw [loadDataBlockList_inode c s2 id _ _ _ _ _ _ _ hf1,
        loadDataBlockList_inode c s id _ _ _ _ _ _ _ hfb]
    · by_cases h2 : id = l.id
      · subst h2
        rw [loadDataBlockList_links c s2 l.id _ _ hf2, loadDataBlockList_links c s l.id _ _ hfl]
      · unfold loadDataBlockList
        rw [hfo id h1 h2]

/-- A directory object whose links are those of `d` without the first link of `name` resolves
every other name as `d` does. -/
theorem searchHardlink_links_remove (d d' : Directory) (name : List Char)
    (h : d'.links = removeLink d.links name) (other : List Char) (ho : other ≠ name) :
    d'.searchHardlink other = d.searchHardlink other := by
  by_cases hv : other = [] ∨ '/' ∈ other
  · unfold Directory.searchHardlink
    rw [if_pos hv, if_pos hv]
  · rw [searchHardlink_links d' other hv, searchHardlink_links d other hv, h,
      findLink_removeLink_ne _ _ _ ho]

theorem withoutLink_links (d : Directory) (name : List Char) (t : Nat)
    (hin : d.inode.inlined = true) :
    (d.withoutLink name t).links = removeLink d.links name := by
  unfold Directory.links Directory.withoutLink
  simp only [hin, if_true]

/-- C20 (amended): `rm` of a path that names a regular file (link counter in `[1, 65535]`)
on a well-formed image with at least two free blocks, where the parent directory is inlined
or is stored in entry lists with distinct ids and the entry list that holds the name holds a
second entry.  The call returns true; the parent is persisted without the name (an inlined
parent exactly as `withoutLink` gives it) and resolves every other name as before, and the
link counter of the file is decremented.  If the counter stays above 0, the file is loaded
with the decremented counter, `usedBlocks` is as before, no live block is freed and every
block other than the file INode and the blocks of the parent is unchanged.  If the counter
reaches 0 and the ids of `File::blocks` lie in `[2, logSize]`, differ from the blocks of the
parent and are not more than `usedBlocks`, every one of them has block map entry 0
afterwards and `usedBlocks` has dropped by their number. -/
theorem rm_spec (c : Constants) (pu : PathUtils) (uninit : Nat) (now : Nat → Nat) (s : FS)
    (path name : List Char) (parent : Directory) (file : File) (fid : Nat)
    (hwf : WellFormed s) (hu : s.usedBlocks + 2 ≤ s.logSize)
    (hhead : (pu.normalizePath path).head? = some '/')
    (hsp : searchParent c pu uninit s (pu.normalizePath path) = some (some parent))
    (hpar : parent.inode.inlined = true ∨
      (parent.inode.dirEntryListIDs.Nodup ∧
        ∀ l, l ∈ parent.entryLists → findLink l.entries name ≠ none → 2 ≤ l.entries.length))
    (hnm : pu.lastName (pu.normalizePath path) = name)
    (hfid : parent.searchHardlink name = fid)
    (hty : peekINodeType s fid = some INODE_TYPE_REGULARFILE)
    (hfile : loadFile c s fid = some (some file))
    (hlc : 1 ≤ file.inode.linkCounter ∧ file.inode.linkCounter < 65536) :
    (2 ≤ file.inode.linkCounter →
      ∃ s1, rm c pu uninit now s path = some (true, s1) ∧
        (∀ u, ∃ d', loadDirectory c u s1 parent.inode.id = some (some d') ∧
          d'.links = removeLink parent.links name ∧
          (∀ other, other ≠ name → d'.searchHardlink other = parent.searchHardlink other) ∧
          (parent.inode.inlined = true → d' = parent.withoutLink name (now 1))) ∧
        loadFile c s1 fid = some (some { file with inode := { file.inode with
          linkCounter := file.inode.linkCounter - 1, lastWriteTime := now 0 } }) ∧
        s1.usedBlocks = s.usedBlocks ∧
        (∀ k : Nat, s.bmap[k]? ≠ some 0 → s1.bmap[k]? ≠ some 0) ∧
        ∀ id, id ≠ fid → id ≠ parent.inode.id → id ∉ parent.inode.dirEntryListIDs →
          fetchBlock s1 id = fetchBlock s id) ∧
    (file.inode.linkCounter = 1 →
      (∀ id, id ∈ file.blocks → 2 ≤ id ∧ id ≤ s.logSize ∧ id ≠ parent.inode.id ∧
        id ∉ parent.inode.dirEntryListIDs) →
      file.blocks.length ≤ s.usedBlocks →
      ∃ s1, rm c pu uninit now s path = some (true, s1) ∧
        (∀ u, ∃ d', loadDirectory c u s1 parent.inode.id = some (some d') ∧
          d'.links = removeLink parent.links name ∧
          (∀ other, other ≠ name → d'.searchHardlink other = parent.searchHardlink other) ∧
          (parent.inode.inlined = true → d' = parent.withoutLink name (now 1))) ∧
        (∀ id, id ∈ file.blocks → s1.bmap[id - 1]? = some 0) ∧
        s1.usedBlocks + file.blocks.length = s.usedBlocks) := by
  -- the common course of the two kinds of parent
  have hcourse : ∃ s2, rm c pu uninit now s path =
        (if (file.inode.linkCounter + 65535) % 65536 = 0 then
          (freeBlocks s2 file.blocks).map (fun s3 => (true, s3))
         else some (true, s2)) ∧
      WellFormed s2 ∧ s2.logSize = s.logSize ∧ s2.usedBlocks = s.usedBlocks ∧
      s2.bmap.length = s.bmap.length ∧
      fetchBlock s2 fid = some (some
        { ({ file.inode with linkCounter := (file.inode.linkCounter + 65535) % 65536 } :
            FileINode).toBlock with lastWriteTime := now 0 }) ∧
      (∀ s3 u, fetchBlock s3 parent.inode.id = fetchBlock s2 parent.inode.id →
        (∀ id, id ∈ parent.inode.dirEntryListIDs → fetchBlock s3 id = fetchBlock s2 id) →
        ∃ d', loadDirectory c u s3 parent.inode.id = some (some d') ∧
          d'.links = removeLink parent.links name ∧
          (parent.inode.inlined = true → d' = parent.withoutLink name (now 1))) ∧
      (∀ id, id ≠ fid → id ≠ parent.inode.id → id ∉ parent.inode.dirEntryListIDs →
        fetchBlock s2 id = fetchBlock s id) ∧
      (∀ k : Nat, s.bmap[k]? ≠ some 0 → s2.bmap[k]? ≠ some 0) ∧
      (∀ id, loadDataBlockList c s2 id = loadDataBlockList c s id) := by
    cases hin : parent.inode.inlined with
    | true =>
      obtain ⟨s2, hrm, hwf2, hl2, hu2, hbl2, hf1, hpar1, hfo, hlv, -, -, hdl⟩ :=
        rm_eq c pu uninit now s path name parent file fid hwf hu hhead hsp hin hnm hfid hty
          hfile
      refine ⟨s2, hrm, hwf2, hl2, hu2, hbl2, hf1, ?_, fun id h1 h2 _ => hfo id h1 h2, hlv,
        hdl⟩
      intro s3 u h3 _
      exact ⟨_, hpar1 s3 u h3, withoutLink_links parent name (now 1) hin, fun _ => rfl⟩
    | false =>
      have hp : parent.inode.dirEntryListIDs.Nodup ∧
          ∀ l, l ∈ parent.entryLists → findLink l.entries name ≠ none →
            2 ≤ l.entries.length := by
        rcases hpar with h | h
        · rw [hin] at h
          cases h
        · exact h
      obtain ⟨s2, hrm, hwf2, hl2, hu2, hbl2, hf1, hpar1, hfo, hlv, -, -, hdl⟩ :=
        rm_eq_external c pu uninit now s path name parent file fid hwf hu hhead hsp hin hp.1
          hp.2 hnm hfid hty hfile
      refine ⟨s2, hrm, hwf2, hl2, hu2, hbl2, hf1, ?_, fun id h1 _ h3 => hfo id h1 h3, hlv,
        hdl⟩
      intro s3 u h3 h3l
      obtain ⟨d', q1, -, q3⟩ := hpar1 s3 u h3 h3l
      exact ⟨d', q1, q3, fun h => by cases h⟩
  obtain ⟨s2, hrm, hwf2, hl2, hu2, hbl2, hf1, hpar1, hfo, hlv, hdl⟩ := hcourse
  constructor
  · intro h2
    have hdec : (file.inode.linkCounter + 65535) % 65536 = file.inode.linkCounter - 1 := by
      omega
    refine ⟨s2, ?_, ?_, ?_, hu2, hlv, hfo⟩
    · rw [hrm, if_neg (by omega)]
    · intro u
      obtain ⟨d', q1, q2, q3⟩ := hpar1 s2 u rfl (fun _ _ => rfl)
      exact ⟨d', q1, q2, searchHardlink_links_remove parent d' name q2, q3⟩
    · rw [← hdec]
      exact loadFile_resave c s s2 fid _ (now 0) file hfile hf1 hdl
  · intro h1 hblocks hlen
    obtain ⟨hc, hL, -⟩ := hwf
    obtain ⟨-, -, -, hml, -, -⟩ := hc
    obtain ⟨s3, hfr, hlog3, hls3, -, hub3, hz3, hfr3⟩ := freeBlocks_spec file.blocks s2
      (fun id hid => by
        obtain ⟨a, b, -⟩ := hblocks id hid
        exact ⟨a, by omega⟩)
      (by omega) (by omega)
    have hkeep3 : ∀ id, 1 ≤ id → id ∉ file.blocks → fetchBlock s3 id = fetchBlock s2 id := by
      intro id hid hno
      exact fetchBlock_entry_congr s2 s3 _ hlog3 hls3 (hfr3 (id - 1) (by
        rw [show id - 1 + 1 = id by omega]
        exact hno))
    have hP1 : 1 ≤ parent.inode.id :=
      (loadDirectory_live c uninit s _ _ (searchParent_loaded c pu uninit s _ parent hsp)).1
    refine ⟨s3, ?_, ?_, hz3, by omega⟩
    · rw [hrm, if_pos (by omega), hfr]
      rfl
    · intro u
      obtain ⟨d', q1, q2, q3⟩ := hpar1 s3 u
        (hkeep3 _ hP1 (fun hmem => (hblocks _ hmem).2.2.1 rfl))
        (fun id hid => by
          by_cases h0 : id = 0
          · subst h0
            unfold fetchBlock lookupBlockAddress
            simp
          · exact hkeep3 id (by omega) (fun hmem => (hblocks _ hmem).2.2.2 hid))
      exact ⟨d', q1, q2, searchHardlink_links_remove parent d' name q2, q3⟩

theorem wf_twoListRootFG : WellFormed twoListRootFG := by decide

theorem rm_spec_witness :
    (∃ s1, rm demoConstants specPathUtils 0 (clockFrom 30) sixSlotsFile ['/', 'f'] =
        some (true, s1) ∧ s1.bmap[2 - 1]? = some 0 ∧
      s1.usedBlocks + 1 = sixSlotsFile.usedBlocks) ∧
    (∃ s1, rm demoConstants specPathUtils 0 (clockFrom 30) twoNames ['/', 'f'] =
        some (true, s1) ∧
      loadFile demoConstants s1 2 = some (some ⟨⟨⟨2, 30, 0, 0, 2, true, 1⟩, [], []⟩, [], 0⟩) ∧
      s1.usedBlocks = twoNames.usedBlocks) ∧
    (∃ s1, rm demoConstants specPathUtils 0 (clockFrom 30) twoListRootFG ['/', 'f'] =
        some (true, s1) ∧
      (∃ d', loadDirectory demoConstants 0 s1 1 = some (some d') ∧
        d'.links = [⟨['.'], 1⟩, ⟨['.', '.'], 1⟩, ⟨['g'], 5⟩] ∧
        d'.searchHardlink ['g'] = 5) ∧
      s1.bmap[4 - 1]? = some 0 ∧ s1.usedBlocks + 1 = twoListRootFG.usedBlocks) := by
  obtain ⟨s1, h1, -, h3, h4⟩ := (rm_spec demoConstants specPathUtils 0 (clockFrom 30)
    sixSlotsFile ['/', 'f'] ['f']
    ⟨⟨⟨1, 12, 0, 0, 1, true, 2⟩, [⟨['.'], 1⟩, ⟨['.', '.'], 1⟩, ⟨['f'], 2⟩], []⟩, 3, []⟩
    ⟨⟨⟨2, 11, 10, 0, 2, true, 1⟩, [], []⟩, [], 0⟩ 2
    wf_sixSlotsFile (by decide) (by decide) (by decide) (Or.inl rfl) (by decide) (by decide)
    (by decide) (by decide) (by decide)).2 rfl (by decide) (by decide)
  obtain ⟨t1, g1, -, g4, g5, -⟩ := (rm_spec demoConstants specPathUtils 0 (clockFrom 30)
    twoNames ['/', 'f'] ['f']
    ⟨⟨⟨1, 0, 0, 0, 1, true, 2⟩,
      [⟨['.'], 1⟩, ⟨['.', '.'], 1⟩, ⟨['f'], 2⟩, ⟨['g'], 2⟩], []⟩, 4, []⟩
    ⟨⟨⟨2, 0, 0, 0, 2, true, 2⟩, [], []⟩, [], 0⟩ 2
    wf_twoNames (by decide) (by decide) (by decide) (Or.inl rfl) (by decide) (by decide)
    (by decide) (by decide) (by decide)).1 (by decide)
  obtain ⟨r1, k1, k2, k3, k4⟩ := (rm_spec demoConstants specPathUtils 0 (clockFrom 30)
    twoListRootFG ['/', 'f'] ['f']
    ⟨⟨⟨1, 0, 0, 0, 1, false, 2⟩, [], [2, 3]⟩, 4,
      [⟨2, 0, [⟨['.'], 1⟩, ⟨['.', '.'], 1⟩]⟩, ⟨3, 0, [⟨['f'], 4⟩, ⟨['g'], 5⟩]⟩]⟩
    ⟨⟨⟨4, 0, 0, 0, 2, true, 1⟩, [], []⟩, [], 0⟩ 4
    wf_twoListRootFG (by decide) (by decide) (by decide) (Or.inr ⟨by decide, by decide⟩)
    (by decide) (by decide) (by decide) (by decide) (by decide)).2 rfl (by decide) (by decide)
  obtain ⟨d', m1, m2, m3, -⟩ := k2 0
  exact ⟨⟨s1, h1, h3 2 (by decide), h4⟩, ⟨t1, g1, g4, g5⟩,
    ⟨r1, k1, ⟨d', m1, m2, (m3 ['g'] (by decide)).trans (by decide)⟩, k3 4 (by decide), k4⟩⟩

/-- Reading a table of ids that was read before gives the same ids. -/
theorem readIds_idem (n : Nat) (l : List Nat) : readIds n (readIds n l) = readIds n l := by
  unfold readIds
  have hlen : ((l.take n).filter (fun i => i ≠ 0)).length ≤ n :=
    Nat.le_trans (List.length_filter_le _ _) (by rw [List.length_take]; exact Nat.min_le_left _ _)
  rw [List.take_of_length_le hlen, List.filter_filter]
  congr 1
  funext i
  simp

/-- The conversion branch of `Directory::addHardlink` with the two new entry lists named: the
ids are two different free ids of the image, and the pointers returned are the target, the
primary INode and the first list (conversion), then the primary INode and the second list. -/
theorem addHardlink_convert_fresh (c : Constants) (s : FS) (d : Directory) (target : INode)
    (name : List Char)
    (hM : 0 < c.MAX_LINKS_PER_DIRENTRYLIST) (hL : c.MAX_DIRENTRYLISTS_PER_DIR ≠ 1)
    (h1 : d.searchHardlink name = 0)
    (h2 : d.childCount ≠ c.MAX_HARDLINKS_PER_DIR)
    (h3 : target.linkCounter ≠ MAX_NUMBER_OF_LINKS_TO_INODE) (h4 : d.inode.inlined = true)
    (h5 : d.inode.entries.length = c.MAX_LINKS_PER_DIRENTRYLIST)
    (h6 : d.entryLists = [] ∧ d.inode.dirEntryListIDs = [])
    (hwf : WellFormed s) (hfree : s.usedBlocks + 2 ≤ s.logSize) :
    ∃ id1 id2 nb, d.addHardlink c s target name = some ({ s with nextBlockID := nb },
      { d with
        inode := { d.inode with inlined := false, entries := [],
                                dirEntryListIDs := [id1, id2] }
        entryLists := [⟨id1, 0, d.inode.entries⟩, ⟨id2, 0, [⟨name, target.id⟩]⟩]
        childCount := (d.childCount + 1) % 4294967296 },
      { target with linkCounter := target.linkCounter + 1 },
      [.target, .primary, .list 0, .primary, .list 1]) ∧
      id1 ≠ id2 ∧ 1 ≤ id1 ∧ id1 ≤ s.logSize ∧ 1 ≤ id2 ∧ id2 ≤ s.logSize ∧
      s.bmap[id1 - 1]? = some 0 ∧ s.bmap[id2 - 1]? = some 0 ∧
      WellFormed { s with nextBlockID := nb } := by
  obtain ⟨k1, k2, nb1, nb2, hg1, hg2, hne, a1, a2, b1, b2, f1, f2, hw⟩ :=
    getNextBlockID_two s hwf hfree
  have hsm : s.logSize < 2147483648 := hwf.2.1
  refine ⟨k1, k2, nb2, ?_, hne, a1, a2, b1, b2, f1, f2, hw⟩
  have hal1 : allocDirEntryList s = some ({ s with nextBlockID := nb1 }, some ⟨k1, 0, []⟩) := by
    unfold allocDirEntryList
    rw [if_neg (by rw [Nat.mod_eq_of_lt (by omega)]; omega), hg1]
  have hal2 : allocDirEntryList { s with nextBlockID := nb1 } =
      some ({ s with nextBlockID := nb2 }, some ⟨k2, 0, []⟩) := by
    unfold allocDirEntryList
    rw [if_neg (by
      show ¬ ((s.usedBlocks + 1) % 4294967296 > s.logSize)
      rw [Nat.mod_eq_of_lt (by omega)]; omega), hg2]
  obtain ⟨inode, cc, lists⟩ := d
  obtain ⟨h6a, h6b⟩ := h6
  simp only at h6a h6b h4 h5 h2
  subst h6a
  unfold Directory.addHardlink
  rw [if_neg (by simpa using h1), if_neg h2, if_neg h3]
  simp only [h4, if_true, h5, Nat.lt_irrefl, if_false, hal1]
  unfold convertToNonInline
  simp only [h5, le_refl, if_true, h6b, List.nil_append, List.length_nil]
  unfold addHardlinkLists
  simp only [addToLists, h5, ge_iff_le, le_refl, if_true, hal2, List.length_nil]
  rw [if_neg (by omega)]
  simp only [addDirEntryList, Bool.false_eq_true, if_false, List.length_singleton,
    List.nil_append, List.singleton_append, List.cons_append]
  rw [if_neg (fun h => hL h.symm)]

/-- The branch of `FS::rename` for different parents and a moved directory that is stored
inline, from the results of the two calls on the parents up to the saves: the pointers of
the two calls are joined with those of the two calls on the moved directory (".." removed
with the old parent as target, ".." added with the new parent as target). -/
theorem renameOtherParent_dir (c : Constants) (now : Nat → Nat) (s s2 : FS)
    (a b d a1 b1 : Directory) (x : List Char) (ch1 ch2 : List Ref)
    (hbcc : b.childCount ≠ c.MAX_HARDLINKS_PER_DIR)
    (hblc : b.inode.linkCounter ≠ MAX_NUMBER_OF_LINKS_TO_INODE)
    (hrm : a.rmHardlink s (MoveTarget.dir d).inode x =
      some (s, a1, decrementLinkCounter d.inode.toINode, ch1))
    (hadd : b.addHardlink c s (decrementLinkCounter d.inode.toINode) x =
      some (s2, b1, { decrementLinkCounter d.inode.toINode with
        linkCounter := (decrementLinkCounter d.inode.toINode).linkCounter + 1 }, ch2))
    (hdin : d.inode.inlined = true)
    (hb1lc : b1.inode.linkCounter ≠ MAX_NUMBER_OF_LINKS_TO_INODE)
    (hdd : findLink (removeLink d.inode.entries ['.', '.']) ['.', '.'] = none)
    (hdroom : (removeLink d.inode.entries ['.', '.']).length < c.MAX_LINKS_PER_DIRENTRYLIST)
    (hdcc : (d.childCount + 4294967295) % 4294967296 ≠ c.MAX_HARDLINKS_PER_DIR) :
    renameOtherParent c now s a b (.dir d) x x =
      ((addUnique (addUnique (addUnique (ch1.map oldParentRef) (ch2.map newParentRef))
          [.oldParentINode, .targetINode]) [.newParentINode, .targetINode]).mapM
          (resolveRenameRef
            { a1 with inode := { a1.inode with
                linkCounter := (a1.inode.linkCounter + 65535) % 65536 } }
            { b1 with inode := { b1.inode with linkCounter := b1.inode.linkCounter + 1 } }
            (.dir { d with
              inode := { d.inode with
                linkCounter := (d.inode.linkCounter + 65535) % 65536 + 1
                entries := removeLink d.inode.entries ['.', '.'] ++
                  [⟨['.', '.'], b1.inode.id⟩] }
              childCount :=
                ((d.childCount + 4294967295) % 4294967296 + 1) % 4294967296 }))).bind
        (fun blocks => (saveBlocks now s2 blocks 0).map (fun s' => (true, s'))) := by
  unfold renameOtherParent
  rw [if_neg hbcc, if_neg hblc, hrm]
  dsimp only
  rw [hadd]
  dsimp only [MoveTarget.withLinkCounter]
  rw [rmHardlink_inline s2 _ _ ['.', '.'] (by decide) _]
  swap
  · exact hdin
  dsimp only
  rw [addHardlink_inline c s2 _ _ ['.', '.'] _ _ _ _ _]
  rotate_left
  · exact searchHardlink_inlined_none _ _ hdin hdd
  · exact hdcc
  · exact hb1lc
  · exact hdin
  · exact hdroom
  dsimp only [decrementLinkCounter, List.map, movedDirRef]
  generalize (addUnique (addUnique (addUnique (ch1.map oldParentRef) (ch2.map newParentRef))
          [RenameRef.oldParentINode, RenameRef.targetINode])
          [RenameRef.newParentINode, RenameRef.targetINode]) = refs
  cases hm : refs.mapM (resolveRenameRef
            { a1 with inode := { a1.inode with
                linkCounter := (a1.inode.linkCounter + 65535) % 65536 } }
            { b1 with inode := { b1.inode with linkCounter := b1.inode.linkCounter + 1 } }
            (.dir { d with
              inode := { d.inode with
                linkCounter := (d.inode.linkCounter + 65535) % 65536 + 1
                entries := removeLink d.inode.entries ['.', '.'] ++
                  [⟨['.', '.'], b1.inode.id⟩] }
              childCount :=
                ((d.childCount + 4294967295) % 4294967296 + 1) % 4294967296 })) with
  | none => rfl
  | some blocks =>
    dsimp only [Option.bind]
    cases saveBlocks now s2 blocks 0 <;> rfl

/-- Saving blocks with pairwise different ids, of which at most two (`id1`, `id2`) are not
live yet, on an image with four free blocks: every saved block is fetched afterwards as it
was saved, with the time of its save, and all other ids are fetched as before. -/
theorem saveBlocks_fetch (now : Nat → Nat) (blocks : List Block) (s : FS) (id1 id2 : Nat)
    (hwf : WellFormed s) (hu : s.usedBlocks + 4 ≤ s.logSize)
    (hr : ∀ b, b ∈ blocks → 1 ≤ b.id ∧ b.id ≤ s.logSize)
    (hnd : (blocks.map Block.id).Nodup)
    (hfree : ∀ b, b ∈ blocks → s.bmap[b.id - 1]? = some 0 → b.id = id1 ∨ b.id = id2) :
    ∃ s', saveBlocks now s blocks 0 = some s' ∧
      (∀ b, b ∈ blocks → ∃ t, fetchBlock s' b.id = some (some { b with lastWriteTime := t })) ∧
      (∀ id, (∀ b, b ∈ blocks → id ≠ b.id) → fetchBlock s' id = fetchBlock s id) := by
  have hlen : (blocks.filter (fun b => s.bmap[b.id - 1]? = some 0)).length ≤ 2 := by
    have h1 : ((blocks.filter (fun b => s.bmap[b.id - 1]? = some 0)).map Block.id).Nodup :=
      (List.Sublist.map Block.id (List.filter_sublist blocks)).nodup hnd
    have h2 : (blocks.filter (fun b => s.bmap[b.id - 1]? = some 0)).map Block.id ⊆ [id1, id2] := by
      intro i hi
      obtain ⟨b, hb, rfl⟩ := List.mem_map.mp hi
      rw [List.mem_filter] at hb
      have := hfree b hb.1 (by simpa using hb.2)
      simp only [List.mem_cons, List.mem_singleton, List.not_mem_nil, or_false]
      exact this
    have h3 := (List.subperm_of_subset h1 h2).length_le
    simpa using h3
  obtain ⟨s', hs, -, -, -, -, hf, ho, -⟩ := saveBlocks_distinct now blocks s 0 hwf hr hnd
    (by omega)
  refine ⟨s', hs, ?_, ho⟩
  intro b hb
  obtain ⟨i, hi⟩ := List.getElem?_of_mem hb
  exact ⟨now (0 + i), hf i b hi⟩

/-- The entry lists of a directory can be loaded one by one. -/
theorem loadDirEntryLists_each (c : Constants) (s : FS) :
    ∀ lists : List DirectoryEntryList,
      (∀ l, l ∈ lists → ∃ t, loadDirEntryList c s l.id = some (some { l with lastWriteTime := t })) →
      ∃ lists', loadDirEntryLists c s (lists.map DirectoryEntryList.id) = some (some lists') ∧
        lists'.map DirectoryEntryList.entries = lists.map DirectoryEntryList.entries := by
  intro lists
  induction lists with
  | nil => intro _; exact ⟨[], rfl, rfl⟩
  | cons x rest ih =>
    intro h
    obtain ⟨t, ht⟩ := h x (List.mem_cons_self _ _)
    obtain ⟨rest', hr, hm⟩ := ih (fun l hl => h l (List.mem_cons_of_mem _ hl))
    refine ⟨{ x with lastWriteTime := t } :: rest', ?_, ?_⟩
    · rw [List.map_cons, loadDirEntryLists, ht]
      simp only [hr]
    · rw [List.map_cons, List.map_cons, hm]

/-- Loading a directory that is stored in entry lists: the INode block as saved from the
object `n`, and every entry list loadable with the entries of `lists`. -/
theorem loadDirectory_lists (c : Constants) (u t : Nat) (s : FS) (n : DirectoryINode)
    (lists : List DirectoryEntryList)
    (hex : n.inlined = false) (hty : n.type = INODE_TYPE_DIR)
    (hids : readIds c.MAX_DIRENTRYLISTS_PER_DIR n.dirEntryListIDs = n.dirEntryListIDs)
    (hmap : lists.map DirectoryEntryList.id = n.dirEntryListIDs)
    (hf : fetchBlock s n.id = some (some { n.toBlock with lastWriteTime := t }))
    (hl : ∀ l, l ∈ lists →
      ∃ t, loadDirEntryList c s l.id = some (some { l with lastWriteTime := t })) :
    ∃ d', loadDirectory c u s n.id = some (some d') ∧ d'.inode.inlined = false ∧
      d'.inode.id = n.id ∧ d'.inode.linkCounter = n.linkCounter ∧
      d'.inode.dirEntryListIDs = n.dirEntryListIDs ∧
      d'.links = (lists.map DirectoryEntryList.entries).flatten := by
  obtain ⟨lists', hll, hm⟩ := loadDirEntryLists_each c s lists hl
  rw [hmap] at hll
  have hb : fetchBlock s n.id = some (some ⟨n.id, t,
      .inode n.creationTime n.size_b INODE_TYPE_DIR false n.linkCounter
        (.ids n.dirEntryListIDs)⟩) := by
    rw [hf]
    unfold DirectoryINode.toBlock
    simp only [hex, hty, Bool.false_eq_true, if_false]
    rfl
  rw [← hids] at hll
  have := loadDirectory_external c u s n.id t _ _ _ _ _ hb hll
  refine ⟨_, this, rfl, rfl, rfl, hids, ?_⟩
  unfold Directory.links
  simp only [Bool.false_eq_true, if_false]
  rw [hm]

/-- The saves at the end of `FS::rename`, with what follows from them: when every property of
the image after the saves that is wanted follows from the fetched blocks, the call returns
true with such an image. -/
theorem saveBlocks_finish (now : Nat → Nat) (blocks : List Block) (s : FS) (id1 id2 : Nat)
    (P : FS → Prop)
    (hwf : WellFormed s) (hu : s.usedBlocks + 4 ≤ s.logSize)
    (hr : ∀ b, b ∈ blocks → 1 ≤ b.id ∧ b.id ≤ s.logSize)
    (hnd : (blocks.map Block.id).Nodup)
    (hfree : ∀ b, b ∈ blocks → s.bmap[b.id - 1]? = some 0 → b.id = id1 ∨ b.id = id2)
    (hP : ∀ s',
      (∀ b, b ∈ blocks → ∃ t, fetchBlock s' b.id = some (some { b with lastWriteTime := t })) →
      (∀ id, (∀ b, b ∈ blocks → id ≠ b.id) → fetchBlock s' id = fetchBlock s id) → P s') :
    ∃ s', (saveBlocks now s blocks 0).map (fun s' => (true, s')) = some (true, s') ∧ P s' := by
  obtain ⟨s', hs, hf, ho⟩ := saveBlocks_fetch now blocks s id1 id2 hwf hu hr hnd hfree
  refine ⟨s', ?_, hP s' hf ho⟩
  rw [hs]
  rfl

/-- The moved directory after `rename`: its INode was saved with ".." pointing at the new
parent and with the link counter of before. -/
theorem moved_dir_reloaded (c : Constants) (uT t : Nat) (s s' : FS) (d : Directory) (bid : Nat)
    (hd : loadDirectory c uT s d.inode.id = some (some d)) (hdin : d.inode.inlined = true)
    (hb0 : bid ≠ 0)
    (hdots : findLink d.inode.entries ['.', '.'] ≠ none)
    (hdots1 : findLink (removeLink d.inode.entries ['.', '.']) ['.', '.'] = none)
    (hdlc : 1 ≤ d.inode.linkCounter ∧ d.inode.linkCounter < 65536)
    (hf : fetchBlock s' d.inode.id = some (some
      { ({ d.inode with
            linkCounter := (d.inode.linkCounter + 65535) % 65536 + 1
            entries := removeLink d.inode.entries ['.', '.'] ++ [⟨['.', '.'], bid⟩] } :
          DirectoryINode).toBlock with lastWriteTime := t })) :
    ∀ u, ∃ d', loadDirectory c u s' d.inode.id = some (some d') ∧
      d'.searchHardlink ['.', '.'] = bid ∧ d'.inode.linkCounter = d.inode.linkCounter := by
  obtain ⟨-, hDty, hDlen, -, hDok, -⟩ := loadDirectory_inlined_facts c uT s _ d hd hdin
  have hdrem := removeLink_length_found d.inode.entries ['.', '.'] hdots
  intro u
  have := loadDirectory_saved c u t s'
    ({ d.inode with linkCounter := (d.inode.linkCounter + 65535) % 65536 + 1
                    entries := removeLink d.inode.entries ['.', '.'] ++
                      [⟨['.', '.'], bid⟩] } : DirectoryINode)
    hdin hDty (by rw [List.length_append]; show _ + 1 ≤ _; omega)
    (fun l hl => by
      rcases List.mem_append.1 hl with h | h
      · exact hDok l (removeLink_mem _ _ l h)
      · rw [List.mem_singleton.1 h]
        exact ⟨hb0, (by decide : storedName ['.', '.'] = ['.', '.'])⟩) hf
  refine ⟨_, this, ?_, ?_⟩
  · unfold Directory.searchHardlink
    rw [if_neg (by decide)]
    show (match findLink (removeLink d.inode.entries ['.', '.'] ++
        [⟨['.', '.'], bid⟩]) ['.', '.'] with
      | none => 0 | some h => h.targetINodeBlockID) = bid
    rw [findLink_append_none _ _ _ hdots1 rfl]
  · show (d.inode.linkCounter + 65535) % 65536 + 1 = d.inode.linkCounter
    omega

/-- The old parent after `rename`, stored inline: its INode was saved without the link and
with a link counter one lower. -/
theorem old_parent_reloaded_inline (c : Constants) (uO t : Nat) (s s' : FS) (a : Directory)
    (x : List Char)
    (hla : loadDirectory c uO s a.inode.id = some (some a)) (hain : a.inode.inlined = true)
    (hx : ¬ (x = [] ∨ '/' ∈ x))
    (honce : findLink (removeLink a.links x) x = none)
    (halc : 1 ≤ a.inode.linkCounter ∧ a.inode.linkCounter < 65536)
    (hf : fetchBlock s' a.inode.id = some (some
      { ({ a.inode with
            linkCounter := (a.inode.linkCounter + 65535) % 65536
            entries := removeLink a.inode.entries x } : DirectoryINode).toBlock with
        lastWriteTime := t })) :
    ∀ u, ∃ a', loadDirectory c u s' a.inode.id = some (some a') ∧
      a'.inode.inlined = a.inode.inlined ∧ a'.searchHardlink x = 0 ∧
      a'.links = removeLink a.links x ∧ a'.inode.linkCounter + 1 = a.inode.linkCounter := by
  obtain ⟨-, hAty, hAlen, -, hAok, -⟩ := loadDirectory_inlined_facts c uO s _ a hla hain
  have hlinks : a.links = a.inode.entries := by
    unfold Directory.links
    rw [if_pos hain]
  rw [hlinks] at honce ⊢
  intro u
  have := loadDirectory_saved c u t s'
    ({ a.inode with linkCounter := (a.inode.linkCounter + 65535) % 65536
                    entries := removeLink a.inode.entries x } : DirectoryINode)
    hain hAty (Nat.le_trans (removeLink_length_le _ _) hAlen)
    (fun l hl => hAok l (removeLink_mem _ _ l hl)) hf
  refine ⟨_, this, hain.symm, ?_, rfl, ?_⟩
  · unfold Directory.searchHardlink
    rw [if_neg hx]
    show (match findLink (removeLink a.inode.entries x) x with
      | none => 0 | some h => h.targetINodeBlockID) = 0
    rw [honce]
  · show (a.inode.linkCounter + 65535) % 65536 + 1 = a.inode.linkCounter
    omega

/-- The new parent after `rename`, stored inline with room: its INode was saved with the
new link appended and with a link counter one higher. -/
theorem new_parent_reloaded_inline (c : Constants) (uN t : Nat) (s s' : FS) (b : Directory)
    (x : List Char) (did : Nat)
    (hlb : loadDirectory c uN s b.inode.id = some (some b)) (hbin : b.inode.inlined = true)
    (hx : ¬ (x = [] ∨ '/' ∈ x)) (hxst : storedName x = x) (hd0 : did ≠ 0)
    (hbx : b.searchHardlink x = 0)
    (hbroom : b.inode.entries.length < c.MAX_LINKS_PER_DIRENTRYLIST)
    (hf : fetchBlock s' b.inode.id = some (some
      { ({ b.inode with
            linkCounter := b.inode.linkCounter + 1
            entries := b.inode.entries ++ [⟨x, did⟩] } : DirectoryINode).toBlock with
        lastWriteTime := t })) :
    ∀ u, ∃ b', loadDirectory c u s' b.inode.id = some (some b') ∧
      b'.searchHardlink x = did ∧ b'.links = b.links ++ [⟨x, did⟩] ∧
      b'.inode.linkCounter = b.inode.linkCounter + 1 := by
  obtain ⟨-, hBty, hBlen, -, hBok, -⟩ := loadDirectory_inlined_facts c uN s _ b hlb hbin
  have hbnone : findLink b.inode.entries x = none :=
    searchHardlink_zero_inlined b x hbin hx (fun l hl => (hBok l hl).1) hbx
  have hlinks : b.links = b.inode.entries := by
    unfold Directory.links
    rw [if_pos hbin]
  rw [hlinks]
  intro u
  have := loadDirectory_saved c u t s'
    ({ b.inode with linkCounter := b.inode.linkCounter + 1
                    entries := b.inode.entries ++ [⟨x, did⟩] } : DirectoryINode)
    hbin hBty (by rw [List.length_append]; exact hbroom)
    (fun l hl => by
      rcases List.mem_append.1 hl with h | h
      · exact hBok l h
      · rw [List.mem_singleton.1 h]
        exact ⟨hd0, hxst⟩) hf
  refine ⟨_, this, ?_, rfl, rfl⟩
  unfold Directory.searchHardlink
  rw [if_neg hx]
  show (match findLink (b.inode.entries ++ [⟨x, did⟩]) x with
    | none => 0 | some h => h.targetINodeBlockID) = did
  rw [findLink_append_none _ _ _ hbnone rfl]

/-- The new parent after `rename`, converted from a full inline INode to two entry lists:
the first list holds the entries of before, the second one the new link. -/
theorem new_parent_reloaded_converted (c : Constants) (uN t t1 t2 : Nat) (s s' : FS)
    (b : Directory) (x : List Char) (did id1 id2 : Nat)
    (hlb : loadDirectory c uN s b.inode.id = some (some b)) (hbin : b.inode.inlined = true)
    (hx : ¬ (x = [] ∨ '/' ∈ x)) (hxst : storedName x = x) (hd0 : did ≠ 0)
    (hbx : b.searchHardlink x = 0)
    (hM : 0 < c.MAX_LINKS_PER_DIRENTRYLIST) (hL : 2 ≤ c.MAX_DIRENTRYLISTS_PER_DIR)
    (hid : id1 ≠ 0 ∧ id2 ≠ 0)
    (hf : fetchBlock s' b.inode.id = some (some
      { ({ b.inode with
            inlined := false, entries := [], dirEntryListIDs := [id1, id2]
            linkCounter := b.inode.linkCounter + 1 } : DirectoryINode).toBlock with
        lastWriteTime := t }))
    (hf1 : fetchBlock s' id1 = some (some
      { (⟨id1, 0, b.inode.entries⟩ : DirectoryEntryList).toBlock with lastWriteTime := t1 }))
    (hf2 : fetchBlock s' id2 = some (some
      { (⟨id2, 0, [⟨x, did⟩]⟩ : DirectoryEntryList).toBlock with lastWriteTime := t2 })) :
    ∀ u, ∃ b', loadDirectory c u s' b.inode.id = some (some b') ∧
      b'.searchHardlink x = did ∧ b'.links = b.links ++ [⟨x, did⟩] ∧
      b'.inode.linkCounter = b.inode.linkCounter + 1 := by
  obtain ⟨-, hBty, hBlen, -, hBok, -⟩ := loadDirectory_inlined_facts c uN s _ b hlb hbin
  have hbnone : findLink b.inode.entries x = none :=
    searchHardlink_zero_inlined b x hbin hx (fun l hl => (hBok l hl).1) hbx
  have hlinks : b.links = b.inode.entries := by
    unfold Directory.links
    rw [if_pos hbin]
  rw [hlinks]
  intro u
  obtain ⟨b', hb', hex', -, hlc', -, hl'⟩ := loadDirectory_lists c u t s'
    ({ b.inode with inlined := false, entries := [], dirEntryListIDs := [id1, id2]
                    linkCounter := b.inode.linkCounter + 1 } : DirectoryINode)
    [⟨id1, 0, b.inode.entries⟩, ⟨id2, 0, [⟨x, did⟩]⟩] rfl hBty
    (by
      show readIds c.MAX_DIRENTRYLISTS_PER_DIR [id1, id2] = [id1, id2]
      unfold readIds
      rw [List.take_of_length_le (by simpa using hL)]
      simp [hid.1, hid.2])
    rfl hf
    (by
      intro l hl
      simp only [List.mem_cons, List.mem_singleton, List.not_mem_nil, or_false] at hl
      rcases hl with rfl | rfl
      · exact ⟨t1, loadDirEntryList_saved c s' ⟨id1, 0, b.inode.entries⟩ t1 hBlen hBok hf1⟩
      · refine ⟨t2, loadDirEntryList_saved c s' ⟨id2, 0, [⟨x, did⟩]⟩ t2
          (by simpa using hM) ?_ hf2⟩
        intro h hh
        rw [List.mem_singleton.1 hh]
        exact ⟨hd0, hxst⟩)
  have hl2 : b'.links = b.inode.entries ++ [⟨x, did⟩] := by
    rw [hl']
    simp
  refine ⟨b', hb', ?_, hl2, hlc'⟩
  rw [searchHardlink_links b' x hx, hl2, findLink_append_none _ _ _ hbnone rfl]
  rfl

/-- The old parent after `rename`, stored in entry lists: its INode was saved with a link
counter one lower, the entry list `l` that held the link was saved without it, and the
other entry lists are as before. -/
theorem old_parent_reloaded_lists (c : Constants) (uO t1 t2 : Nat) (s s' : FS) (a : Directory)
    (x : List Char) (pre post : List DirectoryEntryList) (l : DirectoryEntryList)
    (hla : loadDirectory c uO s a.inode.id = some (some a)) (hex : a.inode.inlined = false)
    (hnd : a.inode.dirEntryListIDs.Nodup)
    (hx : ¬ (x = [] ∨ '/' ∈ x))
    (hsplit : a.entryLists = pre ++ l :: post)
    (hpre : ∀ y, y ∈ pre → findLink y.entries x = none)
    (hl : findLink l.entries x ≠ none)
    (honce : findLink (removeLink a.links x) x = none)
    (halc : 1 ≤ a.inode.linkCounter ∧ a.inode.linkCounter < 65536)
    (hf1 : fetchBlock s' a.inode.id = some (some
      { ({ a.inode with linkCounter := (a.inode.linkCounter + 65535) % 65536 } :
          DirectoryINode).toBlock with lastWriteTime := t1 }))
    (hf2 : fetchBlock s' l.id = some (some
      { ({ l with entries := removeLink l.entries x } : DirectoryEntryList).toBlock with
        lastWriteTime := t2 }))
    (hrest : ∀ id, id ∈ a.inode.dirEntryListIDs → id ≠ l.id →
      fetchBlock s' id = fetchBlock s id) :
    ∀ u, ∃ a', loadDirectory c u s' a.inode.id = some (some a') ∧
      a'.inode.inlined = a.inode.inlined ∧ a'.searchHardlink x = 0 ∧
      a'.links = removeLink a.links x ∧ a'.inode.linkCounter + 1 = a.inode.linkCounter := by
  obtain ⟨P, hP⟩ : ∃ P, a.inode.id = P := ⟨_, rfl⟩
  rw [hP] at hla hf1
  obtain ⟨lwt, ct, sz, lc, h1 | h1⟩ := loadDirectory_inv c uO s P a hla
  · obtain ⟨raw, -, rfl⟩ := h1
    cases hex
  obtain ⟨raw, lists, hbP, hll, rfl⟩ := h1
  generalize hids : readIds c.MAX_DIRENTRYLISTS_PER_DIR raw = ids at *
  have hF2 := loadDirEntryLists_inv c s ids lists hll
  have hmap := forall2_load_ids c s ids lists hF2
  have hmem := forall2_load_mem c s ids lists hF2
  have e1 : lists = pre ++ l :: post := hsplit
  have hlmem : l ∈ lists := by
    rw [e1]
    exact List.mem_append_right _ (List.mem_cons_self _ _)
  obtain ⟨tl, rawl, hfl, hleq⟩ := loadDirEntryList_inv c s l.id l (hmem l hlmem)
  have hnd' : (pre.map DirectoryEntryList.id ++ l.id :: post.map DirectoryEntryList.id).Nodup := by
    have : lists.map DirectoryEntryList.id =
        pre.map DirectoryEntryList.id ++ l.id :: post.map DirectoryEntryList.id := by
      rw [e1, List.map_append, List.map_cons]
    rw [← this, hmap]
    exact hnd
  have hpre' : ∀ y, y ∈ pre → y.id ≠ l.id := by
    intro y hy heq
    have h1 := (List.nodup_append.mp hnd').2.2
    exact h1 (List.mem_map.mpr ⟨y, hy, rfl⟩) (by rw [heq]; exact List.mem_cons_self _ _)
  have hpost' : ∀ y, y ∈ post → y.id ≠ l.id := by
    intro y hy heq
    have h1 := (List.nodup_cons.mp (List.nodup_append.mp hnd').2.1).1
    exact h1 (by rw [← heq]; exact List.mem_map.mpr ⟨y, hy, rfl⟩)
  have hkeepload : ∀ y, y ∈ lists → y.id ≠ l.id →
      ∃ t, loadDirEntryList c s' y.id = some (some { y with lastWriteTime := t }) := by
    intro y hy hne
    have hyin : y.id ∈ ids := by
      rw [← hmap]
      exact List.mem_map.mpr ⟨y, hy, rfl⟩
    refine ⟨y.lastWriteTime, ?_⟩
    rw [loadDirEntryList_congr c s s' y.id (hrest y.id hyin hne)]
    exact hmem y hy
  have hlinks : Directory.links ⟨⟨⟨P, lwt, ct, sz, INODE_TYPE_DIR, false, lc⟩, [], ids⟩,
      lists.foldl (fun n l => (n + l.entries.length) % 4294967296) uO, lists⟩ =
      (lists.map DirectoryEntryList.entries).flatten := by
    unfold Directory.links
    simp only [Bool.false_eq_true, if_false]
  rw [hlinks] at honce ⊢
  intro u
  obtain ⟨a', ha', hex', -, hlc', -, hl'⟩ := loadDirectory_lists c u t1 s'
    ({ (⟨⟨P, lwt, ct, sz, INODE_TYPE_DIR, false, lc⟩, [], ids⟩ : DirectoryINode) with
        linkCounter := (lc + 65535) % 65536 } : DirectoryINode)
    (pre ++ ({ l with entries := removeLink l.entries x } : DirectoryEntryList) :: post)
    rfl rfl
    (by
      show readIds c.MAX_DIRENTRYLISTS_PER_DIR ids = ids
      rw [← hids, readIds_idem])
    (by
      show _ = ids
      rw [← hmap, e1]
      simp only [List.map_append, List.map_cons])
    hf1
    (by
      intro y hy
      rcases List.mem_append.1 hy with h | h
      · exact hkeepload y (by rw [e1]; exact List.mem_append_left _ h) (hpre' y h)
      · rcases List.mem_cons.1 h with h | h
        · subst h
          obtain ⟨q1, q2⟩ := readLinks_ok_remove c rawl x
          have hent : l.entries = readLinks c.MAX_LINKS_PER_DIRENTRYLIST rawl := by
            rw [hleq]
          exact ⟨t2, loadDirEntryList_saved c s'
            ({ l with entries := removeLink l.entries x } : DirectoryEntryList) t2
            (by rw [hent]; exact q1) (by rw [hent]; exact q2) hf2⟩
        · exact hkeepload y (by
            rw [e1]
            exact List.mem_append_right _ (List.mem_cons_of_mem _ h)) (hpost' y h))
  have hl2 : a'.links = removeLink (lists.map DirectoryEntryList.entries).flatten x := by
    rw [hl', flatten_entries_remove pre post l x hpre hl, e1]
  refine ⟨a', ha', hex', ?_, hl2, ?_⟩
  · rw [searchHardlink_links a' x hx, hl2, honce]
    rfl
  · rw [hlc']
    show (lc + 65535) % 65536 + 1 = lc
    have : 1 ≤ lc ∧ lc < 65536 := halc
    omega

/-- The entry lists of a loaded directory that is stored in entry lists are the lists
behind the ids of its INode. -/
theorem loadDirectory_lists_loaded (c : Constants) (u : Nat) (s : FS) (a : Directory)
    (hla : loadDirectory c u s a.inode.id = some (some a)) (hex : a.inode.inlined = false) :
    (∀ y, y ∈ a.entryLists →
      loadDirEntryList c s y.id = some (some y) ∧ y.id ∈ a.inode.dirEntryListIDs) ∧
    (∀ id, id ∈ a.inode.dirEntryListIDs → ∃ y, y ∈ a.entryLists ∧ y.id = id) := by
  obtain ⟨P, hP⟩ : ∃ P, a.inode.id = P := ⟨_, rfl⟩
  rw [hP] at hla
  obtain ⟨lwt, ct, sz, lc, h1 | h1⟩ := loadDirectory_inv c u s P a hla
  · obtain ⟨raw, -, rfl⟩ := h1
    cases hex
  obtain ⟨raw, lists, -, hll, rfl⟩ := h1
  have hF2 := loadDirEntryLists_inv c s _ lists hll
  have hmap := forall2_load_ids c s _ lists hF2
  have hmem := forall2_load_mem c s _ lists hF2
  constructor
  · intro y hy
    refine ⟨hmem y hy, ?_⟩
    show y.id ∈ readIds c.MAX_DIRENTRYLISTS_PER_DIR raw
    rw [← hmap]
    exact List.mem_map.mpr ⟨y, hy, rfl⟩
  · intro id hid
    have hid' : id ∈ readIds c.MAX_DIRENTRYLISTS_PER_DIR raw := hid
    rw [← hmap] at hid'
    obtain ⟨y, hy, rfl⟩ := List.mem_map.mp hid'
    exact ⟨y, hy, rfl⟩

/-- An id that is loaded as a directory INode is not the id of an entry list. -/
theorem inode_ne_list (c : Constants) (u : Nat) (s : FS) (i j : Nat) (a : Directory)
    (l : DirectoryEntryList) (hla : loadDirectory c u s i = some (some a))
    (hl : loadDirEntryList c s j = some (some l)) : i ≠ j := by
  rintro rfl
  obtain ⟨t, raw, hf, -⟩ := loadDirEntryList_inv c s i l hl
  obtain ⟨lwt, ct, sz, lc, h1 | h1⟩ := loadDirectory_inv c u s i a hla
  · obtain ⟨raw', hb, -⟩ := h1
    rw [hf] at hb
    cases hb
  · obtain ⟨raw', lists, hb, -, -⟩ := h1
    rw [hf] at hb
    cases hb

/-- A loaded inlined directory object has no entry list. -/
theorem loadDirectory_inlined_lists (c : Constants) (u : Nat) (s : FS) (id : Nat)
    (a : Directory) (hla : loadDirectory c u s id = some (some a))
    (hain : a.inode.inlined = true) :
    a.entryLists = [] ∧ a.inode.dirEntryListIDs = [] := by
  obtain ⟨lwt, ct, sz, lc, h1 | h1⟩ := loadDirectory_inv c u s id a hla
  · obtain ⟨raw, -, rfl⟩ := h1
    exact ⟨rfl, rfl⟩
  · obtain ⟨raw, lists, -, -, rfl⟩ := h1
    cases hain

/-- A name that a loaded directory resolves to a nonzero id is a valid link name, and it is
stored unchanged. -/
theorem searchHardlink_stored (c : Constants) (u : Nat) (s : FS) (id : Nat) (a : Directory)
    (x : List Char) (hla : loadDirectory c u s id = some (some a))
    (h : a.searchHardlink x ≠ 0) :
    ¬ (x = [] ∨ '/' ∈ x) ∧ storedName x = x := by
  have hx : ¬ (x = [] ∨ '/' ∈ x) := by
    intro hv
    apply h
    unfold Directory.searchHardlink
    rw [if_pos hv]
  refine ⟨hx, ?_⟩
  rw [searchHardlink_links a x hx] at h
  cases hf : findLink a.links x with
  | none =>
    rw [hf] at h
    exact absurd rfl h
  | some lk =>
    unfold findLink at hf
    have hmem : lk ∈ a.links := List.mem_of_find?_eq_some hf
    have hname : lk.linkName = x := by simpa using List.find?_some hf
    rw [← hname]
    obtain ⟨lwt, ct, sz, lc, h1 | h1⟩ := loadDirectory_inv c u s id a hla
    · obtain ⟨raw, -, rfl⟩ := h1
      exact (readLinks_mem _ _ lk hmem).2
    · obtain ⟨raw, lists, -, hll, rfl⟩ := h1
      have hF2 := loadDirEntryLists_inv c s _ lists hll
      have hmem2 := forall2_load_mem c s _ lists hF2
      have hm : lk ∈ (lists.map DirectoryEntryList.entries).flatten := hmem
      rw [List.mem_flatten] at hm
      obtain ⟨es, hes, hlk⟩ := hm
      obtain ⟨y, hy, rfl⟩ := List.mem_map.mp hes
      obtain ⟨t, rawy, -, hyeq⟩ := loadDirEntryList_inv c s y.id y (hmem2 y hy)
      rw [hyeq] at hlk
      exact (readLinks_mem _ _ lk hlk).2

/-- The pointers that `FS::rename` collects when the old parent is stored in entry lists
and the new parent takes the link inline. -/
theorem renameChanges_list (k : Nat) :
    addUnique (addUnique (addUnique ([Ref.target, Ref.list k].map oldParentRef)
        ([Ref.target, Ref.primary].map newParentRef))
        [RenameRef.oldParentINode, RenameRef.targetINode])
        [RenameRef.newParentINode, RenameRef.targetINode] =
      [RenameRef.targetINode, RenameRef.oldParentList k, RenameRef.newParentINode,
        RenameRef.oldParentINode] := by
  simp [addUnique, oldParentRef, newParentRef]

/-- The pointers that `FS::rename` collects when the old parent is stored inline and the
new parent is converted to entry lists. -/
theorem renameChanges_convert :
    addUnique (addUnique (addUnique ([Ref.target, Ref.primary].map oldParentRef)
        ([Ref.target, Ref.primary, Ref.list 0, Ref.primary, Ref.list 1].map newParentRef))
        [RenameRef.oldParentINode, RenameRef.targetINode])
        [RenameRef.newParentINode, RenameRef.targetINode] =
      [RenameRef.targetINode, RenameRef.oldParentINode, RenameRef.newParentINode,
        RenameRef.newParentList 0, RenameRef.newParentList 1] := by
  decide

/-- The pointers that `FS::rename` collects when the old parent is stored in entry lists
and the new parent is converted to entry lists. -/
theorem renameChanges_list_convert (k : Nat) :
    addUnique (addUnique (addUnique ([Ref.target, Ref.list k].map oldParentRef)
        ([Ref.target, Ref.primary, Ref.list 0, Ref.primary, Ref.list 1].map newParentRef))
        [RenameRef.oldParentINode, RenameRef.targetINode])
        [RenameRef.newParentINode, RenameRef.targetINode] =
      [RenameRef.targetINode, RenameRef.oldParentList k, RenameRef.newParentINode,
        RenameRef.newParentList 0, RenameRef.newParentList 1, RenameRef.oldParentINode] := by
  simp [addUnique, oldParentRef, newParentRef]

/-- The pointers of the all-inline case, in the form of `renameOtherParent_dir`. -/
theorem renameChanges_inline :
    addUnique (addUnique (addUnique ([Ref.target, Ref.primary].map oldParentRef)
        ([Ref.target, Ref.primary].map newParentRef))
        [RenameRef.oldParentINode, RenameRef.targetINode])
        [RenameRef.newParentINode, RenameRef.targetINode] =
      [RenameRef.targetINode, RenameRef.oldParentINode, RenameRef.newParentINode] := by
  decide

/-- The checks of `FS::rename` before the two branches, for a moved directory below two
different parents. -/
theorem rename_eq_other (c : Constants) (pu : PathUtils) (uO uN uT : Nat)
    (now : Nat → Nat) (s : FS) (src dst x : List Char) (a b d : Directory)
    (hwf : WellFormed s) (hu : s.usedBlocks + 5 ≤ s.logSize)
    (hhs : (pu.normalizePath src).head? = some '/')
    (hhd : (pu.normalizePath dst).head? = some '/')
    (hpre : ¬ (pu.normalizePath src <+: pu.normalizePath dst ∧
      (pu.normalizePath dst).length > (pu.normalizePath src).length))
    (hspa : searchParent c pu uO s (pu.normalizePath src) = some (some a))
    (hspb : searchParent c pu uN s (pu.normalizePath dst) = some (some b))
    (hxs : pu.lastName (pu.normalizePath src) = x)
    (hxd : pu.lastName (pu.normalizePath dst) = x)
    (hdin : d.inode.inlined = true)
    (hab : a.inode.id ≠ b.inode.id)
    (hax : a.searchHardlink x = d.inode.id)
    (hbx : b.searchHardlink x = 0)
    (hd : loadDirectory c uT s d.inode.id = some (some d)) :
    rename c pu uO uN uT now s src dst = renameOtherParent c now s a b (.dir d) x x := by
  obtain ⟨hD1, hD2, -⟩ := loadDirectory_live c uT s _ d hd
  obtain ⟨-, -, -, -, -, hpeek⟩ := loadDirectory_inlined_facts c uT s _ d hd hdin
  have hd0 : d.inode.id ≠ 0 := by omega
  obtain ⟨hwfc, hL, -⟩ := id hwf
  have hmod : (s.usedBlocks + 5) % 4294967296 = s.usedBlocks + 5 :=
    Nat.mod_eq_of_lt (by omega)
  unfold rename
  simp only [hhs, hhd, hmod, hspa, hspb, hxs, hxd, hax, hbx, hpeek, hd]
  rw [if_neg (by simp), if_neg (by omega), if_neg hpre, if_neg hd0, if_neg (by simp),
    if_neg (by simp), if_pos trivial]
  show (if a.inode.id = b.inode.id then renameSameParent c now s a b (.dir d) x x
    else renameOtherParent c now s a b (.dir d) x x) = _
  rw [if_neg hab]

/-- The blocks behind the pointers of the all-inline case. -/
theorem resolveRename_inline (A B D : Directory) :
    [RenameRef.targetINode, RenameRef.oldParentINode, RenameRef.newParentINode].mapM
      (resolveRenameRef A B (.dir D)) =
      some [D.inode.toBlock, A.inode.toBlock, B.inode.toBlock] := rfl

/-- The blocks behind the pointers when the old parent is stored in entry lists. -/
theorem resolveRename_list (A B D : Directory) (pre post : List DirectoryEntryList)
    (l : DirectoryEntryList) (h : A.entryLists = pre ++ l :: post) :
    [RenameRef.targetINode, RenameRef.oldParentList pre.length, RenameRef.newParentINode,
      RenameRef.oldParentINode].mapM (resolveRenameRef A B (.dir D)) =
      some [D.inode.toBlock, l.toBlock, B.inode.toBlock, A.inode.toBlock] := by
  have : A.entryLists[pre.length]? = some l := by
    rw [h, List.getElem?_append_right (Nat.le_refl _), Nat.sub_self]
    exact List.getElem?_cons_zero
  rw [List.mapM_cons, List.mapM_cons, List.mapM_cons, List.mapM_cons, List.mapM_nil]
  simp only [resolveRenameRef, this, Option.map_some', Option.pure_def, Option.bind_eq_bind,
    Option.some_bind]

/-- The blocks behind the pointers when the new parent was converted to entry lists. -/
theorem resolveRename_convert (A B D : Directory) (L1 L2 : DirectoryEntryList)
    (h : B.entryLists = [L1, L2]) :
    [RenameRef.targetINode, RenameRef.oldParentINode, RenameRef.newParentINode,
      RenameRef.newParentList 0, RenameRef.newParentList 1].mapM
      (resolveRenameRef A B (.dir D)) =
      some [D.inode.toBlock, A.inode.toBlock, B.inode.toBlock, L1.toBlock, L2.toBlock] := by
  obtain ⟨i, cc, ls⟩ := B
  simp only at h
  subst h
  rfl

/-- The blocks behind the pointers when the old parent is stored in entry lists and the
new parent was converted to entry lists. -/
theorem resolveRename_list_convert (A B D : Directory) (pre post : List DirectoryEntryList)
    (l L1 L2 : DirectoryEntryList) (h : A.entryLists = pre ++ l :: post)
    (hB : B.entryLists = [L1, L2]) :
    [RenameRef.targetINode, RenameRef.oldParentList pre.length, RenameRef.newParentINode,
      RenameRef.newParentList 0, RenameRef.newParentList 1,
      RenameRef.oldParentINode].mapM (resolveRenameRef A B (.dir D)) =
      some [D.inode.toBlock, l.toBlock, B.inode.toBlock, L1.toBlock, L2.toBlock,
        A.inode.toBlock] := by
  have : A.entryLists[pre.length]? = some l := by
    rw [h, List.getElem?_append_right (Nat.le_refl _), Nat.sub_self]
    exact List.getElem?_cons_zero
  have h0 : B.entryLists[0]? = some L1 := by rw [hB]; rfl
  have h1 : B.entryLists[1]? = some L2 := by rw [hB]; rfl
  rw [List.mapM_cons, List.mapM_cons, List.mapM_cons, List.mapM_cons, List.mapM_cons,
    List.mapM_cons, List.mapM_nil]
  simp only [resolveRenameRef, this, h0, h1, Option.map_some', Option.pure_def,
    Option.bind_eq_bind, Option.some_bind]

/-- C21 (amended): `rename` of a directory `x` from the directory `a` to another directory
`b`, on a well-formed image with at least five free blocks.  `a`, `b` and `d` are the
directory objects of the two parents and of the moved directory.  `a` is stored inline, or
in entry lists with pairwise different ids where the list that holds `x` keeps another
entry; `b` is stored inline, with room for one more entry or full (it is then converted to
two new entry lists); `d` is stored inline.  `b` has no entry `x` and a link counter below
65535, `x` occurs once in `a`, the moved directory has one ".." entry, and the link
counters of `a` and `d` are in `[1, 65535]`.  The call returns true; afterwards `a` is
persisted without `x` and with a link counter one lower, `b` maps `x` to the id of the
moved directory, lists it after its links of before and has a link counter one higher, and
the moved directory maps ".." to `b` and has its link counter of before. -/
theorem rename_moves_directory (c : Constants) (pu : PathUtils) (uO uN uT : Nat)
    (now : Nat → Nat) (s : FS) (src dst x : List Char) (a b d : Directory)
    (hwf : WellFormed s) (hu : s.usedBlocks + 5 ≤ s.logSize)
    (hc : 0 < c.MAX_LINKS_PER_DIRENTRYLIST ∧
      c.MAX_LINKS_PER_DIRENTRYLIST < c.MAX_HARDLINKS_PER_DIR ∧
      c.MAX_HARDLINKS_PER_DIR < 4294967296 ∧ 2 ≤ c.MAX_DIRENTRYLISTS_PER_DIR)
    (hhs : (pu.normalizePath src).head? = some '/')
    (hhd : (pu.normalizePath dst).head? = some '/')
    (hpre : ¬ (pu.normalizePath src <+: pu.normalizePath dst ∧
      (pu.normalizePath dst).length > (pu.normalizePath src).length))
    (hspa : searchParent c pu uO s (pu.normalizePath src) = some (some a))
    (hspb : searchParent c pu uN s (pu.normalizePath dst) = some (some b))
    (hxs : pu.lastName (pu.normalizePath src) = x)
    (hxd : pu.lastName (pu.normalizePath dst) = x)
    (ha : a.inode.inlined = true ∨
      (a.inode.dirEntryListIDs.Nodup ∧
        ∀ l, l ∈ a.entryLists → findLink l.entries x ≠ none → 2 ≤ l.entries.length))
    (hbin : b.inode.inlined = true) (hdin : d.inode.inlined = true)
    (hab : a.inode.id ≠ b.inode.id)
    (hax : a.searchHardlink x = d.inode.id)
    (honce : findLink (removeLink a.links x) x = none)
    (hbx : b.searchHardlink x = 0)
    (hd : loadDirectory c uT s d.inode.id = some (some d))
    (hda : d.inode.id ≠ a.inode.id) (hdb : d.inode.id ≠ b.inode.id)
    (hblc : b.inode.linkCounter < 65535)
    (hdots : findLink d.inode.entries ['.', '.'] ≠ none)
    (hdots1 : findLink (removeLink d.inode.entries ['.', '.']) ['.', '.'] = none)
    (hdlc : 1 ≤ d.inode.linkCounter ∧ d.inode.linkCounter < 65536)
    (halc : 1 ≤ a.inode.linkCounter ∧ a.inode.linkCounter < 65536) :
    ∃ s', rename c pu uO uN uT now s src dst = some (true, s') ∧
      (∀ u, ∃ a', loadDirectory c u s' a.inode.id = some (some a') ∧
        a'.inode.inlined = a.inode.inlined ∧ a'.searchHardlink x = 0 ∧
        a'.links = removeLink a.links x ∧
        a'.inode.linkCounter + 1 = a.inode.linkCounter) ∧
      (∀ u, ∃ b', loadDirectory c u s' b.inode.id = some (some b') ∧
        b'.searchHardlink x = d.inode.id ∧
        b'.links = b.links ++ [⟨x, d.inode.id⟩] ∧
        b'.inode.linkCounter = b.inode.linkCounter + 1) ∧
      (∀ u, ∃ d', loadDirectory c u s' d.inode.id = some (some d') ∧
        d'.searchHardlink ['.', '.'] = b.inode.id ∧
        d'.inode.linkCounter = d.inode.linkCounter) := by
  have hla := searchParent_loaded c pu uO s _ a hspa
  have hlb := searchParent_loaded c pu uN s _ b hspb
  obtain ⟨hA1, hA2, hAlive⟩ := loadDirectory_live c uO s _ a hla
  obtain ⟨hB1, hB2, hBlive⟩ := loadDirectory_live c uN s _ b hlb
  obtain ⟨hD1, hD2, hDlive⟩ := loadDirectory_live c uT s _ d hd
  obtain ⟨-, hBty, hBlen, hBcc, hBok, -⟩ := loadDirectory_inlined_facts c uN s _ b hlb hbin
  obtain ⟨-, hDty, hDlen, hDcc, hDok, -⟩ := loadDirectory_inlined_facts c uT s _ d hd hdin
  have hBl := loadDirectory_inlined_lists c uN s _ b hlb hbin
  have hd0 : d.inode.id ≠ 0 := by omega
  have hb0 : b.inode.id ≠ 0 := by omega
  obtain ⟨hx, hxst⟩ := searchHardlink_stored c uO s _ a x hla (by rw [hax]; exact hd0)
  have hdrem := removeLink_length_found d.inode.entries ['.', '.'] hdots
  obtain ⟨hM, hMH, hH, hDL⟩ := hc
  rw [rename_eq_other c pu uO uN uT now s src dst x a b d hwf hu hhs hhd hpre hspa hspb hxs hxd
    hdin hab hax hbx hd]
  have hbcc : b.childCount ≠ c.MAX_HARDLINKS_PER_DIR := by omega
  have hblc' : b.inode.linkCounter ≠ MAX_NUMBER_OF_LINKS_TO_INODE := by
    unfold MAX_NUMBER_OF_LINKS_TO_INODE
    omega
  have hblc2 : b.inode.linkCounter ≠ 65535 := by omega
  have hdroom : (removeLink d.inode.entries ['.', '.']).length <
      c.MAX_LINKS_PER_DIRENTRYLIST := by omega
  have hdcc : (d.childCount + 4294967295) % 4294967296 ≠ c.MAX_HARDLINKS_PER_DIR := by omega
  have hdt : (decrementLinkCounter d.inode.toINode).linkCounter ≠
      MAX_NUMBER_OF_LINKS_TO_INODE := by
    show (d.inode.linkCounter + 65535) % 65536 ≠ 65535
    omega
  have partD := fun (s' : FS) (t : Nat) hf =>
    moved_dir_reloaded c uT t s s' d b.inode.id hd hdin hb0 hdots hdots1 hdlc hf
  have hfull : ¬ b.inode.entries.length < c.MAX_LINKS_PER_DIRENTRYLIST →
      ∃ id1 id2 nb, b.addHardlink c s (decrementLinkCounter d.inode.toINode) x =
        some ({ s with nextBlockID := nb },
          { b with
            inode := { b.inode with inlined := false, entries := [],
                                    dirEntryListIDs := [id1, id2] }
            entryLists := [⟨id1, 0, b.inode.entries⟩,
              ⟨id2, 0, [⟨x, (decrementLinkCounter d.inode.toINode).id⟩]⟩]
            childCount := (b.childCount + 1) % 4294967296 },
          { decrementLinkCounter d.inode.toINode with
            linkCounter := (decrementLinkCounter d.inode.toINode).linkCounter + 1 },
          [.target, .primary, .list 0, .primary, .list 1]) ∧
        id1 ≠ id2 ∧ 1 ≤ id1 ∧ id1 ≤ s.logSize ∧ 1 ≤ id2 ∧ id2 ≤ s.logSize ∧
        s.bmap[id1 - 1]? = some 0 ∧ s.bmap[id2 - 1]? = some 0 ∧
        WellFormed { s with nextBlockID := nb } := fun hbroom =>
    addHardlink_convert_fresh c s b (decrementLinkCounter d.inode.toINode) x hM (by omega) hbx
      hbcc hdt hbin (by omega) hBl hwf (by omega)
  by_cases hain : a.inode.inlined = true
  · have hrm := rmHardlink_inline s a (MoveTarget.dir d).inode x hx hain
    by_cases hbroom : b.inode.entries.length < c.MAX_LINKS_PER_DIRENTRYLIST
    · have hadd := addHardlink_inline c s b (decrementLinkCounter d.inode.toINode) x hbx hbcc
        hdt hbin hbroom
      rw [renameOtherParent_dir c now s s a b d _ _ x _ _ hbcc hblc' hrm hadd hdin hblc'
        hdots1 hdroom hdcc, renameChanges_inline, resolveRename_inline, Option.some_bind]
      refine saveBlocks_finish now _ s 0 0 _ hwf (by omega) ?_ ?_ ?_ ?_
      · intro blk hblk
        simp only [List.mem_cons, List.mem_singleton, List.not_mem_nil, or_false] at hblk
        rcases hblk with rfl | rfl | rfl
        · exact ⟨hD1, hD2⟩
        · exact ⟨hA1, hA2⟩
        · exact ⟨hB1, hB2⟩
      · show [d.inode.id, a.inode.id, b.inode.id].Nodup
        simp [hda, hdb, hab]
      · intro blk hblk h0
        simp only [List.mem_cons, List.mem_singleton, List.not_mem_nil, or_false] at hblk
        rcases hblk with rfl | rfl | rfl
        · exact absurd h0 hDlive
        · exact absurd h0 hAlive
        · exact absurd h0 hBlive
      · intro s' hf _
        obtain ⟨tD, hfD⟩ := hf _ (List.mem_cons_self _ _)
        obtain ⟨tA, hfA⟩ := hf _ (List.mem_cons_of_mem _ (List.mem_cons_self _ _))
        obtain ⟨tB, hfB⟩ := hf _ (List.mem_cons_of_mem _ (List.mem_cons_of_mem _
          (List.mem_cons_self _ _)))
        dsimp only [decrementLinkCounter] at hfA hfB hfD
        exact ⟨old_parent_reloaded_inline c uO tA s s' a x hla hain hx honce halc hfA,
          new_parent_reloaded_inline c uN tB s s' b x d.inode.id hlb hbin hx hxst hd0 hbx
            hbroom hfB,
          partD s' tD hfD⟩
    · obtain ⟨id1, id2, nb, hadd, hne12, i1a, i1b, i2a, i2b, hfr1, hfr2, hwf2⟩ := hfull hbroom
      rw [renameOtherParent_dir c now s { s with nextBlockID := nb } a b d _ _ x _ _ hbcc hblc'
        hrm hadd hdin hblc' hdots1 hdroom hdcc, renameChanges_convert,
        resolveRename_convert _ _ _ _ _ rfl, Option.some_bind]
      refine saveBlocks_finish now _ { s with nextBlockID := nb } id1 id2 _ hwf2
        (by show s.usedBlocks + 4 ≤ s.logSize; omega) ?_ ?_ ?_ ?_
      · intro blk hblk
        simp only [List.mem_cons, List.mem_singleton, List.not_mem_nil, or_false] at hblk
        rcases hblk with rfl | rfl | rfl | rfl | rfl
        · exact ⟨hD1, hD2⟩
        · exact ⟨hA1, hA2⟩
        · exact ⟨hB1, hB2⟩
        · exact ⟨i1a, i1b⟩
        · exact ⟨i2a, i2b⟩
      · show [d.inode.id, a.inode.id, b.inode.id, id1, id2].Nodup
        have n1 : d.inode.id ≠ id1 := fun h => hDlive (h ▸ hfr1)
        have n2 : d.inode.id ≠ id2 := fun h => hDlive (h ▸ hfr2)
        have n3 : a.inode.id ≠ id1 := fun h => hAlive (h ▸ hfr1)
        have n4 : a.inode.id ≠ id2 := fun h => hAlive (h ▸ hfr2)
        have n5 : b.inode.id ≠ id1 := fun h => hBlive (h ▸ hfr1)
        have n6 : b.inode.id ≠ id2 := fun h => hBlive (h ▸ hfr2)
        simp [hda, hdb, hab, n1, n2, n3, n4, n5, n6, hne12]
      · intro blk hblk h0
        simp only [List.mem_cons, List.mem_singleton, List.not_mem_nil, or_false] at hblk
        rcases hblk with rfl | rfl | rfl | rfl | rfl
        · exact absurd h0 hDlive
        · exact absurd h0 hAlive
        · exact absurd h0 hBlive
        · exact Or.inl rfl
        · exact Or.inr rfl
      · intro s' hf _
        obtain ⟨tD, hfD⟩ := hf _ (List.mem_cons_self _ _)
        obtain ⟨tA, hfA⟩ := hf _ (List.mem_cons_of_mem _ (List.mem_cons_self _ _))
        obtain ⟨tB, hfB⟩ := hf _ (List.mem_cons_of_mem _ (List.mem_cons_of_mem _
          (List.mem_cons_self _ _)))
        obtain ⟨t1, hf1⟩ := hf _ (List.mem_cons_of_mem _ (List.mem_cons_of_mem _
          (List.mem_cons_of_mem _ (List.mem_cons_self _ _))))
        obtain ⟨t2, hf2⟩ := hf _ (List.mem_cons_of_mem _ (List.mem_cons_of_mem _
          (List.mem_cons_of_mem _ (List.mem_cons_of_mem _ (List.mem_cons_self _ _)))))
        dsimp only [decrementLinkCounter] at hfA hfB hfD hf1 hf2
        exact ⟨old_parent_reloaded_inline c uO tA s s' a x hla hain hx honce halc hfA,
          new_parent_reloaded_converted c uN tB t1 t2 s s' b x d.inode.id id1 id2 hlb hbin hx
            hxst hd0 hbx hM hDL ⟨by omega, by omega⟩ hfB hf1 hf2,
          partD s' tD hfD⟩
  · have hex : a.inode.inlined = false := by simpa using hain
    obtain ⟨hnd, hkeep⟩ : a.inode.dirEntryListIDs.Nodup ∧
        ∀ l, l ∈ a.entryLists → findLink l.entries x ≠ none → 2 ≤ l.entries.length := by
      rcases ha with h | h
      · exact absurd h hain
      · exact h
    have hfound : searchLists a.entryLists x ≠ 0 := by
      have : a.searchHardlink x = searchLists a.entryLists x := by
        unfold Directory.searchHardlink
        rw [if_neg hx]
        simp only [hex, Bool.false_eq_true, if_false]
      rw [← this, hax]
      exact hd0
    obtain ⟨pre, l, post, e1, e2, e3, hrm⟩ := rmHardlink_external s a (MoveTarget.dir d).inode x
      hx hex hfound hkeep
    obtain ⟨hLL, hLI⟩ := loadDirectory_lists_loaded c uO s a hla hex
    have hlmem : l ∈ a.entryLists := by
      rw [e1]
      exact List.mem_append_right _ (List.mem_cons_self _ _)
    obtain ⟨hLload, hLin⟩ := hLL l hlmem
    obtain ⟨tl, rawl, hfl, -⟩ := loadDirEntryList_inv c s l.id l hLload
    obtain ⟨hL1, hL2, hLlive, -⟩ := fetchBlock_some s l.id _ hfl
    have nDL : d.inode.id ≠ l.id := inode_ne_list c uT s _ _ d l hd hLload
    have nAL : a.inode.id ≠ l.id := inode_ne_list c uO s _ _ a l hla hLload
    have nBL : b.inode.id ≠ l.id := inode_ne_list c uN s _ _ b l hlb hLload
    have hrest : ∀ (s' : FS),
        (∀ id, id ≠ d.inode.id → id ≠ a.inode.id → id ≠ b.inode.id → id ≠ l.id →
          s.bmap[id - 1]? ≠ some 0 → fetchBlock s' id = fetchBlock s id) →
        ∀ id, id ∈ a.inode.dirEntryListIDs → id ≠ l.id →
          fetchBlock s' id = fetchBlock s id := by
      intro s' h id hid hne
      obtain ⟨y, hy, rfl⟩ := hLI id hid
      obtain ⟨hyl, -⟩ := hLL y hy
      obtain ⟨ty, rawy, hfy, -⟩ := loadDirEntryList_inv c s y.id y hyl
      obtain ⟨-, -, hylive, -⟩ := fetchBlock_some s y.id _ hfy
      exact h y.id (fun e => inode_ne_list c uT s _ _ d y hd hyl e.symm)
        (fun e => inode_ne_list c uO s _ _ a y hla hyl e.symm)
        (fun e => inode_ne_list c uN s _ _ b y hlb hyl e.symm) hne hylive
    by_cases hbroom : b.inode.entries.length < c.MAX_LINKS_PER_DIRENTRYLIST
    · have hadd := addHardlink_inline c s b (decrementLinkCounter d.inode.toINode) x hbx hbcc
        hdt hbin hbroom
      rw [renameOtherParent_dir c now s s a b d _ _ x _ _ hbcc hblc' hrm hadd hdin hblc'
        hdots1 hdroom hdcc, renameChanges_list, resolveRename_list _ _ _ pre post _ rfl,
        Option.some_bind]
      refine saveBlocks_finish now _ s 0 0 _ hwf (by omega) ?_ ?_ ?_ ?_
      · intro blk hblk
        simp only [List.mem_cons, List.mem_singleton, List.not_mem_nil, or_false] at hblk
        rcases hblk with rfl | rfl | rfl | rfl
        · exact ⟨hD1, hD2⟩
        · exact ⟨hL1, hL2⟩
        · exact ⟨hB1, hB2⟩
        · exact ⟨hA1, hA2⟩
      · show [d.inode.id, l.id, b.inode.id, a.inode.id].Nodup
        simp [hda, hdb, hab, nDL, nAL.symm, nBL.symm, Ne.symm hab]
      · intro blk hblk h0
        simp only [List.mem_cons, List.mem_singleton, List.not_mem_nil, or_false] at hblk
        rcases hblk with rfl | rfl | rfl | rfl
        · exact absurd h0 hDlive
        · exact absurd h0 hLlive
        · exact absurd h0 hBlive
        · exact absurd h0 hAlive
      · intro s' hf ho
        obtain ⟨tD, hfD⟩ := hf _ (List.mem_cons_self _ _)
        obtain ⟨tL, hfL⟩ := hf _ (List.mem_cons_of_mem _ (List.mem_cons_self _ _))
        obtain ⟨tB, hfB⟩ := hf _ (List.mem_cons_of_mem _ (List.mem_cons_of_mem _
          (List.mem_cons_self _ _)))
        obtain ⟨tA, hfA⟩ := hf _ (List.mem_cons_of_mem _ (List.mem_cons_of_mem _
          (List.mem_cons_of_mem _ (List.mem_cons_self _ _))))
        dsimp only [decrementLinkCounter] at hfA hfB hfD hfL
        refine ⟨old_parent_reloaded_lists c uO tA tL s s' a x pre post l hla hex hnd hx e1 e2 e3
            honce halc hfA hfL (hrest s' ?_),
          new_parent_reloaded_inline c uN tB s s' b x d.inode.id hlb hbin hx hxst hd0 hbx
            hbroom hfB,
          partD s' tD hfD⟩
        intro id m1 m2 m3 m4 _
        apply ho
        intro blk hblk
        simp only [List.mem_cons, List.mem_singleton, List.not_mem_nil, or_false] at hblk
        rcases hblk with rfl | rfl | rfl | rfl
        · exact m1
        · exact m4
        · exact m3
        · exact m2
    · obtain ⟨id1, id2, nb, hadd, hne12, i1a, i1b, i2a, i2b, hfr1, hfr2, hwf2⟩ := hfull hbroom
      rw [renameOtherParent_dir c now s { s with nextBlockID := nb } a b d _ _ x _ _ hbcc hblc'
        hrm hadd hdin hblc' hdots1 hdroom hdcc, renameChanges_list_convert,
        resolveRename_list_convert _ _ _ pre post _ _ _ rfl rfl, Option.some_bind]
      refine saveBlocks_finish now _ { s with nextBlockID := nb } id1 id2 _ hwf2
        (by show s.usedBlocks + 4 ≤ s.logSize; omega) ?_ ?_ ?_ ?_
      · intro blk hblk
        simp only [List.mem_cons, List.mem_singleton, List.not_mem_nil, or_false] at hblk
        rcases hblk with rfl | rfl | rfl | rfl | rfl | rfl
        · exact ⟨hD1, hD2⟩
        · exact ⟨hL1, hL2⟩
        · exact ⟨hB1, hB2⟩
        · exact ⟨i1a, i1b⟩
        · exact ⟨i2a, i2b⟩
        · exact ⟨hA1, hA2⟩
      · show [d.inode.id, l.id, b.inode.id, id1, id2, a.inode.id].Nodup
        have n1 : d.inode.id ≠ id1 := fun h => hDlive (h ▸ hfr1)
        have n2 : d.inode.id ≠ id2 := fun h => hDlive (h ▸ hfr2)
        have n3 : a.inode.id ≠ id1 := fun h => hAlive (h ▸ hfr1)
        have n4 : a.inode.id ≠ id2 := fun h => hAlive (h ▸ hfr2)
        have n5 : b.inode.id ≠ id1 := fun h => hBlive (h ▸ hfr1)
        have n6 : b.inode.id ≠ id2 := fun h => hBlive (h ▸ hfr2)
        have n7 : l.id ≠ id1 := fun h => hLlive (h ▸ hfr1)
        have n8 : l.id ≠ id2 := fun h => hLlive (h ▸ hfr2)
        simp [hda, hdb, hab, n1, n2, n3.symm, n4.symm, n5, n6, n7, n8, hne12, nDL, nAL.symm,
          nBL.symm, Ne.symm hab]
      · intro blk hblk h0
        simp only [List.mem_cons, List.mem_singleton, List.not_mem_nil, or_false] at hblk
        rcases hblk with rfl | rfl | rfl | rfl | rfl | rfl
        · exact absurd h0 hDlive
        · exact absurd h0 hLlive
        · exact absurd h0 hBlive
        · exact Or.inl rfl
        · exact Or.inr rfl
        · exact absurd h0 hAlive
      · intro s' hf ho
        obtain ⟨tD, hfD⟩ := hf _ (List.mem_cons_self _ _)
        obtain ⟨tL, hfL⟩ := hf _ (List.mem_cons_of_mem _ (List.mem_cons_self _ _))
        obtain ⟨tB, hfB⟩ := hf _ (List.mem_cons_of_mem _ (List.mem_cons_of_mem _
          (List.mem_cons_self _ _)))
        obtain ⟨t1, hf1⟩ := hf _ (List.mem_cons_of_mem _ (List.mem_cons_of_mem _
          (List.mem_cons_of_mem _ (List.mem_cons_self _ _))))
        obtain ⟨t2, hf2⟩ := hf _ (List.mem_cons_of_mem _ (List.mem_cons_of_mem _
          (List.mem_cons_of_mem _ (List.mem_cons_of_mem _ (List.mem_cons_self _ _)))))
        obtain ⟨tA, hfA⟩ := hf _ (List.mem_cons_of_mem _ (List.mem_cons_of_mem _
          (List.mem_cons_of_mem _ (List.mem_cons_of_mem _ (List.mem_cons_of_mem _
            (List.mem_cons_self _ _))))))
        dsimp only [decrementLinkCounter] at hfA hfB hfD hfL hf1 hf2
        refine ⟨old_parent_reloaded_lists c uO tA tL s s' a x pre post l hla hex hnd hx e1 e2 e3
            honce halc hfA hfL (hrest s' ?_),
          new_parent_reloaded_converted c uN tB t1 t2 s s' b x d.inode.id id1 id2 hlb hbin hx
            hxst hd0 hbx hM hDL ⟨by omega, by omega⟩ hfB hf1 hf2,
          partD s' tD hfD⟩
        intro id m1 m2 m3 m4 hlive
        rw [← fetchBlock_congr s { s with nextBlockID := nb } rfl rfl rfl id]
        apply ho
        intro blk hblk
        simp only [List.mem_cons, List.mem_singleton, List.not_mem_nil, or_false] at hblk
        rcases hblk with rfl | rfl | rfl | rfl | rfl | rfl
        · exact m1
        · exact m4
        · exact m3
        · exact fun h => hlive (h ▸ hfr1)
        · exact fun h => hlive (h ▸ hfr2)
        · exact m2

set_option maxRecDepth 1000000 in
theorem rename_moves_directory_witness :
    (∃ s', rename demoConstants specPathUtils 0 0 0 (clockFrom 40) (twoParents 10)
        ['/', 'a', '/', 'x'] ['/', 'b', '/', 'x'] = some (true, s') ∧
      (∀ u, ∃ a', loadDirectory demoConstants u s' 2 = some (some a') ∧
        a'.inode.inlined = true ∧ a'.searchHardlink ['x'] = 0 ∧
        a'.links = [⟨['.'], 2⟩, ⟨['.', '.'], 1⟩] ∧ a'.inode.linkCounter + 1 = 3) ∧
      (∀ u, ∃ b', loadDirectory demoConstants u s' 3 = some (some b') ∧
        b'.searchHardlink ['x'] = 4 ∧
        b'.links = [⟨['.'], 3⟩, ⟨['.', '.'], 1⟩, ⟨['x'], 4⟩] ∧
        b'.inode.linkCounter = 2 + 1) ∧
      (∀ u, ∃ d', loadDirectory demoConstants u s' 4 = some (some d') ∧
        d'.searchHardlink ['.', '.'] = 3 ∧ d'.inode.linkCounter = 2)) ∧
    (∃ s', rename demoConstants specPathUtils 0 0 0 (clockFrom 40) listParent
        ['/', 'a', '/', 'x'] ['/', 'b', '/', 'x'] = some (true, s') ∧
      (∀ u, ∃ a', loadDirectory demoConstants u s' 2 = some (some a') ∧
        a'.inode.inlined = false ∧ a'.searchHardlink ['x'] = 0 ∧
        a'.links = [⟨['.'], 2⟩, ⟨['.', '.'], 1⟩, ⟨['y'], 7⟩] ∧
        a'.inode.linkCounter + 1 = 3) ∧
      (∀ u, ∃ b', loadDirectory demoConstants u s' 3 = some (some b') ∧
        b'.searchHardlink ['x'] = 4 ∧
        b'.links = [⟨['.'], 3⟩, ⟨['.', '.'], 1⟩, ⟨['x'], 4⟩] ∧
        b'.inode.linkCounter = 2 + 1) ∧
      (∀ u, ∃ d', loadDirectory demoConstants u s' 4 = some (some d') ∧
        d'.searchHardlink ['.', '.'] = 3 ∧ d'.inode.linkCounter = 2)) ∧
    (∃ s', rename demoConstants specPathUtils 0 0 0 (clockFrom 40) fullParent
        ['/', 'a', '/', 'x'] ['/', 'b', '/', 'x'] = some (true, s') ∧
      (∀ u, ∃ a', loadDirectory demoConstants u s' 2 = some (some a') ∧
        a'.inode.inlined = true ∧ a'.searchHardlink ['x'] = 0 ∧
        a'.links = [⟨['.'], 2⟩, ⟨['.', '.'], 1⟩] ∧ a'.inode.linkCounter + 1 = 3) ∧
      (∀ u, ∃ b', loadDirectory demoConstants u s' 3 = some (some b') ∧
        b'.searchHardlink ['x'] = 4 ∧
        b'.links = fullParentEntries ++ [⟨['x'], 4⟩] ∧
        b'.inode.linkCounter = 2 + 1) ∧
      (∀ u, ∃ d', loadDirectory demoConstants u s' 4 = some (some d') ∧
        d'.searchHardlink ['.', '.'] = 3 ∧ d'.inode.linkCounter = 2)) ∧
    (rename demoConstants specPathUtils 0 0 0 (clockFrom 40) (twoParents 10)
        ['/', 'a', '/', 'x'] ['/', 'b', '/', 'x']).map (fun r => (r.1,
      (loadDirectory demoConstants 0 r.2 2).map (Option.map (fun d =>
        (d.searchHardlink ['x'], d.inode.linkCounter, d.inode.inlined))),
      (loadDirectory demoConstants 0 r.2 3).map (Option.map (fun d =>
        (d.searchHardlink ['x'], d.inode.linkCounter, d.inode.inlined))),
      (loadDirectory demoConstants 0 r.2 4).map (Option.map (fun d =>
        (d.searchHardlink ['.', '.'], d.inode.linkCounter))))) =
      some (true, some (some (0, 2, true)), some (some (4, 3, true)), some (some (3, 2))) ∧
    (rename demoConstants specPathUtils 0 0 0 (clockFrom 40) listParent
        ['/', 'a', '/', 'x'] ['/', 'b', '/', 'x']).map (fun r => (r.1,
      (loadDirectory demoConstants 0 r.2 2).map (Option.map (fun d =>
        (d.searchHardlink ['x'], d.inode.linkCounter, d.inode.inlined))),
      (loadDirectory demoConstants 0 r.2 3).map (Option.map (fun d =>
        (d.searchHardlink ['x'], d.inode.linkCounter, d.inode.inlined))),
      (loadDirectory demoConstants 0 r.2 4).map (Option.map (fun d =>
        (d.searchHardlink ['.', '.'], d.inode.linkCounter))))) =
      some (true, some (some (0, 2, false)), some (some (4, 3, true)), some (some (3, 2))) ∧
    (rename demoConstants specPathUtils 0 0 0 (clockFrom 40) fullParent
        ['/', 'a', '/', 'x'] ['/', 'b', '/', 'x']).map (fun r => (r.1,
      (loadDirectory demoConstants 0 r.2 2).map (Option.map (fun d =>
        (d.searchHardlink ['x'], d.inode.linkCounter, d.inode.inlined))),
      (loadDirectory demoConstants 0 r.2 3).map (Option.map (fun d =>
        (d.searchHardlink ['x'], d.inode.linkCounter, d.inode.inlined))),
      (loadDirectory demoConstants 0 r.2 4).map (Option.map (fun d =>
        (d.searchHardlink ['.', '.'], d.inode.linkCounter))))) =
      some (true, some (some (0, 2, true)), some (some (4, 3, false)), some (some (3, 2))) :=
  ⟨rename_moves_directory demoConstants specPathUtils 0 0 0 (clockFrom 40) (twoParents 10)
    ['/', 'a', '/', 'x'] ['/', 'b', '/', 'x'] ['x']
    ⟨⟨⟨2, 0, 0, 0, 1, true, 3⟩, [⟨['.'], 2⟩, ⟨['.', '.'], 1⟩, ⟨['x'], 4⟩], []⟩, 3, []⟩
    ⟨⟨⟨3, 0, 0, 0, 1, true, 2⟩, [⟨['.'], 3⟩, ⟨['.', '.'], 1⟩], []⟩, 2, []⟩
    ⟨⟨⟨4, 0, 0, 0, 1, true, 2⟩, [⟨['.'], 4⟩, ⟨['.', '.'], 2⟩], []⟩, 2, []⟩
    (by decide) (by decide) (by decide) (by decide) (by decide) (by decide) (by decide)
    (by decide) (by decide) (by decide) (Or.inl rfl) (by decide) (by decide) (by decide)
    (by decide) (by decide) (by decide) (by decide) (by decide) (by decide) (by decide)
    (by decide) (by decide) (by decide) (by decide),
   rename_moves_directory demoConstants specPathUtils 0 0 0 (clockFrom 40) listParent
    ['/', 'a', '/', 'x'] ['/', 'b', '/', 'x'] ['x']
    ⟨⟨⟨2, 0, 0, 0, 1, false, 3⟩, [], [5, 6]⟩, 4,
      [⟨5, 0, [⟨['.'], 2⟩, ⟨['.', '.'], 1⟩]⟩, ⟨6, 0, [⟨['x'], 4⟩, ⟨['y'], 7⟩]⟩]⟩
    ⟨⟨⟨3, 0, 0, 0, 1, true, 2⟩, [⟨['.'], 3⟩, ⟨['.', '.'], 1⟩], []⟩, 2, []⟩
    ⟨⟨⟨4, 0, 0, 0, 1, true, 2⟩, [⟨['.'], 4⟩, ⟨['.', '.'], 2⟩], []⟩, 2, []⟩
    (by decide) (by decide) (by decide) (by decide) (by decide) (by decide) (by decide)
    (by decide) (by decide) (by decide) (Or.inr ⟨by decide, by decide⟩) (by decide) (by decide)
    (by decide)
    (by decide) (by decide) (by decide) (by decide) (by decide) (by decide) (by decide)
    (by decide) (by decide) (by decide) (by decide),
   rename_moves_directory demoConstants specPathUtils 0 0 0 (clockFrom 40) fullParent
    ['/', 'a', '/', 'x'] ['/', 'b', '/', 'x'] ['x']
    ⟨⟨⟨2, 0, 0, 0, 1, true, 3⟩, [⟨['.'], 2⟩, ⟨['.', '.'], 1⟩, ⟨['x'], 4⟩], []⟩, 3, []⟩
    ⟨⟨⟨3, 0, 0, 0, 1, true, 2⟩, fullParentEntries, []⟩, 127, []⟩
    ⟨⟨⟨4, 0, 0, 0, 1, true, 2⟩, [⟨['.'], 4⟩, ⟨['.', '.'], 2⟩], []⟩, 2, []⟩
    (by decide) (by decide) (by decide) (by decide) (by decide) (by decide) (by decide)
    (by decide) (by decide) (by decide) (Or.inl rfl) (by decide) (by decide) (by decide)
    (by decide) (by decide) (by decide) (by decide) (by decide) (by decide) (by decide)
    (by decide) (by decide) (by decide) (by decide), by rfl, by rfl, by rfl⟩

end SDI4FS
